import Mathlib

/-!
# Memory core of an appearance-based SLAM system (`corelib/src/Memory.cpp`)

A shallow embedding of the tier store (STM / WM / signature table), the link
graph and the word-reference bookkeeping of `rtabmap::Memory`, followed by the
properties proved about it.

Conventions of the embedding

* `std::map<int, V>` and `std::set<int>` are ascending lists; `insert` keeps an
  existing entry (as `std::map::insert` does) and places a new one at its
  sorted position, `erase` removes by key, `begin()` is the head and
  `rbegin()` the last element.
* A `Signature *` is represented by the id of the signature; the signature
  table `_signatures` is the list of the signatures themselves, keyed by
  `Signature.id` (the source only ever inserts `(s->id(), s)`).
* C++ `int` arithmetic on ids and weights is arithmetic in `Int` (signed
  overflow is undefined in the source language and is not modelled).
* A fatal `UASSERT`, a null-pointer dereference and a throwing
  `std::map::at` end an operation with a `Fault`.
* `Transform` and the information matrix of a link are type parameters `T`
  and `I`; their operations are supplied by a `Geometry T I`.
-/

namespace Rtabmap

/-! ## Ordered containers -/

/-- The lookup `std::map::find` / `uValue`: the first entry whose key is `k`. -/
def kfind {α : Type} (key : α → Int) (l : List α) (k : Int) : Option α :=
  l.find? (fun a => key a == k)

/-- Membership test `find(k) != end()` on a keyed container. -/
def khas {α : Type} (key : α → Int) (l : List α) (k : Int) : Bool :=
  (kfind key l k).isSome

/-- Placement of a new entry at its position in ascending key order. -/
def kplace {α : Type} (key : α → Int) (a : α) : List α → List α
  | [] => [a]
  | b :: rest => if key a < key b then a :: b :: rest else b :: kplace key a rest

/-- The insertion `std::map::insert` / `std::set::insert`: an entry whose key is
already present is left as it is, otherwise the new entry is placed in key order. -/
def kinsert {α : Type} (key : α → Int) (a : α) (l : List α) : List α :=
  if khas key l (key a) then l else kplace key a l

/-- The removal `erase(k)`. -/
def kerase {α : Type} (key : α → Int) (k : Int) (l : List α) : List α :=
  l.filter (fun a => key a != k)

/-- In-place update of the entry stored under `k` (a mutation through the
pointer or reference the container holds). -/
def kmodify {α : Type} (key : α → Int) (k : Int) (f : α → α) (l : List α) : List α :=
  l.map (fun a => if key a = k then f a else a)

/-- The key of an entry of a `std::set<int>`: the entry itself. -/
def selfKey (i : Int) : Int := i

/-- Keys ascend strictly: the representation invariant of `std::map`/`std::set`. -/
def KSorted {α : Type} (key : α → Int) (l : List α) : Prop :=
  (l.map key).Pairwise (fun a b => a < b)

/-! ## Faults -/

/-- Ways in which an operation of the source ends without returning. -/
inductive Fault where
  /-- A `UASSERT` / `UASSERT_MSG` whose condition is false (fatal). -/
  | assertion
  /-- A member access through a null `Signature *`. -/
  | nullDereference
  /-- The exception of `std::map::at` on a missing key. -/
  | outOfRange
  /-- A dereference of the `begin()` iterator of an empty container. -/
  | endIterator
  deriving DecidableEq, Repr

/-- The check `UASSERT(c)`. -/
def uassert (c : Bool) : Except Fault Unit :=
  if c then .ok () else .error Fault.assertion

/-! ## Links -/

/-- The enumeration `Link::Type`, with the enumerators the source file uses.
Modelled from the spec: the enumeration is declared outside `Memory.cpp`; the
spec lists the types `Neighbor`, `NeighborMerged`, `GlobalClosure`,
`LocalSpaceClosure`, `VirtualClosure`, `Undef`. -/
inductive LinkType where
  | kNeighbor
  | kNeighborMerged
  | kGlobalClosure
  | kLocalSpaceClosure
  | kVirtualClosure
  | kUndef
  deriving DecidableEq, Repr

/-- The test `type > Link::kNeighbor && type != Link::kUndef` asserted on entry
of `Memory::addLink`. `kNeighbor` is the first enumerator, so every other
enumerator compares greater. -/
def LinkType.isLoopClosure (t : LinkType) : Bool :=
  t != LinkType.kNeighbor && t != LinkType.kUndef

/-- Operations of the classes `Transform` and of the information matrix of a
link. Modelled from the spec: both classes are declared outside `Memory.cpp`;
the spec gives a pose as "6-DoF or null", the inverse of a link as inverting
the transform and `merge` as composing transforms and combining information
matrices. -/
structure Geometry (T I : Type) where
  /-- The null transform `Transform()`. -/
  null : T
  /-- The test `Transform::isNull`. -/
  isNull : T → Bool
  /-- The inverse `Transform::inverse`. -/
  inverse : T → T
  /-- The composition `a * b`. -/
  mul : T → T → T
  /-- The information matrix of a link built without one. -/
  infoDefault : I
  /-- The information matrix of `Link(from, to, type, t, 1, 1)`. -/
  infoUnit : I
  /-- The combination of information matrices in `Link::merge`. -/
  infoMerge : I → I → I

/-- The record `Link`. Modelled from the spec: the class is declared outside
`Memory.cpp`; the spec gives it as the directed record
`(from, to, type, transform, information_matrix, userData)`. -/
structure Link (T I : Type) where
  from_ : Int
  to_ : Int
  type : LinkType
  transform : T
  info : I
  userDataCompressed : List Nat
  deriving DecidableEq, Repr

/-- The inverse of a link. Modelled from the spec: "A link's inverse reverses
`from`/`to` and inverts the transform." -/
def Link.inverse {T I : Type} (g : Geometry T I) (l : Link T I) : Link T I :=
  { l with from_ := l.to_, to_ := l.from_, transform := g.inverse l.transform }

/-- The merge of two links. Modelled from the spec: "composes transforms and
combines information matrices, yielding a link that directly connects `a.from`
to `b.to` with the supplied type"; the new link carries no user data. -/
def Link.merge {T I : Type} (g : Geometry T I) (a b : Link T I) (t : LinkType) : Link T I :=
  { from_ := a.from_, to_ := b.to_, type := t,
    transform := g.mul a.transform b.transform,
    info := g.infoMerge a.info b.info,
    userDataCompressed := [] }

/-! ## Signatures -/

/-- The node `Signature`, restricted to the attributes `Memory.cpp` reads or
writes in the operations below. Modelled from the spec: the class is declared
outside `Memory.cpp`; `links` is its `std::map<int, Link>` keyed by the id of
the peer, `words` the keys of its multimap word-id to keypoint, in key order
and with multiplicity. -/
structure Signature (T I : Type) where
  id : Int
  mapId : Int
  weight : Int
  label : String
  pose : T
  links : List (Link T I)
  words : List Int
  enabled : Bool
  saved : Bool
  deriving DecidableEq, Repr

namespace Signature

variable {T I : Type}

/-- The test `Signature::hasLink(idTo)`. -/
def hasLink (s : Signature T I) (idTo : Int) : Bool :=
  khas Link.to_ s.links idTo

/-- The method `Signature::addLink`. Modelled from the spec: links are stored
on the node "as `(peer_id, payload)` pairs"; the link is entered under the id
of its target. -/
def addLink (s : Signature T I) (l : Link T I) : Signature T I :=
  { s with links := kinsert Link.to_ l s.links }

/-- The method `Signature::removeLink(idTo)`. -/
def removeLink (s : Signature T I) (idTo : Int) : Signature T I :=
  { s with links := kerase Link.to_ idTo s.links }

/-- The method `Signature::removeLinks()`. -/
def removeLinks (s : Signature T I) : Signature T I :=
  { s with links := [] }

/-- The method `Signature::removeVirtualLinks()`. -/
def removeVirtualLinks (s : Signature T I) : Signature T I :=
  { s with links := s.links.filter (fun l => l.type != LinkType.kVirtualClosure) }

/-- The test `Signature::isBadSignature()`. Modelled from the spec: a bad
signature is one left without words ("treat as a bad signature (clear
descriptors)", "no words; not enabled; not a rehearsal candidate"). -/
def isBadSignature (s : Signature T I) : Bool :=
  s.words.isEmpty

/-- The method `Signature::changeWordsRef(oldWordId, activeWordId)`: every
occurrence of the old word id is re-keyed to the active one. Modelled from the
spec: "recording a rewrite map and calling `change_words_ref` on each
reactivated signature". -/
def changeWordsRef (s : Signature T I) (oldWordId activeWordId : Int) : Signature T I :=
  { s with words := s.words.map (fun w => if w = oldWordId then activeWordId else w) }

end Signature

/-! ## The visual-word dictionary -/

/-- A visual word with its inverted-index entry. Modelled from the spec: the
class is declared outside `Memory.cpp`; the spec gives a word as an id with "a
mapping `references: signature-id → count`" and "a `saved` flag" (the
descriptor plays no role here). -/
structure VisualWord where
  id : Int
  references : List (Int × Int)
  saved : Bool
  deriving DecidableEq, Repr

/-- The dictionary `VWDictionary`. Modelled from the spec: the class is
declared outside `Memory.cpp`; the spec gives its state as the "table
`word-id → VisualWord`" and the words added since the last index update; a
word is unused "when its references are empty". -/
structure VWDictionary where
  visualWords : List VisualWord
  notIndexedWords : List Int
  incremental : Bool
  incrementalFlann : Bool
  deriving DecidableEq, Repr

namespace VWDictionary

/-- The lookup `getWord(id)`. -/
def getWord (d : VWDictionary) (id : Int) : Option VisualWord :=
  kfind VisualWord.id d.visualWords id

/-- The lookup `getUnusedWord(id)`. Modelled from the spec: "returns a word
only if its reference set is empty". -/
def getUnusedWord (d : VWDictionary) (id : Int) : Option VisualWord :=
  (d.getWord id).filter (fun w => w.references.isEmpty)

/-- The list `getUnusedWords()`: the words without a reference. -/
def getUnusedWords (d : VWDictionary) : List VisualWord :=
  d.visualWords.filter (fun w => w.references.isEmpty)

/-- The count `getUnusedWordsSize()`. -/
def getUnusedWordsSize (d : VWDictionary) : Int :=
  d.getUnusedWords.length

/-- The count `getNotIndexedWordsCount()`. -/
def getNotIndexedWordsCount (d : VWDictionary) : Int :=
  d.notIndexedWords.length

/-- One more reference of a signature on an inverted-index entry. -/
def addRef (refs : List (Int × Int)) (signatureId : Int) : List (Int × Int) :=
  if khas Prod.fst refs signatureId then
    kmodify Prod.fst signatureId (fun p => (p.1, p.2 + 1)) refs
  else kinsert Prod.fst (signatureId, 1) refs

/-- The method `addWordRef(wordId, signatureId)`. Modelled from the spec: "Each
assigned id gains one reference from `signature_id`"; a word that is not in the
table gains nothing. -/
def addWordRef (d : VWDictionary) (wordId signatureId : Int) : VWDictionary :=
  let words := kmodify VisualWord.id wordId
    (fun w => { w with references := addRef w.references signatureId }) d.visualWords
  { d with visualWords := words }

/-- The method `removeAllWordRef(wordId, signatureId)`. Modelled from the spec:
`remove_all_word_refs(word_id, sig_id)` drops the entry of the signature from
the references of the word. -/
def removeAllWordRef (d : VWDictionary) (wordId signatureId : Int) : VWDictionary :=
  let words := kmodify VisualWord.id wordId
    (fun w => { w with references := kerase Prod.fst signatureId w.references }) d.visualWords
  { d with visualWords := words }

/-- The method `removeWords(words)`. Modelled from the spec: "batch delete". -/
def removeWords (d : VWDictionary) (ids : List Int) : VWDictionary :=
  { d with
    visualWords := d.visualWords.filter (fun w => !ids.contains w.id),
    notIndexedWords := d.notIndexedWords.filter (fun i => !ids.contains i) }

/-- The method `addWord(vw)`: the word enters the table and awaits indexing. -/
def addWord (d : VWDictionary) (vw : VisualWord) : VWDictionary :=
  { d with
    visualWords := kinsert VisualWord.id vw d.visualWords,
    notIndexedWords := kinsert selfKey vw.id d.notIndexedWords }

/-- The method `update()`: the index takes in the words added since the last
update. -/
def update (d : VWDictionary) : VWDictionary :=
  { d with notIndexedWords := [] }

end VWDictionary

/-- The utility `uUniqueKeys` on a multimap: its distinct keys. -/
def uUniqueKeys (keys : List Int) : List Int :=
  keys.dedup

/-! ## The memory state and its environment -/

/-- The mutable members of `rtabmap::Memory` that the operations below read or
write. `lastSignature` holds the id of the signature `_lastSignature` points
to; `dbTrash` records the signatures handed to `DBDriver::asyncSave`, oldest
first. -/
structure Memory (T I : Type) where
  signatures : List (Signature T I)
  stMem : List Int
  workingMem : List (Int × Rat)
  vwd : VWDictionary
  lastSignature : Option Int
  lastGlobalLoopClosureId : Int
  idCount : Int
  idMapCount : Int
  memoryChanged : Bool
  linksChanged : Bool
  signaturesAdded : Int
  dbTrash : List (Signature T I)

/-- The parameters of `rtabmap::Memory` (members set by `parseParameters`) and
the external collaborators its operations consult. -/
structure Env (T I : Type) where
  /-- Operations on transforms and information matrices. -/
  geo : Geometry T I
  /-- Parameter `Mem/IncrementalMemory`. -/
  incrementalMemory : Bool
  /-- Parameter `Mem/ReduceGraph`. -/
  reduceGraph : Bool
  /-- Parameter `Mem/NotLinkedNodesKept`. -/
  notLinkedNodesKeptInDb : Bool
  /-- Parameter `Mem/RehearsalIdUpdatedToNewOne`. -/
  idUpdatedToNewOneRehearsal : Bool
  /-- Parameter `Mem/BadSignaturesIgnored`. -/
  badSignaturesIgnored : Bool
  /-- Parameter `Mem/MapLabelsAdded`. -/
  mapLabelsAdded : Bool
  /-- Parameter `Mem/RehearsalWeightIgnoredWhileMoving`. -/
  rehearsalWeightIgnoredWhileMoving : Bool
  /-- Parameter `Mem/TransferSortingByWeightId`. -/
  transferSortingByWeightId : Bool
  /-- Parameter `Mem/GenerateIds`. -/
  generateIds : Bool
  /-- Parameter `Kp/Parallelized`. -/
  parallelized : Bool
  /-- Parameter `Mem/STMSize`. -/
  maxStMemSize : Int
  /-- The value of `int(_recentWmRatio * float(n))` (line 1684) for a working
  memory of `n` entries: the single-precision product of the parameter
  `Mem/RecentWmRatio` and the size, converted to `int`. The product is rounded
  by the floating-point unit; it is taken from the environment and not
  computed here. -/
  recentWmRatioTimes : Nat → Int
  /-- The test `_similarityThreshold < 1.0f`. -/
  similarityBelowOne : Bool
  /-- Whether a database driver is attached (`_dbDriver != 0`). -/
  hasDb : Bool
  /-- The motion test of `rehearsalMerge` on the first link of the new node:
  a translation component above `RGBD/LinearUpdate` or an Euler angle above
  `RGBD/AngularUpdate`. -/
  isMoving : T → Bool
  /-- The rehearsal test `signature->compareTo(*sB) >= _similarityThreshold`. -/
  similar : Signature T I → Signature T I → Bool
  /-- The query `DBDriver::loadWords`. -/
  loadWords : List Int → List VisualWord
  /-- The query `VWDictionary::findNN`, one active id (or 0) per word. -/
  findNN : VWDictionary → List VisualWord → List Int
  /-- The query `DBDriver::loadSignatures`. -/
  loadSignatures : List Int → List (Signature T I)
  /-- The query `DBDriver::getNodeIdByLabel` (0 when there is none). -/
  getNodeIdByLabel : String → Int

namespace Memory

variable {T I : Type}

/-- The assignment of the member `_signatures`. -/
def setSignatures (m : Memory T I) (v : List (Signature T I)) : Memory T I :=
  { m with signatures := v }

/-- The assignment of the member `_stMem`. -/
def setStMem (m : Memory T I) (v : List Int) : Memory T I :=
  { m with stMem := v }

/-- The assignment of the member `_workingMem`. -/
def setWorkingMem (m : Memory T I) (v : List (Int × Rat)) : Memory T I :=
  { m with workingMem := v }

/-- The assignment of the dictionary `*_vwd`. -/
def setVwd (m : Memory T I) (v : VWDictionary) : Memory T I :=
  { m with vwd := v }

/-- The assignment of the member `_lastSignature`. -/
def setLastSignature (m : Memory T I) (v : Option Int) : Memory T I :=
  { m with lastSignature := v }

/-- The assignment of the member `_lastGlobalLoopClosureId`. -/
def setLastGlobalLoopClosureId (m : Memory T I) (v : Int) : Memory T I :=
  { m with lastGlobalLoopClosureId := v }

/-- The assignment of the member `_idCount`. -/
def setIdCount (m : Memory T I) (v : Int) : Memory T I :=
  { m with idCount := v }

/-- The assignment of the member `_memoryChanged`. -/
def setMemoryChanged (m : Memory T I) (v : Bool) : Memory T I :=
  { m with memoryChanged := v }

/-- The assignment of the member `_linksChanged`. -/
def setLinksChanged (m : Memory T I) (v : Bool) : Memory T I :=
  { m with linksChanged := v }

/-- The assignment of the member `_signaturesAdded`. -/
def setSignaturesAdded (m : Memory T I) (v : Int) : Memory T I :=
  { m with signaturesAdded := v }

/-- The call `_dbDriver->asyncSave(s)`: the signature joins the trash. -/
def asyncSave (m : Memory T I) (s : Signature T I) : Memory T I :=
  { m with dbTrash := m.dbTrash ++ [s] }

/-- The lookup `Memory::_getSignature` (lines 881-884). -/
def _getSignature (m : Memory T I) (id : Int) : Option (Signature T I) :=
  kfind Signature.id m.signatures id

/-- A member access `p->...` through the pointer `_getSignature(id)` returned. -/
def deref (m : Memory T I) (id : Int) : Except Fault (Signature T I) :=
  match m._getSignature id with
  | some s => .ok s
  | none => .error Fault.nullDereference

/-- The lookup `_signatures.at(id)`. -/
def signatureAt (m : Memory T I) (id : Int) : Except Fault (Signature T I) :=
  match m._getSignature id with
  | some s => .ok s
  | none => .error Fault.outOfRange

/-- A mutation of the signature with the given id through its pointer. -/
def modifySignature (m : Memory T I) (id : Int) (f : Signature T I → Signature T I) :
    Memory T I :=
  m.setSignatures (kmodify Signature.id id f m.signatures)

/-- The call `s->setWeight(w)` on the signature with the given id. -/
def setWeight (m : Memory T I) (id : Int) (w : Int) : Memory T I :=
  m.modifySignature id (fun s => { s with weight := w })

/-- The test `Memory::isInSTM`. -/
def isInSTM (m : Memory T I) (id : Int) : Bool :=
  m.stMem.contains id

/-- The test `Memory::isInWM`. -/
def isInWM (m : Memory T I) (id : Int) : Bool :=
  khas Prod.fst m.workingMem id

/-- The method `Memory::addLink` (lines 2269-2334). -/
def addLink (e : Env T I) (m : Memory T I) (link : Link T I) :
    Except Fault (Bool × Memory T I) := do
  uassert link.type.isLoopClosure
  match m._getSignature link.to_, m._getSignature link.from_ with
  | some toS, some fromS =>
    if toS.hasLink link.from_ then
      -- do nothing, already merged
      return (true, m)
    else
      let m := m.modifySignature toS.id (fun s => s.addLink (link.inverse e.geo))
      let m := m.modifySignature fromS.id (fun s => s.addLink link)
      if e.incrementalMemory && link.type != LinkType.kVirtualClosure then
        let m := m.setLinksChanged true
        -- ignore scan matching loop closures
        if link.type != LinkType.kLocalSpaceClosure || link.userDataCompressed.isEmpty then
          let m := m.setLastGlobalLoopClosureId
            (if fromS.id > toS.id then fromS.id else toS.id)
          uassert (decide (fromS.weight ≥ 0) && decide (toS.weight ≥ 0))
          if (e.reduceGraph && decide (fromS.id < toS.id)) ||
             (!e.reduceGraph && decide (fromS.id > toS.id)) then
            let m := m.setWeight fromS.id (fromS.weight + toS.weight)
            return (true, m.setWeight toS.id 0)
          else
            let m := m.setWeight toS.id (toS.weight + fromS.weight)
            return (true, m.setWeight fromS.id 0)
        else
          return (true, m)
      else
        return (true, m)
  | _, _ => return (false, m)

/-- The method `Memory::removeLink` (lines 2030-2090). When a signature is not
found the error branch evaluates `newS->id()` or `oldS->id()` on the null
pointer. -/
def removeLink (m : Memory T I) (oldId newId : Int) : Except Fault (Memory T I) := do
  let oldK := if oldId < newId then oldId else newId
  let newK := if oldId < newId then newId else oldId
  match m._getSignature oldK, m._getSignature newK with
  | some oldS, some newS =>
    if oldS.hasLink newS.id && newS.hasLink oldS.id then
      match kfind Link.to_ oldS.links newS.id with
      | none => throw Fault.outOfRange
      | some l =>
        let type := l.type
        let m ←
          if type == LinkType.kGlobalClosure && decide (newS.weight > 0) then do
            -- adjust the weight
            let m := m.setWeight oldS.id (oldS.weight + 1)
            let newS1 ← m.deref newS.id
            pure (m.setWeight newS.id (if newS1.weight > 0 then newS1.weight - 1 else 0))
          else pure m
        let m := m.modifySignature oldS.id (fun s => s.removeLink newS.id)
        let m := m.modifySignature newS.id (fun s => s.removeLink oldS.id)
        let m := if type != LinkType.kVirtualClosure then m.setLinksChanged true else m
        let newS2 ← m.deref newS.id
        let noChildrenAnymore :=
          newS2.links.all (fun k =>
            !(k.type != LinkType.kNeighbor && k.type != LinkType.kNeighborMerged &&
              decide (k.to_ < newS.id)))
        if noChildrenAnymore && newS.id == m.lastGlobalLoopClosureId then
          return m.setLastGlobalLoopClosureId 0
        else
          return m
    else
      return m
  | _, _ => throw Fault.nullDereference

/-- The method `Memory::updateLink` (lines 2336-2359 and 2361-2385); `info` is
the information matrix the `Link` constructor receives or builds from the
variances. Neither pointer is checked before `hasLink` is called on it. -/
def updateLink (e : Env T I) (m : Memory T I) (fromId toId : Int) (transform : T) (info : I) :
    Except Fault (Memory T I) := do
  let fromS ← m.deref fromId
  if fromS.hasLink toId then
    let toS ← m.deref toId
    if toS.hasLink fromId then
      match kfind Link.to_ fromS.links toId with
      | none => throw Fault.outOfRange
      | some l =>
        let type := l.type
        let m := m.modifySignature fromId (fun s => s.removeLink toId)
        let m := m.modifySignature toId (fun s => s.removeLink fromId)
        let m := m.modifySignature fromId (fun s => s.addLink
          { from_ := fromId, to_ := toId, type := type, transform := transform,
            info := info, userDataCompressed := [] })
        let m := m.modifySignature toId (fun s => s.addLink
          { from_ := toId, to_ := fromId, type := type,
            transform := e.geo.inverse transform, info := info, userDataCompressed := [] })
        return (if type != LinkType.kVirtualClosure then m.setLinksChanged true else m)
    else
      return m
  else
    return m

/-- The query `Memory::getSignatureIdByLabel` (lines 1926-1947): the id of the
first signature of the table carrying the label, else what the database
answers when it is consulted, else 0. -/
def getSignatureIdByLabel (e : Env T I) (m : Memory T I) (label : String)
    (lookInDatabase : Bool) : Int :=
  if label.length != 0 then
    let id := match m.signatures.find? (fun s => s.label == label) with
      | some s => s.id
      | none => 0
    if id == 0 && e.hasDb && lookInDatabase then e.getNodeIdByLabel label else id
  else 0

/-- The tag `uFormat("map%d", mapId)`. -/
def mapTag (mapId : Int) : String :=
  "map" ++ toString mapId

/-- The tagging of the first node of a map in `addSignatureToStm`
(lines 725-730 and 736-741). -/
def tagFirstNode (e : Env T I) (m : Memory T I) (signature : Signature T I) :
    Signature T I :=
  if getSignatureIdByLabel e m (mapTag signature.mapId) false == 0 then
    { signature with label := mapTag signature.mapId }
  else signature

/-- The method `Memory::addSignatureToStm` (lines 690-759) for a non-null
signature; `infMatrix` is `covariance.inv()`. -/
def addSignatureToStm (e : Env T I) (m : Memory T I) (signature : Signature T I)
    (infMatrix : I) : Except Fault (Memory T I) := do
  let (m, signature) ←
    match m.stMem.getLast? with
    | some tailId => do
      let tail ← m.signatureAt tailId
      if tail.mapId = signature.mapId then
        if !e.geo.isNull signature.pose && !e.geo.isNull tail.pose then
          let motionEstimate := e.geo.mul (e.geo.inverse tail.pose) signature.pose
          let m := m.modifySignature tailId (fun s => s.addLink
            { from_ := tailId, to_ := signature.id, type := LinkType.kNeighbor,
              transform := motionEstimate, info := infMatrix, userDataCompressed := [] })
          pure (m, signature.addLink
            { from_ := signature.id, to_ := tailId, type := LinkType.kNeighbor,
              transform := e.geo.inverse motionEstimate, info := infMatrix,
              userDataCompressed := [] })
        else
          let m := m.modifySignature tailId (fun s => s.addLink
            { from_ := tailId, to_ := signature.id, type := LinkType.kNeighbor,
              transform := e.geo.null, info := e.geo.infoDefault, userDataCompressed := [] })
          pure (m, signature.addLink
            { from_ := signature.id, to_ := tailId, type := LinkType.kNeighbor,
              transform := e.geo.null, info := e.geo.infoDefault, userDataCompressed := [] })
      else
        -- Tag the first node of the map
        pure (m, tagFirstNode e m signature)
    | none =>
      if e.mapLabelsAdded then pure (m, tagFirstNode e m signature) else pure (m, signature)
  let signature := if signature.words.length != 0 then { signature with enabled := true }
                   else signature
  let m := m.setSignatures (kinsert Signature.id signature m.signatures)
  let m := m.setStMem (kinsert selfKey signature.id m.stMem)
  return m.setSignaturesAdded (m.signaturesAdded + 1)

/-- The method `Memory::addSignatureToWmFromLTM` (lines 761-774) for a non-null
signature; `now` is the reading of `UTimer::now()`. -/
def addSignatureToWmFromLTM (m : Memory T I) (signature : Signature T I) (now : Rat) :
    Memory T I :=
  let m := m.setWorkingMem (kinsert Prod.fst (signature.id, now) m.workingMem)
  let m := m.setSignatures (kinsert Signature.id signature m.signatures)
  m.setSignaturesAdded (m.signaturesAdded + 1)

/-- The method `Memory::disableWordsRef` (lines 3645-3665). -/
def disableWordsRef (m : Memory T I) (signatureId : Int) : Memory T I :=
  match m._getSignature signatureId with
  | some ss =>
    if ss.enabled then
      let d := (uUniqueKeys ss.words).foldl (fun d k => d.removeAllWordRef k signatureId) m.vwd
      (m.setVwd d).modifySignature ss.id (fun s => { s with enabled := false })
    else m
  | none => m

/-- The first loop of `Memory::enableWordsRef` (lines 3703-3720): the not yet
enabled signatures among the given ids, and the word ids they cite that are
neither in the dictionary nor among its unused words. -/
def enableWordsRefCollect (m : Memory T I) :
    List Int → List Int × List Int → List Int × List Int
  | [], acc => acc
  | i :: rest, (surfSigns, oldWordIds) =>
    match m._getSignature i with
    | some ss =>
      if !ss.enabled then
        let missing := (uUniqueKeys ss.words).filter
          (fun k => (m.vwd.getWord k).isNone && (m.vwd.getUnusedWord k).isNone)
        enableWordsRefCollect m rest
          (surfSigns ++ [ss.id], missing.foldl (fun acc k => kinsert selfKey k acc) oldWordIds)
      else enableWordsRefCollect m rest (surfSigns, oldWordIds)
    | none => enableWordsRefCollect m rest (surfSigns, oldWordIds)

/-- The loop of `Memory::enableWordsRef` over the loaded words (lines
3739-3761): a word with an active match is recorded in `refsToChange`, the
others enter the dictionary. -/
def enableWordsRefMatch (vwActiveIds : List Int) :
    List VisualWord → Nat → List (Int × Int) × VWDictionary → List (Int × Int) × VWDictionary
  | [], _, acc => acc
  | vw :: rest, i, (refsToChange, d) =>
    if vwActiveIds.getD i 0 > 0 then
      enableWordsRefMatch vwActiveIds rest (i + 1)
        (kinsert Prod.fst (vw.id, vwActiveIds.getD i 0) refsToChange, d)
    else
      enableWordsRefMatch vwActiveIds rest (i + 1) (refsToChange, d.addWord vw)

/-- The rewriting of the word ids of the signatures to reactivate (lines
3763-3771): every pair of `refsToChange` re-keys the old word id to the active
one in each of them. -/
def enableWordsRefRewrite (surfSigns : List Int) (refsToChange : List (Int × Int))
    (m : Memory T I) : Memory T I :=
  refsToChange.foldl (fun m r =>
    surfSigns.foldl (fun m j => m.modifySignature j (fun s => s.changeWordsRef r.1 r.2)) m) m

/-- The middle part of `Memory::enableWordsRef` (lines 3722-3773): the words
that were deleted are loaded from the database and matched with an active word
or added to the dictionary. -/
def enableWordsRefLoad (e : Env T I) (m : Memory T I) (surfSigns oldWordIds : List Int) :
    Memory T I :=
  -- the words were deleted, so try to match them with an active word
  let vws := if oldWordIds.length != 0 && e.hasDb then e.loadWords oldWordIds else []
  if vws.length != 0 then
    enableWordsRefRewrite surfSigns
      (enableWordsRefMatch (e.findNN m.vwd vws) vws 0 ([], m.vwd)).1
      (m.setVwd (enableWordsRefMatch (e.findNN m.vwd vws) vws 0 ([], m.vwd)).2)
  else m

/-- One round of the last loop of `Memory::enableWordsRef` (lines 3777-3788):
the words of the signature gain a reference each and the signature is enabled
when it has words. -/
def enableWordsRefActivate (m : Memory T I) (j : Int) : Memory T I :=
  match m._getSignature j with
  | some s =>
    if s.words.length != 0 then
      (m.setVwd (s.words.foldl (fun d k => d.addWordRef k s.id) m.vwd)).modifySignature j
        (fun s => { s with enabled := true })
    else m.setVwd (s.words.foldl (fun d k => d.addWordRef k s.id) m.vwd)
  | none => m

/-- The method `Memory::enableWordsRef` (lines 3693-3795). -/
def enableWordsRef (e : Env T I) (m : Memory T I) (signatureIds : List Int) : Memory T I :=
  -- Reactivate references and signatures
  (enableWordsRefCollect m signatureIds ([], [])).1.foldl enableWordsRefActivate
    (enableWordsRefLoad e m (enableWordsRefCollect m signatureIds ([], [])).1
      (enableWordsRefCollect m signatureIds ([], [])).2)

/-- The method `Memory::copyData` (lines 2966-2998) on two signatures of the
table: the words and the pose of `from` go to `to`. -/
def copyData (e : Env T I) (m : Memory T I) (fromId toId : Int) : Except Fault (Memory T I) := do
  let toS ← m.deref toId
  let m := m.disableWordsRef toS.id
  let from_ ← m.deref fromId
  let m := m.modifySignature toId (fun s => { s with words := from_.words })
  let m := enableWordsRef e m [toS.id]
  let from_ ← m.deref fromId
  return m.modifySignature toId (fun s => { s with pose := from_.pose })

/-- The method `Memory::removeVirtualLinks` (lines 2396-2424). -/
def removeVirtualLinks (m : Memory T I) (signatureId : Int) : Memory T I :=
  match m._getSignature signatureId with
  | some s =>
    let m := s.links.foldl (fun m l =>
      if l.type == LinkType.kVirtualClosure then
        m.modifySignature l.to_ (fun sTo => sTo.removeLink s.id)
      else m) m
    m.modifySignature s.id (fun s => s.removeVirtualLinks)
  | none => m

/-- The method `Memory::removeAllVirtualLinks` (lines 2387-2394). -/
def removeAllVirtualLinks (m : Memory T I) : Memory T I :=
  m.setSignatures (m.signatures.map (fun s => s.removeVirtualLinks))

/-- The loop of `Memory::moveToTrash` over the links of the deleted location
(lines 1816-1840): each peer must be in memory, takes over the weight when
it is the older end of a global loop closure, and drops its link. -/
def moveToTrashUnlink (sId sWeight : Int) :
    List (Link T I) → Memory T I → Except Fault (Memory T I)
  | [], m => pure m
  | l :: rest, m =>
    match m._getSignature l.to_ with
    | none => throw Fault.assertion
    | some sTo =>
      let m := if l.type == LinkType.kGlobalClosure && decide (sId > sTo.id) then
                 m.setWeight sTo.id (sTo.weight + sWeight)
               else m
      moveToTrashUnlink sId sWeight rest (m.modifySignature sTo.id (fun p => p.removeLink sId))

/-- The loop of `Memory::moveToTrash` over the word ids of the deleted location
(lines 1856-1872): a word left without reference leaves the dictionary; the
second component lists the deleted word ids. -/
def moveToTrashWords : List Int → VWDictionary × List Int → VWDictionary × List Int
  | [], acc => acc
  | k :: rest, (d, deleted) =>
    match d.getUnusedWord k with
    | some w => moveToTrashWords rest (d.removeWords [w.id], deleted ++ [w.id])
    | none => moveToTrashWords rest (d, deleted)

/-- The first part of `Memory::moveToTrash` (lines 1809-1851): the links of the
deleted location `s` are removed on both sides, or only its virtual links. -/
def moveToTrashLinks (e : Env T I) (m : Memory T I) (s : Signature T I)
    (keepLinkedToGraph : Bool) : Except Fault (Memory T I) :=
  -- If not saved to database or it is a bad signature (not saved), remove links!
  if !keepLinkedToGraph || (!s.saved && s.isBadSignature && e.badSignaturesIgnored) then
    uassert (m.isInSTM s.id) >>= fun _ =>
    moveToTrashUnlink s.id s.weight s.links m >>= fun m =>
    pure (m.modifySignature s.id (fun s => { s.removeLinks with weight := 0, label := "" }))
  else
    pure (m.removeVirtualLinks s.id)

/-- The removal of the unused words of the deleted location `s1` from the
dictionary (lines 1854-1872); the second component lists the deleted words. -/
def moveToTrashDictionary (m : Memory T I) (s1 : Signature T I) (keepLinkedToGraph : Bool) :
    Memory T I × List Int :=
  if !keepLinkedToGraph then
    (m.setVwd (moveToTrashWords (uUniqueKeys s1.words) (m.vwd, [])).1,
     (moveToTrashWords (uUniqueKeys s1.words) (m.vwd, [])).2)
  else (m, [])

/-- The removal of the location from the three containers (lines 1874-1880). -/
def moveToTrashErase (m : Memory T I) (sId : Int) : Memory T I :=
  let m := m.setWorkingMem (kerase Prod.fst sId m.workingMem)
  let m := m.setStMem (kerase selfKey sId m.stMem)
  let m := m.setSignatures (kerase Signature.id sId m.signatures)
  if m.signaturesAdded > 0 then m.setSignaturesAdded (m.signaturesAdded - 1) else m

/-- The update of `_lastSignature` after the removal of the location
(lines 1882-1893). -/
def moveToTrashLastSignature (m : Memory T I) (sId : Int) : Memory T I :=
  if m.lastSignature == some sId then
    match m.stMem.getLast? with
    | some last => m.setLastSignature ((m._getSignature last).map Signature.id)
    | none =>
      match m.workingMem.getLast? with
      | some last => m.setLastSignature ((m._getSignature last.1).map Signature.id)
      | none => m.setLastSignature none
  else m

/-- The update of `_lastSignature` and `_lastGlobalLoopClosureId` after the
removal of the location (lines 1882-1898). -/
def moveToTrashLast (m : Memory T I) (sId : Int) : Memory T I :=
  if (moveToTrashLastSignature m sId).lastGlobalLoopClosureId == sId then
    (moveToTrashLastSignature m sId).setLastGlobalLoopClosureId 0
  else moveToTrashLastSignature m sId

/-- The end of `Memory::moveToTrash` (lines 1900-1911): the location `s1` is
handed to the database or deleted. -/
def moveToTrashSave (e : Env T I) (m : Memory T I) (s1 : Signature T I)
    (keepLinkedToGraph : Bool) : Memory T I :=
  if (e.notLinkedNodesKeptInDb || keepLinkedToGraph) && e.hasDb && decide (s1.id > 0) &&
     (e.incrementalMemory || s1.saved) then
    m.asyncSave s1
  else m

/-- The method `Memory::moveToTrash` (lines 1804-1913) on the signature of the
table with the given id; the second component is what `deletedWords` receives. -/
def moveToTrashFull (e : Env T I) (m : Memory T I) (sId : Int) (keepLinkedToGraph : Bool) :
    Except Fault (Memory T I × List Int) :=
  match m._getSignature sId with
  | none => pure (m, [])
  | some s =>
    moveToTrashLinks e m s keepLinkedToGraph >>= fun m =>
    (m.disableWordsRef s.id).deref s.id >>= fun s1 =>
    pure ((moveToTrashSave e
        (moveToTrashLast
          (moveToTrashErase (moveToTrashDictionary (m.disableWordsRef s.id) s1
            keepLinkedToGraph).1 s.id) s.id)
        s1 keepLinkedToGraph),
      (moveToTrashDictionary (m.disableWordsRef s.id) s1 keepLinkedToGraph).2)

/-- The call `moveToTrash(s, keepLinkedToGraph)` without a `deletedWords` list. -/
def moveToTrash (e : Env T I) (m : Memory T I) (sId : Int) (keepLinkedToGraph : Bool) :
    Except Fault (Memory T I) :=
  moveToTrashFull e m sId keepLinkedToGraph >>= fun r => pure r.1

/-- The method `Memory::deleteLocation` (lines 2020-2028). -/
def deleteLocation (e : Env T I) (m : Memory T I) (locationId : Int) :
    Except Fault (Memory T I × List Int) :=
  moveToTrashFull e m locationId false

/-- The test of `moveSignatureToWMFromSTM` (lines 792-797) that a link of the
node `sId` is a parent-to-child link along which the node can be reduced. -/
def isReductionLink (sId : Int) (l : Link T I) : Bool :=
  decide (l.to_ < sId) &&
  l.type != LinkType.kNeighbor &&
  l.type != LinkType.kNeighborMerged &&
  l.userDataCompressed.isEmpty &&
  l.type != LinkType.kUndef &&
  l.type != LinkType.kVirtualClosure

/-- The inner loop of the graph reduction (lines 828-841): the peer `sToId` of
the reduced node is linked to every neighbor of the reduced node it is not
linked to yet; `iter` is the link of the reduced node to the peer. -/
def reduceLinkNeighbors (e : Env T I) (sToId : Int) (iter : Link T I) :
    List (Link T I) → Memory T I → Except Fault (Memory T I)
  | [], m => pure m
  | jter :: rest, m => do
    let sTo ← m.deref sToId
    if !sTo.hasLink jter.to_ then
      let l := (iter.inverse e.geo).merge e.geo jter
        (if iter.userDataCompressed.isEmpty && iter.type != LinkType.kVirtualClosure
         then LinkType.kNeighborMerged else iter.type)
      let m := m.modifySignature sToId (fun s => s.addLink l)
      match m._getSignature l.to_ with
      | none => throw Fault.assertion
      | some sB =>
        uassert (!sB.hasLink l.to_)
        reduceLinkNeighbors e sToId iter rest
          (m.modifySignature sB.id (fun s => s.addLink (l.inverse e.geo)))
    else
      reduceLinkNeighbors e sToId iter rest m

/-- The outer loop of the graph reduction (lines 817-843) over the links of the
reduced node `sId`. -/
def reduceLinks (e : Env T I) (sId : Int) (neighbors : List (Link T I)) :
    List (Link T I) → Memory T I → Except Fault (Memory T I)
  | [], m => pure m
  | iter :: rest, m =>
    match m._getSignature iter.to_ with
    | none => throw Fault.assertion
    | some sTo => do
      let m := m.modifySignature sTo.id (fun p => p.removeLink sId)
      let m ←
        if iter.type != LinkType.kNeighbor && iter.type != LinkType.kNeighborMerged &&
           iter.type != LinkType.kUndef then
          -- link to all neighbors
          reduceLinkNeighbors e sTo.id iter neighbors m
        else pure m
      reduceLinks e sId neighbors rest m

/-- The loop of the graph reduction that removes the neighbor links of the
reduced node (lines 846-861). -/
def reduceDropNeighbors (sId : Int) : List (Link T I) → Memory T I → Memory T I
  | [], m => m
  | iter :: rest, m =>
    if iter.type == LinkType.kNeighbor || iter.type == LinkType.kNeighborMerged then
      let m := m.modifySignature sId (fun s => s.removeLink iter.to_)
      let m := if iter.type == LinkType.kNeighbor && m.lastGlobalLoopClosureId == sId then
                 m.setLastGlobalLoopClosureId iter.to_
               else m
      reduceDropNeighbors sId rest m
    else reduceDropNeighbors sId rest m

/-- The graph reduction of the node `s` (lines 815-864): its peers are linked
to its neighbors, its neighbor links are removed and the node goes to the
trash. -/
def reduceNode (e : Env T I) (m : Memory T I) (s : Signature T I) : Except Fault (Memory T I) :=
  reduceLinks e s.id (s.links.filter (fun l => l.type == LinkType.kNeighbor)) s.links m
    >>= fun m =>
  -- remove neighbor links
  m.deref s.id >>= fun s1 =>
  moveToTrash e (reduceDropNeighbors s.id s1.links m) s.id e.notLinkedNodesKeptInDb

/-- The value `*reducedTo` holds after the first loop of
`moveSignatureToWMFromSTM` (lines 783-812), when it held `reducedTo` on entry. -/
def reductionTarget (e : Env T I) (s : Signature T I) (reducedTo : Int) : Int :=
  if e.reduceGraph then
    match s.links.find? (isReductionLink s.id) with
    | some l => l.to_
    | none => reducedTo
  else reducedTo

/-- The method `Memory::moveSignatureToWMFromSTM` (lines 776-874); `reducedTo`
is the value `*reducedTo` holds on entry, the second component the value it
holds on return, `now` the reading of `UTimer::now()`. -/
def moveSignatureToWMFromSTM (e : Env T I) (m : Memory T I) (id : Int) (reducedTo : Int)
    (now : Rat) : Except Fault (Memory T I × Int) :=
  uassert (m.stMem.contains id) >>= fun _ =>
  match m._getSignature id with
  | none => throw Fault.assertion
  | some s =>
    if e.reduceGraph && (s.links.find? (isReductionLink s.id)).isSome && s.label.length == 0 then
      reduceNode e m s >>= fun m => pure (m, reductionTarget e s reducedTo)
    else
      match m.stMem.head? with
      | none => throw Fault.endIterator
      | some first =>
        pure ((m.setWorkingMem (kinsert Prod.fst (first, now) m.workingMem)).setStMem
          (kerase selfKey first m.stMem), reductionTarget e s reducedTo)

/-- The loop of the full rehearsal merge that redirects the links of the old
node onto the new one (lines 2665-2684). -/
def rehearsalRedirect (e : Env T I) (oldId newId : Int) (newToOldLink : Link T I) :
    List (Link T I) → Memory T I → Except Fault (Memory T I)
  | [], m => pure m
  | link :: rest, m => do
    let mergedLink := newToOldLink.merge e.geo link link.type
    uassert (mergedLink.from_ == newId && mergedLink.to_ == link.to_)
    match m._getSignature link.to_ with
    | some sP =>
      -- modify neighbor "from"
      let m := m.modifySignature sP.id (fun p => p.removeLink oldId)
      let m := m.modifySignature sP.id (fun p => p.addLink (mergedLink.inverse e.geo))
      rehearsalRedirect e oldId newId newToOldLink rest
        (m.modifySignature newId (fun p => p.addLink mergedLink))
    | none => rehearsalRedirect e oldId newId newToOldLink rest m

/-- The test of `rehearsalMerge` (lines 2613-2621) that the old node already
carries a link to the new one that is not a neighbor link. -/
def rehearsalAlreadyMerged (oldS newS : Signature T I) : Bool :=
  match kfind Link.to_ oldS.links newS.id with
  | some l => l.type != LinkType.kNeighbor && l.type != LinkType.kNeighborMerged
  | none => false

/-- The value of `fullMerge` (lines 2650 and 2655); `first` is the first link of
the new node. -/
def rehearsalFullMergeTest (e : Env T I) (oldS newS : Signature T I) (first : Link T I) : Bool :=
  if !e.geo.isNull first.transform then !e.isMoving first.transform && newS.hasLink oldS.id
  else newS.hasLink oldS.id && e.geo.isNull first.transform

/-- The value of `intermediateMerge` (lines 2625 and 2651). -/
def rehearsalIntermediateTest (e : Env T I) (oldS newS : Signature T I) (first : Link T I) :
    Bool :=
  !e.geo.isNull first.transform && !e.isMoving first.transform && !newS.hasLink oldS.id

/-- The full merge that keeps the new node (lines 2665-2701): the links of the
old node are redirected, label, words and pose go to the new node and the
weights are added up. -/
def rehearsalMergeIntoNew (e : Env T I) (m : Memory T I) (oldId newId : Int)
    (newToOldLink : Link T I) : Except Fault (Memory T I) :=
  -- redirect neighbor links
  m.deref oldId >>= fun o =>
  rehearsalRedirect e oldId newId newToOldLink o.links m >>= fun m =>
  m.deref oldId >>= fun o =>
  -- to keep track of the merged location; set old image to new signature
  copyData e
    ((((m.modifySignature newId (fun s => { s with label := o.label })).modifySignature oldId
      (fun s => { s with label := "" })).modifySignature oldId
      (fun s => s.removeLinks)).modifySignature oldId (fun s => s.addLink
        { from_ := oldId, to_ := newId, type := LinkType.kGlobalClosure,
          transform := e.geo.null, info := e.geo.infoUnit, userDataCompressed := [] }))
    oldId newId >>= fun m =>
  -- update weight
  m.deref newId >>= fun n =>
  m.deref oldId >>= fun o =>
  pure (if (m.setWeight newId (n.weight + 1 + o.weight)).lastGlobalLoopClosureId == oldId then
      (m.setWeight newId (n.weight + 1 + o.weight)).setLastGlobalLoopClosureId newId
    else m.setWeight newId (n.weight + 1 + o.weight))

/-- The full merge that keeps the old node (lines 2703-2712). -/
def rehearsalMergeIntoOld (e : Env T I) (m : Memory T I) (oldId newId : Int) :
    Except Fault (Memory T I) :=
  -- to keep track of the merged location
  (m.modifySignature newId (fun s => s.addLink
    { from_ := newId, to_ := oldId, type := LinkType.kGlobalClosure,
      transform := e.geo.null, info := e.geo.infoUnit, userDataCompressed := [] })).deref newId
    >>= fun n =>
  (m.modifySignature newId (fun s => s.addLink
    { from_ := newId, to_ := oldId, type := LinkType.kGlobalClosure,
      transform := e.geo.null, info := e.geo.infoUnit, userDataCompressed := [] })).deref oldId
    >>= fun o =>
  -- update weight
  pure (if m.lastSignature == some newId then
      ((m.modifySignature newId (fun s => s.addLink
        { from_ := newId, to_ := oldId, type := LinkType.kGlobalClosure,
          transform := e.geo.null, info := e.geo.infoUnit, userDataCompressed := [] })).setWeight
        oldId (n.weight + 1 + o.weight)).setLastSignature (some oldId)
    else
      (m.modifySignature newId (fun s => s.addLink
        { from_ := newId, to_ := oldId, type := LinkType.kGlobalClosure,
          transform := e.geo.null, info := e.geo.infoUnit, userDataCompressed := [] })).setWeight
        oldId (n.weight + 1 + o.weight))

/-- The full merge of `rehearsalMerge` (lines 2657-2718): the mutual links are
removed, one node takes over the other and the other goes to the trash. -/
def rehearsalFullMerge (e : Env T I) (m : Memory T I) (oldS newS : Signature T I)
    (oldId newId : Int) : Except Fault (Memory T I) :=
  -- remove mutual links
  (match kfind Link.to_ newS.links oldS.id with
    | some l => pure l
    | none => throw Fault.outOfRange) >>= fun newToOldLink =>
  (if e.idUpdatedToNewOneRehearsal then
      rehearsalMergeIntoNew e
        ((m.modifySignature oldS.id (fun s => s.removeLink newId)).modifySignature newS.id
          (fun s => s.removeLink oldId)) oldS.id newS.id newToOldLink
    else
      rehearsalMergeIntoOld e
        ((m.modifySignature oldS.id (fun s => s.removeLink newId)).modifySignature newS.id
          (fun s => s.removeLink oldId)) oldS.id newS.id) >>= fun m =>
  -- remove location
  moveToTrash e m (if e.idUpdatedToNewOneRehearsal then oldS.id else newS.id)
    e.notLinkedNodesKeptInDb

/-- The weight update of `rehearsalMerge` without merge (lines 2720-2740). -/
def rehearsalWeights (e : Env T I) (m : Memory T I) (oldS newS : Signature T I)
    (intermediateMerge : Bool) : Memory T I :=
  -- update only weights
  if e.idUpdatedToNewOneRehearsal then
    -- just update weight, convert to intermediate node
    let m := m.setWeight newS.id ((if oldS.weight ≥ 0 then oldS.weight else 0) + newS.weight + 1)
    let m := m.setWeight oldS.id (if intermediateMerge then -1 else 0)
    if m.lastGlobalLoopClosureId == oldS.id then m.setLastGlobalLoopClosureId newS.id else m
  else
    let m := m.setWeight oldS.id ((if newS.weight ≥ 0 then newS.weight else 0) + oldS.weight + 1)
    -- convert to intermediate node
    m.setWeight newS.id (if intermediateMerge then -1 else 0)

/-- The method `Memory::rehearsalMerge` (lines 2605-2754). -/
def rehearsalMerge (e : Env T I) (m : Memory T I) (oldId newId : Int) :
    Except Fault (Bool × Memory T I) :=
  match m._getSignature oldId, m._getSignature newId with
  | some oldS, some newS =>
    if !e.incrementalMemory then pure (false, m)
    else if rehearsalAlreadyMerged oldS newS then
      -- do nothing, already merged
      pure (false, m)
    else
      uassert (!newS.saved) >>= fun _ =>
      (match newS.links.head? with
        | some l => pure l
        | none => throw Fault.endIterator) >>= fun first =>
      if !e.geo.isNull first.transform && e.isMoving first.transform &&
          e.rehearsalWeightIgnoredWhileMoving then
        pure (false, m)
      else if rehearsalFullMergeTest e oldS newS first then
        rehearsalFullMerge e m oldS newS oldId newId >>= fun m => pure (true, m)
      else
        pure (false, rehearsalWeights e m oldS newS (rehearsalIntermediateTest e oldS newS first))
  | _, _ => pure (false, m)

/-- The search of `Memory::rehearsal` (lines 2560-2569) through the STM, newest
first, for a node of non-negative weight other than the new one. -/
def rehearsalCandidate (m : Memory T I) (signatureId : Int) :
    List Int → Except Fault (Option (Signature T I))
  | [] => pure none
  | i :: rest =>
    match m._getSignature i with
    | none => throw Fault.assertion
    | some s =>
      if decide (s.weight ≥ 0) && s.id != signatureId then pure (some s)
      else rehearsalCandidate m signatureId rest

/-- The method `Memory::rehearsal` (lines 2547-2603) on the signature of the
table with the given id. -/
def rehearsal (e : Env T I) (m : Memory T I) (signatureId : Int) : Except Fault (Memory T I) :=
  m.deref signatureId >>= fun signature =>
  if signature.links.length != 1 || signature.isBadSignature then pure m
  else
    -- Compare with the last (not intermediate node)
    rehearsalCandidate m signature.id m.stMem.reverse >>= fun c =>
    match c with
    | some sB =>
      if e.similar signature sB then
        if e.incrementalMemory then
          rehearsalMerge e m sB.id signature.id >>= fun r => pure r.2
        else
          pure (m.setWeight signature.id (signature.weight + 1 + sB.weight))
      else pure m
    | none => pure m

end Memory

/-! ## The transfer policy -/

/-- The conversion of a `double` to `int`: truncation towards zero (of the
numerator by the positive denominator). This is the conversion for a value
whose truncation is within the range of `int`; for any other value the
conversion is undefined in the source language and is not modelled, as for
signed overflow. -/
def truncToInt (q : Rat) : Int :=
  Int.tdiv q.num q.den

/-- The sorting key `WeightAgeIdKey` (lines 1642-1672); its member `age` is
declared `int`. -/
structure WeightAgeIdKey where
  weight : Int
  age : Int
  id : Int
  deriving DecidableEq, Repr

/-- The constructor `WeightAgeIdKey(int w, double a, int i)`. -/
def WeightAgeIdKey.make (w : Int) (a : Rat) (i : Int) : WeightAgeIdKey :=
  { weight := w, age := truncToInt a, id := i }

/-- The comparison `WeightAgeIdKey::operator<`. -/
def WeightAgeIdKey.lt (a k : WeightAgeIdKey) : Bool :=
  if a.weight < k.weight then true
  else if a.weight = k.weight then
    if a.age < k.age then true
    else if a.age = k.age then decide (a.id < k.id)
    else false
  else false

/-- The insertion into the `std::map<WeightAgeIdKey, Signature*>`: the entry is
placed in key order unless an equivalent key is present. -/
def weightAgeIdInsert (k : WeightAgeIdKey) (sId : Int) :
    List (WeightAgeIdKey × Int) → List (WeightAgeIdKey × Int)
  | [] => [(k, sId)]
  | b :: rest =>
    if k.lt b.1 then (k, sId) :: b :: rest
    else if b.1.lt k then b :: weightAgeIdInsert k sId rest
    else b :: rest

/-- One round of the second loop of `getRemovableSignatures` (lines 1764-1787)
on the candidate `iter`: the list of removable ids, the immunity flag and the
count of recent ids removed, after the round. -/
def selectStep (lastGlobalLoopClosureId currentRecentWmSize recentWmMaxSize : Int)
    (iter : WeightAgeIdKey × Int) (recentWmImmunized : Bool) (recentWmCount : Int)
    (removable : List Int) : List Int × Bool × Int :=
  if !recentWmImmunized then
    if lastGlobalLoopClosureId != 0 && decide (iter.2 > lastGlobalLoopClosureId) then
      (removable ++ [iter.2],
       decide (currentRecentWmSize - (recentWmCount + 1) < recentWmMaxSize),
       recentWmCount + 1)
    else (removable ++ [iter.2], recentWmImmunized, recentWmCount)
  else if lastGlobalLoopClosureId == 0 || decide (iter.2 < lastGlobalLoopClosureId) then
    (removable ++ [iter.2], recentWmImmunized, recentWmCount)
  else (removable, recentWmImmunized, recentWmCount)

/-- The second loop of `getRemovableSignatures` (lines 1760-1792) over the
candidates in priority order; `count` is the `unsigned int` the parameter is
cast to. -/
def selectRemovable (lastGlobalLoopClosureId currentRecentWmSize recentWmMaxSize : Int)
    (count : Nat) :
    List (WeightAgeIdKey × Int) → Bool → Int → List Int → List Int
  | [], _, _, removable => removable
  | iter :: rest, recentWmImmunized, recentWmCount, removable =>
    if (selectStep lastGlobalLoopClosureId currentRecentWmSize recentWmMaxSize iter
        recentWmImmunized recentWmCount removable).1.length ≥ count then
      (selectStep lastGlobalLoopClosureId currentRecentWmSize recentWmMaxSize iter
        recentWmImmunized recentWmCount removable).1
    else selectRemovable lastGlobalLoopClosureId currentRecentWmSize recentWmMaxSize count rest
      (selectStep lastGlobalLoopClosureId currentRecentWmSize recentWmMaxSize iter
        recentWmImmunized recentWmCount removable).2.1
      (selectStep lastGlobalLoopClosureId currentRecentWmSize recentWmMaxSize iter
        recentWmImmunized recentWmCount removable).2.2
      (selectStep lastGlobalLoopClosureId currentRecentWmSize recentWmMaxSize iter
        recentWmImmunized recentWmCount removable).1

namespace Memory

variable {T I : Type}

/-- The bound `recentWmMaxSize` of `getRemovableSignatures` (line 1684):
`_recentWmRatio * float(_workingMem.size())` converted to `int`. -/
def recentWmMaxSize (e : Env T I) (m : Memory T I) : Int :=
  e.recentWmRatioTimes m.workingMem.length

/-- The count `currentRecentWmSize` of `getRemovableSignatures` (lines
1688-1698): when the last loop closure id is positive and not in the STM, the
number of entries of the working memory from that id to the end. -/
def currentRecentWmSize (m : Memory T I) : Int :=
  if decide (m.lastGlobalLoopClosureId > 0) && !m.stMem.contains m.lastGlobalLoopClosureId then
    -- look for the position of the lastLoopClosureId in WM
    ((m.workingMem.dropWhile (fun p => p.1 != m.lastGlobalLoopClosureId)).length : Int)
  else 0

/-- The flag `recentWmImmunized` of `getRemovableSignatures` as the first loop
sees it (lines 1699-1702). -/
def recentWmImmunized (e : Env T I) (m : Memory T I) : Bool :=
  decide (m.lastGlobalLoopClosureId > 0) && !m.stMem.contains m.lastGlobalLoopClosureId &&
    decide (currentRecentWmSize m > 1) && decide (currentRecentWmSize m < recentWmMaxSize e m)

/-- The signature `lastInSTM` of `getRemovableSignatures` (lines 1710-1714):
the one the first id of the STM stands for. -/
def lastInSTM (m : Memory T I) : Except Fault (Option (Signature T I)) :=
  match m.stMem.head? with
  | some h => m.signatureAt h >>= fun s => pure (some s)
  | none => pure none

/-- One round of the first loop of `getRemovableSignatures` (lines 1716-1753)
on the entry `memIter` of the working memory. -/
def removalCandidate (e : Env T I) (m : Memory T I) (ignoredIds : List Int)
    (lastInSTM : Option (Signature T I)) (acc : List (WeightAgeIdKey × Int))
    (memIter : Int × Rat) : List (WeightAgeIdKey × Int) :=
  if (recentWmImmunized e m && decide (memIter.1 > m.lastGlobalLoopClosureId)) ||
      memIter.1 == m.lastGlobalLoopClosureId then
    -- ignore recent memory
    acc
  else if decide (memIter.1 > 0) && !ignoredIds.contains memIter.1 &&
          (match lastInSTM with
           | some l => !l.hasLink memIter.1
           | none => true) then
    match m._getSignature memIter.1 with
    | some s =>
      -- Links must not be in STM to be removable, rehearsal issue
      if s.links.any (fun l => m.stMem.contains l.to_) then acc
      else
        -- less weighted signature priority to be transferred
        weightAgeIdInsert
          (WeightAgeIdKey.make s.weight
            (if e.transferSortingByWeightId then 0 else memIter.2) s.id) s.id acc
    | none => acc
  else acc

/-- The map `weightAgeIdMap` the first loop of `getRemovableSignatures` builds. -/
def removalCandidates (e : Env T I) (m : Memory T I) (ignoredIds : List Int)
    (lastInSTM : Option (Signature T I)) : List (WeightAgeIdKey × Int) :=
  m.workingMem.foldl (removalCandidate e m ignoredIds lastInSTM) []

/-- The method `Memory::getRemovableSignatures` (lines 1673-1799); the result
lists the ids of the signatures returned. -/
def getRemovableSignatures (e : Env T I) (m : Memory T I) (count : Int)
    (ignoredIds : List Int) : Except Fault (List Int) :=
  if m.workingMem.length != 0 then
    -- Ignore neighbor of the last location in STM
    lastInSTM m >>= fun l =>
    -- make the list of removable signatures
    pure (selectRemovable m.lastGlobalLoopClosureId (currentRecentWmSize m) (recentWmMaxSize e m)
      (count % 4294967296).toNat (removalCandidates e m ignoredIds l) (recentWmImmunized e m) 0 [])
  else
    pure []

/-- The loop of `Memory::forget` that removes one signature at a time until
enough words are unused (lines 1554-1575). Every round takes one entry out of
the working memory; `fuel` bounds the number of rounds. -/
def forgetByWords (e : Env T I) (ignoredIds : List Int) (newWords : Int) :
    Nat → Int → List Int → Memory T I → Except Fault (List Int × Memory T I)
  | 0, _, signaturesRemoved, m => pure (signaturesRemoved, m)
  | fuel + 1, wordsRemoved, signaturesRemoved, m => do
    if wordsRemoved < newWords then
      match ← getRemovableSignatures e m 1 ignoredIds with
      | sId :: _ =>
        let m ← moveToTrash e m sId true
        forgetByWords e ignoredIds newWords fuel m.vwd.getUnusedWordsSize
          (signaturesRemoved ++ [sId]) m
      | [] => pure (signaturesRemoved, m)
    else pure (signaturesRemoved, m)

/-- The loop of `Memory::forget` over the signatures selected at once
(lines 1584-1590). -/
def forgetAll (e : Env T I) : List Int → Memory T I → Except Fault (Memory T I)
  | [], m => pure m
  | sId :: rest, m => do
    let m ← moveToTrash e m sId true
    forgetAll e rest m

/-- The method `Memory::forget` (lines 1533-1602). The calls `moveToTrash(s)` use
the default `keepLinkedToGraph = true` of the declaration: a demoted node keeps
its links. -/
def forget (e : Env T I) (m : Memory T I) (ignoredIds : List Int) :
    Except Fault (List Int × Memory T I) := do
  if e.incrementalMemory && m.vwd.incremental && m.vwd.visualWords.length != 0 &&
     !m.vwd.incrementalFlann then
    forgetByWords e ignoredIds m.vwd.getNotIndexedWordsCount (m.workingMem.length + 1) 0 [] m
  else
    -- Remove one more than total added during the iteration
    let signatures ← getRemovableSignatures e m (m.signaturesAdded + 1) ignoredIds
    let m ← forgetAll e signatures m
    return (signatures, m)

/-- The first loop of `Memory::reactivateSignatures` (lines 3807-3817): the ids
to load from the database. -/
def idsToLoad (m : Memory T I) (maxLoaded : Nat) : List Int → List Int → List Int
  | [], acc => acc
  | i :: rest, acc =>
    if (m._getSignature i).isNone && !acc.contains i &&
       (maxLoaded == 0 || decide (acc.length < maxLoaded)) then
      idsToLoad m maxLoaded rest (acc ++ [i])
    else idsToLoad m maxLoaded rest acc

/-- The loop of `Memory::reactivateSignatures` that appends the loaded
signatures to the working memory (lines 3828-3833); `clock k` is the reading
of `UTimer::now()` in round `k`. -/
def reactivateInsert (clock : Nat → Rat) :
    List (Signature T I) → Nat → Memory T I → Memory T I
  | [], _, m => m
  | s :: rest, k, m => reactivateInsert clock rest (k + 1) (m.addSignatureToWmFromLTM s (clock k))

/-- The method `Memory::reactivateSignatures` (lines 3797-3837); the first
component is the set of ids returned. -/
def reactivateSignatures (e : Env T I) (m : Memory T I) (ids : List Int) (maxLoaded : Nat)
    (clock : Nat → Rat) : List Int × Memory T I :=
  let toLoad := idsToLoad m maxLoaded ids []
  let reactivatedSigns := if e.hasDb then e.loadSignatures toLoad else []
  let idsLoaded := reactivatedSigns.map Signature.id
  let m := reactivateInsert clock reactivatedSigns 0 m
  let m := enableWordsRef e m idsLoaded
  (toLoad.foldl (fun acc i => kinsert selfKey i acc) [], m)

/-- The method `Memory::cleanUnusedWords` (lines 3667-3691). -/
def cleanUnusedWords (m : Memory T I) : Memory T I :=
  if m.vwd.incremental then
    m.setVwd (m.vwd.removeWords (m.vwd.getUnusedWords.map VisualWord.id))
  else m

/-- The method `Memory::preUpdate` (lines 527-536). -/
def preUpdate (e : Env T I) (m : Memory T I) : Memory T I :=
  let m := cleanUnusedWords (m.setSignaturesAdded 0)
  if !e.parallelized then m.setVwd m.vwd.update else m

end Memory

/-! ## Signature creation and the update cycle -/

/-- What `Memory::createSignature` takes from its `SensorData` argument and
from the feature pipeline it drives (detector, descriptor extractor, dictionary
quantization), which are external to `Memory.cpp`. -/
structure SensorData where
  /-- The id `data.id()`. -/
  id : Int
  /-- Whether `data.imageRaw()` is empty. -/
  imageRawEmpty : Bool
  /-- Whether the image, depth and scan types pass the three entry assertions
  (lines 3019-3032). -/
  formatsValid : Bool
  /-- Whether a depth or right image comes without a valid camera model
  (lines 3034-3036). -/
  calibrationMissing : Bool
  /-- The word id quantization assigns to each descriptor kept, in order. -/
  wordIds : List Int
  deriving DecidableEq, Repr

/-- The placement of a key in a `std::multimap`: after the keys that are not
greater. -/
def multiPlace (k : Int) : List Int → List Int
  | [] => [k]
  | b :: rest => if k < b then k :: b :: rest else b :: multiPlace k rest

/-- The call `_vwd->addNewWords(descriptors, id)`. Modelled from the spec:
"for each input descriptor in order, assign an existing word id by NN match
below a threshold, otherwise allocate a new word id. Each assigned id gains
one reference from `signature_id`." -/
def addNewWords (d : VWDictionary) (wordIds : List Int) (signatureId : Int) : VWDictionary :=
  wordIds.foldl (fun d w =>
    let d := if (d.getWord w).isNone then
        d.addWord { id := w, references := [], saved := false }
      else d
    d.addWordRef w signatureId) d

namespace Memory

variable {T I : Type}

/-- The id assignment of `Memory::createSignature` (lines 3050-3080): the id
given to the new signature, `none` where the source returns a null pointer. -/
def createSignatureId (e : Env T I) (m : Memory T I) (data : SensorData) :
    Option Int × Memory T I :=
  if e.generateIds then
    -- getNextId()
    (some (m.idCount + 1), m.setIdCount (m.idCount + 1))
  else if data.id ≤ 0 then (none, m)
  else if data.id > m.idCount then (some data.id, m.setIdCount data.id)
  else (none, m)

/-- The dictionary update of `Memory::createSignature` and the construction of
the signature with the given id. -/
def createSignatureBuild (e : Env T I) (m : Memory T I) (data : SensorData) (pose : T)
    (id : Int) : Signature T I × Memory T I :=
  let isIntermediateNode := decide (data.id < 0) || data.imageRawEmpty
  let m := if e.parallelized then m.setVwd m.vwd.update else m
  let wordIds := if isIntermediateNode then [] else data.wordIds
  let m := m.setVwd (addNewWords m.vwd wordIds id)
  let words := wordIds.foldl (fun acc w => multiPlace w acc) []
  ({ id := id, mapId := m.idMapCount,
     -- tag intermediate nodes as weight=-1
     weight := if isIntermediateNode then -1 else 0,
     label := "", pose := pose, links := [], words := words,
     enabled := words.length != 0, saved := false }, m)

/-- The method `Memory::createSignature` (lines 3016-3643): the id assignment
(lines 3050-3080), the dictionary update and the construction of the signature;
the first component is `none` where the source returns a null pointer. -/
def createSignature (e : Env T I) (m : Memory T I) (data : SensorData) (pose : T) :
    Except Fault (Option (Signature T I) × Memory T I) :=
  uassert data.formatsValid >>= fun _ =>
  if data.calibrationMissing then pure (none, m)
  else
    match (createSignatureId e m data).1 with
    | none => pure (none, (createSignatureId e m data).2)
    | some id =>
      pure (some (createSignatureBuild e (createSignatureId e m data).2 data pose id).1,
        (createSignatureBuild e (createSignatureId e m data).2 data pose id).2)

/-- The count of `Memory::update` (lines 616-625) of the STM nodes that are not
intermediate; every STM id must be in the table. -/
def countNotIntermediate (m : Memory T I) : List Int → Except Fault Int
  | [] => pure 0
  | i :: rest =>
    match m._getSignature i with
    | none => throw Fault.assertion
    | some s => do
      let n ← countNotIntermediate m rest
      pure (if s.weight ≥ 0 then n + 1 else n)

/-- The transfer loop of `Memory::update` (lines 627-644). Every round takes
the head out of the STM; `fuel` bounds the number of rounds and `clock k` is
the reading of `UTimer::now()` in round `k`. -/
def updateTransfer (e : Env T I) (clock : Nat → Rat) :
    Nat → Nat → Int → List (Int × Int) → Memory T I →
    Except Fault (List (Int × Int) × Memory T I)
  | 0, _, _, reducedIds, m => pure (reducedIds, m)
  | fuel + 1, k, notIntermediateNodesCount, reducedIds, m =>
    match m.stMem.head? with
    | none => pure (reducedIds, m)
    | some id =>
      if decide (e.maxStMemSize > 0) && decide (notIntermediateNodesCount > e.maxStMemSize) then
        match m._getSignature id with
        | none => throw Fault.assertion
        | some s => do
          let n := if s.weight ≥ 0 then notIntermediateNodesCount - 1
                   else notIntermediateNodesCount
          let (m, reducedTo) ← moveSignatureToWMFromSTM e m id 0 (clock k)
          let reducedIds := if reducedTo > 0 then kinsert Prod.fst (id, reducedTo) reducedIds
                            else reducedIds
          updateTransfer e clock fuel (k + 1) n reducedIds m
      else pure (reducedIds, m)

/-- The part of `Memory::update` after the creation of the signature (lines
572-644): insertion into the STM, rehearsal and transfer; the first component
lists the reduced ids handed to the statistics. -/
def updateAdd (e : Env T I) (m : Memory T I) (signature : Signature T I) (infMatrix : I)
    (clock : Nat → Rat) : Except Fault (List (Int × Int) × Memory T I) :=
  -- It will be added to the short-term memory
  addSignatureToStm e m signature infMatrix >>= fun m =>
  -- Rehearsal step
  (if e.incrementalMemory && e.similarityBelowOne then
      rehearsal e (m.setLastSignature (some signature.id)) signature.id
    else pure (m.setLastSignature (some signature.id))) >>= fun m =>
  -- Transfer the oldest signature of the short-term memory to the working memory
  countNotIntermediate m m.stMem >>= fun notIntermediateNodesCount =>
  updateTransfer e clock m.stMem.length 0 notIntermediateNodesCount [] m

/-- The method `Memory::update` (lines 545-655); the components of the result
are the value returned, the reduced ids handed to the statistics and the
memory. -/
def update (e : Env T I) (m : Memory T I) (data : SensorData) (pose : T) (infMatrix : I)
    (clock : Nat → Rat) : Except Fault (Bool × List (Int × Int) × Memory T I) :=
  createSignature e (preUpdate e m) data pose >>= fun c =>
  match c.1 with
  | none => pure (false, [], c.2)
  | some signature =>
    updateAdd e c.2 signature infMatrix clock >>= fun r =>
    pure (true, r.1,
      if !r.2.memoryChanged && e.incrementalMemory then r.2.setMemoryChanged true else r.2)

/-- The loop `while(_stMem.size()) moveSignatureToWMFromSTM(*_stMem.begin())`
of `Memory::clear` and `Memory::incrementMapId`. -/
def flushStm (e : Env T I) (clock : Nat → Rat) :
    Nat → Nat → List (Int × Int) → Memory T I → Except Fault (List (Int × Int) × Memory T I)
  | 0, _, reducedIds, m => pure (reducedIds, m)
  | fuel + 1, k, reducedIds, m =>
    match m.stMem.head? with
    | none => pure (reducedIds, m)
    | some id => do
      let (m, reducedId) ← moveSignatureToWMFromSTM e m id 0 (clock k)
      let reducedIds := if reducedId > 0 then kinsert Prod.fst (id, reducedId) reducedIds
                        else reducedIds
      flushStm e clock fuel (k + 1) reducedIds m

/-- The size check of `Memory::clear` (lines 1311-1322): with a database
attached and a non-empty memory, the sizes of the working and the short-term
memory, less one when the working memory starts with a negative id, must add
up to the size of the signature table. -/
def clearSizeCheck (e : Env T I) (m : Memory T I) : Bool :=
  if e.hasDb && (m.stMem.length != 0 || m.workingMem.length != 0) then
    let memSize := m.workingMem.length + m.stMem.length
    let memSize := match m.workingMem.head? with
      | some first => if first.1 < 0 then memSize - 1 else memSize
      | none => memSize
    memSize == m.signatures.length
  else true

/-- The first part of `Memory::clear` (lines 1281-1322): the STM is emptied
into the working memory, the unused words are cleaned and the size check is
asserted. -/
def clearBegin (e : Env T I) (m : Memory T I) (clock : Nat → Rat) :
    Except Fault (Memory T I) := do
  let (_, m) ← flushStm e clock m.stMem.length 0 [] m
  let m := cleanUnusedWords (m.setStMem [])
  uassert (clearSizeCheck e m)
  return m

end Memory

/-! ## Concrete instances

A geometry of translations along a line (`none` is the null transform), with
trivial information matrices, and small memories over it. -/

/-- Translations along a line: composition adds, inversion negates, `none` is
the null transform. -/
def lineGeometry : Geometry (Option Int) Unit where
  null := none
  isNull := fun t => t.isNone
  inverse := fun t => t.map (fun x => -x)
  mul := fun a b =>
    match a, b with
    | some x, some y => some (x + y)
    | _, _ => none
  infoDefault := ()
  infoUnit := ()
  infoMerge := fun _ _ => ()

/-- An environment over `lineGeometry` without database, with the given mode
flags and STM size. `Mem/RecentWmRatio` is 0.25: the product of a size below
2^24 with a power of two is exact in single precision, so the bound is the
quarter of the size, truncated. -/
def lineEnv (incrementalMemory reduceGraph : Bool) (maxStMemSize : Int) :
    Env (Option Int) Unit where
  geo := lineGeometry
  incrementalMemory := incrementalMemory
  reduceGraph := reduceGraph
  notLinkedNodesKeptInDb := true
  idUpdatedToNewOneRehearsal := false
  badSignaturesIgnored := false
  mapLabelsAdded := true
  rehearsalWeightIgnoredWhileMoving := false
  transferSortingByWeightId := false
  generateIds := true
  parallelized := false
  maxStMemSize := maxStMemSize
  recentWmRatioTimes := fun n => (n : Int) / 4
  similarityBelowOne := true
  hasDb := false
  isMoving := fun _ => false
  similar := fun _ _ => false
  loadWords := fun _ => []
  findNN := fun _ _ => []
  loadSignatures := fun _ => []
  getNodeIdByLabel := fun _ => 0

/-- A dictionary without words. -/
def emptyDictionary : VWDictionary :=
  { visualWords := [], notIndexedWords := [], incremental := true, incrementalFlann := false }

/-- A signature of map 0 at pose `pose` with the given id, weight and links and
without words. -/
def lineSignature (id weight : Int) (pose : Option Int) (links : List (Link (Option Int) Unit)) :
    Signature (Option Int) Unit :=
  { id := id, mapId := 0, weight := weight, label := "", pose := pose, links := links,
    words := [], enabled := false, saved := false }

/-- A link over `lineGeometry` without user data. -/
def lineLink (from_ to_ : Int) (type : LinkType) (transform : Option Int) :
    Link (Option Int) Unit :=
  { from_ := from_, to_ := to_, type := type, transform := transform, info := (),
    userDataCompressed := [] }

/-- A memory over `lineGeometry` holding the given signatures, STM and working
memory, with an empty dictionary and all counters and flags reset. -/
def lineMemory (signatures : List (Signature (Option Int) Unit)) (stMem : List Int)
    (workingMem : List (Int × Rat)) : Memory (Option Int) Unit :=
  { signatures := signatures, stMem := stMem, workingMem := workingMem,
    vwd := emptyDictionary, lastSignature := none, lastGlobalLoopClosureId := 0,
    idCount := 0, idMapCount := 0, memoryChanged := false, linksChanged := false,
    signaturesAdded := 0, dbTrash := [] }

/-- A memory over `lineGeometry` whose working memory holds the unlinked nodes
1 and 2 with the given weights. -/
def twoNodeMemory (w1 w2 : Int) : Memory (Option Int) Unit :=
  lineMemory [lineSignature 1 w1 (some 0) [], lineSignature 2 w2 (some 1) []] []
    [(-1, 0), (1, 0), (2, 0)]

/-- A memory over `lineGeometry` whose working memory holds the nodes 1 and 2
with the given weights, linked to each other by a link of the given type. -/
def linkedPairMemory (type : LinkType) (w1 w2 : Int) : Memory (Option Int) Unit :=
  lineMemory
    [lineSignature 1 w1 (some 0) [lineLink 1 2 type (some 3)],
     lineSignature 2 w2 (some 3) [lineLink 2 1 type (some (-3))]] []
    [(-1, 0), (1, 0), (2, 0)]

/-! ## Tier consistency -/

/-- The keys of the signature table `_signatures`. -/
def Memory.ids {T I : Type} (m : Memory T I) : List Int :=
  m.signatures.map Signature.id

/-- The keys of the working memory `_workingMem`. -/
def Memory.wmIds {T I : Type} (m : Memory T I) : List Int :=
  m.workingMem.map Prod.fst

/-- Tier consistency: the STM and the working memory share no id, and the keys
of the signature table are the STM ids together with the ids of the working
memory other than the virtual id -1. -/
def TierConsistent {T I : Type} (m : Memory T I) : Prop :=
  (∀ i ∈ m.stMem, i ∉ m.wmIds) ∧
  (∀ i ∈ m.ids, i ∈ m.stMem ∨ (i ∈ m.wmIds ∧ i ≠ -1)) ∧
  (∀ i ∈ m.stMem, i ∈ m.ids) ∧
  (∀ i ∈ m.wmIds, i ≠ -1 → i ∈ m.ids)

/-- Every signature of the table has a positive id ("all real ids `> 0`"). -/
def PositiveIds {T I : Type} (m : Memory T I) : Prop :=
  ∀ i ∈ m.ids, 0 < i

/-- Two memories with the same STM, the same working memory, the same keys in
the signature table and the same id counter. -/
def SameTiers {T I : Type} (m m' : Memory T I) : Prop :=
  m'.stMem = m.stMem ∧ m'.workingMem = m.workingMem ∧ m'.ids = m.ids ∧
  m'.idCount = m.idCount

/-- The keys of the signature table, of the STM and of the working memory
ascend strictly: the representation invariant of the three containers. -/
def KeysSorted {T I : Type} (m : Memory T I) : Prop :=
  KSorted Signature.id m.signatures ∧ KSorted selfKey m.stMem ∧
  KSorted Prod.fst m.workingMem

/-- The id counter `_idCount` is not negative and bounds the ids of the table. -/
def IdsBounded {T I : Type} (m : Memory T I) : Prop :=
  0 ≤ m.idCount ∧ ∀ i ∈ m.ids, i ≤ m.idCount

/-- The location `k` has left the three containers and nothing else changed in
them. -/
def Trashed {T I : Type} (k : Int) (m m' : Memory T I) : Prop :=
  m'.stMem = kerase selfKey k m.stMem ∧
  m'.workingMem = kerase Prod.fst k m.workingMem ∧
  m'.ids = kerase selfKey k m.ids ∧
  m'.idCount = m.idCount

/-- The database returns only signatures that were asked for, and these have
positive ids. -/
def LoadsRequested {T I : Type} (e : Env T I) : Prop :=
  ∀ l, ∀ s ∈ e.loadSignatures l, s.id ∈ l ∧ 0 < s.id

/-- The invariant of the tiers: sorted containers, tier consistency and
positive ids. -/
def TierInvariant {T I : Type} (m : Memory T I) : Prop :=
  KeysSorted m ∧ TierConsistent m ∧ PositiveIds m

/-! ## Word references -/

/-- The signatures that hold a reference on a word: the keys of its
inverted-index entry, none for a word that is not in the dictionary. -/
def VWDictionary.refs (d : VWDictionary) (wordId : Int) : List Int :=
  match d.getWord wordId with
  | some w => w.references.map Prod.fst
  | none => []

/-- The signature with id `i` is in memory, enabled, and cites the word. -/
def Memory.cites {T I : Type} (m : Memory T I) (wordId i : Int) : Prop :=
  ∃ s, m._getSignature i = some s ∧ s.enabled = true ∧ wordId ∈ s.words

/-- Word-reference consistency: the signatures referenced by a word are the
enabled signatures in memory that cite it. -/
def WordRefsConsistent {T I : Type} (m : Memory T I) : Prop :=
  ∀ wordId i, i ∈ m.vwd.refs wordId ↔ m.cites wordId i

/-- The contract of the collaborators `enableWordsRef` consults: a database is
attached, `loadWords` returns every word asked for, without references, and
`findNN` names only words of the dictionary as active matches. -/
def WordsAvailable {T I : Type} (e : Env T I) : Prop :=
  e.hasDb = true ∧
  (∀ ids, (∀ k ∈ ids, ∃ vw ∈ e.loadWords ids, vw.id = k) ∧
    ∀ vw ∈ e.loadWords ids, vw.references = []) ∧
  (∀ d vws, ∀ a ∈ e.findNN d vws, 0 < a → (d.getWord a).isSome = true)

/-- The database returns signatures that are not enabled yet. -/
def LoadsDisabled {T I : Type} (e : Env T I) : Prop :=
  ∀ l, ∀ s ∈ e.loadSignatures l, s.enabled = false

/-- Two memories whose signatures look the same through `view`, id by id. -/
def SameView {T I β : Type} (view : Signature T I → β) (m m' : Memory T I) : Prop :=
  ∀ i, (m'._getSignature i).map view = (m._getSignature i).map view

/-- What the word references depend on in a signature. -/
def wordView {T I : Type} (s : Signature T I) : Bool × List Int :=
  (s.enabled, s.words)

/-- Two memories with the same dictionary whose signatures have the same words
and the same `enabled` flag, id by id. -/
def SameWords {T I : Type} (m m' : Memory T I) : Prop :=
  m'.vwd = m.vwd ∧ SameView wordView m m'

/-- An environment over `lineGeometry` with a database attached that returns
every word asked for, without references, and no signature; `findNN` finds no
active match. -/
def archiveEnv : Env (Option Int) Unit :=
  { lineEnv true false 2 with
    hasDb := true
    loadWords := fun ids => ids.map (fun k => { id := k, references := [], saved := true })
    findNN := fun _ vws => vws.map (fun _ => 0) }

/-- A memory over `lineGeometry` whose STM holds the enabled node 1 with the
words 7 and 8 and whose working memory holds the node 2 without words; the
dictionary holds the words 7 and 8, referenced by node 1. -/
def wordMemory : Memory (Option Int) Unit :=
  { lineMemory
      [{ lineSignature 1 0 (some 0) [] with words := [7, 8], enabled := true },
       lineSignature 2 0 (some 1) []] [1] [(-1, 0), (2, 0)] with
    vwd := { emptyDictionary with
      visualWords := [{ id := 7, references := [(1, 1)], saved := false },
                      { id := 8, references := [(1, 1)], saved := false }] } }

/-- A memory over `lineGeometry` for the graph reduction: the working memory
holds node 1, the STM the nodes 2 and 3; node 2 carries the given label and is
linked to node 1 by a link of the given type and to node 3 by a neighbor
link. -/
def reductionMemory (label : String) (type : LinkType) : Memory (Option Int) Unit :=
  lineMemory
    [lineSignature 1 0 (some 0) [lineLink 1 2 type (some 1)],
     { lineSignature 2 0 (some 1)
         [lineLink 2 1 type (some (-1)), lineLink 2 3 LinkType.kNeighbor (some 1)] with
       label := label },
     lineSignature 3 0 (some 2) [lineLink 3 2 LinkType.kNeighbor (some (-1))]]
    [2, 3] [(-1, 0), (1, 0)]

/-- What makes a signature id eligible for a transfer out of the working
memory: it is a key of the working memory, positive, not ignored, not the last
global loop closure id, and its signature is in memory without a link to a
signature of the STM. -/
def Removable {T I : Type} (m : Memory T I) (ignoredIds : List Int) (id : Int) : Prop :=
  id ∈ m.wmIds ∧ 0 < id ∧ id ∉ ignoredIds ∧ id ≠ m.lastGlobalLoopClosureId ∧
  ∃ s, m._getSignature id = some s ∧ ∀ l ∈ s.links, l.to_ ∉ m.stMem

/-- The links of the signatures other than `x` after a removal of `x`: the
same signatures are in memory, none has a new link, and each keeps its links
to the signatures other than `x`. -/
def LinksKept {T I : Type} (x : Int) (m m' : Memory T I) : Prop :=
  ∀ j, j ≠ x →
    (m'._getSignature j).isSome = (m._getSignature j).isSome ∧
    ∀ s s', m._getSignature j = some s → m'._getSignature j = some s' →
      (∀ l ∈ s'.links, l ∈ s.links) ∧ (∀ l ∈ s.links, l.to_ ≠ x → l ∈ s'.links)

/-- A memory over `lineGeometry` whose working memory holds the unlinked nodes
1, 2 and 3 of weight 0, with the given last global loop closure id. -/
def threeNodeMemory (lastGlobalLoopClosureId : Int) : Memory (Option Int) Unit :=
  (lineMemory [lineSignature 1 0 (some 0) [], lineSignature 2 0 (some 1) [],
    lineSignature 3 0 (some 2) []] [] [(-1, 0), (1, 0), (2, 0), (3, 0)]).setLastGlobalLoopClosureId
    lastGlobalLoopClosureId

/-- The environment `lineEnv` for an incremental memory with
`Mem/RecentWmRatio` set to `num / 2 ^ k`. For a size `n` with `num * n` below
2^24 both factors and their product are exact in single precision, so the
bound is `num * n / 2 ^ k`, truncated. -/
def ratioEnv (num k : Nat) : Env (Option Int) Unit :=
  { lineEnv true false 2 with recentWmRatioTimes := fun n => ((num * n / 2 ^ k : Nat) : Int) }

/-- Two memories whose signatures with an id above `x` look the same through
`view`, id by id. -/
def SameViewAbove {T I β : Type} (x : Int) (view : Signature T I → β) (m m' : Memory T I) :
    Prop :=
  ∀ i, x < i → (m'._getSignature i).map view = (m._getSignature i).map view

/-- Whether the id stands for a signature in memory that is not intermediate
(weight >= 0). -/
def Memory.notIntermediate {T I : Type} (m : Memory T I) (i : Int) : Bool :=
  match m._getSignature i with
  | some s => decide (s.weight ≥ 0)
  | none => false

/-- The number of STM signatures that are not intermediate (weight >= 0). -/
def Memory.stmCount {T I : Type} (m : Memory T I) : Int :=
  ((m.stMem.filter m.notIntermediate).length : Int)

/-! ## Sequences of calls -/

/-- What a call of `createSignature` that returns a signature shows of the id
counter: `_idCount` before the call, the id of the signature returned and
`_idCount` after the call. -/
structure IdRecord where
  before : Int
  id : Int
  after : Int
  deriving DecidableEq, Repr

/-- A call of `createSignature` or of one of the other operations on the memory
(not `init`, `close` or `clear`), with its arguments. -/
inductive MemoryCall (T I : Type) where
  | createSignature (data : SensorData) (pose : T)
  | preUpdate
  | addSignatureToStm (signature : Signature T I) (infMatrix : I)
  | rehearsal (signatureId : Int)
  | moveSignatureToWMFromSTM (id : Int) (now : Rat)
  | addLink (link : Link T I)
  | removeLink (oldId newId : Int)
  | updateLink (fromId toId : Int) (transform : T) (info : I)
  | forget (ignoredIds : List Int)
  | reactivateSignatures (ids : List Int) (maxLoaded : Nat) (clock : Nat → Rat)
  | moveToTrash (sId : Int) (keepLinkedToGraph : Bool)

/-- The effect of one call on the memory; a call of `createSignature` that
returns a signature leaves an `IdRecord`. -/
def MemoryCall.run {T I : Type} (e : Env T I) (m : Memory T I) :
    MemoryCall T I → Except Fault (Option IdRecord × Memory T I)
  | .createSignature data pose =>
    Memory.createSignature e m data pose >>= fun c =>
    pure (c.1.map (fun s => { before := m.idCount, id := s.id, after := c.2.idCount }), c.2)
  | .preUpdate => pure (none, Memory.preUpdate e m)
  | .addSignatureToStm signature infMatrix =>
    Memory.addSignatureToStm e m signature infMatrix >>= fun m => pure (none, m)
  | .rehearsal signatureId => Memory.rehearsal e m signatureId >>= fun m => pure (none, m)
  | .moveSignatureToWMFromSTM id now =>
    Memory.moveSignatureToWMFromSTM e m id 0 now >>= fun r => pure (none, r.1)
  | .addLink link => Memory.addLink e m link >>= fun r => pure (none, r.2)
  | .removeLink oldId newId => Memory.removeLink m oldId newId >>= fun m => pure (none, m)
  | .updateLink fromId toId transform info =>
    Memory.updateLink e m fromId toId transform info >>= fun m => pure (none, m)
  | .forget ignoredIds => Memory.forget e m ignoredIds >>= fun r => pure (none, r.2)
  | .reactivateSignatures ids maxLoaded clock =>
    pure (none, (Memory.reactivateSignatures e m ids maxLoaded clock).2)
  | .moveToTrash sId keepLinkedToGraph =>
    Memory.moveToTrash e m sId keepLinkedToGraph >>= fun m => pure (none, m)

/-- A sequence of calls, each on the memory the one before left; the first
component lists the records of the calls of `createSignature` that returned a
signature, in the order of the calls. -/
def runCalls {T I : Type} (e : Env T I) (m : Memory T I) :
    List (MemoryCall T I) → Except Fault (List IdRecord × Memory T I)
  | [] => pure ([], m)
  | c :: rest =>
    c.run e m >>= fun r =>
    runCalls e r.2 rest >>= fun t =>
    pure (r.1.toList ++ t.1, t.2)

/-! ## Link symmetry -/

/-- Laws of the transforms the link invariant rests on. Modelled from the
spec: the class `Transform` is declared outside `Memory.cpp`; inverting twice
gives the transform back and the null transform is its own inverse. -/
def GeometryLaws {T I : Type} (g : Geometry T I) : Prop :=
  (∀ t, g.inverse (g.inverse t) = t) ∧ g.inverse g.null = g.null

/-- Link bidirectionality: every link of a signature in memory leads to a
signature in memory that stores a link back with the same type and the inverse
transform. -/
def LinksBidirectional {T I : Type} (g : Geometry T I) (m : Memory T I) : Prop :=
  ∀ i s, m._getSignature i = some s → ∀ l ∈ s.links,
    ∃ p, m._getSignature l.to_ = some p ∧
      ∃ k ∈ p.links, k.to_ = i ∧ k.type = l.type ∧ k.transform = g.inverse l.transform

/-- Link symmetry towards the peers in memory: every link of a signature in
memory whose peer is in memory has a link back on the peer, with the same type
and the inverse transform. -/
def LinksSymmetric {T I : Type} (g : Geometry T I) (m : Memory T I) : Prop :=
  ∀ i s, m._getSignature i = some s → ∀ l ∈ s.links,
    ∀ p, m._getSignature l.to_ = some p →
      ∃ k ∈ p.links, k.to_ = i ∧ k.type = l.type ∧ k.transform = g.inverse l.transform

/-- Well-formed links: the ids in memory are within the id counter, and on
every signature in memory no link leads to the signature itself, every link
leads to an id within the id counter, and no two links lead to the same id. -/
def LinksWellFormed {T I : Type} (m : Memory T I) : Prop :=
  (∀ i s, m._getSignature i = some s → i ≤ m.idCount) ∧
  ∀ i s, m._getSignature i = some s →
    (∀ l ∈ s.links, l.to_ ≠ i ∧ l.to_ ≤ m.idCount) ∧
    ∀ l ∈ s.links, ∀ k ∈ s.links, l.to_ = k.to_ → l = k

/-- The link invariant: symmetric and well-formed links. -/
def LinkInvariant {T I : Type} (g : Geometry T I) (m : Memory T I) : Prop :=
  LinksSymmetric g m ∧ LinksWellFormed m

/-- The links of the signatures in memory, by id. -/
def Memory.linksOf {T I : Type} (m : Memory T I) (i : Int) : Option (List (Link T I)) :=
  (m._getSignature i).map Signature.links

/-- A table of links with the entry of `k` changed by `f`. -/
def tableModify {T I : Type} (k : Int) (f : List (Link T I) → List (Link T I))
    (tbl : Int → Option (List (Link T I))) : Int → Option (List (Link T I)) :=
  fun j => if j = k then (tbl j).map f else tbl j

/-- The link invariant of a table of links under the id counter `n`, with the
ids under `X` left out: nothing is asked of their links nor of the links that
lead to them. -/
def LinkTableInv {T I : Type} (g : Geometry T I) (X : Int → Prop) (n : Int)
    (tbl : Int → Option (List (Link T I))) : Prop :=
  (∀ i ls, tbl i = some ls → i ≤ n) ∧
  ∀ i ls, tbl i = some ls → ¬ X i →
    (∀ l ∈ ls, ∀ k ∈ ls, l.to_ = k.to_ → l = k) ∧
    ∀ l ∈ ls, l.to_ ≠ i ∧ l.to_ ≤ n ∧
      (¬ X l.to_ → ∀ ps, tbl l.to_ = some ps →
        ∃ k ∈ ps, k.to_ = i ∧ k.type = l.type ∧ k.transform = g.inverse l.transform)

/-- A table of links without the entry of `x`. -/
def tableErase {T I : Type} (x : Int) (tbl : Int → Option (List (Link T I))) :
    Int → Option (List (Link T I)) :=
  fun j => if j = x then none else tbl j

/-- A table of links with the entry of `x` set to `ls`. -/
def tableInsert {T I : Type} (x : Int) (ls : List (Link T I))
    (tbl : Int → Option (List (Link T I))) : Int → Option (List (Link T I)) :=
  fun j => if j = x then some ls else tbl j

/-! ## Metric constraints -/

/-- The insertion `std::multimap::insert`: the entry goes after the entries
whose key is not greater. -/
def multiInsert {α : Type} (key : α → Int) (a : α) : List α → List α
  | [] => [a]
  | b :: rest => if key a < key b then a :: b :: rest else b :: multiInsert key a rest

namespace Memory

variable {T I : Type}

/-- The query `Memory::getOdomPose(signatureId, false)` (lines 2756-2790): the
pose of the signature in memory, else the null transform. -/
def getOdomPose (e : Env T I) (m : Memory T I) (signatureId : Int) : T :=
  match m._getSignature signatureId with
  | some s => s.pose
  | none => e.geo.null

/-- The query `Memory::getLinks(signatureId, false)` (lines 963-982). -/
def getLinks (m : Memory T I) (signatureId : Int) : List (Link T I) :=
  match m._getSignature signatureId with
  | some s => s.links
  | none => []

/-- The query `Memory::getNeighborLinks(signatureId, false)` (lines 891-931):
the links of type `kNeighbor` or `kNeighborMerged` of the signature in memory,
entered one by one into a new map. -/
def getNeighborLinks (m : Memory T I) (signatureId : Int) : List (Link T I) :=
  match m._getSignature signatureId with
  | some s =>
    s.links.foldl (fun links iter =>
      if iter.type == LinkType.kNeighbor || iter.type == LinkType.kNeighborMerged then
        kinsert Link.to_ iter links
      else links) []
  | none => []

/-- The first loop of `Memory::getMetricConstraints` (lines 3848-3855): the
non-null poses of the given ids. -/
def metricPoses (e : Env T I) (m : Memory T I) : List Int → List (Int × T) → List (Int × T)
  | [], poses => poses
  | iter :: rest, poses =>
    metricPoses e m rest
      (if !e.geo.isNull (getOdomPose e m iter) then
         kinsert Prod.fst (iter, getOdomPose e m iter) poses
       else poses)

/-- The loop of `Memory::getMetricConstraints` that skips the intermediate
nodes (lines 3876-3897), from the signature `sId` stands for. `fuel` bounds
the number of rounds; the result is `none` when the rounds are used up before
the loop ends. -/
def skipIntermediate (e : Env T I) (m : Memory T I) :
    Nat → Int → Link T I → List (Int × T) → Except Fault (Option (Link T I × List (Int × T)))
  | 0, _, _, _ => pure none
  | fuel + 1, sId, link, poses =>
    match m._getSignature sId with
    | none => pure (some (link, poses))
    | some s =>
      if s.weight == -1 then
        -- skip to next neighbor, well we assume that bad signatures
        -- are only linked by max 2 neighbor links.
        uassert (decide ((getNeighborLinks m s.id).length ≤ 2)) >>= fun _ =>
        match (getNeighborLinks m s.id).find? (fun l => decide (l.to_ > s.id)) with
        | some uter =>
          match m._getSignature uter.to_ with
          | some s2 =>
            skipIntermediate e m fuel s2.id (link.merge e.geo uter uter.type)
              (kerase Prod.fst s.id poses)
          | none => skipIntermediate e m fuel s.id link poses
        | none => pure (some (link, poses))
      else pure (some (link, poses))

/-- The loop of `Memory::getMetricConstraints` over the links of the id `iter`
(lines 3862-3904). `linkValid` stands for `Link::isValid` and `findLink` for
the test `graph::findLink(links, from, to) != links.end()`, both declared
outside `Memory.cpp`. -/
def metricNodeLinks (e : Env T I) (m : Memory T I) (linkValid : Link T I → Bool)
    (findLink : List (Int × Link T I) → Int → Int → Bool) (fuel : Nat) (iter : Int) :
    List (Link T I) → List (Int × T) × List (Int × Link T I) →
    Except Fault (Option (List (Int × T) × List (Int × Link T I)))
  | [], acc => pure (some acc)
  | jter :: rest, (poses, links) =>
    if linkValid jter && khas Prod.fst poses jter.to_ && !findLink links iter jter.to_ then
      if jter.type == LinkType.kNeighbor || jter.type == LinkType.kNeighborMerged then
        uassert (m._getSignature jter.to_).isSome >>= fun _ =>
        skipIntermediate e m fuel jter.to_ jter poses >>= fun r =>
        match r with
        | some (link, poses) =>
          metricNodeLinks e m linkValid findLink fuel iter rest
            (poses, multiInsert Prod.fst (iter, link) links)
        | none => pure none
      else
        metricNodeLinks e m linkValid findLink fuel iter rest
          (poses, multiInsert Prod.fst (iter, jter) links)
    else metricNodeLinks e m linkValid findLink fuel iter rest (poses, links)

/-- The second loop of `Memory::getMetricConstraints` (lines 3857-3908) over
the ids. -/
def metricLinks (e : Env T I) (m : Memory T I) (linkValid : Link T I → Bool)
    (findLink : List (Int × Link T I) → Int → Int → Bool) (fuel : Nat) :
    List Int → List (Int × T) × List (Int × Link T I) →
    Except Fault (Option (List (Int × T) × List (Int × Link T I)))
  | [], acc => pure (some acc)
  | iter :: rest, (poses, links) =>
    if khas Prod.fst poses iter then
      metricNodeLinks e m linkValid findLink fuel iter (getLinks m iter) (poses, links)
        >>= fun r =>
      match r with
      | some acc => metricLinks e m linkValid findLink fuel rest acc
      | none => pure none
    else metricLinks e m linkValid findLink fuel rest (poses, links)

/-- The method `Memory::getMetricConstraints(ids, poses, links, false)` (lines
3841-3909) on empty `poses` and `links`; every run of the loop that skips the
intermediate nodes has `fuel` rounds, and the result is `none` when one of
them uses them up. -/
def getMetricConstraints (e : Env T I) (m : Memory T I) (linkValid : Link T I → Bool)
    (findLink : List (Int × Link T I) → Int → Int → Bool) (fuel : Nat) (ids : List Int) :
    Except Fault (Option (List (Int × T) × List (Int × Link T I))) :=
  metricLinks e m linkValid findLink fuel ids (metricPoses e m ids [], [])

end Memory

/-- A memory over `lineGeometry` whose working memory holds the node 1 of
weight 0 and the intermediate node 2 (weight -1); node 2 is linked as a
neighbor to node 1 and to node 3, which is not in memory. -/
def danglingNeighborMemory : Memory (Option Int) Unit :=
  (lineMemory
    [lineSignature 1 0 (some 0) [lineLink 1 2 LinkType.kNeighbor (some 1)],
     lineSignature 2 (-1) (some 1)
       [lineLink 2 1 LinkType.kNeighbor (some (-1)), lineLink 2 3 LinkType.kNeighbor (some 1)]]
    [] [(-1, 0), (1, 0), (2, 0)]).setIdCount 3

/-! ## Memories and environments for the merges -/

/-- The environment `lineEnv` for an incremental memory with the given values
of `Mem/NotLinkedNodesKept` and `Mem/RehearsalIdUpdatedToNewOne`. -/
def mergeEnv (notLinkedNodesKeptInDb idUpdatedToNewOneRehearsal : Bool) :
    Env (Option Int) Unit :=
  { lineEnv true false 2 with
    notLinkedNodesKeptInDb := notLinkedNodesKeptInDb
    idUpdatedToNewOneRehearsal := idUpdatedToNewOneRehearsal }

/-- A memory over `lineGeometry` whose STM holds the nodes 1 and 2 with the
given weights, linked to each other as neighbors. -/
def stmPairMemory (w1 w2 : Int) : Memory (Option Int) Unit :=
  (lineMemory
    [lineSignature 1 w1 (some 0) [lineLink 1 2 LinkType.kNeighbor (some 3)],
     lineSignature 2 w2 (some 3) [lineLink 2 1 LinkType.kNeighbor (some (-3))]]
    [1, 2] [(-1, 0)]).setIdCount 2

/-- A memory over `lineGeometry` whose working memory holds node 1 and whose
STM holds node 2, with the given weights, linked to each other by a global
loop closure. -/
def closurePairMemory (w1 w2 : Int) : Memory (Option Int) Unit :=
  (lineMemory
    [lineSignature 1 w1 (some 0) [lineLink 1 2 LinkType.kGlobalClosure (some 3)],
     lineSignature 2 w2 (some 3) [lineLink 2 1 LinkType.kGlobalClosure (some (-3))]]
    [2] [(-1, 0), (1, 0)]).setIdCount 2

/-- The weight of the signature with the given id, when it is in memory. -/
def Memory.weightOf {T I : Type} (m : Memory T I) (i : Int) : Option Int :=
  (m._getSignature i).map Signature.weight

/-- What `moveToTrash` of the location `sId`, with the weight `sWeight` and the
given links, leaves of a signature `p`: a signature the location links to
drops its link to the location and, when the link of the location is a global
loop closure and the location is the newer one, takes over its weight. -/
def trashedPeer {T I : Type} (sId sWeight : Int) (links : List (Link T I))
    (p : Signature T I) : Signature T I :=
  match kfind Link.to_ links p.id with
  | some l =>
    { p with
      weight := if l.type == LinkType.kGlobalClosure && decide (sId > p.id) then
          p.weight + sWeight else p.weight
      links := kerase Link.to_ sId p.links }
  | none => p

/-- A memory over `lineGeometry` whose working memory holds node 1 and whose
STM holds node 2, with the given weights, linked to each other by links of the
given type. -/
def splitPairMemory (type : LinkType) (w1 w2 : Int) : Memory (Option Int) Unit :=
  (lineMemory
    [lineSignature 1 w1 (some 0) [lineLink 1 2 type (some 3)],
     lineSignature 2 w2 (some 3) [lineLink 2 1 type (some (-3))]]
    [2] [(-1, 0), (1, 0)]).setIdCount 2

/-- A memory over `lineGeometry` whose STM holds the nodes 1, 2 and 3 of weight
0 with the given links. -/
def tripleMemory (links1 links2 links3 : List (Link (Option Int) Unit)) :
    Memory (Option Int) Unit :=
  (lineMemory
    [lineSignature 1 0 (some 0) links1, lineSignature 2 0 (some 1) links2,
     lineSignature 3 0 (some 2) links3]
    [1, 2, 3] [(-1, 0)]).setIdCount 3

/-- The link the signature `j` stores under the id `y`: `none` when `j` is not
in memory, `some none` when it stores no link under `y`. -/
def Memory.linkTo {T I : Type} (m : Memory T I) (j y : Int) : Option (Option (Link T I)) :=
  (m.linksOf j).map (fun ls => kfind Link.to_ ls y)

/-- A memory over `lineGeometry` whose STM holds node 3, linked to node 1 by a
global loop closure and to node 2 by a merged neighbor link, both in the
working memory. -/
def mergedPeerMemory : Memory (Option Int) Unit :=
  (lineMemory
    [lineSignature 1 0 (some 0) [lineLink 1 3 LinkType.kGlobalClosure (some 2)],
     lineSignature 2 0 (some 1) [lineLink 2 3 LinkType.kNeighborMerged (some 1)],
     lineSignature 3 0 (some 2) [lineLink 3 1 LinkType.kGlobalClosure (some (-2)),
       lineLink 3 2 LinkType.kNeighborMerged (some (-1))]]
    [3] [(-1, 0), (1, 0), (2, 0)]).setIdCount 3
/-- The link the graph reduction enters on the peer over `iter` of a reduced
node for the neighbor over `jter` (lines 832-834): a merged neighbor link unless
`iter` carries user data or is virtual. -/
def Memory.reducedLink {T I : Type} (e : Env T I) (iter jter : Link T I) : Link T I :=
  (iter.inverse e.geo).merge e.geo jter
    (if iter.userDataCompressed.isEmpty && iter.type != LinkType.kVirtualClosure
     then LinkType.kNeighborMerged else iter.type)

/-! ## The last signature -/

/-- The method `Memory::cleanup` (lines 1605-1622); the first component is the
id of the signature removed, 0 when none is. -/
def Memory.cleanup {T I : Type} (e : Env T I) (m : Memory T I) :
    Except Fault (Int × Memory T I) :=
  match m.lastSignature with
  | some lastId =>
    m.deref lastId >>= fun last =>
    -- bad signature
    if (last.isBadSignature && e.badSignaturesIgnored) || !e.incrementalMemory then
      Memory.moveToTrash e m last.id e.incrementalMemory >>= fun m => pure (last.id, m)
    else pure (0, m)
  | none => pure (0, m)

/-- The location `lastSignature` is to stand for: the STM entry with the
greatest id or, with an empty STM, the signature of the working memory with
the greatest id (the containers are kept in ascending order of id). -/
def Memory.mostRecent {T I : Type} (m : Memory T I) : Option Int :=
  match m.stMem.getLast? with
  | some i => some i
  | none => (m.wmIds.filter (fun i => (m._getSignature i).isSome)).getLast?

/-- The invariant of `lastSignature`: it is the most recent location of the
STM or, with an empty STM, of the working memory, and null when there is
none. -/
def LastSignatureInvariant {T I : Type} (m : Memory T I) : Prop :=
  m.lastSignature = m.mostRecent

/-- Every id of the STM is greater than every id of the working memory. -/
def StmAboveWm {T I : Type} (m : Memory T I) : Prop :=
  ∀ i ∈ m.stMem, ∀ j ∈ m.wmIds, j < i

/-- Two memories with the same `lastSignature`. -/
def SameLast {T I : Type} (m m' : Memory T I) : Prop :=
  m'.lastSignature = m.lastSignature

/-- An environment over `lineGeometry` with a database attached that holds the
node 2, without words and links, and returns it when it is asked for. -/
def retrievalEnv : Env (Option Int) Unit :=
  { archiveEnv with
    loadSignatures := fun ids =>
      if ids.contains 2 then [{ lineSignature 2 0 (some 1) [] with saved := true }] else [] }

/-- A memory over `lineGeometry` with an empty STM whose working memory holds
the node 1, which is the last signature; the id counter stands at 2. -/
def retrievalMemory : Memory (Option Int) Unit :=
  { lineMemory [lineSignature 1 0 (some 0) []] [] [(-1, 0), (1, 0)] with
    lastSignature := some 1
    idCount := 2 }

/-- The method `Memory::labelSignature` (lines 1949-1986); the first component
is the value returned. `lookInDatabase` stands for the default argument of
`getSignatureIdByLabel`, which the call `getSignatureIdByLabel(label)` takes
from the declaration in the header. -/
def Memory.labelSignature {T I : Type} (e : Env T I) (m : Memory T I) (id : Int)
    (label : String) (lookInDatabase : Bool) : Bool × Memory T I :=
  -- verify that this label is not used
  if Memory.getSignatureIdByLabel e m label lookInDatabase == 0 ||
     Memory.getSignatureIdByLabel e m label lookInDatabase == id then
    match m._getSignature id with
    | some _ => (true, m.modifySignature id (fun s => { s with label := label }))
    | none =>
      if e.hasDb then
        match e.loadSignatures [id] with
        | s :: _ =>
          -- move it again to trash
          (true, m.asyncSave { s with label := label })
        | [] => (false, m)
      else (false, m)
  else (false, m)

/-- Non-empty labels are pairwise distinct across the signatures in memory. -/
def LabelsDistinct {T I : Type} (m : Memory T I) : Prop :=
  ∀ i j a b, m._getSignature i = some a → m._getSignature j = some b →
    a.label ≠ "" → a.label = b.label → i = j

/-- Non-empty labels are pairwise distinct across the signatures in memory and
the nodes of the database: they are distinct in memory, and the node the
database holds under a label carried in memory is the one that carries it in
memory. -/
def LabelsUnique {T I : Type} (e : Env T I) (m : Memory T I) : Prop :=
  LabelsDistinct m ∧
  ∀ i a, m._getSignature i = some a → a.label ≠ "" → e.hasDb = true →
    e.getNodeIdByLabel a.label = 0 ∨ e.getNodeIdByLabel a.label = i

/-- Every labelled signature of `m'` is in `m` under the same id with the same
label. -/
def LabelsWithin {T I : Type} (m m' : Memory T I) : Prop :=
  ∀ i a', m'._getSignature i = some a' → a'.label ≠ "" →
    ∃ a, m._getSignature i = some a ∧ a.label = a'.label

/-- An environment over `lineGeometry` with a database attached that holds a
node 7 labelled "map1". -/
def labelEnv : Env (Option Int) Unit :=
  { archiveEnv with getNodeIdByLabel := fun label => if label == "map1" then 7 else 0 }

/-- The signatures the database returns fit the links of the memory: they are
new to the memory, distinct from each other and within the id counter, their
links are well-formed, and every link between one of them and a signature in
memory or another one of them has its counterpart on the peer, with the same
type and the inverse transform. Modelled from the spec: the database driver is
an external collaborator ("the concrete database driver (persistence,
queries)"), so what it returns is not decided in `Memory.cpp`; this is the
contract on its answer under which `reactivateSignatures` keeps the link
invariant. -/
def LoadedLinksFit {T I : Type} (g : Geometry T I) (m : Memory T I)
    (loaded : List (Signature T I)) : Prop :=
  loaded.Pairwise (fun a b => a.id ≠ b.id) ∧
  (∀ s ∈ loaded, m._getSignature s.id = none ∧ s.id ≤ m.idCount ∧
    (∀ l ∈ s.links, l.to_ ≠ s.id ∧ l.to_ ≤ m.idCount) ∧
    ∀ l ∈ s.links, ∀ k ∈ s.links, l.to_ = k.to_ → l = k) ∧
  (∀ s ∈ loaded, ∀ l ∈ s.links, ∀ p,
    (m._getSignature l.to_ = some p ∨ (p ∈ loaded ∧ p.id = l.to_)) →
      ∃ k ∈ p.links, k.to_ = s.id ∧ k.type = l.type ∧ k.transform = g.inverse l.transform) ∧
  (∀ i p, m._getSignature i = some p → ∀ l ∈ p.links, ∀ s ∈ loaded, s.id = l.to_ →
    ∃ k ∈ s.links, k.to_ = i ∧ k.type = l.type ∧ k.transform = g.inverse l.transform)

/-- The signature a rehearsal merge of the new node 2 into the old node 1
hands to the database: node 2 with the link to node 1 that keeps track of the
merge. -/
def mergedNode : Signature (Option Int) Unit :=
  { lineSignature 2 0 (some 1) [lineLink 2 1 LinkType.kGlobalClosure none] with words := [7] }

/-- An environment over `lineGeometry` with `Mem/RehearsalIdUpdatedToNewOne`
false and `Mem/NotLinkedNodesKept` true, a similarity test that always passes
and a database that returns every word asked for and, for the id 2, the node
`mergedNode`. -/
def mergeArchiveEnv : Env (Option Int) Unit :=
  { lineEnv true false 10 with
    hasDb := true
    similar := fun _ _ => true
    loadWords := fun ids => ids.map (fun k => { id := k, references := [], saved := true })
    findNN := fun _ vws => vws.map (fun _ => 0)
    loadSignatures := fun ids => if ids.contains 2 then [mergedNode] else [] }

/-- A memory over `lineGeometry` whose STM holds the enabled node 1 with the
word 7 and no link. -/
def mergeArchiveMemory : Memory (Option Int) Unit :=
  { lineMemory [{ lineSignature 1 0 (some 0) [] with words := [7], enabled := true }] [1]
      [(-1, 0)] with
    vwd := { emptyDictionary with
      visualWords := [{ id := 7, references := [(1, 1)], saved := false }] }
    lastSignature := some 1
    idCount := 1 }

/-- Sensor data of an image quantized to the word 7. -/
def mergeArchiveData : SensorData :=
  { id := 0, imageRawEmpty := false, formatsValid := true, calibrationMissing := false,
    wordIds := [7] }

/-- The environment `archiveEnv` with a database that returns, for the id 1,
the node 1 with its global loop closure to node 2. -/
def pairArchiveEnv : Env (Option Int) Unit :=
  { archiveEnv with
    loadSignatures := fun ids =>
      if ids.contains 1 then
        [lineSignature 1 0 (some 0) [lineLink 1 2 LinkType.kGlobalClosure (some 3)]]
      else [] }

/-- The memory `forget` makes of the linked pair of nodes 1 and 2 with a
database attached: node 2 is left in the working memory with its link to node
1, and node 1 is in the trash of the database with its link to node 2. -/
def halfPairMemory : Memory (Option Int) Unit :=
  { lineMemory [lineSignature 2 0 (some 3) [lineLink 2 1 LinkType.kGlobalClosure (some (-3))]] []
      [(-1, 0), (2, 0)] with
    idCount := 2
    dbTrash := [lineSignature 1 0 (some 0) [lineLink 1 2 LinkType.kGlobalClosure (some 3)]] }

/-! # Properties -/

/-! ## Lemmas on the ordered containers -/

section Containers

variable {α : Type} (key : α → Int)

theorem kfind_key {l : List α} {k : Int} {a : α} (h : kfind key l k = some a) : key a = k := by
  unfold kfind at h
  have := List.find?_some h
  simpa using this

theorem kfind_mem {l : List α} {k : Int} {a : α} (h : kfind key l k = some a) : a ∈ l := by
  unfold kfind at h
  exact List.mem_of_find?_eq_some h

theorem khas_iff {l : List α} {k : Int} : khas key l k = true ↔ ∃ a ∈ l, key a = k := by
  unfold khas kfind
  rw [List.find?_isSome]
  simp

theorem khas_false_iff {l : List α} {k : Int} : khas key l k = false ↔ ∀ a ∈ l, key a ≠ k := by
  rw [← Bool.not_eq_true, khas_iff]
  simp

theorem khas_eq_isSome {l : List α} {k : Int} : khas key l k = (kfind key l k).isSome := rfl

theorem kfind_none_iff {l : List α} {k : Int} : kfind key l k = none ↔ ∀ a ∈ l, key a ≠ k := by
  unfold kfind
  simp

theorem kfind_kmodify {l : List α} {k k' : Int} {f : α → α} (hf : ∀ a, key (f a) = key a) :
    kfind key (kmodify key k f l) k' =
      (kfind key l k').map (fun a => if key a = k then f a else a) := by
  unfold kfind kmodify
  induction l with
  | nil => simp
  | cons b rest ih =>
    simp only [List.map_cons, List.find?_cons]
    have hk : key (if key b = k then f b else b) = key b := by
      split <;> simp [hf]
    rw [hk]
    by_cases hb : key b = k'
    · have hb' : (key b == k') = true := by simpa using hb
      simp [hb']
    · have hb' : (key b == k') = false := by simpa using hb
      simp [hb', ih]

theorem kfind_kmodify_self {l : List α} {k : Int} {f : α → α} (hf : ∀ a, key (f a) = key a) :
    kfind key (kmodify key k f l) k = (kfind key l k).map f := by
  rw [kfind_kmodify key hf]
  cases h : kfind key l k with
  | none => simp
  | some a => simp [kfind_key key h]

theorem kfind_kmodify_ne {l : List α} {k k' : Int} {f : α → α} (hf : ∀ a, key (f a) = key a)
    (hne : k' ≠ k) : kfind key (kmodify key k f l) k' = kfind key l k' := by
  rw [kfind_kmodify key hf]
  cases h : kfind key l k' with
  | none => simp
  | some a =>
    have := kfind_key key h
    simp [this, hne]

theorem kfind_kerase {l : List α} {k k' : Int} :
    kfind key (kerase key k l) k' = if k' = k then none else kfind key l k' := by
  unfold kfind kerase
  induction l with
  | nil => simp
  | cons b rest ih =>
    by_cases hb : key b = k
    · simp only [List.filter_cons, hb, bne_self_eq_false, Bool.false_eq_true, ↓reduceIte, ih,
        List.find?_cons]
      by_cases h : k' = k
      · simp [h]
      · have : (k == k') = false := by simpa using fun h' => h h'.symm
        simp [this, h]
    · have hb' : (key b != k) = true := by simpa using hb
      simp only [List.filter_cons, hb', ↓reduceIte, List.find?_cons, ih]
      by_cases hk : key b = k'
      · have : k' ≠ k := fun h => hb (hk.trans h)
        have hk' : (key b == k') = true := by simpa using hk
        simp [hk', this]
      · have hk' : (key b == k') = false := by simpa using hk
        simp [hk']

theorem mem_kerase {l : List α} {k : Int} {a : α} : a ∈ kerase key k l ↔ a ∈ l ∧ key a ≠ k := by
  unfold kerase
  simp

theorem kerase_of_not_has {l : List α} {k : Int} (h : khas key l k = false) :
    kerase key k l = l := by
  unfold kerase
  rw [List.filter_eq_self]
  intro a ha
  have := (khas_false_iff key).1 h a ha
  simpa using this

theorem mem_kplace {l : List α} {a b : α} : a ∈ kplace key b l ↔ a = b ∨ a ∈ l := by
  induction l with
  | nil => simp [kplace]
  | cons c rest ih =>
    unfold kplace
    split
    · simp
    · simp only [List.mem_cons, ih]
      tauto

theorem mem_kinsert {l : List α} {a b : α} :
    a ∈ kinsert key b l ↔ a ∈ l ∨ (a = b ∧ khas key l (key b) = false) := by
  unfold kinsert
  split
  · rename_i h
    simp [h]
  · rename_i h
    rw [mem_kplace]
    simp only [Bool.not_eq_true] at h
    simp [h]
    tauto

theorem kfind_kplace {l : List α} {b : α} {k : Int} (h : khas key l (key b) = false) :
    kfind key (kplace key b l) k = if k = key b then some b else kfind key l k := by
  induction l with
  | nil =>
    unfold kplace kfind
    by_cases hk : key b = k
    · simp [hk]
    · have : ¬ k = key b := fun h' => hk h'.symm
      simp [hk, this]
  | cons c rest ih =>
    have hc : key c ≠ key b := (khas_false_iff key).1 h c (by simp)
    have hrest : khas key rest (key b) = false := by
      rw [khas_false_iff] at h ⊢
      intro a ha
      exact h a (by simp [ha])
    unfold kplace
    split
    · unfold kfind
      by_cases hk : key b = k
      · have hk' : (key b == k) = true := by simpa using hk
        simp [List.find?_cons, hk', hk.symm]
      · have : ¬ k = key b := fun h' => hk h'.symm
        have hk' : (key b == k) = false := by simpa using hk
        simp [List.find?_cons, hk', this]
    · have ih' := ih hrest
      unfold kfind at ih' ⊢
      by_cases hk : key c = k
      · have : ¬ k = key b := fun h' => hc (hk.trans h')
        have hk' : (key c == k) = true := by simpa using hk
        simp [List.find?_cons, hk', this]
      · have hk' : (key c == k) = false := by simpa using hk
        simp [List.find?_cons, hk', ih']

theorem kfind_kinsert {l : List α} {b : α} {k : Int} :
    kfind key (kinsert key b l) k =
      if khas key l (key b) = true then kfind key l k
      else if k = key b then some b else kfind key l k := by
  unfold kinsert
  split
  · rfl
  · rename_i h
    simp only [Bool.not_eq_true] at h
    exact kfind_kplace key h

theorem kerase_kplace {l : List α} {b : α} (h : khas key l (key b) = false) :
    kerase key (key b) (kplace key b l) = l := by
  induction l with
  | nil => simp [kplace, kerase]
  | cons c rest ih =>
    have hc : key c ≠ key b := (khas_false_iff key).1 h c (by simp)
    have hrest : khas key rest (key b) = false := by
      rw [khas_false_iff] at h ⊢
      intro a ha
      exact h a (by simp [ha])
    have hcb : (key c != key b) = true := by simpa using hc
    unfold kplace
    split
    · have := kerase_of_not_has key h
      unfold kerase at this ⊢
      rw [List.filter_cons]
      simp only [bne_self_eq_false, Bool.false_eq_true, ↓reduceIte]
      exact this
    · have ih' := ih hrest
      unfold kerase at ih' ⊢
      simp only [List.filter_cons, hcb, ↓reduceIte, ih']

theorem kerase_kinsert {l : List α} {b : α} (h : khas key l (key b) = false) :
    kerase key (key b) (kinsert key b l) = l := by
  unfold kinsert
  simp only [h, Bool.false_eq_true, ↓reduceIte]
  exact kerase_kplace key h

theorem mem_kmodify {l : List α} {k : Int} {f : α → α} {a : α} :
    a ∈ kmodify key k f l ↔ ∃ b ∈ l, a = if key b = k then f b else b := by
  unfold kmodify
  simp only [List.mem_map]
  constructor
  · rintro ⟨b, hb, rfl⟩
    exact ⟨b, hb, rfl⟩
  · rintro ⟨b, hb, rfl⟩
    exact ⟨b, hb, rfl⟩

end Containers

/-! ## Projections of the assignments -/

namespace Memory

variable {T I : Type}

@[simp] theorem setSignatures_signatures (m : Memory T I) (v) : (m.setSignatures v).signatures = v := rfl
@[simp] theorem setSignatures_stMem (m : Memory T I) (v) : (m.setSignatures v).stMem = m.stMem := rfl
@[simp] theorem setSignatures_workingMem (m : Memory T I) (v) : (m.setSignatures v).workingMem = m.workingMem := rfl
@[simp] theorem setSignatures_vwd (m : Memory T I) (v) : (m.setSignatures v).vwd = m.vwd := rfl
@[simp] theorem setSignatures_lastSignature (m : Memory T I) (v) : (m.setSignatures v).lastSignature = m.lastSignature := rfl
@[simp] theorem setSignatures_lastGlobalLoopClosureId (m : Memory T I) (v) : (m.setSignatures v).lastGlobalLoopClosureId = m.lastGlobalLoopClosureId := rfl
@[simp] theorem setSignatures_idCount (m : Memory T I) (v) : (m.setSignatures v).idCount = m.idCount := rfl
@[simp] theorem setSignatures_idMapCount (m : Memory T I) (v) : (m.setSignatures v).idMapCount = m.idMapCount := rfl
@[simp] theorem setSignatures_memoryChanged (m : Memory T I) (v) : (m.setSignatures v).memoryChanged = m.memoryChanged := rfl
@[simp] theorem setSignatures_linksChanged (m : Memory T I) (v) : (m.setSignatures v).linksChanged = m.linksChanged := rfl
@[simp] theorem setSignatures_signaturesAdded (m : Memory T I) (v) : (m.setSignatures v).signaturesAdded = m.signaturesAdded := rfl
@[simp] theorem setSignatures_dbTrash (m : Memory T I) (v) : (m.setSignatures v).dbTrash = m.dbTrash := rfl

@[simp] theorem setStMem_signatures (m : Memory T I) (v) : (m.setStMem v).signatures = m.signatures := rfl
@[simp] theorem setStMem_stMem (m : Memory T I) (v) : (m.setStMem v).stMem = v := rfl
@[simp] theorem setStMem_workingMem (m : Memory T I) (v) : (m.setStMem v).workingMem = m.workingMem := rfl
@[simp] theorem setStMem_vwd (m : Memory T I) (v) : (m.setStMem v).vwd = m.vwd := rfl
@[simp] theorem setStMem_lastSignature (m : Memory T I) (v) : (m.setStMem v).lastSignature = m.lastSignature := rfl
@[simp] theorem setStMem_lastGlobalLoopClosureId (m : Memory T I) (v) : (m.setStMem v).lastGlobalLoopClosureId = m.lastGlobalLoopClosureId := rfl
@[simp] theorem setStMem_idCount (m : Memory T I) (v) : (m.setStMem v).idCount = m.idCount := rfl
@[simp] theorem setStMem_idMapCount (m : Memory T I) (v) : (m.setStMem v).idMapCount = m.idMapCount := rfl
@[simp] theorem setStMem_memoryChanged (m : Memory T I) (v) : (m.setStMem v).memoryChanged = m.memoryChanged := rfl
@[simp] theorem setStMem_linksChanged (m : Memory T I) (v) : (m.setStMem v).linksChanged = m.linksChanged := rfl
@[simp] theorem setStMem_signaturesAdded (m : Memory T I) (v) : (m.setStMem v).signaturesAdded = m.signaturesAdded := rfl
@[simp] theorem setStMem_dbTrash (m : Memory T I) (v) : (m.setStMem v).dbTrash = m.dbTrash := rfl

@[simp] theorem setWorkingMem_signatures (m : Memory T I) (v) : (m.setWorkingMem v).signatures = m.signatures := rfl
@[simp] theorem setWorkingMem_stMem (m : Memory T I) (v) : (m.setWorkingMem v).stMem = m.stMem := rfl
@[simp] theorem setWorkingMem_workingMem (m : Memory T I) (v) : (m.setWorkingMem v).workingMem = v := rfl
@[simp] theorem setWorkingMem_vwd (m : Memory T I) (v) : (m.setWorkingMem v).vwd = m.vwd := rfl
@[simp] theorem setWorkingMem_lastSignature (m : Memory T I) (v) : (m.setWorkingMem v).lastSignature = m.lastSignature := rfl
@[simp] theorem setWorkingMem_lastGlobalLoopClosureId (m : Memory T I) (v) : (m.setWorkingMem v).lastGlobalLoopClosureId = m.lastGlobalLoopClosureId := rfl
@[simp] theorem setWorkingMem_idCount (m : Memory T I) (v) : (m.setWorkingMem v).idCount = m.idCount := rfl
@[simp] theorem setWorkingMem_idMapCount (m : Memory T I) (v) : (m.setWorkingMem v).idMapCount = m.idMapCount := rfl
@[simp] theorem setWorkingMem_memoryChanged (m : Memory T I) (v) : (m.setWorkingMem v).memoryChanged = m.memoryChanged := rfl
@[simp] theorem setWorkingMem_linksChanged (m : Memory T I) (v) : (m.setWorkingMem v).linksChanged = m.linksChanged := rfl
@[simp] theorem setWorkingMem_signaturesAdded (m : Memory T I) (v) : (m.setWorkingMem v).signaturesAdded = m.signaturesAdded := rfl
@[simp] theorem setWorkingMem_dbTrash (m : Memory T I) (v) : (m.setWorkingMem v).dbTrash = m.dbTrash := rfl

@[simp] theorem setVwd_signatures (m : Memory T I) (v) : (m.setVwd v).signatures = m.signatures := rfl
@[simp] theorem setVwd_stMem (m : Memory T I) (v) : (m.setVwd v).stMem = m.stMem := rfl
@[simp] theorem setVwd_workingMem (m : Memory T I) (v) : (m.setVwd v).workingMem = m.workingMem := rfl
@[simp] theorem setVwd_vwd (m : Memory T I) (v) : (m.setVwd v).vwd = v := rfl
@[simp] theorem setVwd_lastSignature (m : Memory T I) (v) : (m.setVwd v).lastSignature = m.lastSignature := rfl
@[simp] theorem setVwd_lastGlobalLoopClosureId (m : Memory T I) (v) : (m.setVwd v).lastGlobalLoopClosureId = m.lastGlobalLoopClosureId := rfl
@[simp] theorem setVwd_idCount (m : Memory T I) (v) : (m.setVwd v).idCount = m.idCount := rfl
@[simp] theorem setVwd_idMapCount (m : Memory T I) (v) : (m.setVwd v).idMapCount = m.idMapCount := rfl
@[simp] theorem setVwd_memoryChanged (m : Memory T I) (v) : (m.setVwd v).memoryChanged = m.memoryChanged := rfl
@[simp] theorem setVwd_linksChanged (m : Memory T I) (v) : (m.setVwd v).linksChanged = m.linksChanged := rfl
@[simp] theorem setVwd_signaturesAdded (m : Memory T I) (v) : (m.setVwd v).signaturesAdded = m.signaturesAdded := rfl
@[simp] theorem setVwd_dbTrash (m : Memory T I) (v) : (m.setVwd v).dbTrash = m.dbTrash := rfl

@[simp] theorem setLastSignature_signatures (m : Memory T I) (v) : (m.setLastSignature v).signatures = m.signatures := rfl
@[simp] theorem setLastSignature_stMem (m : Memory T I) (v) : (m.setLastSignature v).stMem = m.stMem := rfl
@[simp] theorem setLastSignature_workingMem (m : Memory T I) (v) : (m.setLastSignature v).workingMem = m.workingMem := rfl
@[simp] theorem setLastSignature_vwd (m : Memory T I) (v) : (m.setLastSignature v).vwd = m.vwd := rfl
@[simp] theorem setLastSignature_lastSignature (m : Memory T I) (v) : (m.setLastSignature v).lastSignature = v := rfl
@[simp] theorem setLastSignature_lastGlobalLoopClosureId (m : Memory T I) (v) : (m.setLastSignature v).lastGlobalLoopClosureId = m.lastGlobalLoopClosureId := rfl
@[simp] theorem setLastSignature_idCount (m : Memory T I) (v) : (m.setLastSignature v).idCount = m.idCount := rfl
@[simp] theorem setLastSignature_idMapCount (m : Memory T I) (v) : (m.setLastSignature v).idMapCount = m.idMapCount := rfl
@[simp] theorem setLastSignature_memoryChanged (m : Memory T I) (v) : (m.setLastSignature v).memoryChanged = m.memoryChanged := rfl
@[simp] theorem setLastSignature_linksChanged (m : Memory T I) (v) : (m.setLastSignature v).linksChanged = m.linksChanged := rfl
@[simp] theorem setLastSignature_signaturesAdded (m : Memory T I) (v) : (m.setLastSignature v).signaturesAdded = m.signaturesAdded := rfl
@[simp] theorem setLastSignature_dbTrash (m : Memory T I) (v) : (m.setLastSignature v).dbTrash = m.dbTrash := rfl

@[simp] theorem setLastGlobalLoopClosureId_signatures (m : Memory T I) (v) : (m.setLastGlobalLoopClosureId v).signatures = m.signatures := rfl
@[simp] theorem setLastGlobalLoopClosureId_stMem (m : Memory T I) (v) : (m.setLastGlobalLoopClosureId v).stMem = m.stMem := rfl
@[simp] theorem setLastGlobalLoopClosureId_workingMem (m : Memory T I) (v) : (m.setLastGlobalLoopClosureId v).workingMem = m.workingMem := rfl
@[simp] theorem setLastGlobalLoopClosureId_vwd (m : Memory T I) (v) : (m.setLastGlobalLoopClosureId v).vwd = m.vwd := rfl
@[simp] theorem setLastGlobalLoopClosureId_lastSignature (m : Memory T I) (v) : (m.setLastGlobalLoopClosureId v).lastSignature = m.lastSignature := rfl
@[simp] theorem setLastGlobalLoopClosureId_lastGlobalLoopClosureId (m : Memory T I) (v) : (m.setLastGlobalLoopClosureId v).lastGlobalLoopClosureId = v := rfl
@[simp] theorem setLastGlobalLoopClosureId_idCount (m : Memory T I) (v) : (m.setLastGlobalLoopClosureId v).idCount = m.idCount := rfl
@[simp] theorem setLastGlobalLoopClosureId_idMapCount (m : Memory T I) (v) : (m.setLastGlobalLoopClosureId v).idMapCount = m.idMapCount := rfl
@[simp] theorem setLastGlobalLoopClosureId_memoryChanged (m : Memory T I) (v) : (m.setLastGlobalLoopClosureId v).memoryChanged = m.memoryChanged := rfl
@[simp] theorem setLastGlobalLoopClosureId_linksChanged (m : Memory T I) (v) : (m.setLastGlobalLoopClosureId v).linksChanged = m.linksChanged := rfl
@[simp] theorem setLastGlobalLoopClosureId_signaturesAdded (m : Memory T I) (v) : (m.setLastGlobalLoopClosureId v).signaturesAdded = m.signaturesAdded := rfl
@[simp] theorem setLastGlobalLoopClosureId_dbTrash (m : Memory T I) (v) : (m.setLastGlobalLoopClosureId v).dbTrash = m.dbTrash := rfl

@[simp] theorem setIdCount_signatures (m : Memory T I) (v) : (m.setIdCount v).signatures = m.signatures := rfl
@[simp] theorem setIdCount_stMem (m : Memory T I) (v) : (m.setIdCount v).stMem = m.stMem := rfl
@[simp] theorem setIdCount_workingMem (m : Memory T I) (v) : (m.setIdCount v).workingMem = m.workingMem := rfl
@[simp] theorem setIdCount_vwd (m : Memory T I) (v) : (m.setIdCount v).vwd = m.vwd := rfl
@[simp] theorem setIdCount_lastSignature (m : Memory T I) (v) : (m.setIdCount v).lastSignature = m.lastSignature := rfl
@[simp] theorem setIdCount_lastGlobalLoopClosureId (m : Memory T I) (v) : (m.setIdCount v).lastGlobalLoopClosureId = m.lastGlobalLoopClosureId := rfl
@[simp] theorem setIdCount_idCount (m : Memory T I) (v) : (m.setIdCount v).idCount = v := rfl
@[simp] theorem setIdCount_idMapCount (m : Memory T I) (v) : (m.setIdCount v).idMapCount = m.idMapCount := rfl
@[simp] theorem setIdCount_memoryChanged (m : Memory T I) (v) : (m.setIdCount v).memoryChanged = m.memoryChanged := rfl
@[simp] theorem setIdCount_linksChanged (m : Memory T I) (v) : (m.setIdCount v).linksChanged = m.linksChanged := rfl
@[simp] theorem setIdCount_signaturesAdded (m : Memory T I) (v) : (m.setIdCount v).signaturesAdded = m.signaturesAdded := rfl
@[simp] theorem setIdCount_dbTrash (m : Memory T I) (v) : (m.setIdCount v).dbTrash = m.dbTrash := rfl

@[simp] theorem setMemoryChanged_signatures (m : Memory T I) (v) : (m.setMemoryChanged v).signatures = m.signatures := rfl
@[simp] theorem setMemoryChanged_stMem (m : Memory T I) (v) : (m.setMemoryChanged v).stMem = m.stMem := rfl
@[simp] theorem setMemoryChanged_workingMem (m : Memory T I) (v) : (m.setMemoryChanged v).workingMem = m.workingMem := rfl
@[simp] theorem setMemoryChanged_vwd (m : Memory T I) (v) : (m.setMemoryChanged v).vwd = m.vwd := rfl
@[simp] theorem setMemoryChanged_lastSignature (m : Memory T I) (v) : (m.setMemoryChanged v).lastSignature = m.lastSignature := rfl
@[simp] theorem setMemoryChanged_lastGlobalLoopClosureId (m : Memory T I) (v) : (m.setMemoryChanged v).lastGlobalLoopClosureId = m.lastGlobalLoopClosureId := rfl
@[simp] theorem setMemoryChanged_idCount (m : Memory T I) (v) : (m.setMemoryChanged v).idCount = m.idCount := rfl
@[simp] theorem setMemoryChanged_idMapCount (m : Memory T I) (v) : (m.setMemoryChanged v).idMapCount = m.idMapCount := rfl
@[simp] theorem setMemoryChanged_memoryChanged (m : Memory T I) (v) : (m.setMemoryChanged v).memoryChanged = v := rfl
@[simp] theorem setMemoryChanged_linksChanged (m : Memory T I) (v) : (m.setMemoryChanged v).linksChanged = m.linksChanged := rfl
@[simp] theorem setMemoryChanged_signaturesAdded (m : Memory T I) (v) : (m.setMemoryChanged v).signaturesAdded = m.signaturesAdded := rfl
@[simp] theorem setMemoryChanged_dbTrash (m : Memory T I) (v) : (m.setMemoryChanged v).dbTrash = m.dbTrash := rfl

@[simp] theorem setLinksChanged_signatures (m : Memory T I) (v) : (m.setLinksChanged v).signatures = m.signatures := rfl
@[simp] theorem setLinksChanged_stMem (m : Memory T I) (v) : (m.setLinksChanged v).stMem = m.stMem := rfl
@[simp] theorem setLinksChanged_workingMem (m : Memory T I) (v) : (m.setLinksChanged v).workingMem = m.workingMem := rfl
@[simp] theorem setLinksChanged_vwd (m : Memory T I) (v) : (m.setLinksChanged v).vwd = m.vwd := rfl
@[simp] theorem setLinksChanged_lastSignature (m : Memory T I) (v) : (m.setLinksChanged v).lastSignature = m.lastSignature := rfl
@[simp] theorem setLinksChanged_lastGlobalLoopClosureId (m : Memory T I) (v) : (m.setLinksChanged v).lastGlobalLoopClosureId = m.lastGlobalLoopClosureId := rfl
@[simp] theorem setLinksChanged_idCount (m : Memory T I) (v) : (m.setLinksChanged v).idCount = m.idCount := rfl
@[simp] theorem setLinksChanged_idMapCount (m : Memory T I) (v) : (m.setLinksChanged v).idMapCount = m.idMapCount := rfl
@[simp] theorem setLinksChanged_memoryChanged (m : Memory T I) (v) : (m.setLinksChanged v).memoryChanged = m.memoryChanged := rfl
@[simp] theorem setLinksChanged_linksChanged (m : Memory T I) (v) : (m.setLinksChanged v).linksChanged = v := rfl
@[simp] theorem setLinksChanged_signaturesAdded (m : Memory T I) (v) : (m.setLinksChanged v).signaturesAdded = m.signaturesAdded := rfl
@[simp] theorem setLinksChanged_dbTrash (m : Memory T I) (v) : (m.setLinksChanged v).dbTrash = m.dbTrash := rfl

@[simp] theorem setSignaturesAdded_signatures (m : Memory T I) (v) : (m.setSignaturesAdded v).signatures = m.signatures := rfl
@[simp] theorem setSignaturesAdded_stMem (m : Memory T I) (v) : (m.setSignaturesAdded v).stMem = m.stMem := rfl
@[simp] theorem setSignaturesAdded_workingMem (m : Memory T I) (v) : (m.setSignaturesAdded v).workingMem = m.workingMem := rfl
@[simp] theorem setSignaturesAdded_vwd (m : Memory T I) (v) : (m.setSignaturesAdded v).vwd = m.vwd := rfl
@[simp] theorem setSignaturesAdded_lastSignature (m : Memory T I) (v) : (m.setSignaturesAdded v).lastSignature = m.lastSignature := rfl
@[simp] theorem setSignaturesAdded_lastGlobalLoopClosureId (m : Memory T I) (v) : (m.setSignaturesAdded v).lastGlobalLoopClosureId = m.lastGlobalLoopClosureId := rfl
@[simp] theorem setSignaturesAdded_idCount (m : Memory T I) (v) : (m.setSignaturesAdded v).idCount = m.idCount := rfl
@[simp] theorem setSignaturesAdded_idMapCount (m : Memory T I) (v) : (m.setSignaturesAdded v).idMapCount = m.idMapCount := rfl
@[simp] theorem setSignaturesAdded_memoryChanged (m : Memory T I) (v) : (m.setSignaturesAdded v).memoryChanged = m.memoryChanged := rfl
@[simp] theorem setSignaturesAdded_linksChanged (m : Memory T I) (v) : (m.setSignaturesAdded v).linksChanged = m.linksChanged := rfl
@[simp] theorem setSignaturesAdded_signaturesAdded (m : Memory T I) (v) : (m.setSignaturesAdded v).signaturesAdded = v := rfl
@[simp] theorem setSignaturesAdded_dbTrash (m : Memory T I) (v) : (m.setSignaturesAdded v).dbTrash = m.dbTrash := rfl

@[simp] theorem asyncSave_signatures (m : Memory T I) (s) : (m.asyncSave s).signatures = m.signatures := rfl
@[simp] theorem asyncSave_stMem (m : Memory T I) (s) : (m.asyncSave s).stMem = m.stMem := rfl
@[simp] theorem asyncSave_workingMem (m : Memory T I) (s) : (m.asyncSave s).workingMem = m.workingMem := rfl
@[simp] theorem asyncSave_vwd (m : Memory T I) (s) : (m.asyncSave s).vwd = m.vwd := rfl
@[simp] theorem asyncSave_lastSignature (m : Memory T I) (s) : (m.asyncSave s).lastSignature = m.lastSignature := rfl
@[simp] theorem asyncSave_lastGlobalLoopClosureId (m : Memory T I) (s) : (m.asyncSave s).lastGlobalLoopClosureId = m.lastGlobalLoopClosureId := rfl
@[simp] theorem asyncSave_idCount (m : Memory T I) (s) : (m.asyncSave s).idCount = m.idCount := rfl
@[simp] theorem asyncSave_idMapCount (m : Memory T I) (s) : (m.asyncSave s).idMapCount = m.idMapCount := rfl
@[simp] theorem asyncSave_memoryChanged (m : Memory T I) (s) : (m.asyncSave s).memoryChanged = m.memoryChanged := rfl
@[simp] theorem asyncSave_linksChanged (m : Memory T I) (s) : (m.asyncSave s).linksChanged = m.linksChanged := rfl
@[simp] theorem asyncSave_signaturesAdded (m : Memory T I) (s) : (m.asyncSave s).signaturesAdded = m.signaturesAdded := rfl
@[simp] theorem asyncSave_dbTrash (m : Memory T I) (s) : (m.asyncSave s).dbTrash = m.dbTrash ++ [s] := rfl

@[simp] theorem modifySignature_signatures (m : Memory T I) (k) (f) : (m.modifySignature k f).signatures = kmodify Signature.id k f m.signatures := rfl
@[simp] theorem modifySignature_stMem (m : Memory T I) (k) (f) : (m.modifySignature k f).stMem = m.stMem := rfl
@[simp] theorem modifySignature_workingMem (m : Memory T I) (k) (f) : (m.modifySignature k f).workingMem = m.workingMem := rfl
@[simp] theorem modifySignature_vwd (m : Memory T I) (k) (f) : (m.modifySignature k f).vwd = m.vwd := rfl
@[simp] theorem modifySignature_lastSignature (m : Memory T I) (k) (f) : (m.modifySignature k f).lastSignature = m.lastSignature := rfl
@[simp] theorem modifySignature_lastGlobalLoopClosureId (m : Memory T I) (k) (f) : (m.modifySignature k f).lastGlobalLoopClosureId = m.lastGlobalLoopClosureId := rfl
@[simp] theorem modifySignature_idCount (m : Memory T I) (k) (f) : (m.modifySignature k f).idCount = m.idCount := rfl
@[simp] theorem modifySignature_idMapCount (m : Memory T I) (k) (f) : (m.modifySignature k f).idMapCount = m.idMapCount := rfl
@[simp] theorem modifySignature_memoryChanged (m : Memory T I) (k) (f) : (m.modifySignature k f).memoryChanged = m.memoryChanged := rfl
@[simp] theorem modifySignature_linksChanged (m : Memory T I) (k) (f) : (m.modifySignature k f).linksChanged = m.linksChanged := rfl
@[simp] theorem modifySignature_signaturesAdded (m : Memory T I) (k) (f) : (m.modifySignature k f).signaturesAdded = m.signaturesAdded := rfl
@[simp] theorem modifySignature_dbTrash (m : Memory T I) (k) (f) : (m.modifySignature k f).dbTrash = m.dbTrash := rfl

@[simp] theorem setWeight_stMem (m : Memory T I) (k w) : (m.setWeight k w).stMem = m.stMem := rfl
@[simp] theorem setWeight_workingMem (m : Memory T I) (k w) : (m.setWeight k w).workingMem = m.workingMem := rfl
@[simp] theorem setWeight_vwd (m : Memory T I) (k w) : (m.setWeight k w).vwd = m.vwd := rfl
@[simp] theorem setWeight_lastSignature (m : Memory T I) (k w) : (m.setWeight k w).lastSignature = m.lastSignature := rfl
@[simp] theorem setWeight_lastGlobalLoopClosureId (m : Memory T I) (k w) : (m.setWeight k w).lastGlobalLoopClosureId = m.lastGlobalLoopClosureId := rfl
@[simp] theorem setWeight_idCount (m : Memory T I) (k w) : (m.setWeight k w).idCount = m.idCount := rfl
@[simp] theorem setWeight_idMapCount (m : Memory T I) (k w) : (m.setWeight k w).idMapCount = m.idMapCount := rfl
@[simp] theorem setWeight_memoryChanged (m : Memory T I) (k w) : (m.setWeight k w).memoryChanged = m.memoryChanged := rfl
@[simp] theorem setWeight_linksChanged (m : Memory T I) (k w) : (m.setWeight k w).linksChanged = m.linksChanged := rfl
@[simp] theorem setWeight_signaturesAdded (m : Memory T I) (k w) : (m.setWeight k w).signaturesAdded = m.signaturesAdded := rfl
@[simp] theorem setWeight_dbTrash (m : Memory T I) (k w) : (m.setWeight k w).dbTrash = m.dbTrash := rfl

@[simp] theorem getSignature_setStMem (m : Memory T I) (v) (k : Int) : (m.setStMem v)._getSignature k = m._getSignature k := rfl
@[simp] theorem getSignature_setWorkingMem (m : Memory T I) (v) (k : Int) : (m.setWorkingMem v)._getSignature k = m._getSignature k := rfl
@[simp] theorem getSignature_setVwd (m : Memory T I) (v) (k : Int) : (m.setVwd v)._getSignature k = m._getSignature k := rfl
@[simp] theorem getSignature_setLastSignature (m : Memory T I) (v) (k : Int) : (m.setLastSignature v)._getSignature k = m._getSignature k := rfl
@[simp] theorem getSignature_setLastGlobalLoopClosureId (m : Memory T I) (v) (k : Int) : (m.setLastGlobalLoopClosureId v)._getSignature k = m._getSignature k := rfl
@[simp] theorem getSignature_setIdCount (m : Memory T I) (v) (k : Int) : (m.setIdCount v)._getSignature k = m._getSignature k := rfl
@[simp] theorem getSignature_setMemoryChanged (m : Memory T I) (v) (k : Int) : (m.setMemoryChanged v)._getSignature k = m._getSignature k := rfl
@[simp] theorem getSignature_setLinksChanged (m : Memory T I) (v) (k : Int) : (m.setLinksChanged v)._getSignature k = m._getSignature k := rfl
@[simp] theorem getSignature_setSignaturesAdded (m : Memory T I) (v) (k : Int) : (m.setSignaturesAdded v)._getSignature k = m._getSignature k := rfl
@[simp] theorem getSignature_asyncSave (m : Memory T I) (v) (k : Int) : (m.asyncSave v)._getSignature k = m._getSignature k := rfl

end Memory

/-! ## Lemmas on the signature table -/

namespace Memory

variable {T I : Type}

@[simp] theorem uassert_true : uassert true = Except.ok () := rfl

@[simp] theorem uassert_false : uassert false = Except.error Fault.assertion := rfl

theorem getSignature_id {m : Memory T I} {k : Int} {s : Signature T I}
    (h : m._getSignature k = some s) : s.id = k :=
  kfind_key Signature.id h

theorem getSignature_modify (m : Memory T I) (k k' : Int) (f : Signature T I → Signature T I)
    (hf : ∀ a, (f a).id = a.id) :
    (m.modifySignature k f)._getSignature k' =
      (m._getSignature k').map (fun a => if a.id = k then f a else a) :=
  kfind_kmodify Signature.id hf

theorem getSignature_modify_self (m : Memory T I) (k : Int) (f : Signature T I → Signature T I)
    (hf : ∀ a, (f a).id = a.id) :
    (m.modifySignature k f)._getSignature k = (m._getSignature k).map f :=
  kfind_kmodify_self Signature.id hf

theorem getSignature_modify_ne (m : Memory T I) {k k' : Int} (f : Signature T I → Signature T I)
    (hf : ∀ a, (f a).id = a.id) (hne : k' ≠ k) :
    (m.modifySignature k f)._getSignature k' = m._getSignature k' :=
  kfind_kmodify_ne Signature.id hf hne

theorem getSignature_setWeight_self (m : Memory T I) (k w : Int) :
    (m.setWeight k w)._getSignature k =
      (m._getSignature k).map (fun a => { a with weight := w }) :=
  getSignature_modify_self m k _ (fun _ => rfl)

theorem getSignature_setWeight_ne (m : Memory T I) {k k' : Int} (w : Int) (hne : k' ≠ k) :
    (m.setWeight k w)._getSignature k' = m._getSignature k' :=
  getSignature_modify_ne m _ (fun _ => rfl) hne

theorem addLink_of_absent (e : Env T I) (m : Memory T I) (l : Link T I)
    (hty : l.type.isLoopClosure = true)
    (h : m._getSignature l.to_ = none ∨ m._getSignature l.from_ = none) :
    addLink e m l = Except.ok (false, m) := by
  unfold addLink
  simp only [hty, uassert_true, bind, Except.bind, pure, Except.pure]
  rcases h with h | h
  · rw [h]
  · rw [h]
    cases m._getSignature l.to_ <;> rfl

theorem addLink_of_linked (e : Env T I) (m : Memory T I) (l : Link T I)
    (fromS toS : Signature T I) (hty : l.type.isLoopClosure = true)
    (hf : m._getSignature l.from_ = some fromS) (ht : m._getSignature l.to_ = some toS)
    (hlt : toS.hasLink l.from_ = true) :
    addLink e m l = Except.ok (true, m) := by
  unfold addLink
  simp only [hty, uassert_true, bind, Except.bind, pure, Except.pure, hf, ht, hlt, if_true]

theorem addLink_of_unlinked (e : Env T I) (m : Memory T I) (l : Link T I)
    (fromS toS : Signature T I) (hty : l.type.isLoopClosure = true)
    (hf : m._getSignature l.from_ = some fromS) (ht : m._getSignature l.to_ = some toS)
    (hlt : toS.hasLink l.from_ = false) :
    addLink e m l =
      (let m1 := (m.modifySignature l.to_ (fun s => s.addLink (l.inverse e.geo))).modifySignature
          l.from_ (fun s => s.addLink l)
       if (e.incrementalMemory && l.type != LinkType.kVirtualClosure) = true then
         if (l.type != LinkType.kLocalSpaceClosure || l.userDataCompressed.isEmpty) = true then
           if 0 ≤ fromS.weight ∧ 0 ≤ toS.weight then
             if (e.reduceGraph && decide (l.from_ < l.to_) ||
                 !e.reduceGraph && decide (l.from_ > l.to_)) = true then
               Except.ok (true, ((((m1.setLinksChanged true).setLastGlobalLoopClosureId
                 (if l.from_ > l.to_ then l.from_ else l.to_)).setWeight l.from_
                 (fromS.weight + toS.weight)).setWeight l.to_ 0))
             else
               Except.ok (true, ((((m1.setLinksChanged true).setLastGlobalLoopClosureId
                 (if l.from_ > l.to_ then l.from_ else l.to_)).setWeight l.to_
                 (toS.weight + fromS.weight)).setWeight l.from_ 0))
           else Except.error Fault.assertion
         else Except.ok (true, m1.setLinksChanged true)
       else Except.ok (true, m1)) := by
  have hfid := getSignature_id hf
  have htid := getSignature_id ht
  unfold addLink
  simp only [hty, uassert_true, bind, Except.bind, pure, Except.pure, hf, ht, hlt, hfid, htid,
    Bool.false_eq_true, if_false]
  by_cases h1 : (e.incrementalMemory && l.type != LinkType.kVirtualClosure) = true
  · by_cases h2 : (l.type != LinkType.kLocalSpaceClosure || l.userDataCompressed.isEmpty) = true
    · by_cases hw : 0 ≤ fromS.weight ∧ 0 ≤ toS.weight
      · simp only [h1, h2, if_true, ge_iff_le, hw.1, hw.2, decide_True, Bool.and_self,
          uassert_true, and_self]
      · have : (decide (fromS.weight ≥ 0) && decide (toS.weight ≥ 0)) = false := by
          simpa using hw
        simp only [h1, h2, if_true, this, uassert_false, hw, if_false]
    · simp only [h1, h2, if_true, if_false]
      simp at h2
      simp [h2]
  · simp only [h1, if_false]
    simp at h1
    simp [h1]

end Memory
namespace Memory

variable {T I : Type}

theorem addLink_pair_from (e : Env T I) (m : Memory T I) (l : Link T I) (fromS : Signature T I)
    (hne : l.from_ ≠ l.to_) (hf : m._getSignature l.from_ = some fromS) :
    ((m.modifySignature l.to_ (fun s => s.addLink (l.inverse e.geo))).modifySignature
        l.from_ (fun s => s.addLink l))._getSignature l.from_ = some (fromS.addLink l) := by
  rw [getSignature_modify_self _ _ (fun s => s.addLink l) (fun _ => rfl),
    getSignature_modify_ne _ (fun s => s.addLink (l.inverse e.geo)) (fun _ => rfl) hne, hf]
  rfl

theorem addLink_pair_to (e : Env T I) (m : Memory T I) (l : Link T I) (toS : Signature T I)
    (hne : l.from_ ≠ l.to_) (ht : m._getSignature l.to_ = some toS) :
    ((m.modifySignature l.to_ (fun s => s.addLink (l.inverse e.geo))).modifySignature
        l.from_ (fun s => s.addLink l))._getSignature l.to_ =
      some (toS.addLink (l.inverse e.geo)) := by
  rw [getSignature_modify_ne _ (fun s => s.addLink l) (fun _ => rfl) (Ne.symm hne),
    getSignature_modify_self _ _ (fun s => s.addLink (l.inverse e.geo)) (fun _ => rfl), ht]
  rfl

theorem addLink_pair_other (e : Env T I) (m : Memory T I) (l : Link T I) (k : Int)
    (hf : k ≠ l.from_) (ht : k ≠ l.to_) :
    ((m.modifySignature l.to_ (fun s => s.addLink (l.inverse e.geo))).modifySignature
        l.from_ (fun s => s.addLink l))._getSignature k = m._getSignature k := by
  rw [getSignature_modify_ne _ (fun s => s.addLink l) (fun _ => rfl) hf,
    getSignature_modify_ne _ (fun s => s.addLink (l.inverse e.geo)) (fun _ => rfl) ht]

/-- What `addLink` leaves behind when it links two distinct, unlinked endpoints:
both endpoints have gained their side of the link and some weight, the other
signatures are as before. -/
theorem addLink_unlinked_result (e : Env T I) (m : Memory T I) (l : Link T I)
    (fromS toS : Signature T I)
    (hty : l.type.isLoopClosure = true) (hne : l.from_ ≠ l.to_)
    (hf : m._getSignature l.from_ = some fromS) (ht : m._getSignature l.to_ = some toS)
    (hlt : toS.hasLink l.from_ = false)
    (hw : e.incrementalMemory = true → l.type ≠ LinkType.kVirtualClosure →
      (l.type ≠ LinkType.kLocalSpaceClosure ∨ l.userDataCompressed = []) →
      0 ≤ fromS.weight ∧ 0 ≤ toS.weight) :
    ∃ m' wf wt, addLink e m l = Except.ok (true, m') ∧
      m'._getSignature l.from_ = some { fromS.addLink l with weight := wf } ∧
      m'._getSignature l.to_ = some { toS.addLink (l.inverse e.geo) with weight := wt } ∧
      (∀ k, k ≠ l.from_ → k ≠ l.to_ → m'._getSignature k = m._getSignature k) ∧
      (l.type = LinkType.kVirtualClosure ∨ (fromS.weight = 0 ∧ toS.weight = 0) →
        wf = fromS.weight ∧ wt = toS.weight) := by
  have hne' : l.to_ ≠ l.from_ := Ne.symm hne
  have pf := addLink_pair_from e m l fromS hne hf
  have pt := addLink_pair_to e m l toS hne ht
  have po := addLink_pair_other e m l
  rw [addLink_of_unlinked e m l fromS toS hty hf ht hlt]
  simp only []
  by_cases h1 : (e.incrementalMemory && l.type != LinkType.kVirtualClosure) = true
  · by_cases h2 : (l.type != LinkType.kLocalSpaceClosure || l.userDataCompressed.isEmpty) = true
    · have hw' := hw (by simp at h1; exact h1.1) (by simp at h1; exact h1.2)
        (by simp at h2; rcases h2 with h2 | h2 <;> simp [h2])
      simp only [h1, h2, hw', and_self, if_true]
      have hzero : l.type = LinkType.kVirtualClosure ∨ (fromS.weight = 0 ∧ toS.weight = 0) →
          fromS.weight = 0 ∧ toS.weight = 0 := by
        intro h
        rcases h with h | h
        · simp [h] at h1
        · exact h
      split
      · refine ⟨_, fromS.weight + toS.weight, 0, rfl, ?_, ?_, ?_, ?_⟩
        · rw [getSignature_setWeight_ne _ _ hne, getSignature_setWeight_self]
          simp [pf]
        · rw [getSignature_setWeight_self, getSignature_setWeight_ne _ _ hne']
          simp [pt]
        · intro k hk1 hk2
          rw [getSignature_setWeight_ne _ _ hk2, getSignature_setWeight_ne _ _ hk1]
          simpa using po k hk1 hk2
        · intro h
          obtain ⟨z1, z2⟩ := hzero h
          rw [z1, z2]
          exact ⟨rfl, rfl⟩
      · refine ⟨_, 0, toS.weight + fromS.weight, rfl, ?_, ?_, ?_, ?_⟩
        · rw [getSignature_setWeight_self, getSignature_setWeight_ne _ _ hne]
          simp [pf]
        · rw [getSignature_setWeight_ne _ _ hne', getSignature_setWeight_self]
          simp [pt]
        · intro k hk1 hk2
          rw [getSignature_setWeight_ne _ _ hk1, getSignature_setWeight_ne _ _ hk2]
          simpa using po k hk1 hk2
        · intro h
          obtain ⟨z1, z2⟩ := hzero h
          rw [z1, z2]
          exact ⟨rfl, rfl⟩
    · simp only [h1, h2, if_true, if_false]
      refine ⟨_, fromS.weight, toS.weight, rfl, ?_, ?_, ?_, fun _ => ⟨rfl, rfl⟩⟩
      · simpa using pf
      · simpa using pt
      · intro k hk1 hk2
        simpa using po k hk1 hk2
  · simp only [h1, if_false]
    exact ⟨_, fromS.weight, toS.weight, rfl, pf, pt, po, fun _ => ⟨rfl, rfl⟩⟩

end Memory

/-- Claim C4 (amended): for a loop-closure link `l` whose two distinct endpoints
are in memory and not yet linked, and whose endpoints have non-negative weight
whenever the weights are updated (incremental memory, `l` neither a virtual
closure nor a scan-matching closure), `addLink` returns true, afterwards the
signature `l.from` stores `l` under `l.to`, the signature `l.to` stores
`l.inverse()` under `l.from`, every other signature is unchanged, and a second
`addLink(l)` returns true and changes nothing. -/
theorem addLink_installs_link {T I : Type} (e : Env T I) (m : Memory T I) (l : Link T I)
    (fromS toS : Signature T I)
    (hty : l.type.isLoopClosure = true) (hne : l.from_ ≠ l.to_)
    (hf : m._getSignature l.from_ = some fromS) (ht : m._getSignature l.to_ = some toS)
    (hlf : fromS.hasLink l.to_ = false) (hlt : toS.hasLink l.from_ = false)
    (hw : e.incrementalMemory = true → l.type ≠ LinkType.kVirtualClosure →
      (l.type ≠ LinkType.kLocalSpaceClosure ∨ l.userDataCompressed = []) →
      0 ≤ fromS.weight ∧ 0 ≤ toS.weight) :
    ∃ m', Memory.addLink e m l = Except.ok (true, m') ∧
      (∃ s, m'._getSignature l.from_ = some s ∧ kfind Link.to_ s.links l.to_ = some l) ∧
      (∃ s, m'._getSignature l.to_ = some s ∧
        kfind Link.to_ s.links l.from_ = some (l.inverse e.geo)) ∧
      (∀ k, k ≠ l.from_ → k ≠ l.to_ → m'._getSignature k = m._getSignature k) ∧
      Memory.addLink e m' l = Except.ok (true, m') := by
  obtain ⟨m', wf, wt, hadd, hfrom, hto, hother, _⟩ :=
    Memory.addLink_unlinked_result e m l fromS toS hty hne hf ht hlt hw
  have hlf' : khas Link.to_ fromS.links l.to_ = false := hlf
  have hlt' : khas Link.to_ toS.links (l.inverse e.geo).to_ = false := hlt
  have key1 : kfind Link.to_ (kinsert Link.to_ l fromS.links) l.to_ = some l := by
    rw [kfind_kinsert]; simp [hlf']
  have key2 : kfind Link.to_ (kinsert Link.to_ (l.inverse e.geo) toS.links) l.from_ =
      some (l.inverse e.geo) := by
    rw [kfind_kinsert]
    simp only [hlt', Bool.false_eq_true, if_false]
    exact if_pos rfl
  refine ⟨m', hadd, ⟨_, hfrom, key1⟩, ⟨_, hto, key2⟩, hother, ?_⟩
  refine Memory.addLink_of_linked e m' l _ _ hty hfrom hto ?_
  show khas Link.to_ (kinsert Link.to_ (l.inverse e.geo) toS.links) l.from_ = true
  rw [khas_eq_isSome, key2]
  rfl
/-- Witness of `addLink_installs_link`: a global loop closure from node 2 to
node 1, of weights 3 and 2, in incremental mode. -/
theorem addLink_installs_link_witness :
    ∃ m', Memory.addLink (lineEnv true true 2) (twoNodeMemory 2 3)
        (lineLink 2 1 LinkType.kGlobalClosure (some 3)) = Except.ok (true, m') ∧
      (∃ s, m'._getSignature 2 = some s ∧
        kfind Link.to_ s.links 1 = some (lineLink 2 1 LinkType.kGlobalClosure (some 3))) ∧
      (∃ s, m'._getSignature 1 = some s ∧
        kfind Link.to_ s.links 2 = some (lineLink 1 2 LinkType.kGlobalClosure (some (-3)))) ∧
      (∀ k, k ≠ 2 → k ≠ 1 → m'._getSignature k = (twoNodeMemory 2 3)._getSignature k) ∧
      Memory.addLink (lineEnv true true 2) m'
        (lineLink 2 1 LinkType.kGlobalClosure (some 3)) = Except.ok (true, m') :=
  addLink_installs_link (lineEnv true true 2) (twoNodeMemory 2 3)
    (lineLink 2 1 LinkType.kGlobalClosure (some 3))
    (lineSignature 2 3 (some 1) []) (lineSignature 1 2 (some 0) [])
    rfl (by decide) rfl rfl rfl rfl (fun _ _ _ => by decide)

/-- Claim C4 fails as stated: a global loop closure between two distinct,
unlinked in-memory nodes, one of which is an intermediate node (weight -1),
ends `addLink` in the weight assertion instead of returning true. -/
theorem addLink_intermediate_endpoint_asserts :
    (lineLink 2 1 LinkType.kGlobalClosure (some 3)).type.isLoopClosure = true ∧
    (twoNodeMemory (-1) 0)._getSignature 2 = some (lineSignature 2 0 (some 1) []) ∧
    (twoNodeMemory (-1) 0)._getSignature 1 = some (lineSignature 1 (-1) (some 0) []) ∧
    (lineSignature 2 0 (some 1) []).hasLink 1 = false ∧
    (lineSignature 1 (-1) (some 0) []).hasLink 2 = false ∧
    Memory.addLink (lineEnv true true 2) (twoNodeMemory (-1) 0)
      (lineLink 2 1 LinkType.kGlobalClosure (some 3)) = Except.error Fault.assertion :=
  ⟨rfl, rfl, rfl, rfl, rfl, rfl⟩

/-- Claim C5 (amended): for a loop-closure link (type other than Neighbor and
Undef), `addLink` returns false and leaves the whole memory unchanged when an
endpoint is not in the signature table; it returns true when both endpoints
are in the table and either are linked already or have non-negative weight
whenever the weights are updated (incremental memory, link neither a virtual
closure nor a scan-matching closure). -/
theorem addLink_false_iff_absent {T I : Type} (e : Env T I) (m : Memory T I) (l : Link T I)
    (hty : l.type.isLoopClosure = true) :
    ((m._getSignature l.from_ = none ∨ m._getSignature l.to_ = none) →
      Memory.addLink e m l = Except.ok (false, m)) ∧
    (∀ fromS toS, m._getSignature l.from_ = some fromS → m._getSignature l.to_ = some toS →
      (toS.hasLink l.from_ = true ∨
        (e.incrementalMemory = true → l.type ≠ LinkType.kVirtualClosure →
          (l.type ≠ LinkType.kLocalSpaceClosure ∨ l.userDataCompressed = []) →
          0 ≤ fromS.weight ∧ 0 ≤ toS.weight)) →
      ∃ m', Memory.addLink e m l = Except.ok (true, m')) := by
  constructor
  · intro h
    exact Memory.addLink_of_absent e m l hty (Or.symm h)
  · intro fromS toS hf ht hw
    cases hlt : toS.hasLink l.from_ with
    | true => exact ⟨m, Memory.addLink_of_linked e m l fromS toS hty hf ht hlt⟩
    | false =>
      have hw' := hw.resolve_left (by simp [hlt])
      rw [Memory.addLink_of_unlinked e m l fromS toS hty hf ht hlt]
      simp only []
      by_cases h1 : (e.incrementalMemory && l.type != LinkType.kVirtualClosure) = true
      · by_cases h2 : (l.type != LinkType.kLocalSpaceClosure || l.userDataCompressed.isEmpty) = true
        · have hw'' := hw' (by simp at h1; exact h1.1) (by simp at h1; exact h1.2)
            (by simp at h2; rcases h2 with h2 | h2 <;> simp [h2])
          simp only [h1, h2, hw'', and_self, if_true]
          split <;> exact ⟨_, rfl⟩
        · simp only [h1, h2, if_true, if_false]
          exact ⟨_, rfl⟩
      · simp only [h1, if_false]
        exact ⟨_, rfl⟩

/-- Witness of `addLink_false_iff_absent`: a global loop closure towards the
absent node 7, and one between the nodes 2 and 1. -/
theorem addLink_false_iff_absent_witness :
    Memory.addLink (lineEnv true false 2) (twoNodeMemory 2 3)
        (lineLink 2 7 LinkType.kGlobalClosure (some 3)) = Except.ok (false, twoNodeMemory 2 3) ∧
    ∃ m', Memory.addLink (lineEnv true false 2) (twoNodeMemory 2 3)
        (lineLink 2 1 LinkType.kGlobalClosure (some 3)) = Except.ok (true, m') :=
  ⟨(addLink_false_iff_absent (lineEnv true false 2) (twoNodeMemory 2 3)
      (lineLink 2 7 LinkType.kGlobalClosure (some 3)) rfl).1 (Or.inr rfl),
   (addLink_false_iff_absent (lineEnv true false 2) (twoNodeMemory 2 3)
      (lineLink 2 1 LinkType.kGlobalClosure (some 3)) rfl).2 _ _ rfl rfl
      (Or.inr (fun _ _ _ => by decide))⟩

/-- Claim C5 fails as stated: for a Neighbor link whose endpoints are not in
memory, `addLink` ends in its entry assertion instead of returning false. -/
theorem addLink_neighbor_absent_asserts :
    (lineMemory [] [] [(-1, 0)])._getSignature 1 = none ∧
    Memory.addLink (lineEnv true false 2) (lineMemory [] [] [(-1, 0)])
      (lineLink 1 2 LinkType.kNeighbor none) = Except.error Fault.assertion :=
  ⟨rfl, rfl⟩

/-- Claim C6 (amended): in incremental mode, `addLink` of a loop closure that
is neither virtual nor a scan-matching closure, between two distinct,
previously unlinked in-memory nodes of non-negative weight, returns true, sets
`lastGlobalLoopClosureId` to `max(from, to)` and moves the whole weight onto
one endpoint: with graph reduction enabled the older node (smaller id)
receives the sum of both weights and the younger node is left with 0; with
graph reduction disabled the younger node (greater id) receives the sum and
the older node is left with 0. -/
theorem addLink_transfers_weight {T I : Type} (e : Env T I) (m : Memory T I) (l : Link T I)
    (fromS toS : Signature T I)
    (hinc : e.incrementalMemory = true)
    (hty : l.type.isLoopClosure = true) (hvirt : l.type ≠ LinkType.kVirtualClosure)
    (hscan : l.type ≠ LinkType.kLocalSpaceClosure ∨ l.userDataCompressed = [])
    (hne : l.from_ ≠ l.to_)
    (hf : m._getSignature l.from_ = some fromS) (ht : m._getSignature l.to_ = some toS)
    (hlf : fromS.hasLink l.to_ = false) (hlt : toS.hasLink l.from_ = false)
    (hwf : 0 ≤ fromS.weight) (hwt : 0 ≤ toS.weight) :
    ∃ m', Memory.addLink e m l = Except.ok (true, m') ∧
      m'.lastGlobalLoopClosureId = max l.from_ l.to_ ∧
      (e.reduceGraph = true →
        (m'._getSignature (min l.from_ l.to_)).map Signature.weight =
            some (fromS.weight + toS.weight) ∧
        (m'._getSignature (max l.from_ l.to_)).map Signature.weight = some 0) ∧
      (e.reduceGraph = false →
        (m'._getSignature (max l.from_ l.to_)).map Signature.weight =
            some (fromS.weight + toS.weight) ∧
        (m'._getSignature (min l.from_ l.to_)).map Signature.weight = some 0) := by
  have _ := hlf
  have hne' : l.to_ ≠ l.from_ := Ne.symm hne
  have pf := Memory.addLink_pair_from e m l fromS hne hf
  have pt := Memory.addLink_pair_to e m l toS hne ht
  have h1 : (e.incrementalMemory && l.type != LinkType.kVirtualClosure) = true := by
    simp [hinc, hvirt]
  have h2 : (l.type != LinkType.kLocalSpaceClosure || l.userDataCompressed.isEmpty) = true := by
    rcases hscan with h | h <;> simp [h]
  have hmax : (if l.from_ > l.to_ then l.from_ else l.to_) = max l.from_ l.to_ := by
    rcases lt_or_gt_of_ne hne with h | h
    · rw [if_neg (by omega), max_eq_right (le_of_lt h)]
    · rw [if_pos h, max_eq_left (le_of_lt h)]
  rw [Memory.addLink_of_unlinked e m l fromS toS hty hf ht hlt]
  simp only [h1, h2, hwf, hwt, and_self, if_true]
  rcases lt_or_gt_of_ne hne with hlt' | hgt
  · have hmin : min l.from_ l.to_ = l.from_ := min_eq_left (le_of_lt hlt')
    have hmx : max l.from_ l.to_ = l.to_ := max_eq_right (le_of_lt hlt')
    have hng : ¬ l.from_ > l.to_ := by omega
    cases hr : e.reduceGraph with
    | true =>
      simp only [hlt', hng, decide_True, decide_False, Bool.and_true, Bool.not_true,
        Bool.false_and, Bool.or_false, if_true]
      refine ⟨_, rfl, ?_, ?_, ?_⟩
      · simp [hmx, hng]
      · intro _
        rw [hmin, hmx, Memory.getSignature_setWeight_ne _ _ hne,
          Memory.getSignature_setWeight_self, Memory.getSignature_setWeight_self,
          Memory.getSignature_setWeight_ne _ _ hne']
        simp [pf, pt]
      · intro h
        exact absurd h (by simp)
    | false =>
      simp only [hlt', hng, decide_True, decide_False, Bool.and_true, Bool.not_false,
        Bool.false_and, Bool.and_false, Bool.or_false, Bool.false_eq_true, if_false]
      refine ⟨_, rfl, ?_, ?_, ?_⟩
      · simp [hmx, hng]
      · intro h
        exact absurd h (by simp)
      · intro _
        rw [hmin, hmx, Memory.getSignature_setWeight_ne _ _ hne',
          Memory.getSignature_setWeight_self, Memory.getSignature_setWeight_self,
          Memory.getSignature_setWeight_ne _ _ hne]
        simp [pf, pt, add_comm]
  · have hmin : min l.from_ l.to_ = l.to_ := min_eq_right (le_of_lt hgt)
    have hmx : max l.from_ l.to_ = l.from_ := max_eq_left (le_of_lt hgt)
    have hnl : ¬ l.from_ < l.to_ := by omega
    cases hr : e.reduceGraph with
    | true =>
      simp only [hgt, hnl, decide_True, decide_False, Bool.and_true, Bool.not_true,
        Bool.false_and, Bool.and_false, Bool.or_false, Bool.false_eq_true, if_false]
      refine ⟨_, rfl, ?_, ?_, ?_⟩
      · simp [hmx, hgt]
      · intro _
        rw [hmin, hmx, Memory.getSignature_setWeight_ne _ _ hne',
          Memory.getSignature_setWeight_self, Memory.getSignature_setWeight_self,
          Memory.getSignature_setWeight_ne _ _ hne]
        simp [pf, pt, add_comm]
      · intro h
        exact absurd h (by simp)
    | false =>
      simp only [hgt, hnl, decide_True, decide_False, Bool.and_true, Bool.not_false,
        Bool.false_and, Bool.or_true, Bool.false_or, if_true]
      refine ⟨_, rfl, ?_, ?_, ?_⟩
      · simp [hmx, hgt]
      · intro h
        exact absurd h (by simp)
      · intro _
        rw [hmin, hmx, Memory.getSignature_setWeight_ne _ _ hne,
          Memory.getSignature_setWeight_self, Memory.getSignature_setWeight_self,
          Memory.getSignature_setWeight_ne _ _ hne']
        simp [pf, pt]

/-- Witness of `addLink_transfers_weight`: a global loop closure from node 2 to
node 1, of weights 3 and 2, with graph reduction enabled. -/
theorem addLink_transfers_weight_witness :
    ∃ m', Memory.addLink (lineEnv true true 2) (twoNodeMemory 2 3)
        (lineLink 2 1 LinkType.kGlobalClosure (some 3)) = Except.ok (true, m') ∧
      m'.lastGlobalLoopClosureId = max 2 1 ∧
      ((lineEnv true true 2).reduceGraph = true →
        (m'._getSignature (min 2 1)).map Signature.weight = some (3 + 2) ∧
        (m'._getSignature (max 2 1)).map Signature.weight = some 0) ∧
      ((lineEnv true true 2).reduceGraph = false →
        (m'._getSignature (max 2 1)).map Signature.weight = some (3 + 2) ∧
        (m'._getSignature (min 2 1)).map Signature.weight = some 0) :=
  addLink_transfers_weight (lineEnv true true 2) (twoNodeMemory 2 3)
    (lineLink 2 1 LinkType.kGlobalClosure (some 3))
    (lineSignature 2 3 (some 1) []) (lineSignature 1 2 (some 0) [])
    rfl rfl (by decide) (Or.inl (by decide)) (by decide) rfl rfl rfl rfl (by decide) (by decide)

/-- Claim C6 fails as stated: with graph reduction disabled, `addLink` of a
global loop closure between the unlinked nodes 1 (weight 2) and 2 (weight 3)
leaves the older node 1 with weight 0 and the younger node 2 with weight 5. -/
theorem addLink_without_reduction_weights_younger :
    (lineEnv true false 2).incrementalMemory = true ∧
    (lineEnv true false 2).reduceGraph = false ∧
    (twoNodeMemory 2 3)._getSignature 1 = some (lineSignature 1 2 (some 0) []) ∧
    (twoNodeMemory 2 3)._getSignature 2 = some (lineSignature 2 3 (some 1) []) ∧
    (Memory.addLink (lineEnv true false 2) (twoNodeMemory 2 3)
        (lineLink 2 1 LinkType.kGlobalClosure (some 3))).map
      (fun r => (r.1, r.2.lastGlobalLoopClosureId,
        (r.2._getSignature 1).map Signature.weight,
        (r.2._getSignature 2).map Signature.weight)) =
      Except.ok (true, 2, some 0, some 5) :=
  ⟨rfl, rfl, rfl, rfl, rfl⟩

namespace Memory

variable {T I : Type}

theorem deref_of_some {m : Memory T I} {k : Int} {s : Signature T I}
    (h : m._getSignature k = some s) : m.deref k = Except.ok s := by
  unfold deref
  rw [h]

theorem deref_of_none {m : Memory T I} {k : Int}
    (h : m._getSignature k = none) : m.deref k = Except.error Fault.nullDereference := by
  unfold deref
  rw [h]

@[simp] theorem deref_setLinksChanged (m : Memory T I) (v : Bool) (k : Int) :
    (m.setLinksChanged v).deref k = m.deref k := rfl

@[simp] theorem deref_setLastGlobalLoopClosureId (m : Memory T I) (v : Int) (k : Int) :
    (m.setLastGlobalLoopClosureId v).deref k = m.deref k := rfl

@[simp] theorem deref_setVwd (m : Memory T I) (v : VWDictionary) (k : Int) :
    (m.setVwd v).deref k = m.deref k := rfl

/-- The effect of `removeLink` on two distinct nodes `o < n` of the table that
store a link to each other. -/
theorem removeLink_of_linked (m : Memory T I) (a b : Int) (oldS newS : Signature T I)
    (l : Link T I) (hne : a ≠ b)
    (ho : m._getSignature (min a b) = some oldS) (hn : m._getSignature (max a b) = some newS)
    (hl : kfind Link.to_ oldS.links (max a b) = some l)
    (hl2 : newS.hasLink (min a b) = true) :
    removeLink m a b = Except.ok
      (let m1 := if (l.type == LinkType.kGlobalClosure && decide (newS.weight > 0)) = true then
          (m.setWeight (min a b) (oldS.weight + 1)).setWeight (max a b) (newS.weight - 1)
        else m
       let m2 := (m1.modifySignature (min a b) (fun s => s.removeLink (max a b))).modifySignature
          (max a b) (fun s => s.removeLink (min a b))
       let m3 := if (l.type != LinkType.kVirtualClosure) = true then m2.setLinksChanged true
         else m2
       if ((kerase Link.to_ (min a b) newS.links).all (fun k =>
            !(k.type != LinkType.kNeighbor && k.type != LinkType.kNeighborMerged &&
              decide (k.to_ < max a b))) && max a b == m.lastGlobalLoopClosureId) = true
       then m3.setLastGlobalLoopClosureId 0 else m3) := by
  have hoid := getSignature_id ho
  have hnid := getSignature_id hn
  have hmin : (if a < b then a else b) = min a b := by
    rcases lt_or_gt_of_ne hne with h | h
    · rw [if_pos h, min_eq_left (le_of_lt h)]
    · rw [if_neg (by omega), min_eq_right (le_of_lt h)]
  have hmax : (if a < b then b else a) = max a b := by
    rcases lt_or_gt_of_ne hne with h | h
    · rw [if_pos h, max_eq_right (le_of_lt h)]
    · rw [if_neg (by omega), max_eq_left (le_of_lt h)]
  have hlt : min a b < max a b := by
    rcases lt_or_gt_of_ne hne with h | h
    · rw [min_eq_left (le_of_lt h), max_eq_right (le_of_lt h)]; exact h
    · rw [min_eq_right (le_of_lt h), max_eq_left (le_of_lt h)]; exact h
  have hmm : max a b ≠ min a b := ne_of_gt hlt
  have hhas : oldS.hasLink (max a b) = true := by
    show khas Link.to_ oldS.links (max a b) = true
    rw [khas_eq_isSome, hl]; rfl
  have hlook : ∀ (mm : Memory T I) (s : Signature T I),
      mm._getSignature (max a b) = some s →
      ((mm.modifySignature (min a b) (fun s => s.removeLink (max a b))).modifySignature
        (max a b) (fun s => s.removeLink (min a b))).deref (max a b) =
        Except.ok (s.removeLink (min a b)) := by
    intro mm s h
    apply deref_of_some
    rw [getSignature_modify_self _ _ (fun s => s.removeLink (min a b)) (fun _ => rfl),
      getSignature_modify_ne _ (fun s => s.removeLink (max a b)) (fun _ => rfl) hmm, h]
    rfl
  unfold removeLink
  simp only [hmin, hmax, ho, hn, hoid, hnid, hhas, hl2, Bool.and_self, if_true, hl,
    bind, Except.bind, pure, Except.pure]
  cases hw : (l.type == LinkType.kGlobalClosure && decide (newS.weight > 0)) with
  | true =>
    have hpos : newS.weight > 0 := by
      simp only [Bool.and_eq_true, decide_eq_true_eq] at hw
      exact hw.2
    have hd1 : ((m.setWeight (min a b) (oldS.weight + 1)).deref (max a b)) = Except.ok newS :=
      deref_of_some (by rw [getSignature_setWeight_ne _ _ hmm, hn])
    have hbase : ((m.setWeight (min a b) (oldS.weight + 1)).setWeight (max a b)
        (newS.weight - 1))._getSignature (max a b) =
        some { newS with weight := newS.weight - 1 } := by
      rw [getSignature_setWeight_self, getSignature_setWeight_ne _ _ hmm, hn]
      rfl
    simp only [if_true, hd1, hpos]
    cases hv : (l.type != LinkType.kVirtualClosure) with
    | true =>
      simp only [if_true]
      rw [deref_setLinksChanged, hlook _ _ hbase]
      simp only [Signature.removeLink, setLinksChanged_lastGlobalLoopClosureId,
        modifySignature_lastGlobalLoopClosureId, setWeight_lastGlobalLoopClosureId]
      split <;> rfl
    | false =>
      simp only [Bool.false_eq_true, if_false]
      rw [hlook _ _ hbase]
      simp only [Signature.removeLink,
        modifySignature_lastGlobalLoopClosureId, setWeight_lastGlobalLoopClosureId]
      split <;> rfl
  | false =>
    simp only [Bool.false_eq_true, if_false]
    cases hv : (l.type != LinkType.kVirtualClosure) with
    | true =>
      simp only [if_true]
      rw [deref_setLinksChanged, hlook _ _ hn]
      simp only [Signature.removeLink, setLinksChanged_lastGlobalLoopClosureId,
        modifySignature_lastGlobalLoopClosureId]
      split <;> rfl
    | false =>
      simp only [Bool.false_eq_true, if_false]
      rw [hlook _ _ hn]
      simp only [Signature.removeLink, modifySignature_lastGlobalLoopClosureId]
      split <;> rfl

/-- A signature that is not in the table makes `removeLink` evaluate `id()` on a
null pointer. -/
theorem removeLink_of_absent (m : Memory T I) (a b : Int)
    (h : m._getSignature a = none ∨ m._getSignature b = none) :
    removeLink m a b = Except.error Fault.nullDereference := by
  unfold removeLink
  simp only [bind, Except.bind, pure, Except.pure]
  by_cases hab : a < b
  · simp only [hab, if_true]
    rcases h with h | h
    · rw [h]; rfl
    · rw [h]
      cases m._getSignature a <;> rfl
  · simp only [hab, if_false]
    rcases h with h | h
    · rw [h]
      cases m._getSignature b <;> rfl
    · rw [h]; rfl

end Memory
theorem khas_kerase_self {α : Type} (key : α → Int) (l : List α) (k : Int) :
    khas key (kerase key k l) k = false := by
  rw [khas_false_iff]
  intro a ha
  exact ((mem_kerase key).1 ha).2

/-- What `removeLink` leaves behind on two distinct nodes of the table that
store a link to each other: with `oldS` and `newS` the nodes of smaller and
greater id and `l` the link of `oldS` to `newS`, both nodes have lost their
link to the other, their weights are `wo` and `wn`, and every other signature
is as before. -/
theorem Memory.removeLink_linked_result {T I : Type} (m : Memory T I) (a b : Int)
    (sa sb : Signature T I) (hne : a ≠ b)
    (ha : m._getSignature a = some sa) (hb : m._getSignature b = some sb)
    (hab : sa.hasLink b = true) (hba : sb.hasLink a = true) :
    ∃ m' oldS newS l wo wn,
      m._getSignature (min a b) = some oldS ∧ m._getSignature (max a b) = some newS ∧
      kfind Link.to_ oldS.links (max a b) = some l ∧
      Memory.removeLink m a b = Except.ok m' ∧ Memory.removeLink m b a = Except.ok m' ∧
      (∀ k, k ≠ a → k ≠ b → m'._getSignature k = m._getSignature k) ∧
      m'._getSignature (min a b) =
        some { oldS with weight := wo, links := kerase Link.to_ (max a b) oldS.links } ∧
      m'._getSignature (max a b) =
        some { newS with weight := wn, links := kerase Link.to_ (min a b) newS.links } ∧
      (l.type = LinkType.kGlobalClosure ∧ 0 < newS.weight →
        wo = oldS.weight + 1 ∧ wn = newS.weight - 1) ∧
      (¬ (l.type = LinkType.kGlobalClosure ∧ 0 < newS.weight) →
        wo = oldS.weight ∧ wn = newS.weight) ∧
      (l.type ≠ LinkType.kVirtualClosure → m'.linksChanged = true) ∧
      (l.type = LinkType.kVirtualClosure → m'.linksChanged = m.linksChanged) := by
  -- the older and the newer node
  obtain ⟨oldS, newS, ho, hn, hon, hno⟩ :
      ∃ oldS newS, m._getSignature (min a b) = some oldS ∧
        m._getSignature (max a b) = some newS ∧ oldS.hasLink (max a b) = true ∧
        newS.hasLink (min a b) = true := by
    rcases lt_or_gt_of_ne hne with h | h
    · rw [min_eq_left (le_of_lt h), max_eq_right (le_of_lt h)]
      exact ⟨sa, sb, ha, hb, hab, hba⟩
    · rw [min_eq_right (le_of_lt h), max_eq_left (le_of_lt h)]
      exact ⟨sb, sa, hb, ha, hba, hab⟩
  have hlt : min a b < max a b := by
    rcases lt_or_gt_of_ne hne with h | h
    · rw [min_eq_left (le_of_lt h), max_eq_right (le_of_lt h)]; exact h
    · rw [min_eq_right (le_of_lt h), max_eq_left (le_of_lt h)]; exact h
  have hmm : max a b ≠ min a b := ne_of_gt hlt
  have hmm' : min a b ≠ max a b := ne_of_lt hlt
  obtain ⟨l, hl⟩ : ∃ l, kfind Link.to_ oldS.links (max a b) = some l :=
    Option.isSome_iff_exists.1 hon
  have hrem := Memory.removeLink_of_linked m a b oldS newS l hne ho hn hl hno
  have hrem' := Memory.removeLink_of_linked m b a oldS newS l (Ne.symm hne)
    (by rw [min_comm]; exact ho) (by rw [max_comm]; exact hn)
    (by rw [max_comm]; exact hl) (by rw [min_comm]; exact hno)
  rw [min_comm b a, max_comm b a] at hrem'
  -- lookups in the resulting memory
  have lookOther : ∀ (mm : Memory T I) (k : Int), k ≠ min a b → k ≠ max a b →
      ((mm.modifySignature (min a b) (fun s => s.removeLink (max a b))).modifySignature
        (max a b) (fun s => s.removeLink (min a b)))._getSignature k = mm._getSignature k := by
    intro mm k h1 h2
    rw [Memory.getSignature_modify_ne _ (fun s => s.removeLink (min a b)) (fun _ => rfl) h2,
      Memory.getSignature_modify_ne _ (fun s => s.removeLink (max a b)) (fun _ => rfl) h1]
  have lookOld : ∀ (mm : Memory T I),
      ((mm.modifySignature (min a b) (fun s => s.removeLink (max a b))).modifySignature
        (max a b) (fun s => s.removeLink (min a b)))._getSignature (min a b) =
        (mm._getSignature (min a b)).map (fun s => s.removeLink (max a b)) := by
    intro mm
    rw [Memory.getSignature_modify_ne _ (fun s => s.removeLink (min a b)) (fun _ => rfl) hmm',
      Memory.getSignature_modify_self _ _ (fun s => s.removeLink (max a b)) (fun _ => rfl)]
  have lookNew : ∀ (mm : Memory T I),
      ((mm.modifySignature (min a b) (fun s => s.removeLink (max a b))).modifySignature
        (max a b) (fun s => s.removeLink (min a b)))._getSignature (max a b) =
        (mm._getSignature (max a b)).map (fun s => s.removeLink (min a b)) := by
    intro mm
    rw [Memory.getSignature_modify_self _ _ (fun s => s.removeLink (min a b)) (fun _ => rfl),
      Memory.getSignature_modify_ne _ (fun s => s.removeLink (max a b)) (fun _ => rfl) hmm]
  have hkab : ∀ k, k ≠ a → k ≠ b → k ≠ min a b ∧ k ≠ max a b := by
    intro k h1 h2
    rcases lt_or_gt_of_ne hne with h | h
    · rw [min_eq_left (le_of_lt h), max_eq_right (le_of_lt h)]; exact ⟨h1, h2⟩
    · rw [min_eq_right (le_of_lt h), max_eq_left (le_of_lt h)]; exact ⟨h2, h1⟩
  -- the memory after the weight adjustment
  obtain ⟨m1, hm1⟩ : ∃ m1, (if (l.type == LinkType.kGlobalClosure &&
      decide (newS.weight > 0)) = true
      then (m.setWeight (min a b) (oldS.weight + 1)).setWeight (max a b) (newS.weight - 1)
      else m) = m1 := ⟨_, rfl⟩
  simp only [hm1] at hrem hrem'
  have h1other : ∀ k, k ≠ min a b → k ≠ max a b → m1._getSignature k = m._getSignature k := by
    intro k hk1 hk2
    rw [← hm1]
    split
    · rw [Memory.getSignature_setWeight_ne _ _ hk2, Memory.getSignature_setWeight_ne _ _ hk1]
    · rfl
  have h1old : ∃ w, m1._getSignature (min a b) = some { oldS with weight := w } ∧
      (l.type = LinkType.kGlobalClosure ∧ 0 < newS.weight → w = oldS.weight + 1) ∧
      (¬ (l.type = LinkType.kGlobalClosure ∧ 0 < newS.weight) → w = oldS.weight) := by
    rw [← hm1]
    split
    · rename_i h
      refine ⟨oldS.weight + 1, ?_, fun _ => rfl, fun hn' => absurd (by simpa using h) hn'⟩
      rw [Memory.getSignature_setWeight_ne _ _ hmm', Memory.getSignature_setWeight_self, ho]
      rfl
    · rename_i h
      exact ⟨oldS.weight, ho, fun hp => absurd (by simpa using hp) h, fun _ => rfl⟩
  have h1new : ∃ w, m1._getSignature (max a b) = some { newS with weight := w } ∧
      (l.type = LinkType.kGlobalClosure ∧ 0 < newS.weight → w = newS.weight - 1) ∧
      (¬ (l.type = LinkType.kGlobalClosure ∧ 0 < newS.weight) → w = newS.weight) := by
    rw [← hm1]
    split
    · rename_i h
      refine ⟨newS.weight - 1, ?_, fun _ => rfl, fun hn' => absurd (by simpa using h) hn'⟩
      rw [Memory.getSignature_setWeight_self, Memory.getSignature_setWeight_ne _ _ hmm, hn]
      rfl
    · rename_i h
      exact ⟨newS.weight, hn, fun hp => absurd (by simpa using hp) h, fun _ => rfl⟩
  have h1lc : m1.linksChanged = m.linksChanged := by
    rw [← hm1]
    split <;> rfl
  obtain ⟨wo, hwo, hwo1, hwo2⟩ := h1old
  obtain ⟨wn, hwn, hwn1, hwn2⟩ := h1new
  refine ⟨_, oldS, newS, l, wo, wn, ho, hn, hl, hrem, hrem', ?_⟩
  -- the flags do not affect the lookups
  have hfinal : ∀ (m2 : Memory T I) (c1 c2 : Bool) (k : Int),
      (if c2 = true then
          (if c1 = true then m2.setLinksChanged true else m2).setLastGlobalLoopClosureId 0
        else (if c1 = true then m2.setLinksChanged true else m2))._getSignature k =
      m2._getSignature k := by
    intro m2 c1 c2 k
    split <;> split <;> rfl
  have hflag : ∀ (m2 : Memory T I) (c1 c2 : Bool),
      (if c2 = true then
          (if c1 = true then m2.setLinksChanged true else m2).setLastGlobalLoopClosureId 0
        else (if c1 = true then m2.setLinksChanged true else m2)).linksChanged =
      if c1 = true then true else m2.linksChanged := by
    intro m2 c1 c2
    split <;> split <;> rfl
  simp only [hfinal, hflag]
  refine ⟨?_, ?_, ?_, fun hp => ⟨hwo1 hp, hwn1 hp⟩, fun hp => ⟨hwo2 hp, hwn2 hp⟩, ?_, ?_⟩
  · intro k hk1 hk2
    obtain ⟨h1, h2⟩ := hkab k hk1 hk2
    rw [lookOther m1 k h1 h2, h1other k h1 h2]
  · rw [lookOld m1, hwo]; rfl
  · rw [lookNew m1, hwn]; rfl
  · intro hv
    simp [hv]
  · intro hv
    simp [hv, h1lc]

/-- Claim C8: for two distinct in-memory nodes `a` and `b` that store a link to
each other, `removeLink(a, b)`, in either argument order, removes the link on
both sides and leaves every other link and every other signature unchanged;
when the removed link, as stored on the older node, is a `GlobalClosure` and
the node with the greater id has positive weight, the node with the smaller id
gains exactly 1 and the node with the greater id loses exactly 1, otherwise
both weights stay; `linksChanged` is raised when the type of the removed link
is not `VirtualClosure` and keeps its value when it is. -/
theorem removeLink_removes_both_sides {T I : Type} (m : Memory T I) (a b : Int)
    (sa sb : Signature T I) (hne : a ≠ b)
    (ha : m._getSignature a = some sa) (hb : m._getSignature b = some sb)
    (hab : sa.hasLink b = true) (hba : sb.hasLink a = true) :
    ∃ m' oldS newS l,
      m._getSignature (min a b) = some oldS ∧ m._getSignature (max a b) = some newS ∧
      kfind Link.to_ oldS.links (max a b) = some l ∧
      Memory.removeLink m a b = Except.ok m' ∧ Memory.removeLink m b a = Except.ok m' ∧
      (∀ k, k ≠ a → k ≠ b → m'._getSignature k = m._getSignature k) ∧
      (m'._getSignature (min a b)).map Signature.links =
        some (kerase Link.to_ (max a b) oldS.links) ∧
      (m'._getSignature (max a b)).map Signature.links =
        some (kerase Link.to_ (min a b) newS.links) ∧
      (∀ s, m'._getSignature a = some s → s.hasLink b = false) ∧
      (∀ s, m'._getSignature b = some s → s.hasLink a = false) ∧
      (l.type = LinkType.kGlobalClosure ∧ 0 < newS.weight →
        (m'._getSignature (min a b)).map Signature.weight = some (oldS.weight + 1) ∧
        (m'._getSignature (max a b)).map Signature.weight = some (newS.weight - 1)) ∧
      (¬ (l.type = LinkType.kGlobalClosure ∧ 0 < newS.weight) →
        (m'._getSignature (min a b)).map Signature.weight = some oldS.weight ∧
        (m'._getSignature (max a b)).map Signature.weight = some newS.weight) ∧
      (l.type ≠ LinkType.kVirtualClosure → m'.linksChanged = true) ∧
      (l.type = LinkType.kVirtualClosure → m'.linksChanged = m.linksChanged) := by
  obtain ⟨m', oldS, newS, l, wo, wn, ho, hn, hl, h1, h2, hother, hOld, hNew, hw1, hw2, hc1, hc2⟩ :=
    Memory.removeLink_linked_result m a b sa sb hne ha hb hab hba
  refine ⟨m', oldS, newS, l, ho, hn, hl, h1, h2, hother, ?_, ?_, ?_, ?_, ?_, ?_, hc1, hc2⟩
  · rw [hOld]; rfl
  · rw [hNew]; rfl
  · intro s hs
    rcases lt_or_gt_of_ne hne with h | h
    · rw [min_eq_left (le_of_lt h), max_eq_right (le_of_lt h)] at hOld
      rw [hOld] at hs
      injection hs with hs
      rw [← hs]
      exact khas_kerase_self Link.to_ _ _
    · rw [min_eq_right (le_of_lt h), max_eq_left (le_of_lt h)] at hNew
      rw [hNew] at hs
      injection hs with hs
      rw [← hs]
      exact khas_kerase_self Link.to_ _ _
  · intro s hs
    rcases lt_or_gt_of_ne hne with h | h
    · rw [min_eq_left (le_of_lt h), max_eq_right (le_of_lt h)] at hNew
      rw [hNew] at hs
      injection hs with hs
      rw [← hs]
      exact khas_kerase_self Link.to_ _ _
    · rw [min_eq_right (le_of_lt h), max_eq_left (le_of_lt h)] at hOld
      rw [hOld] at hs
      injection hs with hs
      rw [← hs]
      exact khas_kerase_self Link.to_ _ _
  · intro hp
    rw [hOld, hNew, (hw1 hp).1, (hw1 hp).2]
    exact ⟨rfl, rfl⟩
  · intro hp
    rw [hOld, hNew, (hw2 hp).1, (hw2 hp).2]
    exact ⟨rfl, rfl⟩
/-- Witness of `removeLink_removes_both_sides`: the nodes 1 and 2, of weights 4
and 2, joined by a global loop closure. -/
theorem removeLink_removes_both_sides_witness :
    ∃ m', Memory.removeLink (linkedPairMemory LinkType.kGlobalClosure 4 2) 1 2 = Except.ok m' ∧
      Memory.removeLink (linkedPairMemory LinkType.kGlobalClosure 4 2) 2 1 = Except.ok m' ∧
      (m'._getSignature 1).map Signature.weight = some (4 + 1) ∧
      (m'._getSignature 2).map Signature.weight = some (2 - 1) ∧
      m'.linksChanged = true := by
  obtain ⟨m', oldS, newS, l, ho, hn, hl, h1, h2, _, _, _, _, _, hw, _, hc, _⟩ :=
    removeLink_removes_both_sides (linkedPairMemory LinkType.kGlobalClosure 4 2) 1 2
      (lineSignature 1 4 (some 0) [lineLink 1 2 LinkType.kGlobalClosure (some 3)])
      (lineSignature 2 2 (some 3) [lineLink 2 1 LinkType.kGlobalClosure (some (-3))])
      (by decide) rfl rfl rfl rfl
  have ho' : oldS = lineSignature 1 4 (some 0) [lineLink 1 2 LinkType.kGlobalClosure (some 3)] :=
    Option.some.inj (ho.symm.trans rfl)
  have hn' : newS = lineSignature 2 2 (some 3)
      [lineLink 2 1 LinkType.kGlobalClosure (some (-3))] :=
    Option.some.inj (hn.symm.trans rfl)
  subst ho' hn'
  have hl' : l = lineLink 1 2 LinkType.kGlobalClosure (some 3) :=
    Option.some.inj (hl.symm.trans rfl)
  subst hl'
  have hw' := hw ⟨rfl, by decide⟩
  exact ⟨m', h1, h2, hw'.1, hw'.2, hc (by decide)⟩

/-- Claim C9 fails on the code: when a signature is not in the table,
`removeLink` evaluates `newS->id()` or `oldS->id()` on the null pointer in its
error branch, and `updateLink` calls `hasLink` on the null pointer; here node 7
is absent. -/
theorem removeLink_updateLink_absent_null_dereference :
    (twoNodeMemory 0 0)._getSignature 7 = none ∧
    Memory.removeLink (twoNodeMemory 0 0) 1 7 = Except.error Fault.nullDereference ∧
    Memory.removeLink (twoNodeMemory 0 0) 7 1 = Except.error Fault.nullDereference ∧
    Memory.updateLink (lineEnv true false 2) (twoNodeMemory 0 0) 7 1 (some 1) () =
      Except.error Fault.nullDereference :=
  ⟨rfl, rfl, rfl, rfl⟩

theorem khas_kinsert_self {α : Type} (key : α → Int) (l : List α) (b : α) :
    khas key (kinsert key b l) (key b) = true := by
  rw [khas_eq_isSome, kfind_kinsert]
  cases h : khas key l (key b) with
  | true => simpa [khas_eq_isSome] using h
  | false => simp

/-- Claim C7 (amended): for a loop-closure link `l` between two distinct
in-memory nodes that are not yet linked (of non-negative weight whenever
`addLink` updates the weights), `addLink(l)` followed by
`removeLink(l.from, l.to)` completes and yields a memory in which every
signature has exactly the links it had before `addLink` and every signature
other than the two endpoints is unchanged; the two endpoints are unchanged as
well, weight included, when `l` is a `VirtualClosure` or both had weight 0. -/
theorem addLink_removeLink_restores_links {T I : Type} (e : Env T I) (m : Memory T I)
    (l : Link T I) (fromS toS : Signature T I)
    (hty : l.type.isLoopClosure = true) (hne : l.from_ ≠ l.to_)
    (hf : m._getSignature l.from_ = some fromS) (ht : m._getSignature l.to_ = some toS)
    (hlf : fromS.hasLink l.to_ = false) (hlt : toS.hasLink l.from_ = false)
    (hw : e.incrementalMemory = true → l.type ≠ LinkType.kVirtualClosure →
      (l.type ≠ LinkType.kLocalSpaceClosure ∨ l.userDataCompressed = []) →
      0 ≤ fromS.weight ∧ 0 ≤ toS.weight) :
    ∃ m1 m2, Memory.addLink e m l = Except.ok (true, m1) ∧
      Memory.removeLink m1 l.from_ l.to_ = Except.ok m2 ∧
      (∀ k, (m2._getSignature k).map Signature.links = (m._getSignature k).map Signature.links) ∧
      (∀ k, k ≠ l.from_ → k ≠ l.to_ → m2._getSignature k = m._getSignature k) ∧
      (l.type = LinkType.kVirtualClosure ∨ (fromS.weight = 0 ∧ toS.weight = 0) →
        ∀ k, m2._getSignature k = m._getSignature k) := by
  obtain ⟨m1, wf, wt, hadd, hfrom, hto, hother, hwts⟩ :=
    Memory.addLink_unlinked_result e m l fromS toS hty hne hf ht hlt hw
  have hab : ({ fromS.addLink l with weight := wf } : Signature T I).hasLink l.to_ = true :=
    khas_kinsert_self Link.to_ fromS.links l
  have hba : ({ toS.addLink (l.inverse e.geo) with weight := wt } : Signature T I).hasLink
      l.from_ = true :=
    khas_kinsert_self Link.to_ toS.links (l.inverse e.geo)
  have kf : kerase Link.to_ l.to_ (kinsert Link.to_ l fromS.links) = fromS.links :=
    kerase_kinsert Link.to_ hlf
  have kt : kerase Link.to_ l.from_ (kinsert Link.to_ (l.inverse e.geo) toS.links) =
      toS.links :=
    kerase_kinsert Link.to_ (b := l.inverse e.geo) hlt
  have k1 : kfind Link.to_ (kinsert Link.to_ l fromS.links) l.to_ = some l := by
    rw [kfind_kinsert]
    have : khas Link.to_ fromS.links l.to_ = false := hlf
    simp [this]
  have k2 : kfind Link.to_ (kinsert Link.to_ (l.inverse e.geo) toS.links) l.from_ =
      some (l.inverse e.geo) := by
    rw [kfind_kinsert]
    have : khas Link.to_ toS.links (l.inverse e.geo).to_ = false := hlt
    simp only [this, Bool.false_eq_true, if_false]
    exact if_pos rfl
  obtain ⟨m2, oldS, newS, l0, wo, wn, ho, hn, hl0, hrem, _, hother2, hOld, hNew, hw1, hw2, _, _⟩ :=
    Memory.removeLink_linked_result m1 l.from_ l.to_ _ _ hne hfrom hto hab hba
  -- the two endpoints after both operations
  have hends : ∃ wf' wt', m2._getSignature l.from_ = some { fromS with weight := wf' } ∧
      m2._getSignature l.to_ = some { toS with weight := wt' } ∧
      (l.type = LinkType.kVirtualClosure ∨ (fromS.weight = 0 ∧ toS.weight = 0) →
        wf' = fromS.weight ∧ wt' = toS.weight) := by
    have sF : ∀ w : Int, ({ fromS with weight := w, links := kerase Link.to_ l.to_ (kinsert Link.to_ l fromS.links) } : Signature T I) = { fromS with weight := w } := by
      intro w
      rw [kf]
    have sT : ∀ w : Int, ({ toS with weight := w, links := kerase Link.to_ l.from_ (kinsert Link.to_ (l.inverse e.geo) toS.links) } : Signature T I) = { toS with weight := w } := by
      intro w
      rw [kt]
    rcases lt_or_gt_of_ne hne with h | h
    · simp only [min_eq_left (le_of_lt h), max_eq_right (le_of_lt h)] at ho hn hl0 hOld hNew
      have e1 := Option.some.inj (ho.symm.trans hfrom)
      have e2 := Option.some.inj (hn.symm.trans hto)
      rw [e1] at hl0 hOld hw1 hw2
      rw [e2] at hNew hw1 hw2
      have e3 : l0 = l := Option.some.inj (hl0.symm.trans k1)
      rw [e3] at hw1 hw2
      refine ⟨wo, wn, ?_, ?_, ?_⟩
      · rw [hOld]
        exact congrArg some (sF wo)
      · rw [hNew]
        exact congrArg some (sT wn)
      · intro hc
        obtain ⟨z1, z2⟩ := hwts hc
        have hno : ¬ (l.type = LinkType.kGlobalClosure ∧ 0 < wt) := by
          rintro ⟨g1, g2⟩
          rcases hc with hc | hc
          · rw [hc] at g1; exact absurd g1 (by decide)
          · rw [z2, hc.2] at g2; exact absurd g2 (by decide)
        obtain ⟨y1, y2⟩ := hw2 hno
        exact ⟨y1.trans z1, y2.trans z2⟩
    · simp only [min_eq_right (le_of_lt h), max_eq_left (le_of_lt h)] at ho hn hl0 hOld hNew
      have e1 := Option.some.inj (ho.symm.trans hto)
      have e2 := Option.some.inj (hn.symm.trans hfrom)
      rw [e1] at hl0 hOld hw1 hw2
      rw [e2] at hNew hw1 hw2
      have e3 : l0 = l.inverse e.geo := Option.some.inj (hl0.symm.trans k2)
      rw [e3] at hw1 hw2
      refine ⟨wn, wo, ?_, ?_, ?_⟩
      · rw [hNew]
        exact congrArg some (sF wn)
      · rw [hOld]
        exact congrArg some (sT wo)
      · intro hc
        obtain ⟨z1, z2⟩ := hwts hc
        have hno : ¬ ((l.inverse e.geo).type = LinkType.kGlobalClosure ∧ 0 < wf) := by
          rintro ⟨g1, g2⟩
          rcases hc with hc | hc
          · have : (l.inverse e.geo).type = l.type := rfl
            rw [this, hc] at g1; exact absurd g1 (by decide)
          · rw [z1, hc.1] at g2; exact absurd g2 (by decide)
        obtain ⟨y1, y2⟩ := hw2 hno
        exact ⟨y2.trans z1, y1.trans z2⟩
  obtain ⟨wf', wt', hF, hT, hrest⟩ := hends
  have hoth : ∀ k, k ≠ l.from_ → k ≠ l.to_ → m2._getSignature k = m._getSignature k := by
    intro k h1 h2
    rw [hother2 k h1 h2, hother k h1 h2]
  refine ⟨m1, m2, hadd, hrem, ?_, hoth, ?_⟩
  · intro k
    by_cases h1 : k = l.from_
    · rw [h1, hF, hf]; rfl
    · by_cases h2 : k = l.to_
      · rw [h2, hT, ht]; rfl
      · rw [hoth k h1 h2]
  · intro hc k
    obtain ⟨z1, z2⟩ := hrest hc
    by_cases h1 : k = l.from_
    · rw [h1, hF, hf, z1]
    · by_cases h2 : k = l.to_
      · rw [h2, hT, ht, z2]
      · rw [hoth k h1 h2]

/-- Witness of `addLink_removeLink_restores_links`: a global loop closure from
node 2 to node 1, of weights 3 and 2, added and removed again. -/
theorem addLink_removeLink_restores_links_witness :
    ∃ m1 m2, Memory.addLink (lineEnv true true 2) (twoNodeMemory 2 3)
        (lineLink 2 1 LinkType.kGlobalClosure (some 3)) = Except.ok (true, m1) ∧
      Memory.removeLink m1 2 1 = Except.ok m2 ∧
      (∀ k, (m2._getSignature k).map Signature.links =
        ((twoNodeMemory 2 3)._getSignature k).map Signature.links) := by
  obtain ⟨m1, m2, h1, h2, h3, _⟩ :=
    addLink_removeLink_restores_links (lineEnv true true 2) (twoNodeMemory 2 3)
      (lineLink 2 1 LinkType.kGlobalClosure (some 3))
      (lineSignature 2 3 (some 1) []) (lineSignature 1 2 (some 0) [])
      rfl (by decide) rfl rfl rfl rfl (fun _ _ _ => by decide)
  exact ⟨m1, m2, h1, h2, h3⟩

/-- Claim C7 fails as stated: adding a global loop closure between the unlinked
nodes 1 (weight 2) and 2 (weight 3) and removing it again leaves node 1 with
weight 5 and node 2 with weight 0. -/
theorem addLink_removeLink_changes_weights :
    ((twoNodeMemory 2 3)._getSignature 1).map Signature.weight = some 2 ∧
    ((twoNodeMemory 2 3)._getSignature 2).map Signature.weight = some 3 ∧
    (Memory.addLink (lineEnv true true 2) (twoNodeMemory 2 3)
        (lineLink 2 1 LinkType.kGlobalClosure (some 3)) >>= fun r =>
      Memory.removeLink r.2 2 1 >>= fun m2 =>
      pure (r.1, (m2._getSignature 1).map Signature.weight,
        (m2._getSignature 2).map Signature.weight)) =
      Except.ok (true, some 5, some 0) :=
  ⟨rfl, rfl, rfl⟩

theorem kplace_of_all_lt {α : Type} (key : α → Int) (a : α) (l : List α)
    (h : ∀ b ∈ l, key b < key a) : kplace key a l = l ++ [a] := by
  induction l with
  | nil => rfl
  | cons c rest ih =>
    have hc : ¬ key a < key c := by
      have := h c (by simp)
      omega
    unfold kplace
    rw [if_neg hc, ih (fun b hb => h b (by simp [hb]))]
    rfl

theorem kinsert_of_all_lt {α : Type} (key : α → Int) (a : α) (l : List α)
    (h : ∀ b ∈ l, key b < key a) : kinsert key a l = l ++ [a] := by
  unfold kinsert
  have : khas key l (key a) = false := by
    rw [khas_false_iff]
    intro b hb
    exact ne_of_lt (h b hb)
  rw [this]
  simp only [Bool.false_eq_true, if_false]
  exact kplace_of_all_lt key a l h

namespace Memory

variable {T I : Type}

theorem signatureAt_of_some {m : Memory T I} {k : Int} {s : Signature T I}
    (h : m._getSignature k = some s) : m.signatureAt k = Except.ok s := by
  unfold signatureAt
  rw [h]

/-- The neighbor link `addSignatureToStm` gives the STM tail `t` towards the new
signature `s`. -/
theorem addSignatureToStm_same_map (e : Env T I) (m : Memory T I) (s : Signature T I)
    (infMatrix : I) (tailId : Int) (t : Signature T I)
    (htail : m.stMem.getLast? = some tailId) (ht : m._getSignature tailId = some t)
    (hmap : t.mapId = s.mapId) :
    addSignatureToStm e m s infMatrix =
      (let metric := !e.geo.isNull s.pose && !e.geo.isNull t.pose
       let motion := if metric then e.geo.mul (e.geo.inverse t.pose) s.pose else e.geo.null
       let back := if metric then e.geo.inverse (e.geo.mul (e.geo.inverse t.pose) s.pose)
         else e.geo.null
       let info := if metric then infMatrix else e.geo.infoDefault
       let m1 := m.modifySignature tailId (fun p => p.addLink
         { from_ := tailId, to_ := s.id, type := LinkType.kNeighbor, transform := motion,
           info := info, userDataCompressed := [] })
       let s1 := s.addLink
         { from_ := s.id, to_ := tailId, type := LinkType.kNeighbor, transform := back,
           info := info, userDataCompressed := [] }
       let s2 := if s1.words.length != 0 then { s1 with enabled := true } else s1
       Except.ok (((m1.setSignatures (kinsert Signature.id s2 m1.signatures)).setStMem
         (kinsert selfKey s2.id m1.stMem)).setSignaturesAdded (m1.signaturesAdded + 1))) := by
  unfold addSignatureToStm
  simp only [htail, signatureAt_of_some ht, hmap, if_true, bind, Except.bind, pure, Except.pure]
  cases hmetric : (!e.geo.isNull s.pose && !e.geo.isNull t.pose) with
  | true => simp only [if_true]; rfl
  | false => simp only [Bool.false_eq_true, if_false]; rfl

end Memory
/-- Claim C10: when the STM is not empty and its tail `t` has the map id of a
new signature `s` (an id that is not in the table and is greater than every
STM id, no links yet, and no link of `t` towards it), `addSignatureToStm(s)`
makes `s` the STM tail and a member of the signature table, gives `t` a
Neighbor link to `s` with transform `t.pose⁻¹ * s.pose`, gives `s` as its only
link a Neighbor link to `t` with the inverse of that transform (both links
carry the null transform when a pose is null) and leaves every other
signature unchanged; in particular three same-map observations inserted into
an empty STM give STM = {1, 2, 3} with the mutual Neighbor links 1-2 and 2-3
only. -/
theorem addSignatureToStm_neighbor_links {T I : Type} (e : Env T I) (m : Memory T I)
    (s : Signature T I) (infMatrix : I) (tailId : Int) (t : Signature T I)
    (htail : m.stMem.getLast? = some tailId) (ht : m._getSignature tailId = some t)
    (hmap : t.mapId = s.mapId)
    (hnew : m._getSignature s.id = none) (hlinks : s.links = [])
    (hgt : ∀ i ∈ m.stMem, i < s.id) (hnolink : t.hasLink s.id = false) :
    (∃ m' s' t' lt ls,
      Memory.addSignatureToStm e m s infMatrix = Except.ok m' ∧
      m'.stMem.getLast? = some s.id ∧
      m'._getSignature s.id = some s' ∧ m'._getSignature tailId = some t' ∧
      t'.links = kinsert Link.to_ lt t.links ∧ kfind Link.to_ t'.links s.id = some lt ∧
      s'.links = [ls] ∧
      lt.from_ = tailId ∧ lt.to_ = s.id ∧ lt.type = LinkType.kNeighbor ∧
      ls.from_ = s.id ∧ ls.to_ = tailId ∧ ls.type = LinkType.kNeighbor ∧
      (e.geo.isNull s.pose = false ∧ e.geo.isNull t.pose = false →
        lt.transform = e.geo.mul (e.geo.inverse t.pose) s.pose ∧
        ls.transform = e.geo.inverse (e.geo.mul (e.geo.inverse t.pose) s.pose)) ∧
      (e.geo.isNull s.pose = true ∨ e.geo.isNull t.pose = true →
        lt.transform = e.geo.null ∧ ls.transform = e.geo.null) ∧
      (∀ k, k ≠ s.id → k ≠ tailId → m'._getSignature k = m._getSignature k)) ∧
    ((Memory.addSignatureToStm (lineEnv true false 10) (lineMemory [] [] [(-1, 0)])
          (lineSignature 1 0 (some 0) []) () >>= fun m1 =>
        Memory.addSignatureToStm (lineEnv true false 10) m1 (lineSignature 2 0 (some 1) []) ()
          >>= fun m2 =>
        Memory.addSignatureToStm (lineEnv true false 10) m2 (lineSignature 3 0 (some 2) []) ()
          >>= fun m3 =>
        pure (m3.stMem, m3.signatures.map (fun x => (x.id, x.links)))) =
      Except.ok ([1, 2, 3],
        [(1, [lineLink 1 2 LinkType.kNeighbor (some 1)]),
         (2, [lineLink 2 1 LinkType.kNeighbor (some (-1)),
              lineLink 2 3 LinkType.kNeighbor (some 1)]),
         (3, [lineLink 3 2 LinkType.kNeighbor (some (-1))])])) := by
  refine ⟨?_, rfl⟩
  have hts : tailId ≠ s.id := by
    intro h
    rw [h, hnew] at ht
    exact Option.noConfusion ht
  rw [Memory.addSignatureToStm_same_map e m s infMatrix tailId t htail ht hmap]
  simp only []
  -- the link given to the tail and the signature inserted
  obtain ⟨lt, hlt⟩ : ∃ lt : Link T I, Link.mk tailId s.id LinkType.kNeighbor
      (if (!e.geo.isNull s.pose && !e.geo.isNull t.pose) = true then
        e.geo.mul (e.geo.inverse t.pose) s.pose else e.geo.null)
      (if (!e.geo.isNull s.pose && !e.geo.isNull t.pose) = true then infMatrix
        else e.geo.infoDefault) [] = lt := ⟨_, rfl⟩
  obtain ⟨ls, hls⟩ : ∃ ls : Link T I, Link.mk s.id tailId LinkType.kNeighbor
      (if (!e.geo.isNull s.pose && !e.geo.isNull t.pose) = true then
        e.geo.inverse (e.geo.mul (e.geo.inverse t.pose) s.pose) else e.geo.null)
      (if (!e.geo.isNull s.pose && !e.geo.isNull t.pose) = true then infMatrix
        else e.geo.infoDefault) [] = ls := ⟨_, rfl⟩
  rw [hlt, hls]
  generalize hs2 : (if ((s.addLink ls).words.length != 0) = true then
      { s.addLink ls with enabled := true } else s.addLink ls) = s2
  have hs2id : s2.id = s.id := by rw [← hs2]; split <;> rfl
  have hs2links : s2.links = [ls] := by
    rw [← hs2]
    have : (s.addLink ls).links = [ls] := by
      show kinsert Link.to_ ls s.links = [ls]
      rw [hlinks]; rfl
    split <;> exact this
  have hltto : lt.to_ = s.id := by rw [← hlt]
  have hmod : ∀ k, (m.modifySignature tailId (fun p => p.addLink lt))._getSignature k =
      (m._getSignature k).map (fun a => if a.id = tailId then a.addLink lt else a) :=
    fun k => Memory.getSignature_modify m tailId k (fun p => p.addLink lt) (fun _ => rfl)
  have hnot : khas Signature.id (m.modifySignature tailId (fun p => p.addLink lt)).signatures
      s2.id = false := by
    rw [hs2id, khas_eq_isSome]
    have := hmod s.id
    rw [hnew] at this
    show ((m.modifySignature tailId (fun p => p.addLink lt))._getSignature s.id).isSome = false
    rw [this]; rfl
  have hlook : ∀ k, ((((m.modifySignature tailId (fun p => p.addLink lt)).setSignatures
      (kinsert Signature.id s2 (m.modifySignature tailId
        (fun p => p.addLink lt)).signatures)).setStMem
      (kinsert selfKey s2.id (m.modifySignature tailId (fun p => p.addLink lt)).stMem)
      ).setSignaturesAdded ((m.modifySignature tailId
        (fun p => p.addLink lt)).signaturesAdded + 1))._getSignature k =
      if k = s.id then some s2
      else (m._getSignature k).map (fun a => if a.id = tailId then a.addLink lt else a) := by
    intro k
    show kfind Signature.id (kinsert Signature.id s2 _) k = _
    rw [kfind_kinsert, hnot, hs2id]
    simp only [Bool.false_eq_true, if_false]
    split
    · rfl
    · exact hmod k
  have htid := Memory.getSignature_id ht
  refine ⟨_, s2, t.addLink lt, lt, ls, rfl, ?_, ?_, ?_, rfl, ?_, hs2links, ?_, hltto, ?_, ?_, ?_,
    ?_, ?_, ?_, ?_⟩
  · show (kinsert selfKey s2.id m.stMem).getLast? = some s.id
    rw [hs2id, kinsert_of_all_lt selfKey s.id m.stMem hgt]
    simp
  · rw [hlook]; simp
  · rw [hlook, if_neg hts, ht]
    simp [htid]
  · show kfind Link.to_ (kinsert Link.to_ lt t.links) s.id = some lt
    rw [kfind_kinsert, hltto]
    have : khas Link.to_ t.links s.id = false := hnolink
    simp [this]
  · rw [← hlt]
  · rw [← hlt]
  · rw [← hls]
  · rw [← hls]
  · rw [← hls]
  · rintro ⟨h1, h2⟩
    rw [← hlt, ← hls]
    simp [h1, h2]
  · intro h
    rw [← hlt, ← hls]
    rcases h with h | h <;> simp [h]
  · intro k hk1 hk2
    rw [hlook, if_neg hk1]
    cases hk : m._getSignature k with
    | none => rfl
    | some a =>
      have := Memory.getSignature_id hk
      simp [this, hk2]
/-- Witness of `addSignatureToStm_neighbor_links`: node 2 at position 1 joins
an STM holding node 1 at position 0. -/
theorem addSignatureToStm_neighbor_links_witness :
    ∃ m', Memory.addSignatureToStm (lineEnv true false 10)
        (lineMemory [lineSignature 1 0 (some 0) []] [1] [(-1, 0)])
        (lineSignature 2 0 (some 1) []) () = Except.ok m' ∧
      m'.stMem.getLast? = some 2 ∧
      (m'._getSignature 2).map Signature.links =
        some [lineLink 2 1 LinkType.kNeighbor (some (-1))] := by
  obtain ⟨m', s', t', lt, ls, h1, h2, h3, _, _, _, h4, _, _, _, h5, h6, h7, h8, _, _⟩ :=
    (addSignatureToStm_neighbor_links (lineEnv true false 10)
      (lineMemory [lineSignature 1 0 (some 0) []] [1] [(-1, 0)])
      (lineSignature 2 0 (some 1) []) () 1 (lineSignature 1 0 (some 0) [])
      rfl rfl rfl rfl rfl (by decide) rfl).1
  refine ⟨m', h1, h2, ?_⟩
  have e1 : Memory.addSignatureToStm (lineEnv true false 10)
      (lineMemory [lineSignature 1 0 (some 0) []] [1] [(-1, 0)])
      (lineSignature 2 0 (some 1) []) () = Except.ok
        (lineMemory [lineSignature 1 0 (some 0) []] [1] [(-1, 0)] |>.modifySignature 1
          (fun p => p.addLink (lineLink 1 2 LinkType.kNeighbor (some 1)))
          |>.setSignatures [lineSignature 1 0 (some 0) [lineLink 1 2 LinkType.kNeighbor (some 1)],
            lineSignature 2 0 (some 1) [lineLink 2 1 LinkType.kNeighbor (some (-1))]]
          |>.setStMem [1, 2] |>.setSignaturesAdded 1) := rfl
  rw [e1] at h1
  injection h1 with h1
  rw [← h1]
  rfl

/-! ## Keys of the containers -/

section Keys

variable {α : Type} (key : α → Int)

theorem khas_iff_mem_keys {l : List α} {k : Int} : khas key l k = true ↔ k ∈ l.map key := by
  rw [khas_iff]
  simp

theorem kfind_isSome_iff_mem_keys {l : List α} {k : Int} :
    (kfind key l k).isSome = true ↔ k ∈ l.map key :=
  khas_iff_mem_keys key

theorem kfind_eq_none_iff_not_mem_keys {l : List α} {k : Int} :
    kfind key l k = none ↔ k ∉ l.map key := by
  rw [← khas_iff_mem_keys key, khas_eq_isSome]
  cases kfind key l k <;> simp

theorem keys_kmodify {l : List α} {k : Int} {f : α → α} (hf : ∀ a, key (f a) = key a) :
    (kmodify key k f l).map key = l.map key := by
  unfold kmodify
  rw [List.map_map]
  apply List.map_congr_left
  intro a _
  show key (if key a = k then f a else a) = key a
  split
  · exact hf a
  · rfl

theorem mem_keys_kerase {l : List α} {k k' : Int} :
    k' ∈ (kerase key k l).map key ↔ k' ∈ l.map key ∧ k' ≠ k := by
  simp only [List.mem_map, mem_kerase]
  constructor
  · rintro ⟨a, ⟨ha, hk⟩, rfl⟩
    exact ⟨⟨a, ha, rfl⟩, hk⟩
  · rintro ⟨⟨a, ha, rfl⟩, hk⟩
    exact ⟨a, ⟨ha, hk⟩, rfl⟩

theorem mem_keys_kinsert {l : List α} {a : α} {k' : Int} :
    k' ∈ (kinsert key a l).map key ↔ k' ∈ l.map key ∨ k' = key a := by
  simp only [List.mem_map, mem_kinsert]
  constructor
  · rintro ⟨b, hb | ⟨rfl, _⟩, rfl⟩
    · exact Or.inl ⟨b, hb, rfl⟩
    · exact Or.inr rfl
  · rintro (⟨b, hb, rfl⟩ | rfl)
    · exact ⟨b, Or.inl hb, rfl⟩
    · cases h : khas key l (key a) with
      | true =>
        obtain ⟨b, hb, hk⟩ := (khas_iff key).1 h
        exact ⟨b, Or.inl hb, hk⟩
      | false => exact ⟨a, Or.inr ⟨rfl, rfl⟩, rfl⟩

theorem keys_kerase_length_lt {l : List α} {k : Int} (h : k ∈ l.map key) :
    (kerase key k l).length < l.length := by
  unfold kerase
  obtain ⟨a, ha, hk⟩ := List.mem_map.1 h
  apply List.length_filter_lt_length_iff_exists.2
  exact ⟨a, ha, by simp [hk]⟩

end Keys

theorem mem_kinsert_selfKey {l : List Int} {a k : Int} :
    k ∈ kinsert selfKey a l ↔ k ∈ l ∨ k = a := by
  have := @mem_keys_kinsert _ selfKey l a k
  simpa [selfKey] using this

theorem mem_kerase_selfKey {l : List Int} {a k : Int} :
    k ∈ kerase selfKey a l ↔ k ∈ l ∧ k ≠ a := by
  rw [mem_kerase]
  rfl

/-! ## Frames of the tiers -/

namespace Memory

variable {T I : Type}

theorem getSignature_isSome_iff (m : Memory T I) (k : Int) :
    (m._getSignature k).isSome = true ↔ k ∈ m.ids :=
  kfind_isSome_iff_mem_keys Signature.id

theorem getSignature_eq_none_iff (m : Memory T I) (k : Int) :
    m._getSignature k = none ↔ k ∉ m.ids :=
  kfind_eq_none_iff_not_mem_keys Signature.id

theorem mem_ids_of_getSignature {m : Memory T I} {k : Int} {s : Signature T I}
    (h : m._getSignature k = some s) : k ∈ m.ids :=
  (getSignature_isSome_iff m k).1 (by rw [h]; rfl)

theorem ids_modifySignature (m : Memory T I) (k : Int) (f : Signature T I → Signature T I)
    (hf : ∀ a, (f a).id = a.id) : (m.modifySignature k f).ids = m.ids :=
  keys_kmodify Signature.id hf

end Memory

namespace SameTiers

variable {T I : Type}

theorem refl (m : Memory T I) : SameTiers m m := ⟨rfl, rfl, rfl, rfl⟩

theorem trans {a b c : Memory T I} (h1 : SameTiers a b) (h2 : SameTiers b c) :
    SameTiers a c :=
  ⟨h2.1.trans h1.1, h2.2.1.trans h1.2.1, h2.2.2.1.trans h1.2.2.1,
    h2.2.2.2.trans h1.2.2.2⟩

theorem modifySignature (m : Memory T I) (k : Int) (f : Signature T I → Signature T I)
    (hf : ∀ a, (f a).id = a.id) : SameTiers m (m.modifySignature k f) :=
  ⟨rfl, rfl, Memory.ids_modifySignature m k f hf, rfl⟩

theorem setWeight (m : Memory T I) (k w : Int) : SameTiers m (m.setWeight k w) :=
  modifySignature m k _ (fun _ => rfl)

theorem setVwd (m : Memory T I) (v : VWDictionary) : SameTiers m (m.setVwd v) :=
  ⟨rfl, rfl, rfl, rfl⟩

theorem setLastSignature (m : Memory T I) (v : Option Int) :
    SameTiers m (m.setLastSignature v) :=
  ⟨rfl, rfl, rfl, rfl⟩

theorem setLastGlobalLoopClosureId (m : Memory T I) (v : Int) :
    SameTiers m (m.setLastGlobalLoopClosureId v) :=
  ⟨rfl, rfl, rfl, rfl⟩

theorem setMemoryChanged (m : Memory T I) (v : Bool) : SameTiers m (m.setMemoryChanged v) :=
  ⟨rfl, rfl, rfl, rfl⟩

theorem setLinksChanged (m : Memory T I) (v : Bool) : SameTiers m (m.setLinksChanged v) :=
  ⟨rfl, rfl, rfl, rfl⟩

theorem setSignaturesAdded (m : Memory T I) (v : Int) :
    SameTiers m (m.setSignaturesAdded v) :=
  ⟨rfl, rfl, rfl, rfl⟩

theorem asyncSave (m : Memory T I) (s : Signature T I) : SameTiers m (m.asyncSave s) :=
  ⟨rfl, rfl, rfl, rfl⟩

theorem tierConsistent {m m' : Memory T I} (h : SameTiers m m') (hc : TierConsistent m) :
    TierConsistent m' := by
  obtain ⟨h1, h2, h3, _⟩ := h
  unfold TierConsistent Memory.wmIds at *
  rw [h1, h2, h3]
  exact hc

theorem positiveIds {m m' : Memory T I} (h : SameTiers m m') (hc : PositiveIds m) :
    PositiveIds m' := by
  unfold PositiveIds at *
  rw [h.2.2.1]
  exact hc

end SameTiers

namespace SameTiers

variable {T I : Type}

theorem foldl {β : Type} (f : Memory T I → β → Memory T I)
    (h : ∀ m b, SameTiers m (f m b)) (l : List β) (m : Memory T I) :
    SameTiers m (l.foldl f m) := by
  induction l generalizing m with
  | nil => exact refl m
  | cons b rest ih => exact trans (h m b) (ih (f m b))

theorem ite {c : Prop} [Decidable c] {m a b : Memory T I} (ha : SameTiers m a)
    (hb : SameTiers m b) : SameTiers m (if c then a else b) := by
  split <;> assumption

theorem moveToTrashUnlink (sId sWeight : Int) (links : List (Link T I)) (m m' : Memory T I)
    (h : Memory.moveToTrashUnlink sId sWeight links m = Except.ok m') : SameTiers m m' := by
  induction links generalizing m with
  | nil =>
    simp only [Memory.moveToTrashUnlink, pure, Except.pure] at h
    injection h with h
    rw [← h]
    exact refl m
  | cons l rest ih =>
    unfold Memory.moveToTrashUnlink at h
    cases hs : m._getSignature l.to_ with
    | none => simp [hs, throw, throwThe, MonadExceptOf.throw] at h
    | some sTo =>
      simp only [hs] at h
      refine trans ?_ (ih _ h)
      refine trans ?_ (modifySignature _ _ _ (fun _ => rfl))
      split
      · exact setWeight _ _ _
      · exact refl m

theorem removeVirtualLinks (m : Memory T I) (signatureId : Int) :
    SameTiers m (m.removeVirtualLinks signatureId) := by
  unfold Memory.removeVirtualLinks
  cases m._getSignature signatureId with
  | none => exact refl m
  | some s =>
    simp only []
    refine trans (foldl _ ?_ s.links m) (modifySignature _ _ _ (fun _ => rfl))
    intro m' l
    split
    · exact modifySignature _ _ _ (fun _ => rfl)
    · exact refl m'

theorem disableWordsRef (m : Memory T I) (signatureId : Int) :
    SameTiers m (m.disableWordsRef signatureId) := by
  unfold Memory.disableWordsRef
  cases m._getSignature signatureId with
  | none => exact refl m
  | some ss =>
    simp only []
    split
    · exact trans (setVwd _ _) (modifySignature _ _ _ (fun _ => rfl))
    · exact refl m

theorem enableWordsRefRewrite (surfSigns : List Int) (refsToChange : List (Int × Int))
    (m : Memory T I) : SameTiers m (Memory.enableWordsRefRewrite surfSigns refsToChange m) := by
  unfold Memory.enableWordsRefRewrite
  refine foldl _ ?_ _ _
  intro m' r
  refine foldl _ ?_ _ _
  intro m'' j
  exact modifySignature _ _ _ (fun _ => rfl)

theorem enableWordsRefLoad (e : Env T I) (m : Memory T I) (surfSigns oldWordIds : List Int) :
    SameTiers m (Memory.enableWordsRefLoad e m surfSigns oldWordIds) := by
  unfold Memory.enableWordsRefLoad
  simp only []
  refine ite ?_ (refl m)
  exact trans (setVwd m _) (enableWordsRefRewrite _ _ _)

theorem enableWordsRefActivate (m : Memory T I) (j : Int) :
    SameTiers m (Memory.enableWordsRefActivate m j) := by
  unfold Memory.enableWordsRefActivate
  cases m._getSignature j with
  | none => exact refl m
  | some s =>
    simp only []
    refine ite ?_ (setVwd _ _)
    refine trans (setVwd _ _) (modifySignature _ _ _ ?_)
    intro _; rfl

theorem enableWordsRef (e : Env T I) (m : Memory T I) (signatureIds : List Int) :
    SameTiers m (Memory.enableWordsRef e m signatureIds) := by
  unfold Memory.enableWordsRef
  exact trans (enableWordsRefLoad _ _ _ _) (foldl _ (fun m' j => enableWordsRefActivate m' j) _ _)

theorem copyData (e : Env T I) (m m' : Memory T I) (fromId toId : Int)
    (h : Memory.copyData e m fromId toId = Except.ok m') : SameTiers m m' := by
  unfold Memory.copyData at h
  simp only [bind, Except.bind, pure, Except.pure] at h
  split at h
  · exact Except.noConfusion h
  · split at h
    · exact Except.noConfusion h
    · split at h
      · exact Except.noConfusion h
      · injection h with h
        rw [← h]
        rename_i toS _ _ _ _ _ _ _
        refine trans ?_ (modifySignature _ _ _ ?_)
        · refine trans ?_ (enableWordsRef e _ _)
          refine trans ?_ (modifySignature _ _ _ ?_)
          · exact disableWordsRef m toS.id
          · intro _; rfl
        · intro _; rfl

end SameTiers

/-! ## Keys of the containers -/

section Keys

variable {α : Type} (key : α → Int)

theorem map_selfKey (l : List Int) : l.map selfKey = l := by
  induction l with
  | nil => rfl
  | cons a rest ih => simp [selfKey, ih]

theorem khas_keys {l : List α} {k : Int} : khas selfKey (l.map key) k = khas key l k := by
  rw [Bool.eq_iff_iff, khas_iff_mem_keys, khas_iff_mem_keys, map_selfKey]

theorem keys_kplace {l : List α} {a : α} :
    (kplace key a l).map key = kplace selfKey (key a) (l.map key) := by
  induction l with
  | nil => rfl
  | cons b rest ih =>
    simp only [kplace, List.map_cons, selfKey]
    split
    · rfl
    · simp only [List.map_cons, List.cons.injEq, true_and]
      exact ih

theorem keys_kinsert {l : List α} {a : α} :
    (kinsert key a l).map key = kinsert selfKey (key a) (l.map key) := by
  unfold kinsert
  have h : selfKey (key a) = key a := rfl
  rw [h, khas_keys]
  split
  · rfl
  · exact keys_kplace key

theorem keys_kerase {l : List α} {k : Int} :
    (kerase key k l).map key = kerase selfKey k (l.map key) := by
  unfold kerase
  induction l with
  | nil => rfl
  | cons b rest ih =>
    simp only [List.filter_cons, List.map_cons, selfKey]
    split
    · simp only [List.map_cons, List.cons.injEq, true_and]
      exact ih
    · exact ih

theorem kSorted_iff {l : List α} : KSorted key l ↔ (l.map key).Pairwise (fun a b => a < b) :=
  Iff.rfl

theorem kSorted_selfKey {l : List Int} : KSorted selfKey l ↔ l.Pairwise (fun a b => a < b) := by
  unfold KSorted
  rw [map_selfKey]

theorem pairwise_kerase {l : List Int} {k : Int} (h : l.Pairwise (fun a b => a < b)) :
    (kerase selfKey k l).Pairwise (fun a b => a < b) :=
  h.filter _

theorem mem_kplace_selfKey {l : List Int} {a k : Int} :
    k ∈ kplace selfKey a l ↔ k = a ∨ k ∈ l :=
  mem_kplace selfKey

theorem pairwise_kplace {l : List Int} {a : Int} (h : l.Pairwise (fun a b => a < b))
    (ha : a ∉ l) : (kplace selfKey a l).Pairwise (fun a b => a < b) := by
  induction l with
  | nil => simp [kplace]
  | cons b rest ih =>
    rw [List.pairwise_cons] at h
    simp only [List.mem_cons, not_or] at ha
    unfold kplace
    simp only [selfKey]
    split
    · rename_i hab
      rw [List.pairwise_cons]
      refine ⟨?_, List.pairwise_cons.2 h⟩
      intro c hc
      rcases List.mem_cons.1 hc with rfl | hc
      · exact hab
      · exact lt_trans hab (h.1 c hc)
    · rename_i hab
      rw [List.pairwise_cons]
      refine ⟨?_, ih h.2 ha.2⟩
      intro c hc
      rcases mem_kplace_selfKey.1 hc with rfl | hc
      · have : b ≤ c := not_lt.1 hab
        exact lt_of_le_of_ne this (fun h' => ha.1 h'.symm)
      · exact h.1 c hc

theorem pairwise_kinsert {l : List Int} {a : Int} (h : l.Pairwise (fun a b => a < b)) :
    (kinsert selfKey a l).Pairwise (fun a b => a < b) := by
  unfold kinsert
  split
  · exact h
  · rename_i hn
    apply pairwise_kplace h
    intro hmem
    apply hn
    rw [khas_iff_mem_keys, map_selfKey]
    exact hmem

end Keys

/-! ## The invariant of the tiers under the elementary changes -/

theorem Memory.wmIds_eq_of_workingMem {T I : Type} {m m' : Memory T I}
    (h : m'.workingMem = m.workingMem) : m'.wmIds = m.wmIds := by
  unfold Memory.wmIds
  rw [h]

theorem KeysSorted.iff {T I : Type} (m : Memory T I) :
    KeysSorted m ↔ m.ids.Pairwise (fun a b => a < b) ∧ m.stMem.Pairwise (fun a b => a < b) ∧
      m.wmIds.Pairwise (fun a b => a < b) := by
  unfold KeysSorted
  rw [kSorted_selfKey]
  rfl

namespace SameTiers

variable {T I : Type}

theorem wmIds {m m' : Memory T I} (h : SameTiers m m') : m'.wmIds = m.wmIds :=
  Memory.wmIds_eq_of_workingMem h.2.1

theorem keysSorted {m m' : Memory T I} (h : SameTiers m m') (hs : KeysSorted m) :
    KeysSorted m' := by
  rw [KeysSorted.iff] at *
  rw [h.2.2.1, h.1, h.wmIds]
  exact hs

theorem idsBounded {m m' : Memory T I} (h : SameTiers m m') (hs : IdsBounded m) :
    IdsBounded m' := by
  unfold IdsBounded at *
  rw [h.2.2.1, h.2.2.2]
  exact hs

theorem tierInvariant {m m' : Memory T I} (h : SameTiers m m') (hs : TierInvariant m) :
    TierInvariant m' :=
  ⟨h.keysSorted hs.1, h.tierConsistent hs.2.1, h.positiveIds hs.2.2⟩

end SameTiers

namespace Trashed

variable {T I : Type}

theorem wmIds_eq {k : Int} {m m' : Memory T I} (h : Trashed k m m') :
    m'.wmIds = kerase selfKey k m.wmIds := by
  unfold Memory.wmIds
  rw [h.2.1]
  exact keys_kerase Prod.fst

theorem keepsKeysSorted {k : Int} {m m' : Memory T I} (h : Trashed k m m') (hs : KeysSorted m) :
    KeysSorted m' := by
  rw [KeysSorted.iff] at *
  rw [h.2.2.1, h.1, h.wmIds_eq]
  exact ⟨pairwise_kerase hs.1, pairwise_kerase hs.2.1, pairwise_kerase hs.2.2⟩

theorem keepsTierConsistent {k : Int} {m m' : Memory T I} (h : Trashed k m m')
    (hc : TierConsistent m) : TierConsistent m' := by
  obtain ⟨c1, c2, c3, c4⟩ := hc
  unfold TierConsistent
  rw [h.wmIds_eq, h.1, h.2.2.1]
  simp only [mem_kerase_selfKey]
  refine ⟨?_, ?_, ?_, ?_⟩
  · intro i hi hw
    exact c1 i hi.1 hw.1
  · intro i hi
    rcases c2 i hi.1 with h1 | h1
    · exact Or.inl ⟨h1, hi.2⟩
    · exact Or.inr ⟨⟨h1.1, hi.2⟩, h1.2⟩
  · intro i hi
    exact ⟨c3 i hi.1, hi.2⟩
  · intro i hi hne
    exact ⟨c4 i hi.1 hne, hi.2⟩

theorem keepsPositiveIds {k : Int} {m m' : Memory T I} (h : Trashed k m m')
    (hc : PositiveIds m) : PositiveIds m' := by
  unfold PositiveIds at *
  rw [h.2.2.1]
  intro i hi
  exact hc i (mem_kerase_selfKey.1 hi).1

theorem keepsIdsBounded {k : Int} {m m' : Memory T I} (h : Trashed k m m') (hs : IdsBounded m) :
    IdsBounded m' := by
  unfold IdsBounded at *
  rw [h.2.2.1, h.2.2.2]
  exact ⟨hs.1, fun i hi => hs.2 i (mem_kerase_selfKey.1 hi).1⟩

theorem keepsTierInvariant {k : Int} {m m' : Memory T I} (h : Trashed k m m')
    (hs : TierInvariant m) : TierInvariant m' :=
  ⟨h.keepsKeysSorted hs.1, h.keepsTierConsistent hs.2.1, h.keepsPositiveIds hs.2.2⟩

theorem of_sameTiers_left {k : Int} {a b c : Memory T I} (h1 : SameTiers a b)
    (h2 : Trashed k b c) : Trashed k a c := by
  unfold Trashed at *
  rw [← h1.1, ← h1.2.1, ← h1.2.2.1, ← h1.2.2.2]
  exact h2

theorem of_sameTiers_right {k : Int} {a b c : Memory T I} (h1 : Trashed k a b)
    (h2 : SameTiers b c) : Trashed k a c := by
  unfold Trashed at *
  rw [h2.1, h2.2.1, h2.2.2.1, h2.2.2.2]
  exact h1

end Trashed

section TierChanges

variable {T I : Type}

/-- A location with a fresh positive id enters the STM and the table. -/
theorem TierInvariant.of_stmInsert {m m' : Memory T I} {k : Int}
    (hst : m'.stMem = kinsert selfKey k m.stMem) (hwm : m'.workingMem = m.workingMem)
    (hids : m'.ids = kinsert selfKey k m.ids) (hk : k ∉ m.ids) (hpos : 0 < k)
    (h : TierInvariant m) : TierInvariant m' := by
  obtain ⟨hs, ⟨c1, c2, c3, c4⟩, hp⟩ := h
  have hw := Memory.wmIds_eq_of_workingMem hwm
  have hkw : k ∉ m.wmIds := fun hmem => hk (c4 k hmem (by omega))
  refine ⟨?_, ?_, ?_⟩
  · rw [KeysSorted.iff] at *
    rw [hids, hst, hw]
    exact ⟨pairwise_kinsert hs.1, pairwise_kinsert hs.2.1, hs.2.2⟩
  · unfold TierConsistent
    rw [hw, hst, hids]
    simp only [mem_kinsert_selfKey]
    refine ⟨?_, ?_, ?_, ?_⟩
    · rintro i (hi | rfl)
      · exact c1 i hi
      · exact hkw
    · rintro i (hi | rfl)
      · rcases c2 i hi with h1 | h1
        · exact Or.inl (Or.inl h1)
        · exact Or.inr h1
      · exact Or.inl (Or.inr rfl)
    · rintro i (hi | rfl)
      · exact Or.inl (c3 i hi)
      · exact Or.inr rfl
    · intro i hi hne
      exact Or.inl (c4 i hi hne)
  · unfold PositiveIds at *
    rw [hids]
    intro i hi
    rcases mem_kinsert_selfKey.1 hi with hi | rfl
    · exact hp i hi
    · exact hpos

/-- A location with a positive id that is not in the STM enters the working
memory and the table. -/
theorem TierInvariant.of_wmInsert {m m' : Memory T I} {k : Int} {now : Rat}
    (hst : m'.stMem = m.stMem) (hwm : m'.workingMem = kinsert Prod.fst (k, now) m.workingMem)
    (hids : m'.ids = kinsert selfKey k m.ids) (hk : k ∉ m.stMem) (hpos : 0 < k)
    (h : TierInvariant m) : TierInvariant m' := by
  obtain ⟨hs, ⟨c1, c2, c3, c4⟩, hp⟩ := h
  have hw : m'.wmIds = kinsert selfKey k m.wmIds := by
    unfold Memory.wmIds
    rw [hwm]
    exact keys_kinsert Prod.fst
  refine ⟨?_, ?_, ?_⟩
  · rw [KeysSorted.iff] at *
    rw [hids, hst, hw]
    exact ⟨pairwise_kinsert hs.1, hs.2.1, pairwise_kinsert hs.2.2⟩
  · unfold TierConsistent
    rw [hw, hst, hids]
    simp only [mem_kinsert_selfKey]
    refine ⟨?_, ?_, ?_, ?_⟩
    · rintro i hi (hw | rfl)
      · exact c1 i hi hw
      · exact hk hi
    · rintro i (hi | rfl)
      · rcases c2 i hi with h1 | h1
        · exact Or.inl h1
        · exact Or.inr ⟨Or.inl h1.1, h1.2⟩
      · exact Or.inr ⟨Or.inr rfl, by omega⟩
    · intro i hi
      exact Or.inl (c3 i hi)
    · rintro i (hi | rfl) hne
      · exact Or.inl (c4 i hi hne)
      · exact Or.inr rfl
  · unfold PositiveIds at *
    rw [hids]
    intro i hi
    rcases mem_kinsert_selfKey.1 hi with hi | rfl
    · exact hp i hi
    · exact hpos

/-- A location of the STM moves to the working memory. -/
theorem TierInvariant.of_transfer {m m' : Memory T I} {k : Int} {now : Rat}
    (hst : m'.stMem = kerase selfKey k m.stMem)
    (hwm : m'.workingMem = kinsert Prod.fst (k, now) m.workingMem)
    (hids : m'.ids = m.ids) (hk : k ∈ m.stMem)
    (h : TierInvariant m) : TierInvariant m' := by
  obtain ⟨hs, ⟨c1, c2, c3, c4⟩, hp⟩ := h
  have hw : m'.wmIds = kinsert selfKey k m.wmIds := by
    unfold Memory.wmIds
    rw [hwm]
    exact keys_kinsert Prod.fst
  have hkpos : 0 < k := hp k (c3 k hk)
  refine ⟨?_, ?_, ?_⟩
  · rw [KeysSorted.iff] at *
    rw [hids, hst, hw]
    exact ⟨hs.1, pairwise_kerase hs.2.1, pairwise_kinsert hs.2.2⟩
  · unfold TierConsistent
    rw [hw, hst, hids]
    simp only [mem_kinsert_selfKey, mem_kerase_selfKey]
    refine ⟨?_, ?_, ?_, ?_⟩
    · rintro i ⟨hi, hne⟩ (hw | rfl)
      · exact c1 i hi hw
      · exact hne rfl
    · intro i hi
      by_cases hik : i = k
      · exact Or.inr ⟨Or.inr hik, by omega⟩
      · rcases c2 i hi with h1 | h1
        · exact Or.inl ⟨h1, hik⟩
        · exact Or.inr ⟨Or.inl h1.1, h1.2⟩
    · intro i hi
      exact c3 i hi.1
    · rintro i (hi | rfl) hne
      · exact c4 i hi hne
      · exact c3 i hk
  · unfold PositiveIds at *
    rw [hids]
    exact hp

end TierChanges

/-! ## The tiers under the operations -/

theorem bind_eq_ok {ε α β : Type} {x : Except ε α} {f : α → Except ε β} {b : β} :
    (x >>= f) = Except.ok b ↔ ∃ a, x = Except.ok a ∧ f a = Except.ok b := by
  cases x with
  | error err =>
    constructor
    · intro h
      exact Except.noConfusion h
    · rintro ⟨a, ha, _⟩
      exact Except.noConfusion ha
  | ok a =>
    constructor
    · intro h
      exact ⟨a, rfl, h⟩
    · rintro ⟨a', ha, h⟩
      injection ha with ha
      rw [ha]
      exact h

theorem uassert_eq_ok {c : Bool} {u : Unit} : uassert c = Except.ok u ↔ c = true := by
  unfold uassert
  cases c <;> simp

namespace Memory

variable {T I : Type}

theorem tagFirstNode_id (e : Env T I) (m : Memory T I) (s : Signature T I) :
    (tagFirstNode e m s).id = s.id := by
  unfold tagFirstNode
  split <;> rfl

theorem addSignatureToStm_shape (e : Env T I) (m m' : Memory T I) (s : Signature T I)
    (infMatrix : I) (h : addSignatureToStm e m s infMatrix = Except.ok m') :
    ∃ m1 s1, SameTiers m m1 ∧ s1.id = s.id ∧
      m' = ((m1.setSignatures (kinsert Signature.id s1 m1.signatures)).setStMem
        (kinsert selfKey s1.id m1.stMem)).setSignaturesAdded (m1.signaturesAdded + 1) := by
  unfold addSignatureToStm at h
  simp only [bind, Except.bind, pure, Except.pure] at h
  split at h
  · split at h
    · exact Except.noConfusion h
    · rename_i tail _
      by_cases hmap : tail.mapId = s.mapId
      · rw [if_pos hmap] at h
        by_cases hmetric : (!e.geo.isNull s.pose && !e.geo.isNull tail.pose) = true
        · rw [if_pos hmetric] at h
          injection h with h
          refine ⟨_, _, ?_, ?_, h.symm⟩
          · exact SameTiers.modifySignature _ _ _ (fun _ => rfl)
          · split <;> rfl
        · rw [if_neg hmetric] at h
          injection h with h
          refine ⟨_, _, ?_, ?_, h.symm⟩
          · exact SameTiers.modifySignature _ _ _ (fun _ => rfl)
          · split <;> rfl
      · rw [if_neg hmap] at h
        injection h with h
        refine ⟨_, _, SameTiers.refl m, ?_, h.symm⟩
        split <;> exact tagFirstNode_id e m s
  · by_cases hl : e.mapLabelsAdded = true
    · rw [if_pos hl] at h
      injection h with h
      refine ⟨_, _, SameTiers.refl m, ?_, h.symm⟩
      split <;> exact tagFirstNode_id e m s
    · rw [if_neg hl] at h
      injection h with h
      refine ⟨_, _, SameTiers.refl m, ?_, h.symm⟩
      split <;> rfl

theorem addSignatureToStm_tiers (e : Env T I) (m m' : Memory T I) (s : Signature T I)
    (infMatrix : I) (h : addSignatureToStm e m s infMatrix = Except.ok m') :
    m'.stMem = kinsert selfKey s.id m.stMem ∧ m'.workingMem = m.workingMem ∧
    m'.ids = kinsert selfKey s.id m.ids ∧ m'.idCount = m.idCount := by
  obtain ⟨m1, s1, hst, hid, rfl⟩ := addSignatureToStm_shape e m m' s infMatrix h
  refine ⟨?_, ?_, ?_, ?_⟩
  · simp only [setSignaturesAdded_stMem, setStMem_stMem, hid, hst.1]
  · simp only [setSignaturesAdded_workingMem, setStMem_workingMem, setSignatures_workingMem,
      hst.2.1]
  · unfold Memory.ids
    simp only [setSignaturesAdded_signatures, setStMem_signatures, setSignatures_signatures]
    rw [keys_kinsert, hid]
    exact congrArg _ hst.2.2.1
  · simp only [setSignaturesAdded_idCount, setStMem_idCount, setSignatures_idCount, hst.2.2.2]

theorem addSignatureToWmFromLTM_tiers (m : Memory T I) (s : Signature T I) (now : Rat) :
    (m.addSignatureToWmFromLTM s now).stMem = m.stMem ∧
    (m.addSignatureToWmFromLTM s now).workingMem = kinsert Prod.fst (s.id, now) m.workingMem ∧
    (m.addSignatureToWmFromLTM s now).ids = kinsert selfKey s.id m.ids ∧
    (m.addSignatureToWmFromLTM s now).idCount = m.idCount := by
  refine ⟨rfl, rfl, ?_, rfl⟩
  unfold Memory.ids addSignatureToWmFromLTM
  simp only [setSignaturesAdded_signatures, setSignatures_signatures, setWorkingMem_signatures]
  exact keys_kinsert Signature.id

end Memory

namespace Memory

variable {T I : Type}

theorem moveToTrashLinks_sameTiers (e : Env T I) (m m1 : Memory T I) (s : Signature T I)
    ( keep : Bool) (h : moveToTrashLinks e m s keep = Except.ok m1) : SameTiers m m1 := by
  unfold moveToTrashLinks at h
  split at h
  · obtain ⟨_, _, h⟩ := bind_eq_ok.1 h
    obtain ⟨m2, h2, h⟩ := bind_eq_ok.1 h
    injection h with h
    rw [← h]
    exact SameTiers.trans (SameTiers.moveToTrashUnlink _ _ _ _ _ h2)
      (SameTiers.modifySignature _ _ _ (fun _ => rfl))
  · injection h with h
    rw [← h]
    exact SameTiers.removeVirtualLinks m s.id

theorem moveToTrashDictionary_sameTiers (m : Memory T I) (s1 : Signature T I) ( keep : Bool) :
    SameTiers m (moveToTrashDictionary m s1 keep).1 := by
  unfold moveToTrashDictionary
  split
  · exact SameTiers.setVwd _ _
  · exact SameTiers.refl m

theorem moveToTrashErase_trashed (m : Memory T I) (sId : Int) :
    Trashed sId m (moveToTrashErase m sId) := by
  unfold moveToTrashErase
  simp only []
  split
  · exact ⟨rfl, rfl, keys_kerase Signature.id, rfl⟩
  · exact ⟨rfl, rfl, keys_kerase Signature.id, rfl⟩

theorem moveToTrashLastSignature_sameTiers (m : Memory T I) (sId : Int) :
    SameTiers m (moveToTrashLastSignature m sId) := by
  unfold moveToTrashLastSignature
  split
  · split
    · exact SameTiers.setLastSignature _ _
    · split
      · exact SameTiers.setLastSignature _ _
      · exact SameTiers.setLastSignature _ _
  · exact SameTiers.refl m

theorem moveToTrashLast_sameTiers (m : Memory T I) (sId : Int) :
    SameTiers m (moveToTrashLast m sId) := by
  unfold moveToTrashLast
  refine SameTiers.ite ?_ (moveToTrashLastSignature_sameTiers m sId)
  exact SameTiers.trans (moveToTrashLastSignature_sameTiers m sId)
    (SameTiers.setLastGlobalLoopClosureId _ _)

theorem moveToTrashSave_sameTiers (e : Env T I) (m : Memory T I) (s1 : Signature T I)
    ( keep : Bool) : SameTiers m (moveToTrashSave e m s1 keep) := by
  unfold moveToTrashSave
  split
  · exact SameTiers.asyncSave _ _
  · exact SameTiers.refl m

theorem moveToTrashFull_tiers (e : Env T I) (m : Memory T I) (sId : Int) ( keep : Bool)
    (r : Memory T I × List Int) (h : moveToTrashFull e m sId keep = Except.ok r) :
    (m._getSignature sId = none ∧ r.1 = m) ∨
    (∃ s, m._getSignature sId = some s ∧ Trashed sId m r.1) := by
  unfold moveToTrashFull at h
  cases hs : m._getSignature sId with
  | none =>
    rw [hs] at h
    injection h with h
    rw [← h]
    exact Or.inl ⟨rfl, rfl⟩
  | some s =>
    rw [hs] at h
    refine Or.inr ⟨s, rfl, ?_⟩
    have hid : s.id = sId := getSignature_id hs
    obtain ⟨m1, h1, h⟩ := bind_eq_ok.1 h
    obtain ⟨s1, _, h⟩ := bind_eq_ok.1 h
    injection h with h
    rw [← h, hid]
    refine Trashed.of_sameTiers_left (moveToTrashLinks_sameTiers e m m1 s keep h1) ?_
    refine Trashed.of_sameTiers_left (SameTiers.disableWordsRef m1 sId) ?_
    refine Trashed.of_sameTiers_left (moveToTrashDictionary_sameTiers _ s1 keep) ?_
    refine Trashed.of_sameTiers_right ?_ (moveToTrashSave_sameTiers e _ s1 keep)
    refine Trashed.of_sameTiers_right ?_ (moveToTrashLast_sameTiers _ sId)
    exact moveToTrashErase_trashed _ sId

theorem moveToTrash_tiers (e : Env T I) (m m' : Memory T I) (sId : Int) ( keep : Bool)
    (h : moveToTrash e m sId keep = Except.ok m') :
    (m._getSignature sId = none ∧ m' = m) ∨
    (∃ s, m._getSignature sId = some s ∧ Trashed sId m m') := by
  unfold moveToTrash at h
  obtain ⟨r, hr, h⟩ := bind_eq_ok.1 h
  injection h with h
  rw [← h]
  exact moveToTrashFull_tiers e m sId keep r hr

theorem moveToTrash_tierInvariant (e : Env T I) (m m' : Memory T I) (sId : Int) ( keep : Bool)
    (h : moveToTrash e m sId keep = Except.ok m') (hi : TierInvariant m) : TierInvariant m' := by
  rcases moveToTrash_tiers e m m' sId keep h with ⟨_, rfl⟩ | ⟨s, _, ht⟩
  · exact hi
  · exact ht.keepsTierInvariant hi

theorem moveToTrash_idsBounded (e : Env T I) (m m' : Memory T I) (sId : Int) ( keep : Bool)
    (h : moveToTrash e m sId keep = Except.ok m') (hi : IdsBounded m) : IdsBounded m' := by
  rcases moveToTrash_tiers e m m' sId keep h with ⟨_, rfl⟩ | ⟨s, _, ht⟩
  · exact hi
  · exact ht.keepsIdsBounded hi

end Memory

namespace SameTiers

variable {T I : Type}

theorem reduceLinkNeighbors (e : Env T I) (sToId : Int) (iter : Link T I)
    (neighbors : List (Link T I)) (m m' : Memory T I)
    (h : Memory.reduceLinkNeighbors e sToId iter neighbors m = Except.ok m') :
    SameTiers m m' := by
  induction neighbors generalizing m with
  | nil =>
    unfold Memory.reduceLinkNeighbors at h
    injection h with h
    rw [← h]
    exact refl m
  | cons jter rest ih =>
    unfold Memory.reduceLinkNeighbors at h
    simp only [bind, Except.bind, pure, Except.pure] at h
    split at h
    · exact Except.noConfusion h
    · split at h
      · split at h
        · exact Except.noConfusion h
        · split at h
          · exact Except.noConfusion h
          · refine trans ?_ (ih _ h)
            refine trans (modifySignature m sToId _ ?_) (modifySignature _ _ _ ?_)
            · intro _; rfl
            · intro _; rfl
      · exact ih _ h

theorem reduceLinks (e : Env T I) (sId : Int) (neighbors links : List (Link T I))
    (m m' : Memory T I)
    (h : Memory.reduceLinks e sId neighbors links m = Except.ok m') : SameTiers m m' := by
  induction links generalizing m with
  | nil =>
    unfold Memory.reduceLinks at h
    injection h with h
    rw [← h]
    exact refl m
  | cons iter rest ih =>
    unfold Memory.reduceLinks at h
    simp only [bind, Except.bind, pure, Except.pure] at h
    split at h
    · exact Except.noConfusion h
    · split at h
      · split at h
        · exact Except.noConfusion h
        · rename_i m1 hm1
          refine trans ?_ (ih _ h)
          refine trans ?_ (reduceLinkNeighbors _ _ _ _ _ _ hm1)
          refine modifySignature m _ _ ?_
          intro _; rfl
      · refine trans ?_ (ih _ h)
        refine modifySignature m _ _ ?_
        intro _; rfl

theorem reduceDropNeighbors (sId : Int) (links : List (Link T I)) (m : Memory T I) :
    SameTiers m (Memory.reduceDropNeighbors sId links m) := by
  induction links generalizing m with
  | nil => exact refl m
  | cons iter rest ih =>
    unfold Memory.reduceDropNeighbors
    split
    · refine trans ?_ (ih _)
      refine ite ?_ ?_
      · refine trans ?_ (setLastGlobalLoopClosureId _ _)
        refine modifySignature m sId _ ?_
        intro _; rfl
      · refine modifySignature m sId _ ?_
        intro _; rfl
    · exact ih m

theorem rehearsalRedirect (e : Env T I) (oldId newId : Int) (newToOldLink : Link T I)
    (links : List (Link T I)) (m m' : Memory T I)
    (h : Memory.rehearsalRedirect e oldId newId newToOldLink links m = Except.ok m') :
    SameTiers m m' := by
  induction links generalizing m with
  | nil =>
    unfold Memory.rehearsalRedirect at h
    injection h with h
    rw [← h]
    exact refl m
  | cons link rest ih =>
    unfold Memory.rehearsalRedirect at h
    simp only [bind, Except.bind, pure, Except.pure] at h
    split at h
    · exact Except.noConfusion h
    · split at h
      · refine trans ?_ (ih _ h)
        refine trans (trans (modifySignature m _ _ ?_) (modifySignature _ _ _ ?_))
          (modifySignature _ _ _ ?_)
        · intro _; rfl
        · intro _; rfl
        · intro _; rfl
      · exact ih _ h

theorem rehearsalWeights (e : Env T I) (m : Memory T I) (oldS newS : Signature T I)
    (b : Bool) : SameTiers m (Memory.rehearsalWeights e m oldS newS b) := by
  unfold Memory.rehearsalWeights
  simp only []
  split
  · refine ite ?_ ?_
    · exact trans (trans (setWeight _ _ _) (setWeight _ _ _)) (setLastGlobalLoopClosureId _ _)
    · exact trans (setWeight _ _ _) (setWeight _ _ _)
  · exact trans (setWeight _ _ _) (setWeight _ _ _)

theorem cleanUnusedWords (m : Memory T I) : SameTiers m m.cleanUnusedWords := by
  unfold Memory.cleanUnusedWords
  exact ite (setVwd _ _) (refl m)

theorem preUpdate (e : Env T I) (m : Memory T I) : SameTiers m (m.preUpdate e) := by
  unfold Memory.preUpdate
  simp only []
  refine ite ?_ ?_
  · exact trans (trans (setSignaturesAdded m 0) (cleanUnusedWords _)) (setVwd _ _)
  · exact trans (setSignaturesAdded m 0) (cleanUnusedWords _)

end SameTiers

namespace Memory

variable {T I : Type}

theorem deref_eq_ok {m : Memory T I} {k : Int} {s : Signature T I} :
    m.deref k = Except.ok s ↔ m._getSignature k = some s := by
  unfold deref
  cases m._getSignature k with
  | none => simp
  | some s' => simp

theorem getSignature_ne_none_of_sameTiers {m m' : Memory T I} (h : SameTiers m m') {k : Int}
    {s : Signature T I} (hs : m._getSignature k = some s) : m'._getSignature k ≠ none := by
  rw [Ne, getSignature_eq_none_iff, h.2.2.1, not_not]
  exact mem_ids_of_getSignature hs

theorem mem_of_contains {l : List Int} {k : Int} (h : l.contains k = true) : k ∈ l := by
  simpa using h

theorem reduceNode_trashed (e : Env T I) (m m' : Memory T I) (s : Signature T I)
    (h : reduceNode e m s = Except.ok m') : Trashed s.id m m' := by
  unfold reduceNode at h
  obtain ⟨m1, h1, h⟩ := bind_eq_ok.1 h
  obtain ⟨s1, hs1, h⟩ := bind_eq_ok.1 h
  have hst : SameTiers m (reduceDropNeighbors s.id s1.links m1) :=
    SameTiers.trans (SameTiers.reduceLinks _ _ _ _ _ _ h1)
      (SameTiers.reduceDropNeighbors _ _ _)
  rcases moveToTrash_tiers e _ m' s.id _ h with ⟨hn, _⟩ | ⟨_, _, ht⟩
  · exact absurd hn (getSignature_ne_none_of_sameTiers
      (SameTiers.reduceDropNeighbors _ _ _) (deref_eq_ok.1 hs1))
  · exact Trashed.of_sameTiers_left hst ht

theorem moveSignatureToWMFromSTM_tiers (e : Env T I) (m : Memory T I) (id reducedTo : Int)
    (now : Rat) (r : Memory T I × Int)
    (h : moveSignatureToWMFromSTM e m id reducedTo now = Except.ok r) :
    id ∈ m.stMem ∧
    (Trashed id m r.1 ∨
     ∃ first, m.stMem.head? = some first ∧
       r.1.stMem = kerase selfKey first m.stMem ∧
       r.1.workingMem = kinsert Prod.fst (first, now) m.workingMem ∧
       r.1.ids = m.ids ∧ r.1.idCount = m.idCount) := by
  unfold moveSignatureToWMFromSTM at h
  obtain ⟨_, hmem, h⟩ := bind_eq_ok.1 h
  refine ⟨mem_of_contains (uassert_eq_ok.1 hmem), ?_⟩
  cases hs : m._getSignature id with
  | none =>
    rw [hs] at h
    exact Except.noConfusion h
  | some s =>
    rw [hs] at h
    have hid : s.id = id := getSignature_id hs
    simp only [] at h
    split at h
    · obtain ⟨m1, h1, h⟩ := bind_eq_ok.1 h
      injection h with h
      rw [← h, ← hid]
      exact Or.inl (reduceNode_trashed e m m1 s h1)
    · cases hh : m.stMem.head? with
      | none =>
        rw [hh] at h
        exact Except.noConfusion h
      | some first =>
        rw [hh] at h
        injection h with h
        rw [← h]
        exact Or.inr ⟨first, rfl, rfl, rfl, rfl, rfl⟩

theorem mem_of_head? {l : List Int} {k : Int} (h : l.head? = some k) : k ∈ l := by
  cases l with
  | nil => simp at h
  | cons a rest =>
    simp only [List.head?_cons, Option.some.injEq] at h
    rw [h]
    exact List.mem_cons_self _ _

theorem moveSignatureToWMFromSTM_tierInvariant (e : Env T I) (m : Memory T I)
    (id reducedTo : Int) (now : Rat) (r : Memory T I × Int)
    (h : moveSignatureToWMFromSTM e m id reducedTo now = Except.ok r)
    (hi : TierInvariant m) : TierInvariant r.1 := by
  rcases (moveSignatureToWMFromSTM_tiers e m id reducedTo now r h).2 with
    ht | ⟨first, hf, h1, h2, h3, _⟩
  · exact ht.keepsTierInvariant hi
  · exact TierInvariant.of_transfer h1 h2 h3 (mem_of_head? hf) hi

theorem moveSignatureToWMFromSTM_idsBounded (e : Env T I) (m : Memory T I)
    (id reducedTo : Int) (now : Rat) (r : Memory T I × Int)
    (h : moveSignatureToWMFromSTM e m id reducedTo now = Except.ok r)
    (hi : IdsBounded m) : IdsBounded r.1 := by
  rcases (moveSignatureToWMFromSTM_tiers e m id reducedTo now r h).2 with
    ht | ⟨first, hf, h1, h2, h3, h4⟩
  · exact ht.keepsIdsBounded hi
  · unfold IdsBounded at *
    rw [h3, h4]
    exact hi

theorem length_kerase_selfKey_lt {l : List Int} {k : Int} (h : k ∈ l) :
    (kerase selfKey k l).length < l.length :=
  keys_kerase_length_lt selfKey (by rw [map_selfKey]; exact h)

/-- A call of `moveSignatureToWMFromSTM` on the head of the STM takes one id
out of the STM. -/
theorem moveSignatureToWMFromSTM_stMem_length (e : Env T I) (m : Memory T I)
    (id reducedTo : Int) (now : Rat) (r : Memory T I × Int)
    (h : moveSignatureToWMFromSTM e m id reducedTo now = Except.ok r) :
    r.1.stMem.length < m.stMem.length := by
  obtain ⟨hmem, ht | ⟨first, hf, h1, _⟩⟩ := moveSignatureToWMFromSTM_tiers e m id reducedTo now r h
  · rw [ht.1]
    exact length_kerase_selfKey_lt hmem
  · rw [h1]
    exact length_kerase_selfKey_lt (mem_of_head? hf)

end Memory

namespace Memory

variable {T I : Type}

theorem rehearsalMergeIntoNew_sameTiers (e : Env T I) (m m' : Memory T I) (oldId newId : Int)
    (l : Link T I) (h : rehearsalMergeIntoNew e m oldId newId l = Except.ok m') :
    SameTiers m m' := by
  unfold rehearsalMergeIntoNew at h
  obtain ⟨o, _, h⟩ := bind_eq_ok.1 h
  obtain ⟨m1, h1, h⟩ := bind_eq_ok.1 h
  obtain ⟨o1, _, h⟩ := bind_eq_ok.1 h
  obtain ⟨m2, h2, h⟩ := bind_eq_ok.1 h
  obtain ⟨n, _, h⟩ := bind_eq_ok.1 h
  obtain ⟨o2, _, h⟩ := bind_eq_ok.1 h
  injection h with h
  rw [← h]
  refine SameTiers.trans (SameTiers.rehearsalRedirect _ _ _ _ _ _ _ h1) ?_
  refine SameTiers.trans ?_ (SameTiers.ite
    (SameTiers.trans (SameTiers.setWeight _ _ _) (SameTiers.setLastGlobalLoopClosureId _ _))
    (SameTiers.setWeight _ _ _))
  refine SameTiers.trans ?_ (SameTiers.copyData _ _ _ _ _ h2)
  refine SameTiers.trans ?_ (SameTiers.modifySignature _ _ _ ?_)
  · refine SameTiers.trans ?_ (SameTiers.modifySignature _ _ _ ?_)
    · refine SameTiers.trans ?_ (SameTiers.modifySignature _ _ _ ?_)
      · refine SameTiers.modifySignature _ _ _ ?_
        intro _; rfl
      · intro _; rfl
    · intro _; rfl
  · intro _; rfl

theorem rehearsalMergeIntoOld_sameTiers (e : Env T I) (m m' : Memory T I) (oldId newId : Int)
    (h : rehearsalMergeIntoOld e m oldId newId = Except.ok m') : SameTiers m m' := by
  unfold rehearsalMergeIntoOld at h
  obtain ⟨n, _, h⟩ := bind_eq_ok.1 h
  obtain ⟨o, _, h⟩ := bind_eq_ok.1 h
  injection h with h
  rw [← h]
  have h1 : SameTiers m (m.modifySignature newId (fun s => s.addLink
      { from_ := newId, to_ := oldId, type := LinkType.kGlobalClosure,
        transform := e.geo.null, info := e.geo.infoUnit, userDataCompressed := [] })) := by
    refine SameTiers.modifySignature _ _ _ ?_
    intro _; rfl
  refine SameTiers.trans h1 (SameTiers.ite ?_ ?_)
  · exact SameTiers.trans (SameTiers.setWeight _ _ _) (SameTiers.setLastSignature _ _)
  · exact SameTiers.setWeight _ _ _

theorem rehearsalFullMerge_tiers (e : Env T I) (m m' : Memory T I) (oldS newS : Signature T I)
    (oldId newId : Int) (h : rehearsalFullMerge e m oldS newS oldId newId = Except.ok m') :
    SameTiers m m' ∨ ∃ k, Trashed k m m' := by
  unfold rehearsalFullMerge at h
  obtain ⟨l, _, h⟩ := bind_eq_ok.1 h
  obtain ⟨m1, h1, h⟩ := bind_eq_ok.1 h
  have hst : SameTiers m m1 := by
    have h0 : SameTiers m ((m.modifySignature oldS.id (fun s => s.removeLink newId)).modifySignature
        newS.id (fun s => s.removeLink oldId)) := by
      refine SameTiers.trans ?_ (SameTiers.modifySignature _ _ _ ?_)
      · refine SameTiers.modifySignature _ _ _ ?_
        intro _; rfl
      · intro _; rfl
    split at h1
    · exact SameTiers.trans h0 (rehearsalMergeIntoNew_sameTiers _ _ _ _ _ _ h1)
    · exact SameTiers.trans h0 (rehearsalMergeIntoOld_sameTiers _ _ _ _ _ h1)
  rcases moveToTrash_tiers e m1 m' _ _ h with ⟨_, hm⟩ | ⟨_, _, ht⟩
  · rw [hm]
    exact Or.inl hst
  · exact Or.inr ⟨_, Trashed.of_sameTiers_left hst ht⟩

theorem rehearsalMerge_tiers (e : Env T I) (m : Memory T I) (oldId newId : Int)
    (r : Bool × Memory T I) (h : rehearsalMerge e m oldId newId = Except.ok r) :
    SameTiers m r.2 ∨ ∃ k, Trashed k m r.2 := by
  unfold rehearsalMerge at h
  split at h
  · split at h
    · injection h with h
      rw [← h]
      exact Or.inl (SameTiers.refl m)
    · split at h
      · injection h with h
        rw [← h]
        exact Or.inl (SameTiers.refl m)
      · obtain ⟨_, _, h⟩ := bind_eq_ok.1 h
        obtain ⟨first, _, h⟩ := bind_eq_ok.1 h
        split at h
        · injection h with h
          rw [← h]
          exact Or.inl (SameTiers.refl m)
        · split at h
          · obtain ⟨m1, h1, h⟩ := bind_eq_ok.1 h
            injection h with h
            rw [← h]
            exact rehearsalFullMerge_tiers _ _ _ _ _ _ _ h1
          · injection h with h
            rw [← h]
            exact Or.inl (SameTiers.rehearsalWeights _ _ _ _ _)
  · injection h with h
    rw [← h]
    exact Or.inl (SameTiers.refl m)

theorem rehearsal_tiers (e : Env T I) (m m' : Memory T I) (signatureId : Int)
    (h : rehearsal e m signatureId = Except.ok m') :
    SameTiers m m' ∨ ∃ k, Trashed k m m' := by
  unfold rehearsal at h
  obtain ⟨signature, _, h⟩ := bind_eq_ok.1 h
  split at h
  · injection h with h
    rw [← h]
    exact Or.inl (SameTiers.refl m)
  · obtain ⟨c, _, h⟩ := bind_eq_ok.1 h
    split at h
    · split at h
      · split at h
        · obtain ⟨r, hr, h⟩ := bind_eq_ok.1 h
          injection h with h
          rw [← h]
          exact rehearsalMerge_tiers _ _ _ _ _ hr
        · injection h with h
          rw [← h]
          exact Or.inl (SameTiers.setWeight _ _ _)
      · injection h with h
        rw [← h]
        exact Or.inl (SameTiers.refl m)
    · injection h with h
      rw [← h]
      exact Or.inl (SameTiers.refl m)

theorem tierInvariant_of_tiers {m m' : Memory T I}
    (h : SameTiers m m' ∨ ∃ k, Trashed k m m') (hi : TierInvariant m) : TierInvariant m' := by
  rcases h with h | ⟨k, h⟩
  · exact h.tierInvariant hi
  · exact h.keepsTierInvariant hi

theorem idsBounded_of_tiers {m m' : Memory T I}
    (h : SameTiers m m' ∨ ∃ k, Trashed k m m') (hi : IdsBounded m) : IdsBounded m' := by
  rcases h with h | ⟨k, h⟩
  · exact h.idsBounded hi
  · exact h.keepsIdsBounded hi

end Memory

namespace Memory

variable {T I : Type}

theorem createSignatureId_spec (e : Env T I) (m : Memory T I) (data : SensorData) :
    ((createSignatureId e m data).1 = none ∧ (createSignatureId e m data).2 = m) ∨
    (∃ id, (createSignatureId e m data).1 = some id ∧ m.idCount < id ∧
      (createSignatureId e m data).2 = m.setIdCount id) := by
  unfold createSignatureId
  split
  · exact Or.inr ⟨_, rfl, by omega, rfl⟩
  · split
    · exact Or.inl ⟨rfl, rfl⟩
    · split
      · rename_i h
        exact Or.inr ⟨_, rfl, h, rfl⟩
      · exact Or.inl ⟨rfl, rfl⟩

theorem createSignatureBuild_spec (e : Env T I) (m : Memory T I) (data : SensorData) (pose : T)
    (id : Int) :
    (createSignatureBuild e m data pose id).1.id = id ∧
    (createSignatureBuild e m data pose id).1.links = [] ∧
    SameTiers m (createSignatureBuild e m data pose id).2 := by
  refine ⟨rfl, rfl, ?_⟩
  unfold createSignatureBuild
  simp only []
  refine SameTiers.trans ?_ (SameTiers.setVwd _ _)
  exact SameTiers.ite (SameTiers.setVwd _ _) (SameTiers.refl m)

/-- What `createSignature` leaves in the memory: the tiers and the table are
untouched, a signature returned has no links and carries the new value of the
id counter, which exceeds the old one. -/
theorem createSignature_spec (e : Env T I) (m : Memory T I) (data : SensorData) (pose : T)
    (c : Option (Signature T I) × Memory T I)
    (h : createSignature e m data pose = Except.ok c) :
    c.2.stMem = m.stMem ∧ c.2.workingMem = m.workingMem ∧ c.2.ids = m.ids ∧
    (c.1 = none → c.2.idCount = m.idCount) ∧
    (∀ s, c.1 = some s → s.id = c.2.idCount ∧ m.idCount < s.id ∧ s.links = []) := by
  unfold createSignature at h
  obtain ⟨_, _, h⟩ := bind_eq_ok.1 h
  split at h
  · injection h with h
    rw [← h]
    exact ⟨rfl, rfl, rfl, fun _ => rfl, fun s hs => Option.noConfusion hs⟩
  · rcases createSignatureId_spec e m data with ⟨h1, h2⟩ | ⟨id, h1, hlt, h2⟩
    · rw [h1] at h
      simp only [] at h
      injection h with h
      rw [← h, h2]
      exact ⟨rfl, rfl, rfl, fun _ => rfl, fun s hs => Option.noConfusion hs⟩
    · rw [h1] at h
      simp only [] at h
      injection h with h
      rw [← h, h2]
      obtain ⟨b1, b2, b3⟩ := createSignatureBuild_spec e (m.setIdCount id) data pose id
      refine ⟨b3.1, b3.2.1, b3.2.2.1, fun hn => Option.noConfusion hn, ?_⟩
      intro s hs
      injection hs with hs
      rw [← hs]
      exact ⟨by rw [b1, b3.2.2.2]; rfl, by rw [b1]; exact hlt, b2⟩

theorem updateTransfer_invariant (e : Env T I) (clock : Nat → Rat) (fuel k : Nat) (n : Int)
    (reducedIds : List (Int × Int)) (m : Memory T I) (r : List (Int × Int) × Memory T I)
    (h : updateTransfer e clock fuel k n reducedIds m = Except.ok r)
    (hi : TierInvariant m) (hb : IdsBounded m) : TierInvariant r.2 ∧ IdsBounded r.2 := by
  induction fuel generalizing k n reducedIds m with
  | zero =>
    unfold updateTransfer at h
    injection h with h
    rw [← h]
    exact ⟨hi, hb⟩
  | succ fuel ih =>
    unfold updateTransfer at h
    split at h
    · injection h with h
      rw [← h]
      exact ⟨hi, hb⟩
    · split at h
      · split at h
        · exact Except.noConfusion h
        · simp only [bind, Except.bind] at h
          split at h
          · exact Except.noConfusion h
          · rename_i v hv
            exact ih _ _ _ _ h
              (moveSignatureToWMFromSTM_tierInvariant _ _ _ _ _ _ hv hi)
              (moveSignatureToWMFromSTM_idsBounded _ _ _ _ _ _ hv hb)
      · injection h with h
        rw [← h]
        exact ⟨hi, hb⟩

theorem addSignatureToStm_invariant (e : Env T I) (m m' : Memory T I) (s : Signature T I)
    (infMatrix : I) (h : addSignatureToStm e m s infMatrix = Except.ok m')
    (hnew : s.id ∉ m.ids) (hpos : 0 < s.id) (hi : TierInvariant m) : TierInvariant m' := by
  obtain ⟨h1, h2, h3, _⟩ := addSignatureToStm_tiers e m m' s infMatrix h
  exact TierInvariant.of_stmInsert h1 h2 h3 hnew hpos hi

theorem updateAdd_invariant (e : Env T I) (m : Memory T I) (s : Signature T I) (infMatrix : I)
    (clock : Nat → Rat) (r : List (Int × Int) × Memory T I)
    (h : updateAdd e m s infMatrix clock = Except.ok r)
    (hnew : s.id ∉ m.ids) (hpos : 0 < s.id) (hle : s.id ≤ m.idCount)
    (hi : TierInvariant m) (hb : IdsBounded m) : TierInvariant r.2 ∧ IdsBounded r.2 := by
  unfold updateAdd at h
  obtain ⟨m1, h1, h⟩ := bind_eq_ok.1 h
  obtain ⟨m2, h2, h⟩ := bind_eq_ok.1 h
  obtain ⟨n, _, h⟩ := bind_eq_ok.1 h
  have hi1 : TierInvariant m1 := addSignatureToStm_invariant e m m1 s infMatrix h1 hnew hpos hi
  have hb1 : IdsBounded m1 := by
    obtain ⟨_, _, t3, t4⟩ := addSignatureToStm_tiers e m m1 s infMatrix h1
    unfold IdsBounded at *
    rw [t3, t4]
    refine ⟨hb.1, ?_⟩
    intro i hmem
    rcases mem_kinsert_selfKey.1 hmem with hmem | rfl
    · exact hb.2 i hmem
    · exact hle
  have hst : SameTiers m1 (m1.setLastSignature (some s.id)) := SameTiers.setLastSignature _ _
  have h12 : TierInvariant m2 ∧ IdsBounded m2 := by
    split at h2
    · have ht := rehearsal_tiers _ _ _ _ h2
      exact ⟨tierInvariant_of_tiers ht (hst.tierInvariant hi1),
        idsBounded_of_tiers ht (hst.idsBounded hb1)⟩
    · injection h2 with h2
      rw [← h2]
      exact ⟨hst.tierInvariant hi1, hst.idsBounded hb1⟩
  exact updateTransfer_invariant _ _ _ _ _ _ _ _ h h12.1 h12.2

theorem update_invariant (e : Env T I) (m : Memory T I) (data : SensorData) (pose : T)
    (infMatrix : I) (clock : Nat → Rat) (r : Bool × List (Int × Int) × Memory T I)
    (h : update e m data pose infMatrix clock = Except.ok r)
    (hi : TierInvariant m) (hb : IdsBounded m) : TierInvariant r.2.2 ∧ IdsBounded r.2.2 := by
  unfold update at h
  obtain ⟨c, hc, h⟩ := bind_eq_ok.1 h
  obtain ⟨c1, c2, c3, c4, c5⟩ := createSignature_spec _ _ _ _ _ hc
  have hp := SameTiers.preUpdate e m
  have hiP := hp.tierInvariant hi
  have hbP := hp.idsBounded hb
  cases hs : c.1 with
  | none =>
    rw [hs] at h
    injection h with h
    rw [← h]
    have hst : SameTiers (m.preUpdate e) c.2 := ⟨c1, c2, c3, c4 hs⟩
    exact ⟨hst.tierInvariant hiP, hst.idsBounded hbP⟩
  | some s =>
    rw [hs] at h
    obtain ⟨t, ht, h⟩ := bind_eq_ok.1 h
    injection h with h
    rw [← h]
    obtain ⟨s1, s2, _⟩ := c5 s hs
    have hi2 : TierInvariant c.2 := by
      obtain ⟨⟨k1, k2, k3⟩, tc, pos⟩ := hiP
      refine ⟨?_, ?_, ?_⟩
      · rw [KeysSorted.iff] at *
        rw [c3, c1, Memory.wmIds_eq_of_workingMem c2]
        exact (KeysSorted.iff _).1 ⟨k1, k2, k3⟩
      · unfold TierConsistent at *
        rw [c3, c1, Memory.wmIds_eq_of_workingMem c2]
        exact tc
      · unfold PositiveIds at *
        rw [c3]
        exact pos
    have hb2 : IdsBounded c.2 := by
      unfold IdsBounded at *
      rw [c3, ← s1]
      exact ⟨by omega, fun i hmem => by have := hbP.2 i hmem; omega⟩
    have hnew : s.id ∉ c.2.ids := by
      rw [c3]
      intro hmem
      have := hbP.2 _ hmem
      omega
    have hr := updateAdd_invariant e c.2 s infMatrix clock t ht hnew (by have := hbP.1; omega)
      (by omega) hi2 hb2
    show TierInvariant (if _ then _ else _) ∧ IdsBounded (if _ then _ else _)
    split
    · exact ⟨(SameTiers.setMemoryChanged _ _).tierInvariant hr.1,
        (SameTiers.setMemoryChanged _ _).idsBounded hr.2⟩
    · exact hr

end Memory

namespace Memory

variable {T I : Type}

theorem forgetAll_invariant (e : Env T I) (ids : List Int) (m m' : Memory T I)
    (h : forgetAll e ids m = Except.ok m') (hi : TierInvariant m) : TierInvariant m' := by
  induction ids generalizing m with
  | nil =>
    unfold forgetAll at h
    injection h with h
    rw [← h]
    exact hi
  | cons sId rest ih =>
    unfold forgetAll at h
    obtain ⟨m1, h1, h⟩ := bind_eq_ok.1 h
    exact ih m1 h (moveToTrash_tierInvariant e m m1 sId true h1 hi)

theorem forgetByWords_invariant (e : Env T I) (ignoredIds : List Int) (newWords : Int)
    (fuel : Nat) (wordsRemoved : Int) (removed : List Int) (m : Memory T I)
    (r : List Int × Memory T I)
    (h : forgetByWords e ignoredIds newWords fuel wordsRemoved removed m = Except.ok r)
    (hi : TierInvariant m) : TierInvariant r.2 := by
  induction fuel generalizing wordsRemoved removed m with
  | zero =>
    unfold forgetByWords at h
    injection h with h
    rw [← h]
    exact hi
  | succ fuel ih =>
    unfold forgetByWords at h
    split at h
    · obtain ⟨l, _, h⟩ := bind_eq_ok.1 h
      split at h
      · obtain ⟨m1, h1, h⟩ := bind_eq_ok.1 h
        exact ih _ _ m1 h (moveToTrash_tierInvariant e m m1 _ true h1 hi)
      · injection h with h
        rw [← h]
        exact hi
    · injection h with h
      rw [← h]
      exact hi

theorem forget_invariant (e : Env T I) (m : Memory T I) (ignoredIds : List Int)
    (r : List Int × Memory T I) (h : forget e m ignoredIds = Except.ok r)
    (hi : TierInvariant m) : TierInvariant r.2 := by
  unfold forget at h
  split at h
  · exact forgetByWords_invariant _ _ _ _ _ _ _ _ h hi
  · obtain ⟨l, _, h⟩ := bind_eq_ok.1 h
    obtain ⟨m1, h1, h⟩ := bind_eq_ok.1 h
    injection h with h
    rw [← h]
    exact forgetAll_invariant e l m m1 h1 hi

theorem mem_idsToLoad (m : Memory T I) (maxLoaded : Nat) (l acc : List Int) (i : Int)
    (h : i ∈ idsToLoad m maxLoaded l acc) : i ∈ acc ∨ m._getSignature i = none := by
  induction l generalizing acc with
  | nil => exact Or.inl h
  | cons a rest ih =>
    unfold idsToLoad at h
    split at h
    · rename_i hc
      rcases ih _ h with hmem | hn
      · rcases List.mem_append.1 hmem with hmem | hmem
        · exact Or.inl hmem
        · rw [List.mem_singleton] at hmem
          simp only [Bool.and_eq_true, Option.isNone_iff_eq_none] at hc
          rw [hmem]
          exact Or.inr hc.1.1
      · exact Or.inr hn
    · exact ih _ h

theorem reactivateInsert_invariant (clock : Nat → Rat) (l : List (Signature T I)) (k : Nat)
    (m : Memory T I) (hl : ∀ s ∈ l, s.id ∉ m.stMem ∧ 0 < s.id) (hi : TierInvariant m) :
    TierInvariant (reactivateInsert clock l k m) ∧
    (reactivateInsert clock l k m).stMem = m.stMem := by
  induction l generalizing k m with
  | nil => exact ⟨hi, rfl⟩
  | cons s rest ih =>
    unfold reactivateInsert
    obtain ⟨t1, t2, t3, _⟩ := addSignatureToWmFromLTM_tiers m s (clock k)
    have hs := hl s (List.mem_cons_self _ _)
    have hi1 := TierInvariant.of_wmInsert t1 t2 t3 hs.1 hs.2 hi
    have := ih (k + 1) (m.addSignatureToWmFromLTM s (clock k))
      (fun s' hs' => by rw [t1]; exact hl s' (List.mem_cons_of_mem _ hs')) hi1
    exact ⟨this.1, this.2.trans t1⟩

theorem reactivateSignatures_invariant (e : Env T I) (m : Memory T I) (ids : List Int)
    (maxLoaded : Nat) (clock : Nat → Rat) (hdb : LoadsRequested e) (hi : TierInvariant m) :
    TierInvariant (reactivateSignatures e m ids maxLoaded clock).2 := by
  unfold reactivateSignatures
  simp only []
  refine (SameTiers.enableWordsRef e _ _).tierInvariant ?_
  refine (reactivateInsert_invariant clock _ 0 m ?_ hi).1
  intro s hs
  split at hs
  · obtain ⟨h1, h2⟩ := hdb _ s hs
    refine ⟨?_, h2⟩
    intro hmem
    rcases mem_idsToLoad m maxLoaded ids [] s.id h1 with hnil | hn
    · exact List.not_mem_nil _ hnil
    · exact (getSignature_eq_none_iff m s.id).1 hn (hi.2.1.2.2.1 s.id hmem)
  · exact absurd hs (List.not_mem_nil _)

theorem flushStm_invariant (e : Env T I) (clock : Nat → Rat) (fuel k : Nat)
    (reducedIds : List (Int × Int)) (m : Memory T I) (r : List (Int × Int) × Memory T I)
    (h : flushStm e clock fuel k reducedIds m = Except.ok r)
    (hfuel : m.stMem.length ≤ fuel) (hi : TierInvariant m) :
    TierInvariant r.2 ∧ r.2.stMem = [] := by
  induction fuel generalizing k reducedIds m with
  | zero =>
    unfold flushStm at h
    injection h with h
    rw [← h]
    exact ⟨hi, List.eq_nil_of_length_eq_zero (Nat.le_zero.1 hfuel)⟩
  | succ fuel ih =>
    unfold flushStm at h
    split at h
    · rename_i hh
      injection h with h
      rw [← h]
      exact ⟨hi, List.head?_eq_none_iff.1 hh⟩
    · obtain ⟨v, hv, h⟩ := bind_eq_ok.1 h
      have hlen := moveSignatureToWMFromSTM_stMem_length _ _ _ _ _ _ hv
      exact ih _ _ v.1 h (by omega) (moveSignatureToWMFromSTM_tierInvariant _ _ _ _ _ _ hv hi)

end Memory

section Counting

theorem nodup_of_ascending {l : List Int} (h : l.Pairwise (fun a b => a < b)) : l.Nodup :=
  h.imp (fun hab => ne_of_lt hab)

theorem length_filter_ne_of_head_neg {l : List Int} (h : l.Pairwise (fun a b => a < b))
    (hpos : ∀ i ∈ l, i ≠ -1 → 0 < i) {a : Int} (ha : l.head? = some a) (hneg : a < 0) :
    (l.filter (fun i => i != -1)).length = l.length - 1 := by
  cases l with
  | nil => simp at ha
  | cons b rest =>
    simp only [List.head?_cons, Option.some.injEq] at ha
    subst ha
    have hb : b = -1 := by
      by_contra hne
      have := hpos b (List.mem_cons_self _ _) hne
      omega
    rw [List.pairwise_cons] at h
    have hrest : rest.filter (fun i => i != -1) = rest := by
      rw [List.filter_eq_self]
      intro i hi
      have := h.1 i hi
      simp only [bne_iff_ne, ne_eq]
      omega
    rw [List.filter_cons]
    simp [hb, hrest]

theorem length_filter_ne_of_head_nonneg {l : List Int} (h : l.Pairwise (fun a b => a < b))
    (hhead : ∀ a, l.head? = some a → ¬ a < 0) :
    (l.filter (fun i => i != -1)).length = l.length := by
  have : l.filter (fun i => i != -1) = l := by
    rw [List.filter_eq_self]
    intro i hi
    cases l with
    | nil => exact absurd hi (List.not_mem_nil _)
    | cons b rest =>
      have hb := hhead b rfl
      rw [List.pairwise_cons] at h
      simp only [bne_iff_ne, ne_eq]
      rcases List.mem_cons.1 hi with rfl | hi
      · omega
      · have := h.1 i hi
        omega
  rw [this]

end Counting

namespace Memory

variable {T I : Type}

/-- Under the invariant of the tiers the signature table has as many entries as
the STM and the working memory without the virtual id -1 together. -/
theorem length_signatures_of_tierInvariant (m : Memory T I) (hi : TierInvariant m) :
    m.signatures.length = m.stMem.length + (m.wmIds.filter (fun i => i != -1)).length := by
  obtain ⟨hs, ⟨c1, c2, c3, c4⟩, _⟩ := hi
  rw [KeysSorted.iff] at hs
  have hlen : m.signatures.length = m.ids.length := by
    unfold Memory.ids
    rw [List.length_map]
  rw [hlen, ← List.length_append]
  apply List.Perm.length_eq
  rw [List.perm_ext_iff_of_nodup (nodup_of_ascending hs.1)]
  · intro a
    simp only [List.mem_append, List.mem_filter, bne_iff_ne, ne_eq, decide_eq_true_eq]
    constructor
    · intro ha
      rcases c2 a ha with h | h
      · exact Or.inl h
      · exact Or.inr h
    · rintro (h | ⟨h1, h2⟩)
      · exact c3 a h
      · exact c4 a h1 h2
  · rw [List.nodup_append]
    refine ⟨nodup_of_ascending hs.2.1, (nodup_of_ascending hs.2.2).filter _, ?_⟩
    intro a ha hb
    exact c1 a ha (List.mem_filter.1 hb).1

/-- Under the invariant of the tiers the size check of `Memory::clear` holds. -/
theorem clearSizeCheck_of_tierInvariant (e : Env T I) (m : Memory T I) (hi : TierInvariant m) :
    clearSizeCheck e m = true := by
  have hlen := length_signatures_of_tierInvariant m hi
  obtain ⟨hs, ⟨c1, c2, c3, c4⟩, hp⟩ := hi
  rw [KeysSorted.iff] at hs
  have hw : m.wmIds.length = m.workingMem.length := by
    unfold Memory.wmIds
    rw [List.length_map]
  have hpos : ∀ i ∈ m.wmIds, i ≠ -1 → 0 < i := fun i h1 h2 => hp i (c4 i h1 h2)
  unfold clearSizeCheck
  split
  · simp only [beq_iff_eq]
    rw [hlen]
    cases hh : m.workingMem.head? with
    | none =>
      have : m.workingMem = [] := List.head?_eq_none_iff.1 hh
      simp [Memory.wmIds, this]
    | some first =>
      have hhead : m.wmIds.head? = some first.1 := by
        unfold Memory.wmIds
        rw [List.head?_map, hh]
        rfl
      simp only []
      split
      · rename_i hneg
        rw [length_filter_ne_of_head_neg hs.2.2 hpos hhead hneg, hw]
        have : 0 < m.workingMem.length := by
          cases hm : m.workingMem with
          | nil => rw [hm] at hh; simp at hh
          | cons _ _ => simp
        omega
      · rename_i hneg
        rw [length_filter_ne_of_head_nonneg hs.2.2, hw]
        · omega
        · intro a ha
          rw [hhead] at ha
          injection ha with ha
          rw [← ha]
          exact hneg
  · rfl

/-- The size check asserted by `Memory::clear` holds when the STM has been
emptied: from a memory under the invariant of the tiers, a flush of the STM
that returns leaves the STM empty, and `clear` passes its size check. -/
theorem clearBegin_of_tierInvariant (e : Env T I) (m : Memory T I) (clock : Nat → Rat)
    (r : List (Int × Int) × Memory T I)
    (h : flushStm e clock m.stMem.length 0 [] m = Except.ok r) (hi : TierInvariant m) :
    r.2.stMem = [] ∧ TierInvariant (cleanUnusedWords (r.2.setStMem [])) ∧
    clearSizeCheck e (cleanUnusedWords (r.2.setStMem [])) = true ∧
    clearBegin e m clock = Except.ok (cleanUnusedWords (r.2.setStMem [])) := by
  obtain ⟨h1, h2⟩ := flushStm_invariant e clock _ 0 [] m r h (le_refl _) hi
  have hst : SameTiers r.2 (cleanUnusedWords (r.2.setStMem [])) := by
    refine SameTiers.trans ?_ (SameTiers.cleanUnusedWords _)
    exact ⟨h2.symm, rfl, rfl, rfl⟩
  have hi' := hst.tierInvariant h1
  have hc := clearSizeCheck_of_tierInvariant e _ hi'
  refine ⟨h2, hi', hc, ?_⟩
  unfold clearBegin
  simp only [h, bind, Except.bind, hc, uassert, pure, Except.pure, if_true]

end Memory

/-- The invariant of the tiers holds in a memory whose working memory holds the
virtual id and the unlinked nodes 1 and 2. -/
theorem tierInvariant_twoNodeMemory (w1 w2 : Int) : TierInvariant (twoNodeMemory w1 w2) := by
  refine ⟨⟨?_, ?_, ?_⟩, ⟨?_, ?_, ?_, ?_⟩, ?_⟩ <;>
    simp [twoNodeMemory, lineMemory, lineSignature, KSorted, PositiveIds, Memory.ids,
      Memory.wmIds, selfKey]

/-- Claim C2: tier consistency is an invariant. From a memory whose containers
are sorted, whose STM and working memory share no id, whose table keys are the
STM ids together with the working-memory ids other than -1, and whose table ids
are positive (`TierInvariant`), the same holds again after `addSignatureToStm`
of a signature with a fresh positive id, after `moveSignatureToWMFromSTM`,
`moveToTrash`, `forget`, after `addSignatureToWmFromLTM` of a signature with a
positive id that is not in the STM, after `reactivateSignatures` when the
database returns only requested signatures with positive ids, and after
`update` when the id counter bounds the table ids (which `update` preserves);
consequently the size check of `clear` holds in every such memory, and `clear`
passes its assertion once the flush of the STM has returned, the STM being
empty by then. -/
theorem tier_consistency_invariant {T I : Type} (e : Env T I) (m : Memory T I)
    (hi : TierInvariant m) :
    (∀ s infMatrix m', s.id ∉ m.ids → 0 < s.id →
      Memory.addSignatureToStm e m s infMatrix = Except.ok m' → TierInvariant m') ∧
    (∀ id reducedTo now r,
      Memory.moveSignatureToWMFromSTM e m id reducedTo now = Except.ok r → TierInvariant r.1) ∧
    (∀ sId keepLinkedToGraph m',
      Memory.moveToTrash e m sId keepLinkedToGraph = Except.ok m' → TierInvariant m') ∧
    (∀ ignoredIds r, Memory.forget e m ignoredIds = Except.ok r → TierInvariant r.2) ∧
    (∀ s now, s.id ∉ m.stMem → 0 < s.id → TierInvariant (m.addSignatureToWmFromLTM s now)) ∧
    (∀ ids maxLoaded clock, LoadsRequested e →
      TierInvariant (Memory.reactivateSignatures e m ids maxLoaded clock).2) ∧
    (∀ data pose infMatrix clock r, IdsBounded m →
      Memory.update e m data pose infMatrix clock = Except.ok r →
      TierInvariant r.2.2 ∧ IdsBounded r.2.2) ∧
    Memory.clearSizeCheck e m = true ∧
    (∀ clock r, Memory.flushStm e clock m.stMem.length 0 [] m = Except.ok r →
      r.2.stMem = [] ∧
      Memory.clearBegin e m clock = Except.ok (Memory.cleanUnusedWords (r.2.setStMem []))) := by
  refine ⟨?_, ?_, ?_, ?_, ?_, ?_, ?_, ?_, ?_⟩
  · intro s infMatrix m' hnew hpos h
    exact Memory.addSignatureToStm_invariant e m m' s infMatrix h hnew hpos hi
  · intro id reducedTo now r h
    exact Memory.moveSignatureToWMFromSTM_tierInvariant e m id reducedTo now r h hi
  · intro sId keep m' h
    exact Memory.moveToTrash_tierInvariant e m m' sId keep h hi
  · intro ignoredIds r h
    exact Memory.forget_invariant e m ignoredIds r h hi
  · intro s now hs hpos
    obtain ⟨t1, t2, t3, _⟩ := Memory.addSignatureToWmFromLTM_tiers m s now
    exact TierInvariant.of_wmInsert t1 t2 t3 hs hpos hi
  · intro ids maxLoaded clock hdb
    exact Memory.reactivateSignatures_invariant e m ids maxLoaded clock hdb hi
  · intro data pose infMatrix clock r hb h
    exact Memory.update_invariant e m data pose infMatrix clock r h hi hb
  · exact Memory.clearSizeCheck_of_tierInvariant e m hi
  · intro clock r h
    obtain ⟨h1, _, _, h4⟩ := Memory.clearBegin_of_tierInvariant e m clock r h hi
    exact ⟨h1, h4⟩

/-- Witness of C2: the memory with the nodes 1 and 2 in the working memory is
under the invariant of the tiers, and so is the memory an `update` makes of
it. -/
theorem tier_consistency_invariant_witness :
    TierInvariant ((twoNodeMemory 0 0).setIdCount 2) ∧
    ∃ r, Memory.update (lineEnv true false 2) ((twoNodeMemory 0 0).setIdCount 2)
        ⟨0, false, true, false, []⟩ (some 2) () (fun _ => 0) = Except.ok r ∧
      r.2.2.stMem = [3] ∧ TierInvariant r.2.2 :=
  ⟨tierInvariant_twoNodeMemory 0 0, _, rfl, rfl,
    ((tier_consistency_invariant (lineEnv true false 2) ((twoNodeMemory 0 0).setIdCount 2)
      (tierInvariant_twoNodeMemory 0 0)).2.2.2.2.2.2.1 ⟨0, false, true, false, []⟩ (some 2) ()
      (fun _ => 0) _ (by simp [IdsBounded, twoNodeMemory, lineMemory, lineSignature, Memory.ids,
        Memory.setIdCount]) rfl).1⟩

/-! ## Frames of a view of the signatures -/

section Views

variable {T I β : Type} (view : Signature T I → β)

theorem sameView_refl (m : Memory T I) : SameView view m m := fun _ => rfl

theorem sameView_trans {a b c : Memory T I} (h1 : SameView view a b) (h2 : SameView view b c) :
    SameView view a c := fun i => (h2 i).trans (h1 i)

theorem sameView_of_signatures {m m' : Memory T I} (h : m'.signatures = m.signatures) :
    SameView view m m' := by
  intro i
  unfold Memory._getSignature
  rw [h]

theorem sameView_modifySignature (m : Memory T I) (k : Int) (f : Signature T I → Signature T I)
    (hf : ∀ a, (f a).id = a.id) (hv : ∀ a, view (f a) = view a) :
    SameView view m (m.modifySignature k f) := by
  intro i
  rw [Memory.getSignature_modify m k i f hf, Option.map_map]
  congr 1
  funext a
  show view (if a.id = k then f a else a) = view a
  split
  · exact hv a
  · rfl

theorem sameView_foldl {γ : Type} (f : Memory T I → γ → Memory T I)
    (h : ∀ m b, SameView view m (f m b)) (l : List γ) (m : Memory T I) :
    SameView view m (l.foldl f m) := by
  induction l generalizing m with
  | nil => exact sameView_refl view m
  | cons b rest ih => exact sameView_trans view (h m b) (ih (f m b))

theorem sameView_ite {c : Prop} [Decidable c] {m a b : Memory T I} (ha : SameView view m a)
    (hb : SameView view m b) : SameView view m (if c then a else b) := by
  split <;> assumption

end Views

/-! ## Frames of the word references -/

section Words

variable {T I : Type}

theorem sameWords_refl (m : Memory T I) : SameWords m m := ⟨rfl, sameView_refl _ m⟩

theorem sameWords_trans {a b c : Memory T I} (h1 : SameWords a b) (h2 : SameWords b c) :
    SameWords a c := ⟨h2.1.trans h1.1, sameView_trans _ h1.2 h2.2⟩

theorem sameWords_of_eq {m m' : Memory T I} (hv : m'.vwd = m.vwd)
    (hs : m'.signatures = m.signatures) : SameWords m m' :=
  ⟨hv, sameView_of_signatures _ hs⟩

theorem sameWords_modifySignature (m : Memory T I) (k : Int) (f : Signature T I → Signature T I)
    (hf : ∀ a, (f a).id = a.id) (hv : ∀ a, wordView (f a) = wordView a) :
    SameWords m (m.modifySignature k f) :=
  ⟨rfl, sameView_modifySignature _ m k f hf hv⟩

theorem sameWords_ite {c : Prop} [Decidable c] {m a b : Memory T I} (ha : SameWords m a)
    (hb : SameWords m b) : SameWords m (if c then a else b) := by
  split <;> assumption

theorem sameWords_foldl {γ : Type} (f : Memory T I → γ → Memory T I)
    (h : ∀ m b, SameWords m (f m b)) (l : List γ) (m : Memory T I) :
    SameWords m (l.foldl f m) := by
  induction l generalizing m with
  | nil => exact sameWords_refl m
  | cons b rest ih => exact sameWords_trans (h m b) (ih (f m b))

theorem cites_of_sameView {m m' : Memory T I} (h : SameView wordView m m') (wordId i : Int) :
    m'.cites wordId i ↔ m.cites wordId i := by
  have hi := h i
  unfold Memory.cites
  cases h1 : m._getSignature i with
  | none =>
    rw [h1] at hi
    cases h2 : m'._getSignature i with
    | none => simp
    | some s' => rw [h2] at hi; simp at hi
  | some s =>
    rw [h1] at hi
    cases h2 : m'._getSignature i with
    | none => rw [h2] at hi; simp at hi
    | some s' =>
      rw [h2] at hi
      simp only [Option.map_some', Option.some.injEq, wordView, Prod.mk.injEq] at hi
      simp [hi.1, hi.2]

theorem wordRefsConsistent_of_sameWords {m m' : Memory T I} (h : SameWords m m')
    (hc : WordRefsConsistent m) : WordRefsConsistent m' := by
  intro wordId i
  rw [h.1, cites_of_sameView h.2]
  exact hc wordId i

theorem sameWords_moveToTrashUnlink (sId sWeight : Int) (links : List (Link T I))
    (m m' : Memory T I)
    (h : Memory.moveToTrashUnlink sId sWeight links m = Except.ok m') : SameWords m m' := by
  induction links generalizing m with
  | nil =>
    simp only [Memory.moveToTrashUnlink, pure, Except.pure] at h
    injection h with h
    rw [← h]
    exact sameWords_refl m
  | cons l rest ih =>
    unfold Memory.moveToTrashUnlink at h
    cases hs : m._getSignature l.to_ with
    | none => simp [hs, throw, throwThe, MonadExceptOf.throw] at h
    | some sTo =>
      simp only [hs] at h
      refine sameWords_trans ?_ (ih _ h)
      refine sameWords_trans ?_ (sameWords_modifySignature _ _ _ ?_ ?_)
      · refine sameWords_ite ?_ (sameWords_refl m)
        refine sameWords_modifySignature _ _ _ ?_ ?_
        · intro _; rfl
        · intro _; rfl
      · intro _; rfl
      · intro _; rfl

theorem sameWords_removeVirtualLinks (m : Memory T I) (signatureId : Int) :
    SameWords m (m.removeVirtualLinks signatureId) := by
  unfold Memory.removeVirtualLinks
  cases m._getSignature signatureId with
  | none => exact sameWords_refl m
  | some s =>
    simp only []
    refine sameWords_trans (sameWords_foldl _ ?_ s.links m) (sameWords_modifySignature _ _ _ ?_ ?_)
    · intro m' l
      refine sameWords_ite ?_ (sameWords_refl m')
      refine sameWords_modifySignature _ _ _ ?_ ?_
      · intro _; rfl
      · intro _; rfl
    · intro _; rfl
    · intro _; rfl

theorem sameWords_moveToTrashLinks (e : Env T I) (m m1 : Memory T I) (s : Signature T I)
    ( keep : Bool) (h : Memory.moveToTrashLinks e m s keep = Except.ok m1) : SameWords m m1 := by
  unfold Memory.moveToTrashLinks at h
  split at h
  · obtain ⟨_, _, h⟩ := bind_eq_ok.1 h
    obtain ⟨m2, h2, h⟩ := bind_eq_ok.1 h
    injection h with h
    rw [← h]
    refine sameWords_trans (sameWords_moveToTrashUnlink _ _ _ _ _ h2) ?_
    refine sameWords_modifySignature _ _ _ ?_ ?_
    · intro _; rfl
    · intro _; rfl
  · injection h with h
    rw [← h]
    exact sameWords_removeVirtualLinks m s.id

theorem sameWords_moveToTrashLast (m : Memory T I) (sId : Int) :
    SameWords m (Memory.moveToTrashLast m sId) := by
  have h1 : SameWords m (Memory.moveToTrashLastSignature m sId) := by
    unfold Memory.moveToTrashLastSignature
    split
    · split
      · exact sameWords_of_eq rfl rfl
      · split
        · exact sameWords_of_eq rfl rfl
        · exact sameWords_of_eq rfl rfl
    · exact sameWords_refl m
  unfold Memory.moveToTrashLast
  refine sameWords_ite ?_ h1
  exact sameWords_trans h1 (sameWords_of_eq rfl rfl)

theorem sameWords_moveToTrashSave (e : Env T I) (m : Memory T I) (s1 : Signature T I)
    ( keep : Bool) : SameWords m (Memory.moveToTrashSave e m s1 keep) := by
  unfold Memory.moveToTrashSave
  split
  · exact sameWords_of_eq rfl rfl
  · exact sameWords_refl m

end Words

/-! ## The inverted index under the dictionary operations -/

namespace VWDictionary

theorem refs_of_getWord {d : VWDictionary} {w : Int} {v : VisualWord} (h : d.getWord w = some v) :
    d.refs w = v.references.map Prod.fst := by
  unfold refs
  rw [h]

theorem refs_of_getWord_none {d : VWDictionary} {w : Int} (h : d.getWord w = none) :
    d.refs w = [] := by
  unfold refs
  rw [h]

theorem getWord_id {d : VWDictionary} {w : Int} {v : VisualWord} (h : d.getWord w = some v) :
    v.id = w :=
  kfind_key VisualWord.id h

theorem getWord_removeAllWordRef (d : VWDictionary) (k i w : Int) :
    (d.removeAllWordRef k i).getWord w =
      (d.getWord w).map (fun v => if v.id = k then
        { v with references := kerase Prod.fst i v.references } else v) :=
  kfind_kmodify VisualWord.id (fun _ => rfl)

theorem mem_refs_removeAllWordRef (d : VWDictionary) (k i w j : Int) :
    j ∈ (d.removeAllWordRef k i).refs w ↔ j ∈ d.refs w ∧ ¬ (w = k ∧ j = i) := by
  unfold refs
  rw [getWord_removeAllWordRef]
  cases h : d.getWord w with
  | none => simp
  | some v =>
    have hid := getWord_id h
    simp only [Option.map_some']
    by_cases hk : v.id = k
    · rw [if_pos hk]
      simp only [mem_keys_kerase]
      have : w = k := hid.symm.trans hk
      constructor
      · rintro ⟨h1, h2⟩
        exact ⟨h1, fun h3 => h2 h3.2⟩
      · rintro ⟨h1, h2⟩
        exact ⟨h1, fun h3 => h2 ⟨this, h3⟩⟩
    · rw [if_neg hk]
      have : w ≠ k := fun h' => hk (hid.trans h')
      constructor
      · intro h1
        exact ⟨h1, fun h3 => this h3.1⟩
      · exact fun h1 => h1.1

theorem mem_refs_removeAll (ks : List Int) (d : VWDictionary) (i w j : Int) :
    j ∈ (ks.foldl (fun d k => d.removeAllWordRef k i) d).refs w ↔
      j ∈ d.refs w ∧ ¬ (w ∈ ks ∧ j = i) := by
  induction ks generalizing d with
  | nil => simp
  | cons k rest ih =>
    rw [List.foldl_cons, ih, mem_refs_removeAllWordRef]
    simp only [List.mem_cons]
    constructor
    · rintro ⟨⟨h1, h2⟩, h3⟩
      refine ⟨h1, ?_⟩
      rintro ⟨hk | hk, hj⟩
      · exact h2 ⟨hk, hj⟩
      · exact h3 ⟨hk, hj⟩
    · rintro ⟨h1, h2⟩
      exact ⟨⟨h1, fun h3 => h2 ⟨Or.inl h3.1, h3.2⟩⟩, fun h3 => h2 ⟨Or.inr h3.1, h3.2⟩⟩

theorem mem_keys_addRef (refs : List (Int × Int)) (i j : Int) :
    j ∈ (addRef refs i).map Prod.fst ↔ j ∈ refs.map Prod.fst ∨ j = i := by
  unfold addRef
  split
  · rename_i h
    have hk : (kmodify Prod.fst i (fun p => (p.1, p.2 + 1)) refs).map Prod.fst =
        refs.map Prod.fst := keys_kmodify Prod.fst (fun _ => rfl)
    rw [hk]
    constructor
    · exact Or.inl
    · rintro (h1 | h1)
      · exact h1
      · rw [h1]
        exact (khas_iff_mem_keys Prod.fst).1 h
  · exact mem_keys_kinsert Prod.fst

theorem getWord_addWordRef (d : VWDictionary) (k i w : Int) :
    (d.addWordRef k i).getWord w =
      (d.getWord w).map (fun v => if v.id = k then
        { v with references := addRef v.references i } else v) :=
  kfind_kmodify VisualWord.id (fun _ => rfl)

theorem mem_refs_addWordRef (d : VWDictionary) (k i w j : Int) :
    j ∈ (d.addWordRef k i).refs w ↔
      j ∈ d.refs w ∨ (w = k ∧ j = i ∧ (d.getWord w).isSome = true) := by
  unfold refs
  rw [getWord_addWordRef]
  cases h : d.getWord w with
  | none => simp
  | some v =>
    have hid := getWord_id h
    simp only [Option.map_some', Option.isSome_some, and_true]
    by_cases hk : v.id = k
    · rw [if_pos hk]
      simp only [mem_keys_addRef]
      have : w = k := hid.symm.trans hk
      constructor
      · rintro (h1 | h1)
        · exact Or.inl h1
        · exact Or.inr ⟨this, h1⟩
      · rintro (h1 | h1)
        · exact Or.inl h1
        · exact Or.inr h1.2
    · rw [if_neg hk]
      have : w ≠ k := fun h' => hk (hid.trans h')
      constructor
      · exact Or.inl
      · rintro (h1 | h1)
        · exact h1
        · exact absurd h1.1 this

theorem getWord_isSome_addWordRef (d : VWDictionary) (k i w : Int) :
    ((d.addWordRef k i).getWord w).isSome = (d.getWord w).isSome := by
  rw [getWord_addWordRef]
  cases d.getWord w <;> rfl

theorem getWord_isSome_addAll (ks : List Int) (d : VWDictionary) (i w : Int) :
    ((ks.foldl (fun d k => d.addWordRef k i) d).getWord w).isSome = (d.getWord w).isSome := by
  induction ks generalizing d with
  | nil => rfl
  | cons k rest ih => rw [List.foldl_cons, ih, getWord_isSome_addWordRef]

theorem mem_refs_addAll (ks : List Int) (d : VWDictionary) (i w j : Int) :
    j ∈ (ks.foldl (fun d k => d.addWordRef k i) d).refs w ↔
      j ∈ d.refs w ∨ (w ∈ ks ∧ j = i ∧ (d.getWord w).isSome = true) := by
  induction ks generalizing d with
  | nil => simp
  | cons k rest ih =>
    rw [List.foldl_cons, ih, mem_refs_addWordRef, getWord_isSome_addWordRef]
    simp only [List.mem_cons]
    constructor
    · rintro ((h1 | ⟨h1, h2, h3⟩) | ⟨h1, h2, h3⟩)
      · exact Or.inl h1
      · exact Or.inr ⟨Or.inl h1, h2, h3⟩
      · exact Or.inr ⟨Or.inr h1, h2, h3⟩
    · rintro (h1 | ⟨h1 | h1, h2, h3⟩)
      · exact Or.inl (Or.inl h1)
      · exact Or.inl (Or.inr ⟨h1, h2, h3⟩)
      · exact Or.inr ⟨h1, h2, h3⟩

theorem getWord_removeWords (d : VWDictionary) (ids : List Int) (w : Int) :
    (d.removeWords ids).getWord w = if ids.contains w then none else d.getWord w := by
  unfold getWord removeWords kfind
  simp only []
  induction d.visualWords with
  | nil => simp
  | cons v rest ih =>
    rw [List.filter_cons]
    by_cases hv : v.id = w
    · by_cases hc : ids.contains w = true
      · rw [hv]
        simp only [hc, Bool.not_true, Bool.false_eq_true, if_false, if_true]
        rw [if_pos hc] at ih
        exact ih
      · have hc' : w ∉ ids := by simpa using hc
        rw [hv]
        simp [hc', hv]
    · by_cases hc : (!ids.contains v.id) = true
      · rw [if_pos hc, List.find?_cons, List.find?_cons]
        have : (v.id == w) = false := by simpa using hv
        rw [this]
        exact ih
      · rw [if_neg hc, List.find?_cons]
        have : (v.id == w) = false := by simpa using hv
        rw [this]
        exact ih

theorem getWord_addWord (d : VWDictionary) (vw : VisualWord) (w : Int) :
    (d.addWord vw).getWord w =
      if (d.getWord vw.id).isSome = true then d.getWord w
      else if w = vw.id then some vw else d.getWord w :=
  kfind_kinsert VisualWord.id

end VWDictionary

/-! ## Word references under `disableWordsRef` -/

namespace Memory

variable {T I : Type}

theorem cites_iff_of_getSignature {m : Memory T I} {i : Int} {s : Signature T I}
    (h : m._getSignature i = some s) (wordId : Int) :
    m.cites wordId i ↔ s.enabled = true ∧ wordId ∈ s.words := by
  unfold cites
  rw [h]
  constructor
  · rintro ⟨s', hs, h1⟩
    injection hs with hs
    rw [hs]
    exact h1
  · intro h1
    exact ⟨s, rfl, h1⟩

theorem not_cites_of_getSignature_none {m : Memory T I} {i : Int}
    (h : m._getSignature i = none) (wordId : Int) : ¬ m.cites wordId i := by
  unfold cites
  rw [h]
  rintro ⟨s, hs, _⟩
  exact Option.noConfusion hs

theorem cites_congr {m m' : Memory T I} {i : Int}
    (h : m'._getSignature i = m._getSignature i) (wordId : Int) :
    m'.cites wordId i ↔ m.cites wordId i := by
  unfold cites
  rw [h]

/-- A change of a signature that is not enabled, and stays so, leaves the word
references consistent. -/
theorem wordRefsConsistent_modify_disabled (m : Memory T I) (k : Int)
    (f : Signature T I → Signature T I) (hf : ∀ a, (f a).id = a.id)
    (he : ∀ a, (f a).enabled = a.enabled)
    (hk : ∀ s, m._getSignature k = some s → s.enabled = false)
    (hc : WordRefsConsistent m) : WordRefsConsistent (m.modifySignature k f) := by
  intro wordId i
  rw [modifySignature_vwd, hc wordId i]
  by_cases hik : i = k
  · subst hik
    cases hs : m._getSignature i with
    | none =>
      have hn : (m.modifySignature i f)._getSignature i = none := by
        rw [getSignature_modify_self m i f hf, hs]
        rfl
      exact iff_of_false (not_cites_of_getSignature_none hs _)
        (not_cites_of_getSignature_none hn _)
    | some s =>
      have hn : (m.modifySignature i f)._getSignature i = some (f s) := by
        rw [getSignature_modify_self m i f hf, hs]
        rfl
      rw [cites_iff_of_getSignature hs, cites_iff_of_getSignature hn, he, hk s hs]
      simp
  · exact (cites_congr (getSignature_modify_ne m f hf hik) wordId).symm

theorem disableWordsRef_of_enabled {m : Memory T I} {k : Int} {ss : Signature T I}
    (hs : m._getSignature k = some ss) (he : ss.enabled = true) :
    m.disableWordsRef k =
      (m.setVwd ((uUniqueKeys ss.words).foldl (fun d w => d.removeAllWordRef w k)
        m.vwd)).modifySignature k (fun s => { s with enabled := false }) := by
  unfold disableWordsRef
  rw [hs]
  simp only [he, if_true]
  rw [getSignature_id hs]

theorem disableWordsRef_of_not_enabled {m : Memory T I} {k : Int}
    (hs : ∀ ss, m._getSignature k = some ss → ss.enabled = false) :
    m.disableWordsRef k = m := by
  unfold disableWordsRef
  cases h : m._getSignature k with
  | none => rfl
  | some ss => simp [hs ss h]

/-- After `disableWordsRef(k)` the signature `k` is not enabled. -/
theorem disableWordsRef_disabled (m : Memory T I) (k : Int) (s : Signature T I)
    (h : (m.disableWordsRef k)._getSignature k = some s) : s.enabled = false := by
  cases hs : m._getSignature k with
  | none =>
    rw [disableWordsRef_of_not_enabled (fun ss h' => by rw [hs] at h'; exact Option.noConfusion h')]
      at h
    rw [hs] at h
    exact Option.noConfusion h
  | some ss =>
    cases he : ss.enabled with
    | true =>
      rw [disableWordsRef_of_enabled hs he, getSignature_modify_self,
        getSignature_setVwd, hs] at h
      · injection h with h
        rw [← h]
      · intro _; rfl
    | false =>
      rw [disableWordsRef_of_not_enabled (fun s' h' => by
        rw [hs] at h'; injection h' with h'; rw [← h']; exact he)] at h
      rw [hs] at h
      injection h with h
      rw [← h]
      exact he

/-- Word references stay consistent under `disableWordsRef`. -/
theorem disableWordsRef_wordRefsConsistent (m : Memory T I) (k : Int)
    (hc : WordRefsConsistent m) : WordRefsConsistent (m.disableWordsRef k) := by
  cases hs : m._getSignature k with
  | none =>
    rw [disableWordsRef_of_not_enabled (fun ss h' => by rw [hs] at h'; exact Option.noConfusion h')]
    exact hc
  | some ss =>
    cases he : ss.enabled with
    | false =>
      rw [disableWordsRef_of_not_enabled (fun s' h' => by
        rw [hs] at h'; injection h' with h'; rw [← h']; exact he)]
      exact hc
    | true =>
      rw [disableWordsRef_of_enabled hs he]
      intro wordId i
      rw [modifySignature_vwd, setVwd_vwd, VWDictionary.mem_refs_removeAll, hc wordId i]
      by_cases hik : i = k
      · subst hik
        have hn : ((m.setVwd ((uUniqueKeys ss.words).foldl
            (fun d w => d.removeAllWordRef w i) m.vwd)).modifySignature i
            (fun s => { s with enabled := false }))._getSignature i =
            some { ss with enabled := false } := by
          rw [getSignature_modify_self, getSignature_setVwd, hs]
          · rfl
          · intro _; rfl
        rw [cites_iff_of_getSignature hs, cites_iff_of_getSignature hn]
        simp only [uUniqueKeys, List.mem_dedup, and_true, Bool.false_eq_true, false_and, iff_false,
          not_and, not_not]
        intro h1
        exact h1.2
      · have hn : ((m.setVwd ((uUniqueKeys ss.words).foldl
            (fun d w => d.removeAllWordRef w k) m.vwd)).modifySignature k
            (fun s => { s with enabled := false }))._getSignature i = m._getSignature i := by
          rw [getSignature_modify_ne _ _ _ hik, getSignature_setVwd]
          intro _; rfl
        rw [cites_congr hn]
        constructor
        · exact fun h1 => h1.1
        · exact fun h1 => ⟨h1, fun h2 => hik h2.2⟩

end Memory

/-! ## Word references under `enableWordsRef` -/

namespace Memory

variable {T I : Type}

theorem mem_foldl_kinsert_selfKey (l acc : List Int) (k : Int) :
    k ∈ l.foldl (fun acc k => kinsert selfKey k acc) acc ↔ k ∈ acc ∨ k ∈ l := by
  induction l generalizing acc with
  | nil => simp
  | cons a rest ih =>
    rw [List.foldl_cons, ih, mem_kinsert_selfKey]
    simp only [List.mem_cons]
    constructor
    · rintro ((h | h) | h)
      · exact Or.inl h
      · exact Or.inr (Or.inl h)
      · exact Or.inr (Or.inr h)
    · rintro (h | h | h)
      · exact Or.inl (Or.inl h)
      · exact Or.inl (Or.inr h)
      · exact Or.inr h

theorem enableWordsRefCollect_mono (m : Memory T I) (ids : List Int) (acc : List Int × List Int)
    (k : Int) (h : k ∈ acc.2) : k ∈ (enableWordsRefCollect m ids acc).2 := by
  induction ids generalizing acc with
  | nil => exact h
  | cons i rest ih =>
    obtain ⟨surf, missing⟩ := acc
    unfold enableWordsRefCollect
    split
    · split
      · apply ih
        exact (mem_foldl_kinsert_selfKey _ _ _).2 (Or.inl h)
      · exact ih _ h
    · exact ih _ h

/-- What the first loop of `enableWordsRef` collects: every signature listed is
in memory and not enabled, and each of its words is in the dictionary or among
the word ids to load. -/
theorem enableWordsRefCollect_spec (m : Memory T I) (ids : List Int)
    (acc : List Int × List Int) (j : Int) (hj : j ∈ (enableWordsRefCollect m ids acc).1) :
    j ∈ acc.1 ∨ ∃ s, m._getSignature j = some s ∧ s.enabled = false ∧
      ∀ k ∈ s.words, (m.vwd.getWord k).isSome = true ∨
        k ∈ (enableWordsRefCollect m ids acc).2 := by
  induction ids generalizing acc with
  | nil => exact Or.inl hj
  | cons i rest ih =>
    obtain ⟨surf, missing⟩ := acc
    unfold enableWordsRefCollect at hj ⊢
    cases hs : m._getSignature i with
    | none =>
      try rw [hs] at hj
      try rw [hs]
      exact ih _ hj
    | some ss =>
      try rw [hs] at hj
      try rw [hs]
      simp only [] at hj ⊢
      cases he : ss.enabled with
      | true =>
        simp only [he, Bool.not_true, Bool.false_eq_true, if_false] at hj ⊢
        exact ih _ hj
      | false =>
        simp only [he, Bool.not_false, if_true] at hj ⊢
        rcases ih _ hj with h1 | h1
        · rcases List.mem_append.1 h1 with h1 | h1
          · exact Or.inl h1
          · rw [List.mem_singleton] at h1
            have hid := getSignature_id hs
            rw [h1, hid]
            refine Or.inr ⟨ss, hs, he, ?_⟩
            intro k hk
            by_cases hw : (m.vwd.getWord k).isSome = true
            · exact Or.inl hw
            · refine Or.inr (enableWordsRefCollect_mono m rest _ k ?_)
              refine (mem_foldl_kinsert_selfKey _ _ _).2 (Or.inr ?_)
              rw [List.mem_filter]
              refine ⟨by simpa [uUniqueKeys] using hk, ?_⟩
              have hn : m.vwd.getWord k = none := by
                cases h' : m.vwd.getWord k with
                | none => rfl
                | some v => rw [h'] at hw; exact absurd rfl hw
              simp [VWDictionary.getUnusedWord, hn]
        · exact Or.inr h1

theorem mem_of_getD_pos {l : List Int} {i : Nat} (h : 0 < l.getD i 0) : l.getD i 0 ∈ l := by
  rw [List.getD_eq_getElem?_getD] at h ⊢
  cases hi : l[i]? with
  | none => rw [hi] at h; simp at h
  | some a =>
    exact List.getElem?_mem hi

/-- What the matching loop of `enableWordsRef` does to its accumulators: a word
of the dictionary stays as it is, a word that enters is one of the loaded words,
every loaded word is re-keyed or in the dictionary afterwards, and a new pair
leads to a positive id returned by `findNN`. -/
theorem enableWordsRefMatch_spec (active : List Int) (vws : List VisualWord) (idx : Nat)
    (acc : List (Int × Int) × VWDictionary) :
    (∀ k, (enableWordsRefMatch active vws idx acc).2.getWord k = acc.2.getWord k ∨
      (acc.2.getWord k = none ∧
        ∃ vw ∈ vws, (enableWordsRefMatch active vws idx acc).2.getWord k = some vw)) ∧
    (∀ vw ∈ vws, vw.id ∈ (enableWordsRefMatch active vws idx acc).1.map Prod.fst ∨
      ((enableWordsRefMatch active vws idx acc).2.getWord vw.id).isSome = true) ∧
    (∀ r ∈ (enableWordsRefMatch active vws idx acc).1, r ∈ acc.1 ∨ (0 < r.2 ∧ r.2 ∈ active)) ∧
    (∀ k ∈ acc.1.map Prod.fst, k ∈ (enableWordsRefMatch active vws idx acc).1.map Prod.fst) := by
  induction vws generalizing idx acc with
  | nil =>
    refine ⟨fun k => Or.inl rfl, ?_, fun r hr => Or.inl hr, fun k hk => hk⟩
    intro vw hvw
    exact absurd hvw (List.not_mem_nil _)
  | cons vw rest ih =>
    obtain ⟨rc, d⟩ := acc
    unfold enableWordsRefMatch
    split
    · rename_i hpos
      obtain ⟨i1, i2, i3, i4⟩ := ih (idx + 1) (kinsert Prod.fst (vw.id, active.getD idx 0) rc, d)
      refine ⟨?_, ?_, ?_, ?_⟩
      · intro k
        rcases i1 k with h | ⟨h1, v, hv, h2⟩
        · exact Or.inl h
        · exact Or.inr ⟨h1, v, List.mem_cons_of_mem _ hv, h2⟩
      · intro v hv
        rcases List.mem_cons.1 hv with rfl | hv
        · exact Or.inl (i4 _ ((mem_keys_kinsert Prod.fst).2 (Or.inr rfl)))
        · exact i2 v hv
      · intro r hr
        rcases i3 r hr with h | h
        · rcases (mem_kinsert Prod.fst).1 h with h | ⟨h, _⟩
          · exact Or.inl h
          · rw [h]
            exact Or.inr ⟨hpos, mem_of_getD_pos hpos⟩
        · exact Or.inr h
      · intro k hk
        exact i4 k ((mem_keys_kinsert Prod.fst).2 (Or.inl hk))
    · obtain ⟨i1, i2, i3, i4⟩ := ih (idx + 1) (rc, d.addWord vw)
      refine ⟨?_, ?_, i3, i4⟩
      · intro k
        have hadd := VWDictionary.getWord_addWord d vw k
        rcases i1 k with h | ⟨h1, v, hv, h2⟩
        · simp only [] at h
          rw [h, hadd]
          split
          · exact Or.inl rfl
          · split
            · rename_i hn hk
              refine Or.inr ⟨?_, vw, List.mem_cons_self _ _, ?_⟩
              · rw [hk]
                cases h' : d.getWord vw.id with
                | none => rfl
                | some _ => rw [h'] at hn; exact absurd rfl hn
              · rfl
            · exact Or.inl rfl
        · simp only [] at h1
          rw [hadd] at h1
          refine Or.inr ⟨?_, v, List.mem_cons_of_mem _ hv, h2⟩
          split at h1
          · exact h1
          · split at h1
            · exact Option.noConfusion h1
            · exact h1
      · intro v hv
        rcases List.mem_cons.1 hv with rfl | hv
        · refine Or.inr ?_
          have hadd := VWDictionary.getWord_addWord d v v.id
          have hsome : ((d.addWord v).getWord v.id).isSome = true := by
            rw [hadd]
            split
            · assumption
            · simp
          rcases i1 v.id with h | ⟨h1, _⟩
          · simp only [] at h
            rw [h]
            exact hsome
          · simp only [] at h1
            rw [h1] at hsome
            exact absurd hsome (by simp)
        · exact i2 v hv

end Memory

namespace Memory

variable {T I : Type}

theorem changeWordsRef_idem (s : Signature T I) (o a : Int) :
    (s.changeWordsRef o a).changeWordsRef o a = s.changeWordsRef o a := by
  unfold Signature.changeWordsRef
  simp only [List.map_map]
  congr 1
  apply List.map_congr_left
  intro w _
  show (if (if w = o then a else w) = o then a else (if w = o then a else w)) =
    if w = o then a else w
  by_cases h : w = o
  · simp [h]
  · simp [h]

/-- The inner loop of the rewriting: the listed signatures have the old word id
re-keyed, the others are untouched. -/
theorem getSignature_rewriteOne (o a : Int) (l : List Int) (m : Memory T I) (i : Int) :
    (l.foldl (fun m j => m.modifySignature j (fun s => s.changeWordsRef o a)) m)._getSignature i =
      (m._getSignature i).map (fun s => if i ∈ l then s.changeWordsRef o a else s) := by
  induction l generalizing m with
  | nil => simp
  | cons j rest ih =>
    rw [List.foldl_cons, ih, getSignature_modify m j i (fun s => s.changeWordsRef o a)
      (fun _ => rfl)]
    cases hs : m._getSignature i with
    | none => rfl
    | some s =>
      have hid := getSignature_id hs
      simp only [Option.map_some', hid, List.mem_cons]
      by_cases hij : i = j
      · by_cases hr : i ∈ rest
        · simp [hij, changeWordsRef_idem]
        · simp only [hij, if_true, true_or]
          rw [hij] at hr
          simp [hr]
      · simp [hij]

theorem vwd_rewriteOne (o a : Int) (l : List Int) (m : Memory T I) :
    (l.foldl (fun m j => m.modifySignature j (fun s => s.changeWordsRef o a)) m).vwd = m.vwd := by
  induction l generalizing m with
  | nil => rfl
  | cons j rest ih => rw [List.foldl_cons, ih, modifySignature_vwd]

/-- The rewriting of `enableWordsRef`: the dictionary and the signatures that
are not listed are untouched, the `enabled` flags stay, and a listed signature
whose words are good or re-keyed has only good words afterwards, when every
pair leads to a good word. -/
theorem enableWordsRefRewrite_spec (surf : List Int) (rc : List (Int × Int)) (m : Memory T I) :
    (enableWordsRefRewrite surf rc m).vwd = m.vwd ∧
    (∀ i, i ∉ surf → (enableWordsRefRewrite surf rc m)._getSignature i = m._getSignature i) ∧
    (∀ i, m._getSignature i = none → (enableWordsRefRewrite surf rc m)._getSignature i = none) ∧
    (∀ i s, m._getSignature i = some s →
      ∃ s', (enableWordsRefRewrite surf rc m)._getSignature i = some s' ∧
        s'.enabled = s.enabled ∧
        (i ∈ surf → ∀ good : Int → Prop, (∀ r ∈ rc, good r.2) →
          (∀ k ∈ s.words, good k ∨ k ∈ rc.map Prod.fst) → ∀ k ∈ s'.words, good k)) := by
  induction rc generalizing m with
  | nil =>
    refine ⟨rfl, fun _ _ => rfl, fun _ h => h, ?_⟩
    intro i s hs
    refine ⟨s, hs, rfl, ?_⟩
    intro _ good _ hw k hk
    rcases hw k hk with h | h
    · exact h
    · exact absurd h (List.not_mem_nil _)
  | cons r rest ih =>
    unfold enableWordsRefRewrite at ih ⊢
    rw [List.foldl_cons]
    obtain ⟨i1, i2, i3, i4⟩ := ih
      (surf.foldl (fun m j => m.modifySignature j (fun s => s.changeWordsRef r.1 r.2)) m)
    refine ⟨?_, ?_, ?_, ?_⟩
    · rw [i1, vwd_rewriteOne]
    · intro i hi
      rw [i2 i hi, getSignature_rewriteOne]
      cases m._getSignature i with
      | none => rfl
      | some s => simp [hi]
    · intro i hi
      apply i3
      rw [getSignature_rewriteOne, hi]
      rfl
    · intro i s hs
      have h1 : (surf.foldl (fun m j => m.modifySignature j
          (fun s => s.changeWordsRef r.1 r.2)) m)._getSignature i =
          some (if i ∈ surf then s.changeWordsRef r.1 r.2 else s) := by
        rw [getSignature_rewriteOne, hs]
        rfl
      obtain ⟨s', hs', he, hg⟩ := i4 i _ h1
      refine ⟨s', hs', ?_, ?_⟩
      · rw [he]
        split <;> rfl
      · intro hi good hgood hw
        apply hg hi good (fun r' hr' => hgood r' (List.mem_cons_of_mem _ hr'))
        rw [if_pos hi]
        intro k hk
        simp only [Signature.changeWordsRef, List.mem_map] at hk
        obtain ⟨w, hw1, hw2⟩ := hk
        by_cases hwo : w = r.1
        · rw [if_pos hwo] at hw2
          rw [← hw2]
          exact Or.inl (hgood r (List.mem_cons_self _ _))
        · rw [if_neg hwo] at hw2
          rw [← hw2]
          rcases hw w hw1 with h | h
          · exact Or.inl h
          · rw [List.map_cons, List.mem_cons] at h
            rcases h with h | h
            · exact absurd h hwo
            · exact Or.inr h

/-- One round of the reactivation keeps the word references consistent when the
words of the signature are in the dictionary. -/
theorem enableWordsRefActivate_wordRefsConsistent (m : Memory T I) (j : Int)
    (hw : ∀ s, m._getSignature j = some s → ∀ k ∈ s.words, (m.vwd.getWord k).isSome = true)
    (hc : WordRefsConsistent m) : WordRefsConsistent (m.enableWordsRefActivate j) := by
  unfold enableWordsRefActivate
  cases hs : m._getSignature j with
  | none => exact hc
  | some s =>
    have hid := getSignature_id hs
    have hws := hw s hs
    simp only []
    intro wordId i
    have hrefs : i ∈ (s.words.foldl (fun d k => d.addWordRef k s.id) m.vwd).refs wordId ↔
        m.cites wordId i ∨ (wordId ∈ s.words ∧ i = j) := by
      rw [VWDictionary.mem_refs_addAll, hc wordId i, hid]
      constructor
      · rintro (h | ⟨h1, h2, _⟩)
        · exact Or.inl h
        · exact Or.inr ⟨h1, h2⟩
      · rintro (h | ⟨h1, h2⟩)
        · exact Or.inl h
        · exact Or.inr ⟨h1, h2, hws wordId h1⟩
    split
    · rename_i hne
      rw [modifySignature_vwd, setVwd_vwd, hrefs]
      by_cases hij : i = j
      · subst hij
        have hn : ((m.setVwd (s.words.foldl (fun d k => d.addWordRef k s.id)
            m.vwd)).modifySignature i (fun s => { s with enabled := true }))._getSignature i =
            some { s with enabled := true } := by
          rw [getSignature_modify_self, getSignature_setVwd, hs]
          · rfl
          · intro _; rfl
        rw [cites_iff_of_getSignature hs, cites_iff_of_getSignature hn]
        simp only [and_true, true_and]
        constructor
        · rintro (h | h)
          · exact h.2
          · exact h
        · exact Or.inr
      · have hn : ((m.setVwd (s.words.foldl (fun d k => d.addWordRef k s.id)
            m.vwd)).modifySignature j (fun s => { s with enabled := true }))._getSignature i =
            m._getSignature i := by
          rw [getSignature_modify_ne _ _ _ hij, getSignature_setVwd]
          intro _; rfl
        rw [cites_congr hn]
        constructor
        · rintro (h | h)
          · exact h
          · exact absurd h.2 hij
        · exact Or.inl
    · rename_i hne
      have hnil : s.words = [] := by
        cases hwd : s.words with
        | nil => rfl
        | cons _ _ => rw [hwd] at hne; simp at hne
      rw [setVwd_vwd, hrefs]
      have hn : (m.setVwd (s.words.foldl (fun d k => d.addWordRef k s.id)
          m.vwd))._getSignature i = m._getSignature i := rfl
      rw [cites_congr hn, hnil]
      simp

theorem getSignature_enableWordsRefActivate (m : Memory T I) (j i : Int) :
    ((m.enableWordsRefActivate j)._getSignature i).map Signature.words =
      (m._getSignature i).map Signature.words := by
  unfold enableWordsRefActivate
  cases hs : m._getSignature j with
  | none => rfl
  | some s =>
    simp only []
    split
    · rw [getSignature_modify, getSignature_setVwd, Option.map_map]
      · congr 1
        funext a
        show (if a.id = j then _ else a).words = a.words
        split <;> rfl
      · intro _; rfl
    · rfl

theorem getWord_isSome_enableWordsRefActivate (m : Memory T I) (j k : Int) :
    ((m.enableWordsRefActivate j).vwd.getWord k).isSome = (m.vwd.getWord k).isSome := by
  unfold enableWordsRefActivate
  cases hs : m._getSignature j with
  | none => rfl
  | some s =>
    simp only []
    split
    · rw [modifySignature_vwd, setVwd_vwd, VWDictionary.getWord_isSome_addAll]
    · rw [setVwd_vwd, VWDictionary.getWord_isSome_addAll]

/-- The last loop of `enableWordsRef` keeps the word references consistent when
the words of the listed signatures are in the dictionary. -/
theorem enableWordsRefActivate_foldl (l : List Int) (m : Memory T I)
    (hw : ∀ j ∈ l, ∀ s, m._getSignature j = some s →
      ∀ k ∈ s.words, (m.vwd.getWord k).isSome = true)
    (hc : WordRefsConsistent m) : WordRefsConsistent (l.foldl enableWordsRefActivate m) := by
  induction l generalizing m with
  | nil => exact hc
  | cons j rest ih =>
    rw [List.foldl_cons]
    apply ih
    · intro j' hj' s' hs' k hk
      rw [getWord_isSome_enableWordsRefActivate]
      have hmap := getSignature_enableWordsRefActivate m j j'
      rw [hs'] at hmap
      cases hs : m._getSignature j' with
      | none => rw [hs] at hmap; exact Option.noConfusion hmap
      | some s =>
        rw [hs] at hmap
        simp only [Option.map_some', Option.some.injEq] at hmap
        rw [hmap] at hk
        exact hw j' (List.mem_cons_of_mem _ hj') s hs k hk
    · exact enableWordsRefActivate_wordRefsConsistent m j
        (hw j (List.mem_cons_self _ _)) hc

end Memory

namespace Memory

variable {T I : Type}

/-- The middle part of `enableWordsRef` keeps the word references consistent,
and afterwards the words of the signatures to reactivate are all in the
dictionary, when the database returns the words asked for. -/
theorem enableWordsRefLoad_spec (e : Env T I) (m : Memory T I) (surf missing : List Int)
    (ha : WordsAvailable e) (hc : WordRefsConsistent m)
    (hsurf : ∀ j ∈ surf, ∃ s, m._getSignature j = some s ∧ s.enabled = false ∧
      ∀ k ∈ s.words, (m.vwd.getWord k).isSome = true ∨ k ∈ missing) :
    WordRefsConsistent (enableWordsRefLoad e m surf missing) ∧
    ∀ j ∈ surf, ∀ s, (enableWordsRefLoad e m surf missing)._getSignature j = some s →
      ∀ k ∈ s.words, ((enableWordsRefLoad e m surf missing).vwd.getWord k).isSome = true := by
  obtain ⟨hdb, hload, hnn⟩ := ha
  obtain ⟨vws, hvws⟩ : ∃ vws, vws =
      (if (missing.length != 0 && e.hasDb) = true then e.loadWords missing else []) := ⟨_, rfl⟩
  have hcomplete : ∀ k ∈ missing, ∃ vw ∈ vws, vw.id = k := by
    intro k hk
    have hne : (missing.length != 0 && e.hasDb) = true := by
      cases missing with
      | nil => exact absurd hk (List.not_mem_nil _)
      | cons _ _ => simp [hdb]
    rw [hvws, if_pos hne]
    exact (hload missing).1 k hk
  have hnorefs : ∀ vw ∈ vws, vw.references = [] := by
    intro vw hvw
    rw [hvws] at hvw
    split at hvw
    · exact (hload missing).2 vw hvw
    · exact absurd hvw (List.not_mem_nil _)
  unfold enableWordsRefLoad
  simp only []
  rw [← hvws]
  by_cases hlen : (vws.length != 0) = true
  · rw [if_pos hlen]
    obtain ⟨a1, a2, a3, a4⟩ := enableWordsRefMatch_spec (e.findNN m.vwd vws) vws 0 ([], m.vwd)
    generalize enableWordsRefMatch (e.findNN m.vwd vws) vws 0 ([], m.vwd) = res at a1 a2 a3 a4 ⊢
    obtain ⟨rc, d2⟩ := res
    simp only [] at a1 a2 a3 a4 ⊢
    obtain ⟨r1, r2, r3, r4⟩ := enableWordsRefRewrite_spec surf rc (m.setVwd d2)
    have hmono : ∀ k, (m.vwd.getWord k).isSome = true → (d2.getWord k).isSome = true := by
      intro k hk
      rcases a1 k with h | ⟨h, _⟩
      · rw [h]; exact hk
      · rw [h] at hk; exact absurd hk (by simp)
    have hrefs : ∀ w, d2.refs w = m.vwd.refs w := by
      intro w
      rcases a1 w with h | ⟨h, vw, hvw, h2⟩
      · unfold VWDictionary.refs
        rw [h]
      · rw [VWDictionary.refs_of_getWord h2, VWDictionary.refs_of_getWord_none h,
          hnorefs vw hvw]
        rfl
    refine ⟨?_, ?_⟩
    · intro wordId i
      rw [r1, setVwd_vwd, hrefs, hc wordId i]
      by_cases hi : i ∈ surf
      · obtain ⟨s, hs, he, _⟩ := hsurf i hi
        obtain ⟨s', hs', he', _⟩ := r4 i s hs
        rw [cites_iff_of_getSignature hs, cites_iff_of_getSignature hs', he', he]
        simp
      · exact (cites_congr (r2 i hi) wordId).symm
    · intro j hj s' hs' k hk
      rw [r1, setVwd_vwd]
      obtain ⟨s, hs, he, hw⟩ := hsurf j hj
      obtain ⟨s'', hs'', _, hg⟩ := r4 j s hs
      rw [hs'] at hs''
      injection hs'' with hs''
      rw [hs''] at hk
      refine hg hj (fun k => (d2.getWord k).isSome = true) ?_ ?_ k hk
      · intro r hr
        rcases a3 r hr with h | ⟨h1, h2⟩
        · exact absurd h (List.not_mem_nil _)
        · exact hmono _ (hnn m.vwd vws r.2 h2 h1)
      · intro k' hk'
        rcases hw k' hk' with h | h
        · exact Or.inl (hmono k' h)
        · obtain ⟨vw, hvw, hid⟩ := hcomplete k' h
          rcases a2 vw hvw with h' | h'
          · exact Or.inr (hid ▸ h')
          · exact Or.inl (hid ▸ h')
  · rw [if_neg hlen]
    refine ⟨hc, ?_⟩
    intro j hj s' hs' k hk
    obtain ⟨s, hs, _, hw⟩ := hsurf j hj
    rw [hs'] at hs
    injection hs with hs
    rw [hs] at hk
    rcases hw k hk with h | h
    · exact h
    · obtain ⟨vw, hvw, _⟩ := hcomplete k h
      have : vws = [] := by
        cases vws with
        | nil => rfl
        | cons _ _ => simp at hlen
      rw [this] at hvw
      exact absurd hvw (List.not_mem_nil _)

/-- Word references stay consistent under `enableWordsRef` when the database
returns the words asked for and `findNN` names words of the dictionary. -/
theorem enableWordsRef_wordRefsConsistent (e : Env T I) (m : Memory T I) (ids : List Int)
    (ha : WordsAvailable e) (hc : WordRefsConsistent m) :
    WordRefsConsistent (enableWordsRef e m ids) := by
  unfold enableWordsRef
  have hsurf : ∀ j ∈ (enableWordsRefCollect m ids ([], [])).1,
      ∃ s, m._getSignature j = some s ∧ s.enabled = false ∧
        ∀ k ∈ s.words, (m.vwd.getWord k).isSome = true ∨
          k ∈ (enableWordsRefCollect m ids ([], [])).2 := by
    intro j hj
    rcases enableWordsRefCollect_spec m ids ([], []) j hj with h | h
    · exact absurd h (List.not_mem_nil _)
    · exact h
  obtain ⟨h1, h2⟩ := enableWordsRefLoad_spec e m _ _ ha hc hsurf
  exact enableWordsRefActivate_foldl _ _ h2 h1

/-- Word references stay consistent under `copyData`. -/
theorem copyData_wordRefsConsistent (e : Env T I) (m m' : Memory T I) (fromId toId : Int)
    (h : copyData e m fromId toId = Except.ok m')
    (ha : WordsAvailable e) (hc : WordRefsConsistent m) : WordRefsConsistent m' := by
  unfold copyData at h
  simp only [bind, Except.bind, pure, Except.pure] at h
  split at h
  · exact Except.noConfusion h
  · rename_i toS hto
    have hid : toS.id = toId := getSignature_id (deref_eq_ok.1 hto)
    rw [hid] at h
    split at h
    · exact Except.noConfusion h
    · rename_i from1 _
      split at h
      · exact Except.noConfusion h
      · rename_i from2 _
        injection h with h
        rw [← h]
        have h1 := disableWordsRef_wordRefsConsistent m toId hc
        have h2 := wordRefsConsistent_modify_disabled (m.disableWordsRef toId) toId
          (fun s => { s with words := from1.words }) (fun _ => rfl) (fun _ => rfl)
          (disableWordsRef_disabled m toId) h1
        have h3 := enableWordsRef_wordRefsConsistent e _ [toId] ha h2
        refine wordRefsConsistent_of_sameWords ?_ h3
        refine sameWords_modifySignature _ _ _ ?_ ?_
        · intro _; rfl
        · intro _; rfl

end Memory

/-! ## Word references under `moveToTrash`, `forget` and `reactivateSignatures` -/

namespace Memory

variable {T I : Type}

theorem refs_moveToTrashWords (ks : List Int) (acc : VWDictionary × List Int) (w : Int) :
    (moveToTrashWords ks acc).1.refs w = acc.1.refs w := by
  induction ks generalizing acc with
  | nil => rfl
  | cons k rest ih =>
    obtain ⟨d, deleted⟩ := acc
    unfold moveToTrashWords
    cases hu : d.getUnusedWord k with
    | none => exact ih _
    | some v =>
      simp only []
      rw [ih]
      simp only []
      unfold VWDictionary.getUnusedWord at hu
      cases hg : d.getWord k with
      | none => rw [hg] at hu; exact Option.noConfusion hu
      | some v' =>
        rw [hg] at hu
        simp only [Option.filter] at hu
        split at hu
        · rename_i hempty
          injection hu with hu
          have hid : v.id = k := by rw [← hu]; exact VWDictionary.getWord_id hg
          unfold VWDictionary.refs
          rw [VWDictionary.getWord_removeWords]
          by_cases hw : w = k
          · rw [hw, hg]
            simp only [hid, List.contains_cons, beq_self_eq_true, Bool.true_or, if_true]
            have : v'.references = [] := by simpa using hempty
            rw [this]
            rfl
          · have : [v.id].contains w = false := by
              rw [hid]
              simp [hw]
            rw [this]
            rfl
        · exact Option.noConfusion hu

theorem moveToTrashDictionary_wordRefsConsistent (m : Memory T I) (s1 : Signature T I)
    ( keep : Bool) (hc : WordRefsConsistent m) :
    WordRefsConsistent (moveToTrashDictionary m s1 keep).1 := by
  unfold moveToTrashDictionary
  split
  · intro wordId i
    rw [setVwd_vwd, refs_moveToTrashWords]
    exact hc wordId i
  · exact hc

theorem getSignature_moveToTrashDictionary (m : Memory T I) (s1 : Signature T I) ( keep : Bool)
    (i : Int) : (moveToTrashDictionary m s1 keep).1._getSignature i = m._getSignature i := by
  unfold moveToTrashDictionary
  split <;> rfl

theorem getSignature_moveToTrashErase (m : Memory T I) (sId i : Int) :
    (moveToTrashErase m sId)._getSignature i = if i = sId then none else m._getSignature i := by
  unfold moveToTrashErase
  simp only []
  split
  · exact kfind_kerase Signature.id
  · exact kfind_kerase Signature.id

theorem vwd_moveToTrashErase (m : Memory T I) (sId : Int) :
    (moveToTrashErase m sId).vwd = m.vwd := by
  unfold moveToTrashErase
  simp only []
  split <;> rfl

/-- The removal of a signature that is not enabled keeps the word references
consistent. -/
theorem moveToTrashErase_wordRefsConsistent (m : Memory T I) (sId : Int)
    (hd : ∀ s, m._getSignature sId = some s → s.enabled = false)
    (hc : WordRefsConsistent m) : WordRefsConsistent (moveToTrashErase m sId) := by
  intro wordId i
  rw [vwd_moveToTrashErase, hc wordId i]
  by_cases hi : i = sId
  · subst hi
    have hn : (moveToTrashErase m i)._getSignature i = none := by
      rw [getSignature_moveToTrashErase, if_pos rfl]
    refine iff_of_false ?_ (not_cites_of_getSignature_none hn _)
    cases hs : m._getSignature i with
    | none => exact not_cites_of_getSignature_none hs _
    | some s =>
      rw [cites_iff_of_getSignature hs, hd s hs]
      simp
  · have hn : (moveToTrashErase m sId)._getSignature i = m._getSignature i := by
      rw [getSignature_moveToTrashErase, if_neg hi]
    exact (cites_congr hn wordId).symm

/-- Word references stay consistent under `moveToTrash`, and afterwards no word
holds a reference to the location. -/
theorem moveToTrashFull_wordRefsConsistent (e : Env T I) (m : Memory T I) (sId : Int)
    ( keep : Bool) (r : Memory T I × List Int)
    (h : moveToTrashFull e m sId keep = Except.ok r) (hc : WordRefsConsistent m) :
    WordRefsConsistent r.1 ∧ r.1._getSignature sId = none := by
  unfold moveToTrashFull at h
  cases hs : m._getSignature sId with
  | none =>
    rw [hs] at h
    injection h with h
    rw [← h]
    exact ⟨hc, hs⟩
  | some s =>
    rw [hs] at h
    have hid : s.id = sId := getSignature_id hs
    obtain ⟨m1, h1, h⟩ := bind_eq_ok.1 h
    obtain ⟨s1, _, h⟩ := bind_eq_ok.1 h
    injection h with h
    rw [← h, hid]
    have c1 := wordRefsConsistent_of_sameWords (sameWords_moveToTrashLinks e m m1 s keep h1) hc
    have c2 := disableWordsRef_wordRefsConsistent m1 sId c1
    have c3 := moveToTrashDictionary_wordRefsConsistent (m1.disableWordsRef sId) s1 keep c2
    have hd : ∀ s', (moveToTrashDictionary (m1.disableWordsRef sId) s1 keep).1._getSignature sId =
        some s' → s'.enabled = false := by
      intro s' hs'
      rw [getSignature_moveToTrashDictionary] at hs'
      exact disableWordsRef_disabled m1 sId s' hs'
    have c4 := moveToTrashErase_wordRefsConsistent _ sId hd c3
    have hsw := sameWords_trans (sameWords_moveToTrashLast
      (moveToTrashErase (moveToTrashDictionary (m1.disableWordsRef sId) s1 keep).1 sId) sId)
      (sameWords_moveToTrashSave e _ s1 keep)
    refine ⟨wordRefsConsistent_of_sameWords hsw c4, ?_⟩
    have hn : (moveToTrashErase (moveToTrashDictionary (m1.disableWordsRef sId) s1 keep).1
        sId)._getSignature sId = none := by
      rw [getSignature_moveToTrashErase, if_pos rfl]
    have := hsw.2 sId
    rw [hn] at this
    cases hf : (moveToTrashSave e (moveToTrashLast (moveToTrashErase (moveToTrashDictionary
        (m1.disableWordsRef sId) s1 keep).1 sId) sId) s1 keep)._getSignature sId with
    | none => rfl
    | some _ => rw [hf] at this; exact Option.noConfusion this

theorem moveToTrash_wordRefsConsistent (e : Env T I) (m m' : Memory T I) (sId : Int)
    ( keep : Bool) (h : moveToTrash e m sId keep = Except.ok m') (hc : WordRefsConsistent m) :
    WordRefsConsistent m' ∧ ∀ wordId, sId ∉ m'.vwd.refs wordId := by
  unfold moveToTrash at h
  obtain ⟨r, hr, h⟩ := bind_eq_ok.1 h
  injection h with h
  rw [← h]
  obtain ⟨h1, h2⟩ := moveToTrashFull_wordRefsConsistent e m sId keep r hr hc
  refine ⟨h1, ?_⟩
  intro wordId hmem
  exact not_cites_of_getSignature_none h2 wordId ((h1 wordId sId).1 hmem)

theorem forgetAll_wordRefsConsistent (e : Env T I) (ids : List Int) (m m' : Memory T I)
    (h : forgetAll e ids m = Except.ok m') (hc : WordRefsConsistent m) :
    WordRefsConsistent m' := by
  induction ids generalizing m with
  | nil =>
    unfold forgetAll at h
    injection h with h
    rw [← h]
    exact hc
  | cons sId rest ih =>
    unfold forgetAll at h
    obtain ⟨m1, h1, h⟩ := bind_eq_ok.1 h
    exact ih m1 h (moveToTrash_wordRefsConsistent e m m1 sId true h1 hc).1

theorem forgetByWords_wordRefsConsistent (e : Env T I) (ignoredIds : List Int) (newWords : Int)
    (fuel : Nat) (wordsRemoved : Int) (removed : List Int) (m : Memory T I)
    (r : List Int × Memory T I)
    (h : forgetByWords e ignoredIds newWords fuel wordsRemoved removed m = Except.ok r)
    (hc : WordRefsConsistent m) : WordRefsConsistent r.2 := by
  induction fuel generalizing wordsRemoved removed m with
  | zero =>
    unfold forgetByWords at h
    injection h with h
    rw [← h]
    exact hc
  | succ fuel ih =>
    unfold forgetByWords at h
    split at h
    · obtain ⟨l, _, h⟩ := bind_eq_ok.1 h
      split at h
      · obtain ⟨m1, h1, h⟩ := bind_eq_ok.1 h
        exact ih _ _ m1 h (moveToTrash_wordRefsConsistent e m m1 _ true h1 hc).1
      · injection h with h
        rw [← h]
        exact hc
    · injection h with h
      rw [← h]
      exact hc

theorem forget_wordRefsConsistent (e : Env T I) (m : Memory T I) (ignoredIds : List Int)
    (r : List Int × Memory T I) (h : forget e m ignoredIds = Except.ok r)
    (hc : WordRefsConsistent m) : WordRefsConsistent r.2 := by
  unfold forget at h
  split at h
  · exact forgetByWords_wordRefsConsistent _ _ _ _ _ _ _ _ h hc
  · obtain ⟨l, _, h⟩ := bind_eq_ok.1 h
    obtain ⟨m1, h1, h⟩ := bind_eq_ok.1 h
    injection h with h
    rw [← h]
    exact forgetAll_wordRefsConsistent e l m m1 h1 hc

theorem addSignatureToWmFromLTM_wordRefsConsistent (m : Memory T I) (s : Signature T I)
    (now : Rat) (hs : s.enabled = false) (hc : WordRefsConsistent m) :
    WordRefsConsistent (m.addSignatureToWmFromLTM s now) := by
  intro wordId i
  have hv : (m.addSignatureToWmFromLTM s now).vwd = m.vwd := rfl
  have hg : (m.addSignatureToWmFromLTM s now)._getSignature i =
      if khas Signature.id m.signatures s.id = true then m._getSignature i
      else if i = s.id then some s else m._getSignature i :=
    kfind_kinsert Signature.id
  rw [hv, hc wordId i]
  by_cases hk : khas Signature.id m.signatures s.id = true
  · rw [if_pos hk] at hg
    exact (cites_congr hg wordId).symm
  · rw [if_neg hk] at hg
    by_cases hi : i = s.id
    · rw [if_pos hi] at hg
      have hn : m._getSignature i = none := by
        rw [hi]
        cases h' : m._getSignature s.id with
        | none => rfl
        | some _ =>
          exfalso
          apply hk
          rw [khas_eq_isSome]
          show (m._getSignature s.id).isSome = true
          rw [h']
          rfl
      rw [cites_iff_of_getSignature hg, hs]
      simp only [Bool.false_eq_true, false_and, iff_false]
      exact not_cites_of_getSignature_none hn _
    · rw [if_neg hi] at hg
      exact (cites_congr hg wordId).symm

theorem reactivateInsert_wordRefsConsistent (clock : Nat → Rat) (l : List (Signature T I))
    (k : Nat) (m : Memory T I) (hl : ∀ s ∈ l, s.enabled = false) (hc : WordRefsConsistent m) :
    WordRefsConsistent (reactivateInsert clock l k m) := by
  induction l generalizing k m with
  | nil => exact hc
  | cons s rest ih =>
    unfold reactivateInsert
    exact ih (k + 1) _ (fun s' hs' => hl s' (List.mem_cons_of_mem _ hs'))
      (addSignatureToWmFromLTM_wordRefsConsistent m s (clock k) (hl s (List.mem_cons_self _ _)) hc)

theorem reactivateSignatures_wordRefsConsistent (e : Env T I) (m : Memory T I) (ids : List Int)
    (maxLoaded : Nat) (clock : Nat → Rat) (ha : WordsAvailable e) (hd : LoadsDisabled e)
    (hc : WordRefsConsistent m) :
    WordRefsConsistent (reactivateSignatures e m ids maxLoaded clock).2 := by
  unfold reactivateSignatures
  simp only []
  apply enableWordsRef_wordRefsConsistent e _ _ ha
  apply reactivateInsert_wordRefsConsistent
  · intro s hs
    split at hs
    · exact hd _ s hs
    · exact absurd hs (List.not_mem_nil _)
  · exact hc

end Memory

namespace Memory

variable {T I : Type}

theorem enableWordsRefCollect_present (m : Memory T I) (ids : List Int)
    (acc : List Int × List Int)
    (hp : ∀ j ∈ ids, ∀ s, m._getSignature j = some s →
      ∀ k ∈ s.words, (m.vwd.getWord k).isSome = true) :
    (enableWordsRefCollect m ids acc).2 = acc.2 := by
  induction ids generalizing acc with
  | nil => rfl
  | cons i rest ih =>
    obtain ⟨surf, missing⟩ := acc
    have hrest : ∀ j ∈ rest, ∀ s, m._getSignature j = some s →
        ∀ k ∈ s.words, (m.vwd.getWord k).isSome = true :=
      fun j hj => hp j (List.mem_cons_of_mem _ hj)
    unfold enableWordsRefCollect
    cases hs : m._getSignature i with
    | none => exact ih _ hrest
    | some ss =>
      simp only []
      split
      · rw [ih _ hrest]
        simp only []
        have hnil : (uUniqueKeys ss.words).filter
            (fun k => (m.vwd.getWord k).isNone && (m.vwd.getUnusedWord k).isNone) = [] := by
          rw [List.filter_eq_nil_iff]
          intro k hk
          have hk' : k ∈ ss.words := by simpa [uUniqueKeys] using hk
          have := hp i (List.mem_cons_self _ _) ss hs k hk'
          cases hg : m.vwd.getWord k with
          | none => rw [hg] at this; exact absurd this (by simp)
          | some _ => simp
        rw [hnil]
        rfl
      · exact ih _ hrest

/-- Without words to load, the middle part of `enableWordsRef` does nothing. -/
theorem enableWordsRefLoad_nil (e : Env T I) (m : Memory T I) (surf : List Int) :
    enableWordsRefLoad e m surf [] = m := by
  unfold enableWordsRefLoad
  simp

/-- Word references stay consistent under `enableWordsRef` when the words of
the listed signatures are all in the dictionary. -/
theorem enableWordsRef_wordRefsConsistent_of_present (e : Env T I) (m : Memory T I)
    (ids : List Int)
    (hp : ∀ j ∈ ids, ∀ s, m._getSignature j = some s →
      ∀ k ∈ s.words, (m.vwd.getWord k).isSome = true)
    (hc : WordRefsConsistent m) : WordRefsConsistent (enableWordsRef e m ids) := by
  unfold enableWordsRef
  have hnil := enableWordsRefCollect_present m ids ([], []) hp
  simp only [] at hnil
  rw [hnil, enableWordsRefLoad_nil]
  apply enableWordsRefActivate_foldl _ _ _ hc
  intro j hj s hs k hk
  rcases enableWordsRefCollect_spec m ids ([], []) j hj with h | ⟨s', hs', _, hw⟩
  · exact absurd h (List.not_mem_nil _)
  · rw [hs] at hs'
    injection hs' with hs'
    rw [hs'] at hk
    rcases hw k hk with h | h
    · exact h
    · rw [hnil] at h
      exact absurd h (List.not_mem_nil _)

theorem getWord_isSome_removeAll (ks : List Int) (d : VWDictionary) (i w : Int) :
    ((ks.foldl (fun d k => d.removeAllWordRef k i) d).getWord w).isSome = (d.getWord w).isSome := by
  induction ks generalizing d with
  | nil => rfl
  | cons k rest ih =>
    rw [List.foldl_cons, ih, VWDictionary.getWord_removeAllWordRef]
    cases d.getWord w <;> rfl

theorem getWord_isSome_disableWordsRef (m : Memory T I) (k w : Int) :
    ((m.disableWordsRef k).vwd.getWord w).isSome = (m.vwd.getWord w).isSome := by
  unfold disableWordsRef
  cases m._getSignature k with
  | none => rfl
  | some ss =>
    simp only []
    split
    · rw [modifySignature_vwd, setVwd_vwd, getWord_isSome_removeAll]
    · rfl

theorem words_disableWordsRef (m : Memory T I) (k i : Int) :
    ((m.disableWordsRef k)._getSignature i).map Signature.words =
      (m._getSignature i).map Signature.words := by
  unfold disableWordsRef
  cases m._getSignature k with
  | none => rfl
  | some ss =>
    simp only []
    split
    · rw [getSignature_modify, getSignature_setVwd, Option.map_map]
      · congr 1
        funext a
        show (if a.id = ss.id then _ else a).words = a.words
        split <;> rfl
      · intro _; rfl
    · rfl

/-- Word references stay consistent under `copyData` when the words of the
source signature are in the dictionary. -/
theorem copyData_wordRefsConsistent_of_present (e : Env T I) (m m' : Memory T I)
    (fromId toId : Int) (h : copyData e m fromId toId = Except.ok m')
    (hp : ∀ f, m._getSignature fromId = some f →
      ∀ k ∈ f.words, (m.vwd.getWord k).isSome = true)
    (hc : WordRefsConsistent m) : WordRefsConsistent m' := by
  unfold copyData at h
  simp only [bind, Except.bind, pure, Except.pure] at h
  split at h
  · exact Except.noConfusion h
  · rename_i toS hto
    have hid : toS.id = toId := getSignature_id (deref_eq_ok.1 hto)
    rw [hid] at h
    split at h
    · exact Except.noConfusion h
    · rename_i from1 hfrom1
      split at h
      · exact Except.noConfusion h
      · rename_i from2 _
        injection h with h
        rw [← h]
        have h1 := disableWordsRef_wordRefsConsistent m toId hc
        have h2 := wordRefsConsistent_modify_disabled (m.disableWordsRef toId) toId
          (fun s => { s with words := from1.words }) (fun _ => rfl) (fun _ => rfl)
          (disableWordsRef_disabled m toId) h1
        have hfw : ∀ k ∈ from1.words, ((m.disableWordsRef toId).vwd.getWord k).isSome = true := by
          intro k hk
          rw [getWord_isSome_disableWordsRef]
          have hw := words_disableWordsRef m toId fromId
          rw [deref_eq_ok.1 hfrom1] at hw
          cases hf : m._getSignature fromId with
          | none => rw [hf] at hw; exact Option.noConfusion hw
          | some f =>
            rw [hf] at hw
            simp only [Option.map_some', Option.some.injEq] at hw
            rw [hw] at hk
            exact hp f hf k hk
        have h3 := enableWordsRef_wordRefsConsistent_of_present e
          ((m.disableWordsRef toId).modifySignature toId
            (fun s => { s with words := from1.words })) [toId] ?_ h2
        · refine wordRefsConsistent_of_sameWords ?_ h3
          refine sameWords_modifySignature _ _ _ ?_ ?_
          · intro _; rfl
          · intro _; rfl
        · intro j hj s hs k hk
          rw [List.mem_singleton] at hj
          rw [hj, getSignature_modify_self, Option.map_eq_some'] at hs
          · obtain ⟨t, _, ht⟩ := hs
            rw [← ht] at hk
            rw [modifySignature_vwd]
            exact hfw k hk
          · intro _; rfl

end Memory

/-- The environment `archiveEnv` meets the contract `WordsAvailable`. -/
theorem wordsAvailable_archiveEnv : WordsAvailable archiveEnv := by
  refine ⟨rfl, ?_, ?_⟩
  · intro ids
    refine ⟨?_, ?_⟩
    · intro k hk
      exact ⟨_, List.mem_map.2 ⟨k, hk, rfl⟩, rfl⟩
    · intro vw hvw
      obtain ⟨k, _, hk⟩ := List.mem_map.1 hvw
      rw [← hk]
  · intro d vws a ha hpos
    obtain ⟨_, _, hk⟩ := List.mem_map.1 ha
    omega

/-- The word references of `wordMemory` are consistent. -/
theorem wordRefsConsistent_wordMemory : WordRefsConsistent wordMemory := by
  intro w i
  unfold Memory.cites
  by_cases h7 : w = 7
  · subst h7
    by_cases h1 : i = 1
    · subst h1
      simp only [show wordMemory.vwd.refs 7 = [1] from rfl, List.mem_singleton, true_iff]
      exact ⟨_, rfl, rfl, by decide⟩
    · simp only [show wordMemory.vwd.refs 7 = [1] from rfl, List.mem_singleton, h1, false_iff]
      rintro ⟨s, hs, he, _⟩
      have hid := Memory.getSignature_id hs
      have hm := kfind_mem Signature.id hs
      simp only [wordMemory, lineMemory, List.mem_cons, List.mem_singleton, List.not_mem_nil,
        or_false] at hm
      rcases hm with rfl | rfl
      · exact h1 hid.symm
      · exact absurd he (by decide)
  · by_cases h8 : w = 8
    · subst h8
      by_cases h1 : i = 1
      · subst h1
        simp only [show wordMemory.vwd.refs 8 = [1] from rfl, List.mem_singleton, true_iff]
        exact ⟨_, rfl, rfl, by decide⟩
      · simp only [show wordMemory.vwd.refs 8 = [1] from rfl, List.mem_singleton, h1, false_iff]
        rintro ⟨s, hs, he, _⟩
        have hid := Memory.getSignature_id hs
        have hm := kfind_mem Signature.id hs
        simp only [wordMemory, lineMemory, List.mem_cons, List.mem_singleton, List.not_mem_nil,
          or_false] at hm
        rcases hm with rfl | rfl
        · exact h1 hid.symm
        · exact absurd he (by decide)
    · have hrefs : wordMemory.vwd.refs w = [] := by
        apply VWDictionary.refs_of_getWord_none
        unfold VWDictionary.getWord
        rw [kfind_none_iff]
        intro a ha
        simp only [wordMemory, lineMemory, List.mem_cons, List.mem_singleton, List.not_mem_nil,
          or_false] at ha
        rcases ha with rfl | rfl
        · exact fun h => h7 h.symm
        · exact fun h => h8 h.symm
      rw [hrefs]
      simp only [List.not_mem_nil, false_iff]
      rintro ⟨s, hs, he, hw⟩
      have hm := kfind_mem Signature.id hs
      simp only [wordMemory, lineMemory, List.mem_cons, List.mem_singleton, List.not_mem_nil,
        or_false] at hm
      rcases hm with rfl | rfl
      · simp only [List.mem_cons, List.mem_singleton, List.not_mem_nil, or_false] at hw
        rcases hw with h | h
        · exact h7 h
        · exact h8 h
      · exact absurd he (by decide)

/-- Claim C3: word-reference consistency is an invariant. With `refs(w)` the
signature ids in the inverted-index entry of the word `w` (none for a word that
is not in the dictionary), if every word `w` satisfies `refs(w)` = the enabled
signatures in memory that cite `w` (`WordRefsConsistent`), then the same holds
after `moveToTrash`, after which no word holds a reference to the location,
after `forget`, after `disableWordsRef`, after `copyData` and `enableWordsRef`
when the database returns the words asked for and `findNN` names words of the
dictionary (`WordsAvailable`) or the words to register are in the dictionary
already, and after `reactivateSignatures` when, in addition, the database
returns signatures that are not enabled yet. -/
theorem word_references_consistent {T I : Type} (e : Env T I) (m : Memory T I)
    (hc : WordRefsConsistent m) :
    (∀ sId keepLinkedToGraph m', Memory.moveToTrash e m sId keepLinkedToGraph = Except.ok m' →
      WordRefsConsistent m' ∧ ∀ wordId, sId ∉ m'.vwd.refs wordId) ∧
    (∀ ignoredIds r, Memory.forget e m ignoredIds = Except.ok r → WordRefsConsistent r.2) ∧
    (∀ fromId toId m', Memory.copyData e m fromId toId = Except.ok m' →
      (WordsAvailable e ∨ ∀ f, m._getSignature fromId = some f →
        ∀ k ∈ f.words, (m.vwd.getWord k).isSome = true) →
      WordRefsConsistent m') ∧
    (∀ signatureId, WordRefsConsistent (m.disableWordsRef signatureId)) ∧
    (∀ signatureIds,
      (WordsAvailable e ∨ ∀ j ∈ signatureIds, ∀ s, m._getSignature j = some s →
        ∀ k ∈ s.words, (m.vwd.getWord k).isSome = true) →
      WordRefsConsistent (Memory.enableWordsRef e m signatureIds)) ∧
    (∀ ids maxLoaded clock, WordsAvailable e → LoadsDisabled e →
      WordRefsConsistent (Memory.reactivateSignatures e m ids maxLoaded clock).2) := by
  refine ⟨?_, ?_, ?_, ?_, ?_, ?_⟩
  · intro sId keep m' h
    exact Memory.moveToTrash_wordRefsConsistent e m m' sId keep h hc
  · intro ignoredIds r h
    exact Memory.forget_wordRefsConsistent e m ignoredIds r h hc
  · intro fromId toId m' h ha
    rcases ha with ha | ha
    · exact Memory.copyData_wordRefsConsistent e m m' fromId toId h ha hc
    · exact Memory.copyData_wordRefsConsistent_of_present e m m' fromId toId h ha hc
  · intro signatureId
    exact Memory.disableWordsRef_wordRefsConsistent m signatureId hc
  · intro signatureIds ha
    rcases ha with ha | ha
    · exact Memory.enableWordsRef_wordRefsConsistent e m signatureIds ha hc
    · exact Memory.enableWordsRef_wordRefsConsistent_of_present e m signatureIds ha hc
  · intro ids maxLoaded clock ha hd
    exact Memory.reactivateSignatures_wordRefsConsistent e m ids maxLoaded clock ha hd hc

/-- Witness of C3: the word references of `wordMemory` are consistent, and
they are so again after `moveToTrash` of node 1 without its links, which
leaves the dictionary without words. -/
theorem word_references_consistent_witness :
    WordRefsConsistent wordMemory ∧
    ∃ m', Memory.moveToTrash archiveEnv wordMemory 1 false = Except.ok m' ∧
      m'.vwd.visualWords = [] ∧ WordRefsConsistent m' ∧ ∀ wordId, 1 ∉ m'.vwd.refs wordId :=
  ⟨wordRefsConsistent_wordMemory, _, rfl, rfl,
    (word_references_consistent archiveEnv wordMemory wordRefsConsistent_wordMemory).1 1 false _
      rfl⟩

namespace Memory

variable {T I : Type}

/-- The two ways `moveSignatureToWMFromSTM` returns: the node is reduced and
trashed, or the STM head moves to the working memory. -/
theorem moveSignatureToWMFromSTM_cases (e : Env T I) (m : Memory T I) (id reducedTo : Int)
    (now : Rat) (s : Signature T I) (r : Memory T I × Int)
    (hs : m._getSignature id = some s)
    (h : moveSignatureToWMFromSTM e m id reducedTo now = Except.ok r) :
    ((e.reduceGraph && (s.links.find? (isReductionLink s.id)).isSome &&
        s.label.length == 0) = true ∧
      reduceNode e m s = Except.ok r.1 ∧ r.2 = reductionTarget e s reducedTo) ∨
    ((e.reduceGraph && (s.links.find? (isReductionLink s.id)).isSome &&
        s.label.length == 0) = false ∧
      ∃ first, m.stMem.head? = some first ∧
        r.1 = (m.setWorkingMem (kinsert Prod.fst (first, now) m.workingMem)).setStMem
          (kerase selfKey first m.stMem) ∧
        r.2 = reductionTarget e s reducedTo) := by
  unfold moveSignatureToWMFromSTM at h
  obtain ⟨_, _, h⟩ := bind_eq_ok.1 h
  rw [hs] at h
  simp only [] at h
  split at h
  · rename_i hc
    obtain ⟨m1, h1, h⟩ := bind_eq_ok.1 h
    injection h with h
    rw [← h]
    exact Or.inl ⟨hc, h1, rfl⟩
  · rename_i hc
    cases hh : m.stMem.head? with
    | none =>
      rw [hh] at h
      exact Except.noConfusion h
    | some first =>
      rw [hh] at h
      injection h with h
      rw [← h]
      exact Or.inr ⟨by simpa using hc, first, rfl, rfl, rfl⟩

theorem not_mem_kerase_selfKey (l : List Int) (k : Int) : k ∉ kerase selfKey k l :=
  fun h => (mem_kerase_selfKey.1 h).2 rfl

theorem trashed_absent {k : Int} {m m' : Memory T I} (h : Trashed k m m') :
    k ∉ m'.stMem ∧ k ∉ m'.wmIds ∧ m'._getSignature k = none := by
  refine ⟨?_, ?_, ?_⟩
  · rw [h.1]
    exact not_mem_kerase_selfKey _ _
  · rw [h.wmIds_eq]
    exact not_mem_kerase_selfKey _ _
  · rw [getSignature_eq_none_iff, h.2.2.1]
    exact not_mem_kerase_selfKey _ _

end Memory

/-- Claim C12 fails on the code: with graph reduction enabled and the STM head 2
linked by a GlobalClosure link without user data to the older node 1,
`moveSignatureToWMFromSTM(2, &reducedTo)` sets `reducedTo` to 1 but, the node
carrying a label, does not collapse it: node 2 is in the working memory and in
the signature table afterwards. With a NeighborMerged link in place of the
GlobalClosure link the unlabelled node is not collapsed either and `reducedTo`
stays 0. -/
theorem moveSignatureToWMFromSTM_labelled_not_collapsed :
    ((Memory.moveSignatureToWMFromSTM (lineEnv true true 1)
        (reductionMemory "kitchen" LinkType.kGlobalClosure) 2 0 5).toOption.map
      (fun r => (r.2, r.1.stMem, r.1.workingMem.map Prod.fst,
        r.1.signatures.map Signature.id))) = some (1, [3], [-1, 1, 2], [1, 2, 3]) ∧
    ((Memory.moveSignatureToWMFromSTM (lineEnv true true 1)
        (reductionMemory "" LinkType.kNeighborMerged) 2 0 5).toOption.map
      (fun r => (r.2, r.1.stMem, r.1.workingMem.map Prod.fst,
        r.1.signatures.map Signature.id))) = some (0, [3], [-1, 1, 2], [1, 2, 3]) := by
  constructor <;> decide

/-- Claim C12, amended: for the STM head `h` with graph reduction enabled, when
`moveSignatureToWMFromSTM(h, &reducedTo)` returns (with `reducedTo` 0 on
entry): if `h` carries no label and has a link to a peer with a lower id, of a
type other than Neighbor, NeighborMerged, Undef and VirtualClosure and without
user data, then `h` is collapsed (in none of STM, working memory and signature
table) and `reducedTo` is the id of the first such peer in key order, which is
lower than `h`; if `h` has no such link, `reducedTo` is still 0, `h` is in the
working memory and no longer in the STM and the table is untouched; a labelled
`h` is never collapsed: it is in the working memory and no longer in the STM,
the table untouched. -/
theorem moveSignatureToWMFromSTM_reduction {T I : Type} (e : Env T I) (m : Memory T I)
    (h : Int) (now : Rat) (s : Signature T I) (r : Memory T I × Int)
    (hred : e.reduceGraph = true) (hhead : m.stMem.head? = some h)
    (hs : m._getSignature h = some s)
    (hr : Memory.moveSignatureToWMFromSTM e m h 0 now = Except.ok r) :
    (∀ l, s.links.find? (Memory.isReductionLink h) = some l → s.label.length = 0 →
      r.2 = l.to_ ∧ l.to_ < h ∧ h ∉ r.1.stMem ∧ h ∉ r.1.wmIds ∧
      r.1._getSignature h = none) ∧
    (s.links.find? (Memory.isReductionLink h) = none →
      r.2 = 0 ∧ h ∈ r.1.wmIds ∧ h ∉ r.1.stMem ∧ r.1.signatures = m.signatures) ∧
    (s.label.length ≠ 0 →
      h ∈ r.1.wmIds ∧ h ∉ r.1.stMem ∧ r.1.signatures = m.signatures) := by
  have hid : s.id = h := Memory.getSignature_id hs
  have hmoved : ∀ first, m.stMem.head? = some first →
      r.1 = (m.setWorkingMem (kinsert Prod.fst (first, now) m.workingMem)).setStMem
        (kerase selfKey first m.stMem) →
      h ∈ r.1.wmIds ∧ h ∉ r.1.stMem ∧ r.1.signatures = m.signatures := by
    intro first hf hr1
    rw [hhead] at hf
    injection hf with hf
    rw [hr1, ← hf]
    refine ⟨?_, Memory.not_mem_kerase_selfKey _ _, rfl⟩
    show h ∈ (kinsert Prod.fst (h, now) m.workingMem).map Prod.fst
    exact (mem_keys_kinsert Prod.fst).2 (Or.inr rfl)
  rcases Memory.moveSignatureToWMFromSTM_cases e m h 0 now s r hs hr with
    ⟨hc, hnode, htarget⟩ | ⟨hc, first, hf, hr1, htarget⟩
  · rw [hid] at hc
    simp only [Bool.and_eq_true, beq_iff_eq] at hc
    refine ⟨?_, ?_, ?_⟩
    · intro l hl _
      have ht := Memory.trashed_absent (Memory.reduceNode_trashed e m r.1 s hnode)
      rw [hid] at ht
      have hlt : l.to_ < h := by
        have := List.find?_some hl
        simp only [Memory.isReductionLink, Bool.and_eq_true, decide_eq_true_eq] at this
        exact this.1.1.1.1.1
      refine ⟨?_, hlt, ht⟩
      rw [htarget]
      unfold Memory.reductionTarget
      rw [hred, if_pos rfl, hid, hl]
    · intro hn
      rw [hn] at hc
      exact absurd hc.1.2 (by simp)
    · intro hl
      exact absurd hc.2 hl
  · rw [hid] at hc
    refine ⟨?_, ?_, ?_⟩
    · intro l hl hlabel
      rw [hred, hl, hlabel] at hc
      exact absurd hc (by simp)
    · intro hn
      refine ⟨?_, hmoved first hf hr1⟩
      rw [htarget]
      unfold Memory.reductionTarget
      rw [hred, if_pos rfl, hid, hn]
    · intro _
      exact hmoved first hf hr1

/-- Witness of C12 (amended): the unlabelled STM head 2 with a GlobalClosure
link to the older node 1 is collapsed and `reducedTo` is 1. -/
theorem moveSignatureToWMFromSTM_reduction_witness :
    ∃ r, Memory.moveSignatureToWMFromSTM (lineEnv true true 1)
        (reductionMemory "" LinkType.kGlobalClosure) 2 0 5 = Except.ok r ∧
      r.2 = 1 ∧ (1 : Int) < 2 ∧ (2 : Int) ∉ r.1.stMem ∧ (2 : Int) ∉ r.1.wmIds ∧
      r.1._getSignature 2 = none :=
  ⟨_, rfl, (moveSignatureToWMFromSTM_reduction (lineEnv true true 1)
    (reductionMemory "" LinkType.kGlobalClosure) 2 5 _ _ rfl rfl rfl rfl).1
    (lineLink 2 1 LinkType.kGlobalClosure (some (-1))) rfl rfl⟩

/-- Claim C13 fails on the code: with `lastGlobalLoopClosureId` 0, two eligible
working-memory signatures of equal weight, node 1 last accessed at 10.7 and
node 2 at 10.2, `getRemovableSignatures(1, {})` returns node 1, not the node
with the smaller timestamp: the key stores the age in an `int`, both ages are
10 and the id decides. With the timestamps 11.7 and 10.2 node 2 comes first. -/
theorem getRemovableSignatures_truncates_age :
    Memory.getRemovableSignatures (lineEnv true false 2)
      (lineMemory [lineSignature 1 0 (some 0) [], lineSignature 2 0 (some 1) []] []
        [(-1, 0), (1, mkRat 107 10), (2, mkRat 102 10)]) 1 [] = Except.ok [1] ∧
    Memory.getRemovableSignatures (lineEnv true false 2)
      (lineMemory [lineSignature 1 0 (some 0) [], lineSignature 2 0 (some 1) []] []
        [(-1, 0), (1, mkRat 117 10), (2, mkRat 102 10)]) 1 [] = Except.ok [2] := by
  constructor <;> rfl

/-! ## The transfer policy -/

section Transfer

theorem mem_weightAgeIdInsert {k : WeightAgeIdKey} {v : Int} {l : List (WeightAgeIdKey × Int)}
    {x : WeightAgeIdKey × Int} (h : x ∈ weightAgeIdInsert k v l) : x = (k, v) ∨ x ∈ l := by
  induction l with
  | nil =>
    simp only [weightAgeIdInsert, List.mem_singleton] at h
    exact Or.inl h
  | cons b rest ih =>
    unfold weightAgeIdInsert at h
    split at h
    · rcases List.mem_cons.1 h with h | h
      · exact Or.inl h
      · exact Or.inr h
    · split at h
      · rcases List.mem_cons.1 h with h | h
        · exact Or.inr (h ▸ List.mem_cons_self _ _)
        · rcases ih h with h | h
          · exact Or.inl h
          · exact Or.inr (List.mem_cons_of_mem _ h)
      · exact Or.inr h

/-- The ids of the map after an insertion: as before, or with the new id
inserted at some place. -/
theorem ids_weightAgeIdInsert (k : WeightAgeIdKey) (v : Int) (l : List (WeightAgeIdKey × Int)) :
    (weightAgeIdInsert k v l).map Prod.snd = l.map Prod.snd ∨
    ∃ a b, l.map Prod.snd = a ++ b ∧ (weightAgeIdInsert k v l).map Prod.snd = a ++ v :: b := by
  induction l with
  | nil => exact Or.inr ⟨[], [], rfl, rfl⟩
  | cons c rest ih =>
    unfold weightAgeIdInsert
    split
    · exact Or.inr ⟨[], c.2 :: rest.map Prod.snd, rfl, rfl⟩
    · split
      · rcases ih with h | ⟨a, b, h1, h2⟩
        · left
          rw [List.map_cons, List.map_cons, h]
        · right
          refine ⟨c.2 :: a, b, ?_, ?_⟩
          · rw [List.map_cons, h1]
            rfl
          · rw [List.map_cons, h2]
            rfl
      · exact Or.inl rfl

theorem nodup_ids_weightAgeIdInsert (k : WeightAgeIdKey) (v : Int)
    (l : List (WeightAgeIdKey × Int)) (hl : (l.map Prod.snd).Nodup) (hv : v ∉ l.map Prod.snd) :
    ((weightAgeIdInsert k v l).map Prod.snd).Nodup := by
  rcases ids_weightAgeIdInsert k v l with h | ⟨a, b, h1, h2⟩
  · rw [h]
    exact hl
  · rw [h2]
    rw [h1] at hl hv
    exact List.nodup_middle.2 (List.nodup_cons.2 ⟨hv, hl⟩)

theorem selectStep_removable (lastId cur max : Int) (iter : WeightAgeIdKey × Int) (imm : Bool)
    (cnt : Int) (removable : List Int) :
    (selectStep lastId cur max iter imm cnt removable).1 = removable ∨
    (selectStep lastId cur max iter imm cnt removable).1 = removable ++ [iter.2] := by
  unfold selectStep
  split
  · split
    · exact Or.inr rfl
    · exact Or.inr rfl
  · split
    · exact Or.inr rfl
    · exact Or.inl rfl

/-- The second loop of `getRemovableSignatures` appends, in their order, some of
the candidates to the list it starts with. -/
theorem selectRemovable_sublist (lastId cur max : Int) (count : Nat)
    (cands : List (WeightAgeIdKey × Int)) (imm : Bool) (cnt : Int) (removable : List Int) :
    ∃ sub, sub.Sublist (cands.map Prod.snd) ∧
      selectRemovable lastId cur max count cands imm cnt removable = removable ++ sub := by
  induction cands generalizing imm cnt removable with
  | nil => exact ⟨[], List.Sublist.refl _, (List.append_nil _).symm⟩
  | cons iter rest ih =>
    unfold selectRemovable
    rcases selectStep_removable lastId cur max iter imm cnt removable with h | h
    · split
      · rw [h]
        exact ⟨[], List.nil_sublist _, (List.append_nil _).symm⟩
      · obtain ⟨sub, hs, he⟩ := ih (selectStep lastId cur max iter imm cnt removable).2.1
          (selectStep lastId cur max iter imm cnt removable).2.2
          (selectStep lastId cur max iter imm cnt removable).1
        rw [he, h]
        exact ⟨sub, List.Sublist.cons _ hs, rfl⟩
    · split
      · rw [h]
        refine ⟨[iter.2], ?_, rfl⟩
        rw [List.map_cons]
        exact List.Sublist.cons₂ _ (List.nil_sublist _)
      · obtain ⟨sub, hs, he⟩ := ih (selectStep lastId cur max iter imm cnt removable).2.1
          (selectStep lastId cur max iter imm cnt removable).2.2
          (selectStep lastId cur max iter imm cnt removable).1
        rw [he, h]
        refine ⟨iter.2 :: sub, ?_, ?_⟩
        · rw [List.map_cons]
          exact List.Sublist.cons₂ _ hs
        · rw [List.append_assoc]
          rfl

/-- The second loop of `getRemovableSignatures` stops at `count` ids. -/
theorem selectRemovable_length (lastId cur max : Int) (count : Nat)
    (cands : List (WeightAgeIdKey × Int)) (imm : Bool) (cnt : Int) (removable : List Int)
    (h : removable.length < count) :
    (selectRemovable lastId cur max count cands imm cnt removable).length ≤ count := by
  induction cands generalizing imm cnt removable with
  | nil =>
    unfold selectRemovable
    exact Nat.le_of_lt h
  | cons iter rest ih =>
    unfold selectRemovable
    split
    · rcases selectStep_removable lastId cur max iter imm cnt removable with h1 | h1
      · rw [h1]
        exact Nat.le_of_lt h
      · rw [h1, List.length_append]
        simp only [List.length_singleton]
        omega
    · rename_i hlt
      exact ih _ _ _ (by omega)

end Transfer

namespace Memory

variable {T I : Type}

theorem removalCandidate_mem (e : Env T I) (m : Memory T I) (ignoredIds : List Int)
    (last : Option (Signature T I)) (acc : List (WeightAgeIdKey × Int)) (it : Int × Rat)
    (x : WeightAgeIdKey × Int) (hx : x ∈ removalCandidate e m ignoredIds last acc it) :
    x ∈ acc ∨ (x.2 = it.1 ∧ 0 < it.1 ∧ it.1 ∉ ignoredIds ∧ it.1 ≠ m.lastGlobalLoopClosureId ∧
      (recentWmImmunized e m = true → ¬ it.1 > m.lastGlobalLoopClosureId) ∧
      ∃ s, m._getSignature it.1 = some s ∧ ∀ l ∈ s.links, l.to_ ∉ m.stMem) := by
  unfold removalCandidate at hx
  split at hx
  · exact Or.inl hx
  · rename_i hrecent
    split at hx
    · rename_i hc
      cases hs : m._getSignature it.1 with
      | none =>
        rw [hs] at hx
        exact Or.inl hx
      | some s =>
        rw [hs] at hx
        simp only [] at hx
        split at hx
        · exact Or.inl hx
        · rename_i hany
          rcases mem_weightAgeIdInsert hx with h | h
          · right
            simp only [Bool.or_eq_true, Bool.and_eq_true, decide_eq_true_eq, beq_iff_eq,
              not_or, not_and] at hrecent
            simp only [Bool.and_eq_true, decide_eq_true_eq, Bool.not_eq_true',
              List.contains_eq_any_beq, List.any_eq_false, beq_iff_eq] at hc
            refine ⟨?_, hc.1.1, ?_, hrecent.2, hrecent.1, s, rfl, ?_⟩
            · rw [h]
              exact getSignature_id hs
            · intro hmem
              exact hc.1.2 it.1 hmem rfl
            · intro l hl hmem
              apply hany
              rw [List.any_eq_true]
              exact ⟨l, hl, by simpa using hmem⟩
          · exact Or.inl h
    · exact Or.inl hx

theorem removalCandidates_foldl_mem (e : Env T I) (m : Memory T I) (ignoredIds : List Int)
    (last : Option (Signature T I)) (wm : List (Int × Rat)) (acc : List (WeightAgeIdKey × Int))
    (x : WeightAgeIdKey × Int) (hx : x ∈ wm.foldl (removalCandidate e m ignoredIds last) acc) :
    x ∈ acc ∨ (x.2 ∈ wm.map Prod.fst ∧ 0 < x.2 ∧ x.2 ∉ ignoredIds ∧
      x.2 ≠ m.lastGlobalLoopClosureId ∧
      (recentWmImmunized e m = true → ¬ x.2 > m.lastGlobalLoopClosureId) ∧
      ∃ s, m._getSignature x.2 = some s ∧ ∀ l ∈ s.links, l.to_ ∉ m.stMem) := by
  induction wm generalizing acc with
  | nil => exact Or.inl hx
  | cons it rest ih =>
    rw [List.foldl_cons] at hx
    rcases ih _ hx with h | ⟨h1, h2⟩
    · rcases removalCandidate_mem e m ignoredIds last acc it x h with h | ⟨h1, h2⟩
      · exact Or.inl h
      · right
        rw [h1]
        exact ⟨List.mem_cons_self _ _, h2⟩
    · right
      exact ⟨List.mem_cons_of_mem _ h1, h2⟩

theorem removalCandidates_foldl_nodup (e : Env T I) (m : Memory T I) (ignoredIds : List Int)
    (last : Option (Signature T I)) (wm : List (Int × Rat)) (acc : List (WeightAgeIdKey × Int))
    (hacc : (acc.map Prod.snd).Nodup) (hwm : (wm.map Prod.fst).Nodup)
    (hdisj : ∀ x ∈ acc, x.2 ∉ wm.map Prod.fst) :
    ((wm.foldl (removalCandidate e m ignoredIds last) acc).map Prod.snd).Nodup := by
  induction wm generalizing acc with
  | nil => exact hacc
  | cons it rest ih =>
    rw [List.foldl_cons]
    rw [List.map_cons, List.nodup_cons] at hwm
    apply ih _ _ hwm.2
    · intro x hx
      rcases removalCandidate_mem e m ignoredIds last acc it x hx with h | ⟨h, _⟩
      · intro hmem
        exact hdisj x h (List.mem_cons_of_mem _ hmem)
      · rw [h]
        exact hwm.1
    · unfold removalCandidate
      split
      · exact hacc
      · split
        · cases hs : m._getSignature it.1 with
          | none => exact hacc
          | some s =>
            simp only []
            split
            · exact hacc
            · apply nodup_ids_weightAgeIdInsert _ _ _ hacc
              intro hmem
              obtain ⟨x, hx, hx2⟩ := List.mem_map.1 hmem
              apply hdisj x hx
              rw [hx2, getSignature_id hs]
              exact List.mem_cons_self _ _
        · exact hacc

/-- What `getRemovableSignatures` returns: ids eligible for a transfer, none
twice when the keys of the working memory are distinct, and none above the
last global loop closure id when the recent working memory is immunized. -/
theorem getRemovableSignatures_spec (e : Env T I) (m : Memory T I) (count : Int)
    (ignoredIds ids : List Int)
    (h : getRemovableSignatures e m count ignoredIds = Except.ok ids) :
    (∀ id ∈ ids, Removable m ignoredIds id) ∧
    (m.wmIds.Nodup → ids.Nodup) ∧
    (recentWmImmunized e m = true → ∀ id ∈ ids, ¬ id > m.lastGlobalLoopClosureId) := by
  unfold getRemovableSignatures at h
  split at h
  · obtain ⟨last, _, h⟩ := bind_eq_ok.1 h
    injection h with h
    obtain ⟨sub, hsub, hsel⟩ := selectRemovable_sublist m.lastGlobalLoopClosureId
      (currentRecentWmSize m) (recentWmMaxSize e m) (count % 4294967296).toNat
      (removalCandidates e m ignoredIds last) (recentWmImmunized e m) 0 []
    rw [hsel, List.nil_append] at h
    rw [← h]
    have hmem : ∀ id ∈ sub, Removable m ignoredIds id ∧
        (recentWmImmunized e m = true → ¬ id > m.lastGlobalLoopClosureId) := by
      intro id hid
      obtain ⟨x, hx, hx2⟩ := List.mem_map.1 (hsub.subset hid)
      rcases removalCandidates_foldl_mem e m ignoredIds last m.workingMem [] x hx with h | h
      · exact absurd h (List.not_mem_nil _)
      · rw [hx2] at h
        exact ⟨⟨h.1, h.2.1, h.2.2.1, h.2.2.2.1, h.2.2.2.2.2⟩, h.2.2.2.2.1⟩
    refine ⟨fun id hid => (hmem id hid).1, ?_, fun himm id hid => (hmem id hid).2 himm⟩
    intro hnodup
    exact (removalCandidates_foldl_nodup e m ignoredIds last m.workingMem [] List.nodup_nil
      hnodup (fun x hx => absurd hx (List.not_mem_nil _))).sublist hsub
  · injection h with h
    rw [← h]
    exact ⟨fun id hid => absurd hid (List.not_mem_nil _), fun _ => List.nodup_nil,
      fun _ id hid => absurd hid (List.not_mem_nil _)⟩

end Memory

/-! ## The links that survive a removal -/

section Kept

variable {T I : Type}

theorem linksKept_refl (x : Int) (m : Memory T I) : LinksKept x m m := by
  intro j _
  refine ⟨rfl, ?_⟩
  intro s s' hs hs'
  rw [hs] at hs'
  injection hs' with hs'
  rw [← hs']
  exact ⟨fun l hl => hl, fun l hl _ => hl⟩

theorem linksKept_trans {x : Int} {a b c : Memory T I} (h1 : LinksKept x a b)
    (h2 : LinksKept x b c) : LinksKept x a c := by
  intro j hj
  obtain ⟨p1, q1⟩ := h1 j hj
  obtain ⟨p2, q2⟩ := h2 j hj
  refine ⟨p2.trans p1, ?_⟩
  intro s s'' hs hs''
  cases hb : b._getSignature j with
  | none =>
    rw [hb, hs] at p1
    exact absurd p1 (by simp)
  | some s' =>
    obtain ⟨r1, r2⟩ := q1 s s' hs hb
    obtain ⟨r3, r4⟩ := q2 s' s'' hb hs''
    exact ⟨fun l hl => r1 l (r3 l hl), fun l hl hne => r4 l (r2 l hl hne) hne⟩

theorem linksKept_of_sameView {x : Int} {m m' : Memory T I}
    (h : SameView Signature.links m m') : LinksKept x m m' := by
  intro j _
  have hj := h j
  refine ⟨?_, ?_⟩
  · cases h1 : m._getSignature j <;> cases h2 : m'._getSignature j <;>
      simp [h1, h2] at hj ⊢
  · intro s s' hs hs'
    rw [hs, hs'] at hj
    simp only [Option.map_some', Option.some.injEq] at hj
    rw [hj]
    exact ⟨fun l hl => hl, fun l hl _ => hl⟩

/-- A change of the signature `x` itself does not count. -/
theorem linksKept_modify_self (x : Int) (m : Memory T I) (f : Signature T I → Signature T I)
    (hf : ∀ a, (f a).id = a.id) : LinksKept x m (m.modifySignature x f) := by
  intro j hj
  rw [Memory.getSignature_modify_ne m f hf hj]
  exact linksKept_refl x m j hj

/-- A peer drops its link to `x`. -/
theorem linksKept_removeLink (x k : Int) (m : Memory T I) :
    LinksKept x m (m.modifySignature k (fun p => p.removeLink x)) := by
  intro j _
  rw [Memory.getSignature_modify m k j (fun p => p.removeLink x) (fun _ => rfl)]
  refine ⟨by cases m._getSignature j <;> rfl, ?_⟩
  intro s s' hs hs'
  rw [hs] at hs'
  simp only [Option.map_some', Option.some.injEq] at hs'
  rw [← hs']
  split
  · simp only [Signature.removeLink]
    exact ⟨fun l hl => ((mem_kerase Link.to_).1 hl).1,
      fun l hl hne => (mem_kerase Link.to_).2 ⟨hl, hne⟩⟩
  · exact ⟨fun l hl => hl, fun l hl _ => hl⟩

theorem linksKept_foldl {x : Int} {γ : Type} (f : Memory T I → γ → Memory T I)
    (h : ∀ m b, LinksKept x m (f m b)) (l : List γ) (m : Memory T I) :
    LinksKept x m (l.foldl f m) := by
  induction l generalizing m with
  | nil => exact linksKept_refl x m
  | cons b rest ih => exact linksKept_trans (h m b) (ih (f m b))

theorem linksKept_ite {x : Int} {c : Prop} [Decidable c] {m a b : Memory T I}
    (ha : LinksKept x m a) (hb : LinksKept x m b) : LinksKept x m (if c then a else b) := by
  split <;> assumption

theorem sameView_links_setWeight (m : Memory T I) (k w : Int) :
    SameView Signature.links m (m.setWeight k w) :=
  sameView_modifySignature _ m k _ (fun _ => rfl) (fun _ => rfl)

theorem linksKept_moveToTrashUnlink (sId sWeight : Int) (links : List (Link T I))
    (m m' : Memory T I)
    (h : Memory.moveToTrashUnlink sId sWeight links m = Except.ok m') : LinksKept sId m m' := by
  induction links generalizing m with
  | nil =>
    simp only [Memory.moveToTrashUnlink, pure, Except.pure] at h
    injection h with h
    rw [← h]
    exact linksKept_refl sId m
  | cons l rest ih =>
    unfold Memory.moveToTrashUnlink at h
    cases hs : m._getSignature l.to_ with
    | none => simp [hs, throw, throwThe, MonadExceptOf.throw] at h
    | some sTo =>
      simp only [hs] at h
      refine linksKept_trans ?_ (ih _ h)
      refine linksKept_trans ?_ (linksKept_removeLink sId sTo.id _)
      exact linksKept_ite (linksKept_of_sameView (sameView_links_setWeight _ _ _))
        (linksKept_refl sId m)

theorem linksKept_removeVirtualLinks (m : Memory T I) (sId : Int) :
    LinksKept sId m (m.removeVirtualLinks sId) := by
  unfold Memory.removeVirtualLinks
  cases hs : m._getSignature sId with
  | none => exact linksKept_refl sId m
  | some s =>
    simp only []
    have hid := Memory.getSignature_id hs
    rw [hid]
    refine linksKept_trans (linksKept_foldl _ ?_ s.links m)
      (linksKept_modify_self sId _ _ (fun _ => rfl))
    intro m' l
    exact linksKept_ite (linksKept_removeLink sId l.to_ m') (linksKept_refl sId m')

theorem linksKept_moveToTrashLinks (e : Env T I) (m m1 : Memory T I) (s : Signature T I)
    ( keep : Bool) (h : Memory.moveToTrashLinks e m s keep = Except.ok m1) :
    LinksKept s.id m m1 := by
  unfold Memory.moveToTrashLinks at h
  split at h
  · obtain ⟨_, _, h⟩ := bind_eq_ok.1 h
    obtain ⟨m2, h2, h⟩ := bind_eq_ok.1 h
    injection h with h
    rw [← h]
    exact linksKept_trans (linksKept_moveToTrashUnlink _ _ _ _ _ h2)
      (linksKept_modify_self s.id _ _ (fun _ => rfl))
  · injection h with h
    rw [← h]
    exact linksKept_removeVirtualLinks m s.id

theorem sameView_links_disableWordsRef (m : Memory T I) (k : Int) :
    SameView Signature.links m (m.disableWordsRef k) := by
  unfold Memory.disableWordsRef
  cases m._getSignature k with
  | none => exact sameView_refl _ m
  | some ss =>
    simp only []
    split
    · refine sameView_trans _ (sameView_of_signatures _ rfl)
        (sameView_modifySignature _ _ _ _ (fun _ => rfl) (fun _ => rfl))
    · exact sameView_refl _ m

theorem linksKept_of_getSignature {x : Int} {m m' : Memory T I}
    (h : ∀ j, j ≠ x → m'._getSignature j = m._getSignature j) : LinksKept x m m' := by
  intro j hj
  rw [h j hj]
  exact linksKept_refl x m j hj

theorem getSignature_moveToTrashLast (m : Memory T I) (sId j : Int) :
    (Memory.moveToTrashLast m sId)._getSignature j = m._getSignature j := by
  have h1 : (Memory.moveToTrashLastSignature m sId)._getSignature j = m._getSignature j := by
    unfold Memory.moveToTrashLastSignature
    split
    · split
      · rfl
      · split <;> rfl
    · rfl
  unfold Memory.moveToTrashLast
  split
  · exact h1
  · exact h1

theorem getSignature_moveToTrashSave (e : Env T I) (m : Memory T I) (s1 : Signature T I)
    ( keep : Bool) (j : Int) :
    (Memory.moveToTrashSave e m s1 keep)._getSignature j = m._getSignature j := by
  unfold Memory.moveToTrashSave
  split <;> rfl

/-- The links of the other signatures after `moveToTrash`. -/
theorem linksKept_moveToTrashFull (e : Env T I) (m : Memory T I) (sId : Int) ( keep : Bool)
    (r : Memory T I × List Int) (h : Memory.moveToTrashFull e m sId keep = Except.ok r) :
    LinksKept sId m r.1 := by
  unfold Memory.moveToTrashFull at h
  cases hs : m._getSignature sId with
  | none =>
    rw [hs] at h
    injection h with h
    rw [← h]
    exact linksKept_refl sId m
  | some s =>
    rw [hs] at h
    have hid : s.id = sId := Memory.getSignature_id hs
    obtain ⟨m1, h1, h⟩ := bind_eq_ok.1 h
    obtain ⟨s1, _, h⟩ := bind_eq_ok.1 h
    injection h with h
    rw [← h, hid]
    have k1 := linksKept_moveToTrashLinks e m m1 s keep h1
    rw [hid] at k1
    refine linksKept_trans k1 ?_
    refine linksKept_trans (linksKept_of_sameView (sameView_links_disableWordsRef m1 sId)) ?_
    apply linksKept_of_getSignature
    intro j hj
    rw [getSignature_moveToTrashSave, getSignature_moveToTrashLast,
      Memory.getSignature_moveToTrashErase, if_neg hj, Memory.getSignature_moveToTrashDictionary]

theorem linksKept_moveToTrash (e : Env T I) (m m' : Memory T I) (sId : Int) ( keep : Bool)
    (h : Memory.moveToTrash e m sId keep = Except.ok m') : LinksKept sId m m' := by
  unfold Memory.moveToTrash at h
  obtain ⟨r, hr, h⟩ := bind_eq_ok.1 h
  injection h with h
  rw [← h]
  exact linksKept_moveToTrashFull e m sId keep r hr

end Kept

namespace Memory

variable {T I : Type}

theorem lastGlobalLoopClosureId_moveToTrashUnlink (sId sWeight : Int) (links : List (Link T I))
    (m m' : Memory T I) (h : moveToTrashUnlink sId sWeight links m = Except.ok m') :
    m'.lastGlobalLoopClosureId = m.lastGlobalLoopClosureId := by
  induction links generalizing m with
  | nil =>
    simp only [moveToTrashUnlink, pure, Except.pure] at h
    injection h with h
    rw [← h]
  | cons l rest ih =>
    unfold moveToTrashUnlink at h
    cases hs : m._getSignature l.to_ with
    | none => simp [hs, throw, throwThe, MonadExceptOf.throw] at h
    | some sTo =>
      simp only [hs] at h
      rw [ih _ h, modifySignature_lastGlobalLoopClosureId]
      split <;> rfl

theorem lastGlobalLoopClosureId_foldl {γ : Type} (f : Memory T I → γ → Memory T I)
    (h : ∀ m b, (f m b).lastGlobalLoopClosureId = m.lastGlobalLoopClosureId) (l : List γ)
    (m : Memory T I) : (l.foldl f m).lastGlobalLoopClosureId = m.lastGlobalLoopClosureId := by
  induction l generalizing m with
  | nil => rfl
  | cons b rest ih => rw [List.foldl_cons, ih, h]

theorem lastGlobalLoopClosureId_removeVirtualLinks (m : Memory T I) (sId : Int) :
    (m.removeVirtualLinks sId).lastGlobalLoopClosureId = m.lastGlobalLoopClosureId := by
  unfold removeVirtualLinks
  cases m._getSignature sId with
  | none => rfl
  | some s =>
    simp only []
    rw [modifySignature_lastGlobalLoopClosureId, lastGlobalLoopClosureId_foldl]
    intro m' l
    split <;> rfl

theorem lastGlobalLoopClosureId_moveToTrashLinks (e : Env T I) (m m1 : Memory T I)
    (s : Signature T I) ( keep : Bool) (h : moveToTrashLinks e m s keep = Except.ok m1) :
    m1.lastGlobalLoopClosureId = m.lastGlobalLoopClosureId := by
  unfold moveToTrashLinks at h
  split at h
  · obtain ⟨_, _, h⟩ := bind_eq_ok.1 h
    obtain ⟨m2, h2, h⟩ := bind_eq_ok.1 h
    injection h with h
    rw [← h, modifySignature_lastGlobalLoopClosureId,
      lastGlobalLoopClosureId_moveToTrashUnlink _ _ _ _ _ h2]
  · injection h with h
    rw [← h]
    exact lastGlobalLoopClosureId_removeVirtualLinks m s.id

theorem lastGlobalLoopClosureId_disableWordsRef (m : Memory T I) (k : Int) :
    (m.disableWordsRef k).lastGlobalLoopClosureId = m.lastGlobalLoopClosureId := by
  unfold disableWordsRef
  cases m._getSignature k with
  | none => rfl
  | some ss =>
    simp only []
    split <;> rfl

theorem lastGlobalLoopClosureId_moveToTrashDictionary (m : Memory T I) (s1 : Signature T I)
    ( keep : Bool) :
    (moveToTrashDictionary m s1 keep).1.lastGlobalLoopClosureId = m.lastGlobalLoopClosureId := by
  unfold moveToTrashDictionary
  split <;> rfl

theorem lastGlobalLoopClosureId_moveToTrashErase (m : Memory T I) (sId : Int) :
    (moveToTrashErase m sId).lastGlobalLoopClosureId = m.lastGlobalLoopClosureId := by
  unfold moveToTrashErase
  simp only []
  split <;> rfl

theorem lastGlobalLoopClosureId_moveToTrashLast (m : Memory T I) (sId : Int) :
    (moveToTrashLast m sId).lastGlobalLoopClosureId =
      if m.lastGlobalLoopClosureId = sId then 0 else m.lastGlobalLoopClosureId := by
  have h1 : (moveToTrashLastSignature m sId).lastGlobalLoopClosureId =
      m.lastGlobalLoopClosureId := by
    unfold moveToTrashLastSignature
    split
    · split
      · rfl
      · split <;> rfl
    · rfl
  unfold moveToTrashLast
  rw [h1]
  by_cases hl : m.lastGlobalLoopClosureId = sId
  · simp [hl]
  · simp [hl, h1]

/-- The last global loop closure id after `moveToTrash`: reset when it was the
location removed, else as before. -/
theorem lastGlobalLoopClosureId_moveToTrash (e : Env T I) (m m' : Memory T I) (sId : Int)
    ( keep : Bool) (h : moveToTrash e m sId keep = Except.ok m')
    (hne : m.lastGlobalLoopClosureId ≠ sId) :
    m'.lastGlobalLoopClosureId = m.lastGlobalLoopClosureId := by
  unfold moveToTrash at h
  obtain ⟨r, hr, h⟩ := bind_eq_ok.1 h
  injection h with h
  rw [← h]
  unfold moveToTrashFull at hr
  cases hs : m._getSignature sId with
  | none =>
    rw [hs] at hr
    injection hr with hr
    rw [← hr]
  | some s =>
    rw [hs] at hr
    have hid : s.id = sId := getSignature_id hs
    obtain ⟨m1, h1, hr⟩ := bind_eq_ok.1 hr
    obtain ⟨s1, _, hr⟩ := bind_eq_ok.1 hr
    injection hr with hr
    rw [← hr]
    have hsave : ∀ (mm : Memory T I), (moveToTrashSave e mm s1 keep).lastGlobalLoopClosureId =
        mm.lastGlobalLoopClosureId := by
      intro mm
      unfold moveToTrashSave
      split <;> rfl
    simp only []
    rw [hsave, lastGlobalLoopClosureId_moveToTrashLast, lastGlobalLoopClosureId_moveToTrashErase,
      lastGlobalLoopClosureId_moveToTrashDictionary, lastGlobalLoopClosureId_disableWordsRef,
      lastGlobalLoopClosureId_moveToTrashLinks e m m1 s keep h1, hid, if_neg hne]

end Memory

namespace Memory

variable {T I : Type}

theorem wmIds_nodup_of_tierInvariant {m : Memory T I} (hi : TierInvariant m) : m.wmIds.Nodup :=
  nodup_of_ascending ((KeysSorted.iff m).1 hi.1).2.2

/-- The removal by `forget` of a signature eligible in the memory `mk`, seen
from an earlier memory `m` of the same STM and the same last global loop
closure id whose working memory and links towards the STM `mk` has kept:
the same holds of the memory after the removal. -/
theorem forget_step (e : Env T I) (m mk mk' : Memory T I) (ignoredIds : List Int) (sId : Int)
    (hrem : Removable mk ignoredIds sId)
    (h : moveToTrash e mk sId true = Except.ok mk')
    (hi : TierInvariant mk) (hst : mk.stMem = m.stMem)
    (hwm : ∀ i ∈ mk.wmIds, i ∈ m.wmIds)
    (hlast : mk.lastGlobalLoopClosureId = m.lastGlobalLoopClosureId)
    (hlinks : ∀ j sk, mk._getSignature j = some sk →
      ∃ s, m._getSignature j = some s ∧ ∀ l ∈ s.links, l.to_ ∈ m.stMem → l ∈ sk.links) :
    Removable m ignoredIds sId ∧ TierInvariant mk' ∧ mk'.stMem = m.stMem ∧
    (∀ i ∈ mk'.wmIds, i ∈ mk.wmIds ∧ i ≠ sId) ∧
    mk'.lastGlobalLoopClosureId = m.lastGlobalLoopClosureId ∧
    (∀ j sk, mk'._getSignature j = some sk →
      ∃ s, m._getSignature j = some s ∧ ∀ l ∈ s.links, l.to_ ∈ m.stMem → l ∈ sk.links) := by
  obtain ⟨r1, r2, r3, r4, sk, r5, r6⟩ := hrem
  have hnotstm : sId ∉ mk.stMem := fun hmem => hi.2.1.1 sId hmem r1
  have hremm : Removable m ignoredIds sId := by
    refine ⟨hwm sId r1, r2, r3, hlast ▸ r4, ?_⟩
    obtain ⟨s, hs, hl⟩ := hlinks sId sk r5
    refine ⟨s, hs, ?_⟩
    intro l hl1 hl2
    exact r6 l (hl l hl1 hl2) (hst ▸ hl2)
  have htr : Trashed sId mk mk' := by
    rcases moveToTrash_tiers e mk mk' sId true h with ⟨hn, _⟩ | ⟨_, _, ht⟩
    · rw [r5] at hn
      exact Option.noConfusion hn
    · exact ht
  refine ⟨hremm, htr.keepsTierInvariant hi, ?_, ?_, ?_, ?_⟩
  · rw [htr.1, ← hst]
    unfold kerase
    rw [List.filter_eq_self]
    intro a ha
    simp only [selfKey, bne_iff_ne, ne_eq]
    intro hEq
    exact hnotstm (hEq ▸ ha)
  · intro i hi'
    rw [htr.wmIds_eq] at hi'
    exact mem_kerase_selfKey.1 hi'
  · rw [lastGlobalLoopClosureId_moveToTrash e mk mk' sId true h (fun h' => r4 h'.symm), hlast]
  · intro j sk' hj
    have hne : j ≠ sId := by
      intro hEq
      rw [hEq, (trashed_absent htr).2.2] at hj
      exact Option.noConfusion hj
    obtain ⟨p, q⟩ := linksKept_moveToTrash e mk mk' sId true h j hne
    cases hk : mk._getSignature j with
    | none =>
      rw [hk, hj] at p
      exact absurd p (by simp)
    | some skj =>
      obtain ⟨s, hs, hl⟩ := hlinks j skj hk
      refine ⟨s, hs, ?_⟩
      intro l hl1 hl2
      refine (q skj sk' hk hj).2 l (hl l hl1 hl2) ?_
      intro hEq
      exact hnotstm (hst ▸ hEq ▸ hl2)

theorem forgetByWords_removable (e : Env T I) (m : Memory T I) (ignoredIds : List Int)
    (newWords : Int) (fuel : Nat) (wordsRemoved : Int) (removed : List Int) (mk : Memory T I)
    (r : List Int × Memory T I)
    (h : forgetByWords e ignoredIds newWords fuel wordsRemoved removed mk = Except.ok r)
    (hi : TierInvariant mk) (hst : mk.stMem = m.stMem)
    (hwm : ∀ i ∈ mk.wmIds, i ∈ m.wmIds)
    (hlast : mk.lastGlobalLoopClosureId = m.lastGlobalLoopClosureId)
    (hlinks : ∀ j sk, mk._getSignature j = some sk →
      ∃ s, m._getSignature j = some s ∧ ∀ l ∈ s.links, l.to_ ∈ m.stMem → l ∈ sk.links)
    (hremoved : ∀ id ∈ removed, Removable m ignoredIds id ∧ id ∉ mk.wmIds)
    (hnodup : removed.Nodup) :
    (∀ id ∈ r.1, Removable m ignoredIds id) ∧ r.1.Nodup := by
  induction fuel generalizing wordsRemoved removed mk with
  | zero =>
    unfold forgetByWords at h
    injection h with h
    rw [← h]
    exact ⟨fun id hid => (hremoved id hid).1, hnodup⟩
  | succ fuel ih =>
    unfold forgetByWords at h
    split at h
    · obtain ⟨l, hl, h⟩ := bind_eq_ok.1 h
      split at h
      · rename_i sId rest
        obtain ⟨m1, h1, h⟩ := bind_eq_ok.1 h
        have hsel := (getRemovableSignatures_spec e mk 1 ignoredIds _ hl).1 sId
          (List.mem_cons_self _ _)
        obtain ⟨s1, s2, s3, s4, s5, s6⟩ := forget_step e m mk m1 ignoredIds sId hsel h1 hi hst
          hwm hlast hlinks
        refine ih _ _ m1 h s2 s3 (fun i hi' => hwm i (s4 i hi').1) s5 s6 ?_ ?_
        · intro id hid
          rcases List.mem_append.1 hid with hid | hid
          · exact ⟨(hremoved id hid).1, fun hmem => (hremoved id hid).2 (s4 id hmem).1⟩
          · rw [List.mem_singleton] at hid
            rw [hid]
            exact ⟨s1, fun hmem => (s4 sId hmem).2 rfl⟩
        · rw [List.nodup_append]
          refine ⟨hnodup, List.nodup_singleton _, ?_⟩
          intro a ha hb
          rw [List.mem_singleton] at hb
          rw [hb] at ha
          exact (hremoved sId ha).2 hsel.1
      · injection h with h
        rw [← h]
        exact ⟨fun id hid => (hremoved id hid).1, hnodup⟩
    · injection h with h
      rw [← h]
      exact ⟨fun id hid => (hremoved id hid).1, hnodup⟩

/-- Every id `forget` returns was eligible for a transfer in the memory it was
called on, and none is returned twice. -/
theorem forget_removable (e : Env T I) (m : Memory T I) (ignoredIds : List Int)
    (r : List Int × Memory T I) (h : forget e m ignoredIds = Except.ok r)
    (hi : TierInvariant m) :
    (∀ id ∈ r.1, Removable m ignoredIds id) ∧ r.1.Nodup := by
  unfold forget at h
  split at h
  · refine forgetByWords_removable e m ignoredIds _ _ _ _ m r h hi rfl (fun i hi' => hi') rfl
      ?_ (fun id hid => absurd hid (List.not_mem_nil _)) List.nodup_nil
    intro j sk hj
    exact ⟨sk, hj, fun l hl _ => hl⟩
  · obtain ⟨l, hl, h⟩ := bind_eq_ok.1 h
    obtain ⟨m1, _, h⟩ := bind_eq_ok.1 h
    injection h with h
    rw [← h]
    obtain ⟨s1, s2, _⟩ := getRemovableSignatures_spec e m _ ignoredIds l hl
    exact ⟨s1, s2 (wmIds_nodup_of_tierInvariant hi)⟩

end Memory

/-- Claim C14: for every state, count and ignoredIds, every signature returned
by `getRemovableSignatures` is a member of the working memory with id > 0, is
not a member of ignoredIds, is not `lastGlobalLoopClosureId` and has no link to
a signature that is in the STM (`Removable`), and, the keys of the working
memory being distinct, no signature is returned twice; hence every id `forget`
returns, from a memory under the invariant of the tiers, has these properties
in the memory `forget` was called on, and none is returned twice. -/
theorem getRemovableSignatures_eligible {T I : Type} (e : Env T I) (m : Memory T I)
    (count : Int) (ignoredIds : List Int) :
    (∀ ids, Memory.getRemovableSignatures e m count ignoredIds = Except.ok ids →
      (∀ id ∈ ids, id ∈ m.wmIds ∧ 0 < id ∧ id ≠ -1 ∧ id ∉ ignoredIds ∧
        id ≠ m.lastGlobalLoopClosureId ∧
        ∃ s, m._getSignature id = some s ∧ ∀ l ∈ s.links, l.to_ ∉ m.stMem) ∧
      (m.wmIds.Nodup → ids.Nodup)) ∧
    (∀ r, TierInvariant m → Memory.forget e m ignoredIds = Except.ok r →
      (∀ id ∈ r.1, Removable m ignoredIds id) ∧ r.1.Nodup) := by
  refine ⟨?_, ?_⟩
  · intro ids h
    obtain ⟨h1, h2, _⟩ := Memory.getRemovableSignatures_spec e m count ignoredIds ids h
    refine ⟨?_, h2⟩
    intro id hid
    obtain ⟨r1, r2, r3, r4, r5⟩ := h1 id hid
    exact ⟨r1, r2, by omega, r3, r4, r5⟩
  · intro r hi h
    exact Memory.forget_removable e m ignoredIds r h hi

/-- Witness of C14: from the working memory {-1, 1, 2} with two unlinked nodes
`getRemovableSignatures(1, {})` returns node 1, which is eligible. -/
theorem getRemovableSignatures_eligible_witness :
    ∃ ids, Memory.getRemovableSignatures (lineEnv true false 2) (twoNodeMemory 0 0) 1 [] =
        Except.ok ids ∧ ids = [1] ∧
      ∀ id ∈ ids, id ∈ (twoNodeMemory 0 0).wmIds ∧ 0 < id ∧ id ≠ -1 ∧ id ∉ ([] : List Int) ∧
        id ≠ (twoNodeMemory 0 0).lastGlobalLoopClosureId ∧
        ∃ s, (twoNodeMemory 0 0)._getSignature id = some s ∧
          ∀ l ∈ s.links, l.to_ ∉ (twoNodeMemory 0 0).stMem :=
  ⟨_, rfl, rfl,
    ((getRemovableSignatures_eligible (lineEnv true false 2) (twoNodeMemory 0 0) 1 []).1 _
      rfl).1⟩

/-- Claim C15 fails on the code: with RecentWmRatio 1/2, the working memory
{-1, 1, 2, 3} and `lastGlobalLoopClosureId` 2, one signature of the working
memory has an id above 2, which is below 1/2 * 4, yet
`getRemovableSignatures(5, {})` returns signature 3: the code counts the entries
of the working memory from the loop closure id on, itself included (2), and asks
for that count to be below the bound 2 = int(0.5 * 4). -/
theorem getRemovableSignatures_recent_not_immune :
    Memory.getRemovableSignatures (ratioEnv 1 1) (threeNodeMemory 2) 5 [] =
      Except.ok [1, 3] ∧
    Memory.recentWmMaxSize (ratioEnv 1 1) (threeNodeMemory 2) = 2 ∧
    (((threeNodeMemory 2).wmIds.filter (fun i => i > 2)).length : Rat) <
      mkRat 1 2 * ((threeNodeMemory 2).workingMem.length : Rat) := by
  refine ⟨rfl, rfl, ?_⟩
  have h1 : ((threeNodeMemory 2).wmIds.filter (fun i => i > 2)).length = 1 := by decide
  have h2 : (threeNodeMemory 2).workingMem.length = 4 := rfl
  rw [h1, h2]
  norm_num

/-- Claim C15, amended: recent-WM immunity. For every state with
`lastGlobalLoopClosureId` = L > 0 in which L is not in the STM and the number
of entries of the working memory from the entry of L to the end, L included, is
above 1 and below `recentWmMaxSize`, the integer the code obtains by converting
the single-precision product `RecentWmRatio * float(|WM|)` to `int`,
`getRemovableSignatures` returns no signature with id > L, for every count and
ignoredIds. -/
theorem getRemovableSignatures_recent_immune {T I : Type} (e : Env T I) (m : Memory T I)
    (count : Int) (ignoredIds ids : List Int)
    (h : Memory.getRemovableSignatures e m count ignoredIds = Except.ok ids)
    (hpos : 0 < m.lastGlobalLoopClosureId)
    (hstm : m.lastGlobalLoopClosureId ∉ m.stMem)
    (hlow : 1 < ((m.workingMem.dropWhile
      (fun p => p.1 != m.lastGlobalLoopClosureId)).length : Int))
    (hhigh : ((m.workingMem.dropWhile
      (fun p => p.1 != m.lastGlobalLoopClosureId)).length : Int) <
      Memory.recentWmMaxSize e m) :
    ∀ id ∈ ids, ¬ id > m.lastGlobalLoopClosureId := by
  apply (Memory.getRemovableSignatures_spec e m count ignoredIds ids h).2.2
  have hc : m.stMem.contains m.lastGlobalLoopClosureId = false := by
    simpa using hstm
  have hcur : Memory.currentRecentWmSize m =
      ((m.workingMem.dropWhile (fun p => p.1 != m.lastGlobalLoopClosureId)).length : Int) := by
    unfold Memory.currentRecentWmSize
    rw [hc]
    simp [hpos]
  unfold Memory.recentWmImmunized
  rw [hcur, hc]
  simp [hpos, hlow, hhigh]

/-- Witness of C15 (amended): with RecentWmRatio 3/4, the working memory
{-1, 1, 2, 3} and `lastGlobalLoopClosureId` 2, the two entries from 2 on are
fewer than the bound 3 = int(0.75 * 4), and `getRemovableSignatures(5, {})`
returns signature 1 only. -/
theorem getRemovableSignatures_recent_immune_witness :
    Memory.getRemovableSignatures (ratioEnv 3 2) (threeNodeMemory 2) 5 [] =
      Except.ok [1] ∧
    Memory.recentWmMaxSize (ratioEnv 3 2) (threeNodeMemory 2) = 3 ∧
    ∀ id ∈ [(1 : Int)], ¬ id > (threeNodeMemory 2).lastGlobalLoopClosureId :=
  ⟨rfl, rfl, getRemovableSignatures_recent_immune (ratioEnv 3 2) (threeNodeMemory 2) 5 []
    [1] rfl (by decide) (by decide) (by decide) (by decide)⟩

section Select

theorem selectStep_of_zero (cur max : Int) (iter : WeightAgeIdKey × Int) (cnt : Int)
    (removable : List Int) :
    selectStep 0 cur max iter false cnt removable = (removable ++ [iter.2], false, cnt) := by
  unfold selectStep
  simp

/-- Without a last global loop closure id the second loop of
`getRemovableSignatures` takes the candidates in order until the list holds
`count` ids. -/
theorem selectRemovable_of_zero (cur max : Int) (count : Nat)
    (cands : List (WeightAgeIdKey × Int)) (cnt : Int) (removable : List Int)
    (h : removable.length < count) :
    selectRemovable 0 cur max count cands false cnt removable =
      removable ++ (cands.map Prod.snd).take (count - removable.length) := by
  induction cands generalizing removable with
  | nil =>
    unfold selectRemovable
    simp
  | cons iter rest ih =>
    unfold selectRemovable
    rw [selectStep_of_zero]
    simp only []
    split
    · rename_i hge
      rw [List.length_append, List.length_singleton] at hge
      have : count - removable.length = 1 := by omega
      rw [this, List.map_cons, List.take_succ_cons, List.take_zero]
    · rename_i hlt
      rw [List.length_append, List.length_singleton] at hlt
      rw [ih _ (by rw [List.length_append, List.length_singleton]; omega)]
      rw [List.length_append, List.length_singleton, List.append_assoc, List.map_cons]
      have : count - removable.length = (count - (removable.length + 1)) + 1 := by omega
      rw [this, List.take_succ_cons]
      rfl

end Select

namespace Memory

variable {T I : Type}

theorem forgetAll_ok_of_forget (e : Env T I) (m : Memory T I) (ignoredIds : List Int)
    (r : List Int × Memory T I) (h : forget e m ignoredIds = Except.ok r)
    (hmode : (e.incrementalMemory && m.vwd.incremental && m.vwd.visualWords.length != 0 &&
      !m.vwd.incrementalFlann) = false) :
    getRemovableSignatures e m (m.signaturesAdded + 1) ignoredIds = Except.ok r.1 := by
  unfold forget at h
  rw [hmode] at h
  simp only [Bool.false_eq_true, if_false] at h
  obtain ⟨l, hl, h⟩ := bind_eq_ok.1 h
  obtain ⟨m1, _, h⟩ := bind_eq_ok.1 h
  injection h with h
  rw [← h]
  exact hl

end Memory

section Priority

/-- The comparison `WeightAgeIdKey::operator<` is the lexicographic order on
weight, age and id. -/
theorem WeightAgeIdKey.lt_iff (a b : WeightAgeIdKey) :
    a.lt b = true ↔
      (a.weight < b.weight ∨ (a.weight = b.weight ∧
        (a.age < b.age ∨ (a.age = b.age ∧ a.id < b.id)))) := by
  unfold WeightAgeIdKey.lt
  constructor
  · intro h
    split at h
    · rename_i h1
      exact Or.inl h1
    · split at h
      · rename_i h1 h2
        split at h
        · rename_i h3
          exact Or.inr ⟨h2, Or.inl h3⟩
        · split at h
          · rename_i h3 h4
            exact Or.inr ⟨h2, Or.inr ⟨h4, by simpa using h⟩⟩
          · cases h
      · cases h
  · intro h
    rcases h with h | ⟨h1, h | ⟨h2, h3⟩⟩
    · rw [if_pos h]
    · rw [if_neg (by omega), if_pos h1, if_pos h]
    · rw [if_neg (by omega), if_pos h1, if_neg (by omega), if_pos h2]
      simpa using h3

theorem WeightAgeIdKey.lt_trans {a b c : WeightAgeIdKey} (h1 : a.lt b = true)
    (h2 : b.lt c = true) : a.lt c = true := by
  rw [WeightAgeIdKey.lt_iff] at h1 h2 ⊢
  omega

theorem WeightAgeIdKey.lt_of_not_lt {a b : WeightAgeIdKey} (h1 : a.lt b = false)
    (hne : a.id ≠ b.id) : b.lt a = true := by
  have h : ¬ (a.lt b = true) := by rw [h1]; exact Bool.false_ne_true
  rw [WeightAgeIdKey.lt_iff] at h ⊢
  omega

theorem WeightAgeIdKey.id_ne_of_lt {a b : WeightAgeIdKey} (h : a.lt b = true)
    (h2 : b.lt a = true) : False := by
  rw [WeightAgeIdKey.lt_iff] at h h2
  omega

/-- The map stays in ascending key order under an insertion. -/
theorem pairwise_weightAgeIdInsert (k : WeightAgeIdKey) (v : Int)
    (l : List (WeightAgeIdKey × Int)) (hl : l.Pairwise (fun a b => a.1.lt b.1 = true)) :
    (weightAgeIdInsert k v l).Pairwise (fun a b => a.1.lt b.1 = true) := by
  induction l with
  | nil => exact List.pairwise_singleton _ _
  | cons b rest ih =>
    unfold weightAgeIdInsert
    rw [List.pairwise_cons] at hl
    split
    · rename_i h
      rw [List.pairwise_cons]
      refine ⟨?_, List.pairwise_cons.2 hl⟩
      intro x hx
      rcases List.mem_cons.1 hx with rfl | hx
      · exact h
      · exact WeightAgeIdKey.lt_trans h (hl.1 x hx)
    · split
      · rename_i h
        rw [List.pairwise_cons]
        refine ⟨?_, ih hl.2⟩
        intro x hx
        rcases mem_weightAgeIdInsert hx with rfl | hx
        · exact h
        · exact hl.1 x hx
      · exact List.pairwise_cons.2 hl

/-- An entry whose id no key of the map carries is inserted. -/
theorem mem_weightAgeIdInsert_of_fresh (k : WeightAgeIdKey) (v : Int)
    (l : List (WeightAgeIdKey × Int)) (hf : ∀ b ∈ l, b.1.id ≠ k.id)
    (x : WeightAgeIdKey × Int) :
    x ∈ weightAgeIdInsert k v l ↔ x = (k, v) ∨ x ∈ l := by
  constructor
  · exact mem_weightAgeIdInsert
  · induction l with
    | nil =>
      intro h
      rcases h with h | h
      · rw [h]
        exact List.mem_singleton.2 rfl
      · cases h
    | cons b rest ih =>
      intro h
      unfold weightAgeIdInsert
      split
      · rcases h with h | h
        · rw [h]
          exact List.mem_cons_self _ _
        · exact List.mem_cons_of_mem _ h
      · rename_i h1
        have h2 : b.1.lt k = true :=
          WeightAgeIdKey.lt_of_not_lt (by simpa using h1)
            (Ne.symm (hf b (List.mem_cons_self _ _)))
        rw [if_pos h2]
        rcases h with h | h
        · exact List.mem_cons_of_mem _
            (ih (fun c hc => hf c (List.mem_cons_of_mem _ hc)) (Or.inl h))
        · rcases List.mem_cons.1 h with h | h
          · rw [h]
            exact List.mem_cons_self _ _
          · exact List.mem_cons_of_mem _
              (ih (fun c hc => hf c (List.mem_cons_of_mem _ hc)) (Or.inr h))

end Priority
namespace Memory

variable {T I : Type}

/-- One round of the first loop of `getRemovableSignatures` when no loop
closure id is set: the entry of the working memory enters the map, at its
place in key order, exactly when its id is positive and not ignored, the first
signature of the STM has no link to it, and its signature is in memory without
a link to a signature of the STM. -/
theorem removalCandidate_of_zero (e : Env T I) (m : Memory T I) (ignoredIds : List Int)
    (last : Option (Signature T I)) (acc : List (WeightAgeIdKey × Int)) (it : Int × Rat)
    (hz : m.lastGlobalLoopClosureId = 0)
    (hs : acc.Pairwise (fun a b => a.1.lt b.1 = true))
    (hf : ∀ b ∈ acc, b.1.id ≠ it.1) :
    (removalCandidate e m ignoredIds last acc it).Pairwise (fun a b => a.1.lt b.1 = true) ∧
    ∀ x, x ∈ removalCandidate e m ignoredIds last acc it ↔
      x ∈ acc ∨ ∃ s, 0 < it.1 ∧ it.1 ∉ ignoredIds ∧
        (∀ l, last = some l → l.hasLink it.1 = false) ∧
        m._getSignature it.1 = some s ∧ (∀ l ∈ s.links, l.to_ ∉ m.stMem) ∧
        x = (WeightAgeIdKey.make s.weight
          (if e.transferSortingByWeightId then 0 else it.2) it.1, it.1) := by
  have himm : recentWmImmunized e m = false := by
    unfold recentWmImmunized
    rw [hz]
    simp
  unfold removalCandidate
  rw [himm, hz]
  by_cases h0 : it.1 = 0
  · have hc : ((false && decide (it.1 > 0)) || it.1 == 0) = true := by simp [h0]
    rw [if_pos hc]
    refine ⟨hs, fun x => ⟨Or.inl, ?_⟩⟩
    rintro (h | ⟨s, hpos, _⟩)
    · exact h
    · omega
  · have hc : ¬ (((false && decide (it.1 > 0)) || it.1 == 0) = true) := by simp [h0]
    rw [if_neg hc]
    split
    · rename_i hc2
      simp only [Bool.and_eq_true, decide_eq_true_eq, Bool.not_eq_true',
        List.contains_eq_any_beq, List.any_eq_false, beq_iff_eq] at hc2
      have hign : it.1 ∉ ignoredIds := fun hmem => hc2.1.2 it.1 hmem rfl
      have hlast : ∀ l, last = some l → l.hasLink it.1 = false := by
        intro l hl
        have := hc2.2
        rw [hl] at this
        simpa using this
      cases hsig : m._getSignature it.1 with
      | none =>
        simp only []
        refine ⟨hs, fun x => ⟨Or.inl, ?_⟩⟩
        rintro (h | ⟨s, _, _, _, h, _⟩)
        · exact h
        · cases h
      | some s =>
        simp only []
        have hid : s.id = it.1 := getSignature_id hsig
        by_cases hany : s.links.any (fun l => m.stMem.contains l.to_) = true
        · rw [if_pos hany]
          refine ⟨hs, fun x => ⟨Or.inl, ?_⟩⟩
          rintro (h | ⟨s2, _, _, _, h, hno, _⟩)
          · exact h
          · injection h with h
            subst h
            exfalso
            rw [List.any_eq_true] at hany
            obtain ⟨l, hl, hmem⟩ := hany
            exact hno l hl (by simpa using hmem)
        · rw [if_neg hany]
          have hno : ∀ l ∈ s.links, l.to_ ∉ m.stMem := by
            intro l hl hmem
            apply hany
            rw [List.any_eq_true]
            exact ⟨l, hl, by simpa using hmem⟩
          refine ⟨pairwise_weightAgeIdInsert _ _ _ hs, ?_⟩
          intro x
          rw [mem_weightAgeIdInsert_of_fresh _ _ _ (fun b hb => by
            show b.1.id ≠ s.id
            rw [hid]
            exact hf b hb)]
          rw [hid]
          constructor
          · rintro (h | h)
            · exact Or.inr ⟨s, hc2.1.1, hign, hlast, rfl, hno, h⟩
            · exact Or.inl h
          · rintro (h | ⟨s2, _, _, _, h, _, hx⟩)
            · exact Or.inr h
            · injection h with h
              subst h
              exact Or.inl hx
    · rename_i hc2
      refine ⟨hs, fun x => ⟨Or.inl, ?_⟩⟩
      rintro (h | ⟨s, hpos, hign, hlast, _⟩)
      · exact h
      · exfalso
        apply hc2
        simp only [Bool.and_eq_true, decide_eq_true_eq, Bool.not_eq_true',
          List.contains_eq_any_beq, List.any_eq_false, beq_iff_eq]
        refine ⟨⟨hpos, ?_⟩, ?_⟩
        · intro a ha hia
          exact hign (hia ▸ ha)
        · cases last with
          | none => rfl
          | some l => simpa using hlast l rfl

/-- The map the first loop of `getRemovableSignatures` builds when no loop
closure id is set, the keys of the working memory being distinct: it is in
ascending key order and holds the entries of the working memory that are
candidates, each under the key of its weight, age and id. -/
theorem removalCandidates_foldl_of_zero (e : Env T I) (m : Memory T I) (ignoredIds : List Int)
    (last : Option (Signature T I)) (hz : m.lastGlobalLoopClosureId = 0)
    (wm : List (Int × Rat)) (acc : List (WeightAgeIdKey × Int))
    (hs : acc.Pairwise (fun a b => a.1.lt b.1 = true))
    (hnd : (wm.map Prod.fst).Nodup)
    (hf : ∀ b ∈ acc, b.1.id ∉ wm.map Prod.fst) :
    (wm.foldl (removalCandidate e m ignoredIds last) acc).Pairwise
      (fun a b => a.1.lt b.1 = true) ∧
    ∀ x, x ∈ wm.foldl (removalCandidate e m ignoredIds last) acc ↔
      x ∈ acc ∨ ∃ id t s, (id, t) ∈ wm ∧ 0 < id ∧ id ∉ ignoredIds ∧
        (∀ l, last = some l → l.hasLink id = false) ∧
        m._getSignature id = some s ∧ (∀ l ∈ s.links, l.to_ ∉ m.stMem) ∧
        x = (WeightAgeIdKey.make s.weight
          (if e.transferSortingByWeightId then 0 else t) id, id) := by
  induction wm generalizing acc with
  | nil =>
    refine ⟨hs, fun x => ⟨Or.inl, ?_⟩⟩
    rintro (h | ⟨_, _, _, h, _⟩)
    · exact h
    · cases h
  | cons it rest ih =>
    rw [List.foldl_cons]
    rw [List.map_cons, List.nodup_cons] at hnd
    obtain ⟨s1, m1⟩ := removalCandidate_of_zero e m ignoredIds last acc it hz hs
      (fun b hb heq => hf b hb (by rw [heq]; exact List.mem_cons_self _ _))
    have hf2 : ∀ b ∈ removalCandidate e m ignoredIds last acc it, b.1.id ∉ rest.map Prod.fst := by
      intro b hb
      rcases (m1 b).1 hb with h | ⟨s, _, _, _, _, _, h⟩
      · intro hmem
        exact hf b h (List.mem_cons_of_mem _ hmem)
      · rw [h]
        exact hnd.1
    obtain ⟨s2, m2⟩ := ih _ s1 hnd.2 hf2
    refine ⟨s2, ?_⟩
    intro x
    rw [m2 x, m1 x]
    constructor
    · rintro ((h | ⟨s, h1, h2, h3, h4, h5, h6⟩) | ⟨id, t, s, h0, h⟩)
      · exact Or.inl h
      · exact Or.inr ⟨it.1, it.2, s, List.mem_cons_self _ _, h1, h2, h3, h4, h5, h6⟩
      · exact Or.inr ⟨id, t, s, List.mem_cons_of_mem _ h0, h⟩
    · rintro (h | ⟨id, t, s, h0, h⟩)
      · exact Or.inl (Or.inl h)
      · rcases List.mem_cons.1 h0 with h0 | h0
        · rw [← h0] at *
          exact Or.inl (Or.inr ⟨s, h⟩)
        · exact Or.inr ⟨id, t, s, h0, h⟩

end Memory
namespace Memory

variable {T I : Type}

theorem lastInSTM_spec (m : Memory T I) (last : Option (Signature T I))
    (h : lastInSTM m = Except.ok last) (id : Int) :
    (∀ l, last = some l → l.hasLink id = false) ↔
      (∀ k ∈ m.stMem.head?, ∀ f, m._getSignature k = some f → f.hasLink id = false) := by
  unfold lastInSTM at h
  cases hh : m.stMem.head? with
  | none =>
    rw [hh] at h
    injection h with h
    rw [← h]
    constructor
    · intro _ k hk
      cases hk
    · intro _ l hl
      cases hl
  | some k =>
    rw [hh] at h
    obtain ⟨s, hs, h⟩ := bind_eq_ok.1 h
    injection h with h
    rw [← h]
    have hsig : m._getSignature k = some s := by
      unfold signatureAt at hs
      cases hg : m._getSignature k with
      | none =>
        rw [hg] at hs
        cases hs
      | some s2 =>
        rw [hg] at hs
        injection hs with hs
        rw [hs]
    constructor
    · intro hl k2 hk2 f hf
      rw [Option.mem_def] at hk2
      injection hk2 with hk2
      rw [← hk2, hsig] at hf
      injection hf with hf
      rw [← hf]
      exact hl s rfl
    · intro hl l hls
      injection hls with hls
      rw [← hls]
      exact hl k rfl s hsig

/-- What `getRemovableSignatures` returns when no loop closure id is set, the
keys of the working memory being distinct and `count` positive and below 2^32:
the first `count` ids, or all of them, of the list of the candidates in
ascending order of weight, age and id. -/
theorem getRemovableSignatures_of_zero (e : Env T I) (m : Memory T I) (count : Int)
    (ignoredIds ids : List Int) (hz : m.lastGlobalLoopClosureId = 0)
    (hwm : KSorted Prod.fst m.workingMem) (hpos : 0 < count) (hbound : count < 4294967296)
    (h : getRemovableSignatures e m count ignoredIds = Except.ok ids) :
    ∃ cands : List (WeightAgeIdKey × Int),
      cands.Pairwise (fun a b =>
        a.1.weight < b.1.weight ∨ (a.1.weight = b.1.weight ∧
          (a.1.age < b.1.age ∨ (a.1.age = b.1.age ∧ a.1.id < b.1.id)))) ∧
      (∀ k id, (k, id) ∈ cands ↔ ∃ t s, (id, t) ∈ m.workingMem ∧ 0 < id ∧ id ∉ ignoredIds ∧
        (∀ f ∈ m.stMem.head?, ∀ p, m._getSignature f = some p → p.hasLink id = false) ∧
        m._getSignature id = some s ∧ (∀ l ∈ s.links, l.to_ ∉ m.stMem) ∧
        k = { weight := s.weight,
              age := truncToInt (if e.transferSortingByWeightId then 0 else t),
              id := id }) ∧
      ids = (cands.map Prod.snd).take count.toNat := by
  have hcount : (count % 4294967296).toNat = count.toNat := by
    rw [Int.emod_eq_of_lt (by omega) hbound]
  have hposn : 0 < count.toNat := by omega
  unfold getRemovableSignatures at h
  split at h
  · obtain ⟨last, hlast, h⟩ := bind_eq_ok.1 h
    injection h with h
    have himm : recentWmImmunized e m = false := by
      unfold recentWmImmunized
      rw [hz]
      simp
    rw [hcount, himm, hz, selectRemovable_of_zero _ _ _ _ _ _ (by simpa using hposn)] at h
    obtain ⟨hs, hm⟩ := removalCandidates_foldl_of_zero e m ignoredIds last hz m.workingMem []
      List.Pairwise.nil (nodup_of_ascending hwm) (fun b hb => absurd hb (List.not_mem_nil _))
    refine ⟨removalCandidates e m ignoredIds last, ?_, ?_, ?_⟩
    · exact hs.imp (fun {a b} hab => (WeightAgeIdKey.lt_iff a.1 b.1).1 hab)
    · intro k id
      unfold removalCandidates
      rw [hm (k, id)]
      constructor
      · rintro (hx | ⟨id2, t, s, h1, h2, h3, h4, h5, h6, h7⟩)
        · cases hx
        · injection h7 with h7 h8
          subst h8
          exact ⟨t, s, h1, h2, h3, (lastInSTM_spec m last hlast id).1 h4, h5, h6, h7⟩
      · rintro ⟨t, s, h1, h2, h3, h4, h5, h6, h7⟩
        exact Or.inr ⟨id, t, s, h1, h2, h3, (lastInSTM_spec m last hlast id).2 h4, h5, h6,
          by rw [h7]; rfl⟩
    · rw [← h]
      simp
  · rename_i hlen
    injection h with h
    have hnil : m.workingMem = [] := by
      cases hw : m.workingMem with
      | nil => rfl
      | cons _ _ => rw [hw] at hlen; simp at hlen
    refine ⟨[], List.Pairwise.nil, ?_, ?_⟩
    · intro k id
      constructor
      · intro hx
        cases hx
      · rintro ⟨t, s, h1, _⟩
        rw [hnil] at h1
        cases h1
    · rw [← h]
      simp

end Memory

/-- Claim C16 fails on the code: outside the word-count mode, with
`signaturesAdded` 2 and only the signatures 1 and 2 in the working memory,
`forget({})` removes two signatures, not three. -/
theorem forget_removes_fewer_than_added :
    (Memory.forget (lineEnv true false 2) ((twoNodeMemory 0 0).setSignaturesAdded 2)
      []).toOption.map (fun r => (r.1, r.2.workingMem.map Prod.fst)) = some ([1, 2], [-1]) := by
  rfl

/-- Claim C16, amended: when `forget` does not use the word-count mode (memory
not incremental, or dictionary not incremental, or dictionary empty, or
incremental FLANN), with `signaturesAdded` the counter value at the time of the
call (not negative, below 2^32 - 1), `forget(ignoredIds)` removes the
signatures `getRemovableSignatures(signaturesAdded + 1, ignoredIds)` selects:
at most `signaturesAdded + 1`, and, `lastGlobalLoopClosureId` being 0, the
keys of the working memory ascending and its time stamps within the range of
`int`, the first `signaturesAdded + 1` of the eligible signatures in priority
order, or all of them when fewer are eligible.
Eligible is an entry of the working memory with a positive id that is not
ignored, to which the first signature of the STM has no link, and whose
signature is in memory without a link to a signature of the STM; the priority
order is the ascending order of the weight, then of the age (the time stamp of
the entry converted to `int`, 0 with `Mem/TransferSortingByWeightId`), then of
the id. -/
theorem forget_removes_at_most_added {T I : Type} (e : Env T I) (m : Memory T I)
    (ignoredIds : List Int) (r : List Int × Memory T I)
    (hmode : (e.incrementalMemory && m.vwd.incremental && m.vwd.visualWords.length != 0 &&
      !m.vwd.incrementalFlann) = false)
    (hadded : 0 ≤ m.signaturesAdded) (hbound : m.signaturesAdded + 1 < 4294967296)
    (h : Memory.forget e m ignoredIds = Except.ok r) :
    Memory.getRemovableSignatures e m (m.signaturesAdded + 1) ignoredIds = Except.ok r.1 ∧
    (r.1.length : Int) ≤ m.signaturesAdded + 1 ∧
    (m.lastGlobalLoopClosureId = 0 → KSorted Prod.fst m.workingMem →
      (∀ p ∈ m.workingMem, -2147483648 ≤ truncToInt p.2 ∧ truncToInt p.2 ≤ 2147483647) →
      ∃ cands : List (WeightAgeIdKey × Int),
        cands.Pairwise (fun a b =>
          a.1.weight < b.1.weight ∨ (a.1.weight = b.1.weight ∧
            (a.1.age < b.1.age ∨ (a.1.age = b.1.age ∧ a.1.id < b.1.id)))) ∧
        (∀ k id, (k, id) ∈ cands ↔
          ∃ t s, (id, t) ∈ m.workingMem ∧ 0 < id ∧ id ∉ ignoredIds ∧
            (∀ f ∈ m.stMem.head?, ∀ p, m._getSignature f = some p → p.hasLink id = false) ∧
            m._getSignature id = some s ∧ (∀ l ∈ s.links, l.to_ ∉ m.stMem) ∧
            k = { weight := s.weight,
                  age := truncToInt (if e.transferSortingByWeightId then 0 else t),
                  id := id }) ∧
        r.1 = (cands.map Prod.snd).take (m.signaturesAdded + 1).toNat) := by
  have hsel := Memory.forgetAll_ok_of_forget e m ignoredIds r h hmode
  have hcount : ((m.signaturesAdded + 1) % 4294967296).toNat = (m.signaturesAdded + 1).toNat := by
    rw [Int.emod_eq_of_lt (by omega) hbound]
  have hpos : 0 < (m.signaturesAdded + 1).toNat := by omega
  refine ⟨hsel, ?_, ?_⟩
  · unfold Memory.getRemovableSignatures at hsel
    split at hsel
    · obtain ⟨last, _, hsel⟩ := bind_eq_ok.1 hsel
      injection hsel with hsel
      rw [← hsel, hcount]
      have := selectRemovable_length m.lastGlobalLoopClosureId (Memory.currentRecentWmSize m)
        (Memory.recentWmMaxSize e m) (m.signaturesAdded + 1).toNat
        (Memory.removalCandidates e m ignoredIds last) (Memory.recentWmImmunized e m) 0 []
        (by simpa using hpos)
      omega
    · injection hsel with hsel
      rw [← hsel]
      simp only [List.length_nil, Nat.cast_zero]
      omega
  · intro hzero hwm _
    exact Memory.getRemovableSignatures_of_zero e m (m.signaturesAdded + 1) ignoredIds r.1 hzero
      hwm (by omega) hbound hsel

/-- Witness of C16 (amended): with `signaturesAdded` 2 and the signatures 1 and
2, of equal weight and age, in the working memory `forget({})` removes both, in
the order of their ids. -/
theorem forget_removes_at_most_added_witness :
    ∃ r, Memory.forget (lineEnv true false 2) ((twoNodeMemory 0 0).setSignaturesAdded 2) [] =
        Except.ok r ∧ r.1 = [1, 2] ∧
      Memory.getRemovableSignatures (lineEnv true false 2)
        ((twoNodeMemory 0 0).setSignaturesAdded 2) 3 [] = Except.ok r.1 ∧
      (r.1.length : Int) ≤ 2 + 1 ∧
      ∃ cands : List (WeightAgeIdKey × Int),
        cands.Pairwise (fun a b =>
          a.1.weight < b.1.weight ∨ (a.1.weight = b.1.weight ∧
            (a.1.age < b.1.age ∨ (a.1.age = b.1.age ∧ a.1.id < b.1.id)))) ∧
        (∀ k id, (k, id) ∈ cands ↔
          ∃ t s, (id, t) ∈ ((twoNodeMemory 0 0).setSignaturesAdded 2).workingMem ∧ 0 < id ∧
            id ∉ ([] : List Int) ∧
            (∀ f ∈ ((twoNodeMemory 0 0).setSignaturesAdded 2).stMem.head?, ∀ p,
              ((twoNodeMemory 0 0).setSignaturesAdded 2)._getSignature f = some p →
                p.hasLink id = false) ∧
            ((twoNodeMemory 0 0).setSignaturesAdded 2)._getSignature id = some s ∧
            (∀ l ∈ s.links, l.to_ ∉ ((twoNodeMemory 0 0).setSignaturesAdded 2).stMem) ∧
            k = { weight := s.weight,
                  age := truncToInt
                    (if (lineEnv true false 2).transferSortingByWeightId then 0 else t),
                  id := id }) ∧
        r.1 = (cands.map Prod.snd).take 3 :=
  ⟨_, rfl, rfl,
    (forget_removes_at_most_added (lineEnv true false 2)
      ((twoNodeMemory 0 0).setSignaturesAdded 2) [] _ rfl (by decide) (by decide) rfl).1,
    (forget_removes_at_most_added (lineEnv true false 2)
      ((twoNodeMemory 0 0).setSignaturesAdded 2) [] _ rfl (by decide) (by decide) rfl).2.1,
    (forget_removes_at_most_added (lineEnv true false 2)
      ((twoNodeMemory 0 0).setSignaturesAdded 2) [] _ rfl (by decide) (by decide) rfl).2.2
      rfl (by unfold KSorted; decide)
      (fun p hp => by
        have h : p.2 = 0 := by
          rcases List.mem_cons.1 hp with h | hp
          · rw [h]
          · rcases List.mem_cons.1 hp with h | hp
            · rw [h]
            · rw [List.mem_singleton.1 hp]
        rw [h]
        decide)⟩

/-! ## Frames of views that do not depend on the links -/

section LinkFree

variable {T I β : Type} (view : Signature T I → β)

theorem sameView_reduceLinkNeighbors (hv : ∀ (a : Signature T I) l, view { a with links := l } = view a)
    (e : Env T I) (sToId : Int) (iter : Link T I)
    (neighbors : List (Link T I)) (m m' : Memory T I)
    (h : Memory.reduceLinkNeighbors e sToId iter neighbors m = Except.ok m') :
    SameView view m m' := by
  induction neighbors generalizing m with
  | nil =>
    unfold Memory.reduceLinkNeighbors at h
    injection h with h
    rw [← h]
    exact sameView_refl view m
  | cons jter rest ih =>
    unfold Memory.reduceLinkNeighbors at h
    simp only [bind, Except.bind, pure, Except.pure] at h
    split at h
    · exact Except.noConfusion h
    · split at h
      · split at h
        · exact Except.noConfusion h
        · split at h
          · exact Except.noConfusion h
          · refine sameView_trans view ?_ (ih _ h)
            refine sameView_trans view (sameView_modifySignature view m sToId _ ?_ ?_)
              (sameView_modifySignature view _ _ _ ?_ ?_)
            · intro _; rfl
            · intro a; exact hv a _
            · intro _; rfl
            · intro a; exact hv a _
      · exact ih _ h

theorem sameView_reduceLinks (hv : ∀ (a : Signature T I) l, view { a with links := l } = view a)
    (e : Env T I) (sId : Int) (neighbors links : List (Link T I))
    (m m' : Memory T I)
    (h : Memory.reduceLinks e sId neighbors links m = Except.ok m') : SameView view m m' := by
  induction links generalizing m with
  | nil =>
    unfold Memory.reduceLinks at h
    injection h with h
    rw [← h]
    exact sameView_refl view m
  | cons iter rest ih =>
    unfold Memory.reduceLinks at h
    simp only [bind, Except.bind, pure, Except.pure] at h
    split at h
    · exact Except.noConfusion h
    · split at h
      · split at h
        · exact Except.noConfusion h
        · rename_i m1 hm1
          refine sameView_trans view ?_ (ih _ h)
          refine sameView_trans view ?_ (sameView_reduceLinkNeighbors view hv _ _ _ _ _ _ hm1)
          refine sameView_modifySignature view m _ _ ?_ ?_
          · intro _; rfl
          · intro a; exact hv a _
      · refine sameView_trans view ?_ (ih _ h)
        refine sameView_modifySignature view m _ _ ?_ ?_
        · intro _; rfl
        · intro a; exact hv a _

theorem sameView_reduceDropNeighbors
    (hv : ∀ (a : Signature T I) l, view { a with links := l } = view a)
    (sId : Int) (links : List (Link T I)) (m : Memory T I) :
    SameView view m (Memory.reduceDropNeighbors sId links m) := by
  induction links generalizing m with
  | nil => exact sameView_refl view m
  | cons iter rest ih =>
    unfold Memory.reduceDropNeighbors
    split
    · refine sameView_trans view ?_ (ih _)
      refine sameView_ite view ?_ ?_
      · refine sameView_trans view ?_ (sameView_of_signatures view rfl)
        refine sameView_modifySignature view m sId _ ?_ ?_
        · intro _; rfl
        · intro a; exact hv a _
      · refine sameView_modifySignature view m sId _ ?_ ?_
        · intro _; rfl
        · intro a; exact hv a _
    · exact ih m

theorem sameView_removeVirtualLinks
    (hv : ∀ (a : Signature T I) l, view { a with links := l } = view a)
    (m : Memory T I) (signatureId : Int) :
    SameView view m (m.removeVirtualLinks signatureId) := by
  unfold Memory.removeVirtualLinks
  cases m._getSignature signatureId with
  | none => exact sameView_refl view m
  | some s =>
    simp only []
    refine sameView_trans view (sameView_foldl view _ ?_ s.links m)
      (sameView_modifySignature view _ _ _ ?_ ?_)
    · intro m' l
      refine sameView_ite view ?_ (sameView_refl view m')
      refine sameView_modifySignature view _ _ _ ?_ ?_
      · intro _; rfl
      · intro a; exact hv a _
    · intro _; rfl
    · intro a; exact hv a _

end LinkFree

/-! ## Frames above an id -/

section Above

variable {T I β : Type} (view : Signature T I → β)

theorem sameViewAbove_refl (x : Int) (m : Memory T I) : SameViewAbove x view m m :=
  fun _ _ => rfl

theorem sameViewAbove_trans {x : Int} {a b c : Memory T I} (h1 : SameViewAbove x view a b)
    (h2 : SameViewAbove x view b c) : SameViewAbove x view a c :=
  fun i hi => (h2 i hi).trans (h1 i hi)

theorem sameViewAbove_of_sameView {x : Int} {m m' : Memory T I} (h : SameView view m m') :
    SameViewAbove x view m m' := fun i _ => h i

/-- A change of a signature whose id is not above `x` does not count. -/
theorem sameViewAbove_modify_below (x k : Int) (hk : k ≤ x) (m : Memory T I)
    (f : Signature T I → Signature T I) (hf : ∀ a, (f a).id = a.id) :
    SameViewAbove x view m (m.modifySignature k f) := by
  intro i hi
  rw [Memory.getSignature_modify_ne m f hf (by omega)]

theorem sameViewAbove_ite {x : Int} {c : Prop} [Decidable c] {m a b : Memory T I}
    (ha : SameViewAbove x view m a) (hb : SameViewAbove x view m b) :
    SameViewAbove x view m (if c then a else b) := by
  split <;> assumption

theorem sameViewAbove_moveToTrashUnlink
    (hv : ∀ (a : Signature T I) l, view { a with links := l } = view a)
    (sId sWeight : Int) (links : List (Link T I)) (m m' : Memory T I)
    (h : Memory.moveToTrashUnlink sId sWeight links m = Except.ok m') :
    SameViewAbove sId view m m' := by
  induction links generalizing m with
  | nil =>
    simp only [Memory.moveToTrashUnlink, pure, Except.pure] at h
    injection h with h
    rw [← h]
    exact sameViewAbove_refl view sId m
  | cons l rest ih =>
    unfold Memory.moveToTrashUnlink at h
    cases hs : m._getSignature l.to_ with
    | none => simp [hs, throw, throwThe, MonadExceptOf.throw] at h
    | some sTo =>
      simp only [hs] at h
      refine sameViewAbove_trans view ?_ (ih _ h)
      refine sameViewAbove_trans view ?_ (sameViewAbove_of_sameView view
        (sameView_modifySignature view _ _ _ ?_ ?_))
      · by_cases hc : (l.type == LinkType.kGlobalClosure && decide (sId > sTo.id)) = true
        · rw [if_pos hc]
          simp only [Bool.and_eq_true, decide_eq_true_eq] at hc
          exact sameViewAbove_modify_below view sId sTo.id (by omega) m _ (fun _ => rfl)
        · rw [if_neg hc]
          exact sameViewAbove_refl view sId m
      · intro _; rfl
      · intro a; exact hv a _

theorem sameViewAbove_moveToTrashLinks
    (hv : ∀ (a : Signature T I) l, view { a with links := l } = view a)
    (e : Env T I) (m m1 : Memory T I) (s : Signature T I)
    ( keep : Bool) (h : Memory.moveToTrashLinks e m s keep = Except.ok m1) :
    SameViewAbove s.id view m m1 := by
  unfold Memory.moveToTrashLinks at h
  split at h
  · obtain ⟨_, _, h⟩ := bind_eq_ok.1 h
    obtain ⟨m2, h2, h⟩ := bind_eq_ok.1 h
    injection h with h
    rw [← h]
    exact sameViewAbove_trans view (sameViewAbove_moveToTrashUnlink view hv _ _ _ _ _ h2)
      (sameViewAbove_modify_below view s.id s.id (le_refl _) _ _ (fun _ => rfl))
  · injection h with h
    rw [← h]
    exact sameViewAbove_of_sameView view (sameView_removeVirtualLinks view hv m s.id)

end Above

/-! ## The weights of the younger signatures under a migration -/

namespace Memory

variable {T I : Type}

theorem weightAbove_moveToTrash (e : Env T I) (m m' : Memory T I) (sId : Int) ( keep : Bool)
    (h : moveToTrash e m sId keep = Except.ok m') :
    SameViewAbove sId Signature.weight m m' := by
  unfold moveToTrash at h
  obtain ⟨r, hr, h⟩ := bind_eq_ok.1 h
  injection h with h
  rw [← h]
  unfold moveToTrashFull at hr
  cases hs : m._getSignature sId with
  | none =>
    rw [hs] at hr
    injection hr with hr
    rw [← hr]
    exact sameViewAbove_refl _ sId m
  | some s =>
    rw [hs] at hr
    have hid : s.id = sId := getSignature_id hs
    obtain ⟨m1, h1, hr⟩ := bind_eq_ok.1 hr
    obtain ⟨s1, _, hr⟩ := bind_eq_ok.1 hr
    injection hr with hr
    rw [← hr, hid]
    have k1 := sameViewAbove_moveToTrashLinks Signature.weight (fun _ _ => rfl) e m m1 s keep h1
    rw [hid] at k1
    refine sameViewAbove_trans _ k1 ?_
    have k2 : SameView Signature.weight m1 (m1.disableWordsRef sId) := by
      unfold disableWordsRef
      cases m1._getSignature sId with
      | none => exact sameView_refl _ m1
      | some ss =>
        simp only []
        split
        · exact sameView_trans _ (sameView_of_signatures _ rfl)
            (sameView_modifySignature _ _ _ _ (fun _ => rfl) (fun _ => rfl))
        · exact sameView_refl _ m1
    refine sameViewAbove_trans _ (sameViewAbove_of_sameView _ k2) ?_
    intro j hj
    simp only []
    rw [getSignature_moveToTrashSave, getSignature_moveToTrashLast,
      getSignature_moveToTrashErase, if_neg (by omega), getSignature_moveToTrashDictionary]

theorem weightAbove_reduceNode (e : Env T I) (m m' : Memory T I) (s : Signature T I)
    (h : reduceNode e m s = Except.ok m') : SameViewAbove s.id Signature.weight m m' := by
  unfold reduceNode at h
  obtain ⟨m1, h1, h⟩ := bind_eq_ok.1 h
  obtain ⟨s1, _, h⟩ := bind_eq_ok.1 h
  refine sameViewAbove_trans _ ?_ (weightAbove_moveToTrash e _ m' s.id _ h)
  refine sameViewAbove_of_sameView _ ?_
  exact sameView_trans Signature.weight
    (sameView_reduceLinks Signature.weight (fun _ _ => rfl) _ _ _ _ _ _ h1)
    (sameView_reduceDropNeighbors Signature.weight (fun _ _ => rfl) _ _ _)

/-- A migration of the signature `id` leaves the weights of the signatures with
a greater id as they are. -/
theorem weightAbove_moveSignatureToWMFromSTM (e : Env T I) (m : Memory T I)
    (id reducedTo : Int) (now : Rat) (s : Signature T I) (r : Memory T I × Int)
    (hs : m._getSignature id = some s)
    (h : moveSignatureToWMFromSTM e m id reducedTo now = Except.ok r) :
    SameViewAbove id Signature.weight m r.1 := by
  have hid := getSignature_id hs
  rcases moveSignatureToWMFromSTM_cases e m id reducedTo now s r hs h with
    ⟨_, hnode, _⟩ | ⟨_, first, _, hr1, _⟩
  · have := weightAbove_reduceNode e m r.1 s hnode
    rw [hid] at this
    exact this
  · rw [hr1]
    exact sameViewAbove_of_sameView _ (sameView_of_signatures _ rfl)

theorem notIntermediate_congr {m m' : Memory T I} {i : Int}
    (h : (m'._getSignature i).map Signature.weight = (m._getSignature i).map Signature.weight) :
    m'.notIntermediate i = m.notIntermediate i := by
  unfold notIntermediate
  cases h1 : m._getSignature i <;> cases h2 : m'._getSignature i <;>
    simp [h1, h2] at h ⊢
  rw [h]

theorem filter_congr_of_mem {l : List Int} {p q : Int → Bool} (h : ∀ i ∈ l, p i = q i) :
    l.filter p = l.filter q :=
  List.filter_congr h

/-- The STM head leaves the STM by `moveSignatureToWMFromSTM`: the count of the
STM signatures that are not intermediate drops by one when the head is not
intermediate and stays otherwise. -/
theorem stmCount_moveSignatureToWMFromSTM (e : Env T I) (m : Memory T I) (id reducedTo : Int)
    (now : Rat) (s : Signature T I) (r : Memory T I × Int)
    (hsorted : m.stMem.Pairwise (fun a b => a < b)) (hhead : m.stMem.head? = some id)
    (hs : m._getSignature id = some s)
    (h : moveSignatureToWMFromSTM e m id reducedTo now = Except.ok r) :
    r.1.stmCount = if s.weight ≥ 0 then m.stmCount - 1 else m.stmCount := by
  have hw := weightAbove_moveSignatureToWMFromSTM e m id reducedTo now s r hs h
  have hst : r.1.stMem = kerase selfKey id m.stMem := by
    rcases (moveSignatureToWMFromSTM_tiers e m id reducedTo now r h).2 with
      ht | ⟨first, hf, h1, _⟩
    · exact ht.1
    · rw [hhead] at hf
      injection hf with hf
      rw [h1, hf]
  cases hl : m.stMem with
  | nil => rw [hl] at hhead; simp at hhead
  | cons a rest =>
    rw [hl] at hhead hsorted
    simp only [List.head?_cons, Option.some.injEq] at hhead
    subst hhead
    rw [List.pairwise_cons] at hsorted
    have hrest : kerase selfKey a (a :: rest) = rest := by
      unfold kerase
      rw [List.filter_cons]
      simp only [selfKey, bne_self_eq_false, Bool.false_eq_true, if_false]
      rw [List.filter_eq_self]
      intro b hb
      have := hsorted.1 b hb
      simp only [bne_iff_ne, ne_eq]
      omega
    unfold stmCount
    rw [hst, hl, hrest]
    have hcongr : rest.filter r.1.notIntermediate = rest.filter m.notIntermediate := by
      apply filter_congr_of_mem
      intro i hi
      exact notIntermediate_congr (hw i (hsorted.1 i hi))
    rw [hcongr, List.filter_cons]
    have hna : m.notIntermediate a = decide (s.weight ≥ 0) := by
      unfold notIntermediate
      rw [hs]
    rw [hna]
    by_cases hwt : s.weight ≥ 0
    · simp only [hwt, decide_True, if_true, List.length_cons, Nat.cast_add, Nat.cast_one]
      omega
    · simp only [hwt, decide_False, Bool.false_eq_true, if_false]

theorem countNotIntermediate_eq (m : Memory T I) (l : List Int) (n : Int)
    (h : countNotIntermediate m l = Except.ok n) :
    n = ((l.filter m.notIntermediate).length : Int) := by
  induction l generalizing n with
  | nil =>
    unfold countNotIntermediate at h
    injection h with h
    rw [← h]
    rfl
  | cons i rest ih =>
    unfold countNotIntermediate at h
    cases hs : m._getSignature i with
    | none =>
      rw [hs] at h
      exact Except.noConfusion h
    | some s =>
      rw [hs] at h
      obtain ⟨n', hn', h⟩ := bind_eq_ok.1 h
      injection h with h
      have := ih n' hn'
      rw [List.filter_cons]
      have hna : m.notIntermediate i = decide (s.weight ≥ 0) := by
        unfold notIntermediate
        rw [hs]
      rw [hna, ← h, this]
      by_cases hwt : s.weight ≥ 0
      · simp [hwt]
      · simp [hwt]

theorem stMem_moveSignatureToWMFromSTM (e : Env T I) (m : Memory T I) (id reducedTo : Int)
    (now : Rat) (r : Memory T I × Int) (hhead : m.stMem.head? = some id)
    (h : moveSignatureToWMFromSTM e m id reducedTo now = Except.ok r) :
    r.1.stMem = kerase selfKey id m.stMem := by
  rcases (moveSignatureToWMFromSTM_tiers e m id reducedTo now r h).2 with
    ht | ⟨first, hf, h1, _⟩
  · exact ht.1
  · rw [hhead] at hf
    injection hf with hf
    rw [h1, hf]

/-- The transfer loop of `update` keeps its counter equal to the number of STM
signatures that are not intermediate, and with as many rounds as the STM has
entries it ends on the exit condition of the loop: an empty STM, or a counter
within a positive STM size. -/
theorem updateTransfer_stmCount (e : Env T I) (clock : Nat → Rat) (fuel k : Nat) (n : Int)
    (reducedIds : List (Int × Int)) (m : Memory T I) (r : List (Int × Int) × Memory T I)
    (h : updateTransfer e clock fuel k n reducedIds m = Except.ok r)
    (hsorted : m.stMem.Pairwise (fun a b => a < b)) (hn : n = m.stmCount)
    (hfuel : m.stMem.length ≤ fuel) :
    r.2.stMem = [] ∨ ¬ (e.maxStMemSize > 0 ∧ r.2.stmCount > e.maxStMemSize) := by
  induction fuel generalizing k n reducedIds m with
  | zero =>
    unfold updateTransfer at h
    injection h with h
    rw [← h]
    exact Or.inl (List.eq_nil_of_length_eq_zero (Nat.le_zero.1 hfuel))
  | succ fuel ih =>
    unfold updateTransfer at h
    cases hh : m.stMem.head? with
    | none =>
      rw [hh] at h
      injection h with h
      rw [← h]
      exact Or.inl (List.head?_eq_none_iff.1 hh)
    | some id =>
      rw [hh] at h
      simp only [] at h
      split at h
      · cases hs : m._getSignature id with
        | none =>
          rw [hs] at h
          exact Except.noConfusion h
        | some s =>
          rw [hs] at h
          simp only [bind, Except.bind] at h
          split at h
          · exact Except.noConfusion h
          · rename_i v hv
            have hcount := stmCount_moveSignatureToWMFromSTM e m id 0 (clock k) s v hsorted hh hs hv
            have hlen := moveSignatureToWMFromSTM_stMem_length _ _ _ _ _ _ hv
            have hst := stMem_moveSignatureToWMFromSTM e m id 0 (clock k) v hh hv
            refine ih _ _ _ v.1 h ?_ ?_ (by omega)
            · rw [hst]
              exact pairwise_kerase hsorted
            · rw [hcount, hn]
      · rename_i hc
        injection h with h
        rw [← h]
        right
        simp only [Bool.and_eq_true, decide_eq_true_eq] at hc
        rw [← hn]
        exact hc

/-- One more round than the STM has entries changes nothing in the transfer
loop of `update`. -/
theorem updateTransfer_fuel_succ (e : Env T I) (clock : Nat → Rat) (fuel k : Nat) (n : Int)
    (reducedIds : List (Int × Int)) (m : Memory T I) (hfuel : m.stMem.length ≤ fuel) :
    updateTransfer e clock (fuel + 1) k n reducedIds m =
      updateTransfer e clock fuel k n reducedIds m := by
  induction fuel generalizing k n reducedIds m with
  | zero =>
    have hnil := List.eq_nil_of_length_eq_zero (Nat.le_zero.1 hfuel)
    unfold updateTransfer
    rw [hnil]
    rfl
  | succ fuel ih =>
    rw [updateTransfer.eq_def e clock (fuel + 1 + 1), updateTransfer.eq_def e clock (fuel + 1)]
    simp only []
    cases hh : m.stMem.head? with
    | none => rfl
    | some id =>
      simp only []
      split
      · cases hs : m._getSignature id with
        | none => rfl
        | some s =>
          simp only [bind, Except.bind]
          cases hv : moveSignatureToWMFromSTM e m id 0 (clock k) with
          | error f => rfl
          | ok v =>
            simp only []
            have hlen := moveSignatureToWMFromSTM_stMem_length _ _ _ _ _ _ hv
            exact ih _ _ _ v.1 (by omega)
      · rfl

/-- The transfer loop of `update` ends within as many rounds as the STM has
entries: more rounds give the same outcome. -/
theorem updateTransfer_fuel (e : Env T I) (clock : Nat → Rat) (fuel k : Nat) (n : Int)
    (reducedIds : List (Int × Int)) (m : Memory T I) (hfuel : m.stMem.length ≤ fuel) :
    updateTransfer e clock fuel k n reducedIds m =
      updateTransfer e clock m.stMem.length k n reducedIds m := by
  induction fuel with
  | zero =>
    rw [Nat.le_zero.1 hfuel]
  | succ fuel ih =>
    by_cases hlt : m.stMem.length ≤ fuel
    · rw [updateTransfer_fuel_succ e clock fuel k n reducedIds m hlt]
      exact ih hlt
    · have : m.stMem.length = fuel + 1 := by omega
      rw [this]

end Memory

/-! ## The size of the STM after an update -/

namespace Memory

variable {T I : Type}

theorem stmCount_of_stMem_nil (m : Memory T I) (h : m.stMem = []) : m.stmCount = 0 := by
  unfold stmCount
  rw [h]
  rfl

theorem stmCount_setMemoryChanged (m : Memory T I) (b : Bool) :
    (m.setMemoryChanged b).stmCount = m.stmCount := rfl

/-- After `updateAdd` on a memory with an ascending STM the exit condition of
the transfer loop holds. -/
theorem updateAdd_stmCount (e : Env T I) (m : Memory T I) (s : Signature T I) (infMatrix : I)
    (clock : Nat → Rat) (r : List (Int × Int) × Memory T I)
    (h : updateAdd e m s infMatrix clock = Except.ok r)
    (hsorted : m.stMem.Pairwise (fun a b => a < b)) :
    r.2.stMem = [] ∨ ¬ (e.maxStMemSize > 0 ∧ r.2.stmCount > e.maxStMemSize) := by
  unfold updateAdd at h
  obtain ⟨m1, h1, h⟩ := bind_eq_ok.1 h
  obtain ⟨m2, h2, h⟩ := bind_eq_ok.1 h
  obtain ⟨n, hn, h⟩ := bind_eq_ok.1 h
  have hs1 : m1.stMem.Pairwise (fun a b => a < b) := by
    rw [(addSignatureToStm_tiers e m m1 s infMatrix h1).1]
    exact pairwise_kinsert hsorted
  have hs2 : m2.stMem.Pairwise (fun a b => a < b) := by
    split at h2
    · rcases rehearsal_tiers _ _ _ _ h2 with ht | ⟨k, ht⟩
      · rw [ht.1]
        exact hs1
      · rw [ht.1]
        exact pairwise_kerase hs1
    · injection h2 with h2
      rw [← h2]
      exact hs1
  exact updateTransfer_stmCount e clock _ 0 n [] m2 r h hs2
    (countNotIntermediate_eq m2 m2.stMem n hn) (Nat.le_refl _)

end Memory

/-- Claim C18: with an STM size of at least 1, after `update` returns true on a
memory whose STM is an ordered set, the number of STM signatures that are not
intermediate (weight >= 0) is at most the STM size; and the migration loop of
`update` terminates: from every memory it ends within as many rounds as the STM
has entries, more rounds give the same outcome. -/
theorem update_stm_within_size {T I : Type} (e : Env T I) (m : Memory T I) (data : SensorData)
    (pose : T) (infMatrix : I) (clock : Nat → Rat) (reducedIds : List (Int × Int))
    (m' : Memory T I) (hsorted : KSorted selfKey m.stMem) (hsize : 1 ≤ e.maxStMemSize)
    (h : Memory.update e m data pose infMatrix clock = Except.ok (true, reducedIds, m')) :
    m'.stmCount ≤ e.maxStMemSize ∧
    ∀ (fuel k : Nat) (n : Int) (reduced : List (Int × Int)) (mm : Memory T I),
      mm.stMem.length ≤ fuel →
      Memory.updateTransfer e clock fuel k n reduced mm =
        Memory.updateTransfer e clock mm.stMem.length k n reduced mm := by
  refine ⟨?_, fun fuel k n reduced mm hf => Memory.updateTransfer_fuel e clock fuel k n reduced mm hf⟩
  unfold Memory.update at h
  obtain ⟨c, hc, h⟩ := bind_eq_ok.1 h
  obtain ⟨c1, _, _, _, _⟩ := Memory.createSignature_spec _ _ _ _ _ hc
  cases hs : c.1 with
  | none =>
    rw [hs] at h
    injection h with h
    injection h with h
    exact Bool.noConfusion h
  | some s =>
    rw [hs] at h
    obtain ⟨t, ht, h⟩ := bind_eq_ok.1 h
    injection h with h
    injection h with _ h
    injection h with _ h
    have hsc : c.2.stMem.Pairwise (fun a b => a < b) := by
      rw [c1, (SameTiers.preUpdate e m).1]
      exact kSorted_selfKey.1 hsorted
    have hexit := Memory.updateAdd_stmCount e c.2 s infMatrix clock t ht hsc
    have hcount : m'.stmCount = t.2.stmCount := by
      rw [← h]
      split <;> rfl
    rw [hcount]
    rcases hexit with hnil | hle
    · rw [Memory.stmCount_of_stMem_nil _ hnil]
      omega
    · by_contra hgt
      exact hle ⟨by omega, by omega⟩

/-- Witness of C18: with an STM size of 1 an update of a memory whose STM
already holds the node 1 returns true and leaves only the new node 2 in the
STM. -/
theorem update_stm_within_size_witness :
    KSorted selfKey ((lineMemory [lineSignature 1 0 (some 0) []] [1] [(-1, 0)]).setIdCount 1).stMem ∧
    ∃ reducedIds m',
      Memory.update (lineEnv true false 1)
        ((lineMemory [lineSignature 1 0 (some 0) []] [1] [(-1, 0)]).setIdCount 1)
        ⟨0, false, true, false, []⟩ (some 1) () (fun _ => 0) = Except.ok (true, reducedIds, m') ∧
      m'.stMem = [2] ∧ m'.stmCount ≤ 1 :=
  ⟨List.pairwise_singleton _ _, _, _, rfl, rfl,
    (update_stm_within_size (lineEnv true false 1)
      ((lineMemory [lineSignature 1 0 (some 0) []] [1] [(-1, 0)]).setIdCount 1)
      ⟨0, false, true, false, []⟩ (some 1) () (fun _ => 0) _ _ (List.pairwise_singleton _ _) (by decide) rfl).1⟩

/-! ## An update with the STM size 0 -/

namespace Memory

variable {T I : Type}

theorem rehearsalFullMerge_trashes (e : Env T I) (m m' : Memory T I) (oldS newS : Signature T I)
    (oldId newId : Int) (h : rehearsalFullMerge e m oldS newS oldId newId = Except.ok m') :
    SameTiers m m' ∨ Trashed oldS.id m m' ∨ Trashed newS.id m m' := by
  unfold rehearsalFullMerge at h
  obtain ⟨l, _, h⟩ := bind_eq_ok.1 h
  obtain ⟨m1, h1, h⟩ := bind_eq_ok.1 h
  have hst : SameTiers m m1 := by
    have h0 : SameTiers m ((m.modifySignature oldS.id (fun s => s.removeLink newId)).modifySignature
        newS.id (fun s => s.removeLink oldId)) := by
      refine SameTiers.trans ?_ (SameTiers.modifySignature _ _ _ ?_)
      · refine SameTiers.modifySignature _ _ _ ?_
        intro _; rfl
      · intro _; rfl
    split at h1
    · exact SameTiers.trans h0 (rehearsalMergeIntoNew_sameTiers _ _ _ _ _ _ h1)
    · exact SameTiers.trans h0 (rehearsalMergeIntoOld_sameTiers _ _ _ _ _ h1)
  rcases moveToTrash_tiers e m1 m' _ _ h with ⟨_, hm⟩ | ⟨_, _, ht⟩
  · rw [hm]
    exact Or.inl hst
  · have := Trashed.of_sameTiers_left hst ht
    by_cases hc : e.idUpdatedToNewOneRehearsal = true
    · rw [if_pos hc] at this
      exact Or.inr (Or.inl this)
    · rw [if_neg hc] at this
      exact Or.inr (Or.inr this)

theorem rehearsalMerge_trashes (e : Env T I) (m : Memory T I) (oldId newId : Int)
    (r : Bool × Memory T I) (h : rehearsalMerge e m oldId newId = Except.ok r) :
    SameTiers m r.2 ∨ Trashed oldId m r.2 ∨ Trashed newId m r.2 := by
  unfold rehearsalMerge at h
  cases ho : m._getSignature oldId with
  | none =>
    rw [ho] at h
    injection h with h
    rw [← h]
    exact Or.inl (SameTiers.refl m)
  | some oldS =>
    cases hn : m._getSignature newId with
    | none =>
      rw [ho, hn] at h
      injection h with h
      rw [← h]
      exact Or.inl (SameTiers.refl m)
    | some newS =>
      rw [ho, hn] at h
      simp only [] at h
      split at h
      · injection h with h
        rw [← h]
        exact Or.inl (SameTiers.refl m)
      · split at h
        · injection h with h
          rw [← h]
          exact Or.inl (SameTiers.refl m)
        · obtain ⟨_, _, h⟩ := bind_eq_ok.1 h
          obtain ⟨first, _, h⟩ := bind_eq_ok.1 h
          split at h
          · injection h with h
            rw [← h]
            exact Or.inl (SameTiers.refl m)
          · split at h
            · obtain ⟨m1, h1, h⟩ := bind_eq_ok.1 h
              injection h with h
              rw [← h]
              have := rehearsalFullMerge_trashes _ _ _ _ _ _ _ h1
              rw [getSignature_id ho, getSignature_id hn] at this
              exact this
            · injection h with h
              rw [← h]
              exact Or.inl (SameTiers.rehearsalWeights _ _ _ _ _)

theorem rehearsalCandidate_spec (m : Memory T I) (signatureId : Int) (l : List Int)
    (sB : Signature T I) (h : rehearsalCandidate m signatureId l = Except.ok (some sB)) :
    sB.id ∈ l ∧ sB.id ≠ signatureId := by
  induction l with
  | nil =>
    unfold rehearsalCandidate at h
    injection h with h
    exact Option.noConfusion h
  | cons i rest ih =>
    unfold rehearsalCandidate at h
    cases hs : m._getSignature i with
    | none =>
      rw [hs] at h
      exact Except.noConfusion h
    | some s =>
      rw [hs] at h
      simp only [] at h
      split at h
      · rename_i hc
        injection h with h
        injection h with h
        rw [← h]
        simp only [Bool.and_eq_true, decide_eq_true_eq, bne_iff_ne, ne_eq] at hc
        exact ⟨by rw [getSignature_id hs]; exact List.mem_cons_self _ _, hc.2⟩
      · exact ⟨List.mem_cons_of_mem _ (ih h).1, (ih h).2⟩

/-- A rehearsal of a signature of the STM leaves the STM as it is or takes one
id out of it and leaves another one in. -/
theorem rehearsal_stMem (e : Env T I) (m m' : Memory T I) (signatureId : Int)
    (hmem : signatureId ∈ m.stMem)
    (h : rehearsal e m signatureId = Except.ok m') :
    m'.stMem = m.stMem ∨ ∃ k j, m'.stMem = kerase selfKey k m.stMem ∧ j ∈ m.stMem ∧ j ≠ k := by
  unfold rehearsal at h
  obtain ⟨signature, hsig, h⟩ := bind_eq_ok.1 h
  have hid : signature.id = signatureId := getSignature_id (deref_eq_ok.1 hsig)
  split at h
  · injection h with h
    rw [← h]
    exact Or.inl rfl
  · obtain ⟨c, hc, h⟩ := bind_eq_ok.1 h
    cases c with
    | none =>
      injection h with h
      rw [← h]
      exact Or.inl rfl
    | some sB =>
      obtain ⟨c1, c2⟩ := rehearsalCandidate_spec m signature.id _ sB hc
      rw [List.mem_reverse] at c1
      simp only [] at h
      split at h
      · split at h
        · obtain ⟨r, hr, h⟩ := bind_eq_ok.1 h
          injection h with h
          rw [← h]
          rcases rehearsalMerge_trashes _ _ _ _ _ hr with ht | ht | ht
          · exact Or.inl ht.1
          · exact Or.inr ⟨_, signatureId, ht.1, hmem, by rw [← hid]; exact fun h => c2 h.symm⟩
          · exact Or.inr ⟨_, sB.id, ht.1, c1, c2⟩
        · injection h with h
          rw [← h]
          exact Or.inl rfl
      · injection h with h
        rw [← h]
        exact Or.inl rfl

/-- With the STM size 0 the transfer loop of `update` does not run. -/
theorem updateTransfer_of_zero (e : Env T I) (clock : Nat → Rat) (fuel k : Nat) (n : Int)
    (reducedIds : List (Int × Int)) (m : Memory T I) (hzero : e.maxStMemSize = 0) :
    updateTransfer e clock fuel k n reducedIds m = Except.ok (reducedIds, m) := by
  cases fuel with
  | zero => rfl
  | succ fuel =>
    unfold updateTransfer
    cases m.stMem.head? with
    | none => rfl
    | some id =>
      simp only [hzero, gt_iff_lt, lt_self_iff_false, decide_False, Bool.false_and,
        Bool.false_eq_true, if_false]
      rfl

/-- With the STM size 0 `updateAdd` returns no reduced id and leaves the STM
with an entry. -/
theorem updateAdd_of_zero (e : Env T I) (m : Memory T I) (s : Signature T I) (infMatrix : I)
    (clock : Nat → Rat) (r : List (Int × Int) × Memory T I) (hzero : e.maxStMemSize = 0)
    (h : updateAdd e m s infMatrix clock = Except.ok r) :
    r.1 = [] ∧ r.2.stMem ≠ [] := by
  unfold updateAdd at h
  obtain ⟨m1, h1, h⟩ := bind_eq_ok.1 h
  obtain ⟨m2, h2, h⟩ := bind_eq_ok.1 h
  obtain ⟨n, hn, h⟩ := bind_eq_ok.1 h
  rw [updateTransfer_of_zero e clock _ _ _ _ _ hzero] at h
  injection h with h
  rw [← h]
  refine ⟨rfl, ?_⟩
  have hmem : s.id ∈ m1.stMem := by
    rw [(addSignatureToStm_tiers e m m1 s infMatrix h1).1]
    exact mem_kinsert_selfKey.2 (Or.inr rfl)
  split at h2
  · rcases rehearsal_stMem e (m1.setLastSignature (some s.id)) m2 s.id hmem h2 with
      ht | ⟨k, j, ht, hj, hjk⟩
    · intro hnil
      rw [ht] at hnil
      change m1.stMem = [] at hnil
      rw [hnil] at hmem
      exact List.not_mem_nil _ hmem
    · intro hnil
      have : j ∈ m2.stMem := by
        rw [ht]
        exact mem_kerase_selfKey.2 ⟨hj, hjk⟩
      rw [hnil] at this
      exact List.not_mem_nil _ this
  · injection h2 with h2
    rw [← h2]
    intro hnil
    change m1.stMem = [] at hnil
    rw [hnil] at hmem
    exact List.not_mem_nil _ hmem

end Memory

/-- Counterexample to C19: with the STM size 0 an update of the empty memory
returns true and leaves the new signature 1 in the STM; the working memory
holds the virtual place only. -/
theorem update_stm_size_zero_not_empty :
    ∃ reducedIds m',
      Memory.update (lineEnv true false 0) (lineMemory [] [] [(-1, 0)])
        ⟨0, false, true, false, []⟩ (some 0) () (fun _ => 0) = Except.ok (true, reducedIds, m') ∧
      m'.stMem = [1] ∧ m'.workingMem = [(-1, 0)] :=
  ⟨_, _, rfl, rfl, rfl⟩

/-- Claim C19, amended: with the STM size 0 the migration loop of `update` does
not run, from every memory it returns its input; every update that returns true
reports no reduced id and leaves the STM with an entry, for every prior
state. -/
theorem update_stm_size_zero {T I : Type} (e : Env T I) (m : Memory T I) (data : SensorData)
    (pose : T) (infMatrix : I) (clock : Nat → Rat) (reducedIds : List (Int × Int))
    (m' : Memory T I) (hzero : e.maxStMemSize = 0)
    (h : Memory.update e m data pose infMatrix clock = Except.ok (true, reducedIds, m')) :
    reducedIds = [] ∧ m'.stMem ≠ [] ∧
    ∀ (fuel k : Nat) (n : Int) (reduced : List (Int × Int)) (mm : Memory T I),
      Memory.updateTransfer e clock fuel k n reduced mm = Except.ok (reduced, mm) := by
  refine ⟨?_, ?_, fun fuel k n reduced mm =>
    Memory.updateTransfer_of_zero e clock fuel k n reduced mm hzero⟩
  all_goals
    unfold Memory.update at h
    obtain ⟨c, hc, h⟩ := bind_eq_ok.1 h
    cases hs : c.1 with
    | none =>
      rw [hs] at h
      injection h with h
      injection h with h
      exact Bool.noConfusion h
    | some s =>
      rw [hs] at h
      obtain ⟨t, ht, h⟩ := bind_eq_ok.1 h
      injection h with h
      injection h with _ h
      injection h with h1 h2
      have hz := Memory.updateAdd_of_zero e c.2 s infMatrix clock t hzero ht
      first
        | (rw [← h1]; exact hz.1)
        | (have hst : m'.stMem = t.2.stMem := by
            rw [← h2]
            split <;> rfl
           rw [hst]
           exact hz.2)

/-- Witness of C19 as amended: the update of the empty memory with the STM size
0 returns true without a reduced id and with the STM [1]. -/
theorem update_stm_size_zero_witness :
    (lineEnv true false 0).maxStMemSize = 0 ∧
    ∃ reducedIds m',
      Memory.update (lineEnv true false 0) (lineMemory [] [] [(-1, 0)])
        ⟨0, false, true, false, []⟩ (some 0) () (fun _ => 0) = Except.ok (true, reducedIds, m') ∧
      reducedIds = [] ∧ m'.stMem ≠ [] :=
  ⟨rfl, _, _, rfl,
    (update_stm_size_zero (lineEnv true false 0) (lineMemory [] [] [(-1, 0)])
      ⟨0, false, true, false, []⟩ (some 0) () (fun _ => 0) _ _ rfl rfl).1,
    (update_stm_size_zero (lineEnv true false 0) (lineMemory [] [] [(-1, 0)])
      ⟨0, false, true, false, []⟩ (some 0) () (fun _ => 0) _ _ rfl rfl).2.1⟩

/-! ## The id counter -/

namespace Memory

variable {T I : Type}

theorem idCount_of_tiers {m m' : Memory T I}
    (h : SameTiers m m' ∨ ∃ k, Trashed k m m') : m'.idCount = m.idCount := by
  rcases h with h | ⟨k, h⟩
  · exact h.2.2.2
  · exact h.2.2.2

theorem moveToTrash_idCount (e : Env T I) (m m' : Memory T I) (sId : Int) ( keep : Bool)
    (h : moveToTrash e m sId keep = Except.ok m') : m'.idCount = m.idCount := by
  rcases moveToTrash_tiers e m m' sId keep h with ⟨_, rfl⟩ | ⟨s, _, ht⟩
  · rfl
  · exact ht.2.2.2

theorem moveSignatureToWMFromSTM_idCount (e : Env T I) (m : Memory T I) (id reducedTo : Int)
    (now : Rat) (r : Memory T I × Int)
    (h : moveSignatureToWMFromSTM e m id reducedTo now = Except.ok r) :
    r.1.idCount = m.idCount := by
  rcases (moveSignatureToWMFromSTM_tiers e m id reducedTo now r h).2 with
    ht | ⟨first, _, _, _, _, h4⟩
  · exact ht.2.2.2
  · exact h4

theorem forgetAll_idCount (e : Env T I) (ids : List Int) (m m' : Memory T I)
    (h : forgetAll e ids m = Except.ok m') : m'.idCount = m.idCount := by
  induction ids generalizing m with
  | nil =>
    unfold forgetAll at h
    injection h with h
    rw [← h]
  | cons sId rest ih =>
    unfold forgetAll at h
    obtain ⟨m1, h1, h⟩ := bind_eq_ok.1 h
    exact (ih m1 h).trans (moveToTrash_idCount e m m1 sId true h1)

theorem forgetByWords_idCount (e : Env T I) (ignoredIds : List Int) (newWords : Int)
    (fuel : Nat) (wordsRemoved : Int) (removed : List Int) (m : Memory T I)
    (r : List Int × Memory T I)
    (h : forgetByWords e ignoredIds newWords fuel wordsRemoved removed m = Except.ok r) :
    r.2.idCount = m.idCount := by
  induction fuel generalizing wordsRemoved removed m with
  | zero =>
    unfold forgetByWords at h
    injection h with h
    rw [← h]
  | succ fuel ih =>
    unfold forgetByWords at h
    split at h
    · obtain ⟨l, _, h⟩ := bind_eq_ok.1 h
      split at h
      · obtain ⟨m1, h1, h⟩ := bind_eq_ok.1 h
        exact (ih _ _ m1 h).trans (moveToTrash_idCount e m m1 _ true h1)
      · injection h with h
        rw [← h]
    · injection h with h
      rw [← h]

theorem forget_idCount (e : Env T I) (m : Memory T I) (ignoredIds : List Int)
    (r : List Int × Memory T I) (h : forget e m ignoredIds = Except.ok r) :
    r.2.idCount = m.idCount := by
  unfold forget at h
  split at h
  · exact forgetByWords_idCount _ _ _ _ _ _ _ _ h
  · obtain ⟨l, _, h⟩ := bind_eq_ok.1 h
    obtain ⟨m1, h1, h⟩ := bind_eq_ok.1 h
    injection h with h
    rw [← h]
    exact forgetAll_idCount e l m m1 h1

theorem reactivateInsert_idCount (clock : Nat → Rat) (l : List (Signature T I)) (k : Nat)
    (m : Memory T I) : (reactivateInsert clock l k m).idCount = m.idCount := by
  induction l generalizing k m with
  | nil => rfl
  | cons s rest ih =>
    unfold reactivateInsert
    exact (ih (k + 1) _).trans (addSignatureToWmFromLTM_tiers m s (clock k)).2.2.2

theorem reactivateSignatures_idCount (e : Env T I) (m : Memory T I) (ids : List Int)
    (maxLoaded : Nat) (clock : Nat → Rat) :
    (reactivateSignatures e m ids maxLoaded clock).2.idCount = m.idCount := by
  unfold reactivateSignatures
  simp only []
  exact ((SameTiers.enableWordsRef e _ _).2.2.2).trans (reactivateInsert_idCount clock _ 0 m)

theorem addLink_idCount (e : Env T I) (m : Memory T I) (link : Link T I)
    (r : Bool × Memory T I) (h : addLink e m link = Except.ok r) : r.2.idCount = m.idCount := by
  unfold addLink at h
  obtain ⟨_, _, h⟩ := bind_eq_ok.1 h
  split at h
  · simp only [pure, Except.pure, bind, Except.bind] at h
    repeat' split at h
    all_goals first
      | exact Except.noConfusion h
      | (injection h with h; rw [← h]; try rfl)
  · injection h with h
    rw [← h]

theorem removeLink_idCount (m m' : Memory T I) (oldId newId : Int)
    (h : removeLink m oldId newId = Except.ok m') : m'.idCount = m.idCount := by
  unfold removeLink at h
  simp only [pure, Except.pure, bind, Except.bind] at h
  repeat' split at h
  all_goals first
    | exact Except.noConfusion h
    | (injection h with h; rw [← h]; try rfl)

theorem updateLink_idCount (e : Env T I) (m m' : Memory T I) (fromId toId : Int) (transform : T)
    (info : I) (h : updateLink e m fromId toId transform info = Except.ok m') :
    m'.idCount = m.idCount := by
  unfold updateLink at h
  simp only [pure, Except.pure, bind, Except.bind] at h
  repeat' split at h
  all_goals first
    | exact Except.noConfusion h
    | (injection h with h; rw [← h]; try rfl)

end Memory

/-! ## The ids `createSignature` returns -/

/-- One call leaves the id counter as it is unless it is a call of
`createSignature` that returns a signature; then the id returned is the counter
after the call and greater than the counter before it. -/
theorem MemoryCall.run_spec {T I : Type} (e : Env T I) (m : Memory T I) (c : MemoryCall T I)
    (r : Option IdRecord × Memory T I) (h : c.run e m = Except.ok r) :
    (r.1 = none → r.2.idCount = m.idCount) ∧
    ∀ rec, r.1 = some rec →
      rec.before = m.idCount ∧ rec.before < rec.id ∧ rec.id = rec.after ∧
      rec.after = r.2.idCount := by
  cases c with
  | createSignature data pose =>
    unfold MemoryCall.run at h
    obtain ⟨c, hc, h⟩ := bind_eq_ok.1 h
    injection h with h
    rw [← h]
    obtain ⟨_, _, _, c4, c5⟩ := Memory.createSignature_spec _ _ _ _ _ hc
    refine ⟨?_, ?_⟩
    · intro hn
      apply c4
      cases hs : c.1 with
      | none => rfl
      | some s =>
        simp only [hs, Option.map_some'] at hn
        exact Option.noConfusion hn
    · intro rec hrec
      cases hs : c.1 with
      | none =>
        simp only [hs, Option.map_none'] at hrec
        exact Option.noConfusion hrec
      | some s =>
        simp only [hs, Option.map_some', Option.some.injEq] at hrec
        obtain ⟨s1, s2, _⟩ := c5 s hs
        rw [← hrec]
        exact ⟨rfl, s2, s1, rfl⟩
  | preUpdate =>
    unfold MemoryCall.run at h
    injection h with h
    rw [← h]
    exact ⟨fun _ => (SameTiers.preUpdate e m).2.2.2, fun _ hr => Option.noConfusion hr⟩
  | addSignatureToStm signature infMatrix =>
    unfold MemoryCall.run at h
    obtain ⟨m1, h1, h⟩ := bind_eq_ok.1 h
    injection h with h
    rw [← h]
    exact ⟨fun _ => (Memory.addSignatureToStm_tiers e m m1 _ _ h1).2.2.2,
      fun _ hr => Option.noConfusion hr⟩
  | rehearsal signatureId =>
    unfold MemoryCall.run at h
    obtain ⟨m1, h1, h⟩ := bind_eq_ok.1 h
    injection h with h
    rw [← h]
    exact ⟨fun _ => Memory.idCount_of_tiers (Memory.rehearsal_tiers e m m1 _ h1),
      fun _ hr => Option.noConfusion hr⟩
  | moveSignatureToWMFromSTM id now =>
    unfold MemoryCall.run at h
    obtain ⟨m1, h1, h⟩ := bind_eq_ok.1 h
    injection h with h
    rw [← h]
    exact ⟨fun _ => Memory.moveSignatureToWMFromSTM_idCount e m _ _ _ m1 h1,
      fun _ hr => Option.noConfusion hr⟩
  | addLink link =>
    unfold MemoryCall.run at h
    obtain ⟨m1, h1, h⟩ := bind_eq_ok.1 h
    injection h with h
    rw [← h]
    exact ⟨fun _ => Memory.addLink_idCount e m _ m1 h1, fun _ hr => Option.noConfusion hr⟩
  | removeLink oldId newId =>
    unfold MemoryCall.run at h
    obtain ⟨m1, h1, h⟩ := bind_eq_ok.1 h
    injection h with h
    rw [← h]
    exact ⟨fun _ => Memory.removeLink_idCount m m1 _ _ h1, fun _ hr => Option.noConfusion hr⟩
  | updateLink fromId toId transform info =>
    unfold MemoryCall.run at h
    obtain ⟨m1, h1, h⟩ := bind_eq_ok.1 h
    injection h with h
    rw [← h]
    exact ⟨fun _ => Memory.updateLink_idCount e m m1 _ _ _ _ h1,
      fun _ hr => Option.noConfusion hr⟩
  | forget ignoredIds =>
    unfold MemoryCall.run at h
    obtain ⟨m1, h1, h⟩ := bind_eq_ok.1 h
    injection h with h
    rw [← h]
    exact ⟨fun _ => Memory.forget_idCount e m _ m1 h1, fun _ hr => Option.noConfusion hr⟩
  | reactivateSignatures ids maxLoaded clock =>
    unfold MemoryCall.run at h
    injection h with h
    rw [← h]
    exact ⟨fun _ => Memory.reactivateSignatures_idCount e m _ _ _,
      fun _ hr => Option.noConfusion hr⟩
  | moveToTrash sId keepLinkedToGraph =>
    unfold MemoryCall.run at h
    obtain ⟨m1, h1, h⟩ := bind_eq_ok.1 h
    injection h with h
    rw [← h]
    exact ⟨fun _ => Memory.moveToTrash_idCount e m m1 _ _ h1, fun _ hr => Option.noConfusion hr⟩

/-- Over a sequence of calls the id counter does not decrease, every record
lies between the counter before and after the sequence, and the ids recorded
ascend strictly. -/
theorem runCalls_spec {T I : Type} (e : Env T I) (calls : List (MemoryCall T I))
    (m : Memory T I) (t : List IdRecord × Memory T I) (h : runCalls e m calls = Except.ok t) :
    m.idCount ≤ t.2.idCount ∧
    (∀ rec ∈ t.1, m.idCount ≤ rec.before ∧ rec.before < rec.id ∧ rec.id = rec.after ∧
      rec.id ≤ t.2.idCount) ∧
    (t.1.map IdRecord.id).Pairwise (fun a b => a < b) := by
  induction calls generalizing m t with
  | nil =>
    unfold runCalls at h
    injection h with h
    rw [← h]
    exact ⟨Int.le_refl _, fun _ hr => absurd hr (List.not_mem_nil _), List.Pairwise.nil⟩
  | cons c rest ih =>
    unfold runCalls at h
    obtain ⟨r, hr, h⟩ := bind_eq_ok.1 h
    obtain ⟨t1, ht1, h⟩ := bind_eq_ok.1 h
    injection h with h
    rw [← h]
    obtain ⟨i1, i2, i3⟩ := ih r.2 t1 ht1
    obtain ⟨r1, r2⟩ := MemoryCall.run_spec e m c r hr
    cases hrec : r.1 with
    | none =>
      have hc := r1 hrec
      simp only [Option.toList, List.nil_append]
      refine ⟨by omega, ?_, i3⟩
      intro rec hmem
      obtain ⟨a1, a2, a3, a4⟩ := i2 rec hmem
      exact ⟨by omega, a2, a3, a4⟩
    | some rec0 =>
      obtain ⟨b1, b2, b3, b4⟩ := r2 rec0 hrec
      simp only [Option.toList, List.singleton_append, List.map_cons, List.pairwise_cons,
        List.mem_cons, List.mem_map]
      refine ⟨by omega, ?_, ?_, i3⟩
      · intro rec hmem
        rcases hmem with rfl | hmem
        · exact ⟨by omega, b2, b3, by omega⟩
        · obtain ⟨a1, a2, a3, a4⟩ := i2 rec hmem
          exact ⟨by omega, a2, a3, a4⟩
      · rintro _ ⟨rec, hmem, rfl⟩
        obtain ⟨a1, a2, a3, a4⟩ := i2 rec hmem
        omega

/-- Without generated ids `createSignature` returns null on an id that is not
above the counter, and leaves the memory as it is. -/
theorem Memory.createSignature_null {T I : Type} (e : Env T I) (m : Memory T I)
    (data : SensorData) (pose : T) (hgen : e.generateIds = false)
    (hid : data.id ≤ m.idCount ∨ data.id ≤ 0) :
    (data.formatsValid = true → Memory.createSignature e m data pose = Except.ok (none, m)) ∧
    ∀ c, Memory.createSignature e m data pose = Except.ok c → c = (none, m) := by
  have hnone : Memory.createSignatureId e m data = (none, m) := by
    unfold Memory.createSignatureId
    rw [hgen]
    simp only [Bool.false_eq_true, if_false]
    by_cases h0 : data.id ≤ 0
    · rw [if_pos h0]
    · rw [if_neg h0, if_neg (by omega)]
  have hval : data.formatsValid = true →
      Memory.createSignature e m data pose = Except.ok (none, m) := by
    intro hv
    unfold Memory.createSignature
    rw [hnone, hv]
    simp only [uassert, if_true, bind, Except.bind, pure, Except.pure]
    split <;> rfl
  refine ⟨hval, ?_⟩
  intro c hc
  cases hv : data.formatsValid with
  | true =>
    rw [hval hv] at hc
    injection hc with hc
    exact hc.symm
  | false =>
    unfold Memory.createSignature at hc
    rw [hv] at hc
    exact Except.noConfusion hc

/-- Claim C20: over any sequence of calls of `createSignature` interleaved with
other operations on a memory whose id counter is not negative, every call that
returns a signature returns an id that is positive, greater than the id counter
before the call and equal to the id counter after it, and the ids returned
ascend strictly in the order of the calls; with `GenerateIds` disabled a call
with `data.id <= idCount` or `data.id <= 0` returns null and leaves the id
counter (and the memory) unchanged. -/
theorem createSignature_ids_ascend {T I : Type} (e : Env T I) (m : Memory T I)
    (calls : List (MemoryCall T I)) (trace : List IdRecord) (m' : Memory T I)
    (hcount : 0 ≤ m.idCount) (h : runCalls e m calls = Except.ok (trace, m')) :
    (∀ rec ∈ trace, 0 < rec.id ∧ rec.before < rec.id ∧ rec.id = rec.after) ∧
    (trace.map IdRecord.id).Pairwise (fun a b => a < b) ∧
    ∀ (mm : Memory T I) (data : SensorData) (pose : T), e.generateIds = false →
      data.id ≤ mm.idCount ∨ data.id ≤ 0 →
      (data.formatsValid = true →
        Memory.createSignature e mm data pose = Except.ok (none, mm)) ∧
      ∀ c, Memory.createSignature e mm data pose = Except.ok c →
        c.1 = none ∧ c.2.idCount = mm.idCount := by
  obtain ⟨_, h2, h3⟩ := runCalls_spec e calls m (trace, m') h
  refine ⟨?_, h3, ?_⟩
  · intro rec hmem
    obtain ⟨a1, a2, a3, _⟩ := h2 rec hmem
    exact ⟨by omega, a2, a3⟩
  · intro mm data pose hgen hid
    obtain ⟨n1, n2⟩ := Memory.createSignature_null e mm data pose hgen hid
    refine ⟨n1, ?_⟩
    intro c hc
    rw [n2 c hc]
    exact ⟨rfl, rfl⟩

/-- Witness of C20: on the memory with the nodes 1 and 2 and the counter 2,
two calls of `createSignature` around a `moveToTrash` of node 2 return the ids
3 and 4; the id 2 is not given again. -/
theorem createSignature_ids_ascend_witness :
    0 ≤ ((twoNodeMemory 0 0).setIdCount 2).idCount ∧
    ∃ m', runCalls (lineEnv true false 2) ((twoNodeMemory 0 0).setIdCount 2)
        [MemoryCall.createSignature ⟨0, false, true, false, []⟩ (some 2),
         MemoryCall.moveToTrash 2 true,
         MemoryCall.createSignature ⟨0, false, true, false, []⟩ (some 3)] =
        Except.ok ([⟨2, 3, 3⟩, ⟨3, 4, 4⟩], m') ∧
      ∀ rec ∈ [(⟨2, 3, 3⟩ : IdRecord), ⟨3, 4, 4⟩],
        0 < rec.id ∧ rec.before < rec.id ∧ rec.id = rec.after :=
  ⟨by decide, _, rfl,
    (createSignature_ids_ascend (lineEnv true false 2) ((twoNodeMemory 0 0).setIdCount 2)
      [MemoryCall.createSignature ⟨0, false, true, false, []⟩ (some 2),
       MemoryCall.moveToTrash 2 true,
       MemoryCall.createSignature ⟨0, false, true, false, []⟩ (some 3)] _ _ (by decide) rfl).1⟩

section LinkTables

variable {T I : Type} {g : Geometry T I} {X : Int → Prop} {n : Int}
  {tbl : Int → Option (List (Link T I))}

theorem tableModify_self (k : Int) (f : List (Link T I) → List (Link T I))
    (tbl : Int → Option (List (Link T I))) : tableModify k f tbl k = (tbl k).map f := by
  unfold tableModify
  rw [if_pos rfl]

theorem tableModify_ne {k j : Int} (f : List (Link T I) → List (Link T I))
    (tbl : Int → Option (List (Link T I))) (h : j ≠ k) : tableModify k f tbl j = tbl j := by
  unfold tableModify
  rw [if_neg h]

theorem tableModify_eq_some {k j : Int} {f : List (Link T I) → List (Link T I)}
    {ls : List (Link T I)} (h : tableModify k f tbl j = some ls) :
    ∃ ls0, tbl j = some ls0 ∧ ls = if j = k then f ls0 else ls0 := by
  unfold tableModify at h
  by_cases hj : j = k
  · rw [if_pos hj] at h
    cases h0 : tbl j with
    | none => rw [h0] at h; exact Option.noConfusion h
    | some ls0 =>
      rw [h0] at h
      injection h with h
      exact ⟨ls0, rfl, by rw [if_pos hj, h]⟩
  · rw [if_neg hj] at h
    exact ⟨ls, h, by rw [if_neg hj]⟩

/-- The invariant of a table carries over to a table with the same entries and
a counter that is not smaller. -/
theorem LinkTableInv.congr {tbl2 : Int → Option (List (Link T I))} {n2 : Int}
    (h : LinkTableInv g X n tbl) (ht : ∀ j, tbl2 j = tbl j) (hn : n ≤ n2) :
    LinkTableInv g X n2 tbl2 := by
  have e : tbl2 = tbl := funext ht
  subst e
  refine ⟨fun i ls hi => le_trans (h.1 i ls hi) hn, ?_⟩
  intro i ls hi hx
  obtain ⟨u, w⟩ := h.2 i ls hi hx
  refine ⟨u, ?_⟩
  intro l hl
  obtain ⟨a, b, c⟩ := w l hl
  exact ⟨a, le_trans b hn, c⟩

/-- More ids may be left out. -/
theorem LinkTableInv.mono {Y : Int → Prop} (h : LinkTableInv g X n tbl)
    (hxy : ∀ i, X i → Y i) : LinkTableInv g Y n tbl := by
  refine ⟨h.1, ?_⟩
  intro i ls hi hy
  obtain ⟨u, w⟩ := h.2 i ls hi (fun hx => hy (hxy i hx))
  refine ⟨u, ?_⟩
  intro l hl
  obtain ⟨a, b, c⟩ := w l hl
  exact ⟨a, b, fun hyl => c (fun hx => hyl (hxy _ hx))⟩

/-- An id that is not in the table need not be left out. -/
theorem LinkTableInv.of_absent {x : Int} (h : LinkTableInv g (fun i => i = x) n tbl)
    (hx : tbl x = none) : LinkTableInv g (fun _ => False) n tbl := by
  refine ⟨h.1, ?_⟩
  intro i ls hi _
  have hix : i ≠ x := by
    intro e
    rw [e, hx] at hi
    exact Option.noConfusion hi
  obtain ⟨u, w⟩ := h.2 i ls hi hix
  refine ⟨u, ?_⟩
  intro l hl
  obtain ⟨a, b, c⟩ := w l hl
  refine ⟨a, b, ?_⟩
  intro _ ps hps
  apply c _ ps hps
  intro e
  rw [e, hx] at hps
  exact Option.noConfusion hps

theorem tableErase_self (x : Int) (tbl : Int → Option (List (Link T I))) :
    tableErase x tbl x = none := by
  unfold tableErase
  rw [if_pos rfl]

theorem tableErase_ne {x j : Int} (tbl : Int → Option (List (Link T I))) (h : j ≠ x) :
    tableErase x tbl j = tbl j := by
  unfold tableErase
  rw [if_neg h]

theorem tableInsert_self (x : Int) (ls : List (Link T I))
    (tbl : Int → Option (List (Link T I))) : tableInsert x ls tbl x = some ls := by
  unfold tableInsert
  rw [if_pos rfl]

theorem tableInsert_ne {x j : Int} (ls : List (Link T I))
    (tbl : Int → Option (List (Link T I))) (h : j ≠ x) : tableInsert x ls tbl j = tbl j := by
  unfold tableInsert
  rw [if_neg h]

/-- The removal of an id that was left out. -/
theorem LinkTableInv.erase {x : Int} (h : LinkTableInv g (fun i => i = x) n tbl) :
    LinkTableInv g (fun _ => False) n (tableErase x tbl) := by
  refine ⟨?_, ?_⟩
  · intro i ls hi
    by_cases hix : i = x
    · rw [hix, tableErase_self] at hi
      exact Option.noConfusion hi
    · rw [tableErase_ne tbl hix] at hi
      exact h.1 i ls hi
  · intro i ls hi _
    by_cases hix : i = x
    · rw [hix, tableErase_self] at hi
      exact Option.noConfusion hi
    · rw [tableErase_ne tbl hix] at hi
      obtain ⟨u, w⟩ := h.2 i ls hi hix
      refine ⟨u, ?_⟩
      intro l hl
      obtain ⟨a, b, c⟩ := w l hl
      refine ⟨a, b, ?_⟩
      intro _ ps hps
      by_cases hlx : l.to_ = x
      · rw [hlx, tableErase_self] at hps
        exact Option.noConfusion hps
      · rw [tableErase_ne tbl hlx] at hps
        exact c hlx ps hps

/-- Any change of the links of an id that is left out. -/
theorem LinkTableInv.modify_out {x : Int} (f : List (Link T I) → List (Link T I))
    (h : LinkTableInv g X n tbl) (hx : X x) : LinkTableInv g X n (tableModify x f tbl) := by
  refine ⟨?_, ?_⟩
  · intro i ls hi
    obtain ⟨ls0, h0, _⟩ := tableModify_eq_some hi
    exact h.1 i ls0 h0
  · intro i ls hi hxi
    have hix : i ≠ x := fun e => hxi (e ▸ hx)
    rw [tableModify_ne f tbl hix] at hi
    obtain ⟨u, w⟩ := h.2 i ls hi hxi
    refine ⟨u, ?_⟩
    intro l hl
    obtain ⟨a, b, c⟩ := w l hl
    refine ⟨a, b, ?_⟩
    intro hxl ps hps
    have hlx : l.to_ ≠ x := fun e => hxl (e ▸ hx)
    rw [tableModify_ne f tbl hlx] at hps
    exact c hxl ps hps

/-- The removal, anywhere, of the links that lead to an id that is left out. -/
theorem LinkTableInv.unlink_out {x : Int} (p : Int) (h : LinkTableInv g X n tbl) (hx : X x) :
    LinkTableInv g X n (tableModify p (kerase Link.to_ x) tbl) := by
  refine ⟨?_, ?_⟩
  · intro i ls hi
    obtain ⟨ls0, h0, _⟩ := tableModify_eq_some hi
    exact h.1 i ls0 h0
  · intro i ls hi hxi
    obtain ⟨ls0, h0, hls⟩ := tableModify_eq_some hi
    obtain ⟨u, w⟩ := h.2 i ls0 h0 hxi
    have hsub : ∀ l ∈ ls, l ∈ ls0 := by
      intro l hl
      rw [hls] at hl
      split at hl
      · exact ((mem_kerase Link.to_).1 hl).1
      · exact hl
    refine ⟨fun l hl k hk => u l (hsub l hl) k (hsub k hk), ?_⟩
    intro l hl
    obtain ⟨a, b, c⟩ := w l (hsub l hl)
    refine ⟨a, b, ?_⟩
    intro hxl ps hps
    obtain ⟨ps0, hp0, hps'⟩ := tableModify_eq_some hps
    obtain ⟨k, hk, k1, k2, k3⟩ := c hxl ps0 hp0
    refine ⟨k, ?_, k1, k2, k3⟩
    rw [hps']
    split
    · refine (mem_kerase Link.to_).2 ⟨hk, ?_⟩
      rw [k1]
      exact fun e => hxi (e ▸ hx)
    · exact hk

end LinkTables
section LinkTablePairs

variable {T I : Type} {g : Geometry T I} {X : Int → Prop} {n : Int}
  {tbl : Int → Option (List (Link T I))}

/-- A table whose entries lost links, none of them the link back of a link that
stayed, keeps the invariant. -/
theorem LinkTableInv.shrink {tbl2 : Int → Option (List (Link T I))}
    (h : LinkTableInv g X n tbl)
    (hdom : ∀ i ls2, tbl2 i = some ls2 → ∃ ls, tbl i = some ls ∧ ∀ l ∈ ls2, l ∈ ls)
    (hback : ∀ i ls2 l, tbl2 i = some ls2 → l ∈ ls2 → ¬ X i → ¬ X l.to_ →
      ∀ ps ps2, tbl l.to_ = some ps → tbl2 l.to_ = some ps2 →
        ∀ k ∈ ps, k.to_ = i → k ∈ ps2) :
    LinkTableInv g X n tbl2 := by
  refine ⟨?_, ?_⟩
  · intro i ls2 hi
    obtain ⟨ls, h0, _⟩ := hdom i ls2 hi
    exact h.1 i ls h0
  · intro i ls2 hi hxi
    obtain ⟨ls, h0, hsub⟩ := hdom i ls2 hi
    obtain ⟨u, w⟩ := h.2 i ls h0 hxi
    refine ⟨fun l hl k hk => u l (hsub l hl) k (hsub k hk), ?_⟩
    intro l hl
    obtain ⟨a, b, c⟩ := w l (hsub l hl)
    refine ⟨a, b, ?_⟩
    intro hxl ps2 hps2
    obtain ⟨ps, hp0, _⟩ := hdom _ ps2 hps2
    obtain ⟨k, hk, k1, k2, k3⟩ := c hxl ps hp0
    exact ⟨k, hback i ls2 l hi hl hxi hxl ps ps2 hp0 hps2 k hk k1, k1, k2, k3⟩

/-- The removal of the links between two ids, on both sides. -/
theorem LinkTableInv.unlink_pair (a b : Int) (h : LinkTableInv g X n tbl) :
    LinkTableInv g X n
      (tableModify b (kerase Link.to_ a) (tableModify a (kerase Link.to_ b) tbl)) := by
  have entry : ∀ j ls2,
      tableModify b (kerase Link.to_ a) (tableModify a (kerase Link.to_ b) tbl) j = some ls2 →
      ∃ ls, tbl j = some ls ∧ (∀ l ∈ ls2, l ∈ ls) ∧
        (∀ l ∈ ls2, (j = a → l.to_ ≠ b) ∧ (j = b → l.to_ ≠ a)) ∧
        (∀ k ∈ ls, ¬ (j = a ∧ k.to_ = b) → ¬ (j = b ∧ k.to_ = a) → k ∈ ls2) := by
    intro j ls2 hj
    obtain ⟨ls1, h1, e1⟩ := tableModify_eq_some hj
    obtain ⟨ls, h0, e0⟩ := tableModify_eq_some h1
    refine ⟨ls, h0, ?_, ?_, ?_⟩
    · intro l hl
      rw [e1] at hl
      have hl1 : l ∈ ls1 := by
        split at hl
        · exact ((mem_kerase Link.to_).1 hl).1
        · exact hl
      rw [e0] at hl1
      split at hl1
      · exact ((mem_kerase Link.to_).1 hl1).1
      · exact hl1
    · intro l hl
      rw [e1] at hl
      refine ⟨?_, ?_⟩
      · intro hja
        have hl1 : l ∈ ls1 := by
          split at hl
          · exact ((mem_kerase Link.to_).1 hl).1
          · exact hl
        rw [e0, if_pos hja] at hl1
        exact ((mem_kerase Link.to_).1 hl1).2
      · intro hjb
        rw [if_pos hjb] at hl
        exact ((mem_kerase Link.to_).1 hl).2
    · intro k hk n1 n2
      have hk1 : k ∈ ls1 := by
        rw [e0]
        split
        · rename_i hja
          exact (mem_kerase Link.to_).2 ⟨hk, fun e => n1 ⟨hja, e⟩⟩
        · exact hk
      rw [e1]
      split
      · rename_i hjb
        exact (mem_kerase Link.to_).2 ⟨hk1, fun e => n2 ⟨hjb, e⟩⟩
      · exact hk1
  apply h.shrink
  · intro i ls2 hi
    obtain ⟨ls, h0, hsub, _, _⟩ := entry i ls2 hi
    exact ⟨ls, h0, hsub⟩
  · intro i ls2 l hi hl _ _ ps ps2 hp hp2 k hk hki
    obtain ⟨_, _, _, hne, _⟩ := entry i ls2 hi
    obtain ⟨ps0, hp0, _, _, hkeep⟩ := entry _ ps2 hp2
    rw [hp] at hp0
    injection hp0 with hp0
    rw [← hp0] at hkeep
    apply hkeep k hk
    · rintro ⟨e1, e2⟩
      exact (hne l hl).2 (hki.symm.trans e2) e1
    · rintro ⟨e1, e2⟩
      exact (hne l hl).1 (hki.symm.trans e2) e1

/-- Two ids that are not left out get a link to each other, each the inverse of
the other, unless they are linked already. -/
theorem LinkTableInv.link_pair {a b : Int} {la lb : List (Link T I)} {l k : Link T I}
    (h : LinkTableInv g X n tbl) (hab : a ≠ b) (hxa : ¬ X a) (hxb : ¬ X b)
    (ha : tbl a = some la) (hb : tbl b = some lb)
    (hl : l.to_ = b) (hk : k.to_ = a) (htype : k.type = l.type)
    (hkl : k.transform = g.inverse l.transform) (hlk : l.transform = g.inverse k.transform) :
    LinkTableInv g X n
      (tableModify b (kinsert Link.to_ k) (tableModify a (kinsert Link.to_ l) tbl)) := by
  have hba : b ≠ a := fun e => hab e.symm
  obtain ⟨ua, wa⟩ := h.2 a la ha hxa
  obtain ⟨ub, wb⟩ := h.2 b lb hb hxb
  have hsym : khas Link.to_ la b = khas Link.to_ lb a := by
    cases h1 : khas Link.to_ la b <;> cases h2 : khas Link.to_ lb a
    · rfl
    · obtain ⟨k1, hk1, hk1a⟩ := (khas_iff Link.to_).1 h2
      obtain ⟨_, _, c⟩ := wb k1 hk1
      obtain ⟨k2, hk2, hk2b, _⟩ := c (by rw [hk1a]; exact hxa) la (by rw [hk1a]; exact ha)
      exact absurd hk2b ((khas_false_iff Link.to_).1 h1 k2 hk2)
    · obtain ⟨k1, hk1, hk1b⟩ := (khas_iff Link.to_).1 h1
      obtain ⟨_, _, c⟩ := wa k1 hk1
      obtain ⟨k2, hk2, hk2a, _⟩ := c (by rw [hk1b]; exact hxb) lb (by rw [hk1b]; exact hb)
      exact absurd hk2a ((khas_false_iff Link.to_).1 h2 k2 hk2)
    · rfl
  have ea : tableModify b (kinsert Link.to_ k) (tableModify a (kinsert Link.to_ l) tbl) a =
      some (kinsert Link.to_ l la) := by
    rw [tableModify_ne _ _ hab, tableModify_self, ha]
    rfl
  have eb : tableModify b (kinsert Link.to_ k) (tableModify a (kinsert Link.to_ l) tbl) b =
      some (kinsert Link.to_ k lb) := by
    rw [tableModify_self, tableModify_ne _ _ hba, hb]
    rfl
  have eo : ∀ j, j ≠ a → j ≠ b →
      tableModify b (kinsert Link.to_ k) (tableModify a (kinsert Link.to_ l) tbl) j = tbl j := by
    intro j h1 h2
    rw [tableModify_ne _ _ h2, tableModify_ne _ _ h1]
  cases hc : khas Link.to_ la b with
  | true =>
    have hc2 : khas Link.to_ lb a = true := by rw [← hsym]; exact hc
    refine h.congr ?_ (le_refl _)
    intro j
    by_cases hja : j = a
    · rw [hja, ea, ha]
      unfold kinsert
      rw [hl, if_pos hc]
    · by_cases hjb : j = b
      · rw [hjb, eb, hb]
        unfold kinsert
        rw [hk, if_pos hc2]
      · exact eo j hja hjb
  | false =>
    have hc2 : khas Link.to_ lb a = false := by rw [← hsym]; exact hc
    have mema : ∀ x, x ∈ kinsert Link.to_ l la ↔ x ∈ la ∨ x = l := by
      intro x
      rw [mem_kinsert, hl, hc]
      simp
    have memb : ∀ x, x ∈ kinsert Link.to_ k lb ↔ x ∈ lb ∨ x = k := by
      intro x
      rw [mem_kinsert, hk, hc2]
      simp
    have nola : ∀ x ∈ la, x.to_ ≠ b := (khas_false_iff Link.to_).1 hc
    have nolb : ∀ x ∈ lb, x.to_ ≠ a := (khas_false_iff Link.to_).1 hc2
    -- the entry a peer is looked up under, after the change
    have peer : ∀ t ps2,
        tableModify b (kinsert Link.to_ k) (tableModify a (kinsert Link.to_ l) tbl) t = some ps2 →
        ∃ ps, tbl t = some ps ∧ ∀ x ∈ ps, x ∈ ps2 := by
      intro t ps2 ht
      by_cases hta : t = a
      · rw [hta, ea] at ht
        injection ht with ht
        exact ⟨la, by rw [hta]; exact ha, fun x hx => by rw [← ht]; exact (mema x).2 (Or.inl hx)⟩
      · by_cases htb : t = b
        · rw [htb, eb] at ht
          injection ht with ht
          exact ⟨lb, by rw [htb]; exact hb,
            fun x hx => by rw [← ht]; exact (memb x).2 (Or.inl hx)⟩
        · rw [eo t hta htb] at ht
          exact ⟨ps2, ht, fun x hx => hx⟩
    refine ⟨?_, ?_⟩
    · intro i ls hi
      obtain ⟨ps, hp, _⟩ := peer i ls hi
      exact h.1 i ps hp
    · intro i ls hi hxi
      -- an old link keeps its link back
      have old : ∀ ls0, tbl i = some ls0 → ∀ x ∈ ls0, ¬ X x.to_ → ∀ ps2,
          tableModify b (kinsert Link.to_ k) (tableModify a (kinsert Link.to_ l) tbl) x.to_ =
            some ps2 →
          ∃ y ∈ ps2, y.to_ = i ∧ y.type = x.type ∧ y.transform = g.inverse x.transform := by
        intro ls0 h0 x hx hxx ps2 hps2
        obtain ⟨ps, hp, hsub⟩ := peer _ ps2 hps2
        obtain ⟨_, _, c⟩ := (h.2 i ls0 h0 hxi).2 x hx
        obtain ⟨y, hy, y1, y2, y3⟩ := c hxx ps hp
        exact ⟨y, hsub y hy, y1, y2, y3⟩
      by_cases hia : i = a
      · subst hia
        rw [ea] at hi
        injection hi with hi
        subst hi
        refine ⟨?_, ?_⟩
        · intro x hx y hy hxy
          rcases (mema x).1 hx with hx | hx <;> rcases (mema y).1 hy with hy | hy
          · exact ua x hx y hy hxy
          · rw [hy, hl] at hxy
            exact absurd hxy (nola x hx)
          · rw [hx, hl] at hxy
            exact absurd hxy.symm (nola y hy)
          · rw [hx, hy]
        · intro x hx
          rcases (mema x).1 hx with hx | hx
          · obtain ⟨c1, c2, _⟩ := wa x hx
            exact ⟨c1, c2, fun hxx ps2 hps2 => old la ha x hx hxx ps2 hps2⟩
          · rw [hx, hl]
            refine ⟨hba, h.1 b lb hb, ?_⟩
            intro _ ps2 hps2
            rw [eb] at hps2
            injection hps2 with hps2
            exact ⟨k, by rw [← hps2]; exact (memb k).2 (Or.inr rfl), hk, htype, hkl⟩
      · by_cases hib : i = b
        · subst hib
          rw [eb] at hi
          injection hi with hi
          subst hi
          refine ⟨?_, ?_⟩
          · intro x hx y hy hxy
            rcases (memb x).1 hx with hx | hx <;> rcases (memb y).1 hy with hy | hy
            · exact ub x hx y hy hxy
            · rw [hy, hk] at hxy
              exact absurd hxy (nolb x hx)
            · rw [hx, hk] at hxy
              exact absurd hxy.symm (nolb y hy)
            · rw [hx, hy]
          · intro x hx
            rcases (memb x).1 hx with hx | hx
            · obtain ⟨c1, c2, _⟩ := wb x hx
              exact ⟨c1, c2, fun hxx ps2 hps2 => old lb hb x hx hxx ps2 hps2⟩
            · rw [hx, hk]
              refine ⟨hab, h.1 a la ha, ?_⟩
              intro _ ps2 hps2
              rw [ea] at hps2
              injection hps2 with hps2
              exact ⟨l, by rw [← hps2]; exact (mema l).2 (Or.inr rfl), hl, htype.symm, hlk⟩
        · have hi0 := hi
          rw [eo i hia hib] at hi0
          obtain ⟨u, w⟩ := h.2 i ls hi0 hxi
          refine ⟨u, ?_⟩
          intro x hx
          obtain ⟨c1, c2, _⟩ := w x hx
          exact ⟨c1, c2, fun hxx ps2 hps2 => old ls hi0 x hx hxx ps2 hps2⟩

/-- A new id above the counter enters the table without links. -/
theorem LinkTableInv.insert_new {x n2 : Int} (h : LinkTableInv g X n tbl)
    (hnx : n < x) (hxn : x ≤ n2) : LinkTableInv g X n2 (tableInsert x [] tbl) := by
  have hn : n ≤ n2 := by omega
  refine ⟨?_, ?_⟩
  · intro i ls hi
    by_cases hix : i = x
    · rw [hix]
      exact hxn
    · rw [tableInsert_ne _ _ hix] at hi
      exact le_trans (h.1 i ls hi) hn
  · intro i ls hi hxi
    by_cases hix : i = x
    · rw [hix, tableInsert_self] at hi
      injection hi with hi
      rw [← hi]
      exact ⟨fun l hl => absurd hl (List.not_mem_nil _),
        fun l hl => absurd hl (List.not_mem_nil _)⟩
    · rw [tableInsert_ne _ _ hix] at hi
      obtain ⟨u, w⟩ := h.2 i ls hi hxi
      refine ⟨u, ?_⟩
      intro l hl
      obtain ⟨a, b, c⟩ := w l hl
      refine ⟨a, le_trans b hn, ?_⟩
      intro hxl ps hps
      have hlx : l.to_ ≠ x := by omega
      rw [tableInsert_ne _ _ hlx] at hps
      exact c hxl ps hps

end LinkTablePairs

/-! ## The link table of a memory -/

section LinkMemory

variable {T I : Type} {g : Geometry T I} {X : Int → Prop}

theorem Memory.linksOf_eq_some {m : Memory T I} {i : Int} {ls : List (Link T I)} :
    m.linksOf i = some ls ↔ ∃ s, m._getSignature i = some s ∧ s.links = ls := by
  unfold Memory.linksOf
  cases m._getSignature i with
  | none => simp
  | some s => simp

theorem Memory.linksOf_of_getSignature {m : Memory T I} {i : Int} {s : Signature T I}
    (h : m._getSignature i = some s) : m.linksOf i = some s.links := by
  unfold Memory.linksOf
  rw [h]
  rfl

theorem Memory.linksOf_modifySignature (m : Memory T I) (k : Int)
    (F : Signature T I → Signature T I) (f : List (Link T I) → List (Link T I))
    (hid : ∀ a, (F a).id = a.id) (hl : ∀ a, (F a).links = f a.links) (j : Int) :
    (m.modifySignature k F).linksOf j = tableModify k f m.linksOf j := by
  unfold Memory.linksOf tableModify
  by_cases hj : j = k
  · rw [if_pos hj, hj, Memory.getSignature_modify_self m k F hid]
    cases hs : m._getSignature k <;> simp [hs, hl]
  · rw [if_neg hj, Memory.getSignature_modify_ne m F hid hj]

/-- The link invariant of a memory is the invariant of its link table with no
id left out. -/
theorem linkInvariant_iff (m : Memory T I) :
    LinkInvariant g m ↔ LinkTableInv g (fun _ => False) m.idCount m.linksOf := by
  constructor
  · rintro ⟨hs, hb, hw⟩
    refine ⟨?_, ?_⟩
    · intro i ls hi
      obtain ⟨s, h1, _⟩ := Memory.linksOf_eq_some.1 hi
      exact hb i s h1
    · intro i ls hi _
      obtain ⟨s, h1, h2⟩ := Memory.linksOf_eq_some.1 hi
      subst h2
      obtain ⟨w1, w2⟩ := hw i s h1
      refine ⟨w2, ?_⟩
      intro l hl
      refine ⟨(w1 l hl).1, (w1 l hl).2, ?_⟩
      intro _ ps hps
      obtain ⟨p, p1, p2⟩ := Memory.linksOf_eq_some.1 hps
      subst p2
      exact hs i s h1 l hl p p1
  · rintro ⟨hb, hw⟩
    refine ⟨?_, ?_, ?_⟩
    · intro i s hi l hl p hp
      obtain ⟨_, w⟩ := hw i s.links (Memory.linksOf_of_getSignature hi) (fun h => h)
      exact (w l hl).2.2 (fun h => h) p.links (Memory.linksOf_of_getSignature hp)
    · intro i s hi
      exact hb i s.links (Memory.linksOf_of_getSignature hi)
    · intro i s hi
      obtain ⟨u, w⟩ := hw i s.links (Memory.linksOf_of_getSignature hi) (fun h => h)
      exact ⟨fun l hl => ⟨(w l hl).1, (w l hl).2.1⟩, u⟩

/-- Memories with the same links and id counter have the same invariant. -/
theorem LinkTableInv.of_sameView {m m2 : Memory T I}
    (h : LinkTableInv g X m.idCount m.linksOf) (hv : SameView Signature.links m m2)
    (hn : m2.idCount = m.idCount) : LinkTableInv g X m2.idCount m2.linksOf :=
  h.congr hv (le_of_eq hn.symm)

/-- After `moveToTrash` of the id that was left out the invariant holds with no
id left out. -/
theorem LinkTableInv.moveToTrash {e : Env T I} {m m2 : Memory T I} {x : Int} { keep : Bool}
    (h : LinkTableInv g (fun i => i = x) m.idCount m.linksOf)
    (ht : Memory.moveToTrash e m x keep = Except.ok m2) :
    LinkTableInv g (fun _ => False) m2.idCount m2.linksOf := by
  have hn := Memory.moveToTrash_idCount e m m2 x keep ht
  rcases Memory.moveToTrash_tiers e m m2 x keep ht with ⟨hnone, rfl⟩ | ⟨s, hs, htr⟩
  · apply h.of_absent
    unfold Memory.linksOf
    rw [hnone]
    rfl
  · have hk := linksKept_moveToTrash e m m2 x keep ht
    have habs := (Memory.trashed_absent htr).2.2
    rw [hn]
    have present : ∀ j ls2, m2.linksOf j = some ls2 → j ≠ x ∧
        ∃ ls, m.linksOf j = some ls ∧ (∀ l ∈ ls2, l ∈ ls) ∧
          ∀ l ∈ ls, l.to_ ≠ x → l ∈ ls2 := by
      intro j ls2 hj
      obtain ⟨s2, h2, e2⟩ := Memory.linksOf_eq_some.1 hj
      have hjx : j ≠ x := by
        intro e
        rw [e, habs] at h2
        exact Option.noConfusion h2
      obtain ⟨k1, k2⟩ := hk j hjx
      rw [h2] at k1
      cases h1 : m._getSignature j with
      | none =>
        rw [h1] at k1
        exact Bool.noConfusion k1
      | some s1 =>
        obtain ⟨k3, k4⟩ := k2 s1 s2 h1 h2
        rw [← e2]
        exact ⟨hjx, s1.links, Memory.linksOf_of_getSignature h1, k3, k4⟩
    refine ⟨?_, ?_⟩
    · intro i ls2 hi
      obtain ⟨_, ls, h0, _⟩ := present i ls2 hi
      exact h.1 i ls h0
    · intro i ls2 hi _
      obtain ⟨hix, ls, h0, hsub, _⟩ := present i ls2 hi
      obtain ⟨u, w⟩ := h.2 i ls h0 hix
      refine ⟨fun l hl k hk => u l (hsub l hl) k (hsub k hk), ?_⟩
      intro l hl
      obtain ⟨a, b, c⟩ := w l (hsub l hl)
      refine ⟨a, b, ?_⟩
      intro _ ps2 hps2
      obtain ⟨hlx, ps, hp0, _, hkeep⟩ := present _ ps2 hps2
      obtain ⟨k, hk, k1, k2, k3⟩ := c hlx ps hp0
      exact ⟨k, hkeep k hk (by rw [k1]; exact hix), k1, k2, k3⟩

end LinkMemory
section LinkOps

variable {T I : Type} {g : Geometry T I} {X : Int → Prop}

theorem Memory.linksOf_of_sameView {m m2 : Memory T I} (h : SameView Signature.links m m2) :
    m2.linksOf = m.linksOf :=
  funext h

@[simp] theorem Memory.linksOf_modify_addLink (m : Memory T I) (k : Int) (l : Link T I) :
    (m.modifySignature k (fun s => s.addLink l)).linksOf =
      tableModify k (kinsert Link.to_ l) m.linksOf :=
  funext (Memory.linksOf_modifySignature m k _ _ (fun _ => rfl) (fun _ => rfl))

@[simp] theorem Memory.linksOf_modify_removeLink (m : Memory T I) (k x : Int) :
    (m.modifySignature k (fun s => s.removeLink x)).linksOf =
      tableModify k (kerase Link.to_ x) m.linksOf :=
  funext (Memory.linksOf_modifySignature m k _ _ (fun _ => rfl) (fun _ => rfl))

@[simp] theorem Memory.linksOf_setWeight (m : Memory T I) (k w : Int) :
    (m.setWeight k w).linksOf = m.linksOf :=
  Memory.linksOf_of_sameView (sameView_links_setWeight m k w)

@[simp] theorem Memory.linksOf_setLinksChanged (m : Memory T I) (b : Bool) :
    (m.setLinksChanged b).linksOf = m.linksOf := rfl

@[simp] theorem Memory.linksOf_setLastGlobalLoopClosureId (m : Memory T I) (k : Int) :
    (m.setLastGlobalLoopClosureId k).linksOf = m.linksOf := rfl

@[simp] theorem Memory.linksOf_setLastSignature (m : Memory T I) (k : Option Int) :
    (m.setLastSignature k).linksOf = m.linksOf := rfl

@[simp] theorem Memory.linksOf_setMemoryChanged (m : Memory T I) (b : Bool) :
    (m.setMemoryChanged b).linksOf = m.linksOf := rfl

@[simp] theorem Memory.linksOf_setVwd (m : Memory T I) (d : VWDictionary) :
    (m.setVwd d).linksOf = m.linksOf := rfl

@[simp] theorem Memory.linksOf_setSignaturesAdded (m : Memory T I) (k : Int) :
    (m.setSignaturesAdded k).linksOf = m.linksOf := rfl

@[simp] theorem Memory.linksOf_setStMem (m : Memory T I) (l : List Int) :
    (m.setStMem l).linksOf = m.linksOf := rfl

@[simp] theorem Memory.linksOf_setWorkingMem (m : Memory T I) (l : List (Int × Rat)) :
    (m.setWorkingMem l).linksOf = m.linksOf := rfl

@[simp] theorem Memory.linksOf_setIdCount (m : Memory T I) (k : Int) :
    (m.setIdCount k).linksOf = m.linksOf := rfl

@[simp] theorem Memory.idCount_modifySignature (m : Memory T I) (k : Int)
    (F : Signature T I → Signature T I) : (m.modifySignature k F).idCount = m.idCount := rfl

@[simp] theorem Memory.idCount_setWeight (m : Memory T I) (k w : Int) :
    (m.setWeight k w).idCount = m.idCount := rfl

@[simp] theorem Memory.idCount_setLinksChanged (m : Memory T I) (b : Bool) :
    (m.setLinksChanged b).idCount = m.idCount := rfl

@[simp] theorem Memory.idCount_setLastGlobalLoopClosureId (m : Memory T I) (k : Int) :
    (m.setLastGlobalLoopClosureId k).idCount = m.idCount := rfl

@[simp] theorem Memory.idCount_setLastSignature (m : Memory T I) (k : Option Int) :
    (m.setLastSignature k).idCount = m.idCount := rfl

/-- `removeLink` keeps the invariant of the link table. -/
theorem LinkTableInv.removeLink {m m2 : Memory T I} {oldId newId : Int}
    (h : LinkTableInv g X m.idCount m.linksOf)
    (hr : Memory.removeLink m oldId newId = Except.ok m2) :
    LinkTableInv g X m2.idCount m2.linksOf := by
  unfold Memory.removeLink at hr
  simp only [pure, Except.pure, bind, Except.bind] at hr
  repeat' split at hr
  all_goals first
    | exact Except.noConfusion hr
    | (injection hr with hr
       subst hr
       try simp only [Memory.linksOf_modify_removeLink, Memory.linksOf_setWeight,
         Memory.linksOf_setLinksChanged, Memory.linksOf_setLastGlobalLoopClosureId,
         Memory.idCount_modifySignature, Memory.idCount_setWeight,
         Memory.idCount_setLinksChanged, Memory.idCount_setLastGlobalLoopClosureId]
       first
         | exact h
         | exact h.unlink_pair _ _)

end LinkOps
section LinkOps2

variable {T I : Type} {g : Geometry T I} {X : Int → Prop}

theorem tableModify_of_some {k j : Int} {f : List (Link T I) → List (Link T I)}
    {tbl : Int → Option (List (Link T I))} {ls : List (Link T I)} (h : tbl j = some ls) :
    tableModify k f tbl j = some (if j = k then f ls else ls) := by
  unfold tableModify
  split
  · rw [h]
    rfl
  · exact h

/-- `updateLink` keeps the link invariant. -/
theorem LinkTableInv.updateLink {e : Env T I} {m m2 : Memory T I} {fromId toId : Int}
    {transform : T} {info : I} (hg : GeometryLaws e.geo)
    (h : LinkTableInv e.geo (fun _ => False) m.idCount m.linksOf)
    (hr : Memory.updateLink e m fromId toId transform info = Except.ok m2) :
    LinkTableInv e.geo (fun _ => False) m2.idCount m2.linksOf := by
  unfold Memory.updateLink at hr
  simp only [pure, Except.pure, bind, Except.bind] at hr
  split at hr
  · exact Except.noConfusion hr
  · rename_i fromS hfrom
    split at hr
    · rename_i hhas
      split at hr
      · exact Except.noConfusion hr
      · rename_i toS hto
        split at hr
        · split at hr
          · exact Except.noConfusion hr
          · rename_i l hl
            injection hr with hr
            subst hr
            have hf := Memory.deref_eq_ok.1 hfrom
            have ht := Memory.deref_eq_ok.1 hto
            have hne : fromId ≠ toId := by
              intro e1
              obtain ⟨k, hk, hkk⟩ := (khas_iff Link.to_).1 hhas
              have := ((h.2 fromId fromS.links (Memory.linksOf_of_getSignature hf)
                (fun x => x)).2 k hk).1
              exact this (hkk.trans e1.symm)
            have h1 := h.unlink_pair fromId toId
            have h2 := h1.link_pair hne (fun x => x) (fun x => x)
              (tableModify_of_some (tableModify_of_some (Memory.linksOf_of_getSignature hf)))
              (tableModify_of_some (tableModify_of_some (Memory.linksOf_of_getSignature ht)))
              (l := { from_ := fromId, to_ := toId, type := l.type, transform := transform,
                      info := info, userDataCompressed := [] })
              (k := { from_ := toId, to_ := fromId, type := l.type,
                      transform := e.geo.inverse transform, info := info,
                      userDataCompressed := [] })
              rfl rfl rfl rfl (hg.1 transform).symm
            split <;>
              simpa only [Memory.linksOf_modify_removeLink, Memory.linksOf_modify_addLink,
                Memory.linksOf_setLinksChanged, Memory.idCount_modifySignature,
                Memory.idCount_setLinksChanged] using h2
        · injection hr with hr
          subst hr
          exact h
    · injection hr with hr
      subst hr
      exact h

end LinkOps2
section LinkOps3

variable {T I : Type} {g : Geometry T I} {X : Int → Prop}

/-- `addLink` between two distinct ids keeps the link invariant. -/
theorem LinkTableInv.addLink {e : Env T I} {m : Memory T I} {link : Link T I}
    {r : Bool × Memory T I} (hg : GeometryLaws e.geo)
    (h : LinkTableInv e.geo (fun _ => False) m.idCount m.linksOf)
    (hne : link.from_ ≠ link.to_)
    (hr : Memory.addLink e m link = Except.ok r) :
    LinkTableInv e.geo (fun _ => False) r.2.idCount r.2.linksOf := by
  unfold Memory.addLink at hr
  obtain ⟨_, _, hr⟩ := bind_eq_ok.1 hr
  split at hr
  · rename_i toS fromS ht hf
    have hti := Memory.getSignature_id ht
    have hfi := Memory.getSignature_id hf
    have h2 := h.link_pair (Ne.symm hne) (fun x => x) (fun x => x)
      (Memory.linksOf_of_getSignature ht) (Memory.linksOf_of_getSignature hf)
      (l := link.inverse e.geo) (k := link) rfl rfl rfl (hg.1 link.transform).symm rfl
    simp only [pure, Except.pure, bind, Except.bind] at hr
    rw [hti, hfi] at hr
    repeat' split at hr
    all_goals first
      | exact Except.noConfusion hr
      | (injection hr with hr
         subst hr
         first
           | exact h
           | simpa only [Memory.linksOf_modify_addLink, Memory.linksOf_setWeight,
               Memory.linksOf_setLinksChanged, Memory.linksOf_setLastGlobalLoopClosureId,
               Memory.idCount_modifySignature, Memory.idCount_setWeight,
               Memory.idCount_setLinksChanged, Memory.idCount_setLastGlobalLoopClosureId]
               using h2)
  · injection hr with hr
    subst hr
    exact h

end LinkOps3
section LinkOps4

variable {T I : Type} {g : Geometry T I}

/-- `moveToTrash` keeps the link invariant. -/
theorem LinkTableInv.moveToTrash_inv {e : Env T I} {m m2 : Memory T I} {x : Int} { keep : Bool}
    (h : LinkTableInv g (fun _ => False) m.idCount m.linksOf)
    (ht : Memory.moveToTrash e m x keep = Except.ok m2) :
    LinkTableInv g (fun _ => False) m2.idCount m2.linksOf :=
  LinkTableInv.moveToTrash (h.mono (fun _ hf => False.elim hf)) ht

theorem LinkTableInv.forgetAll {e : Env T I} (ids : List Int) {m m2 : Memory T I}
    (h : LinkTableInv g (fun _ => False) m.idCount m.linksOf)
    (hr : Memory.forgetAll e ids m = Except.ok m2) :
    LinkTableInv g (fun _ => False) m2.idCount m2.linksOf := by
  induction ids generalizing m with
  | nil =>
    unfold Memory.forgetAll at hr
    injection hr with hr
    rw [← hr]
    exact h
  | cons sId rest ih =>
    unfold Memory.forgetAll at hr
    obtain ⟨m1, h1, hr⟩ := bind_eq_ok.1 hr
    exact ih (h.moveToTrash_inv h1) hr

theorem LinkTableInv.forgetByWords {e : Env T I} {ignoredIds : List Int} {newWords : Int}
    (fuel : Nat) {wordsRemoved : Int} {removed : List Int} {m : Memory T I}
    {r : List Int × Memory T I}
    (h : LinkTableInv g (fun _ => False) m.idCount m.linksOf)
    (hr : Memory.forgetByWords e ignoredIds newWords fuel wordsRemoved removed m = Except.ok r) :
    LinkTableInv g (fun _ => False) r.2.idCount r.2.linksOf := by
  induction fuel generalizing wordsRemoved removed m with
  | zero =>
    unfold Memory.forgetByWords at hr
    injection hr with hr
    rw [← hr]
    exact h
  | succ fuel ih =>
    unfold Memory.forgetByWords at hr
    split at hr
    · obtain ⟨l, _, hr⟩ := bind_eq_ok.1 hr
      split at hr
      · obtain ⟨m1, h1, hr⟩ := bind_eq_ok.1 hr
        exact ih (h.moveToTrash_inv h1) hr
      · injection hr with hr
        rw [← hr]
        exact h
    · injection hr with hr
      rw [← hr]
      exact h

/-- `forget` keeps the link invariant. -/
theorem LinkTableInv.forget {e : Env T I} {m : Memory T I} {ignoredIds : List Int}
    {r : List Int × Memory T I}
    (h : LinkTableInv g (fun _ => False) m.idCount m.linksOf)
    (hr : Memory.forget e m ignoredIds = Except.ok r) :
    LinkTableInv g (fun _ => False) r.2.idCount r.2.linksOf := by
  unfold Memory.forget at hr
  split at hr
  · exact h.forgetByWords _ hr
  · obtain ⟨l, _, hr⟩ := bind_eq_ok.1 hr
    obtain ⟨m1, h1, hr⟩ := bind_eq_ok.1 hr
    injection hr with hr
    rw [← hr]
    exact h.forgetAll l h1

end LinkOps4

section LinkReduce

variable {T I : Type}

theorem Memory.linksOf_modify_out (m : Memory T I) (k : Int) (F : Signature T I → Signature T I)
    (hid : ∀ a, (F a).id = a.id) :
    ∃ f : List (Link T I) → List (Link T I), ∀ j,
      (m.modifySignature k F).linksOf j = tableModify k f m.linksOf j := by
  cases hs : m._getSignature k with
  | none =>
    refine ⟨fun l => l, ?_⟩
    intro j
    unfold Memory.linksOf tableModify
    by_cases hj : j = k
    · rw [if_pos hj, hj, Memory.getSignature_modify_self m k F hid]
      simp [hs]
    · rw [if_neg hj, Memory.getSignature_modify_ne m F hid hj]
  | some s =>
    refine ⟨fun _ => (F s).links, ?_⟩
    intro j
    unfold Memory.linksOf tableModify
    by_cases hj : j = k
    · rw [if_pos hj, hj, Memory.getSignature_modify_self m k F hid]
      simp [hs]
    · rw [if_neg hj, Memory.getSignature_modify_ne m F hid hj]

/-- Any change of the signature of an id that is left out, its id apart. -/
theorem LinkTableInv.modifySignature_out {g : Geometry T I} {X : Int → Prop} {m : Memory T I}
    {x : Int} (F : Signature T I → Signature T I) (hid : ∀ a, (F a).id = a.id)
    (h : LinkTableInv g X m.idCount m.linksOf) (hx : X x) :
    LinkTableInv g X (m.modifySignature x F).idCount (m.modifySignature x F).linksOf := by
  obtain ⟨f, hf⟩ := Memory.linksOf_modify_out m x F hid
  exact (h.modify_out f hx).congr hf (le_refl _)

theorem LinkTableInv.linkNeighbors_inv {e : Env T I} {X : Int → Prop} {sToId : Int}
    {iter : Link T I} (hg : GeometryLaws e.geo) (hiter : iter.to_ = sToId) (hxs : ¬ X sToId)
    (neighbors : List (Link T I)) (hn : ∀ jter ∈ neighbors, ¬ X jter.to_ ∧ jter.to_ ≠ sToId)
    {m m2 : Memory T I} (h : LinkTableInv e.geo X m.idCount m.linksOf)
    (hr : Memory.reduceLinkNeighbors e sToId iter neighbors m = Except.ok m2) :
    LinkTableInv e.geo X m2.idCount m2.linksOf := by
  induction neighbors generalizing m with
  | nil =>
    unfold Memory.reduceLinkNeighbors at hr
    injection hr with hr
    rw [← hr]
    exact h
  | cons jter rest ih =>
    have hrest : ∀ j ∈ rest, ¬ X j.to_ ∧ j.to_ ≠ sToId :=
      fun j hj => hn j (List.mem_cons_of_mem _ hj)
    obtain ⟨hxj, hjs⟩ := hn jter (List.mem_cons_self _ _)
    unfold Memory.reduceLinkNeighbors at hr
    simp only [bind, Except.bind, pure, Except.pure] at hr
    split at hr
    · exact Except.noConfusion hr
    · rename_i sTo hsTo
      split at hr
      · split at hr
        · exact Except.noConfusion hr
        · rename_i sB hsB
          split at hr
          · exact Except.noConfusion hr
          · apply ih hrest ?_ hr
            have hb := Memory.getSignature_id hsB
            have hpres : ∃ lb, m.linksOf jter.to_ = some lb := by
              have := Memory.linksOf_of_getSignature hsB
              rw [Memory.linksOf_modify_addLink] at this
              obtain ⟨ls0, h0, _⟩ := tableModify_eq_some this
              exact ⟨ls0, h0⟩
            obtain ⟨lb, hlb⟩ := hpres
            have h2 := h.link_pair (Ne.symm hjs) hxs hxj
              (Memory.linksOf_of_getSignature (Memory.deref_eq_ok.1 hsTo)) hlb
              (l := (iter.inverse e.geo).merge e.geo jter
                (if iter.userDataCompressed.isEmpty && iter.type != LinkType.kVirtualClosure
                 then LinkType.kNeighborMerged else iter.type))
              (k := ((iter.inverse e.geo).merge e.geo jter
                (if iter.userDataCompressed.isEmpty && iter.type != LinkType.kVirtualClosure
                 then LinkType.kNeighborMerged else iter.type)).inverse e.geo)
              rfl hiter rfl rfl (hg.1 _).symm
            rw [hb]
            simpa only [Memory.linksOf_modify_addLink, Memory.idCount_modifySignature] using h2
      · exact ih hrest h hr

theorem LinkTableInv.reduceLinks_inv {e : Env T I} {X : Int → Prop} {sId : Int}
    (hg : GeometryLaws e.geo) (hx : X sId)
    (neighbors : List (Link T I)) (hn : ∀ jter ∈ neighbors, ¬ X jter.to_)
    (links : List (Link T I))
    (hl : ∀ iter ∈ links, ¬ X iter.to_ ∧
      (iter.type ≠ LinkType.kNeighbor → ∀ jter ∈ neighbors, jter.to_ ≠ iter.to_))
    {m m2 : Memory T I} (h : LinkTableInv e.geo X m.idCount m.linksOf)
    (hr : Memory.reduceLinks e sId neighbors links m = Except.ok m2) :
    LinkTableInv e.geo X m2.idCount m2.linksOf := by
  induction links generalizing m with
  | nil =>
    unfold Memory.reduceLinks at hr
    injection hr with hr
    rw [← hr]
    exact h
  | cons iter rest ih =>
    have hrest : ∀ i ∈ rest, ¬ X i.to_ ∧
        (i.type ≠ LinkType.kNeighbor → ∀ jter ∈ neighbors, jter.to_ ≠ i.to_) :=
      fun i hi => hl i (List.mem_cons_of_mem _ hi)
    obtain ⟨hxi, hin⟩ := hl iter (List.mem_cons_self _ _)
    unfold Memory.reduceLinks at hr
    simp only [bind, Except.bind, pure, Except.pure] at hr
    split at hr
    · exact Except.noConfusion hr
    · rename_i sTo hsTo
      have hid := Memory.getSignature_id hsTo
      have h1 : LinkTableInv e.geo X (m.modifySignature sTo.id (fun p => p.removeLink sId)).idCount
          (m.modifySignature sTo.id (fun p => p.removeLink sId)).linksOf := by
        rw [Memory.linksOf_modify_removeLink]
        exact h.unlink_out sTo.id hx
      split at hr
      · rename_i hty
        split at hr
        · exact Except.noConfusion hr
        · rename_i m1 hm1
          apply ih hrest ?_ hr
          have hnk : iter.type ≠ LinkType.kNeighbor := by
            simp only [Bool.and_eq_true, bne_iff_ne, ne_eq] at hty
            exact hty.1.1
          refine LinkTableInv.linkNeighbors_inv hg hid.symm (by rw [hid]; exact hxi)
            neighbors ?_ h1 hm1
          intro jter hj
          exact ⟨hn jter hj, by rw [hid]; exact hin hnk jter hj⟩
      · exact ih hrest h1 hr

theorem LinkTableInv.dropNeighbors_inv {g : Geometry T I} {X : Int → Prop} {sId : Int}
    (hx : X sId) (links : List (Link T I)) {m : Memory T I}
    (h : LinkTableInv g X m.idCount m.linksOf) :
    LinkTableInv g X (Memory.reduceDropNeighbors sId links m).idCount
      (Memory.reduceDropNeighbors sId links m).linksOf := by
  induction links generalizing m with
  | nil => exact h
  | cons iter rest ih =>
    unfold Memory.reduceDropNeighbors
    split
    · apply ih
      have h1 := h.modifySignature_out (fun s => s.removeLink iter.to_) (fun _ => rfl) hx
      split
      · exact h1
      · exact h1
    · exact ih h

/-- The graph reduction of a node keeps the link invariant. -/
theorem LinkTableInv.reduceNode {e : Env T I} {m m2 : Memory T I} {s : Signature T I}
    (hg : GeometryLaws e.geo) (hs : m._getSignature s.id = some s)
    (h : LinkTableInv e.geo (fun _ => False) m.idCount m.linksOf)
    (hr : Memory.reduceNode e m s = Except.ok m2) :
    LinkTableInv e.geo (fun _ => False) m2.idCount m2.linksOf := by
  unfold Memory.reduceNode at hr
  obtain ⟨m1, h1, hr⟩ := bind_eq_ok.1 hr
  obtain ⟨s1, _, hr⟩ := bind_eq_ok.1 hr
  obtain ⟨u, w⟩ := h.2 s.id s.links (Memory.linksOf_of_getSignature hs) (fun x => x)
  have hX : LinkTableInv e.geo (fun i => i = s.id) m.idCount m.linksOf :=
    h.mono (fun _ hf => False.elim hf)
  have hm1 : LinkTableInv e.geo (fun i => i = s.id) m1.idCount m1.linksOf := by
    refine LinkTableInv.reduceLinks_inv (X := fun i => i = s.id) hg rfl _ ?_ s.links ?_ hX h1
    · intro jter hj
      exact (w jter (List.mem_of_mem_filter hj)).1
    · intro iter hi
      refine ⟨(w iter hi).1, ?_⟩
      intro hty jter hj hto
      have hjm := List.mem_of_mem_filter hj
      have hjt : jter.type = LinkType.kNeighbor := by
        have := (List.mem_filter.1 hj).2
        simpa using this
      have := u jter hjm iter hi hto
      rw [this] at hjt
      exact hty hjt
  exact LinkTableInv.moveToTrash
    (LinkTableInv.dropNeighbors_inv (X := fun i => i = s.id) rfl s1.links hm1) hr

/-- A migration out of the STM keeps the link invariant. -/
theorem LinkTableInv.moveSignatureToWMFromSTM {e : Env T I} {m : Memory T I} {id reducedTo : Int}
    {now : Rat} {r : Memory T I × Int} (hg : GeometryLaws e.geo)
    (h : LinkTableInv e.geo (fun _ => False) m.idCount m.linksOf)
    (hr : Memory.moveSignatureToWMFromSTM e m id reducedTo now = Except.ok r) :
    LinkTableInv e.geo (fun _ => False) r.1.idCount r.1.linksOf := by
  unfold Memory.moveSignatureToWMFromSTM at hr
  obtain ⟨_, _, hr⟩ := bind_eq_ok.1 hr
  cases hs : m._getSignature id with
  | none =>
    rw [hs] at hr
    exact Except.noConfusion hr
  | some s =>
    rw [hs] at hr
    simp only [] at hr
    have hid := Memory.getSignature_id hs
    split at hr
    · obtain ⟨m1, h1, hr⟩ := bind_eq_ok.1 hr
      injection hr with hr
      rw [← hr]
      exact LinkTableInv.reduceNode hg (by rw [hid]; exact hs) h h1
    · split at hr
      · exact Except.noConfusion hr
      · injection hr with hr
        rw [← hr]
        exact h

end LinkReduce

section LinkRehearsal

variable {T I : Type}

theorem sameView_links_enableWordsRef (e : Env T I) (m : Memory T I) (ids : List Int) :
    SameView Signature.links m (Memory.enableWordsRef e m ids) := by
  unfold Memory.enableWordsRef
  refine sameView_trans _ ?_ (sameView_foldl _ _ ?_ _ _)
  · unfold Memory.enableWordsRefLoad
    simp only []
    refine sameView_ite _ ?_ (sameView_refl _ m)
    unfold Memory.enableWordsRefRewrite
    refine sameView_trans _ (sameView_of_signatures _ rfl) (sameView_foldl _ _ ?_ _ _)
    intro m1 r
    refine sameView_foldl _ _ ?_ _ _
    intro m2 j
    exact sameView_modifySignature _ _ _ _ (fun _ => rfl) (fun _ => rfl)
  · intro m1 j
    unfold Memory.enableWordsRefActivate
    cases m1._getSignature j with
    | none => exact sameView_refl _ m1
    | some s =>
      simp only []
      split
      · exact sameView_trans _ (sameView_of_signatures _ rfl)
          (sameView_modifySignature _ _ _ _ (fun _ => rfl) (fun _ => rfl))
      · exact sameView_of_signatures _ rfl

theorem sameView_links_copyData (e : Env T I) (m m2 : Memory T I) (fromId toId : Int)
    (h : Memory.copyData e m fromId toId = Except.ok m2) : SameView Signature.links m m2 := by
  unfold Memory.copyData at h
  obtain ⟨toS, _, h⟩ := bind_eq_ok.1 h
  obtain ⟨f1, _, h⟩ := bind_eq_ok.1 h
  obtain ⟨f2, _, h⟩ := bind_eq_ok.1 h
  injection h with h
  rw [← h]
  refine sameView_trans _ (sameView_links_disableWordsRef m toS.id) ?_
  refine sameView_trans _
    (sameView_modifySignature _ _ toId (fun s => { s with words := f1.words })
      (fun _ => rfl) (fun _ => rfl)) ?_
  refine sameView_trans _ (sameView_links_enableWordsRef e _ [toS.id]) ?_
  exact sameView_modifySignature _ _ toId (fun s => { s with pose := f2.pose })
    (fun _ => rfl) (fun _ => rfl)

theorem LinkTableInv.redirect_inv {e : Env T I} {X : Int → Prop} {oldId newId : Int}
    {newToOldLink : Link T I} (hg : GeometryLaws e.geo) (hxo : X oldId) (hxn : ¬ X newId)
    (links : List (Link T I)) (hl : ∀ link ∈ links, ¬ X link.to_ ∧ link.to_ ≠ newId)
    {m m2 : Memory T I} (h : LinkTableInv e.geo X m.idCount m.linksOf)
    (hnew : ∃ ls, m.linksOf newId = some ls)
    (hr : Memory.rehearsalRedirect e oldId newId newToOldLink links m = Except.ok m2) :
    LinkTableInv e.geo X m2.idCount m2.linksOf ∧ ∃ ls, m2.linksOf newId = some ls := by
  induction links generalizing m with
  | nil =>
    unfold Memory.rehearsalRedirect at hr
    injection hr with hr
    rw [← hr]
    exact ⟨h, hnew⟩
  | cons link rest ih =>
    have hrest : ∀ k ∈ rest, ¬ X k.to_ ∧ k.to_ ≠ newId :=
      fun k hk => hl k (List.mem_cons_of_mem _ hk)
    obtain ⟨hxl, hln⟩ := hl link (List.mem_cons_self _ _)
    unfold Memory.rehearsalRedirect at hr
    simp only [bind, Except.bind, pure, Except.pure] at hr
    split at hr
    · exact Except.noConfusion hr
    · rename_i hassert
      have hfrom : newToOldLink.from_ = newId := by
        have := uassert_eq_ok.1 hassert
        simp only [Link.merge, Bool.and_eq_true, beq_iff_eq] at this
        exact this.1
      split at hr
      · rename_i sP hsP
        have hid := Memory.getSignature_id hsP
        obtain ⟨ln, hnl⟩ := hnew
        have h1 := h.unlink_out sP.id hxo
        have h2 := h1.link_pair (by rw [hid]; exact hln) (by rw [hid]; exact hxl) hxn
          (tableModify_of_some (Memory.linksOf_of_getSignature (by rw [hid]; exact hsP)))
          (tableModify_of_some hnl)
          (l := (newToOldLink.merge e.geo link link.type).inverse e.geo)
          (k := newToOldLink.merge e.geo link link.type)
          hfrom hid.symm rfl (hg.1 _).symm rfl
        refine ih hrest ?_ ?_ hr
        · simpa only [Memory.linksOf_modify_addLink, Memory.linksOf_modify_removeLink,
            Memory.idCount_modifySignature] using h2
        · simp only [Memory.linksOf_modify_addLink, Memory.linksOf_modify_removeLink]
          exact ⟨_, tableModify_of_some (tableModify_of_some (tableModify_of_some hnl))⟩
      · exact ih hrest h hnew hr

end LinkRehearsal
section LinkRehearsal2

variable {T I : Type}

theorem LinkTableInv.rehearsalMergeIntoNew {e : Env T I} {m m2 : Memory T I}
    {oldId newId : Int} {newToOldLink : Link T I} (hg : GeometryLaws e.geo)
    (hne : oldId ≠ newId)
    (h : LinkTableInv e.geo (fun _ => False) m.idCount m.linksOf)
    (hnew : ∃ ls, m.linksOf newId = some ls)
    (hno : ∀ o, m._getSignature oldId = some o → ∀ l ∈ o.links, l.to_ ≠ newId)
    (hr : Memory.rehearsalMergeIntoNew e m oldId newId newToOldLink = Except.ok m2) :
    LinkTableInv e.geo (fun i => i = oldId) m2.idCount m2.linksOf := by
  unfold Memory.rehearsalMergeIntoNew at hr
  obtain ⟨o, ho, hr⟩ := bind_eq_ok.1 hr
  obtain ⟨m1, h1, hr⟩ := bind_eq_ok.1 hr
  obtain ⟨o1, _, hr⟩ := bind_eq_ok.1 hr
  obtain ⟨m3, h3, hr⟩ := bind_eq_ok.1 hr
  obtain ⟨n3, _, hr⟩ := bind_eq_ok.1 hr
  obtain ⟨o3, _, hr⟩ := bind_eq_ok.1 hr
  injection hr with hr
  have hos := Memory.deref_eq_ok.1 ho
  obtain ⟨_, w⟩ := h.2 oldId o.links (Memory.linksOf_of_getSignature hos) (fun x => x)
  have hX : LinkTableInv e.geo (fun i => i = oldId) m.idCount m.linksOf :=
    h.mono (fun _ hf => False.elim hf)
  obtain ⟨hm1, _⟩ := LinkTableInv.redirect_inv (X := fun i => i = oldId) hg rfl
    (fun e1 => hne e1.symm) o.links
    (fun l hl => ⟨(w l hl).1, hno o hos l hl⟩) hX hnew h1
  have ha : LinkTableInv e.geo (fun i => i = oldId)
      (m1.modifySignature newId (fun s => { s with label := o1.label })).idCount
      (m1.modifySignature newId (fun s => { s with label := o1.label })).linksOf :=
    hm1.of_sameView (sameView_modifySignature _ _ _ _ (fun _ => rfl) (fun _ => rfl)) rfl
  have hb := ((ha.modifySignature_out (x := oldId) (fun s => { s with label := "" })
    (fun _ => rfl) rfl).modifySignature_out (x := oldId) (fun s => s.removeLinks)
    (fun _ => rfl) rfl).modifySignature_out (x := oldId) (fun s => s.addLink
        { from_ := oldId, to_ := newId, type := LinkType.kGlobalClosure,
          transform := e.geo.null, info := e.geo.infoUnit, userDataCompressed := [] })
    (fun _ => rfl) rfl
  have hc := hb.of_sameView (sameView_links_copyData e _ m3 oldId newId h3)
    (SameTiers.copyData e _ m3 oldId newId h3).2.2.2
  rw [← hr]
  split <;>
    simpa only [Memory.linksOf_setWeight, Memory.linksOf_setLastGlobalLoopClosureId,
      Memory.idCount_setWeight, Memory.idCount_setLastGlobalLoopClosureId] using hc

theorem LinkTableInv.rehearsalMergeIntoOld {e : Env T I} {m m2 : Memory T I}
    {oldId newId : Int}
    (h : LinkTableInv e.geo (fun _ => False) m.idCount m.linksOf)
    (hr : Memory.rehearsalMergeIntoOld e m oldId newId = Except.ok m2) :
    LinkTableInv e.geo (fun i => i = newId) m2.idCount m2.linksOf := by
  unfold Memory.rehearsalMergeIntoOld at hr
  obtain ⟨n, _, hr⟩ := bind_eq_ok.1 hr
  obtain ⟨o, _, hr⟩ := bind_eq_ok.1 hr
  injection hr with hr
  have hX : LinkTableInv e.geo (fun i => i = newId) m.idCount m.linksOf :=
    h.mono (fun _ hf => False.elim hf)
  have hb := hX.modifySignature_out (x := newId) (fun s => s.addLink
      { from_ := newId, to_ := oldId, type := LinkType.kGlobalClosure,
        transform := e.geo.null, info := e.geo.infoUnit, userDataCompressed := [] })
    (fun _ => rfl) rfl
  rw [← hr]
  split <;>
    simpa only [Memory.linksOf_setWeight, Memory.linksOf_setLastSignature,
      Memory.idCount_setWeight, Memory.idCount_setLastSignature] using hb

end LinkRehearsal2
theorem Memory.linksOf_rehearsalWeights {T I : Type} (e : Env T I) (m : Memory T I)
    (oldS newS : Signature T I) (b : Bool) :
    (Memory.rehearsalWeights e m oldS newS b).linksOf = m.linksOf := by
  unfold Memory.rehearsalWeights
  simp only []
  repeat' split
  all_goals simp only [Memory.linksOf_setWeight, Memory.linksOf_setLastGlobalLoopClosureId]

section LinkRehearsal3

variable {T I : Type}

theorem LinkTableInv.rehearsalFullMerge {e : Env T I} {m m2 : Memory T I}
    {oldS newS : Signature T I} {oldId newId : Int} (hg : GeometryLaws e.geo)
    (ho : m._getSignature oldId = some oldS) (hn : m._getSignature newId = some newS)
    (hne : oldId ≠ newId)
    (h : LinkTableInv e.geo (fun _ => False) m.idCount m.linksOf)
    (hr : Memory.rehearsalFullMerge e m oldS newS oldId newId = Except.ok m2) :
    LinkTableInv e.geo (fun _ => False) m2.idCount m2.linksOf := by
  have hoi := Memory.getSignature_id ho
  have hni := Memory.getSignature_id hn
  unfold Memory.rehearsalFullMerge at hr
  rw [hoi, hni] at hr
  obtain ⟨l, _, hr⟩ := bind_eq_ok.1 hr
  obtain ⟨m1, h1, hr⟩ := bind_eq_ok.1 hr
  have h0 : LinkTableInv e.geo (fun _ => False)
      ((m.modifySignature oldId (fun s => s.removeLink newId)).modifySignature newId
        (fun s => s.removeLink oldId)).idCount
      ((m.modifySignature oldId (fun s => s.removeLink newId)).modifySignature newId
        (fun s => s.removeLink oldId)).linksOf := by
    simpa only [Memory.linksOf_modify_removeLink, Memory.idCount_modifySignature]
      using h.unlink_pair oldId newId
  by_cases hc : e.idUpdatedToNewOneRehearsal = true
  · rw [if_pos hc] at h1 hr
    refine LinkTableInv.moveToTrash ?_ hr
    refine LinkTableInv.rehearsalMergeIntoNew hg hne h0 ?_ ?_ h1
    · rw [Memory.linksOf_modify_removeLink, Memory.linksOf_modify_removeLink]
      exact ⟨_, tableModify_of_some (tableModify_of_some (Memory.linksOf_of_getSignature hn))⟩
    · intro o hos k hk
      have := Memory.linksOf_of_getSignature hos
      rw [Memory.linksOf_modify_removeLink, Memory.linksOf_modify_removeLink,
        tableModify_ne _ _ hne, tableModify_self, Memory.linksOf_of_getSignature ho] at this
      injection this with this
      rw [← this] at hk
      exact ((mem_kerase Link.to_).1 hk).2
  · rw [if_neg hc] at h1 hr
    exact LinkTableInv.moveToTrash (LinkTableInv.rehearsalMergeIntoOld h0 h1) hr

theorem LinkTableInv.rehearsalMerge {e : Env T I} {m : Memory T I} {oldId newId : Int}
    {r : Bool × Memory T I} (hg : GeometryLaws e.geo) (hne : oldId ≠ newId)
    (h : LinkTableInv e.geo (fun _ => False) m.idCount m.linksOf)
    (hr : Memory.rehearsalMerge e m oldId newId = Except.ok r) :
    LinkTableInv e.geo (fun _ => False) r.2.idCount r.2.linksOf := by
  unfold Memory.rehearsalMerge at hr
  cases ho : m._getSignature oldId with
  | none =>
    rw [ho] at hr
    injection hr with hr
    rw [← hr]
    exact h
  | some oldS =>
    cases hn : m._getSignature newId with
    | none =>
      rw [ho, hn] at hr
      injection hr with hr
      rw [← hr]
      exact h
    | some newS =>
      rw [ho, hn] at hr
      simp only [] at hr
      split at hr
      · injection hr with hr
        rw [← hr]
        exact h
      · split at hr
        · injection hr with hr
          rw [← hr]
          exact h
        · obtain ⟨_, _, hr⟩ := bind_eq_ok.1 hr
          obtain ⟨first, _, hr⟩ := bind_eq_ok.1 hr
          split at hr
          · injection hr with hr
            rw [← hr]
            exact h
          · split at hr
            · obtain ⟨m1, h1, hr⟩ := bind_eq_ok.1 hr
              injection hr with hr
              rw [← hr]
              exact LinkTableInv.rehearsalFullMerge hg ho hn hne h h1
            · injection hr with hr
              rw [← hr]
              exact h.congr (fun j => congrFun (Memory.linksOf_rehearsalWeights e m oldS newS _) j)
                (le_of_eq (SameTiers.rehearsalWeights e m oldS newS _).2.2.2.symm)

/-- A rehearsal keeps the link invariant. -/
theorem LinkTableInv.rehearsal {e : Env T I} {m m2 : Memory T I} {signatureId : Int}
    (hg : GeometryLaws e.geo)
    (h : LinkTableInv e.geo (fun _ => False) m.idCount m.linksOf)
    (hr : Memory.rehearsal e m signatureId = Except.ok m2) :
    LinkTableInv e.geo (fun _ => False) m2.idCount m2.linksOf := by
  unfold Memory.rehearsal at hr
  obtain ⟨signature, hsig, hr⟩ := bind_eq_ok.1 hr
  split at hr
  · injection hr with hr
    rw [← hr]
    exact h
  · obtain ⟨c, hc, hr⟩ := bind_eq_ok.1 hr
    cases c with
    | none =>
      injection hr with hr
      rw [← hr]
      exact h
    | some sB =>
      obtain ⟨_, c2⟩ := Memory.rehearsalCandidate_spec m signature.id _ sB hc
      simp only [] at hr
      split at hr
      · split at hr
        · obtain ⟨r, hr1, hr⟩ := bind_eq_ok.1 hr
          injection hr with hr
          rw [← hr]
          exact LinkTableInv.rehearsalMerge hg c2 h hr1
        · injection hr with hr
          rw [← hr]
          simpa only [Memory.linksOf_setWeight, Memory.idCount_setWeight] using h
      · injection hr with hr
        rw [← hr]
        exact h

end LinkRehearsal3

section LinkUpdate

variable {T I : Type}

/-- A new id above the counter enters the table with a link to an id of the
table, which gets the inverse link. -/
theorem LinkTableInv.insert_linked {g : Geometry T I} {n n2 x tail : Int}
    {tbl : Int → Option (List (Link T I))} {lt : List (Link T I)} {l k : Link T I}
    (h : LinkTableInv g (fun _ => False) n tbl) (hnx : n < x) (hxn : x ≤ n2)
    (ht : tbl tail = some lt) (hl : l.to_ = x) (hk : k.to_ = tail) (htype : k.type = l.type)
    (hkl : k.transform = g.inverse l.transform) (hlk : l.transform = g.inverse k.transform) :
    LinkTableInv g (fun _ => False) n2
      (tableInsert x [k] (tableModify tail (kinsert Link.to_ l) tbl)) := by
  have htx : tail ≠ x := by
    have := h.1 tail lt ht
    omega
  have h0 := h.insert_new hnx hxn
  have h1 := h0.link_pair htx (fun f => f) (fun f => f)
    (by rw [tableInsert_ne _ _ htx]; exact ht) (tableInsert_self x [] tbl) hl hk htype hkl hlk
  refine h1.congr ?_ (le_refl _)
  intro j
  by_cases hj : j = x
  · rw [hj, tableInsert_self, tableModify_self, tableModify_ne _ _ (Ne.symm htx),
      tableInsert_self]
    rfl
  · rw [tableInsert_ne _ _ hj, tableModify_ne _ _ hj]
    unfold tableModify
    rw [tableInsert_ne _ _ hj]

theorem Memory.linksOf_insert (m : Memory T I) (s : Signature T I) (a : List Int) (b : Int)
    (hno : m._getSignature s.id = none) (j : Int) :
    (((m.setSignatures (kinsert Signature.id s m.signatures)).setStMem a).setSignaturesAdded
      b).linksOf j = tableInsert s.id s.links m.linksOf j := by
  have hk : khas Signature.id m.signatures s.id = false := by
    rw [khas_eq_isSome]
    unfold Memory._getSignature at hno
    rw [hno]
    rfl
  unfold Memory.linksOf tableInsert Memory._getSignature
  show (kfind Signature.id (kinsert Signature.id s m.signatures) j).map Signature.links = _
  rw [kfind_kinsert, hk]
  simp only [Bool.false_eq_true, if_false]
  split <;> rfl

theorem Memory.tagFirstNode_links (e : Env T I) (m : Memory T I) (s : Signature T I) :
    (Memory.tagFirstNode e m s).links = s.links := by
  unfold Memory.tagFirstNode
  split <;> rfl

/-- The insertion into the STM of a new signature without links, above the
former id counter, keeps the link invariant. -/
theorem LinkTableInv.addSignatureToStm {e : Env T I} {m m2 : Memory T I} {s : Signature T I}
    {infMatrix : I} {n : Int} (hg : GeometryLaws e.geo)
    (h : LinkTableInv e.geo (fun _ => False) n m.linksOf)
    (hns : n < s.id) (hsn : s.id ≤ m.idCount) (hlinks : s.links = [])
    (hr : Memory.addSignatureToStm e m s infMatrix = Except.ok m2) :
    LinkTableInv e.geo (fun _ => False) m2.idCount m2.linksOf := by
  have hcount := (Memory.addSignatureToStm_tiers e m m2 s infMatrix hr).2.2.2
  rw [hcount]
  have hno : m._getSignature s.id = none := by
    cases hs : m._getSignature s.id with
    | none => rfl
    | some s0 =>
      have := h.1 s.id s0.links (Memory.linksOf_of_getSignature hs)
      omega
  have plain : ∀ s1 : Signature T I, s1.id = s.id → s1.links = [] → ∀ a b,
      LinkTableInv e.geo (fun _ => False) m.idCount
        (((m.setSignatures (kinsert Signature.id s1 m.signatures)).setStMem a).setSignaturesAdded
          b).linksOf := by
    intro s1 h1 h2 a b
    refine (h.insert_new hns hsn).congr ?_ (le_refl _)
    intro j
    rw [Memory.linksOf_insert m s1 a b (by rw [h1]; exact hno), h1, h2]
  have linked : ∀ (tailId : Int) (tail : Signature T I) (l k : Link T I) (s1 : Signature T I),
      m._getSignature tailId = some tail → l.to_ = s.id → k.to_ = tailId → k.type = l.type →
      k.transform = e.geo.inverse l.transform → l.transform = e.geo.inverse k.transform →
      s1.id = s.id → s1.links = [k] → ∀ a b,
      LinkTableInv e.geo (fun _ => False) m.idCount
        ((((m.modifySignature tailId (fun p => p.addLink l)).setSignatures
          (kinsert Signature.id s1 (m.modifySignature tailId
            (fun p => p.addLink l)).signatures)).setStMem a).setSignaturesAdded b).linksOf := by
    intro tailId tail l k s1 ht hl hk hty hkl hlk h1 h2 a b
    refine (h.insert_linked hns hsn (Memory.linksOf_of_getSignature ht) hl hk hty hkl
      hlk).congr ?_ (le_refl _)
    intro j
    have hno1 : (m.modifySignature tailId (fun p => p.addLink l))._getSignature s1.id = none := by
      have hne : s1.id ≠ tailId := by
        intro e1
        rw [h1] at e1
        rw [e1, ht] at hno
        exact Option.noConfusion hno
      rw [Memory.getSignature_modify_ne m (fun p => p.addLink l) (fun _ => rfl) hne, h1]
      exact hno
    rw [Memory.linksOf_insert _ s1 a b hno1, h1, h2, Memory.linksOf_modify_addLink]
  unfold Memory.addSignatureToStm at hr
  simp only [bind, Except.bind, pure, Except.pure] at hr
  split at hr
  · rename_i tailId _
    split at hr
    · exact Except.noConfusion hr
    · rename_i tail htail
      have ht : m._getSignature tailId = some tail := by
        unfold Memory.signatureAt at htail
        cases hs : m._getSignature tailId with
        | none =>
          rw [hs] at htail
          exact Except.noConfusion htail
        | some t0 =>
          rw [hs] at htail
          injection htail with htail
          rw [htail]
      by_cases hmap : tail.mapId = s.mapId
      · rw [if_pos hmap] at hr
        by_cases hmetric : (!e.geo.isNull s.pose && !e.geo.isNull tail.pose) = true
        · rw [if_pos hmetric] at hr
          injection hr with hr
          rw [← hr]
          refine linked tailId tail
            { from_ := tailId, to_ := s.id, type := LinkType.kNeighbor,
              transform := e.geo.mul (e.geo.inverse tail.pose) s.pose, info := infMatrix,
              userDataCompressed := [] }
            { from_ := s.id, to_ := tailId, type := LinkType.kNeighbor,
              transform := e.geo.inverse (e.geo.mul (e.geo.inverse tail.pose) s.pose),
              info := infMatrix, userDataCompressed := [] }
            _ ht rfl rfl rfl rfl (hg.1 _).symm ?_ ?_ _ _
          · split <;> rfl
          · split <;> simp [Signature.addLink, hlinks, kinsert, khas, kfind, kplace]
        · rw [if_neg hmetric] at hr
          injection hr with hr
          rw [← hr]
          refine linked tailId tail
            { from_ := tailId, to_ := s.id, type := LinkType.kNeighbor,
              transform := e.geo.null, info := e.geo.infoDefault, userDataCompressed := [] }
            { from_ := s.id, to_ := tailId, type := LinkType.kNeighbor,
              transform := e.geo.null, info := e.geo.infoDefault, userDataCompressed := [] }
            _ ht rfl rfl rfl hg.2.symm hg.2.symm ?_ ?_ _ _
          · split <;> rfl
          · split <;> simp [Signature.addLink, hlinks, kinsert, khas, kfind, kplace]
      · rw [if_neg hmap] at hr
        injection hr with hr
        rw [← hr]
        refine plain _ ?_ ?_ _ _
        · split <;> exact Memory.tagFirstNode_id e m s
        · split <;> simp [Memory.tagFirstNode_links, hlinks]
  · by_cases hl : e.mapLabelsAdded = true
    · rw [if_pos hl] at hr
      injection hr with hr
      rw [← hr]
      refine plain _ ?_ ?_ _ _
      · split <;> exact Memory.tagFirstNode_id e m s
      · split <;> simp [Memory.tagFirstNode_links, hlinks]
    · rw [if_neg hl] at hr
      injection hr with hr
      rw [← hr]
      refine plain _ ?_ ?_ _ _
      · split <;> rfl
      · split <;> simp [hlinks]

end LinkUpdate
section LinkUpdate2

variable {T I : Type}

theorem Memory.linksOf_preUpdate (e : Env T I) (m : Memory T I) :
    (Memory.preUpdate e m).linksOf = m.linksOf := by
  unfold Memory.preUpdate Memory.cleanUnusedWords
  simp only []
  repeat' split
  all_goals rfl

theorem Memory.linksOf_createSignature (e : Env T I) (m : Memory T I) (data : SensorData)
    (pose : T) (c : Option (Signature T I) × Memory T I)
    (h : Memory.createSignature e m data pose = Except.ok c) : c.2.linksOf = m.linksOf := by
  unfold Memory.createSignature at h
  obtain ⟨_, _, h⟩ := bind_eq_ok.1 h
  have hid : (Memory.createSignatureId e m data).2.linksOf = m.linksOf := by
    unfold Memory.createSignatureId
    repeat' split
    all_goals rfl
  split at h
  · injection h with h
    rw [← h]
  · split at h
    · injection h with h
      rw [← h]
      exact hid
    · injection h with h
      rw [← h, ← hid]
      unfold Memory.createSignatureBuild
      simp only []
      split <;> rfl

theorem LinkTableInv.updateTransfer {e : Env T I} {clock : Nat → Rat} (fuel : Nat) {k : Nat}
    {n : Int} {reducedIds : List (Int × Int)} {m : Memory T I}
    {r : List (Int × Int) × Memory T I} (hg : GeometryLaws e.geo)
    (h : LinkTableInv e.geo (fun _ => False) m.idCount m.linksOf)
    (hr : Memory.updateTransfer e clock fuel k n reducedIds m = Except.ok r) :
    LinkTableInv e.geo (fun _ => False) r.2.idCount r.2.linksOf := by
  induction fuel generalizing k n reducedIds m with
  | zero =>
    unfold Memory.updateTransfer at hr
    injection hr with hr
    rw [← hr]
    exact h
  | succ fuel ih =>
    unfold Memory.updateTransfer at hr
    split at hr
    · injection hr with hr
      rw [← hr]
      exact h
    · split at hr
      · split at hr
        · exact Except.noConfusion hr
        · simp only [bind, Except.bind] at hr
          split at hr
          · exact Except.noConfusion hr
          · rename_i v hv
            exact ih (LinkTableInv.moveSignatureToWMFromSTM hg h hv) hr
      · injection hr with hr
        rw [← hr]
        exact h

theorem LinkTableInv.updateAdd {e : Env T I} {m : Memory T I} {s : Signature T I}
    {infMatrix : I} {clock : Nat → Rat} {r : List (Int × Int) × Memory T I} {n : Int}
    (hg : GeometryLaws e.geo)
    (h : LinkTableInv e.geo (fun _ => False) n m.linksOf)
    (hns : n < s.id) (hsn : s.id ≤ m.idCount) (hlinks : s.links = [])
    (hr : Memory.updateAdd e m s infMatrix clock = Except.ok r) :
    LinkTableInv e.geo (fun _ => False) r.2.idCount r.2.linksOf := by
  unfold Memory.updateAdd at hr
  obtain ⟨m1, h1, hr⟩ := bind_eq_ok.1 hr
  obtain ⟨m2, h2, hr⟩ := bind_eq_ok.1 hr
  obtain ⟨c, _, hr⟩ := bind_eq_ok.1 hr
  have i1 := LinkTableInv.addSignatureToStm hg h hns hsn hlinks h1
  have i2 : LinkTableInv e.geo (fun _ => False) m2.idCount m2.linksOf := by
    split at h2
    · exact LinkTableInv.rehearsal hg
        (m := m1.setLastSignature (some s.id)) i1 h2
    · injection h2 with h2
      rw [← h2]
      exact i1
  exact LinkTableInv.updateTransfer _ hg i2 hr

/-- `update` keeps the link invariant. -/
theorem LinkTableInv.update {e : Env T I} {m : Memory T I} {data : SensorData} {pose : T}
    {infMatrix : I} {clock : Nat → Rat} {r : Bool × List (Int × Int) × Memory T I}
    (hg : GeometryLaws e.geo)
    (h : LinkTableInv e.geo (fun _ => False) m.idCount m.linksOf)
    (hr : Memory.update e m data pose infMatrix clock = Except.ok r) :
    LinkTableInv e.geo (fun _ => False) r.2.2.idCount r.2.2.linksOf := by
  unfold Memory.update at hr
  obtain ⟨c, hc, hr⟩ := bind_eq_ok.1 hr
  obtain ⟨_, _, _, c4, c5⟩ := Memory.createSignature_spec _ _ _ _ _ hc
  have hl := Memory.linksOf_createSignature _ _ _ _ _ hc
  rw [Memory.linksOf_preUpdate] at hl
  have hp : (Memory.preUpdate e m).idCount = m.idCount := (SameTiers.preUpdate e m).2.2.2
  cases hs : c.1 with
  | none =>
    rw [hs] at hr
    injection hr with hr
    rw [← hr]
    show LinkTableInv e.geo (fun _ => False) c.2.idCount c.2.linksOf
    rw [hl, c4 hs, hp]
    exact h
  | some s =>
    rw [hs] at hr
    obtain ⟨t, ht, hr⟩ := bind_eq_ok.1 hr
    injection hr with hr
    rw [← hr]
    obtain ⟨s1, s2, s3⟩ := c5 s hs
    rw [hp] at s2
    have := LinkTableInv.updateAdd (n := m.idCount) hg (by rw [hl]; exact h) s2
      (le_of_eq s1) s3 ht
    simp only []
    split
    · exact this
    · exact this

end LinkUpdate2

/-! ## Link symmetry as an invariant -/

theorem geometryLaws_lineGeometry : GeometryLaws lineGeometry := by
  refine ⟨?_, rfl⟩
  intro t
  cases t with
  | none => rfl
  | some x => simp [lineGeometry]

theorem linkInvariant_linkedPairMemory (type : LinkType) (w1 w2 : Int) :
    LinkInvariant lineGeometry ((linkedPairMemory type w1 w2).setIdCount 2) := by
  have cases2 : ∀ i s, ((linkedPairMemory type w1 w2).setIdCount 2)._getSignature i = some s →
      (i = 1 ∧ s = lineSignature 1 w1 (some 0) [lineLink 1 2 type (some 3)]) ∨
      (i = 2 ∧ s = lineSignature 2 w2 (some 3) [lineLink 2 1 type (some (-3))]) := by
    intro i s h
    have hk := Memory.getSignature_id h
    have hm := kfind_mem Signature.id h
    simp only [linkedPairMemory, lineMemory, Memory.setIdCount, List.mem_cons,
      List.mem_singleton, List.not_mem_nil, or_false] at hm
    rcases hm with rfl | rfl
    · exact Or.inl ⟨hk.symm, rfl⟩
    · exact Or.inr ⟨hk.symm, rfl⟩
  refine ⟨?_, ?_, ?_⟩
  · intro i s h l hl p hp
    rcases cases2 i s h with ⟨rfl, rfl⟩ | ⟨rfl, rfl⟩
    · simp only [lineSignature, List.mem_singleton] at hl
      subst hl
      rcases cases2 _ p hp with ⟨h1, _⟩ | ⟨_, rfl⟩
      · exact absurd h1 (by show ¬ (2 : Int) = 1; decide)
      · exact ⟨lineLink 2 1 type (some (-3)), List.mem_singleton.2 rfl, rfl, rfl, rfl⟩
    · simp only [lineSignature, List.mem_singleton] at hl
      subst hl
      rcases cases2 _ p hp with ⟨_, rfl⟩ | ⟨h1, _⟩
      · exact ⟨lineLink 1 2 type (some 3), List.mem_singleton.2 rfl, rfl, rfl, rfl⟩
      · exact absurd h1 (by show ¬ (1 : Int) = 2; decide)
  · intro i s h
    rcases cases2 i s h with ⟨rfl, _⟩ | ⟨rfl, _⟩
    · show (1 : Int) ≤ 2
      decide
    · show (2 : Int) ≤ 2
      decide
  · intro i s h
    rcases cases2 i s h with ⟨rfl, rfl⟩ | ⟨rfl, rfl⟩
    · refine ⟨?_, ?_⟩
      · intro l hl
        simp only [lineSignature, List.mem_singleton] at hl
        subst hl
        exact ⟨by show (2 : Int) ≠ 1; decide, by show (2 : Int) ≤ 2; decide⟩
      · intro l hl k hk _
        simp only [lineSignature, List.mem_singleton] at hl hk
        rw [hl, hk]
    · refine ⟨?_, ?_⟩
      · intro l hl
        simp only [lineSignature, List.mem_singleton] at hl
        subst hl
        exact ⟨by show (1 : Int) ≠ 2; decide, by show (1 : Int) ≤ 2; decide⟩
      · intro l hl k hk _
        simp only [lineSignature, List.mem_singleton] at hl hk
        rw [hl, hk]

section Reactivation

variable {T I : Type}

/-- The table after `addSignatureToWmFromLTM` of a signature that is new to
it. -/
theorem Memory.getSignature_addSignatureToWmFromLTM (m : Memory T I) (s : Signature T I)
    (now : Rat) (hnew : m._getSignature s.id = none) (i : Int) :
    (m.addSignatureToWmFromLTM s now)._getSignature i =
      if i = s.id then some s else m._getSignature i := by
  have hk : khas Signature.id m.signatures s.id = false := by
    unfold khas
    unfold Memory._getSignature at hnew
    rw [hnew]
    rfl
  unfold Memory.addSignatureToWmFromLTM Memory._getSignature
  simp only [Memory.setSignaturesAdded_signatures, Memory.setSignatures_signatures,
    Memory.setWorkingMem_signatures]
  rw [kfind_kinsert, hk]
  simp only [Bool.false_eq_true, if_false]

/-- The link invariant is kept by `addSignatureToWmFromLTM` of the first of the
signatures the database returned, and the others fit the memory it makes. -/
theorem LoadedLinksFit.insert_first {g : Geometry T I} {m : Memory T I} {s : Signature T I}
    {rest : List (Signature T I)} (hf : LoadedLinksFit g m (s :: rest))
    (hi : LinkInvariant g m) (now : Rat) :
    LinkInvariant g (m.addSignatureToWmFromLTM s now) ∧
    LoadedLinksFit g (m.addSignatureToWmFromLTM s now) rest := by
  obtain ⟨f1, f2, f3, f4⟩ := hf
  obtain ⟨hsym, hb, hw⟩ := hi
  rw [List.pairwise_cons] at f1
  obtain ⟨snew, sle, swf, smap⟩ := f2 s (List.mem_cons_self _ _)
  have hget := Memory.getSignature_addSignatureToWmFromLTM m s now snew
  have hcount : (m.addSignatureToWmFromLTM s now).idCount = m.idCount := rfl
  refine ⟨⟨?_, ?_, ?_⟩, f1.2, ?_, ?_, ?_⟩
  · intro i a ha l hl p hp
    rw [hget] at ha hp
    by_cases his : i = s.id
    · rw [if_pos his] at ha
      injection ha with ha
      subst ha
      rw [if_neg (swf l hl).1] at hp
      rw [his]
      exact f3 s (List.mem_cons_self _ _) l hl p (Or.inl hp)
    · rw [if_neg his] at ha
      by_cases hls : l.to_ = s.id
      · rw [if_pos hls] at hp
        injection hp with hp
        subst hp
        exact f4 i a ha l hl s (List.mem_cons_self _ _) hls.symm
      · rw [if_neg hls] at hp
        exact hsym i a ha l hl p hp
  · intro i a ha
    rw [hget] at ha
    rw [hcount]
    by_cases his : i = s.id
    · rw [his]
      exact sle
    · rw [if_neg his] at ha
      exact hb i a ha
  · intro i a ha
    rw [hget] at ha
    rw [hcount]
    by_cases his : i = s.id
    · rw [if_pos his] at ha
      injection ha with ha
      subst ha
      rw [his]
      exact ⟨swf, smap⟩
    · rw [if_neg his] at ha
      exact hw i a ha
  · intro x hx
    obtain ⟨xnew, xle, xwf, xmap⟩ := f2 x (List.mem_cons_of_mem _ hx)
    refine ⟨?_, xle, xwf, xmap⟩
    rw [hget, if_neg (Ne.symm (f1.1 x hx))]
    exact xnew
  · intro x hx l hl p hp
    rcases hp with hp | ⟨hp, hpl⟩
    · rw [hget] at hp
      by_cases hls : l.to_ = s.id
      · rw [if_pos hls] at hp
        injection hp with hp
        subst hp
        exact f3 x (List.mem_cons_of_mem _ hx) l hl s
          (Or.inr ⟨List.mem_cons_self _ _, hls.symm⟩)
      · rw [if_neg hls] at hp
        exact f3 x (List.mem_cons_of_mem _ hx) l hl p (Or.inl hp)
    · exact f3 x (List.mem_cons_of_mem _ hx) l hl p (Or.inr ⟨List.mem_cons_of_mem _ hp, hpl⟩)
  · intro i p hp l hl x hx hxl
    rw [hget] at hp
    by_cases his : i = s.id
    · rw [if_pos his] at hp
      injection hp with hp
      subst hp
      rw [his]
      exact f3 s (List.mem_cons_self _ _) l hl x (Or.inr ⟨List.mem_cons_of_mem _ hx, hxl⟩)
    · rw [if_neg his] at hp
      exact f4 i p hp l hl x (List.mem_cons_of_mem _ hx) hxl

/-- The link invariant is kept by the loop of `reactivateSignatures` that
inserts the signatures the database returned, when these fit the memory. -/
theorem LoadedLinksFit.reactivateInsert {g : Geometry T I} (clock : Nat → Rat)
    (loaded : List (Signature T I)) (k : Nat) (m : Memory T I)
    (hf : LoadedLinksFit g m loaded) (hi : LinkInvariant g m) :
    LinkInvariant g (Memory.reactivateInsert clock loaded k m) := by
  induction loaded generalizing k m with
  | nil => exact hi
  | cons s rest ih =>
    unfold Memory.reactivateInsert
    obtain ⟨h1, h2⟩ := hf.insert_first hi (clock k)
    exact ih (k + 1) _ h2 h1

/-- The link invariant is kept by `reactivateSignatures` when the signatures
the database returns fit the memory. -/
theorem LoadedLinksFit.reactivateSignatures {e : Env T I} {m : Memory T I}
    (ids : List Int) (maxLoaded : Nat) (clock : Nat → Rat)
    (hf : LoadedLinksFit e.geo m
      (if e.hasDb then e.loadSignatures (Memory.idsToLoad m maxLoaded ids []) else []))
    (hi : LinkInvariant e.geo m) :
    LinkInvariant e.geo (Memory.reactivateSignatures e m ids maxLoaded clock).2 := by
  have h := (linkInvariant_iff _).1 (hf.reactivateInsert clock _ 0 m hi)
  rw [linkInvariant_iff]
  unfold Memory.reactivateSignatures
  simp only []
  exact h.of_sameView (sameView_links_enableWordsRef e _ _) (SameTiers.enableWordsRef e _ _).2.2.2

end Reactivation

theorem Memory.getSignature_of_singleton {T I : Type} (m : Memory T I) (a : Signature T I)
    (h : m.signatures = [a]) (i : Int) (p : Signature T I) (hp : m._getSignature i = some p) :
    p = a ∧ i = a.id := by
  have hk := Memory.getSignature_id hp
  have hm := kfind_mem Signature.id hp
  rw [h, List.mem_singleton] at hm
  rw [← hk, hm]
  exact ⟨rfl, rfl⟩

/-- The node 1 the database returns fits the memory `forget` left: node 2
answers its link. -/
theorem loadedLinksFit_halfPairMemory :
    LoadedLinksFit lineGeometry halfPairMemory
      [lineSignature 1 0 (some 0) [lineLink 1 2 LinkType.kGlobalClosure (some 3)]] := by
  refine ⟨List.pairwise_singleton _ _, ?_, ?_, ?_⟩
  · intro s hs
    rw [List.mem_singleton.1 hs]
    refine ⟨rfl, by decide, ?_, ?_⟩
    · intro l hl
      rw [List.mem_singleton.1 hl]
      exact ⟨by decide, by decide⟩
    · intro l hl k hk _
      rw [List.mem_singleton.1 hl, List.mem_singleton.1 hk]
  · intro s hs l hl p hp
    rw [List.mem_singleton.1 hs] at hl ⊢
    rw [List.mem_singleton.1 hl] at hp ⊢
    rcases hp with hp | ⟨hp, hpl⟩
    · obtain ⟨rfl, _⟩ := Memory.getSignature_of_singleton halfPairMemory _ rfl _ p hp
      exact ⟨lineLink 2 1 LinkType.kGlobalClosure (some (-3)), List.mem_singleton.2 rfl,
        rfl, rfl, rfl⟩
    · rw [List.mem_singleton.1 hp] at hpl
      exact absurd hpl (by decide)
  · intro i p hp l hl s hs _
    obtain ⟨rfl, rfl⟩ := Memory.getSignature_of_singleton halfPairMemory _ rfl i p hp
    rw [List.mem_singleton.1 hs]
    rw [List.mem_singleton.1 hl]
    exact ⟨lineLink 1 2 LinkType.kGlobalClosure (some 3), List.mem_singleton.2 rfl,
      rfl, rfl, rfl⟩

section ReactivationFrame

variable {T I : Type}

/-- The loop of `reactivateSignatures` that inserts the signatures the database
returned leaves the signatures in memory as they are. -/
theorem Memory.getSignature_reactivateInsert (clock : Nat → Rat)
    (loaded : List (Signature T I)) (k : Nat) (m : Memory T I) (i : Int)
    (hi : (m._getSignature i).isSome = true) :
    (Memory.reactivateInsert clock loaded k m)._getSignature i = m._getSignature i := by
  induction loaded generalizing k m with
  | nil => rfl
  | cons s rest ih =>
    unfold Memory.reactivateInsert
    have hstep : (m.addSignatureToWmFromLTM s (clock k))._getSignature i = m._getSignature i := by
      unfold Memory.addSignatureToWmFromLTM Memory._getSignature
      simp only [Memory.setSignaturesAdded_signatures, Memory.setSignatures_signatures,
        Memory.setWorkingMem_signatures]
      rw [kfind_kinsert]
      split
      · rfl
      · rename_i hk
        split
        · rename_i his
          exfalso
          apply hk
          rw [← his, khas_eq_isSome]
          exact hi
        · rfl
    rw [ih (k + 1) _ (by rw [hstep]; exact hi), hstep]

/-- The call `reactivateSignatures` changes no link of a signature in memory. -/
theorem Memory.linksOf_reactivateSignatures (e : Env T I) (m : Memory T I) (ids : List Int)
    (maxLoaded : Nat) (clock : Nat → Rat) (i : Int) (hi : (m._getSignature i).isSome = true) :
    (Memory.reactivateSignatures e m ids maxLoaded clock).2.linksOf i = m.linksOf i := by
  unfold Memory.reactivateSignatures
  simp only []
  rw [Memory.linksOf_of_sameView (sameView_links_enableWordsRef e _ _)]
  unfold Memory.linksOf
  rw [Memory.getSignature_reactivateInsert clock _ 0 m i hi]

end ReactivationFrame

theorem linksBidirectional_of_unlinked {T I : Type} (g : Geometry T I) (m : Memory T I)
    (h : m.signatures.all (fun s => s.links.isEmpty) = true) : LinksBidirectional g m := by
  intro i s hs l hl
  have hm := kfind_mem Signature.id hs
  have := List.all_eq_true.1 h s hm
  rw [List.isEmpty_iff] at this
  rw [this] at hl
  cases hl

/-- Claim C1 fails on the code, in two ways. The nodes 1 and 2 of the working
memory are linked to each other, each link the inverse of the other; `forget`
moves node 1 to the trash and leaves node 2 in memory with its link to node 1,
whose peer is no longer in the signature table. And with
`Mem/RehearsalIdUpdatedToNewOne` false and `Mem/NotLinkedNodesKept` true
`update` merges the new signature 2 into the STM node 1 by rehearsal and hands
node 2 to the database with the link to node 1 that keeps track of the merge
and that node 1 does not answer; the memory `update` leaves has bidirectional
links, and `reactivateSignatures` of node 2 brings the node back from the
database with that link: node 1 is in memory and stores no link to node 2. -/
theorem forget_and_reactivation_break_bidirectionality :
    (LinksBidirectional lineGeometry
      ((linkedPairMemory LinkType.kGlobalClosure 0 0).setIdCount 2) ∧
    ∃ r, Memory.forget (lineEnv true false 2)
        ((linkedPairMemory LinkType.kGlobalClosure 0 0).setIdCount 2) [] = Except.ok r ∧
      r.1 = [1] ∧ r.2._getSignature 1 = none ∧
      (r.2._getSignature 2).map (fun s => s.links.map Link.to_) = some [1] ∧
      ¬ LinksBidirectional lineGeometry r.2) ∧
    (LinksBidirectional lineGeometry mergeArchiveMemory ∧
    ∃ r, Memory.update mergeArchiveEnv mergeArchiveMemory mergeArchiveData (some 1) ()
        (fun _ => 0) = Except.ok r ∧
      r.2.2.signatures.map (fun s => (s.id, s.links.map Link.to_)) = [(1, [])] ∧
      r.2.2.dbTrash = [mergedNode] ∧
      mergeArchiveEnv.loadSignatures [2] = r.2.2.dbTrash ∧
      LinksBidirectional lineGeometry r.2.2 ∧
      ((Memory.reactivateSignatures mergeArchiveEnv r.2.2 [2] 0 (fun _ => 0)).2._getSignature
        2).map (fun s => s.links.map (fun l => (l.to_, l.type))) =
          some [(1, LinkType.kGlobalClosure)] ∧
      ((Memory.reactivateSignatures mergeArchiveEnv r.2.2 [2] 0 (fun _ => 0)).2._getSignature
        1).map (fun s => s.links.map Link.to_) = some [] ∧
      ¬ LinksSymmetric lineGeometry
        (Memory.reactivateSignatures mergeArchiveEnv r.2.2 [2] 0 (fun _ => 0)).2 ∧
      ¬ LinksBidirectional lineGeometry
        (Memory.reactivateSignatures mergeArchiveEnv r.2.2 [2] 0 (fun _ => 0)).2) := by
  refine ⟨⟨?_, _, rfl, rfl, rfl, rfl, ?_⟩,
    ⟨linksBidirectional_of_unlinked _ _ rfl, _, rfl, rfl, rfl, rfl,
      linksBidirectional_of_unlinked _ _ rfl, rfl, rfl, ?_, ?_⟩⟩
  · intro i s h l hl
    have hk := Memory.getSignature_id h
    have hm := kfind_mem Signature.id h
    simp only [linkedPairMemory, lineMemory, Memory.setIdCount, List.mem_cons,
      List.mem_singleton, List.not_mem_nil, or_false] at hm
    rcases hm with rfl | rfl
    · simp only [lineSignature, List.mem_singleton] at hl
      subst hl
      rw [← hk]
      exact ⟨_, rfl, lineLink 2 1 LinkType.kGlobalClosure (some (-3)),
        List.mem_singleton.2 rfl, rfl, rfl, rfl⟩
    · simp only [lineSignature, List.mem_singleton] at hl
      subst hl
      rw [← hk]
      exact ⟨_, rfl, lineLink 1 2 LinkType.kGlobalClosure (some 3),
        List.mem_singleton.2 rfl, rfl, rfl, rfl⟩
  · intro hb
    obtain ⟨p, hp, _⟩ := hb 2 _ rfl (lineLink 2 1 LinkType.kGlobalClosure (some (-3)))
      (List.mem_singleton.2 rfl)
    exact Option.noConfusion hp
  · intro hb
    obtain ⟨k, hk, _⟩ := hb 2 _ rfl (lineLink 2 1 LinkType.kGlobalClosure none)
      (List.mem_singleton.2 rfl) _ rfl
    exact absurd hk (List.not_mem_nil _)
  · intro hb
    obtain ⟨p, hp, k, hk, _⟩ := hb 2 _ rfl (lineLink 2 1 LinkType.kGlobalClosure none)
      (List.mem_singleton.2 rfl)
    have h2 : some p.links = some [] :=
      (congrArg (Option.map Signature.links) hp).symm.trans rfl
    rw [Option.some.inj h2] at hk
    exact absurd hk (List.not_mem_nil _)

/-- Claim C1, amended: link symmetry towards the peers in memory is an
invariant of the memory. When every link of a signature in memory whose peer is
in memory has a link back on the peer with the same type and the inverse
transform, and the links are well-formed (ids in memory and link targets within
the id counter, no link of a signature to itself, one link per target), then
the same holds after `update` (STM insertion, rehearsal, migration with or
without graph reduction), `addLink` between two distinct ids, `removeLink`,
`updateLink`, `forget`, and after `reactivateSignatures` when the signatures
the database returns fit the memory (`LoadedLinksFit`): they are new to the
memory, distinct and within the id counter, their links are well-formed, and
every link between one of them and a signature in memory or another one of
them has its counterpart on the peer. Whatever the database returns,
`reactivateSignatures` leaves the links of the signatures in memory as they
are. The transforms are taken to invert as in `GeometryLaws`. -/
theorem link_symmetry_invariant {T I : Type} (e : Env T I) (m : Memory T I)
    (hg : GeometryLaws e.geo) (hi : LinkInvariant e.geo m) :
    (∀ data pose infMatrix clock r,
      Memory.update e m data pose infMatrix clock = Except.ok r →
      LinkInvariant e.geo r.2.2) ∧
    (∀ signatureId m2, Memory.rehearsal e m signatureId = Except.ok m2 →
      LinkInvariant e.geo m2) ∧
    (∀ id reducedTo now r,
      Memory.moveSignatureToWMFromSTM e m id reducedTo now = Except.ok r →
      LinkInvariant e.geo r.1) ∧
    (∀ link r, link.from_ ≠ link.to_ → Memory.addLink e m link = Except.ok r →
      LinkInvariant e.geo r.2) ∧
    (∀ oldId newId m2, Memory.removeLink m oldId newId = Except.ok m2 →
      LinkInvariant e.geo m2) ∧
    (∀ fromId toId transform info m2,
      Memory.updateLink e m fromId toId transform info = Except.ok m2 →
      LinkInvariant e.geo m2) ∧
    (∀ ignoredIds r, Memory.forget e m ignoredIds = Except.ok r →
      LinkInvariant e.geo r.2) ∧
    (∀ ids maxLoaded clock,
      LoadedLinksFit e.geo m
        (if e.hasDb then e.loadSignatures (Memory.idsToLoad m maxLoaded ids []) else []) →
      LinkInvariant e.geo (Memory.reactivateSignatures e m ids maxLoaded clock).2) ∧
    (∀ ids maxLoaded clock i s, m._getSignature i = some s →
      ∃ s', (Memory.reactivateSignatures e m ids maxLoaded clock).2._getSignature i = some s' ∧
        s'.links = s.links) := by
  have h := (linkInvariant_iff m).1 hi
  refine ⟨?_, ?_, ?_, ?_, ?_, ?_, ?_, ?_, ?_⟩
  · intro data pose infMatrix clock r hr
    exact (linkInvariant_iff _).2 (LinkTableInv.update hg h hr)
  · intro signatureId m2 hr
    exact (linkInvariant_iff _).2 (LinkTableInv.rehearsal hg h hr)
  · intro id reducedTo now r hr
    exact (linkInvariant_iff _).2 (LinkTableInv.moveSignatureToWMFromSTM hg h hr)
  · intro link r hne hr
    exact (linkInvariant_iff _).2 (LinkTableInv.addLink hg h hne hr)
  · intro oldId newId m2 hr
    exact (linkInvariant_iff _).2 (LinkTableInv.removeLink h hr)
  · intro fromId toId transform info m2 hr
    exact (linkInvariant_iff _).2 (LinkTableInv.updateLink hg h hr)
  · intro ignoredIds r hr
    exact (linkInvariant_iff _).2 (LinkTableInv.forget h hr)
  · intro ids maxLoaded clock hf
    exact hf.reactivateSignatures ids maxLoaded clock hi
  · intro ids maxLoaded clock i s hs
    have hl := Memory.linksOf_reactivateSignatures e m ids maxLoaded clock i (by rw [hs]; rfl)
    rw [Memory.linksOf_of_getSignature hs] at hl
    exact Memory.linksOf_eq_some.1 hl

/-- Witness of C1 as amended: the memory with the linked nodes 1 and 2 is under
the link invariant, and so is the memory `forget` makes of it, in which node 2
keeps its link to the node 1 that left. With a database attached `forget`
hands node 1 to the database with its link to node 2; the node the database
returns fits the memory, and after `reactivateSignatures` of node 1 both nodes
are in memory, linked to each other, under the link invariant. -/
theorem link_symmetry_invariant_witness :
    GeometryLaws (lineEnv true false 2).geo ∧
    LinkInvariant (lineEnv true false 2).geo
      ((linkedPairMemory LinkType.kGlobalClosure 0 0).setIdCount 2) ∧
    (∃ r, Memory.forget (lineEnv true false 2)
        ((linkedPairMemory LinkType.kGlobalClosure 0 0).setIdCount 2) [] = Except.ok r ∧
      (r.2._getSignature 2).map (fun s => s.links.map Link.to_) = some [1] ∧
      LinkInvariant (lineEnv true false 2).geo r.2) ∧
    Memory.forget pairArchiveEnv ((linkedPairMemory LinkType.kGlobalClosure 0 0).setIdCount 2)
      [] = Except.ok ([1], halfPairMemory) ∧
    pairArchiveEnv.loadSignatures [1] = halfPairMemory.dbTrash ∧
    LinkInvariant pairArchiveEnv.geo halfPairMemory ∧
    LoadedLinksFit pairArchiveEnv.geo halfPairMemory (pairArchiveEnv.loadSignatures [1]) ∧
    ((Memory.reactivateSignatures pairArchiveEnv halfPairMemory [1] 0
      (fun _ => 0)).2.signatures.map (fun s => (s.id, s.links.map Link.to_))) =
        [(1, [2]), (2, [1])] ∧
    LinkInvariant pairArchiveEnv.geo
      (Memory.reactivateSignatures pairArchiveEnv halfPairMemory [1] 0 (fun _ => 0)).2 :=
  ⟨geometryLaws_lineGeometry, linkInvariant_linkedPairMemory _ 0 0,
    ⟨_, rfl, rfl,
      (link_symmetry_invariant (lineEnv true false 2)
        ((linkedPairMemory LinkType.kGlobalClosure 0 0).setIdCount 2)
        geometryLaws_lineGeometry (linkInvariant_linkedPairMemory _ 0 0)).2.2.2.2.2.2.1 [] _
        rfl⟩,
    rfl, rfl,
    (link_symmetry_invariant pairArchiveEnv
      ((linkedPairMemory LinkType.kGlobalClosure 0 0).setIdCount 2)
      geometryLaws_lineGeometry (linkInvariant_linkedPairMemory _ 0 0)).2.2.2.2.2.2.1 []
      ([1], halfPairMemory) rfl,
    loadedLinksFit_halfPairMemory, rfl,
    (link_symmetry_invariant pairArchiveEnv halfPairMemory geometryLaws_lineGeometry
      ((link_symmetry_invariant pairArchiveEnv
        ((linkedPairMemory LinkType.kGlobalClosure 0 0).setIdCount 2)
        geometryLaws_lineGeometry (linkInvariant_linkedPairMemory _ 0 0)).2.2.2.2.2.2.1 []
        ([1], halfPairMemory) rfl)).2.2.2.2.2.2.2.1 [1] 0 (fun _ => 0)
      loadedLinksFit_halfPairMemory⟩

/-! ## The loop over the intermediate nodes of `getMetricConstraints` -/

theorem skipIntermediate_danglingNeighborMemory (fuel : Nat) (link : Link (Option Int) Unit)
    (poses : List (Int × Option Int)) :
    Memory.skipIntermediate (lineEnv true false 2) danglingNeighborMemory fuel 2 link poses =
      Except.ok none := by
  induction fuel with
  | zero => rfl
  | succ fuel ih =>
    unfold Memory.skipIntermediate
    exact ih

/-- Claim C30 fails on the code: node 2 is an intermediate node (weight -1)
whose neighbor with the next greater id, node 3, is not in memory. On the ids
1 and 2 `getMetricConstraints` follows the neighbor link of node 1 to node 2
and enters the loop that skips the intermediate nodes; a round of the loop
finds the link to node 3, finds no signature for it and changes nothing, so
the loop never ends: whatever the number of rounds allowed, they are used up. -/
theorem getMetricConstraints_loops_on_absent_neighbor (fuel : Nat) :
    Memory.getMetricConstraints (lineEnv true false 2) danglingNeighborMemory
      (fun _ => true) (fun _ _ _ => false) fuel [1, 2] = Except.ok none := by
  unfold Memory.getMetricConstraints Memory.metricLinks
  have h := skipIntermediate_danglingNeighborMemory fuel
    (lineLink 1 2 LinkType.kNeighbor (some 1))
    (Memory.metricPoses (lineEnv true false 2) danglingNeighborMemory [1, 2] [])
  show (Memory.metricNodeLinks (lineEnv true false 2) danglingNeighborMemory (fun _ => true)
      (fun _ _ _ => false) fuel 1 [lineLink 1 2 LinkType.kNeighbor (some 1)]
      (Memory.metricPoses (lineEnv true false 2) danglingNeighborMemory [1, 2] [], []) >>= _) = _
  unfold Memory.metricNodeLinks
  show ((Memory.skipIntermediate (lineEnv true false 2) danglingNeighborMemory fuel 2
      (lineLink 1 2 LinkType.kNeighbor (some 1))
      (Memory.metricPoses (lineEnv true false 2) danglingNeighborMemory [1, 2] []) >>= _) >>= _)
      = _
  rw [h]
  rfl

/-- Claim C29 fails on the code: node 2 of the STM is an intermediate node
(weight -1) with a global loop closure to the older node 1 of the working
memory. `moveToTrash` of node 2 without keeping the links adds the weight of
node 2 to the weight of node 1: a node 1 of weight -1 is left with the weight
-2, outside the weight domain, and a node 1 of weight 0 is left with the weight
-1 of an intermediate node. -/
theorem moveToTrash_adds_negative_weight :
    (closurePairMemory (-1) (-1)).weightOf 1 = some (-1) ∧
    (closurePairMemory (-1) (-1)).weightOf 2 = some (-1) ∧
    (∃ m2, Memory.moveToTrash (lineEnv true false 2) (closurePairMemory (-1) (-1)) 2 false =
        Except.ok m2 ∧ m2.weightOf 1 = some (-2)) ∧
    (closurePairMemory 0 (-1)).weightOf 1 = some 0 ∧
    (∃ m2, Memory.moveToTrash (lineEnv true false 2) (closurePairMemory 0 (-1)) 2 false =
        Except.ok m2 ∧ m2.weightOf 1 = some (-1)) :=
  ⟨rfl, rfl, ⟨_, rfl, rfl⟩, rfl, ⟨_, rfl, rfl⟩⟩

section TrashSpec

variable {T I : Type}

theorem Memory.getSignature_disableWordsRef (m : Memory T I) (k x : Int) :
    (m.disableWordsRef k)._getSignature x =
      (m._getSignature x).map (fun a => if a.id = k then { a with enabled := false } else a) := by
  cases hs : m._getSignature k with
  | none =>
    rw [Memory.disableWordsRef_of_not_enabled (fun ss h' => by rw [hs] at h'; cases h')]
    cases hx : m._getSignature x with
    | none => rfl
    | some a =>
      have hid := Memory.getSignature_id hx
      have hne : a.id ≠ k := by
        intro h
        rw [hid] at h
        rw [h, hs] at hx
        cases hx
      simp [hne]
  | some ss =>
    cases he : ss.enabled with
    | true =>
      rw [Memory.disableWordsRef_of_enabled hs he,
        Memory.getSignature_modify _ _ _ (fun s => { s with enabled := false }) (fun _ => rfl)]
      rfl
    | false =>
      rw [Memory.disableWordsRef_of_not_enabled (fun s' h' => by
        rw [hs] at h'; injection h' with h'; rw [← h']; exact he)]
      cases hx : m._getSignature x with
      | none => rfl
      | some a =>
        have hid := Memory.getSignature_id hx
        by_cases h : a.id = k
        · rw [hid] at h
          rw [h, hs] at hx
          injection hx with hx
          subst hx
          simp only [Option.map_some', if_pos (Memory.getSignature_id hs)]
          cases ss
          simp only [] at he
          subst he
          rfl
        · simp [h]

/-- The loop of `moveToTrash` over the links runs to its end when every peer is
in memory. -/
theorem Memory.moveToTrashUnlink_ok (sId sWeight : Int) (links : List (Link T I))
    (m : Memory T I) (hp : ∀ l ∈ links, (m._getSignature l.to_).isSome = true) :
    ∃ m', Memory.moveToTrashUnlink sId sWeight links m = Except.ok m' := by
  induction links generalizing m with
  | nil => exact ⟨m, rfl⟩
  | cons l rest ih =>
    unfold Memory.moveToTrashUnlink
    cases hs : m._getSignature l.to_ with
    | none =>
      have := hp l (List.mem_cons_self _ _)
      rw [hs] at this
      cases this
    | some sTo =>
      simp only []
      apply ih
      intro k hk
      have hk' := hp k (List.mem_cons_of_mem _ hk)
      rw [Memory.getSignature_modify _ _ _ (fun p => p.removeLink sId) (fun _ => rfl)]
      split
      · rw [Memory.setWeight, Memory.getSignature_modify _ _ _
          (fun s => { s with weight := sTo.weight + sWeight }) (fun _ => rfl)]
        cases hq : m._getSignature k.to_ with
        | none => rw [hq] at hk'; cases hk'
        | some q => rfl
      · cases hq : m._getSignature k.to_ with
        | none => rw [hq] at hk'; cases hk'
        | some q => rfl

/-- The signatures after the loop of `moveToTrash` over the links, one link per
peer. -/
theorem Memory.getSignature_moveToTrashUnlink (sId sWeight : Int) (links : List (Link T I))
    (m m' : Memory T I) (hnd : (links.map Link.to_).Nodup)
    (h : Memory.moveToTrashUnlink sId sWeight links m = Except.ok m') (x : Int) :
    m'._getSignature x = (m._getSignature x).map (trashedPeer sId sWeight links) := by
  induction links generalizing m with
  | nil =>
    simp only [Memory.moveToTrashUnlink, pure, Except.pure] at h
    injection h with h
    rw [← h]
    cases m._getSignature x <;> rfl
  | cons l rest ih =>
    unfold Memory.moveToTrashUnlink at h
    rw [List.map_cons, List.nodup_cons] at hnd
    cases hs : m._getSignature l.to_ with
    | none => simp [hs, throw, throwThe, MonadExceptOf.throw] at h
    | some sTo =>
      simp only [hs] at h
      have hid := Memory.getSignature_id hs
      rw [ih _ hnd.2 h,
        Memory.getSignature_modify _ _ _ (fun p => p.removeLink sId) (fun _ => rfl)]
      have hw : (if (l.type == LinkType.kGlobalClosure && decide (sId > sTo.id)) = true then
            m.setWeight sTo.id (sTo.weight + sWeight) else m)._getSignature x =
          (m._getSignature x).map (fun a =>
            if (l.type == LinkType.kGlobalClosure && decide (sId > sTo.id)) = true ∧ a.id = sTo.id
            then { a with weight := sTo.weight + sWeight } else a) := by
        split
        · rename_i hc
          rw [Memory.setWeight, Memory.getSignature_modify _ _ _
            (fun s => { s with weight := sTo.weight + sWeight }) (fun _ => rfl)]
          simp [hc]
        · rename_i hc
          simp [hc]
      rw [hw]
      cases hx : m._getSignature x with
      | none => rfl
      | some p =>
        have hpid := Memory.getSignature_id hx
        simp only [Option.map_some', Option.some.injEq]
        by_cases hxl : x = l.to_
        · subst hxl
          rw [hs] at hx
          injection hx with hx
          subst hx
          have hnone : kfind Link.to_ rest sTo.id = none := by
            rw [kfind_none_iff]
            intro a ha heq
            exact hnd.1 (List.mem_map.2 ⟨a, ha, by rw [heq, hid]⟩)
          have hsome : kfind Link.to_ (l :: rest) sTo.id = some l := by
            simp [kfind, List.find?, hid]
          by_cases hc : (l.type == LinkType.kGlobalClosure && decide (sId > sTo.id)) = true
          · simp [trashedPeer, hnone, hsome, hc, Signature.removeLink]
          · simp [trashedPeer, hnone, hsome, hc, Signature.removeLink]
        · have hne : p.id ≠ sTo.id := by
            rw [hpid, hid]
            exact hxl
          have hk : kfind Link.to_ (l :: rest) p.id = kfind Link.to_ rest p.id := by
            have : (l.to_ == p.id) = false := by
              rw [hpid]
              exact beq_false_of_ne (Ne.symm hxl)
            simp [kfind, List.find?, this]
          simp [trashedPeer, hne, hk]

end TrashSpec
section TrashSpec2

variable {T I : Type}

/-- The signatures after `moveToTrash` when the links of the location are
removed: the location is gone and its peers are unlinked. -/
theorem Memory.moveToTrashFull_unlinked (e : Env T I) (m : Memory T I) (sId : Int) ( keep : Bool)
    (s : Signature T I) (hs : m._getSignature sId = some s)
    (hc : (!keep || (!s.saved && s.isBadSignature && e.badSignaturesIgnored)) = true)
    (hstm : m.isInSTM sId = true)
    (hp : ∀ l ∈ s.links, (m._getSignature l.to_).isSome = true)
    (hnd : (s.links.map Link.to_).Nodup) :
    ∃ r, Memory.moveToTrashFull e m sId keep = Except.ok r ∧
      ∀ x, r.1._getSignature x =
        if x = sId then none else (m._getSignature x).map (trashedPeer sId s.weight s.links) := by
  have hid : s.id = sId := Memory.getSignature_id hs
  obtain ⟨m1, h1⟩ := Memory.moveToTrashUnlink_ok sId s.weight s.links m hp
  have hl : Memory.moveToTrashLinks e m s keep = Except.ok
      (m1.modifySignature s.id (fun s => { s.removeLinks with weight := 0, label := "" })) := by
    unfold Memory.moveToTrashLinks
    rw [if_pos hc, hid, hstm, uassert_true]
    exact bind_eq_ok.2 ⟨(), rfl, bind_eq_ok.2 ⟨m1, h1, rfl⟩⟩
  have h1x := Memory.getSignature_moveToTrashUnlink sId s.weight s.links m m1 hnd h1
  have hsome : ∃ s1, ((m1.modifySignature s.id
      (fun s => { s.removeLinks with weight := 0, label := "" })).disableWordsRef
        s.id)._getSignature s.id = some s1 := by
    rw [Memory.getSignature_disableWordsRef, Memory.getSignature_modify _ _ _
      (fun s => { s.removeLinks with weight := 0, label := "" }) (fun _ => rfl), hid, h1x, hs]
    exact ⟨_, rfl⟩
  obtain ⟨s1, hs1⟩ := hsome
  have hd : ((m1.modifySignature s.id
      (fun s => { s.removeLinks with weight := 0, label := "" })).disableWordsRef
        s.id).deref s.id = Except.ok s1 := by
    unfold Memory.deref
    rw [hs1]
  apply Exists.intro
  apply And.intro
  · unfold Memory.moveToTrashFull
    rw [hs]
    exact bind_eq_ok.2 ⟨_, hl, bind_eq_ok.2 ⟨s1, hd, rfl⟩⟩
  · intro x
    rw [getSignature_moveToTrashSave, getSignature_moveToTrashLast,
      Memory.getSignature_moveToTrashErase, hid]
    by_cases hx : x = sId
    · rw [if_pos hx, if_pos hx]
    · rw [if_neg hx, if_neg hx, Memory.getSignature_moveToTrashDictionary,
        Memory.getSignature_disableWordsRef, Memory.getSignature_modify _ _ _
        (fun s => { s.removeLinks with weight := 0, label := "" }) (fun _ => rfl), h1x]
      cases hm : m._getSignature x with
      | none => rfl
      | some p =>
        have hpid := Memory.getSignature_id hm
        have hne : (trashedPeer sId s.weight s.links p).id ≠ sId := by
          unfold trashedPeer
          split
          · simp only []
            rw [hpid]
            exact hx
          · rw [hpid]
            exact hx
        simp [hne]

/-- The signatures after `moveToTrash` when the location stays linked to the
graph: the location is gone and only its virtual links were removed. -/
theorem Memory.moveToTrashFull_kept (e : Env T I) (m : Memory T I) (sId : Int) ( keep : Bool)
    (s : Signature T I) (hs : m._getSignature sId = some s)
    (hc : (!keep || (!s.saved && s.isBadSignature && e.badSignaturesIgnored)) = false) :
    ∃ r, Memory.moveToTrashFull e m sId keep = Except.ok r ∧
      ∀ x, r.1._getSignature x =
        if x = sId then none else (m.removeVirtualLinks sId)._getSignature x := by
  have hid : s.id = sId := Memory.getSignature_id hs
  have hl : Memory.moveToTrashLinks e m s keep = Except.ok (m.removeVirtualLinks s.id) := by
    unfold Memory.moveToTrashLinks
    rw [hc]
    rfl
  have hsome : ((m.removeVirtualLinks s.id).disableWordsRef s.id)._getSignature s.id ≠ none := by
    apply Memory.getSignature_ne_none_of_sameTiers
      (SameTiers.trans (SameTiers.removeVirtualLinks m s.id) (SameTiers.disableWordsRef _ s.id))
    rw [hid, hs]
  cases hs1 : ((m.removeVirtualLinks s.id).disableWordsRef s.id)._getSignature s.id with
  | none => exact absurd hs1 hsome
  | some s1 =>
    have hd : ((m.removeVirtualLinks s.id).disableWordsRef s.id).deref s.id = Except.ok s1 := by
      unfold Memory.deref
      rw [hs1]
    apply Exists.intro
    apply And.intro
    · unfold Memory.moveToTrashFull
      rw [hs]
      exact bind_eq_ok.2 ⟨_, hl, bind_eq_ok.2 ⟨s1, hd, rfl⟩⟩
    · intro x
      rw [getSignature_moveToTrashSave, getSignature_moveToTrashLast,
        Memory.getSignature_moveToTrashErase, hid]
      by_cases hx : x = sId
      · rw [if_pos hx, if_pos hx]
      · rw [if_neg hx, if_neg hx, Memory.getSignature_moveToTrashDictionary,
          Memory.getSignature_disableWordsRef]
        cases hm : (m.removeVirtualLinks sId)._getSignature x with
        | none => rfl
        | some p =>
          have hne : p.id ≠ sId := by
            rw [Memory.getSignature_id hm]
            exact hx
          simp [hne]

end TrashSpec2
section TrashSpec3

variable {T I : Type}

theorem kfind_of_mem_nodup {α : Type} (key : α → Int) {l : List α} {a : α}
    (hnd : (l.map key).Nodup) (ha : a ∈ l) : kfind key l (key a) = some a := by
  induction l with
  | nil => cases ha
  | cons b rest ih =>
    rw [List.map_cons, List.nodup_cons] at hnd
    rcases List.mem_cons.1 ha with rfl | h
    · simp [kfind, List.find?]
    · have hne : (key b == key a) = false := by
        apply beq_false_of_ne
        intro heq
        exact hnd.1 (heq ▸ List.mem_map_of_mem key h)
      have := ih hnd.2 h
      unfold kfind at this ⊢
      rw [List.find?, hne]
      exact this

theorem Memory.moveToTrashFull_of_absent (e : Env T I) (m : Memory T I) (k : Int) ( keep : Bool)
    (h : m._getSignature k = none) :
    Memory.moveToTrashFull e m k keep = Except.ok (m, []) := by
  unfold Memory.moveToTrashFull
  rw [h]
  rfl

theorem Memory.moveToTrash_of_full (e : Env T I) (m : Memory T I) (k : Int) ( keep : Bool)
    (r : Memory T I × List Int) (h : Memory.moveToTrashFull e m k keep = Except.ok r) :
    Memory.moveToTrash e m k keep = Except.ok r.1 := by
  unfold Memory.moveToTrash
  rw [h]
  rfl

theorem Memory.weightOf_eq (m : Memory T I) (x : Int) (p : Signature T I)
    (h : m._getSignature x = some p) : m.weightOf x = some p.weight := by
  unfold Memory.weightOf
  rw [h]
  rfl

end TrashSpec3

/-- Claim C22: for a signature `s` of the STM whose link peers are all in
memory (its links forming a map, one link per peer, and every signature in
memory that stores a link to `s` being a peer of `s`),
`moveToTrash(s, keepLinked = false)`, which is what `deleteLocation` runs,
returns; afterwards `s` is in none of STM, working memory and signature table,
no signature in memory stores a link to `s`, every peer that `s` is linked to
by a global loop closure and that has a smaller id has its weight increased by
the weight of `s`, and every other signature keeps its weight. `deleteLocation`
of an id that is not in memory returns the memory as it is, with no deleted
word. -/
theorem moveToTrash_unlinks_location {T I : Type} (e : Env T I) (m : Memory T I) (sId : Int)
    (s : Signature T I) (hs : m._getSignature sId = some s) (hstm : m.isInSTM sId = true)
    (hp : ∀ l ∈ s.links, (m._getSignature l.to_).isSome = true)
    (hnd : (s.links.map Link.to_).Nodup)
    (hsym : ∀ x p, m._getSignature x = some p → p.hasLink sId = true → s.hasLink x = true) :
    (∃ r, Memory.deleteLocation e m sId = Except.ok r ∧
      Memory.moveToTrash e m sId false = Except.ok r.1 ∧
      r.1.isInSTM sId = false ∧ r.1.isInWM sId = false ∧ r.1._getSignature sId = none ∧
      (∀ x p, r.1._getSignature x = some p → p.hasLink sId = false) ∧
      (∀ l ∈ s.links, l.type = LinkType.kGlobalClosure → l.to_ < sId →
        ∀ p, m._getSignature l.to_ = some p →
          r.1.weightOf l.to_ = some (p.weight + s.weight)) ∧
      (∀ x p, m._getSignature x = some p → x ≠ sId →
        (¬ ∃ l ∈ s.links, l.to_ = x ∧ l.type = LinkType.kGlobalClosure ∧ x < sId) →
        r.1.weightOf x = some p.weight)) ∧
    ∀ k, m._getSignature k = none →
      Memory.deleteLocation e m k = Except.ok (m, []) ∧
      Memory.moveToTrash e m k false = Except.ok m := by
  constructor
  · obtain ⟨r, hr, hx⟩ := Memory.moveToTrashFull_unlinked e m sId false s hs rfl hstm hp hnd
    refine ⟨r, hr, Memory.moveToTrash_of_full e m sId false r hr, ?_, ?_, ?_, ?_, ?_, ?_⟩
    · rcases Memory.moveToTrashFull_tiers e m sId false r hr with ⟨hn, _⟩ | ⟨_, _, ht⟩
      · rw [hs] at hn
        cases hn
      · unfold Memory.isInSTM
        rw [ht.1]
        simp [kerase, selfKey]
    · rcases Memory.moveToTrashFull_tiers e m sId false r hr with ⟨hn, _⟩ | ⟨_, _, ht⟩
      · rw [hs] at hn
        cases hn
      · unfold Memory.isInWM
        rw [ht.2.1]
        exact khas_kerase_self Prod.fst _ sId
    · rw [hx, if_pos rfl]
    · intro x p hxp
      rw [hx] at hxp
      by_cases hxs : x = sId
      · rw [if_pos hxs] at hxp
        cases hxp
      · rw [if_neg hxs] at hxp
        cases hq : m._getSignature x with
        | none =>
          rw [hq] at hxp
          cases hxp
        | some q =>
          rw [hq] at hxp
          simp only [Option.map_some', Option.some.injEq] at hxp
          have hqid := Memory.getSignature_id hq
          rw [← hxp]
          unfold trashedPeer
          cases hk : kfind Link.to_ s.links q.id with
          | some l =>
            simp only []
            exact khas_kerase_self Link.to_ _ sId
          | none =>
            simp only []
            cases hl : q.hasLink sId with
            | false => rfl
            | true =>
              have := hsym x q hq hl
              unfold Signature.hasLink khas at this
              rw [← hqid, hk] at this
              cases this
    · intro l hl hty hlt p hpl
      have hne : l.to_ ≠ sId := ne_of_lt hlt
      have hpid := Memory.getSignature_id hpl
      unfold Memory.weightOf
      rw [hx, if_neg hne, hpl]
      simp only [Option.map_some', Option.some.injEq]
      unfold trashedPeer
      rw [hpid, kfind_of_mem_nodup Link.to_ hnd hl]
      simp [hty, hlt]
    · intro x p hxp hxs hno
      have hpid := Memory.getSignature_id hxp
      unfold Memory.weightOf
      rw [hx, if_neg hxs, hxp]
      simp only [Option.map_some', Option.some.injEq]
      unfold trashedPeer
      cases hk : kfind Link.to_ s.links p.id with
      | none => rfl
      | some l =>
        simp only []
        have hlm := kfind_mem Link.to_ hk
        have hlk := kfind_key Link.to_ hk
        rw [hpid] at hlk
        split
        · rename_i hc
          exfalso
          apply hno
          refine ⟨l, hlm, hlk, ?_⟩
          simp only [Bool.and_eq_true, beq_iff_eq, decide_eq_true_eq, hpid] at hc
          exact ⟨hc.1, hc.2⟩
        · rfl
  · intro k hk
    have h := Memory.moveToTrashFull_of_absent e m k false hk
    exact ⟨h, Memory.moveToTrash_of_full e m k false _ h⟩
theorem moveToTrash_unlinks_location_witness :
    (∃ r, Memory.deleteLocation (lineEnv true false 2) (closurePairMemory 1 2) 2 = Except.ok r ∧
      Memory.moveToTrash (lineEnv true false 2) (closurePairMemory 1 2) 2 false = Except.ok r.1 ∧
      r.1.isInSTM 2 = false ∧ r.1.isInWM 2 = false ∧ r.1._getSignature 2 = none ∧
      (∀ x p, r.1._getSignature x = some p → p.hasLink 2 = false) ∧
      (∀ l ∈ (lineSignature 2 2 (some 3)
          [lineLink 2 1 LinkType.kGlobalClosure (some (-3))]).links,
        l.type = LinkType.kGlobalClosure → l.to_ < 2 →
        ∀ p, (closurePairMemory 1 2)._getSignature l.to_ = some p →
          r.1.weightOf l.to_ = some (p.weight +
            (lineSignature 2 2 (some 3)
              [lineLink 2 1 LinkType.kGlobalClosure (some (-3))]).weight)) ∧
      (∀ x p, (closurePairMemory 1 2)._getSignature x = some p → x ≠ 2 →
        (¬ ∃ l ∈ (lineSignature 2 2 (some 3)
            [lineLink 2 1 LinkType.kGlobalClosure (some (-3))]).links,
          l.to_ = x ∧ l.type = LinkType.kGlobalClosure ∧ x < 2) →
        r.1.weightOf x = some p.weight)) ∧
    ∀ k, (closurePairMemory 1 2)._getSignature k = none →
      Memory.deleteLocation (lineEnv true false 2) (closurePairMemory 1 2) k =
        Except.ok (closurePairMemory 1 2, []) ∧
      Memory.moveToTrash (lineEnv true false 2) (closurePairMemory 1 2) k false =
        Except.ok (closurePairMemory 1 2) :=
  moveToTrash_unlinks_location (lineEnv true false 2) (closurePairMemory 1 2) 2
    (lineSignature 2 2 (some 3) [lineLink 2 1 LinkType.kGlobalClosure (some (-3))])
    rfl rfl
    (fun l hl => by
      rw [List.mem_singleton.1 hl]
      rfl)
    (List.nodup_singleton _)
    (fun x p hx hl => by
      have hm := kfind_mem Signature.id hx
      have hid := kfind_key Signature.id hx
      rcases List.mem_cons.1 hm with rfl | hm
      · rw [← hid]
        rfl
      · rw [List.mem_singleton.1 hm] at hl
        exact absurd hl (by decide))

section Totality

variable {T I : Type}

theorem exists_bind_ok {ε α β : Type} {x : Except ε α} {f : α → Except ε β} {a : α}
    (hx : x = Except.ok a) (hf : ∃ b, f a = Except.ok b) : ∃ b, (x >>= f) = Except.ok b := by
  obtain ⟨b, hb⟩ := hf
  exact ⟨b, bind_eq_ok.2 ⟨a, hx, hb⟩⟩

theorem Memory.isSome_of_sameTiers {m m' : Memory T I} (h : SameTiers m m') (k : Int) :
    (m'._getSignature k).isSome = (m._getSignature k).isSome := by
  rw [Bool.eq_iff_iff, Memory.getSignature_isSome_iff, Memory.getSignature_isSome_iff, h.2.2.1]

theorem Memory.deref_of_isSome {m : Memory T I} {k : Int}
    (h : (m._getSignature k).isSome = true) : ∃ s, m.deref k = Except.ok s := by
  unfold Memory.deref
  cases hs : m._getSignature k with
  | none =>
    rw [hs] at h
    cases h
  | some s => exact ⟨s, rfl⟩

/-- The call `copyData(from, to)` returns when both signatures are in memory. -/
theorem Memory.copyData_ok (e : Env T I) (m : Memory T I) (fromId toId : Int)
    (hf : (m._getSignature fromId).isSome = true) (ht : (m._getSignature toId).isSome = true) :
    ∃ m', Memory.copyData e m fromId toId = Except.ok m' := by
  unfold Memory.copyData
  obtain ⟨toS, hto⟩ := Memory.deref_of_isSome ht
  refine exists_bind_ok hto ?_
  have h1 : ((m.disableWordsRef toS.id)._getSignature fromId).isSome = true := by
    rw [Memory.isSome_of_sameTiers (SameTiers.disableWordsRef m toS.id)]
    exact hf
  obtain ⟨f1, hf1⟩ := Memory.deref_of_isSome h1
  refine exists_bind_ok hf1 ?_
  have h2 : ((Memory.enableWordsRef e ((m.disableWordsRef toS.id).modifySignature toId
      (fun s => { s with words := f1.words })) [toS.id])._getSignature fromId).isSome = true := by
    rw [Memory.isSome_of_sameTiers (SameTiers.enableWordsRef e _ _),
      Memory.isSome_of_sameTiers (SameTiers.modifySignature _ toId
        (fun s => { s with words := f1.words }) (fun _ => rfl))]
    exact h1
  obtain ⟨f2, hf2⟩ := Memory.deref_of_isSome h2
  exact exists_bind_ok hf2 ⟨_, rfl⟩

/-- The loop that redirects the links of the old node runs to its end when the
link from the new node to the old one starts at the new node. -/
theorem Memory.rehearsalRedirect_ok (e : Env T I) (oldId newId : Int) (newToOldLink : Link T I)
    (hfrom : newToOldLink.from_ = newId) (links : List (Link T I)) (m : Memory T I) :
    ∃ m', Memory.rehearsalRedirect e oldId newId newToOldLink links m = Except.ok m' := by
  induction links generalizing m with
  | nil => exact ⟨m, rfl⟩
  | cons link rest ih =>
    unfold Memory.rehearsalRedirect
    have hu : uassert ((newToOldLink.merge e.geo link link.type).from_ == newId &&
        (newToOldLink.merge e.geo link link.type).to_ == link.to_) = Except.ok () := by
      rw [uassert_eq_ok]
      simp [Link.merge, hfrom]
    refine exists_bind_ok hu ?_
    cases m._getSignature link.to_ with
    | none => exact ih m
    | some sP => exact ih _

end Totality
section MergeSpec

variable {T I : Type}

/-- The signatures in memory stay in memory. -/
theorem Memory.isSome_of_sameTiers_true {m m' : Memory T I} (h : SameTiers m m') {k : Int}
    (hk : (m._getSignature k).isSome = true) : (m'._getSignature k).isSome = true := by
  rw [Memory.isSome_of_sameTiers h]
  exact hk

theorem SameTiers.mergeLabels (e : Env T I) (m : Memory T I) (oldId newId : Int) (lab : String) :
    SameTiers m ((((m.modifySignature newId (fun s => { s with label := lab })).modifySignature
      oldId (fun s => { s with label := "" })).modifySignature oldId
      (fun s => s.removeLinks)).modifySignature oldId (fun s => s.addLink
        { from_ := oldId, to_ := newId, type := LinkType.kGlobalClosure,
          transform := e.geo.null, info := e.geo.infoUnit, userDataCompressed := [] })) := by
  refine SameTiers.trans ?_ (SameTiers.modifySignature _ _ _ ?_)
  · refine SameTiers.trans ?_ (SameTiers.modifySignature _ _ _ ?_)
    · refine SameTiers.trans ?_ (SameTiers.modifySignature _ _ _ ?_)
      · refine SameTiers.modifySignature _ _ _ ?_
        intro _; rfl
      · intro _; rfl
    · intro _; rfl
  · intro _; rfl

/-- The full merge that keeps the new node returns when both nodes are in
memory and the link from the new node to the old one starts at the new node. -/
theorem Memory.rehearsalMergeIntoNew_ok (e : Env T I) (m : Memory T I) (oldId newId : Int)
    (nto : Link T I) (ho : (m._getSignature oldId).isSome = true)
    (hn : (m._getSignature newId).isSome = true) (hfrom : nto.from_ = newId) :
    ∃ m', Memory.rehearsalMergeIntoNew e m oldId newId nto = Except.ok m' := by
  unfold Memory.rehearsalMergeIntoNew
  obtain ⟨o, hod⟩ := Memory.deref_of_isSome ho
  refine exists_bind_ok hod ?_
  obtain ⟨m2, h2⟩ := Memory.rehearsalRedirect_ok e oldId newId nto hfrom o.links m
  refine exists_bind_ok h2 ?_
  have st2 := SameTiers.rehearsalRedirect e oldId newId nto o.links m m2 h2
  obtain ⟨o2, hod2⟩ := Memory.deref_of_isSome (Memory.isSome_of_sameTiers_true st2 ho)
  refine exists_bind_ok hod2 ?_
  have st3 := SameTiers.trans st2 (SameTiers.mergeLabels e m2 oldId newId o2.label)
  obtain ⟨m4, h4⟩ := Memory.copyData_ok e _ oldId newId
    (Memory.isSome_of_sameTiers_true st3 ho) (Memory.isSome_of_sameTiers_true st3 hn)
  refine exists_bind_ok h4 ?_
  have st4 := SameTiers.trans st3 (SameTiers.copyData e _ m4 oldId newId h4)
  obtain ⟨n4, hn4⟩ := Memory.deref_of_isSome (Memory.isSome_of_sameTiers_true st4 hn)
  refine exists_bind_ok hn4 ?_
  obtain ⟨o4, ho4⟩ := Memory.deref_of_isSome (Memory.isSome_of_sameTiers_true st4 ho)
  exact exists_bind_ok ho4 ⟨_, rfl⟩

/-- The links after the full merge that keeps the new node: the old node is
left with its link to the new node, the other signatures have the links the
redirection gave them. -/
theorem Memory.rehearsalMergeIntoNew_linksOf (e : Env T I) (m m' : Memory T I)
    (oldId newId : Int) (nto : Link T I)
    (h : Memory.rehearsalMergeIntoNew e m oldId newId nto = Except.ok m') :
    ∃ o m2, m._getSignature oldId = some o ∧
      Memory.rehearsalRedirect e oldId newId nto o.links m = Except.ok m2 ∧
      ∀ j, m'.linksOf j =
        if j = oldId then (m2.linksOf oldId).map (fun _ =>
          [({ from_ := oldId, to_ := newId, type := LinkType.kGlobalClosure,
              transform := e.geo.null, info := e.geo.infoUnit,
              userDataCompressed := [] } : Link T I)])
        else m2.linksOf j := by
  unfold Memory.rehearsalMergeIntoNew at h
  obtain ⟨o, hod, h⟩ := bind_eq_ok.1 h
  obtain ⟨m2, h2, h⟩ := bind_eq_ok.1 h
  obtain ⟨o2, _, h⟩ := bind_eq_ok.1 h
  obtain ⟨m4, h4, h⟩ := bind_eq_ok.1 h
  obtain ⟨n4, _, h⟩ := bind_eq_ok.1 h
  obtain ⟨o4, _, h⟩ := bind_eq_ok.1 h
  injection h with h
  refine ⟨o, m2, Memory.deref_eq_ok.1 hod, h2, ?_⟩
  intro j
  have hl5 : m'.linksOf = m4.linksOf := by
    rw [← h]
    split <;> simp
  have e1 : ∀ mm : Memory T I, (mm.modifySignature oldId (fun s => s.removeLinks)).linksOf =
      tableModify oldId (fun _ => []) mm.linksOf := fun mm =>
    funext (Memory.linksOf_modifySignature mm oldId (fun s => s.removeLinks) (fun _ => [])
      (fun _ => rfl) (fun _ => rfl))
  have e2 : ∀ (mm : Memory T I) (k : Int) (lab : String),
      (mm.modifySignature k (fun s => { s with label := lab })).linksOf =
        tableModify k (fun l => l) mm.linksOf := fun mm k lab =>
    funext (Memory.linksOf_modifySignature mm k (fun s => { s with label := lab }) (fun l => l)
      (fun _ => rfl) (fun _ => rfl))
  rw [hl5, Memory.linksOf_of_sameView (sameView_links_copyData e _ m4 oldId newId h4),
    Memory.linksOf_modify_addLink, e1, e2, e2]
  unfold tableModify
  by_cases hj : j = oldId
  · simp only [if_pos hj]
    rw [hj]
    cases m2.linksOf oldId with
    | none => split <;> rfl
    | some ls => split <;> rfl
  · simp only [if_neg hj]
    cases m2.linksOf j with
    | none => split <;> rfl
    | some ls => split <;> rfl

end MergeSpec
section MergeSpec2

variable {T I : Type}

theorem exists_bind_ok_and {ε α β : Type} {x : Except ε α} {f : α → Except ε β} {a : α}
    {P : β → Prop} (hx : x = Except.ok a) (hf : ∃ b, f a = Except.ok b ∧ P b) :
    ∃ b, (x >>= f) = Except.ok b ∧ P b := by
  obtain ⟨b, hb, hp⟩ := hf
  exact ⟨b, bind_eq_ok.2 ⟨a, hx, hb⟩, hp⟩

/-- The call `moveToTrash` returns for a signature of the STM whose link peers
are all in memory. -/
theorem Memory.moveToTrash_ok (e : Env T I) (m : Memory T I) (sId : Int) ( keep : Bool)
    (s : Signature T I) (hs : m._getSignature sId = some s) (hstm : m.isInSTM sId = true)
    (hp : ∀ l ∈ s.links, (m._getSignature l.to_).isSome = true) :
    ∃ m', Memory.moveToTrash e m sId keep = Except.ok m' ∧ m'._getSignature sId = none := by
  have hid : s.id = sId := Memory.getSignature_id hs
  have hex : ∃ m', Memory.moveToTrash e m sId keep = Except.ok m' := by
    cases hc : (!keep || (!s.saved && s.isBadSignature && e.badSignaturesIgnored)) with
    | false =>
      obtain ⟨r, hr, _⟩ := Memory.moveToTrashFull_kept e m sId keep s hs hc
      exact ⟨r.1, Memory.moveToTrash_of_full e m sId keep r hr⟩
    | true =>
      obtain ⟨m1, h1⟩ := Memory.moveToTrashUnlink_ok sId s.weight s.links m hp
      have hl : Memory.moveToTrashLinks e m s keep = Except.ok
          (m1.modifySignature s.id (fun s => { s.removeLinks with weight := 0, label := "" })) := by
        unfold Memory.moveToTrashLinks
        rw [if_pos hc, hid, hstm, uassert_true]
        exact bind_eq_ok.2 ⟨(), rfl, bind_eq_ok.2 ⟨m1, h1, rfl⟩⟩
      have st : SameTiers m ((m1.modifySignature s.id
          (fun s => { s.removeLinks with weight := 0, label := "" })).disableWordsRef s.id) :=
        SameTiers.trans (SameTiers.trans (SameTiers.moveToTrashUnlink _ _ _ _ _ h1)
          (SameTiers.modifySignature _ s.id
            (fun s => { s.removeLinks with weight := 0, label := "" }) (fun _ => rfl)))
          (SameTiers.disableWordsRef _ s.id)
      have hsome : ((m._getSignature s.id).isSome) = true := by
        rw [hid, hs]
        rfl
      obtain ⟨s1, hd⟩ := Memory.deref_of_isSome (Memory.isSome_of_sameTiers_true st hsome)
      have hfull : ∃ r, Memory.moveToTrashFull e m sId keep = Except.ok r := by
        unfold Memory.moveToTrashFull
        rw [hs]
        exact exists_bind_ok hl (exists_bind_ok hd ⟨_, rfl⟩)
      obtain ⟨r, hr⟩ := hfull
      exact ⟨r.1, Memory.moveToTrash_of_full e m sId keep r hr⟩
  obtain ⟨m', hm'⟩ := hex
  refine ⟨m', hm', ?_⟩
  rcases Memory.moveToTrash_tiers e m m' sId keep hm' with ⟨hn, _⟩ | ⟨_, _, ht⟩
  · rw [hs] at hn
    cases hn
  · exact (Memory.trashed_absent ht).2.2

theorem Memory.isInSTM_of_sameTiers {m m' : Memory T I} (h : SameTiers m m') (k : Int) :
    m'.isInSTM k = m.isInSTM k := by
  unfold Memory.isInSTM
  rw [h.1]

/-- The full merge that keeps the old node returns when both nodes are in
memory. -/
theorem Memory.rehearsalMergeIntoOld_ok (e : Env T I) (m : Memory T I) (oldId newId : Int)
    (ho : (m._getSignature oldId).isSome = true) (hn : (m._getSignature newId).isSome = true) :
    ∃ m', Memory.rehearsalMergeIntoOld e m oldId newId = Except.ok m' := by
  unfold Memory.rehearsalMergeIntoOld
  have st : SameTiers m (m.modifySignature newId (fun s => s.addLink
      { from_ := newId, to_ := oldId, type := LinkType.kGlobalClosure,
        transform := e.geo.null, info := e.geo.infoUnit, userDataCompressed := [] })) :=
    SameTiers.modifySignature _ _ _ (fun _ => rfl)
  obtain ⟨n, hn1⟩ := Memory.deref_of_isSome (Memory.isSome_of_sameTiers_true st hn)
  refine exists_bind_ok hn1 ?_
  obtain ⟨o, ho1⟩ := Memory.deref_of_isSome (Memory.isSome_of_sameTiers_true st ho)
  exact exists_bind_ok ho1 ⟨_, rfl⟩

/-- The links after the full merge that keeps the old node: the new node has
gained its link to the old one. -/
theorem Memory.rehearsalMergeIntoOld_linksOf (e : Env T I) (m m' : Memory T I)
    (oldId newId : Int) (h : Memory.rehearsalMergeIntoOld e m oldId newId = Except.ok m') :
    m'.linksOf = tableModify newId (kinsert Link.to_
      { from_ := newId, to_ := oldId, type := LinkType.kGlobalClosure,
        transform := e.geo.null, info := e.geo.infoUnit, userDataCompressed := [] })
      m.linksOf := by
  unfold Memory.rehearsalMergeIntoOld at h
  obtain ⟨n, _, h⟩ := bind_eq_ok.1 h
  obtain ⟨o, _, h⟩ := bind_eq_ok.1 h
  injection h with h
  rw [← h]
  split <;> simp

/-- The full merge of `rehearsalMerge` returns, and the victim is gone, when
the two distinct nodes are in the STM, the new node has a link to the old one,
and the links of the new node start at it and lead to signatures in memory. -/
theorem Memory.rehearsalFullMerge_ok (e : Env T I) (m : Memory T I) (oldS newS : Signature T I)
    (oldId newId : Int) (ho : m._getSignature oldId = some oldS)
    (hn : m._getSignature newId = some newS) (hne : oldId ≠ newId)
    (hdirect : newS.hasLink oldId = true)
    (hfrom : ∀ l ∈ newS.links, l.from_ = newId)
    (hpeers : ∀ l ∈ newS.links, (m._getSignature l.to_).isSome = true)
    (hstmo : m.isInSTM oldId = true) (hstmn : m.isInSTM newId = true) :
    ∃ m', Memory.rehearsalFullMerge e m oldS newS oldId newId = Except.ok m' ∧
      m'._getSignature (if e.idUpdatedToNewOneRehearsal then oldId else newId) = none := by
  have hoid := Memory.getSignature_id ho
  have hnid := Memory.getSignature_id hn
  have hos : (m._getSignature oldId).isSome = true := by rw [ho]; rfl
  have hns : (m._getSignature newId).isSome = true := by rw [hn]; rfl
  unfold Memory.rehearsalFullMerge
  rw [hoid, hnid]
  cases hk : kfind Link.to_ newS.links oldId with
  | none =>
    unfold Signature.hasLink khas at hdirect
    rw [hk] at hdirect
    cases hdirect
  | some nto =>
    refine exists_bind_ok_and rfl ?_
    have st1 : SameTiers m ((m.modifySignature oldId (fun s => s.removeLink newId)).modifySignature
        newId (fun s => s.removeLink oldId)) :=
      SameTiers.trans
        (SameTiers.modifySignature m oldId (fun s => s.removeLink newId) (fun _ => rfl))
        (SameTiers.modifySignature _ newId (fun s => s.removeLink oldId) (fun _ => rfl))
    have hl1 : ((m.modifySignature oldId (fun s => s.removeLink newId)).modifySignature
        newId (fun s => s.removeLink oldId)).linksOf newId =
          some (kerase Link.to_ oldId newS.links) := by
      simp only [Memory.linksOf_modify_removeLink]
      rw [tableModify_self, tableModify_ne _ _ (Ne.symm hne), Memory.linksOf_of_getSignature hn]
      rfl
    by_cases hc : e.idUpdatedToNewOneRehearsal = true
    · rw [if_pos hc, if_pos hc]
      obtain ⟨m5, h5⟩ := Memory.rehearsalMergeIntoNew_ok e _ oldId newId nto
        (Memory.isSome_of_sameTiers_true st1 hos) (Memory.isSome_of_sameTiers_true st1 hns)
        (hfrom nto (kfind_mem Link.to_ hk))
      refine exists_bind_ok_and h5 ?_
      have st5 := SameTiers.trans st1 (Memory.rehearsalMergeIntoNew_sameTiers _ _ _ _ _ _ h5)
      obtain ⟨o, m2, _, h2, hl⟩ := Memory.rehearsalMergeIntoNew_linksOf e _ m5 oldId newId nto h5
      have st2 := SameTiers.trans st1 (SameTiers.rehearsalRedirect _ _ _ _ _ _ _ h2)
      have hlo := hl oldId
      rw [if_pos rfl] at hlo
      cases h2o : m2._getSignature oldId with
      | none =>
        have := Memory.isSome_of_sameTiers_true st2 hos
        rw [h2o] at this
        cases this
      | some o2 =>
        rw [Memory.linksOf_of_getSignature h2o] at hlo
        obtain ⟨s5, hs5, hs5l⟩ := Memory.linksOf_eq_some.1 hlo
        refine Memory.moveToTrash_ok e m5 oldId _ s5 hs5 ?_ ?_
        · rw [Memory.isInSTM_of_sameTiers st5]
          exact hstmo
        · intro l hlm
          rw [hs5l] at hlm
          rw [List.mem_singleton.1 hlm]
          exact Memory.isSome_of_sameTiers_true st5 hns
    · rw [if_neg hc, if_neg hc]
      obtain ⟨m3, h3⟩ := Memory.rehearsalMergeIntoOld_ok e _ oldId newId
        (Memory.isSome_of_sameTiers_true st1 hos) (Memory.isSome_of_sameTiers_true st1 hns)
      refine exists_bind_ok_and h3 ?_
      have st3 := SameTiers.trans st1 (Memory.rehearsalMergeIntoOld_sameTiers _ _ _ _ _ h3)
      have hl3 := congrFun (Memory.rehearsalMergeIntoOld_linksOf e _ m3 oldId newId h3) newId
      rw [tableModify_self, hl1] at hl3
      obtain ⟨s3, hs3, hs3l⟩ := Memory.linksOf_eq_some.1 hl3
      refine Memory.moveToTrash_ok e m3 newId _ s3 hs3 ?_ ?_
      · rw [Memory.isInSTM_of_sameTiers st3]
        exact hstmn
      · intro l hlm
        rw [hs3l] at hlm
        rcases (mem_kinsert Link.to_).1 hlm with hlm | ⟨hlm, _⟩
        · exact Memory.isSome_of_sameTiers_true st3 (hpeers l ((mem_kerase Link.to_).1 hlm).1)
        · rw [hlm]
          exact Memory.isSome_of_sameTiers_true st3 hos

end MergeSpec2
section MergeModes

variable {T I : Type}

theorem Memory.weightOf_setWeight_self (m : Memory T I) (k w : Int)
    (h : (m._getSignature k).isSome = true) : (m.setWeight k w).weightOf k = some w := by
  unfold Memory.weightOf
  rw [Memory.getSignature_setWeight_self]
  cases hs : m._getSignature k with
  | none =>
    rw [hs] at h
    cases h
  | some s => rfl

theorem Memory.weightOf_setWeight_ne (m : Memory T I) {k j : Int} (w : Int) (h : j ≠ k) :
    (m.setWeight k w).weightOf j = m.weightOf j := by
  unfold Memory.weightOf
  rw [Memory.getSignature_setWeight_ne m w h]

theorem Memory.weightOf_setLastGlobalLoopClosureId (m : Memory T I) (k j : Int) :
    (m.setLastGlobalLoopClosureId k).weightOf j = m.weightOf j := rfl

theorem Memory.weightOf_ite_setLastGlobalLoopClosureId (m : Memory T I) (c : Prop)
    [Decidable c] (k j : Int) :
    (if c then m.setLastGlobalLoopClosureId k else m).weightOf j = m.weightOf j := by
  split <;> rfl

/-- The weights after the weight update of `rehearsalMerge` without merge. -/
theorem Memory.weightOf_rehearsalWeights (e : Env T I) (m : Memory T I)
    (oldS newS : Signature T I) (b : Bool) (hne : oldS.id ≠ newS.id)
    (ho : (m._getSignature oldS.id).isSome = true)
    (hn : (m._getSignature newS.id).isSome = true) :
    (Memory.rehearsalWeights e m oldS newS b).weightOf
        (if e.idUpdatedToNewOneRehearsal then oldS.id else newS.id) =
      some (if b then -1 else 0) ∧
    (Memory.rehearsalWeights e m oldS newS b).weightOf
        (if e.idUpdatedToNewOneRehearsal then newS.id else oldS.id) =
      some (if e.idUpdatedToNewOneRehearsal then
          (if oldS.weight ≥ 0 then oldS.weight else 0) + newS.weight + 1
        else (if newS.weight ≥ 0 then newS.weight else 0) + oldS.weight + 1) := by
  unfold Memory.rehearsalWeights
  by_cases hc : e.idUpdatedToNewOneRehearsal = true
  · simp only [hc, if_true]
    have h1 : ((m.setWeight newS.id ((if oldS.weight ≥ 0 then oldS.weight else 0) +
        newS.weight + 1))._getSignature oldS.id).isSome = true :=
      Memory.isSome_of_sameTiers_true (SameTiers.setWeight _ _ _) ho
    constructor
    · rw [Memory.weightOf_ite_setLastGlobalLoopClosureId,
        Memory.weightOf_setWeight_self _ _ _ h1]
    · rw [Memory.weightOf_ite_setLastGlobalLoopClosureId,
        Memory.weightOf_setWeight_ne _ _ (Ne.symm hne), Memory.weightOf_setWeight_self _ _ _ hn]
  · simp only [hc]
    have h1 : ((m.setWeight oldS.id ((if newS.weight ≥ 0 then newS.weight else 0) +
        oldS.weight + 1))._getSignature newS.id).isSome = true :=
      Memory.isSome_of_sameTiers_true (SameTiers.setWeight _ _ _) hn
    constructor
    · simp only [Bool.false_eq_true, if_false]
      rw [Memory.weightOf_setWeight_self _ _ _ h1]
    · simp only [Bool.false_eq_true, if_false]
      rw [Memory.weightOf_setWeight_ne _ _ hne, Memory.weightOf_setWeight_self _ _ _ ho]

end MergeModes
section MergeModes2

variable {T I : Type}

/-- The skip of `rehearsalMerge`: in metric mode, moving, with
`Mem/RehearsalWeightIgnoredWhileMoving`. -/
theorem Memory.rehearsalMerge_skip (e : Env T I) (m : Memory T I) (oldId newId : Int)
    (oldS newS : Signature T I) (first : Link T I) (hinc : e.incrementalMemory = true)
    (ho : m._getSignature oldId = some oldS) (hn : m._getSignature newId = some newS)
    (hsaved : newS.saved = false) (hfirst : newS.links.head? = some first)
    (hmerged : Memory.rehearsalAlreadyMerged oldS newS = false)
    (hnull : e.geo.isNull first.transform = false) (hmov : e.isMoving first.transform = true)
    (hign : e.rehearsalWeightIgnoredWhileMoving = true) :
    Memory.rehearsalMerge e m oldId newId = Except.ok (false, m) := by
  unfold Memory.rehearsalMerge
  rw [ho, hn]
  simp only [hinc, hmerged, hsaved, hfirst, hnull, hmov, hign, Bool.not_true, Bool.not_false,
    Bool.false_eq_true, if_false, uassert_true, bind, Except.bind, pure, Except.pure,
    Bool.and_self, if_true]

/-- The weight update of `rehearsalMerge`: no skip and no full merge. -/
theorem Memory.rehearsalMerge_weights (e : Env T I) (m : Memory T I) (oldId newId : Int)
    (oldS newS : Signature T I) (first : Link T I) (hinc : e.incrementalMemory = true)
    (ho : m._getSignature oldId = some oldS) (hn : m._getSignature newId = some newS)
    (hsaved : newS.saved = false) (hfirst : newS.links.head? = some first)
    (hmerged : Memory.rehearsalAlreadyMerged oldS newS = false)
    (hskip : (!e.geo.isNull first.transform && e.isMoving first.transform &&
      e.rehearsalWeightIgnoredWhileMoving) = false)
    (hfull : Memory.rehearsalFullMergeTest e oldS newS first = false) :
    Memory.rehearsalMerge e m oldId newId = Except.ok
      (false, Memory.rehearsalWeights e m oldS newS
        (Memory.rehearsalIntermediateTest e oldS newS first)) := by
  unfold Memory.rehearsalMerge
  rw [ho, hn]
  simp only [hinc, hmerged, hsaved, hfirst, hskip, hfull, Bool.not_true, Bool.not_false,
    Bool.false_eq_true, if_false, uassert_true, bind, Except.bind, pure, Except.pure, if_true]

/-- The full merge of `rehearsalMerge`: no skip and a full merge. -/
theorem Memory.rehearsalMerge_full (e : Env T I) (m : Memory T I) (oldId newId : Int)
    (oldS newS : Signature T I) (first : Link T I) (hinc : e.incrementalMemory = true)
    (ho : m._getSignature oldId = some oldS) (hn : m._getSignature newId = some newS)
    (hsaved : newS.saved = false) (hfirst : newS.links.head? = some first)
    (hmerged : Memory.rehearsalAlreadyMerged oldS newS = false)
    (hskip : (!e.geo.isNull first.transform && e.isMoving first.transform &&
      e.rehearsalWeightIgnoredWhileMoving) = false)
    (hfull : Memory.rehearsalFullMergeTest e oldS newS first = true) :
    Memory.rehearsalMerge e m oldId newId =
      (Memory.rehearsalFullMerge e m oldS newS oldId newId >>= fun m => pure (true, m)) := by
  unfold Memory.rehearsalMerge
  rw [ho, hn]
  simp only [hinc, hmerged, hsaved, hfirst, hskip, hfull, Bool.not_true, Bool.not_false,
    Bool.false_eq_true, if_false, uassert_true, bind, Except.bind, pure, Except.pure, if_true]

end MergeModes2

/-- Claim C26, amended: in incremental mode, for two distinct nodes old and new
of the STM (new unsaved, with at least one link, its links starting at new and
leading to signatures in memory, old not already joined to new by a
non-neighbor link, both weights at least -1), `rehearsalMerge` returns. With
metric mode meaning that the first link of new has a non-null transform and
moving as `isMoving` of that transform: it returns true with the victim (old
with `Mem/RehearsalIdUpdatedToNewOne`, else new) removed from memory exactly
when new has a direct link to old and the mode is non-metric or the node is
not moving; when it returns false both nodes stay in memory; it performs an
intermediate merge (returns false, that same node gets the weight -1 and the
other one the sum of the weights plus one, the weight -1 counting for 0)
exactly when the mode is metric, the node is not moving and there is no direct
link, and then no link is changed and the other node has a non-negative
weight; it returns false and the memory as it is in metric mode when moving
with `Mem/RehearsalWeightIgnoredWhileMoving`. -/
theorem rehearsalMerge_modes {T I : Type} (e : Env T I) (m : Memory T I) (oldId newId : Int)
    (oldS newS : Signature T I) (first : Link T I) (hinc : e.incrementalMemory = true)
    (ho : m._getSignature oldId = some oldS) (hn : m._getSignature newId = some newS)
    (hne : oldId ≠ newId)
    (hstmo : m.isInSTM oldId = true) (hstmn : m.isInSTM newId = true)
    (hsaved : newS.saved = false) (hfirst : newS.links.head? = some first)
    (hfrom : ∀ l ∈ newS.links, l.from_ = newId)
    (hpeers : ∀ l ∈ newS.links, (m._getSignature l.to_).isSome = true)
    (hmerged : Memory.rehearsalAlreadyMerged oldS newS = false)
    (hwo : -1 ≤ oldS.weight) (hwn : -1 ≤ newS.weight) :
    ∃ r, Memory.rehearsalMerge e m oldId newId = Except.ok r ∧
      ((r.1 = true ∧
          r.2._getSignature (if e.idUpdatedToNewOneRehearsal then oldId else newId) = none) ↔
        (newS.hasLink oldId = true ∧
          (e.geo.isNull first.transform = true ∨ e.isMoving first.transform = false))) ∧
      (r.1 = false →
        (r.2._getSignature oldId).isSome = true ∧ (r.2._getSignature newId).isSome = true) ∧
      ((r.1 = false ∧
          r.2.weightOf (if e.idUpdatedToNewOneRehearsal then oldId else newId) = some (-1) ∧
          r.2.weightOf (if e.idUpdatedToNewOneRehearsal then newId else oldId) =
            some (if e.idUpdatedToNewOneRehearsal then
                (if oldS.weight ≥ 0 then oldS.weight else 0) + newS.weight + 1
              else (if newS.weight ≥ 0 then newS.weight else 0) + oldS.weight + 1)) ↔
        (e.geo.isNull first.transform = false ∧ e.isMoving first.transform = false ∧
          newS.hasLink oldId = false)) ∧
      ((e.geo.isNull first.transform = false ∧ e.isMoving first.transform = false ∧
          newS.hasLink oldId = false) →
        r.2.linksOf = m.linksOf ∧
        ∃ w, 0 ≤ w ∧
          r.2.weightOf (if e.idUpdatedToNewOneRehearsal then newId else oldId) = some w) ∧
      ((e.geo.isNull first.transform = false ∧ e.isMoving first.transform = true ∧
          e.rehearsalWeightIgnoredWhileMoving = true) → r = (false, m)) := by
  have hoid := Memory.getSignature_id ho
  have hnid := Memory.getSignature_id hn
  have hos : (m._getSignature oldId).isSome = true := by rw [ho]; rfl
  have hns : (m._getSignature newId).isSome = true := by rw [hn]; rfl
  have hformula : (0 : Int) ≤ (if e.idUpdatedToNewOneRehearsal then
        (if oldS.weight ≥ 0 then oldS.weight else 0) + newS.weight + 1
      else (if newS.weight ≥ 0 then newS.weight else 0) + oldS.weight + 1) := by
    split <;> split <;> omega
  have hwk : m.weightOf (if e.idUpdatedToNewOneRehearsal then newId else oldId) ≠
      some (if e.idUpdatedToNewOneRehearsal then
        (if oldS.weight ≥ 0 then oldS.weight else 0) + newS.weight + 1
      else (if newS.weight ≥ 0 then newS.weight else 0) + oldS.weight + 1) := by
    by_cases hc : e.idUpdatedToNewOneRehearsal = true
    · simp only [hc, if_true]
      rw [Memory.weightOf_eq m newId newS hn]
      intro h
      injection h with h
      split at h <;> omega
    · simp only [hc, if_false, Bool.false_eq_true]
      rw [Memory.weightOf_eq m oldId oldS ho]
      intro h
      injection h with h
      split at h <;> omega
  by_cases hF : newS.hasLink oldId = true ∧
      (e.geo.isNull first.transform = true ∨ e.isMoving first.transform = false)
  · have hskip : (!e.geo.isNull first.transform && e.isMoving first.transform &&
        e.rehearsalWeightIgnoredWhileMoving) = false := by
      rcases hF.2 with h | h <;> simp [h]
    have hfull : Memory.rehearsalFullMergeTest e oldS newS first = true := by
      unfold Memory.rehearsalFullMergeTest
      rw [hoid, hF.1]
      rcases hF.2 with h | h
      · simp [h]
      · cases hnull : e.geo.isNull first.transform <;> simp [h]
    obtain ⟨m', hm', habs⟩ := Memory.rehearsalFullMerge_ok e m oldS newS oldId newId ho hn hne
      hF.1 hfrom hpeers hstmo hstmn
    refine ⟨(true, m'), ?_, ?_, ?_, ?_, ?_, ?_⟩
    · rw [Memory.rehearsalMerge_full e m oldId newId oldS newS first hinc ho hn hsaved hfirst
        hmerged hskip hfull, hm']
      rfl
    · exact ⟨fun _ => hF, fun _ => ⟨rfl, habs⟩⟩
    · intro h
      cases h
    · constructor
      · rintro ⟨h, _⟩
        cases h
      · rintro ⟨_, _, h⟩
        rw [hF.1] at h
        cases h
    · rintro ⟨_, _, h⟩
      rw [hF.1] at h
      cases h
    · rintro ⟨h1, h2, _⟩
      rcases hF.2 with h | h
      · rw [h1] at h
        cases h
      · rw [h2] at h
        cases h
  · by_cases hS : e.geo.isNull first.transform = false ∧ e.isMoving first.transform = true ∧
        e.rehearsalWeightIgnoredWhileMoving = true
    · refine ⟨(false, m), Memory.rehearsalMerge_skip e m oldId newId oldS newS first hinc ho hn
        hsaved hfirst hmerged hS.1 hS.2.1 hS.2.2, ?_, ?_, ?_, ?_, ?_⟩
      · constructor
        · rintro ⟨h, _⟩
          cases h
        · intro h
          exact absurd h hF
      · intro _
        exact ⟨hos, hns⟩
      · constructor
        · rintro ⟨_, _, h⟩
          exact absurd h hwk
        · rintro ⟨_, h, _⟩
          rw [hS.2.1] at h
          cases h
      · rintro ⟨_, h, _⟩
        rw [hS.2.1] at h
        cases h
      · intro _
        rfl
    · have hskip : (!e.geo.isNull first.transform && e.isMoving first.transform &&
          e.rehearsalWeightIgnoredWhileMoving) = false := by
        revert hS
        cases e.geo.isNull first.transform <;> cases e.isMoving first.transform <;>
          cases e.rehearsalWeightIgnoredWhileMoving <;> simp
      have hfull : Memory.rehearsalFullMergeTest e oldS newS first = false := by
        unfold Memory.rehearsalFullMergeTest
        rw [hoid]
        revert hF
        cases e.geo.isNull first.transform <;> cases e.isMoving first.transform <;>
          cases newS.hasLink oldId <;> simp
      have hb : Memory.rehearsalIntermediateTest e oldS newS first = true ↔
          (e.geo.isNull first.transform = false ∧ e.isMoving first.transform = false ∧
            newS.hasLink oldId = false) := by
        unfold Memory.rehearsalIntermediateTest
        rw [hoid]
        cases e.geo.isNull first.transform <;> cases e.isMoving first.transform <;>
          cases newS.hasLink oldId <;> simp
      have hw := Memory.weightOf_rehearsalWeights e m oldS newS
        (Memory.rehearsalIntermediateTest e oldS newS first) (by rw [hoid, hnid]; exact hne)
        (by rw [hoid]; exact hos) (by rw [hnid]; exact hns)
      rw [hoid, hnid] at hw
      have st := SameTiers.rehearsalWeights e m oldS newS
        (Memory.rehearsalIntermediateTest e oldS newS first)
      refine ⟨_, Memory.rehearsalMerge_weights e m oldId newId oldS newS first hinc ho hn
        hsaved hfirst hmerged hskip hfull, ?_, ?_, ?_, ?_, ?_⟩
      · constructor
        · rintro ⟨h, _⟩
          cases h
        · intro h
          exact absurd h hF
      · intro _
        exact ⟨Memory.isSome_of_sameTiers_true st hos, Memory.isSome_of_sameTiers_true st hns⟩
      · constructor
        · rintro ⟨_, h, _⟩
          rw [hw.1] at h
          apply hb.1
          cases hbb : Memory.rehearsalIntermediateTest e oldS newS first with
          | true => rfl
          | false =>
            rw [hbb] at h
            simp at h
        · intro h
          refine ⟨rfl, ?_, hw.2⟩
          rw [hw.1, hb.2 h]
          rfl
      · intro _
        exact ⟨Memory.linksOf_rehearsalWeights e m oldS newS _, _, hformula, hw.2⟩
      · intro h
        exact absurd h hS
theorem rehearsalMerge_modes_witness :
    ∃ r, Memory.rehearsalMerge (lineEnv true false 2) (stmPairMemory 1 2) 1 2 = Except.ok r ∧
      ((r.1 = true ∧
          r.2._getSignature (if (lineEnv true false 2).idUpdatedToNewOneRehearsal then 1 else 2) =
            none) ↔
        ((lineSignature 2 2 (some 3) [lineLink 2 1 LinkType.kNeighbor (some (-3))]).hasLink 1 =
            true ∧
          ((lineEnv true false 2).geo.isNull
              (lineLink 2 1 LinkType.kNeighbor (some (-3))).transform = true ∨
            (lineEnv true false 2).isMoving
              (lineLink 2 1 LinkType.kNeighbor (some (-3))).transform = false))) ∧
      (r.1 = false →
        (r.2._getSignature 1).isSome = true ∧ (r.2._getSignature 2).isSome = true) ∧
      ((r.1 = false ∧
          r.2.weightOf (if (lineEnv true false 2).idUpdatedToNewOneRehearsal then 1 else 2) =
            some (-1) ∧
          r.2.weightOf (if (lineEnv true false 2).idUpdatedToNewOneRehearsal then 2 else 1) =
            some (if (lineEnv true false 2).idUpdatedToNewOneRehearsal then
                (if (lineSignature 1 1 (some 0)
                    [lineLink 1 2 LinkType.kNeighbor (some 3)]).weight ≥ 0 then
                  (lineSignature 1 1 (some 0) [lineLink 1 2 LinkType.kNeighbor (some 3)]).weight
                else 0) +
                (lineSignature 2 2 (some 3) [lineLink 2 1 LinkType.kNeighbor (some (-3))]).weight
                + 1
              else
                (if (lineSignature 2 2 (some 3)
                    [lineLink 2 1 LinkType.kNeighbor (some (-3))]).weight ≥ 0 then
                  (lineSignature 2 2 (some 3)
                    [lineLink 2 1 LinkType.kNeighbor (some (-3))]).weight
                else 0) +
                (lineSignature 1 1 (some 0) [lineLink 1 2 LinkType.kNeighbor (some 3)]).weight
                + 1)) ↔
        ((lineEnv true false 2).geo.isNull
            (lineLink 2 1 LinkType.kNeighbor (some (-3))).transform = false ∧
          (lineEnv true false 2).isMoving
            (lineLink 2 1 LinkType.kNeighbor (some (-3))).transform = false ∧
          (lineSignature 2 2 (some 3) [lineLink 2 1 LinkType.kNeighbor (some (-3))]).hasLink 1 =
            false)) ∧
      (((lineEnv true false 2).geo.isNull
            (lineLink 2 1 LinkType.kNeighbor (some (-3))).transform = false ∧
          (lineEnv true false 2).isMoving
            (lineLink 2 1 LinkType.kNeighbor (some (-3))).transform = false ∧
          (lineSignature 2 2 (some 3) [lineLink 2 1 LinkType.kNeighbor (some (-3))]).hasLink 1 =
            false) →
        r.2.linksOf = (stmPairMemory 1 2).linksOf ∧
        ∃ w, 0 ≤ w ∧
          r.2.weightOf (if (lineEnv true false 2).idUpdatedToNewOneRehearsal then 2 else 1) =
            some w) ∧
      (((lineEnv true false 2).geo.isNull
            (lineLink 2 1 LinkType.kNeighbor (some (-3))).transform = false ∧
          (lineEnv true false 2).isMoving
            (lineLink 2 1 LinkType.kNeighbor (some (-3))).transform = true ∧
          (lineEnv true false 2).rehearsalWeightIgnoredWhileMoving = true) →
        r = (false, stmPairMemory 1 2)) :=
  rehearsalMerge_modes (lineEnv true false 2) (stmPairMemory 1 2) 1 2
    (lineSignature 1 1 (some 0) [lineLink 1 2 LinkType.kNeighbor (some 3)])
    (lineSignature 2 2 (some 3) [lineLink 2 1 LinkType.kNeighbor (some (-3))])
    (lineLink 2 1 LinkType.kNeighbor (some (-3)))
    rfl rfl rfl (by decide) rfl rfl rfl rfl
    (fun l hl => by
      rw [List.mem_singleton.1 hl]
      rfl)
    (fun l hl => by
      rw [List.mem_singleton.1 hl]
      rfl)
    rfl (by decide) (by decide)

/-- Claim C26 fails as stated: node 1 is in the working memory and node 2 in
the STM, both in memory, node 2 unsaved with one neighbor link, to node 1,
whose transform is not null and not moving. With
`Mem/RehearsalIdUpdatedToNewOne` set and `Mem/NotLinkedNodesKept` not set,
`rehearsalMerge(1, 2)` starts the full merge and ends in the assertion of
`moveToTrash` that the deleted location is in the STM: it does not return
true. -/
theorem rehearsalMerge_victim_outside_stm_asserts :
    (mergeEnv false true).incrementalMemory = true ∧
    (splitPairMemory LinkType.kNeighbor 0 0)._getSignature 1 =
      some (lineSignature 1 0 (some 0) [lineLink 1 2 LinkType.kNeighbor (some 3)]) ∧
    (splitPairMemory LinkType.kNeighbor 0 0)._getSignature 2 =
      some (lineSignature 2 0 (some 3) [lineLink 2 1 LinkType.kNeighbor (some (-3))]) ∧
    (lineSignature 2 0 (some 3) [lineLink 2 1 LinkType.kNeighbor (some (-3))]).saved = false ∧
    Memory.rehearsalAlreadyMerged
      (lineSignature 1 0 (some 0) [lineLink 1 2 LinkType.kNeighbor (some 3)])
      (lineSignature 2 0 (some 3) [lineLink 2 1 LinkType.kNeighbor (some (-3))]) = false ∧
    (lineSignature 2 0 (some 3) [lineLink 2 1 LinkType.kNeighbor (some (-3))]).hasLink 1 = true ∧
    (mergeEnv false true).isMoving (lineLink 2 1 LinkType.kNeighbor (some (-3))).transform =
      false ∧
    (splitPairMemory LinkType.kNeighbor 0 0).isInSTM 1 = false ∧
    Memory.rehearsalMerge (mergeEnv false true) (splitPairMemory LinkType.kNeighbor 0 0) 1 2 =
      Except.error Fault.assertion :=
  ⟨rfl, rfl, rfl, rfl, rfl, rfl, rfl, rfl, rfl⟩

section RedirectSpec

variable {T I : Type}

theorem kfind_cons_self {α : Type} (key : α → Int) (a : α) (l : List α) :
    kfind key (a :: l) (key a) = some a := by
  simp [kfind, List.find?]

theorem kfind_cons_ne {α : Type} (key : α → Int) {a : α} {k : Int} (l : List α)
    (h : key a ≠ k) : kfind key (a :: l) k = kfind key l k := by
  have : (key a == k) = false := beq_false_of_ne h
  simp [kfind, List.find?, this]

/-- The links of a signature other than the new node after the loop that
redirects the links of the old node: a peer of the old node has replaced its
link to the old node by the inverse of the merged link. -/
theorem Memory.linksOf_rehearsalRedirect_peer (e : Env T I) (oldId newId : Int)
    (nto : Link T I) (links : List (Link T I)) (m m' : Memory T I)
    (h : Memory.rehearsalRedirect e oldId newId nto links m = Except.ok m')
    (hnd : (links.map Link.to_).Nodup) (x : Int) (hx : x ≠ newId) :
    m'.linksOf x = (m.linksOf x).map (fun ls =>
      match kfind Link.to_ links x with
      | some lx => kinsert Link.to_ ((nto.merge e.geo lx lx.type).inverse e.geo)
          (kerase Link.to_ oldId ls)
      | none => ls) := by
  induction links generalizing m with
  | nil =>
    unfold Memory.rehearsalRedirect at h
    injection h with h
    rw [← h]
    cases m.linksOf x <;> rfl
  | cons lk rest ih =>
    unfold Memory.rehearsalRedirect at h
    rw [List.map_cons, List.nodup_cons] at hnd
    obtain ⟨_, _, h⟩ := bind_eq_ok.1 h
    cases hs : m._getSignature lk.to_ with
    | none =>
      rw [hs] at h
      simp only [] at h
      rw [ih m h hnd.2]
      by_cases hxl : lk.to_ = x
      · have : m.linksOf x = none := by
          unfold Memory.linksOf
          rw [← hxl, hs]
          rfl
        rw [this]
        rfl
      · rw [kfind_cons_ne Link.to_ rest hxl]
    | some sP =>
      rw [hs] at h
      simp only [] at h
      have hid := Memory.getSignature_id hs
      rw [ih _ h hnd.2]
      simp only [Memory.linksOf_modify_addLink, Memory.linksOf_modify_removeLink]
      rw [tableModify_ne _ _ hx]
      unfold tableModify
      by_cases hxl : lk.to_ = x
      · have hnone : kfind Link.to_ rest x = none := by
          rw [kfind_none_iff]
          intro a ha heq
          exact hnd.1 (List.mem_map.2 ⟨a, ha, by rw [heq, hxl]⟩)
        rw [hnone, ← hxl, kfind_cons_self, if_pos hid.symm, if_pos hid.symm]
        cases m.linksOf lk.to_ <;> rfl
      · have hne : x ≠ sP.id := by
          rw [hid]
          exact Ne.symm hxl
        rw [kfind_cons_ne Link.to_ rest hxl, if_neg hne, if_neg hne]

/-- The link of the new node to a signature `x` after the loop that redirects
the links of the old node: a link the new node has to `x` stays, otherwise the
merged link is entered when `x` is a peer of the old node and is in memory. -/
theorem Memory.linksOf_rehearsalRedirect_new (e : Env T I) (oldId newId : Int)
    (nto : Link T I) (links : List (Link T I)) (m m' : Memory T I)
    (h : Memory.rehearsalRedirect e oldId newId nto links m = Except.ok m')
    (x : Int) (hxn : x ≠ newId) (hxo : x ≠ oldId) :
    (m'.linksOf newId).map (fun ls => kfind Link.to_ ls x) =
      (m.linksOf newId).map (fun ls =>
        match kfind Link.to_ ls x with
        | some l => some l
        | none =>
          if (m._getSignature x).isSome then
            (kfind Link.to_ links x).map (fun lx => nto.merge e.geo lx lx.type)
          else none) := by
  induction links generalizing m with
  | nil =>
    unfold Memory.rehearsalRedirect at h
    injection h with h
    rw [← h]
    cases m.linksOf newId with
    | none => rfl
    | some ls =>
      simp only [Option.map_some', Option.some.injEq]
      cases kfind Link.to_ ls x with
      | none => simp [kfind]
      | some l => rfl
  | cons lk rest ih =>
    unfold Memory.rehearsalRedirect at h
    obtain ⟨_, hu, h⟩ := bind_eq_ok.1 h
    have hfrom : (nto.merge e.geo lk lk.type).from_ = newId := by
      have := uassert_eq_ok.1 hu
      simp only [Bool.and_eq_true, beq_iff_eq] at this
      exact this.1
    cases hs : m._getSignature lk.to_ with
    | none =>
      rw [hs] at h
      simp only [] at h
      rw [ih m h]
      by_cases hxl : lk.to_ = x
      · have hx0 : (m._getSignature x).isSome = false := by
          rw [← hxl, hs]
          rfl
        simp only [hx0, Bool.false_eq_true, if_false]
      · rw [kfind_cons_ne Link.to_ rest hxl]
    | some sP =>
      rw [hs] at h
      simp only [] at h
      have hid := Memory.getSignature_id hs
      rw [ih _ h]
      have hpres : (((m.modifySignature sP.id (fun p => p.removeLink oldId)).modifySignature sP.id
          (fun p => p.addLink ((nto.merge e.geo lk lk.type).inverse e.geo))).modifySignature newId
          (fun p => p.addLink (nto.merge e.geo lk lk.type)))._getSignature x =
            none ↔ m._getSignature x = none := by
        rw [Memory.getSignature_eq_none_iff, Memory.getSignature_eq_none_iff]
        have st : SameTiers m (((m.modifySignature sP.id
            (fun p => p.removeLink oldId)).modifySignature sP.id
            (fun p => p.addLink ((nto.merge e.geo lk lk.type).inverse e.geo))).modifySignature newId
            (fun p => p.addLink (nto.merge e.geo lk lk.type))) :=
          SameTiers.trans (SameTiers.trans
            (SameTiers.modifySignature m sP.id (fun p => p.removeLink oldId) (fun _ => rfl))
            (SameTiers.modifySignature _ sP.id
              (fun p => p.addLink ((nto.merge e.geo lk lk.type).inverse e.geo)) (fun _ => rfl)))
            (SameTiers.modifySignature _ newId
              (fun p => p.addLink (nto.merge e.geo lk lk.type)) (fun _ => rfl))
        rw [st.2.2.1]
      have hpres2 : ((((m.modifySignature sP.id (fun p => p.removeLink oldId)).modifySignature
          sP.id (fun p => p.addLink ((nto.merge e.geo lk lk.type).inverse e.geo))).modifySignature
          newId (fun p => p.addLink (nto.merge e.geo lk lk.type)))._getSignature x).isSome =
            (m._getSignature x).isSome := by
        cases hq : m._getSignature x with
        | none => rw [hpres.2 hq]
        | some q =>
          cases hq2 : (((m.modifySignature sP.id (fun p => p.removeLink oldId)).modifySignature
            sP.id (fun p => p.addLink ((nto.merge e.geo lk lk.type).inverse e.geo))).modifySignature
            newId (fun p => p.addLink (nto.merge e.geo lk lk.type)))._getSignature x with
          | none =>
            rw [hpres.1 hq2] at hq
            cases hq
          | some q2 => rfl
      rw [hpres2]
      simp only [Memory.linksOf_modify_addLink, Memory.linksOf_modify_removeLink]
      rw [tableModify_self]
      cases hnl : m.linksOf newId with
      | none =>
        have : tableModify sP.id (kinsert Link.to_ ((nto.merge e.geo lk lk.type).inverse e.geo))
            (tableModify sP.id (kerase Link.to_ oldId) m.linksOf) newId = none := by
          unfold tableModify
          split <;> simp [hnl]
        rw [this]
        rfl
      | some NL =>
        have hinvto : ((nto.merge e.geo lk lk.type).inverse e.geo).to_ = newId := hfrom
        have hmto : (nto.merge e.geo lk lk.type).to_ = lk.to_ := rfl
        obtain ⟨NL1, hNL1, hk1⟩ : ∃ NL1,
            tableModify sP.id (kinsert Link.to_ ((nto.merge e.geo lk lk.type).inverse e.geo))
              (tableModify sP.id (kerase Link.to_ oldId) m.linksOf) newId = some NL1 ∧
            kfind Link.to_ NL1 x = kfind Link.to_ NL x := by
          unfold tableModify
          by_cases hsn : newId = sP.id
          · rw [if_pos hsn, if_pos hsn, hnl]
            refine ⟨_, rfl, ?_⟩
            rw [kfind_kinsert, hinvto, kfind_kerase, if_neg hxo, if_neg hxn]
            split <;> rfl
          · rw [if_neg hsn, if_neg hsn, hnl]
            exact ⟨NL, rfl, rfl⟩
        rw [hNL1]
        simp only [Option.map_some', Option.some.injEq]
        rw [kfind_kinsert, hmto, hk1]
        have hkh : khas Link.to_ NL1 x = (kfind Link.to_ NL x).isSome := by
          unfold khas
          rw [hk1]
        by_cases hxl : lk.to_ = x
        · have hsome : (m._getSignature x).isSome = true := by
            rw [← hxl, hs]
            rfl
          rw [hxl, hkh, ← hxl, kfind_cons_self, hxl, hsome]
          cases kfind Link.to_ NL x <;> simp
        · rw [kfind_cons_ne Link.to_ rest hxl]
          have hne : ¬ x = lk.to_ := fun h' => hxl h'.symm
          have hin : (if khas Link.to_ NL1 lk.to_ = true then kfind Link.to_ NL x
              else if x = lk.to_ then some (nto.merge e.geo lk lk.type)
              else kfind Link.to_ NL x) = kfind Link.to_ NL x := by
            rw [if_neg hne]
            split <;> rfl
          rw [hin]

end RedirectSpec
section TrashLinks

variable {T I : Type}

theorem kerase_kerase_self {α : Type} (key : α → Int) (k : Int) (l : List α) :
    kerase key k (kerase key k l) = kerase key k l := by
  unfold kerase
  rw [List.filter_filter]
  simp

theorem unlinked_trans {k : Int} {a b c : Option (List (Link T I))}
    (h1 : b = a ∨ b = a.map (kerase Link.to_ k))
    (h2 : c = b ∨ c = b.map (kerase Link.to_ k)) :
    c = a ∨ c = a.map (kerase Link.to_ k) := by
  rcases h1 with rfl | rfl
  · exact h2
  · rcases h2 with rfl | rfl
    · exact Or.inr rfl
    · right
      cases a with
      | none => rfl
      | some l => simp [kerase_kerase_self]

theorem unlinked_modify_removeLink (m : Memory T I) (t k j : Int) :
    (m.modifySignature t (fun p => p.removeLink k)).linksOf j = m.linksOf j ∨
    (m.modifySignature t (fun p => p.removeLink k)).linksOf j =
      (m.linksOf j).map (kerase Link.to_ k) := by
  rw [Memory.linksOf_modify_removeLink]
  unfold tableModify
  split
  · exact Or.inr rfl
  · exact Or.inl rfl

/-- The links of a signature after the loop of `moveToTrash` over the links of
the deleted location: they are as before, possibly without the link to the
location. -/
theorem Memory.linksOf_moveToTrashUnlink (sId sWeight : Int) (links : List (Link T I))
    (m m' : Memory T I) (h : Memory.moveToTrashUnlink sId sWeight links m = Except.ok m')
    (j : Int) :
    m'.linksOf j = m.linksOf j ∨ m'.linksOf j = (m.linksOf j).map (kerase Link.to_ sId) := by
  induction links generalizing m with
  | nil =>
    simp only [Memory.moveToTrashUnlink, pure, Except.pure] at h
    injection h with h
    rw [← h]
    exact Or.inl rfl
  | cons l rest ih =>
    unfold Memory.moveToTrashUnlink at h
    cases hs : m._getSignature l.to_ with
    | none => simp [hs, throw, throwThe, MonadExceptOf.throw] at h
    | some sTo =>
      simp only [hs] at h
      refine unlinked_trans ?_ (ih _ h)
      have := unlinked_modify_removeLink
        (if (l.type == LinkType.kGlobalClosure && decide (sId > sTo.id)) = true then
          m.setWeight sTo.id (sTo.weight + sWeight) else m) sTo.id sId j
      have hw : (if (l.type == LinkType.kGlobalClosure && decide (sId > sTo.id)) = true then
          m.setWeight sTo.id (sTo.weight + sWeight) else m).linksOf = m.linksOf := by
        split
        · exact Memory.linksOf_setWeight _ _ _
        · rfl
      rw [hw] at this
      exact this

theorem Memory.linksOf_removeVirtualLinks (m : Memory T I) (sId j : Int) (hj : j ≠ sId) :
    (m.removeVirtualLinks sId).linksOf j = m.linksOf j ∨
    (m.removeVirtualLinks sId).linksOf j = (m.linksOf j).map (kerase Link.to_ sId) := by
  unfold Memory.removeVirtualLinks
  cases hs : m._getSignature sId with
  | none => exact Or.inl rfl
  | some s =>
    simp only []
    have hid := Memory.getSignature_id hs
    rw [hid, Memory.linksOf_modifySignature _ sId (fun s => s.removeVirtualLinks)
      (fun ls => ls.filter (fun l => l.type != LinkType.kVirtualClosure))
      (fun _ => rfl) (fun _ => rfl), tableModify_ne _ _ hj]
    clear hs
    generalize s.links = links
    induction links generalizing m with
    | nil => exact Or.inl rfl
    | cons l rest ih =>
      rw [List.foldl_cons]
      refine unlinked_trans ?_ (ih _)
      split
      · exact unlinked_modify_removeLink m l.to_ sId j
      · exact Or.inl rfl

/-- The links of a signature other than the deleted location after
`moveToTrash`: they are as before, possibly without the link to the
location. -/
theorem Memory.linksOf_moveToTrash (e : Env T I) (m m' : Memory T I) (sId : Int) ( keep : Bool)
    (h : Memory.moveToTrash e m sId keep = Except.ok m') (j : Int) (hj : j ≠ sId) :
    m'.linksOf j = m.linksOf j ∨ m'.linksOf j = (m.linksOf j).map (kerase Link.to_ sId) := by
  unfold Memory.moveToTrash at h
  obtain ⟨r, hr, h⟩ := bind_eq_ok.1 h
  injection h with h
  rw [← h]
  unfold Memory.moveToTrashFull at hr
  cases hs : m._getSignature sId with
  | none =>
    rw [hs] at hr
    injection hr with hr
    rw [← hr]
    exact Or.inl rfl
  | some s =>
    rw [hs] at hr
    have hid : s.id = sId := Memory.getSignature_id hs
    obtain ⟨m1, h1, hr⟩ := bind_eq_ok.1 hr
    obtain ⟨s1, _, hr⟩ := bind_eq_ok.1 hr
    injection hr with hr
    have hend : r.1.linksOf j = m1.linksOf j := by
      rw [← hr]
      unfold Memory.linksOf
      rw [getSignature_moveToTrashSave, getSignature_moveToTrashLast,
        Memory.getSignature_moveToTrashErase, hid, if_neg hj,
        Memory.getSignature_moveToTrashDictionary]
      exact sameView_links_disableWordsRef m1 sId j
    rw [hend]
    unfold Memory.moveToTrashLinks at h1
    split at h1
    · obtain ⟨_, _, h1⟩ := bind_eq_ok.1 h1
      obtain ⟨m2, h2, h1⟩ := bind_eq_ok.1 h1
      injection h1 with h1
      rw [← h1, Memory.linksOf_modifySignature _ s.id
        (fun s => { s.removeLinks with weight := 0, label := "" }) (fun _ => [])
        (fun _ => rfl) (fun _ => rfl), hid, tableModify_ne _ _ hj]
      have := Memory.linksOf_moveToTrashUnlink s.id s.weight s.links m m2 h2 j
      rw [hid] at this
      exact this
    · injection h1 with h1
      rw [← h1, hid]
      exact Memory.linksOf_removeVirtualLinks m sId j hj

end TrashLinks

section MergeLinks

variable {T I : Type}

/-- A `rehearsalMerge` that returns true has run the full merge. -/
theorem Memory.rehearsalMerge_true (e : Env T I) (m m' : Memory T I) (oldId newId : Int)
    (h : Memory.rehearsalMerge e m oldId newId = Except.ok (true, m')) :
    ∃ oldS newS, m._getSignature oldId = some oldS ∧ m._getSignature newId = some newS ∧
      Memory.rehearsalFullMerge e m oldS newS oldId newId = Except.ok m' := by
  unfold Memory.rehearsalMerge at h
  cases ho : m._getSignature oldId with
  | none =>
    rw [ho] at h
    injection h with h
    cases h
  | some oldS =>
    cases hn : m._getSignature newId with
    | none =>
      rw [ho, hn] at h
      injection h with h
      cases h
    | some newS =>
      rw [ho, hn] at h
      simp only [] at h
      refine ⟨oldS, newS, rfl, rfl, ?_⟩
      split at h
      · injection h with h
        cases h
      · split at h
        · injection h with h
          cases h
        · obtain ⟨_, _, h⟩ := bind_eq_ok.1 h
          obtain ⟨first, _, h⟩ := bind_eq_ok.1 h
          split at h
          · injection h with h
            cases h
          · split at h
            · obtain ⟨m2, h2, h⟩ := bind_eq_ok.1 h
              injection h with h
              injection h with _ h
              rw [← h]
              exact h2
            · injection h with h
              cases h

theorem Memory.rehearsalRedirect_from (e : Env T I) (oldId newId : Int) (nto : Link T I)
    (links : List (Link T I)) (m m' : Memory T I)
    (h : Memory.rehearsalRedirect e oldId newId nto links m = Except.ok m')
    (hl : links ≠ []) : nto.from_ = newId := by
  cases links with
  | nil => exact absurd rfl hl
  | cons lk rest =>
    unfold Memory.rehearsalRedirect at h
    obtain ⟨_, hu, _⟩ := bind_eq_ok.1 h
    have := uassert_eq_ok.1 hu
    simp only [Bool.and_eq_true, beq_iff_eq] at this
    exact this.1

end MergeLinks

/-- Claim C27, amended: with `Mem/RehearsalIdUpdatedToNewOne` set, after a full
rehearsal merge of the distinct nodes old and new (`rehearsalMerge` returns
true), for every signature X in memory, other than old and new, that the
victim old was linked to (the links of old forming a map) and that was not
linked with the survivor new: the survivor stores under X the merge of its
link to the victim and the link of the victim to X, a link of the same type
whose transform is the composition of the two transforms; X stores the
inverse of that link under the survivor; X stores no link to the victim, and
the victim is not in memory. -/
theorem rehearsalMerge_redirects_links {T I : Type} (e : Env T I) (m m' : Memory T I)
    (oldId newId : Int) (oldS newS : Signature T I) (nto : Link T I) (x : Int)
    (xS : Signature T I) (lx : Link T I)
    (hid : e.idUpdatedToNewOneRehearsal = true)
    (h : Memory.rehearsalMerge e m oldId newId = Except.ok (true, m'))
    (ho : m._getSignature oldId = some oldS) (hn : m._getSignature newId = some newS)
    (hne : oldId ≠ newId)
    (hnto : kfind Link.to_ newS.links oldId = some nto)
    (hx : m._getSignature x = some xS) (hxo : x ≠ oldId) (hxn : x ≠ newId)
    (hlx : kfind Link.to_ oldS.links x = some lx)
    (hnd : (oldS.links.map Link.to_).Nodup)
    (hnx : newS.hasLink x = false) (hxnew : xS.hasLink newId = false) :
    ∃ nS' xS', m'._getSignature newId = some nS' ∧ m'._getSignature x = some xS' ∧
      kfind Link.to_ nS'.links x = some (nto.merge e.geo lx lx.type) ∧
      (nto.merge e.geo lx lx.type).type = lx.type ∧
      (nto.merge e.geo lx lx.type).transform = e.geo.mul nto.transform lx.transform ∧
      kfind Link.to_ xS'.links newId = some ((nto.merge e.geo lx lx.type).inverse e.geo) ∧
      xS'.hasLink oldId = false ∧ m'._getSignature oldId = none := by
  obtain ⟨oldS', newS', ho', hn', hfm⟩ := Memory.rehearsalMerge_true e m m' oldId newId h
  rw [ho] at ho'
  rw [hn] at hn'
  injection ho' with ho'
  injection hn' with hn'
  subst ho' hn'
  have hoid := Memory.getSignature_id ho
  have hnid := Memory.getSignature_id hn
  unfold Memory.rehearsalFullMerge at hfm
  rw [hoid, hnid, hnto] at hfm
  simp only [hid, if_true] at hfm
  obtain ⟨_, hpure, hfm⟩ := bind_eq_ok.1 hfm
  injection hpure with hpure
  subst hpure
  obtain ⟨m5, h5, htrash⟩ := bind_eq_ok.1 hfm
  obtain ⟨o, m2, ho1, h2, hl⟩ := Memory.rehearsalMergeIntoNew_linksOf e _ m5 oldId newId nto h5
  -- the memory before the redirection
  have hm1 : ∀ j, ((m.modifySignature oldId (fun s => s.removeLink newId)).modifySignature newId
      (fun s => s.removeLink oldId)).linksOf j =
        tableModify newId (kerase Link.to_ oldId)
          (tableModify oldId (kerase Link.to_ newId) m.linksOf) j := by
    intro j
    simp only [Memory.linksOf_modify_removeLink]
  have hol : o.links = kerase Link.to_ newId oldS.links := by
    have := hm1 oldId
    rw [tableModify_ne _ _ hne, tableModify_self, Memory.linksOf_of_getSignature ho,
      Memory.linksOf_of_getSignature ho1] at this
    injection this
  have hndo : (o.links.map Link.to_).Nodup := by
    rw [hol]
    exact List.Nodup.sublist (List.Sublist.map _ (List.filter_sublist _)) hnd
  have hko : kfind Link.to_ o.links x = some lx := by
    rw [hol, kfind_kerase, if_neg hxn]
    exact hlx
  have hfrom : nto.from_ = newId := by
    refine Memory.rehearsalRedirect_from e oldId newId nto o.links _ m2 h2 ?_
    intro hnil
    rw [hnil] at hko
    cases hko
  have h1x : ((m.modifySignature oldId (fun s => s.removeLink newId)).modifySignature newId
      (fun s => s.removeLink oldId)).linksOf x = some xS.links := by
    rw [hm1, tableModify_ne _ _ hxn, tableModify_ne _ _ hxo, Memory.linksOf_of_getSignature hx]
  have h1n : ((m.modifySignature oldId (fun s => s.removeLink newId)).modifySignature newId
      (fun s => s.removeLink oldId)).linksOf newId = some (kerase Link.to_ oldId newS.links) := by
    rw [hm1, tableModify_self, tableModify_ne _ _ (Ne.symm hne),
      Memory.linksOf_of_getSignature hn]
    rfl
  have h1p : (((m.modifySignature oldId (fun s => s.removeLink newId)).modifySignature newId
      (fun s => s.removeLink oldId))._getSignature x).isSome = true := by
    rw [Memory.getSignature_modify_ne _ (fun s => s.removeLink oldId) (fun _ => rfl) hxn,
      Memory.getSignature_modify_ne _ (fun s => s.removeLink newId) (fun _ => rfl) hxo, hx]
    rfl
  -- after the redirection
  have h2x := Memory.linksOf_rehearsalRedirect_peer e oldId newId nto o.links _ m2 h2 hndo x hxn
  rw [h1x, hko] at h2x
  simp only [Option.map_some'] at h2x
  have h2n := Memory.linksOf_rehearsalRedirect_new e oldId newId nto o.links _ m2 h2 x hxn hxo
  have hkn : kfind Link.to_ (kerase Link.to_ oldId newS.links) x = none := by
    rw [kfind_kerase, if_neg hxo]
    unfold Signature.hasLink khas at hnx
    cases hk : kfind Link.to_ newS.links x with
    | none => rfl
    | some l =>
      rw [hk] at hnx
      cases hnx
  rw [h1n] at h2n
  simp only [Option.map_some', hkn, h1p, if_true, hko] at h2n
  -- after the merge
  have h5x : m5.linksOf x = some (kinsert Link.to_ ((nto.merge e.geo lx lx.type).inverse e.geo)
      (kerase Link.to_ oldId xS.links)) := by
    rw [hl, if_neg hxo]
    exact h2x
  have h5n : (m5.linksOf newId).map (fun ls => kfind Link.to_ ls x) =
      some (some (nto.merge e.geo lx lx.type)) := by
    rw [hl, if_neg (Ne.symm hne)]
    exact h2n
  -- after the removal of the old node
  have habs : m'._getSignature oldId = none := by
    rcases Memory.moveToTrash_tiers e m5 m' oldId _ htrash with ⟨hnone, hm⟩ | ⟨_, _, ht⟩
    · rw [hm]
      exact hnone
    · exact (Memory.trashed_absent ht).2.2
  have hfx : ∃ L, m'.linksOf x = some L ∧
      kfind Link.to_ L newId = some ((nto.merge e.geo lx lx.type).inverse e.geo) ∧
      khas Link.to_ L oldId = false := by
    have hkx : kfind Link.to_ (kinsert Link.to_ ((nto.merge e.geo lx lx.type).inverse e.geo)
        (kerase Link.to_ oldId xS.links)) newId =
          some ((nto.merge e.geo lx lx.type).inverse e.geo) := by
      have hto : ((nto.merge e.geo lx lx.type).inverse e.geo).to_ = newId := hfrom
      have hh : ¬ khas Link.to_ (kerase Link.to_ oldId xS.links) newId = true := by
        unfold khas
        rw [kfind_kerase, if_neg (Ne.symm hne)]
        unfold Signature.hasLink khas at hxnew
        rw [hxnew]
        simp
      rw [kfind_kinsert, hto, if_neg hh, if_pos rfl]
    have hho : khas Link.to_ (kinsert Link.to_ ((nto.merge e.geo lx lx.type).inverse e.geo)
        (kerase Link.to_ oldId xS.links)) oldId = false := by
      have hto : ((nto.merge e.geo lx lx.type).inverse e.geo).to_ = newId := hfrom
      unfold khas
      rw [kfind_kinsert, hto, kfind_kerase, if_pos rfl, if_neg hne]
      split <;> rfl
    rcases Memory.linksOf_moveToTrash e m5 m' oldId _ htrash x hxo with hc | hc
    · rw [h5x] at hc
      exact ⟨_, hc, hkx, hho⟩
    · rw [h5x] at hc
      refine ⟨_, hc, ?_, khas_kerase_self Link.to_ _ oldId⟩
      rw [kfind_kerase, if_neg (Ne.symm hne)]
      exact hkx
  have hfn : ∃ L, m'.linksOf newId = some L ∧
      kfind Link.to_ L x = some (nto.merge e.geo lx lx.type) := by
    cases h5l : m5.linksOf newId with
    | none =>
      rw [h5l] at h5n
      cases h5n
    | some NL =>
      rw [h5l] at h5n
      simp only [Option.map_some', Option.some.injEq] at h5n
      rcases Memory.linksOf_moveToTrash e m5 m' oldId _ htrash newId (Ne.symm hne) with hc | hc
      · rw [h5l] at hc
        exact ⟨_, hc, h5n⟩
      · rw [h5l] at hc
        refine ⟨_, hc, ?_⟩
        rw [kfind_kerase, if_neg hxo]
        exact h5n
  obtain ⟨Lx, hLx, hkx, hho⟩ := hfx
  obtain ⟨Ln, hLn, hkn'⟩ := hfn
  obtain ⟨xS', hxS', hxl⟩ := Memory.linksOf_eq_some.1 hLx
  obtain ⟨nS', hnS', hnl⟩ := Memory.linksOf_eq_some.1 hLn
  refine ⟨nS', xS', hnS', hxS', ?_, rfl, rfl, ?_, ?_, habs⟩
  · rw [hnl]
    exact hkn'
  · rw [hxl]
    exact hkx
  · unfold Signature.hasLink
    rw [hxl]
    exact hho

theorem rehearsalMerge_redirects_links_witness :
    ∃ m', Memory.rehearsalMerge (mergeEnv true true)
        (tripleMemory [lineLink 1 2 LinkType.kNeighbor (some 1)]
          [lineLink 2 1 LinkType.kNeighbor (some (-1)), lineLink 2 3 LinkType.kNeighbor (some 1)]
          [lineLink 3 2 LinkType.kNeighbor (some (-1))]) 2 3 = Except.ok (true, m') ∧
      ∃ nS' xS', m'._getSignature 3 = some nS' ∧ m'._getSignature 1 = some xS' ∧
        kfind Link.to_ nS'.links 1 =
          some ((lineLink 3 2 LinkType.kNeighbor (some (-1))).merge (mergeEnv true true).geo
            (lineLink 2 1 LinkType.kNeighbor (some (-1)))
            (lineLink 2 1 LinkType.kNeighbor (some (-1))).type) ∧
        ((lineLink 3 2 LinkType.kNeighbor (some (-1))).merge (mergeEnv true true).geo
          (lineLink 2 1 LinkType.kNeighbor (some (-1)))
          (lineLink 2 1 LinkType.kNeighbor (some (-1))).type).type =
            (lineLink 2 1 LinkType.kNeighbor (some (-1))).type ∧
        ((lineLink 3 2 LinkType.kNeighbor (some (-1))).merge (mergeEnv true true).geo
          (lineLink 2 1 LinkType.kNeighbor (some (-1)))
          (lineLink 2 1 LinkType.kNeighbor (some (-1))).type).transform =
            (mergeEnv true true).geo.mul (lineLink 3 2 LinkType.kNeighbor (some (-1))).transform
              (lineLink 2 1 LinkType.kNeighbor (some (-1))).transform ∧
        kfind Link.to_ xS'.links 3 =
          some (((lineLink 3 2 LinkType.kNeighbor (some (-1))).merge (mergeEnv true true).geo
            (lineLink 2 1 LinkType.kNeighbor (some (-1)))
            (lineLink 2 1 LinkType.kNeighbor (some (-1))).type).inverse
              (mergeEnv true true).geo) ∧
        xS'.hasLink 2 = false ∧ m'._getSignature 2 = none :=
  ⟨_, rfl, rehearsalMerge_redirects_links (mergeEnv true true)
    (tripleMemory [lineLink 1 2 LinkType.kNeighbor (some 1)]
      [lineLink 2 1 LinkType.kNeighbor (some (-1)), lineLink 2 3 LinkType.kNeighbor (some 1)]
      [lineLink 3 2 LinkType.kNeighbor (some (-1))]) _ 2 3
    (lineSignature 2 0 (some 1)
      [lineLink 2 1 LinkType.kNeighbor (some (-1)), lineLink 2 3 LinkType.kNeighbor (some 1)])
    (lineSignature 3 0 (some 2) [lineLink 3 2 LinkType.kNeighbor (some (-1))])
    (lineLink 3 2 LinkType.kNeighbor (some (-1))) 1
    (lineSignature 1 0 (some 0) [lineLink 1 2 LinkType.kNeighbor (some 1)])
    (lineLink 2 1 LinkType.kNeighbor (some (-1)))
    rfl rfl rfl rfl (by decide) rfl rfl (by decide) (by decide) rfl (by decide) rfl rfl⟩

/-- Claim C27 fails on the code when `Mem/RehearsalIdUpdatedToNewOne` is not
set: the new node 3 is linked to the old node 2 (neighbor) and to node 1
(global loop closure), all three in the STM. `rehearsalMerge(2, 3)` returns
true and removes the victim 3, and the survivor 2 stores no link to node 1: the
branch that keeps the old node redirects nothing. With `Mem/NotLinkedNodesKept`
set node 1 even keeps its link to the victim. -/
theorem rehearsalMerge_into_old_redirects_nothing :
    (∃ m', Memory.rehearsalMerge (mergeEnv true false)
        (tripleMemory [lineLink 1 3 LinkType.kGlobalClosure (some 2)]
          [lineLink 2 3 LinkType.kNeighbor (some 1)]
          [lineLink 3 1 LinkType.kGlobalClosure (some (-2)),
            lineLink 3 2 LinkType.kNeighbor (some (-1))]) 2 3 = Except.ok (true, m') ∧
      m'._getSignature 3 = none ∧
      (∃ s2, m'._getSignature 2 = some s2 ∧ s2.hasLink 1 = false) ∧
      (∃ s1, m'._getSignature 1 = some s1 ∧ s1.hasLink 3 = true ∧ s1.hasLink 2 = false)) ∧
    (∃ m', Memory.rehearsalMerge (mergeEnv false false)
        (tripleMemory [lineLink 1 3 LinkType.kGlobalClosure (some 2)]
          [lineLink 2 3 LinkType.kNeighbor (some 1)]
          [lineLink 3 1 LinkType.kGlobalClosure (some (-2)),
            lineLink 3 2 LinkType.kNeighbor (some (-1))]) 2 3 = Except.ok (true, m') ∧
      m'._getSignature 3 = none ∧
      (∃ s2, m'._getSignature 2 = some s2 ∧ s2.hasLink 1 = false) ∧
      (∃ s1, m'._getSignature 1 = some s1 ∧ s1.hasLink 3 = false ∧ s1.hasLink 2 = false)) :=
  ⟨⟨_, rfl, rfl, ⟨_, rfl, rfl⟩, ⟨_, rfl, rfl, rfl⟩⟩, ⟨_, rfl, rfl, ⟨_, rfl, rfl⟩, ⟨_, rfl, rfl, rfl⟩⟩⟩

section LinkTo

variable {T I : Type}

theorem Memory.linkTo_modify_removeLink (m : Memory T I) (k b j y : Int) (hy : y ≠ b) :
    (m.modifySignature k (fun p => p.removeLink b)).linkTo j y = m.linkTo j y := by
  unfold Memory.linkTo
  rw [Memory.linksOf_modify_removeLink]
  unfold tableModify
  split
  · cases m.linksOf j with
    | none => rfl
    | some ls => simp [kfind_kerase, hy]
  · rfl

theorem Memory.linkTo_modify_removeLink_self (m : Memory T I) (k b : Int) :
    (m.modifySignature k (fun p => p.removeLink b)).linkTo k b =
      (m.linkTo k b).map (fun _ => none) := by
  unfold Memory.linkTo
  rw [Memory.linksOf_modify_removeLink, tableModify_self]
  cases m.linksOf k with
  | none => rfl
  | some ls => simp [kfind_kerase]

theorem Memory.linkTo_modify_addLink_ne (m : Memory T I) (k : Int) (l : Link T I) (j y : Int)
    (h : ¬ (k = j ∧ l.to_ = y)) :
    (m.modifySignature k (fun p => p.addLink l)).linkTo j y = m.linkTo j y := by
  unfold Memory.linkTo
  rw [Memory.linksOf_modify_addLink]
  unfold tableModify
  split
  · rename_i hjk
    have hly : ¬ y = l.to_ := fun h' => h ⟨hjk.symm, h'.symm⟩
    cases m.linksOf j with
    | none => rfl
    | some ls =>
      simp only [Option.map_some', Option.some.injEq]
      rw [kfind_kinsert, if_neg hly]
      split <;> rfl
  · rfl

theorem Memory.linkTo_modify_addLink_hit (m : Memory T I) (l : Link T I) (j : Int) :
    (m.modifySignature j (fun p => p.addLink l)).linkTo j l.to_ =
      (m.linkTo j l.to_).map (fun o =>
        match o with
        | some v => some v
        | none => some l) := by
  unfold Memory.linkTo
  rw [Memory.linksOf_modify_addLink, tableModify_self]
  cases m.linksOf j with
  | none => rfl
  | some ls =>
    simp only [Option.map_some', Option.some.injEq]
    rw [kfind_kinsert]
    unfold khas
    cases kfind Link.to_ ls l.to_ <;> simp

theorem Memory.linkTo_modify_addLink_keep (m : Memory T I) (k : Int) (l : Link T I) (j y : Int)
    (v : Link T I) (h : m.linkTo j y = some (some v)) :
    (m.modifySignature k (fun p => p.addLink l)).linkTo j y = some (some v) := by
  by_cases hc : k = j ∧ l.to_ = y
  · obtain ⟨rfl, rfl⟩ := hc
    rw [Memory.linkTo_modify_addLink_hit, h]
    rfl
  · rw [Memory.linkTo_modify_addLink_ne m k l j y hc]
    exact h

theorem Memory.linkTo_eq_some_none {m : Memory T I} {j y : Int} {s : Signature T I}
    (hs : m._getSignature j = some s) :
    m.linkTo j y = some none ↔ s.hasLink y = false := by
  unfold Memory.linkTo
  rw [Memory.linksOf_of_getSignature hs]
  unfold Signature.hasLink khas
  simp only [Option.map_some', Option.some.injEq]
  cases kfind Link.to_ s.links y <;> simp

theorem Memory.linkTo_of_getSignature {m : Memory T I} {j y : Int} {s : Signature T I}
    (hs : m._getSignature j = some s) :
    m.linkTo j y = some (kfind Link.to_ s.links y) := by
  unfold Memory.linkTo
  rw [Memory.linksOf_of_getSignature hs]
  rfl

end LinkTo
section ReduceSteps

variable {T I : Type}

theorem Memory.reduceLinkNeighbors_cons (e : Env T I) (P : Int) (iter n : Link T I)
    (rest : List (Link T I)) (m m' : Memory T I)
    (h : Memory.reduceLinkNeighbors e P iter (n :: rest) m = Except.ok m') :
    ∃ sTo, m._getSignature P = some sTo ∧
      ((sTo.hasLink n.to_ = true ∧ Memory.reduceLinkNeighbors e P iter rest m = Except.ok m') ∨
       (sTo.hasLink n.to_ = false ∧
        ∃ sB, (m.modifySignature P (fun s => s.addLink (Memory.reducedLink e iter n)))._getSignature
            n.to_ = some sB ∧
          Memory.reduceLinkNeighbors e P iter rest
            ((m.modifySignature P (fun s => s.addLink (Memory.reducedLink e iter n))).modifySignature
              n.to_ (fun s => s.addLink ((Memory.reducedLink e iter n).inverse e.geo))) =
                Except.ok m')) := by
  unfold Memory.reduceLinkNeighbors at h
  obtain ⟨sTo, hd, h⟩ := bind_eq_ok.1 h
  refine ⟨sTo, Memory.deref_eq_ok.1 hd, ?_⟩
  cases hl : sTo.hasLink n.to_ with
  | true =>
    left
    rw [hl] at h
    exact ⟨rfl, h⟩
  | false =>
    right
    rw [hl] at h
    simp only [Bool.not_false, if_true] at h
    refine ⟨rfl, ?_⟩
    have hto : (Memory.reducedLink e iter n).to_ = n.to_ := rfl
    cases hb : (m.modifySignature P (fun s => s.addLink (Memory.reducedLink e iter n)))._getSignature
        n.to_ with
    | none =>
      exfalso
      unfold Memory.reducedLink at hb
      simp only [Link.merge] at hb h
      rw [hb] at h
      cases h
    | some sB =>
      refine ⟨sB, rfl, ?_⟩
      unfold Memory.reducedLink at hb ⊢
      simp only [Link.merge] at hb h ⊢
      rw [hb] at h
      simp only [] at h
      obtain ⟨_, _, h⟩ := bind_eq_ok.1 h
      have hid := Memory.getSignature_id hb
      rw [hid] at h
      exact h

theorem Memory.reduceLinks_cons (e : Env T I) (sId : Int) (ns : List (Link T I))
    (iter : Link T I) (rest : List (Link T I)) (m m' : Memory T I)
    (h : Memory.reduceLinks e sId ns (iter :: rest) m = Except.ok m') :
    ∃ sTo m1, m._getSignature iter.to_ = some sTo ∧
      (if iter.type != LinkType.kNeighbor && iter.type != LinkType.kNeighborMerged &&
          iter.type != LinkType.kUndef then
        Memory.reduceLinkNeighbors e iter.to_ iter ns
          (m.modifySignature iter.to_ (fun p => p.removeLink sId)) = Except.ok m1
       else m1 = m.modifySignature iter.to_ (fun p => p.removeLink sId)) ∧
      Memory.reduceLinks e sId ns rest m1 = Except.ok m' := by
  unfold Memory.reduceLinks at h
  cases hs : m._getSignature iter.to_ with
  | none =>
    rw [hs] at h
    cases h
  | some sTo =>
    rw [hs] at h
    simp only [] at h
    have hid := Memory.getSignature_id hs
    rw [hid] at h
    by_cases hc : (iter.type != LinkType.kNeighbor && iter.type != LinkType.kNeighborMerged &&
        iter.type != LinkType.kUndef) = true
    · rw [if_pos hc] at h
      obtain ⟨m1, h1, h⟩ := bind_eq_ok.1 h
      refine ⟨sTo, m1, rfl, ?_, h⟩
      rw [if_pos hc]
      exact h1
    · rw [if_neg hc] at h
      obtain ⟨m1, h1, h⟩ := bind_eq_ok.1 h
      refine ⟨sTo, m1, rfl, ?_, h⟩
      rw [if_neg hc]
      injection h1 with h1
      exact h1.symm

end ReduceSteps
section ReduceLoops

variable {T I : Type}

theorem Memory.reduceLinkNeighbors_nil (e : Env T I) (P : Int) (iter : Link T I)
    (m m' : Memory T I) (h : Memory.reduceLinkNeighbors e P iter [] m = Except.ok m') :
    m' = m := by
  unfold Memory.reduceLinkNeighbors at h
  injection h with h
  exact h.symm

/-- A link entry that no round of the inner loop of the graph reduction
addresses is left as it is. -/
theorem Memory.linkTo_reduceLinkNeighbors_miss (e : Env T I) (iter : Link T I)
    (ns : List (Link T I)) (m m' : Memory T I)
    (h : Memory.reduceLinkNeighbors e iter.to_ iter ns m = Except.ok m') (j y : Int)
    (hmiss : ∀ n ∈ ns, ¬ (iter.to_ = j ∧ n.to_ = y) ∧ ¬ (n.to_ = j ∧ iter.to_ = y)) :
    m'.linkTo j y = m.linkTo j y := by
  induction ns generalizing m with
  | nil => rw [Memory.reduceLinkNeighbors_nil e _ iter m m' h]
  | cons n rest ih =>
    have hrest : ∀ n ∈ rest, ¬ (iter.to_ = j ∧ n.to_ = y) ∧ ¬ (n.to_ = j ∧ iter.to_ = y) :=
      fun k hk => hmiss k (List.mem_cons_of_mem _ hk)
    obtain ⟨sTo, _, hc⟩ := Memory.reduceLinkNeighbors_cons e iter.to_ iter n rest m m' h
    rcases hc with ⟨_, hr⟩ | ⟨_, sB, _, hr⟩
    · exact ih m hr hrest
    · rw [ih _ hr hrest,
        Memory.linkTo_modify_addLink_ne _ n.to_ ((Memory.reducedLink e iter n).inverse e.geo) j y
          (hmiss n (List.mem_cons_self _ _)).2,
        Memory.linkTo_modify_addLink_ne _ iter.to_ (Memory.reducedLink e iter n) j y
          (hmiss n (List.mem_cons_self _ _)).1]

/-- A link a signature stores is not replaced by the inner loop of the graph
reduction. -/
theorem Memory.linkTo_reduceLinkNeighbors_keep (e : Env T I) (P : Int) (iter : Link T I)
    (ns : List (Link T I)) (m m' : Memory T I)
    (h : Memory.reduceLinkNeighbors e P iter ns m = Except.ok m') (j y : Int) (v : Link T I)
    (hv : m.linkTo j y = some (some v)) : m'.linkTo j y = some (some v) := by
  induction ns generalizing m with
  | nil =>
    rw [Memory.reduceLinkNeighbors_nil e _ iter m m' h]
    exact hv
  | cons n rest ih =>
    obtain ⟨sTo, _, hc⟩ := Memory.reduceLinkNeighbors_cons e P iter n rest m m' h
    rcases hc with ⟨_, hr⟩ | ⟨_, sB, _, hr⟩
    · exact ih m hr hv
    · exact ih _ hr (Memory.linkTo_modify_addLink_keep _ _ _ j y v
        (Memory.linkTo_modify_addLink_keep _ _ _ j y v hv))

/-- The round of the inner loop of the graph reduction for the peer over `la`
and the neighbor over `lx` links the two to each other when they were not
linked. -/
theorem Memory.linkTo_reduceLinkNeighbors_hit (e : Env T I) (la lx : Link T I)
    (ns : List (Link T I)) (m m' : Memory T I)
    (h : Memory.reduceLinkNeighbors e la.to_ la ns m = Except.ok m')
    (hne : la.to_ ≠ lx.to_) (hlx : lx ∈ ns) (huniq : ∀ n ∈ ns, n.to_ = lx.to_ → n = lx)
    (hna : ∀ n ∈ ns, n.to_ ≠ la.to_)
    (hax : m.linkTo la.to_ lx.to_ = some none) (hxa : m.linkTo lx.to_ la.to_ = some none) :
    m'.linkTo la.to_ lx.to_ = some (some (Memory.reducedLink e la lx)) ∧
    m'.linkTo lx.to_ la.to_ = some (some ((Memory.reducedLink e la lx).inverse e.geo)) := by
  induction ns generalizing m with
  | nil => cases hlx
  | cons n rest ih =>
    obtain ⟨sTo, hsTo, hc⟩ := Memory.reduceLinkNeighbors_cons e la.to_ la n rest m m' h
    have huniq' : ∀ k ∈ rest, k.to_ = lx.to_ → k = lx :=
      fun k hk => huniq k (List.mem_cons_of_mem _ hk)
    have hna' : ∀ k ∈ rest, k.to_ ≠ la.to_ := fun k hk => hna k (List.mem_cons_of_mem _ hk)
    by_cases hn : n.to_ = lx.to_
    · have hnl : n = lx := huniq n (List.mem_cons_self _ _) hn
      subst hnl
      have hno : sTo.hasLink n.to_ = false := (Memory.linkTo_eq_some_none hsTo).1 hax
      rcases hc with ⟨ht, _⟩ | ⟨_, sB, _, hr⟩
      · rw [hno] at ht
        cases ht
      · have h1 : ((m.modifySignature la.to_
            (fun s => s.addLink (Memory.reducedLink e la n))).modifySignature n.to_
            (fun s => s.addLink ((Memory.reducedLink e la n).inverse e.geo))).linkTo la.to_ n.to_ =
              some (some (Memory.reducedLink e la n)) := by
          rw [Memory.linkTo_modify_addLink_ne _ n.to_
            ((Memory.reducedLink e la n).inverse e.geo) la.to_ n.to_ (fun hh => hne hh.1.symm)]
          have := Memory.linkTo_modify_addLink_hit m (Memory.reducedLink e la n) la.to_
          rw [show (Memory.reducedLink e la n).to_ = n.to_ from rfl, hax] at this
          exact this
        have h2 : ((m.modifySignature la.to_
            (fun s => s.addLink (Memory.reducedLink e la n))).modifySignature n.to_
            (fun s => s.addLink ((Memory.reducedLink e la n).inverse e.geo))).linkTo n.to_ la.to_ =
              some (some ((Memory.reducedLink e la n).inverse e.geo)) := by
          have := Memory.linkTo_modify_addLink_hit
            (m.modifySignature la.to_ (fun s => s.addLink (Memory.reducedLink e la n)))
            ((Memory.reducedLink e la n).inverse e.geo) n.to_
          rw [show ((Memory.reducedLink e la n).inverse e.geo).to_ = la.to_ from rfl,
            Memory.linkTo_modify_addLink_ne _ la.to_ (Memory.reducedLink e la n) n.to_ la.to_
              (fun hh => hne hh.1),
            hxa] at this
          exact this
        exact ⟨Memory.linkTo_reduceLinkNeighbors_keep e _ la rest _ m' hr _ _ _ h1,
          Memory.linkTo_reduceLinkNeighbors_keep e _ la rest _ m' hr _ _ _ h2⟩
    · have hlx' : lx ∈ rest := by
        rcases List.mem_cons.1 hlx with hh | hh
        · exact absurd (hh ▸ rfl) hn
        · exact hh
      have hnA : n.to_ ≠ la.to_ := hna n (List.mem_cons_self _ _)
      rcases hc with ⟨_, hr⟩ | ⟨_, sB, _, hr⟩
      · exact ih m hr hlx' huniq' hna' hax hxa
      · refine ih _ hr hlx' huniq' hna' ?_ ?_
        · rw [Memory.linkTo_modify_addLink_ne _ n.to_
              ((Memory.reducedLink e la n).inverse e.geo) la.to_ lx.to_ (fun hh => hnA hh.1),
            Memory.linkTo_modify_addLink_ne _ la.to_ (Memory.reducedLink e la n) la.to_ lx.to_
              (fun hh => hn hh.2)]
          exact hax
        · rw [Memory.linkTo_modify_addLink_ne _ n.to_
              ((Memory.reducedLink e la n).inverse e.geo) lx.to_ la.to_ (fun hh => hn hh.1),
            Memory.linkTo_modify_addLink_ne _ la.to_ (Memory.reducedLink e la n) lx.to_ la.to_
              (fun hh => hne hh.1)]
          exact hxa

end ReduceLoops
section ReduceOuter

variable {T I : Type}

theorem Memory.reduceLinks_nil (e : Env T I) (sId : Int) (ns : List (Link T I))
    (m m' : Memory T I) (h : Memory.reduceLinks e sId ns [] m = Except.ok m') : m' = m := by
  unfold Memory.reduceLinks at h
  injection h with h
  exact h.symm

theorem Memory.linkTo_modify_of_ne (m : Memory T I) (k : Int) (F : Signature T I → Signature T I)
    (hid : ∀ a, (F a).id = a.id) (j y : Int) (hj : j ≠ k) :
    (m.modifySignature k F).linkTo j y = m.linkTo j y := by
  unfold Memory.linkTo Memory.linksOf
  rw [Memory.getSignature_modify_ne m F hid hj]

/-- A link a signature stores under an id other than the reduced node is not
replaced by the outer loop of the graph reduction. -/
theorem Memory.linkTo_reduceLinks_keep (e : Env T I) (sId : Int) (ns iters : List (Link T I))
    (m m' : Memory T I) (h : Memory.reduceLinks e sId ns iters m = Except.ok m') (j y : Int)
    (hy : y ≠ sId) (v : Link T I) (hv : m.linkTo j y = some (some v)) :
    m'.linkTo j y = some (some v) := by
  induction iters generalizing m with
  | nil =>
    rw [Memory.reduceLinks_nil e sId ns m m' h]
    exact hv
  | cons iter rest ih =>
    obtain ⟨sTo, m1, _, h1, hr⟩ := Memory.reduceLinks_cons e sId ns iter rest m m' h
    refine ih m1 hr ?_
    have h0 : (m.modifySignature iter.to_ (fun p => p.removeLink sId)).linkTo j y =
        some (some v) := by
      rw [Memory.linkTo_modify_removeLink m iter.to_ sId j y hy]
      exact hv
    split at h1
    · exact Memory.linkTo_reduceLinkNeighbors_keep e _ iter ns _ m1 h1 j y v h0
    · rw [h1]
      exact h0

/-- The outer loop of the graph reduction links the peer over the closure link
`la` and the neighbor over `lx` to each other when they were not linked. -/
theorem Memory.linkTo_reduceLinks_hit (e : Env T I) (sId : Int) (la lx : Link T I)
    (ns iters : List (Link T I)) (m m' : Memory T I)
    (h : Memory.reduceLinks e sId ns iters m = Except.ok m')
    (hla : la ∈ iters) (hauniq : ∀ it ∈ iters, it.to_ = la.to_ → it = la)
    (hty : (la.type != LinkType.kNeighbor && la.type != LinkType.kNeighborMerged &&
      la.type != LinkType.kUndef) = true)
    (hne : la.to_ ≠ lx.to_) (has : la.to_ ≠ sId) (hxs : lx.to_ ≠ sId)
    (hlx : lx ∈ ns) (huniq : ∀ n ∈ ns, n.to_ = lx.to_ → n = lx)
    (hna : ∀ n ∈ ns, n.to_ ≠ la.to_)
    (hax : m.linkTo la.to_ lx.to_ = some none) (hxa : m.linkTo lx.to_ la.to_ = some none) :
    m'.linkTo la.to_ lx.to_ = some (some (Memory.reducedLink e la lx)) ∧
    m'.linkTo lx.to_ la.to_ = some (some ((Memory.reducedLink e la lx).inverse e.geo)) := by
  induction iters generalizing m with
  | nil => cases hla
  | cons iter rest ih =>
    obtain ⟨sTo, m1, _, h1, hr⟩ := Memory.reduceLinks_cons e sId ns iter rest m m' h
    have hax0 : (m.modifySignature iter.to_ (fun p => p.removeLink sId)).linkTo la.to_ lx.to_ =
        some none := by
      rw [Memory.linkTo_modify_removeLink m iter.to_ sId _ _ hxs]
      exact hax
    have hxa0 : (m.modifySignature iter.to_ (fun p => p.removeLink sId)).linkTo lx.to_ la.to_ =
        some none := by
      rw [Memory.linkTo_modify_removeLink m iter.to_ sId _ _ has]
      exact hxa
    by_cases hit : iter.to_ = la.to_
    · have hil : iter = la := hauniq iter (List.mem_cons_self _ _) hit
      subst hil
      rw [if_pos hty] at h1
      obtain ⟨k1, k2⟩ := Memory.linkTo_reduceLinkNeighbors_hit e iter lx ns _ m1 h1 hne hlx huniq
        hna hax0 hxa0
      exact ⟨Memory.linkTo_reduceLinks_keep e sId ns rest m1 m' hr _ _ hxs _ k1,
        Memory.linkTo_reduceLinks_keep e sId ns rest m1 m' hr _ _ has _ k2⟩
    · have hla' : la ∈ rest := by
        rcases List.mem_cons.1 hla with hh | hh
        · exact absurd (hh ▸ rfl) hit
        · exact hh
      refine ih m1 hr hla' (fun it hi => hauniq it (List.mem_cons_of_mem _ hi)) ?_ ?_
      · split at h1
        · rw [Memory.linkTo_reduceLinkNeighbors_miss e iter ns _ m1 h1 la.to_ lx.to_
            (fun n hn => ⟨fun hh => hit hh.1, fun hh => hna n hn hh.1⟩)]
          exact hax0
        · rw [h1]
          exact hax0
      · split at h1
        · rw [Memory.linkTo_reduceLinkNeighbors_miss e iter ns _ m1 h1 lx.to_ la.to_
            (fun n hn => ⟨fun hh => hna n hn hh.2, fun hh => hit hh.2⟩)]
          exact hxa0
        · rw [h1]
          exact hxa0

/-- The outer loop of the graph reduction gives no signature a link to the
reduced node and takes that link from every peer. -/
theorem Memory.linkTo_reduceLinks_reduced (e : Env T I) (sId : Int) (ns iters : List (Link T I))
    (m m' : Memory T I) (h : Memory.reduceLinks e sId ns iters m = Except.ok m')
    (hns : ∀ n ∈ ns, n.to_ ≠ sId) (his : ∀ it ∈ iters, it.to_ ≠ sId) (j : Int)
    (hj : (∀ v, m.linkTo j sId ≠ some (some v)) ∨ ∃ it ∈ iters, it.to_ = j) :
    ∀ v, m'.linkTo j sId ≠ some (some v) := by
  induction iters generalizing m with
  | nil =>
    rw [Memory.reduceLinks_nil e sId ns m m' h]
    rcases hj with hj | ⟨it, hi, _⟩
    · exact hj
    · cases hi
  | cons iter rest ih =>
    obtain ⟨sTo, m1, _, h1, hr⟩ := Memory.reduceLinks_cons e sId ns iter rest m m' h
    have his' : ∀ it ∈ rest, it.to_ ≠ sId := fun it hi => his it (List.mem_cons_of_mem _ hi)
    have hm1 : m1.linkTo j sId =
        (m.modifySignature iter.to_ (fun p => p.removeLink sId)).linkTo j sId := by
      split at h1
      · exact Memory.linkTo_reduceLinkNeighbors_miss e iter ns _ m1 h1 j sId
          (fun n hn => ⟨fun hh => hns n hn hh.2,
            fun hh => his iter (List.mem_cons_self _ _) hh.2⟩)
      · rw [h1]
    by_cases hij : iter.to_ = j
    · refine ih m1 hr his' (Or.inl ?_)
      intro v hv
      rw [hm1, ← hij, Memory.linkTo_modify_removeLink_self] at hv
      cases hq : m.linkTo iter.to_ sId with
      | none =>
        rw [hq] at hv
        cases hv
      | some o =>
        rw [hq] at hv
        injection hv with hv
        cases hv
    · refine ih m1 hr his' ?_
      rcases hj with hj | ⟨it, hi, hitj⟩
      · left
        intro v hv
        rw [hm1, Memory.linkTo_modify_of_ne m iter.to_ (fun p => p.removeLink sId)
          (fun _ => rfl) j sId (fun hh => hij hh.symm)] at hv
        exact hj v hv
      · right
        rcases List.mem_cons.1 hi with hh | hh
        · rw [hh] at hitj
          exact absurd hitj hij
        · exact ⟨it, hh, hitj⟩

end ReduceOuter

section ReduceFinal

variable {T I : Type}

theorem Memory.linksOf_reduceDropNeighbors_ne (sId : Int) (links : List (Link T I))
    (m : Memory T I) (j : Int) (hj : j ≠ sId) :
    (Memory.reduceDropNeighbors sId links m).linksOf j = m.linksOf j := by
  induction links generalizing m with
  | nil => rfl
  | cons iter rest ih =>
    unfold Memory.reduceDropNeighbors
    split
    · rw [ih]
      have h0 : (m.modifySignature sId (fun s => s.removeLink iter.to_)).linksOf j =
          m.linksOf j := by
        rw [Memory.linksOf_modify_removeLink, tableModify_ne _ _ hj]
      split
      · exact h0
      · exact h0
    · exact ih m

theorem Memory.linkTo_moveToTrash (e : Env T I) (m m' : Memory T I) (sId : Int) ( keep : Bool)
    (h : Memory.moveToTrash e m sId keep = Except.ok m') (j y : Int) (hj : j ≠ sId)
    (hy : y ≠ sId) : m'.linkTo j y = m.linkTo j y := by
  unfold Memory.linkTo
  rcases Memory.linksOf_moveToTrash e m m' sId keep h j hj with hc | hc
  · rw [hc]
  · rw [hc]
    cases m.linksOf j with
    | none => rfl
    | some ls => simp [kfind_kerase, hy]

theorem Memory.linkTo_moveToTrash_reduced (e : Env T I) (m m' : Memory T I) (sId : Int)
    ( keep : Bool) (h : Memory.moveToTrash e m sId keep = Except.ok m') (j : Int) (hj : j ≠ sId)
    (hno : ∀ v, m.linkTo j sId ≠ some (some v)) : ∀ v, m'.linkTo j sId ≠ some (some v) := by
  intro v hv
  unfold Memory.linkTo at hv hno
  rcases Memory.linksOf_moveToTrash e m m' sId keep h j hj with hc | hc
  · rw [hc] at hv
    exact hno v hv
  · rw [hc] at hv
    cases hl : m.linksOf j with
    | none =>
      rw [hl] at hv
      cases hv
    | some ls =>
      rw [hl] at hv
      simp [kfind_kerase] at hv

theorem eq_of_mem_of_key_eq {α : Type} (key : α → Int) {l : List α} (hnd : (l.map key).Nodup)
    {a b : α} (ha : a ∈ l) (hb : b ∈ l) (hk : key a = key b) : a = b := by
  have h1 := kfind_of_mem_nodup key hnd ha
  have h2 := kfind_of_mem_nodup key hnd hb
  rw [hk, h2] at h1
  injection h1 with h1
  exact h1.symm

end ReduceFinal
/-- Claim C28, amended: when graph reduction collapses the node B of the STM
(no label, links forming a map without a link to B itself, every signature in
memory that stores a link to B being a peer of B) and
`moveSignatureToWMFromSTM` returns, then for a target A that B reduces to (a
lower id joined by a link that is not a neighbor, merged neighbor, undefined or
virtual link and carries no user data) and every peer X that B is linked to by
a Neighbor link and that was not linked with A: afterwards A stores under X a
link of type NeighborMerged whose transform is the composition of the inverse
of the B->A transform and the B->X transform, X stores the inverse of that
link under A, no signature in memory stores a link to B, and B is not in
memory. -/
theorem moveSignatureToWMFromSTM_relinks_neighbors {T I : Type} (e : Env T I)
    (m : Memory T I) (B reducedTo : Int) (now : Rat) (s : Signature T I)
    (r : Memory T I × Int) (la lx : Link T I) (aS xS : Signature T I)
    (hred : e.reduceGraph = true) (hs : m._getSignature B = some s) (hlab : s.label = "")
    (hla : la ∈ s.links) (hlar : Memory.isReductionLink B la = true)
    (hlx : lx ∈ s.links) (hlxt : lx.type = LinkType.kNeighbor)
    (hnd : (s.links.map Link.to_).Nodup) (hself : s.hasLink B = false)
    (ha : m._getSignature la.to_ = some aS) (hx : m._getSignature lx.to_ = some xS)
    (hax : aS.hasLink lx.to_ = false) (hxa : xS.hasLink la.to_ = false)
    (hsym : ∀ j p, m._getSignature j = some p → p.hasLink B = true → s.hasLink j = true)
    (h : Memory.moveSignatureToWMFromSTM e m B reducedTo now = Except.ok r) :
    r.1._getSignature B = none ∧
    (∀ j p, r.1._getSignature j = some p → p.hasLink B = false) ∧
    ∃ aS' xS', r.1._getSignature la.to_ = some aS' ∧ r.1._getSignature lx.to_ = some xS' ∧
      kfind Link.to_ aS'.links lx.to_ = some (Memory.reducedLink e la lx) ∧
      kfind Link.to_ xS'.links la.to_ = some ((Memory.reducedLink e la lx).inverse e.geo) ∧
      (Memory.reducedLink e la lx).type = LinkType.kNeighborMerged ∧
      (Memory.reducedLink e la lx).transform =
        e.geo.mul (e.geo.inverse la.transform) lx.transform := by
  have hid : s.id = B := Memory.getSignature_id hs
  have hlar' := hlar
  simp only [Memory.isReductionLink, Bool.and_eq_true, decide_eq_true_eq, bne_iff_ne, ne_eq,
    List.isEmpty_iff] at hlar'
  obtain ⟨⟨⟨⟨⟨hlt, htn⟩, htm⟩, hud⟩, htu⟩, htv⟩ := hlar'
  have hnoself : ∀ l ∈ s.links, l.to_ ≠ B := by
    unfold Signature.hasLink at hself
    exact (khas_false_iff Link.to_).1 hself
  have has : la.to_ ≠ B := ne_of_lt hlt
  have hxs : lx.to_ ≠ B := hnoself lx hlx
  have hlalx : la ≠ lx := by
    intro hh
    rw [hh] at htn
    exact htn hlxt
  have hne : la.to_ ≠ lx.to_ := fun hh => hlalx (eq_of_mem_of_key_eq Link.to_ hnd hla hlx hh)
  have hty : (la.type != LinkType.kNeighbor && la.type != LinkType.kNeighborMerged &&
      la.type != LinkType.kUndef) = true := by
    simp [htn, htm, htu]
  have hcond : (e.reduceGraph && (s.links.find? (Memory.isReductionLink s.id)).isSome &&
      s.label.length == 0) = true := by
    rw [hred, hid, hlab]
    simp only [Bool.true_and, Bool.and_eq_true, List.find?_isSome]
    exact ⟨⟨la, hla, hlar⟩, rfl⟩
  have hnode : Memory.reduceNode e m s = Except.ok r.1 := by
    rcases Memory.moveSignatureToWMFromSTM_cases e m B reducedTo now s r hs h with
      ⟨_, hn, _⟩ | ⟨hc, _⟩
    · exact hn
    · rw [hcond] at hc
      cases hc
  have habs : r.1._getSignature B = none := by
    have := (Memory.trashed_absent (Memory.reduceNode_trashed e m r.1 s hnode)).2.2
    rw [hid] at this
    exact this
  unfold Memory.reduceNode at hnode
  rw [hid] at hnode
  obtain ⟨m1, h1, hnode⟩ := bind_eq_ok.1 hnode
  obtain ⟨s1, _, htrash⟩ := bind_eq_ok.1 hnode
  have hdrop : ∀ j y, j ≠ B →
      (Memory.reduceDropNeighbors B s1.links m1).linkTo j y = m1.linkTo j y := by
    intro j y hj
    unfold Memory.linkTo
    rw [Memory.linksOf_reduceDropNeighbors_ne B s1.links m1 j hj]
  have hmemns : ∀ n ∈ s.links.filter (fun l => l.type == LinkType.kNeighbor),
      n ∈ s.links ∧ n.type = LinkType.kNeighbor := by
    intro n hn
    have := List.mem_filter.1 hn
    exact ⟨this.1, by simpa using this.2⟩
  refine ⟨habs, ?_, ?_⟩
  · intro j p hj
    have hjB : j ≠ B := by
      intro hh
      rw [hh, habs] at hj
      cases hj
    have hno1 : ∀ v, m1.linkTo j B ≠ some (some v) := by
      refine Memory.linkTo_reduceLinks_reduced e B _ s.links m m1 h1
        (fun n hn => hnoself n (hmemns n hn).1) hnoself j ?_
      cases hsj : s.hasLink j with
      | true =>
        right
        unfold Signature.hasLink at hsj
        exact (khas_iff Link.to_).1 hsj
      | false =>
        left
        intro v hv
        cases hq : m._getSignature j with
        | none =>
          unfold Memory.linkTo Memory.linksOf at hv
          rw [hq] at hv
          cases hv
        | some q =>
          rw [Memory.linkTo_of_getSignature hq] at hv
          injection hv with hv
          have hqB : q.hasLink B = true := by
            unfold Signature.hasLink khas
            rw [hv]
            rfl
          rw [hsym j q hq hqB] at hsj
          cases hsj
    have hno2 := Memory.linkTo_moveToTrash_reduced e _ r.1 B _ htrash j hjB (by
      intro v
      rw [hdrop j B hjB]
      exact hno1 v)
    rw [Memory.linkTo_of_getSignature hj] at hno2
    unfold Signature.hasLink khas
    cases hk : kfind Link.to_ p.links B with
    | none => rfl
    | some v =>
      exfalso
      exact hno2 v (by rw [hk])
  · obtain ⟨k1, k2⟩ := Memory.linkTo_reduceLinks_hit e B la lx _ s.links m m1 h1 hla
      (fun it hi hh => eq_of_mem_of_key_eq Link.to_ hnd hi hla hh) hty hne has hxs
      (List.mem_filter.2 ⟨hlx, by simp [hlxt]⟩)
      (fun n hn hh => eq_of_mem_of_key_eq Link.to_ hnd (hmemns n hn).1 hlx hh)
      (fun n hn hh => by
        have := eq_of_mem_of_key_eq Link.to_ hnd (hmemns n hn).1 hla hh
        rw [this] at hn
        exact htn (hmemns la hn).2)
      ((Memory.linkTo_eq_some_none ha).2 hax) ((Memory.linkTo_eq_some_none hx).2 hxa)
    have f1 : r.1.linkTo la.to_ lx.to_ = some (some (Memory.reducedLink e la lx)) := by
      rw [Memory.linkTo_moveToTrash e _ r.1 B _ htrash _ _ has hxs, hdrop _ _ has]
      exact k1
    have f2 : r.1.linkTo lx.to_ la.to_ =
        some (some ((Memory.reducedLink e la lx).inverse e.geo)) := by
      rw [Memory.linkTo_moveToTrash e _ r.1 B _ htrash _ _ hxs has, hdrop _ _ hxs]
      exact k2
    cases hA : r.1._getSignature la.to_ with
    | none =>
      unfold Memory.linkTo Memory.linksOf at f1
      rw [hA] at f1
      cases f1
    | some aS' =>
      cases hX : r.1._getSignature lx.to_ with
      | none =>
        unfold Memory.linkTo Memory.linksOf at f2
        rw [hX] at f2
        cases f2
      | some xS' =>
        rw [Memory.linkTo_of_getSignature hA] at f1
        rw [Memory.linkTo_of_getSignature hX] at f2
        injection f1 with f1
        injection f2 with f2
        refine ⟨aS', xS', rfl, rfl, f1, f2, ?_, rfl⟩
        unfold Memory.reducedLink Link.merge
        simp [hud, htv]
theorem moveSignatureToWMFromSTM_relinks_neighbors_witness :
    ∃ r, Memory.moveSignatureToWMFromSTM (lineEnv true true 1)
        (reductionMemory "" LinkType.kGlobalClosure) 2 0 5 = Except.ok r ∧
      r.1._getSignature 2 = none ∧
      (∀ j p, r.1._getSignature j = some p → p.hasLink 2 = false) ∧
      ∃ aS' xS',
        r.1._getSignature (lineLink 2 1 LinkType.kGlobalClosure (some (-1))).to_ = some aS' ∧
        r.1._getSignature (lineLink 2 3 LinkType.kNeighbor (some 1)).to_ = some xS' ∧
        kfind Link.to_ aS'.links (lineLink 2 3 LinkType.kNeighbor (some 1)).to_ =
          some (Memory.reducedLink (lineEnv true true 1)
            (lineLink 2 1 LinkType.kGlobalClosure (some (-1)))
            (lineLink 2 3 LinkType.kNeighbor (some 1))) ∧
        kfind Link.to_ xS'.links (lineLink 2 1 LinkType.kGlobalClosure (some (-1))).to_ =
          some ((Memory.reducedLink (lineEnv true true 1)
            (lineLink 2 1 LinkType.kGlobalClosure (some (-1)))
            (lineLink 2 3 LinkType.kNeighbor (some 1))).inverse (lineEnv true true 1).geo) ∧
        (Memory.reducedLink (lineEnv true true 1)
          (lineLink 2 1 LinkType.kGlobalClosure (some (-1)))
          (lineLink 2 3 LinkType.kNeighbor (some 1))).type = LinkType.kNeighborMerged ∧
        (Memory.reducedLink (lineEnv true true 1)
          (lineLink 2 1 LinkType.kGlobalClosure (some (-1)))
          (lineLink 2 3 LinkType.kNeighbor (some 1))).transform =
            (lineEnv true true 1).geo.mul
              ((lineEnv true true 1).geo.inverse
                (lineLink 2 1 LinkType.kGlobalClosure (some (-1))).transform)
              (lineLink 2 3 LinkType.kNeighbor (some 1)).transform :=
  ⟨_, rfl, moveSignatureToWMFromSTM_relinks_neighbors (lineEnv true true 1)
    (reductionMemory "" LinkType.kGlobalClosure) 2 0 5
    { lineSignature 2 0 (some 1)
        [lineLink 2 1 LinkType.kGlobalClosure (some (-1)),
          lineLink 2 3 LinkType.kNeighbor (some 1)] with label := "" }
    _ (lineLink 2 1 LinkType.kGlobalClosure (some (-1)))
    (lineLink 2 3 LinkType.kNeighbor (some 1))
    (lineSignature 1 0 (some 0) [lineLink 1 2 LinkType.kGlobalClosure (some 1)])
    (lineSignature 3 0 (some 2) [lineLink 3 2 LinkType.kNeighbor (some (-1))])
    rfl rfl rfl (by decide) rfl (by decide) rfl (by decide) rfl rfl rfl rfl rfl
    (fun j p hj hl => by
      have hm := kfind_mem Signature.id hj
      have hid := kfind_key Signature.id hj
      rw [← hid]
      rcases List.mem_cons.1 hm with rfl | hm
      · rfl
      · rcases List.mem_cons.1 hm with rfl | hm
        · exact absurd hl (by decide)
        · rw [List.mem_singleton.1 hm]
          rfl)
    rfl⟩

/-- Claim C28 fails as stated: node 3 of the STM has a global loop closure to
the older node 1 and a merged neighbor link to node 2. `moveSignatureToWMFromSTM`
collapses node 3 into node 1 (`reducedTo` is 1, node 3 leaves the memory), and
afterwards the peer 2 of node 3 is not linked to node 1 nor node 1 to node 2:
only the peers over Neighbor links are linked to the target. -/
theorem moveSignatureToWMFromSTM_merged_peer_not_relinked :
    ∃ r, Memory.moveSignatureToWMFromSTM (lineEnv true true 1) mergedPeerMemory 3 0 5 =
        Except.ok r ∧
      mergedPeerMemory.stMem.head? = some 3 ∧
      (∃ s3, mergedPeerMemory._getSignature 3 = some s3 ∧ s3.hasLink 2 = true) ∧
      r.2 = 1 ∧ r.1._getSignature 3 = none ∧
      (∃ s1, r.1._getSignature 1 = some s1 ∧ s1.hasLink 2 = false) ∧
      (∃ s2, r.1._getSignature 2 = some s2 ∧ s2.hasLink 1 = false ∧ s2.hasLink 3 = false) :=
  ⟨_, rfl, rfl, ⟨_, rfl, rfl⟩, rfl, rfl, ⟨_, rfl, rfl⟩, ⟨_, rfl, rfl, rfl⟩⟩

namespace SameLast

variable {T I : Type}

theorem refl_last (m : Memory T I) : SameLast m m := rfl

theorem trans_last {a b c : Memory T I} (h1 : SameLast a b) (h2 : SameLast b c) :
    SameLast a c :=
  Eq.trans h2 h1

theorem modifySignature_last (m : Memory T I) (k : Int) (f : Signature T I → Signature T I)
    (_ : ∀ a, (f a).id = a.id) : SameLast m (m.modifySignature k f) := rfl

theorem setWeight_last (m : Memory T I) (k w : Int) : SameLast m (m.setWeight k w) := rfl

theorem setVwd_last (m : Memory T I) (v : VWDictionary) : SameLast m (m.setVwd v) := rfl

theorem setLastGlobalLoopClosureId_last (m : Memory T I) (v : Int) :
    SameLast m (m.setLastGlobalLoopClosureId v) := rfl

theorem setMemoryChanged_last (m : Memory T I) (v : Bool) :
    SameLast m (m.setMemoryChanged v) := rfl

theorem setLinksChanged_last (m : Memory T I) (v : Bool) :
    SameLast m (m.setLinksChanged v) := rfl

theorem setSignaturesAdded_last (m : Memory T I) (v : Int) :
    SameLast m (m.setSignaturesAdded v) := rfl

theorem asyncSave_last (m : Memory T I) (s : Signature T I) : SameLast m (m.asyncSave s) := rfl

theorem foldl_last {β : Type} (f : Memory T I → β → Memory T I)
    (h : ∀ m b, SameLast m (f m b)) (l : List β) (m : Memory T I) :
    SameLast m (l.foldl f m) := by
  induction l generalizing m with
  | nil => exact refl_last m
  | cons b rest ih => exact trans_last (h m b) (ih (f m b))

theorem ite_last {c : Prop} [Decidable c] {m a b : Memory T I} (ha : SameLast m a)
    (hb : SameLast m b) : SameLast m (if c then a else b) := by
  split <;> assumption

theorem moveToTrashUnlink_last (sId sWeight : Int) (links : List (Link T I)) (m m' : Memory T I)
    (h : Memory.moveToTrashUnlink sId sWeight links m = Except.ok m') : SameLast m m' := by
  induction links generalizing m with
  | nil =>
    simp only [Memory.moveToTrashUnlink, pure, Except.pure] at h
    injection h with h
    rw [← h]
    exact refl_last m
  | cons l rest ih =>
    unfold Memory.moveToTrashUnlink at h
    cases hs : m._getSignature l.to_ with
    | none => simp [hs, throw, throwThe, MonadExceptOf.throw] at h
    | some sTo =>
      simp only [hs] at h
      refine trans_last ?_ (ih _ h)
      refine trans_last ?_ (modifySignature_last _ _ _ (fun _ => rfl))
      split
      · exact setWeight_last _ _ _
      · exact refl_last m

theorem removeVirtualLinks_last (m : Memory T I) (signatureId : Int) :
    SameLast m (m.removeVirtualLinks signatureId) := by
  unfold Memory.removeVirtualLinks
  cases m._getSignature signatureId with
  | none => exact refl_last m
  | some s =>
    simp only []
    refine trans_last (foldl_last _ ?_ s.links m) (modifySignature_last _ _ _ (fun _ => rfl))
    intro m' l
    split
    · exact modifySignature_last _ _ _ (fun _ => rfl)
    · exact refl_last m'

theorem disableWordsRef_last (m : Memory T I) (signatureId : Int) :
    SameLast m (m.disableWordsRef signatureId) := by
  unfold Memory.disableWordsRef
  cases m._getSignature signatureId with
  | none => exact refl_last m
  | some ss =>
    simp only []
    split
    · exact trans_last (setVwd_last _ _) (modifySignature_last _ _ _ (fun _ => rfl))
    · exact refl_last m

theorem enableWordsRefRewrite_last (surfSigns : List Int) (refsToChange : List (Int × Int))
    (m : Memory T I) : SameLast m (Memory.enableWordsRefRewrite surfSigns refsToChange m) := by
  unfold Memory.enableWordsRefRewrite
  refine foldl_last _ ?_ _ _
  intro m' r
  refine foldl_last _ ?_ _ _
  intro m'' j
  exact modifySignature_last _ _ _ (fun _ => rfl)

theorem enableWordsRefLoad_last (e : Env T I) (m : Memory T I) (surfSigns oldWordIds : List Int) :
    SameLast m (Memory.enableWordsRefLoad e m surfSigns oldWordIds) := by
  unfold Memory.enableWordsRefLoad
  simp only []
  refine ite_last ?_ (refl_last m)
  exact trans_last (setVwd_last m _) (enableWordsRefRewrite_last _ _ _)

theorem enableWordsRefActivate_last (m : Memory T I) (j : Int) :
    SameLast m (Memory.enableWordsRefActivate m j) := by
  unfold Memory.enableWordsRefActivate
  cases m._getSignature j with
  | none => exact refl_last m
  | some s =>
    simp only []
    refine ite_last ?_ (setVwd_last _ _)
    refine trans_last (setVwd_last _ _) (modifySignature_last _ _ _ ?_)
    intro _; rfl

theorem enableWordsRef_last (e : Env T I) (m : Memory T I) (signatureIds : List Int) :
    SameLast m (Memory.enableWordsRef e m signatureIds) := by
  unfold Memory.enableWordsRef
  exact trans_last (enableWordsRefLoad_last _ _ _ _) (foldl_last _ (fun m' j => enableWordsRefActivate_last m' j) _ _)

theorem copyData_last (e : Env T I) (m m' : Memory T I) (fromId toId : Int)
    (h : Memory.copyData e m fromId toId = Except.ok m') : SameLast m m' := by
  unfold Memory.copyData at h
  simp only [bind, Except.bind, pure, Except.pure] at h
  split at h
  · exact Except.noConfusion h
  · split at h
    · exact Except.noConfusion h
    · split at h
      · exact Except.noConfusion h
      · injection h with h
        rw [← h]
        rename_i toS _ _ _ _ _ _ _
        refine trans_last ?_ (modifySignature_last _ _ _ ?_)
        · refine trans_last ?_ (enableWordsRef_last e _ _)
          refine trans_last ?_ (modifySignature_last _ _ _ ?_)
          · exact disableWordsRef_last m toS.id
          · intro _; rfl
        · intro _; rfl


variable {T I : Type}

theorem reduceLinkNeighbors_last (e : Env T I) (sToId : Int) (iter : Link T I)
    (neighbors : List (Link T I)) (m m' : Memory T I)
    (h : Memory.reduceLinkNeighbors e sToId iter neighbors m = Except.ok m') :
    SameLast m m' := by
  induction neighbors generalizing m with
  | nil =>
    unfold Memory.reduceLinkNeighbors at h
    injection h with h
    rw [← h]
    exact refl_last m
  | cons jter rest ih =>
    unfold Memory.reduceLinkNeighbors at h
    simp only [bind, Except.bind, pure, Except.pure] at h
    split at h
    · exact Except.noConfusion h
    · split at h
      · split at h
        · exact Except.noConfusion h
        · split at h
          · exact Except.noConfusion h
          · refine trans_last ?_ (ih _ h)
            refine trans_last (modifySignature_last m sToId _ ?_) (modifySignature_last _ _ _ ?_)
            · intro _; rfl
            · intro _; rfl
      · exact ih _ h

theorem reduceLinks_last (e : Env T I) (sId : Int) (neighbors links : List (Link T I))
    (m m' : Memory T I)
    (h : Memory.reduceLinks e sId neighbors links m = Except.ok m') : SameLast m m' := by
  induction links generalizing m with
  | nil =>
    unfold Memory.reduceLinks at h
    injection h with h
    rw [← h]
    exact refl_last m
  | cons iter rest ih =>
    unfold Memory.reduceLinks at h
    simp only [bind, Except.bind, pure, Except.pure] at h
    split at h
    · exact Except.noConfusion h
    · split at h
      · split at h
        · exact Except.noConfusion h
        · rename_i m1 hm1
          refine trans_last ?_ (ih _ h)
          refine trans_last ?_ (reduceLinkNeighbors_last _ _ _ _ _ _ hm1)
          refine modifySignature_last m _ _ ?_
          intro _; rfl
      · refine trans_last ?_ (ih _ h)
        refine modifySignature_last m _ _ ?_
        intro _; rfl

theorem reduceDropNeighbors_last (sId : Int) (links : List (Link T I)) (m : Memory T I) :
    SameLast m (Memory.reduceDropNeighbors sId links m) := by
  induction links generalizing m with
  | nil => exact refl_last m
  | cons iter rest ih =>
    unfold Memory.reduceDropNeighbors
    split
    · refine trans_last ?_ (ih _)
      refine ite_last ?_ ?_
      · refine trans_last ?_ (setLastGlobalLoopClosureId_last _ _)
        refine modifySignature_last m sId _ ?_
        intro _; rfl
      · refine modifySignature_last m sId _ ?_
        intro _; rfl
    · exact ih m

theorem rehearsalRedirect_last (e : Env T I) (oldId newId : Int) (newToOldLink : Link T I)
    (links : List (Link T I)) (m m' : Memory T I)
    (h : Memory.rehearsalRedirect e oldId newId newToOldLink links m = Except.ok m') :
    SameLast m m' := by
  induction links generalizing m with
  | nil =>
    unfold Memory.rehearsalRedirect at h
    injection h with h
    rw [← h]
    exact refl_last m
  | cons link rest ih =>
    unfold Memory.rehearsalRedirect at h
    simp only [bind, Except.bind, pure, Except.pure] at h
    split at h
    · exact Except.noConfusion h
    · split at h
      · refine trans_last ?_ (ih _ h)
        refine trans_last (trans_last (modifySignature_last m _ _ ?_) (modifySignature_last _ _ _ ?_))
          (modifySignature_last _ _ _ ?_)
        · intro _; rfl
        · intro _; rfl
        · intro _; rfl
      · exact ih _ h

theorem rehearsalWeights_last (e : Env T I) (m : Memory T I) (oldS newS : Signature T I)
    (b : Bool) : SameLast m (Memory.rehearsalWeights e m oldS newS b) := by
  unfold Memory.rehearsalWeights
  simp only []
  split
  · refine ite_last ?_ ?_
    · exact trans_last (trans_last (setWeight_last _ _ _) (setWeight_last _ _ _)) (setLastGlobalLoopClosureId_last _ _)
    · exact trans_last (setWeight_last _ _ _) (setWeight_last _ _ _)
  · exact trans_last (setWeight_last _ _ _) (setWeight_last _ _ _)

theorem cleanUnusedWords_last (m : Memory T I) : SameLast m m.cleanUnusedWords := by
  unfold Memory.cleanUnusedWords
  exact ite_last (setVwd_last _ _) (refl_last m)

theorem preUpdate_last (e : Env T I) (m : Memory T I) : SameLast m (m.preUpdate e) := by
  unfold Memory.preUpdate
  simp only []
  refine ite_last ?_ ?_
  · exact trans_last (trans_last (setSignaturesAdded_last m 0) (cleanUnusedWords_last _)) (setVwd_last _ _)
  · exact trans_last (setSignaturesAdded_last m 0) (cleanUnusedWords_last _)
end SameLast

section LastLists

theorem getLast?_filter_of_getLast? {α : Type} (p : α → Bool) {l : List α} {a : α}
    (h : l.getLast? = some a) (hp : p a = true) : (l.filter p).getLast? = some a := by
  induction l with
  | nil => cases h
  | cons b rest ih =>
    cases rest with
    | nil =>
      simp only [List.getLast?_singleton, Option.some.injEq] at h
      subst h
      simp [hp]
    | cons c rest2 =>
      rw [List.getLast?_cons_cons] at h
      have := ih h
      rw [List.filter_cons]
      split
      · cases hf : List.filter p (c :: rest2) with
        | nil =>
          rw [hf] at this
          cases this
        | cons d r =>
          rw [List.getLast?_cons_cons, ← hf]
          exact this
      · exact this

theorem getLast?_eq_none_iff_nil {α : Type} {l : List α} : l.getLast? = none ↔ l = [] := by
  cases l with
  | nil => simp
  | cons a r => simp [List.getLast?_eq_getLast]

theorem getLast?_mem {α : Type} {l : List α} {a : α} (h : l.getLast? = some a) : a ∈ l :=
  List.mem_of_getLast?_eq_some h

theorem le_getLast?_of_sorted {l : List Int} {a : Int} (hs : l.Pairwise (fun x y => x < y))
    (h : l.getLast? = some a) : ∀ j ∈ l, j ≤ a := by
  induction l with
  | nil => cases h
  | cons b rest ih =>
    cases rest with
    | nil =>
      simp only [List.getLast?_singleton, Option.some.injEq] at h
      subst h
      intro j hj
      rw [List.mem_singleton.1 hj]
    | cons c rest2 =>
      rw [List.getLast?_cons_cons] at h
      rw [List.pairwise_cons] at hs
      intro j hj
      rcases List.mem_cons.1 hj with rfl | hj
      · exact le_of_lt (hs.1 a (getLast?_mem h))
      · exact ih hs.2 h j hj

theorem getLast?_map {α β : Type} (f : α → β) (l : List α) :
    (l.map f).getLast? = l.getLast?.map f := by
  induction l with
  | nil => rfl
  | cons a rest ih =>
    cases rest with
    | nil => rfl
    | cons b r =>
      rw [List.map_cons, List.map_cons, List.getLast?_cons_cons, List.getLast?_cons_cons,
        ← List.map_cons, ih]

theorem getLast?_filter_ne {l : List Int} {k : Int} (h : l.getLast? ≠ some k) :
    (l.filter (fun i => i != k)).getLast? = l.getLast? := by
  cases hl : l.getLast? with
  | none =>
    rw [getLast?_eq_none_iff_nil.1 hl]
    rfl
  | some a =>
    refine getLast?_filter_of_getLast? _ hl ?_
    have : a ≠ k := by
      intro hh
      rw [hl, hh] at h
      exact h rfl
    simpa using this

end LastLists
section LastTrash

variable {T I : Type}

theorem Memory.moveToTrashLinks_last (e : Env T I) (m m1 : Memory T I) (s : Signature T I)
    ( keep : Bool) (h : Memory.moveToTrashLinks e m s keep = Except.ok m1) : SameLast m m1 := by
  unfold Memory.moveToTrashLinks at h
  split at h
  · obtain ⟨_, _, h⟩ := bind_eq_ok.1 h
    obtain ⟨m2, h2, h⟩ := bind_eq_ok.1 h
    injection h with h
    rw [← h]
    exact SameLast.trans_last (SameLast.moveToTrashUnlink_last _ _ _ _ _ h2)
      (SameLast.modifySignature_last _ _ _ (fun _ => rfl))
  · injection h with h
    rw [← h]
    exact SameLast.removeVirtualLinks_last m s.id

theorem Memory.moveToTrashDictionary_last (m : Memory T I) (s1 : Signature T I) ( keep : Bool) :
    SameLast m (Memory.moveToTrashDictionary m s1 keep).1 := by
  unfold Memory.moveToTrashDictionary
  split
  · exact SameLast.setVwd_last _ _
  · exact SameLast.refl_last m

theorem Memory.moveToTrashErase_last (m : Memory T I) (sId : Int) :
    SameLast m (Memory.moveToTrashErase m sId) := by
  unfold Memory.moveToTrashErase
  simp only []
  split <;> rfl

/-- The member `_lastSignature` after the update of `moveToTrash`, a memory
with consistent tiers: it is the most recent location when the location
removed was the last signature. -/
theorem Memory.moveToTrashLastSignature_mostRecent (m : Memory T I) (sId : Int)
    (hi : TierInvariant m) (hl : m.lastSignature = some sId) :
    (Memory.moveToTrashLastSignature m sId).lastSignature = m.mostRecent := by
  obtain ⟨hs, ⟨_, _, c3, c4⟩, hp⟩ := hi
  rw [KeysSorted.iff] at hs
  unfold Memory.moveToTrashLastSignature Memory.mostRecent
  rw [hl]
  simp only [beq_self_eq_true, if_true]
  cases hst : m.stMem.getLast? with
  | some l =>
    simp only []
    have hmem := c3 l (getLast?_mem hst)
    cases hg : m._getSignature l with
    | none => exact absurd hmem ((Memory.getSignature_eq_none_iff m l).1 hg)
    | some s =>
      show some s.id = some l
      rw [Memory.getSignature_id hg]
  | none =>
    simp only []
    cases hwm : m.workingMem.getLast? with
    | none =>
      simp only []
      have : m.wmIds = [] := by
        unfold Memory.wmIds
        rw [getLast?_eq_none_iff_nil.1 hwm]
        rfl
      rw [this]
      rfl
    | some l =>
      simp only []
      have hwl : m.wmIds.getLast? = some l.1 := by
        unfold Memory.wmIds
        rw [getLast?_map, hwm]
        rfl
      cases hg : m._getSignature l.1 with
      | some s =>
        show some s.id = _
        rw [Memory.getSignature_id hg]
        symm
        exact getLast?_filter_of_getLast? _ hwl (by rw [hg]; rfl)
      | none =>
        show none = _
        symm
        rw [getLast?_eq_none_iff_nil, List.filter_eq_nil_iff]
        intro j hj hpres
        have hjid : j ∈ m.ids := (Memory.getSignature_isSome_iff m j).1 hpres
        have hjpos := hp j hjid
        have hl1 : l.1 = -1 := by
          by_contra hne
          exact (Memory.getSignature_eq_none_iff m l.1).1 hg (c4 l.1 (getLast?_mem hwl) hne)
        have := le_getLast?_of_sorted hs.2.2 hwl j hj
        omega

theorem Memory.mostRecent_congr {m m' : Memory T I} (hst : m'.stMem = m.stMem)
    (hwm : m'.workingMem = m.workingMem) (hids : m'.ids = m.ids) :
    m'.mostRecent = m.mostRecent := by
  unfold Memory.mostRecent
  have hw : m'.wmIds = m.wmIds := by
    unfold Memory.wmIds
    rw [hwm]
  have hp : ∀ i, (m'._getSignature i).isSome = (m._getSignature i).isSome := by
    intro i
    rw [Bool.eq_iff_iff, Memory.getSignature_isSome_iff, Memory.getSignature_isSome_iff, hids]
  rw [hst, hw]
  simp only [hp]

theorem Memory.mostRecent_of_sameTiers {m m' : Memory T I} (h : SameTiers m m') :
    m'.mostRecent = m.mostRecent :=
  Memory.mostRecent_congr h.1 h.2.1 h.2.2.1

/-- The most recent location after the removal of another location. -/
theorem Memory.mostRecent_of_trashed {k : Int} {m m' : Memory T I} (h : Trashed k m m')
    (hk : m.mostRecent ≠ some k) : m'.mostRecent = m.mostRecent := by
  unfold Memory.mostRecent at hk ⊢
  have hw := h.wmIds_eq
  have hp : ∀ i, (m'._getSignature i).isSome = ((m._getSignature i).isSome && (i != k)) := by
    intro i
    rw [Bool.eq_iff_iff, Memory.getSignature_isSome_iff, h.2.2.1, mem_kerase_selfKey,
      Bool.and_eq_true, Memory.getSignature_isSome_iff]
    simp
  rw [h.1, hw]
  cases hst : m.stMem.getLast? with
  | some l =>
    rw [hst] at hk
    have hlk : l ≠ k := fun hh => hk (by rw [hh])
    have : (kerase selfKey k m.stMem).getLast? = some l := by
      unfold kerase
      exact getLast?_filter_of_getLast? _ hst (by simpa [selfKey] using hlk)
    rw [this]
  | none =>
    rw [hst] at hk
    simp only [] at hk
    have : (kerase selfKey k m.stMem).getLast? = none := by
      rw [getLast?_eq_none_iff_nil.1 hst]
      rfl
    rw [this]
    simp only []
    have hf : List.filter (fun i => (m'._getSignature i).isSome) (kerase selfKey k m.wmIds) =
        (List.filter (fun i => (m._getSignature i).isSome) m.wmIds).filter (fun i => i != k) := by
      unfold kerase
      rw [List.filter_filter, List.filter_filter]
      apply List.filter_congr
      intro i _
      rw [hp i]
      simp [selfKey, Bool.and_comm]
    rw [hf]
    exact getLast?_filter_ne hk

end LastTrash
section LastTrash2

variable {T I : Type}

theorem Memory.lastSignature_moveToTrashLast (m : Memory T I) (sId : Int) :
    (Memory.moveToTrashLast m sId).lastSignature =
      (Memory.moveToTrashLastSignature m sId).lastSignature := by
  unfold Memory.moveToTrashLast
  split <;> rfl

theorem Memory.lastSignature_moveToTrashSave (e : Env T I) (m : Memory T I) (s1 : Signature T I)
    ( keep : Bool) : (Memory.moveToTrashSave e m s1 keep).lastSignature = m.lastSignature := by
  unfold Memory.moveToTrashSave
  split <;> rfl

/-- The member `_lastSignature` after `moveToTrash` of a location in memory: the
most recent location left when the location was the last signature and the
tiers are consistent, otherwise what it was. -/
theorem Memory.moveToTrash_lastSignature (e : Env T I) (m m' : Memory T I) (sId : Int)
    ( keep : Bool) (s : Signature T I) (hs : m._getSignature sId = some s)
    (h : Memory.moveToTrash e m sId keep = Except.ok m') :
    (m.lastSignature = some sId → TierInvariant m → m'.lastSignature = m'.mostRecent) ∧
    (m.lastSignature ≠ some sId → m'.lastSignature = m.lastSignature) := by
  unfold Memory.moveToTrash at h
  obtain ⟨r, hr, h⟩ := bind_eq_ok.1 h
  injection h with h
  rw [← h]
  unfold Memory.moveToTrashFull at hr
  rw [hs] at hr
  have hid : s.id = sId := Memory.getSignature_id hs
  obtain ⟨m1, h1, hr⟩ := bind_eq_ok.1 hr
  obtain ⟨s1, _, hr⟩ := bind_eq_ok.1 hr
  injection hr with hr
  rw [← hr, hid]
  have hlast : SameLast m (Memory.moveToTrashErase
      (Memory.moveToTrashDictionary (m1.disableWordsRef sId) s1 keep).1 sId) :=
    SameLast.trans_last (SameLast.trans_last (SameLast.trans_last
      (Memory.moveToTrashLinks_last e m m1 s keep h1) (SameLast.disableWordsRef_last m1 sId))
      (Memory.moveToTrashDictionary_last _ s1 keep)) (Memory.moveToTrashErase_last _ sId)
  have htr : Trashed sId m (Memory.moveToTrashErase
      (Memory.moveToTrashDictionary (m1.disableWordsRef sId) s1 keep).1 sId) := by
    refine Trashed.of_sameTiers_left (Memory.moveToTrashLinks_sameTiers e m m1 s keep h1) ?_
    refine Trashed.of_sameTiers_left (SameTiers.disableWordsRef m1 sId) ?_
    refine Trashed.of_sameTiers_left (Memory.moveToTrashDictionary_sameTiers _ s1 keep) ?_
    exact Memory.moveToTrashErase_trashed _ sId
  simp only []
  rw [Memory.lastSignature_moveToTrashSave, Memory.lastSignature_moveToTrashLast]
  constructor
  · intro hl hi
    rw [Memory.mostRecent_of_sameTiers (SameTiers.trans (Memory.moveToTrashLast_sameTiers _ sId)
      (Memory.moveToTrashSave_sameTiers e _ s1 keep))]
    exact Memory.moveToTrashLastSignature_mostRecent _ sId (htr.keepsTierInvariant hi)
      (hlast.trans hl)
  · intro hl
    unfold Memory.moveToTrashLastSignature
    have : (Memory.moveToTrashErase
        (Memory.moveToTrashDictionary (m1.disableWordsRef sId) s1 keep).1 sId).lastSignature ≠
          some sId := by
      rw [hlast]
      exact hl
    rw [if_neg (by simpa using this)]
    exact hlast

/-- The invariant of `lastSignature` is kept by `moveToTrash`. -/
theorem Memory.moveToTrash_lastInvariant (e : Env T I) (m m' : Memory T I) (sId : Int)
    ( keep : Bool) (h : Memory.moveToTrash e m sId keep = Except.ok m')
    (hi : TierInvariant m) (hinv : LastSignatureInvariant m) : LastSignatureInvariant m' := by
  rcases Memory.moveToTrash_tiers e m m' sId keep h with ⟨_, rfl⟩ | ⟨s, hs, ht⟩
  · exact hinv
  · obtain ⟨k1, k2⟩ := Memory.moveToTrash_lastSignature e m m' sId keep s hs h
    unfold LastSignatureInvariant at *
    by_cases hl : m.lastSignature = some sId
    · exact k1 hl hi
    · rw [k2 hl, hinv]
      symm
      apply Memory.mostRecent_of_trashed ht
      rw [← hinv]
      exact hl

end LastTrash2

section LastTransfer

variable {T I : Type}

theorem StmAboveWm.of_trashed {k : Int} {m m' : Memory T I} (h : Trashed k m m')
    (ho : StmAboveWm m) : StmAboveWm m' := by
  intro i hi j hj
  rw [h.1] at hi
  rw [h.wmIds_eq] at hj
  exact ho i (mem_kerase_selfKey.1 hi).1 j (mem_kerase_selfKey.1 hj).1

theorem StmAboveWm.of_sameTiers {m m' : Memory T I} (h : SameTiers m m')
    (ho : StmAboveWm m) : StmAboveWm m' := by
  intro i hi j hj
  rw [h.1] at hi
  rw [Memory.wmIds_eq_of_workingMem h.2.1] at hj
  exact ho i hi j hj

theorem StmAboveWm.of_tiers {m m' : Memory T I}
    (h : SameTiers m m' ∨ ∃ k, Trashed k m m') (ho : StmAboveWm m) : StmAboveWm m' := by
  rcases h with h | ⟨k, h⟩
  · exact StmAboveWm.of_sameTiers h ho
  · exact StmAboveWm.of_trashed h ho

theorem LastSignatureInvariant.of_same {m m' : Memory T I} (ht : SameTiers m m')
    (hl : SameLast m m') (h : LastSignatureInvariant m) : LastSignatureInvariant m' := by
  unfold LastSignatureInvariant at *
  rw [hl, h, Memory.mostRecent_of_sameTiers ht]

/-- The invariant of `lastSignature` is kept by the graph reduction of a
node. -/
theorem Memory.reduceNode_lastInvariant (e : Env T I) (m m' : Memory T I) (s : Signature T I)
    (h : Memory.reduceNode e m s = Except.ok m') (hi : TierInvariant m)
    (hinv : LastSignatureInvariant m) : LastSignatureInvariant m' := by
  unfold Memory.reduceNode at h
  obtain ⟨m1, h1, h⟩ := bind_eq_ok.1 h
  obtain ⟨s1, _, h⟩ := bind_eq_ok.1 h
  have hst : SameTiers m (Memory.reduceDropNeighbors s.id s1.links m1) :=
    SameTiers.trans (SameTiers.reduceLinks _ _ _ _ _ _ h1)
      (SameTiers.reduceDropNeighbors _ _ _)
  have hsl : SameLast m (Memory.reduceDropNeighbors s.id s1.links m1) :=
    SameLast.trans_last (SameLast.reduceLinks_last _ _ _ _ _ _ h1)
      (SameLast.reduceDropNeighbors_last _ _ _)
  exact Memory.moveToTrash_lastInvariant e _ m' s.id _ h (hst.tierInvariant hi)
    (LastSignatureInvariant.of_same hst hsl hinv)

theorem kerase_head_of_sorted {l : List Int} {a : Int} {rest : List Int}
    (hs : l.Pairwise (fun x y => x < y)) (hl : l = a :: rest) : kerase selfKey a l = rest := by
  subst hl
  rw [List.pairwise_cons] at hs
  unfold kerase
  rw [List.filter_cons]
  simp only [selfKey, bne_self_eq_false, Bool.false_eq_true, if_false]
  rw [List.filter_eq_self]
  intro b hb
  have := hs.1 b hb
  simp only [bne_iff_ne, ne_eq]
  omega

/-- The invariant of `lastSignature` is kept by the move of the head of the
STM to the working memory when the ids of the STM exceed those of the working
memory. -/
theorem Memory.transfer_lastInvariant {m m' : Memory T I} {first : Int} {now : Rat}
    (hf : m.stMem.head? = some first)
    (hst : m'.stMem = kerase selfKey first m.stMem)
    (hwm : m'.workingMem = kinsert Prod.fst (first, now) m.workingMem)
    (hids : m'.ids = m.ids) (hlast : m'.lastSignature = m.lastSignature)
    (hi : TierInvariant m) (ho : StmAboveWm m) (hinv : LastSignatureInvariant m) :
    LastSignatureInvariant m' ∧ StmAboveWm m' := by
  obtain ⟨hs, ⟨_, _, c3, _⟩, _⟩ := hi
  rw [KeysSorted.iff] at hs
  cases hl : m.stMem with
  | nil =>
    rw [hl] at hf
    cases hf
  | cons a rest =>
    rw [hl] at hf
    simp only [List.head?_cons, Option.some.injEq] at hf
    subst hf
    have ha : a ∈ m.stMem := by
      rw [hl]
      exact List.mem_cons_self _ _
    have hrest : m'.stMem = rest := by
      rw [hst]
      exact kerase_head_of_sorted hs.2.1 hl
    have hwmIds : m'.wmIds = m.wmIds ++ [a] := by
      unfold Memory.wmIds
      rw [hwm, kinsert_of_all_lt Prod.fst (a, now) m.workingMem, List.map_append]
      · rfl
      · intro b hb
        exact ho a (by rw [hl]; exact List.mem_cons_self _ _) b.1 (List.mem_map_of_mem _ hb)
    have hpres : ∀ i, (m'._getSignature i).isSome = (m._getSignature i).isSome := by
      intro i
      rw [Bool.eq_iff_iff, Memory.getSignature_isSome_iff, Memory.getSignature_isSome_iff, hids]
    constructor
    · unfold LastSignatureInvariant at *
      rw [hlast, hinv]
      unfold Memory.mostRecent
      rw [hrest, hl, hwmIds]
      cases rest with
      | nil =>
        simp only [List.getLast?_singleton, List.getLast?_nil]
        symm
        refine getLast?_filter_of_getLast? _ (by simp) ?_
        rw [hpres, (Memory.getSignature_isSome_iff m a).2 (c3 a ha)]
      | cons b rest2 =>
        rw [List.getLast?_cons_cons]
        cases hg : (b :: rest2).getLast? with
        | none => cases getLast?_eq_none_iff_nil.1 hg
        | some l => rfl
    · intro i hi j hj
      rw [hrest] at hi
      rw [hwmIds] at hj
      rcases List.mem_append.1 hj with hj | hj
      · exact ho i (by rw [hl]; exact List.mem_cons_of_mem _ hi) j hj
      · rw [List.mem_singleton.1 hj]
        rw [hl, List.pairwise_cons] at hs
        exact hs.2.1.1 i hi

end LastTransfer
section LastTransfer2

variable {T I : Type}

/-- The invariant of `lastSignature` and the order of the tiers are kept by
`moveSignatureToWMFromSTM`. -/
theorem Memory.moveSignatureToWMFromSTM_lastInvariant (e : Env T I) (m : Memory T I)
    (id reducedTo : Int) (now : Rat) (r : Memory T I × Int)
    (h : Memory.moveSignatureToWMFromSTM e m id reducedTo now = Except.ok r)
    (hi : TierInvariant m) (ho : StmAboveWm m) (hinv : LastSignatureInvariant m) :
    LastSignatureInvariant r.1 ∧ StmAboveWm r.1 := by
  have hmem := (Memory.moveSignatureToWMFromSTM_tiers e m id reducedTo now r h).1
  cases hs : m._getSignature id with
  | none => exact absurd (hi.2.1.2.2.1 id hmem) ((Memory.getSignature_eq_none_iff m id).1 hs)
  | some s =>
    rcases Memory.moveSignatureToWMFromSTM_cases e m id reducedTo now s r hs h with
      ⟨_, hn, _⟩ | ⟨_, first, hf, hr1, _⟩
    · exact ⟨Memory.reduceNode_lastInvariant e m r.1 s hn hi hinv,
        StmAboveWm.of_trashed (Memory.reduceNode_trashed e m r.1 s hn) ho⟩
    · refine @Memory.transfer_lastInvariant _ _ m r.1 first now hf ?_ ?_ ?_ ?_ hi ho hinv
      · rw [hr1]
        rfl
      · rw [hr1]
        rfl
      · rw [hr1]
        rfl
      · rw [hr1]
        rfl

end LastTransfer2

section LastForget

variable {T I : Type}

theorem Memory.forgetAll_lastInvariant (e : Env T I) (ids : List Int) (m m' : Memory T I)
    (h : Memory.forgetAll e ids m = Except.ok m') (hi : TierInvariant m)
    (hinv : LastSignatureInvariant m) : TierInvariant m' ∧ LastSignatureInvariant m' := by
  induction ids generalizing m with
  | nil =>
    unfold Memory.forgetAll at h
    injection h with h
    rw [← h]
    exact ⟨hi, hinv⟩
  | cons sId rest ih =>
    unfold Memory.forgetAll at h
    obtain ⟨m1, h1, h⟩ := bind_eq_ok.1 h
    exact ih m1 h (Memory.moveToTrash_tierInvariant e m m1 sId true h1 hi)
      (Memory.moveToTrash_lastInvariant e m m1 sId true h1 hi hinv)

theorem Memory.forgetByWords_lastInvariant (e : Env T I) (ignoredIds : List Int)
    (newWords : Int) (fuel : Nat) (wordsRemoved : Int) (removed : List Int) (m : Memory T I)
    (r : List Int × Memory T I)
    (h : Memory.forgetByWords e ignoredIds newWords fuel wordsRemoved removed m = Except.ok r)
    (hi : TierInvariant m) (hinv : LastSignatureInvariant m) :
    TierInvariant r.2 ∧ LastSignatureInvariant r.2 := by
  induction fuel generalizing wordsRemoved removed m with
  | zero =>
    unfold Memory.forgetByWords at h
    injection h with h
    rw [← h]
    exact ⟨hi, hinv⟩
  | succ fuel ih =>
    unfold Memory.forgetByWords at h
    split at h
    · obtain ⟨l, _, h⟩ := bind_eq_ok.1 h
      split at h
      · obtain ⟨m1, h1, h⟩ := bind_eq_ok.1 h
        exact ih _ _ m1 h (Memory.moveToTrash_tierInvariant e m m1 _ true h1 hi)
          (Memory.moveToTrash_lastInvariant e m m1 _ true h1 hi hinv)
      · injection h with h
        rw [← h]
        exact ⟨hi, hinv⟩
    · injection h with h
      rw [← h]
      exact ⟨hi, hinv⟩

/-- The invariant of `lastSignature` is kept by `forget`. -/
theorem Memory.forget_lastInvariant (e : Env T I) (m : Memory T I) (ignoredIds : List Int)
    (r : List Int × Memory T I) (h : Memory.forget e m ignoredIds = Except.ok r)
    (hi : TierInvariant m) (hinv : LastSignatureInvariant m) :
    TierInvariant r.2 ∧ LastSignatureInvariant r.2 := by
  unfold Memory.forget at h
  split at h
  · exact Memory.forgetByWords_lastInvariant _ _ _ _ _ _ _ _ h hi hinv
  · obtain ⟨l, _, h⟩ := bind_eq_ok.1 h
    obtain ⟨m1, h1, h⟩ := bind_eq_ok.1 h
    injection h with h
    rw [← h]
    exact Memory.forgetAll_lastInvariant e l m m1 h1 hi hinv

/-- The invariant of `lastSignature` is kept by `cleanup`. -/
theorem Memory.cleanup_lastInvariant (e : Env T I) (m : Memory T I) (r : Int × Memory T I)
    (h : Memory.cleanup e m = Except.ok r) (hi : TierInvariant m)
    (hinv : LastSignatureInvariant m) : LastSignatureInvariant r.2 := by
  unfold Memory.cleanup at h
  split at h
  · obtain ⟨last, _, h⟩ := bind_eq_ok.1 h
    split at h
    · obtain ⟨m1, h1, h⟩ := bind_eq_ok.1 h
      injection h with h
      rw [← h]
      exact Memory.moveToTrash_lastInvariant e m m1 _ _ h1 hi hinv
    · injection h with h
      rw [← h]
      exact hinv
  · injection h with h
    rw [← h]
    exact hinv

theorem Memory.reactivateInsert_last (clock : Nat → Rat) (l : List (Signature T I)) (k : Nat)
    (m : Memory T I) :
    (Memory.reactivateInsert clock l k m).lastSignature = m.lastSignature ∧
    (Memory.reactivateInsert clock l k m).stMem = m.stMem := by
  induction l generalizing k m with
  | nil => exact ⟨rfl, rfl⟩
  | cons s rest ih =>
    unfold Memory.reactivateInsert
    exact ih (k + 1) _

/-- The invariant of `lastSignature` is kept by `reactivateSignatures` when the
STM is not empty. -/
theorem Memory.reactivateSignatures_lastInvariant (e : Env T I) (m : Memory T I)
    (ids : List Int) (maxLoaded : Nat) (clock : Nat → Rat) (hst : m.stMem ≠ [])
    (hinv : LastSignatureInvariant m) :
    LastSignatureInvariant (Memory.reactivateSignatures e m ids maxLoaded clock).2 := by
  have hl : (Memory.reactivateSignatures e m ids maxLoaded clock).2.lastSignature =
      m.lastSignature := by
    unfold Memory.reactivateSignatures
    simp only []
    exact (SameLast.enableWordsRef_last e _ _).trans (Memory.reactivateInsert_last clock _ 0 m).1
  have hs : (Memory.reactivateSignatures e m ids maxLoaded clock).2.stMem = m.stMem := by
    unfold Memory.reactivateSignatures
    simp only []
    exact ((SameTiers.enableWordsRef e _ _).1).trans (Memory.reactivateInsert_last clock _ 0 m).2
  unfold LastSignatureInvariant at *
  rw [hl, hinv]
  unfold Memory.mostRecent
  rw [hs]
  cases hg : m.stMem.getLast? with
  | none => exact absurd (getLast?_eq_none_iff_nil.1 hg) hst
  | some l => rfl

end LastForget

section LastRehearsal

variable {T I : Type}

theorem Memory.lastSignature_rehearsalMergeIntoNew (e : Env T I) (m m' : Memory T I)
    (oldId newId : Int) (l : Link T I)
    (h : Memory.rehearsalMergeIntoNew e m oldId newId l = Except.ok m') :
    m'.lastSignature = m.lastSignature := by
  unfold Memory.rehearsalMergeIntoNew at h
  obtain ⟨o, _, h⟩ := bind_eq_ok.1 h
  obtain ⟨m1, h1, h⟩ := bind_eq_ok.1 h
  obtain ⟨o1, _, h⟩ := bind_eq_ok.1 h
  obtain ⟨m2, h2, h⟩ := bind_eq_ok.1 h
  obtain ⟨n, _, h⟩ := bind_eq_ok.1 h
  obtain ⟨o2, _, h⟩ := bind_eq_ok.1 h
  injection h with h
  rw [← h]
  have k1 : m1.lastSignature = m.lastSignature :=
    SameLast.rehearsalRedirect_last _ _ _ _ _ _ _ h1
  have k2 : m2.lastSignature = m1.lastSignature :=
    Eq.trans (SameLast.copyData_last _ _ _ _ _ h2) rfl
  have k3 : ∀ x : Memory T I, x.lastSignature = m2.lastSignature →
      (if x.lastGlobalLoopClosureId == oldId then x.setLastGlobalLoopClosureId newId
        else x).lastSignature = m2.lastSignature := by
    intro x hx
    split
    · exact hx
    · exact hx
  rw [k3 (m2.setWeight newId (n.weight + 1 + o2.weight)) rfl, k2, k1]

theorem Memory.lastSignature_rehearsalMergeIntoOld (e : Env T I) (m m' : Memory T I)
    (oldId newId : Int) (h : Memory.rehearsalMergeIntoOld e m oldId newId = Except.ok m') :
    m'.lastSignature = if m.lastSignature = some newId then some oldId else m.lastSignature := by
  unfold Memory.rehearsalMergeIntoOld at h
  obtain ⟨n, _, h⟩ := bind_eq_ok.1 h
  obtain ⟨o, _, h⟩ := bind_eq_ok.1 h
  injection h with h
  rw [← h]
  by_cases hl : m.lastSignature = some newId
  · rw [if_pos hl, if_pos (by rw [hl]; exact beq_self_eq_true _)]
    rfl
  · rw [if_neg hl, if_neg (by simpa using hl)]
    rfl

/-- The invariant of `lastSignature` after the full merge of a rehearsal: the
STM entry left of the new node must be the old node when the new node is the
last signature and gives way to the old one. -/
theorem Memory.rehearsalFullMerge_lastInvariant (e : Env T I) (m m' : Memory T I)
    (oldS newS : Signature T I) (oldId newId : Int)
    (ho : m._getSignature oldId = some oldS) (hn : m._getSignature newId = some newS)
    (h : Memory.rehearsalFullMerge e m oldS newS oldId newId = Except.ok m')
    (hne : oldId ≠ newId) (hi : TierInvariant m) (hinv : LastSignatureInvariant m)
    (hkeep : m.lastSignature = some newId →
      (kerase selfKey newId m.stMem).getLast? = some oldId) :
    LastSignatureInvariant m' := by
  have hoid : oldS.id = oldId := Memory.getSignature_id ho
  have hnid : newS.id = newId := Memory.getSignature_id hn
  unfold Memory.rehearsalFullMerge at h
  obtain ⟨l, _, h⟩ := bind_eq_ok.1 h
  obtain ⟨m1, h1, h⟩ := bind_eq_ok.1 h
  rw [hoid, hnid] at h h1
  have h0 : SameTiers m ((m.modifySignature oldId (fun s => s.removeLink newId)).modifySignature
      newId (fun s => s.removeLink oldId)) := by
    refine SameTiers.trans ?_ (SameTiers.modifySignature _ _ _ ?_)
    · refine SameTiers.modifySignature _ _ _ ?_
      intro _; rfl
    · intro _; rfl
  by_cases hid : e.idUpdatedToNewOneRehearsal = true
  · rw [if_pos hid] at h h1
    have hst : SameTiers m m1 :=
      SameTiers.trans h0 (Memory.rehearsalMergeIntoNew_sameTiers _ _ _ _ _ _ h1)
    have hsl : SameLast m m1 :=
      Eq.trans (Memory.lastSignature_rehearsalMergeIntoNew _ _ _ _ _ _ h1) rfl
    exact Memory.moveToTrash_lastInvariant e m1 m' oldId _ h (hst.tierInvariant hi)
      (LastSignatureInvariant.of_same hst hsl hinv)
  · rw [if_neg hid] at h h1
    have hst : SameTiers m m1 :=
      SameTiers.trans h0 (Memory.rehearsalMergeIntoOld_sameTiers _ _ _ _ _ h1)
    have hl1 := Memory.lastSignature_rehearsalMergeIntoOld _ _ _ _ _ h1
    have hl0 : ((m.modifySignature oldId (fun s => s.removeLink newId)).modifySignature
      newId (fun s => s.removeLink oldId)).lastSignature = m.lastSignature := rfl
    rw [hl0] at hl1
    by_cases hl : m.lastSignature = some newId
    · rw [if_pos hl] at hl1
      rcases Memory.moveToTrash_tiers e m1 m' newId _ h with ⟨hnone, _⟩ | ⟨s, hs, ht⟩
      · exact absurd hnone (Memory.getSignature_ne_none_of_sameTiers hst (by rw [hn]))
      · have k2 := (Memory.moveToTrash_lastSignature e m1 m' newId _ s hs h).2
          (by rw [hl1]; intro hh; injection hh with hh; exact hne hh)
        unfold LastSignatureInvariant Memory.mostRecent
        rw [k2, hl1, ht.1, hst.1, hkeep hl]
    · rw [if_neg hl] at hl1
      exact Memory.moveToTrash_lastInvariant e m1 m' newId _ h (hst.tierInvariant hi)
        (LastSignatureInvariant.of_same hst hl1 hinv)

theorem Memory.hasLink_of_fullMergeTest (e : Env T I) (oldS newS : Signature T I)
    (first : Link T I) (h : Memory.rehearsalFullMergeTest e oldS newS first = true) :
    newS.hasLink oldS.id = true := by
  unfold Memory.rehearsalFullMergeTest at h
  split at h
  · exact (Bool.and_eq_true _ _ ▸ h).2
  · exact (Bool.and_eq_true _ _ ▸ h).1

/-- The invariant of `lastSignature` is kept by `rehearsalMerge` when the
links of a new node that is the last signature lead to the STM entry left of
it. -/
theorem Memory.rehearsalMerge_lastInvariant (e : Env T I) (m : Memory T I) (oldId newId : Int)
    (r : Bool × Memory T I) (h : Memory.rehearsalMerge e m oldId newId = Except.ok r)
    (hne : oldId ≠ newId) (hi : TierInvariant m) (hinv : LastSignatureInvariant m)
    (hkeep : m.lastSignature = some newId → ∀ newS, m._getSignature newId = some newS →
      newS.hasLink oldId = true → (kerase selfKey newId m.stMem).getLast? = some oldId) :
    LastSignatureInvariant r.2 := by
  unfold Memory.rehearsalMerge at h
  cases ho : m._getSignature oldId with
  | none =>
    rw [ho] at h
    injection h with h
    rw [← h]
    exact hinv
  | some oldS =>
    cases hn : m._getSignature newId with
    | none =>
      rw [ho, hn] at h
      injection h with h
      rw [← h]
      exact hinv
    | some newS =>
      rw [ho, hn] at h
      simp only [] at h
      split at h
      · injection h with h
        rw [← h]
        exact hinv
      · split at h
        · injection h with h
          rw [← h]
          exact hinv
        · obtain ⟨_, _, h⟩ := bind_eq_ok.1 h
          obtain ⟨first, _, h⟩ := bind_eq_ok.1 h
          split at h
          · injection h with h
            rw [← h]
            exact hinv
          · split at h
            · rename_i hfull
              obtain ⟨m1, h1, h⟩ := bind_eq_ok.1 h
              injection h with h
              rw [← h]
              refine Memory.rehearsalFullMerge_lastInvariant e m m1 oldS newS oldId newId ho hn h1
                hne hi hinv ?_
              intro hl
              refine hkeep hl newS hn ?_
              have := Memory.hasLink_of_fullMergeTest e oldS newS first hfull
              rw [Memory.getSignature_id ho] at this
              exact this
            · injection h with h
              rw [← h]
              exact LastSignatureInvariant.of_same (SameTiers.rehearsalWeights _ _ _ _ _)
                (SameLast.rehearsalWeights_last _ _ _ _ _) hinv

/-- The invariant of `lastSignature` is kept by `rehearsal` under the same
condition on the links of the new node. -/
theorem Memory.rehearsal_lastInvariant (e : Env T I) (m m' : Memory T I) (signatureId : Int)
    (h : Memory.rehearsal e m signatureId = Except.ok m')
    (hi : TierInvariant m) (hinv : LastSignatureInvariant m)
    (hkeep : m.lastSignature = some signatureId → ∀ newS,
      m._getSignature signatureId = some newS → ∀ l ∈ newS.links,
      (kerase selfKey signatureId m.stMem).getLast? = some l.to_) :
    LastSignatureInvariant m' := by
  unfold Memory.rehearsal at h
  obtain ⟨signature, hsig, h⟩ := bind_eq_ok.1 h
  have hid : signature.id = signatureId := Memory.getSignature_id (Memory.deref_eq_ok.1 hsig)
  split at h
  · injection h with h
    rw [← h]
    exact hinv
  · obtain ⟨c, hc, h⟩ := bind_eq_ok.1 h
    cases c with
    | none =>
      injection h with h
      rw [← h]
      exact hinv
    | some sB =>
      obtain ⟨_, c2⟩ := Memory.rehearsalCandidate_spec m signature.id _ sB hc
      simp only [] at h
      split at h
      · split at h
        · obtain ⟨r, hr, h⟩ := bind_eq_ok.1 h
          injection h with h
          rw [← h]
          rw [hid] at hr c2
          refine Memory.rehearsalMerge_lastInvariant e m sB.id signatureId r hr c2 hi hinv ?_
          intro hl newS hn hlink
          obtain ⟨l, hmem, hto⟩ := (khas_iff Link.to_).1 hlink
          rw [← hto]
          exact hkeep hl newS hn l hmem
        · injection h with h
          rw [← h]
          exact LastSignatureInvariant.of_same (SameTiers.setWeight _ _ _)
            (SameLast.setWeight_last _ _ _) hinv
      · injection h with h
        rw [← h]
        exact hinv

end LastRehearsal

section LastUpdate

variable {T I : Type}

theorem Memory.createSignatureId_last (e : Env T I) (m : Memory T I) (data : SensorData) :
    (Memory.createSignatureId e m data).2.lastSignature = m.lastSignature := by
  unfold Memory.createSignatureId
  split
  · rfl
  · split
    · rfl
    · split <;> rfl

theorem Memory.createSignatureBuild_last (e : Env T I) (m : Memory T I) (data : SensorData)
    (pose : T) (id : Int) :
    (Memory.createSignatureBuild e m data pose id).2.lastSignature = m.lastSignature := by
  unfold Memory.createSignatureBuild
  simp only [Memory.setVwd_lastSignature]
  split <;> rfl

theorem Memory.createSignature_last (e : Env T I) (m : Memory T I) (data : SensorData) (pose : T)
    (c : Option (Signature T I) × Memory T I)
    (h : Memory.createSignature e m data pose = Except.ok c) :
    c.2.lastSignature = m.lastSignature := by
  unfold Memory.createSignature at h
  obtain ⟨_, _, h⟩ := bind_eq_ok.1 h
  split at h
  · injection h with h
    rw [← h]
  · split at h
    · injection h with h
      rw [← h]
      exact Memory.createSignatureId_last e m data
    · injection h with h
      rw [← h]
      exact (Memory.createSignatureBuild_last e _ data pose _).trans
        (Memory.createSignatureId_last e m data)

/-- The signature `addSignatureToStm` enters in the table: its links are those
it came with and at most a link to the tail of the STM; `lastSignature` is not
written. -/
theorem Memory.addSignatureToStm_entry (e : Env T I) (m m' : Memory T I) (s : Signature T I)
    (infMatrix : I) (h : Memory.addSignatureToStm e m s infMatrix = Except.ok m') :
    ∃ m1 s1, SameTiers m m1 ∧ SameLast m m1 ∧ s1.id = s.id ∧
      (∀ l ∈ s1.links, l ∈ s.links ∨ m.stMem.getLast? = some l.to_) ∧
      m' = ((m1.setSignatures (kinsert Signature.id s1 m1.signatures)).setStMem
        (kinsert selfKey s1.id m1.stMem)).setSignaturesAdded (m1.signaturesAdded + 1) := by
  have hen : ∀ x : Signature T I,
      (if x.words.length != 0 then { x with enabled := true } else x).links = x.links := by
    intro x
    split <;> rfl
  unfold Memory.addSignatureToStm at h
  simp only [bind, Except.bind, pure, Except.pure] at h
  split at h
  · rename_i tailId htail
    split at h
    · exact Except.noConfusion h
    · rename_i tail _
      by_cases hmap : tail.mapId = s.mapId
      · rw [if_pos hmap] at h
        by_cases hmetric : (!e.geo.isNull s.pose && !e.geo.isNull tail.pose) = true
        · rw [if_pos hmetric] at h
          injection h with h
          refine ⟨_, _, ?_, ?_, ?_, ?_, h.symm⟩
          · exact SameTiers.modifySignature _ _ _ (fun _ => rfl)
          · rfl
          · split <;> rfl
          · intro l hl
            rw [hen] at hl
            rcases (mem_kinsert Link.to_).1 hl with hl | ⟨hl, _⟩
            · exact Or.inl hl
            · rw [hl, htail]
              exact Or.inr rfl
        · rw [if_neg hmetric] at h
          injection h with h
          refine ⟨_, _, ?_, ?_, ?_, ?_, h.symm⟩
          · exact SameTiers.modifySignature _ _ _ (fun _ => rfl)
          · rfl
          · split <;> rfl
          · intro l hl
            rw [hen] at hl
            rcases (mem_kinsert Link.to_).1 hl with hl | ⟨hl, _⟩
            · exact Or.inl hl
            · rw [hl, htail]
              exact Or.inr rfl
      · rw [if_neg hmap] at h
        injection h with h
        refine ⟨_, _, SameTiers.refl m, ?_, ?_, ?_, h.symm⟩
        · rfl
        · split <;> exact Memory.tagFirstNode_id e m s
        · intro l hl
          rw [hen, Memory.tagFirstNode_links] at hl
          exact Or.inl hl
  · by_cases hl : e.mapLabelsAdded = true
    · rw [if_pos hl] at h
      injection h with h
      refine ⟨_, _, SameTiers.refl m, ?_, ?_, ?_, h.symm⟩
      · rfl
      · split <;> exact Memory.tagFirstNode_id e m s
      · intro l hl
        rw [hen, Memory.tagFirstNode_links] at hl
        exact Or.inl hl
    · rw [if_neg hl] at h
      injection h with h
      refine ⟨_, _, SameTiers.refl m, ?_, ?_, ?_, h.symm⟩
      · rfl
      · split <;> rfl
      · intro l hl
        rw [hen] at hl
        exact Or.inl hl

/-- The new signature in the table after `addSignatureToStm`, a signature that
came without links and with an id the table does not hold: every link of it
leads to the former tail of the STM. -/
theorem Memory.addSignatureToStm_newLinks (e : Env T I) (m m' : Memory T I) (s : Signature T I)
    (infMatrix : I) (h : Memory.addSignatureToStm e m s infMatrix = Except.ok m')
    (hlinks : s.links = []) (hnew : s.id ∉ m.ids) :
    m'.lastSignature = m.lastSignature ∧
    ∀ s1, m'._getSignature s.id = some s1 → ∀ l ∈ s1.links, m.stMem.getLast? = some l.to_ := by
  obtain ⟨m1, s1, hst, hsl, hid, hl, rfl⟩ := Memory.addSignatureToStm_entry e m _ s infMatrix h
  refine ⟨hsl, ?_⟩
  intro s2 hs2 l hmem
  have hk : khas Signature.id m1.signatures s1.id = false := by
    cases hh : khas Signature.id m1.signatures s1.id with
    | false => rfl
    | true =>
      exfalso
      apply hnew
      rw [← hst.2.2.1, ← hid]
      exact (khas_iff_mem_keys Signature.id).1 hh
  have : s2 = s1 := by
    unfold Memory._getSignature at hs2
    simp only [Memory.setSignaturesAdded_signatures, Memory.setStMem_signatures,
      Memory.setSignatures_signatures] at hs2
    rw [kfind_kinsert, hk, ← hid] at hs2
    simp only [Bool.false_eq_true, if_false, if_true] at hs2
    injection hs2 with hs2
    exact hs2.symm
  rw [this] at hmem
  rcases hl l hmem with h1 | h1
  · rw [hlinks] at h1
    cases h1
  · exact h1

/-- The invariant of `lastSignature` and the order of the tiers are kept by the
transfer loop of `update`. -/
theorem Memory.updateTransfer_lastInvariant (e : Env T I) (clock : Nat → Rat) (fuel k : Nat)
    (n : Int) (reducedIds : List (Int × Int)) (m : Memory T I)
    (r : List (Int × Int) × Memory T I)
    (h : Memory.updateTransfer e clock fuel k n reducedIds m = Except.ok r)
    (hi : TierInvariant m) (ho : StmAboveWm m) (hinv : LastSignatureInvariant m) :
    LastSignatureInvariant r.2 ∧ StmAboveWm r.2 := by
  induction fuel generalizing k n reducedIds m with
  | zero =>
    unfold Memory.updateTransfer at h
    injection h with h
    rw [← h]
    exact ⟨hinv, ho⟩
  | succ fuel ih =>
    unfold Memory.updateTransfer at h
    split at h
    · injection h with h
      rw [← h]
      exact ⟨hinv, ho⟩
    · split at h
      · split at h
        · exact Except.noConfusion h
        · simp only [bind, Except.bind] at h
          split at h
          · exact Except.noConfusion h
          · rename_i v hv
            have hl := Memory.moveSignatureToWMFromSTM_lastInvariant _ _ _ _ _ _ hv hi ho hinv
            exact ih _ _ _ _ h
              (Memory.moveSignatureToWMFromSTM_tierInvariant _ _ _ _ _ _ hv hi) hl.2 hl.1
      · injection h with h
        rw [← h]
        exact ⟨hinv, ho⟩

theorem getLast?_kinsert_of_all_lt {l : List Int} {a : Int} (h : ∀ b ∈ l, b < a) :
    (kinsert selfKey a l).getLast? = some a := by
  rw [kinsert_of_all_lt selfKey a l h]
  simp

/-- The invariant of `lastSignature` and the order of the tiers after the part
of `update` that follows the creation of the signature `s`, whose id exceeds
those in memory. -/
theorem Memory.updateAdd_lastInvariant (e : Env T I) (m : Memory T I) (s : Signature T I)
    (infMatrix : I) (clock : Nat → Rat) (r : List (Int × Int) × Memory T I)
    (h : Memory.updateAdd e m s infMatrix clock = Except.ok r)
    (hlinks : s.links = []) (hpos : 0 < s.id) (hgt : ∀ i ∈ m.ids, i < s.id)
    (hi : TierInvariant m) (ho : StmAboveWm m) :
    LastSignatureInvariant r.2 ∧ StmAboveWm r.2 := by
  have hnew : s.id ∉ m.ids := fun hmem => lt_irrefl _ (hgt _ hmem)
  unfold Memory.updateAdd at h
  obtain ⟨m1, h1, h⟩ := bind_eq_ok.1 h
  obtain ⟨m2, h2, h⟩ := bind_eq_ok.1 h
  obtain ⟨n, _, h⟩ := bind_eq_ok.1 h
  obtain ⟨t1, t2, t3, t4⟩ := Memory.addSignatureToStm_tiers e m m1 s infMatrix h1
  obtain ⟨_, hnl⟩ := Memory.addSignatureToStm_newLinks e m m1 s infMatrix h1 hlinks hnew
  have hi1 : TierInvariant m1 := Memory.addSignatureToStm_invariant e m m1 s infMatrix h1 hnew hpos hi
  have hstl : ∀ b ∈ m.stMem, b < s.id := fun b hb => hgt b (hi.2.1.2.2.1 b hb)
  have hwml : ∀ j ∈ m.wmIds, j < s.id := by
    intro j hj
    by_cases hj1 : j = -1
    · omega
    · exact hgt j (hi.2.1.2.2.2 j hj hj1)
  have hst : SameTiers m1 (m1.setLastSignature (some s.id)) := SameTiers.setLastSignature _ _
  have hi1s : TierInvariant (m1.setLastSignature (some s.id)) := hst.tierInvariant hi1
  have ho1 : StmAboveWm (m1.setLastSignature (some s.id)) := by
    intro i hmem j hj
    have hmem1 : i ∈ kinsert selfKey s.id m.stMem := by
      rw [← t1]
      exact hmem
    have hj1 : j ∈ m.wmIds := by
      rw [← Memory.wmIds_eq_of_workingMem t2]
      exact hj
    rcases mem_kinsert_selfKey.1 hmem1 with hmem1 | rfl
    · exact ho i hmem1 j hj1
    · exact hwml j hj1
  have hinv1 : LastSignatureInvariant (m1.setLastSignature (some s.id)) := by
    unfold LastSignatureInvariant Memory.mostRecent
    show some s.id = _
    have : (m1.setLastSignature (some s.id)).stMem = kinsert selfKey s.id m.stMem := t1
    rw [this, getLast?_kinsert_of_all_lt hstl]
  have hkeep : ∀ newS, (m1.setLastSignature (some s.id))._getSignature s.id = some newS →
      ∀ l ∈ newS.links,
      (kerase selfKey s.id (m1.setLastSignature (some s.id)).stMem).getLast? = some l.to_ := by
    intro newS hn l hl
    have : (m1.setLastSignature (some s.id)).stMem = kinsert selfKey s.id m.stMem := t1
    have hke : kerase selfKey s.id (kinsert selfKey s.id m.stMem) = m.stMem :=
      kerase_kinsert selfKey ((khas_false_iff selfKey).2 (fun a ha => ne_of_lt (hstl a ha)))
    rw [this, hke]
    exact hnl newS hn l hl
  have h12 : TierInvariant m2 ∧ LastSignatureInvariant m2 ∧ StmAboveWm m2 := by
    split at h2
    · have ht := Memory.rehearsal_tiers _ _ _ _ h2
      exact ⟨Memory.tierInvariant_of_tiers ht hi1s,
        Memory.rehearsal_lastInvariant e _ m2 s.id h2 hi1s hinv1 (fun _ => hkeep),
        StmAboveWm.of_tiers ht ho1⟩
    · injection h2 with h2
      rw [← h2]
      exact ⟨hi1s, hinv1, ho1⟩
  exact Memory.updateTransfer_lastInvariant _ _ _ _ _ _ _ _ h h12.1 h12.2.2 h12.2.1

/-- The invariant of `lastSignature` and the order of the tiers are kept by
`update`. -/
theorem Memory.update_lastInvariant (e : Env T I) (m : Memory T I) (data : SensorData) (pose : T)
    (infMatrix : I) (clock : Nat → Rat) (r : Bool × List (Int × Int) × Memory T I)
    (h : Memory.update e m data pose infMatrix clock = Except.ok r)
    (hi : TierInvariant m) (hb : IdsBounded m) (ho : StmAboveWm m)
    (hinv : LastSignatureInvariant m) :
    LastSignatureInvariant r.2.2 ∧ StmAboveWm r.2.2 := by
  unfold Memory.update at h
  obtain ⟨c, hc, h⟩ := bind_eq_ok.1 h
  obtain ⟨c1, c2, c3, c4, c5⟩ := Memory.createSignature_spec _ _ _ _ _ hc
  have hp := SameTiers.preUpdate e m
  have hiP := hp.tierInvariant hi
  have hbP := hp.idsBounded hb
  have hoP : StmAboveWm (m.preUpdate e) := StmAboveWm.of_sameTiers hp ho
  have hi2 : TierInvariant c.2 := by
    obtain ⟨⟨k1, k2, k3⟩, tc, pos⟩ := hiP
    refine ⟨?_, ?_, ?_⟩
    · rw [KeysSorted.iff] at *
      rw [c3, c1, Memory.wmIds_eq_of_workingMem c2]
      exact (KeysSorted.iff _).1 ⟨k1, k2, k3⟩
    · unfold TierConsistent at *
      rw [c3, c1, Memory.wmIds_eq_of_workingMem c2]
      exact tc
    · unfold PositiveIds at *
      rw [c3]
      exact pos
  have ho2 : StmAboveWm c.2 := by
    intro i hmem j hj
    rw [c1] at hmem
    rw [Memory.wmIds_eq_of_workingMem c2] at hj
    exact hoP i hmem j hj
  cases hs : c.1 with
  | none =>
    rw [hs] at h
    injection h with h
    rw [← h]
    refine ⟨?_, ho2⟩
    have hl : c.2.lastSignature = (m.preUpdate e).lastSignature :=
      Memory.createSignature_last _ _ _ _ _ hc
    unfold LastSignatureInvariant
    rw [hl, Memory.mostRecent_congr c1 c2 c3, SameLast.preUpdate_last e m,
      Memory.mostRecent_of_sameTiers hp]
    exact hinv
  | some s =>
    rw [hs] at h
    obtain ⟨t, ht, h⟩ := bind_eq_ok.1 h
    injection h with h
    rw [← h]
    obtain ⟨s1, s2, s3⟩ := c5 s hs
    have hgt : ∀ i ∈ c.2.ids, i < s.id := by
      intro i hmem
      rw [c3] at hmem
      have := hbP.2 _ hmem
      omega
    have hr := Memory.updateAdd_lastInvariant e c.2 s infMatrix clock t ht s3
      (by have := hbP.1; omega) hgt hi2 ho2
    show LastSignatureInvariant (if _ then _ else _) ∧ StmAboveWm (if _ then _ else _)
    split
    · exact ⟨LastSignatureInvariant.of_same (SameTiers.setMemoryChanged _ _)
        (SameLast.setMemoryChanged_last _ _) hr.1,
        StmAboveWm.of_sameTiers (SameTiers.setMemoryChanged _ _) hr.2⟩
    · exact hr

end LastUpdate

section LastClaim

variable {T I : Type}

theorem Memory.moveToTrash_stmAboveWm (e : Env T I) (m m' : Memory T I) (sId : Int)
    ( keep : Bool) (h : Memory.moveToTrash e m sId keep = Except.ok m') (ho : StmAboveWm m) :
    StmAboveWm m' := by
  rcases Memory.moveToTrash_tiers e m m' sId keep h with ⟨_, rfl⟩ | ⟨_, _, ht⟩
  · exact ho
  · exact StmAboveWm.of_trashed ht ho

theorem Memory.forgetAll_stmAboveWm (e : Env T I) (ids : List Int) (m m' : Memory T I)
    (h : Memory.forgetAll e ids m = Except.ok m') (ho : StmAboveWm m) : StmAboveWm m' := by
  induction ids generalizing m with
  | nil =>
    unfold Memory.forgetAll at h
    injection h with h
    rw [← h]
    exact ho
  | cons sId rest ih =>
    unfold Memory.forgetAll at h
    obtain ⟨m1, h1, h⟩ := bind_eq_ok.1 h
    exact ih m1 h (Memory.moveToTrash_stmAboveWm e m m1 sId true h1 ho)

theorem Memory.forgetByWords_stmAboveWm (e : Env T I) (ignoredIds : List Int)
    (newWords : Int) (fuel : Nat) (wordsRemoved : Int) (removed : List Int) (m : Memory T I)
    (r : List Int × Memory T I)
    (h : Memory.forgetByWords e ignoredIds newWords fuel wordsRemoved removed m = Except.ok r)
    (ho : StmAboveWm m) : StmAboveWm r.2 := by
  induction fuel generalizing wordsRemoved removed m with
  | zero =>
    unfold Memory.forgetByWords at h
    injection h with h
    rw [← h]
    exact ho
  | succ fuel ih =>
    unfold Memory.forgetByWords at h
    split at h
    · obtain ⟨l, _, h⟩ := bind_eq_ok.1 h
      split at h
      · obtain ⟨m1, h1, h⟩ := bind_eq_ok.1 h
        exact ih _ _ m1 h (Memory.moveToTrash_stmAboveWm e m m1 _ true h1 ho)
      · injection h with h
        rw [← h]
        exact ho
    · injection h with h
      rw [← h]
      exact ho

theorem Memory.forget_stmAboveWm (e : Env T I) (m : Memory T I) (ignoredIds : List Int)
    (r : List Int × Memory T I) (h : Memory.forget e m ignoredIds = Except.ok r)
    (ho : StmAboveWm m) : StmAboveWm r.2 := by
  unfold Memory.forget at h
  split at h
  · exact Memory.forgetByWords_stmAboveWm _ _ _ _ _ _ _ _ h ho
  · obtain ⟨l, _, h⟩ := bind_eq_ok.1 h
    obtain ⟨m1, h1, h⟩ := bind_eq_ok.1 h
    injection h with h
    rw [← h]
    exact Memory.forgetAll_stmAboveWm e l m m1 h1 ho

theorem Memory.cleanup_stmAboveWm (e : Env T I) (m : Memory T I) (r : Int × Memory T I)
    (h : Memory.cleanup e m = Except.ok r) (ho : StmAboveWm m) : StmAboveWm r.2 := by
  unfold Memory.cleanup at h
  split at h
  · obtain ⟨last, _, h⟩ := bind_eq_ok.1 h
    split at h
    · obtain ⟨m1, h1, h⟩ := bind_eq_ok.1 h
      injection h with h
      rw [← h]
      exact Memory.moveToTrash_stmAboveWm e m m1 _ _ h1 ho
    · injection h with h
      rw [← h]
      exact ho
  · injection h with h
    rw [← h]
    exact ho

end LastClaim

/-- Counterexample to C23: `reactivateSignatures` never writes `lastSignature`.
In `retrievalMemory` the STM is empty, the working memory holds node 1 and
`lastSignature` is node 1, the most recent location; after the reactivation of
node 2 from the database the working memory holds the nodes 1 and 2 while
`lastSignature` is still node 1, so the invariant is lost. -/
theorem reactivateSignatures_leaves_lastSignature :
    LastSignatureInvariant retrievalMemory ∧
    (Memory.reactivateSignatures retrievalEnv retrievalMemory [2] 0 (fun _ => 0)).1 = [2] ∧
    (Memory.reactivateSignatures retrievalEnv retrievalMemory [2] 0 (fun _ => 0)).2.stMem = [] ∧
    (Memory.reactivateSignatures retrievalEnv retrievalMemory [2] 0 (fun _ => 0)).2.workingMem =
      [(-1, 0), (1, 0), (2, 0)] ∧
    (Memory.reactivateSignatures retrievalEnv retrievalMemory [2] 0 (fun _ => 0)).2.ids = [1, 2] ∧
    (Memory.reactivateSignatures retrievalEnv retrievalMemory [2] 0
      (fun _ => 0)).2.lastSignature = some 1 ∧
    ¬ LastSignatureInvariant
      (Memory.reactivateSignatures retrievalEnv retrievalMemory [2] 0 (fun _ => 0)).2 :=
  ⟨rfl, rfl, rfl, rfl, rfl, rfl, fun h => by
    have h2 : (Memory.reactivateSignatures retrievalEnv retrievalMemory [2] 0
        (fun _ => 0)).2.mostRecent = some 2 := rfl
    have h1 : (Memory.reactivateSignatures retrievalEnv retrievalMemory [2] 0
        (fun _ => 0)).2.lastSignature = some 1 := rfl
    unfold LastSignatureInvariant at h
    rw [h1, h2] at h
    injection h with h
    exact absurd h (by decide)⟩

/-- Claim C23, amended: the invariant of `lastSignature` is preserved by
`update`, `moveToTrash`, `forget`, `cleanup` and `moveSignatureToWMFromSTM`,
and by `reactivateSignatures` when the STM is not empty. In a memory whose
containers are sorted, whose tiers are consistent, whose ids are positive
(`TierInvariant`) and whose STM ids exceed the ids of the working memory
(`StmAboveWm`), if `lastSignature` is the STM entry with the greatest id, or
(STM empty) the WM signature with the greatest id, or null when there is none
(`LastSignatureInvariant`), then the same holds, and the STM ids still exceed
the ids of the working memory, after every `update` that returns (the id
counter bounding the ids of the table), after every `moveToTrash`, `forget`,
`cleanup` and `moveSignatureToWMFromSTM` that returns; and the invariant of
`lastSignature` holds after `reactivateSignatures` when the STM is not
empty. -/
theorem lastSignature_invariant_preserved {T I : Type} (e : Env T I) (m : Memory T I)
    (hi : TierInvariant m) (ho : StmAboveWm m) (hinv : LastSignatureInvariant m) :
    (∀ data pose infMatrix clock r, IdsBounded m →
      Memory.update e m data pose infMatrix clock = Except.ok r →
      LastSignatureInvariant r.2.2 ∧ StmAboveWm r.2.2) ∧
    (∀ sId keepLinkedToGraph m',
      Memory.moveToTrash e m sId keepLinkedToGraph = Except.ok m' →
      LastSignatureInvariant m' ∧ StmAboveWm m') ∧
    (∀ ignoredIds r, Memory.forget e m ignoredIds = Except.ok r →
      LastSignatureInvariant r.2 ∧ StmAboveWm r.2) ∧
    (∀ r, Memory.cleanup e m = Except.ok r → LastSignatureInvariant r.2 ∧ StmAboveWm r.2) ∧
    (∀ id reducedTo now r,
      Memory.moveSignatureToWMFromSTM e m id reducedTo now = Except.ok r →
      LastSignatureInvariant r.1 ∧ StmAboveWm r.1) ∧
    (∀ ids maxLoaded clock, m.stMem ≠ [] →
      LastSignatureInvariant (Memory.reactivateSignatures e m ids maxLoaded clock).2) := by
  refine ⟨?_, ?_, ?_, ?_, ?_, ?_⟩
  · intro data pose infMatrix clock r hb h
    exact Memory.update_lastInvariant e m data pose infMatrix clock r h hi hb ho hinv
  · intro sId keep m' h
    exact ⟨Memory.moveToTrash_lastInvariant e m m' sId keep h hi hinv,
      Memory.moveToTrash_stmAboveWm e m m' sId keep h ho⟩
  · intro ignoredIds r h
    exact ⟨(Memory.forget_lastInvariant e m ignoredIds r h hi hinv).2,
      Memory.forget_stmAboveWm e m ignoredIds r h ho⟩
  · intro r h
    exact ⟨Memory.cleanup_lastInvariant e m r h hi hinv, Memory.cleanup_stmAboveWm e m r h ho⟩
  · intro id reducedTo now r h
    exact Memory.moveSignatureToWMFromSTM_lastInvariant e m id reducedTo now r h hi ho hinv
  · intro ids maxLoaded clock hst
    exact Memory.reactivateSignatures_lastInvariant e m ids maxLoaded clock hst hinv

/-- Witness of C23: the memory with the nodes 1 and 2 in the working memory and
node 2 as last signature is under the invariants; an `update` on it returns a
memory whose STM holds the new node 3, which is the last signature. -/
theorem lastSignature_invariant_preserved_witness :
    TierInvariant (((twoNodeMemory 0 0).setIdCount 2).setLastSignature (some 2)) ∧
    StmAboveWm (((twoNodeMemory 0 0).setIdCount 2).setLastSignature (some 2)) ∧
    LastSignatureInvariant (((twoNodeMemory 0 0).setIdCount 2).setLastSignature (some 2)) ∧
    ∃ r, Memory.update (lineEnv true false 2)
        (((twoNodeMemory 0 0).setIdCount 2).setLastSignature (some 2))
        ⟨0, false, true, false, []⟩ (some 2) () (fun _ => 0) = Except.ok r ∧
      r.2.2.stMem = [3] ∧ r.2.2.lastSignature = some 3 ∧
      LastSignatureInvariant r.2.2 ∧ StmAboveWm r.2.2 :=
  ⟨(SameTiers.setLastSignature _ _).tierInvariant (tierInvariant_twoNodeMemory 0 0),
    fun i hmem => absurd hmem (List.not_mem_nil i), rfl, _, rfl, rfl, rfl,
    (lastSignature_invariant_preserved (lineEnv true false 2)
      (((twoNodeMemory 0 0).setIdCount 2).setLastSignature (some 2))
      ((SameTiers.setLastSignature _ _).tierInvariant (tierInvariant_twoNodeMemory 0 0))
      (fun i hmem => absurd hmem (List.not_mem_nil i)) rfl).1 ⟨0, false, true, false, []⟩
      (some 2) () (fun _ => 0) _ (by simp [IdsBounded, twoNodeMemory, lineMemory, lineSignature,
        Memory.ids, Memory.setIdCount, Memory.setLastSignature]) rfl⟩

section Labels

variable {T I : Type}

theorem LabelsWithin.refl_labels (m : Memory T I) : LabelsWithin m m :=
  fun _ a h _ => ⟨a, h, rfl⟩

theorem LabelsWithin.trans_labels {a b c : Memory T I} (h1 : LabelsWithin a b)
    (h2 : LabelsWithin b c) : LabelsWithin a c := by
  intro i x hx hne
  obtain ⟨y, hy, hl⟩ := h2 i x hx hne
  obtain ⟨z, hz, hl2⟩ := h1 i y hy (by rw [hl]; exact hne)
  exact ⟨z, hz, hl2.trans hl⟩

theorem LabelsWithin.of_sameView_labels {m m' : Memory T I} (h : SameView Signature.label m m') :
    LabelsWithin m m' := by
  intro i x hx _
  have := h i
  rw [hx] at this
  cases hm : m._getSignature i with
  | none =>
    rw [hm] at this
    cases this
  | some a =>
    rw [hm] at this
    simp only [Option.map_some', Option.some.injEq] at this
    exact ⟨a, rfl, this.symm⟩

theorem LabelsWithin.of_getSignature {m m' : Memory T I}
    (h : ∀ i, m'._getSignature i = m._getSignature i) : LabelsWithin m m' := by
  intro i x hx _
  rw [h i] at hx
  exact ⟨x, hx, rfl⟩

/-- A signature changed without a new label: the labels stay within. -/
theorem LabelsWithin.modifySignature_labels (m : Memory T I) (k : Int)
    (f : Signature T I → Signature T I) (hf : ∀ a, (f a).id = a.id)
    (hl : ∀ a, m._getSignature k = some a → (f a).label = a.label ∨ (f a).label = "") :
    LabelsWithin m (m.modifySignature k f) := by
  intro i x hx hne
  rw [Memory.getSignature_modify m k i f hf] at hx
  cases hm : m._getSignature i with
  | none =>
    rw [hm] at hx
    cases hx
  | some a =>
    rw [hm] at hx
    simp only [Option.map_some', Option.some.injEq] at hx
    refine ⟨a, rfl, ?_⟩
    have hai : a.id = i := Memory.getSignature_id hm
    by_cases hk : a.id = k
    · rw [if_pos hk] at hx
      rw [hai] at hk
      rw [hk] at hm
      rcases hl a hm with h | h
      · rw [← hx]
        exact h.symm
      · exfalso
        apply hne
        rw [← hx]
        exact h
    · rw [if_neg hk] at hx
      rw [hx]

theorem LabelsWithin.ite_labels {c : Prop} [Decidable c] {m a b : Memory T I}
    (ha : LabelsWithin m a) (hb : LabelsWithin m b) : LabelsWithin m (if c then a else b) := by
  split <;> assumption

theorem LabelsDistinct.of_within {m m' : Memory T I} (h : LabelsWithin m m')
    (hd : LabelsDistinct m) : LabelsDistinct m' := by
  intro i j a b ha hb hne heq
  obtain ⟨a0, ha0, hla⟩ := h i a ha hne
  obtain ⟨b0, hb0, hlb⟩ := h j b hb (by rw [← heq]; exact hne)
  exact hd i j a0 b0 ha0 hb0 (by rw [hla]; exact hne) (by rw [hla, hlb]; exact heq)

theorem sameView_label_setWeight (m : Memory T I) (k w : Int) :
    SameView Signature.label m (m.setWeight k w) :=
  sameView_modifySignature _ m k _ (fun _ => rfl) (fun _ => rfl)

theorem sameView_label_disableWordsRef (m : Memory T I) (k : Int) :
    SameView Signature.label m (m.disableWordsRef k) := by
  unfold Memory.disableWordsRef
  cases m._getSignature k with
  | none => exact sameView_refl _ m
  | some ss =>
    simp only []
    split
    · refine sameView_trans _ (sameView_of_signatures _ rfl)
        (sameView_modifySignature _ _ _ _ (fun _ => rfl) (fun _ => rfl))
    · exact sameView_refl _ m

theorem sameView_label_enableWordsRef (e : Env T I) (m : Memory T I) (ids : List Int) :
    SameView Signature.label m (Memory.enableWordsRef e m ids) := by
  unfold Memory.enableWordsRef
  refine sameView_trans _ ?_ (sameView_foldl _ _ ?_ _ _)
  · unfold Memory.enableWordsRefLoad
    simp only []
    refine sameView_ite _ ?_ (sameView_refl _ m)
    unfold Memory.enableWordsRefRewrite
    refine sameView_trans _ (sameView_of_signatures _ rfl) (sameView_foldl _ _ ?_ _ _)
    intro m1 r
    refine sameView_foldl _ _ ?_ _ _
    intro m2 j
    exact sameView_modifySignature _ _ _ _ (fun _ => rfl) (fun _ => rfl)
  · intro m1 j
    unfold Memory.enableWordsRefActivate
    cases m1._getSignature j with
    | none => exact sameView_refl _ m1
    | some s =>
      simp only []
      split
      · exact sameView_trans _ (sameView_of_signatures _ rfl)
          (sameView_modifySignature _ _ _ _ (fun _ => rfl) (fun _ => rfl))
      · exact sameView_of_signatures _ rfl

theorem sameView_label_copyData (e : Env T I) (m m2 : Memory T I) (fromId toId : Int)
    (h : Memory.copyData e m fromId toId = Except.ok m2) : SameView Signature.label m m2 := by
  unfold Memory.copyData at h
  obtain ⟨toS, _, h⟩ := bind_eq_ok.1 h
  obtain ⟨f1, _, h⟩ := bind_eq_ok.1 h
  obtain ⟨f2, _, h⟩ := bind_eq_ok.1 h
  injection h with h
  rw [← h]
  refine sameView_trans _ (sameView_label_disableWordsRef m toS.id) ?_
  refine sameView_trans _
    (sameView_modifySignature _ _ toId (fun s => { s with words := f1.words })
      (fun _ => rfl) (fun _ => rfl)) ?_
  refine sameView_trans _ (sameView_label_enableWordsRef e _ [toS.id]) ?_
  exact sameView_modifySignature _ _ toId (fun s => { s with pose := f2.pose })
    (fun _ => rfl) (fun _ => rfl)

theorem sameView_label_moveToTrashUnlink (sId sWeight : Int) (links : List (Link T I))
    (m m' : Memory T I)
    (h : Memory.moveToTrashUnlink sId sWeight links m = Except.ok m') :
    SameView Signature.label m m' := by
  induction links generalizing m with
  | nil =>
    simp only [Memory.moveToTrashUnlink, pure, Except.pure] at h
    injection h with h
    rw [← h]
    exact sameView_refl _ m
  | cons l rest ih =>
    unfold Memory.moveToTrashUnlink at h
    cases hs : m._getSignature l.to_ with
    | none => simp [hs, throw, throwThe, MonadExceptOf.throw] at h
    | some sTo =>
      simp only [hs] at h
      refine sameView_trans _ ?_ (ih _ h)
      refine sameView_trans _ ?_
        (sameView_modifySignature _ _ sTo.id (fun p => p.removeLink sId) (fun _ => rfl)
          (fun _ => rfl))
      exact sameView_ite _ (sameView_label_setWeight _ _ _) (sameView_refl _ m)

theorem sameView_label_rehearsalRedirect (e : Env T I) (oldId newId : Int)
    (newToOldLink : Link T I) (links : List (Link T I)) (m m' : Memory T I)
    (h : Memory.rehearsalRedirect e oldId newId newToOldLink links m = Except.ok m') :
    SameView Signature.label m m' := by
  induction links generalizing m with
  | nil =>
    unfold Memory.rehearsalRedirect at h
    injection h with h
    rw [← h]
    exact sameView_refl _ m
  | cons link rest ih =>
    unfold Memory.rehearsalRedirect at h
    simp only [bind, Except.bind, pure, Except.pure] at h
    split at h
    · exact Except.noConfusion h
    · split at h
      · refine sameView_trans _ ?_ (ih _ h)
        refine sameView_trans _ (sameView_trans _
          (sameView_modifySignature _ m _ (fun p => p.removeLink oldId) (fun _ => rfl)
            (fun _ => rfl))
          (sameView_modifySignature _ _ _ (fun p => p.addLink _) (fun _ => rfl)
            (fun _ => rfl)))
          (sameView_modifySignature _ _ newId (fun p => p.addLink _) (fun _ => rfl)
            (fun _ => rfl))
      · exact ih _ h

/-- The labels after `moveToTrash` are labels that were there before. -/
theorem Memory.moveToTrash_labelsWithin (e : Env T I) (m m' : Memory T I) (sId : Int)
    ( keep : Bool) (h : Memory.moveToTrash e m sId keep = Except.ok m') : LabelsWithin m m' := by
  unfold Memory.moveToTrash at h
  obtain ⟨r, hr, h⟩ := bind_eq_ok.1 h
  injection h with h
  rw [← h]
  unfold Memory.moveToTrashFull at hr
  cases hs : m._getSignature sId with
  | none =>
    rw [hs] at hr
    injection hr with hr
    rw [← hr]
    exact LabelsWithin.refl_labels m
  | some s =>
    rw [hs] at hr
    obtain ⟨m1, h1, hr⟩ := bind_eq_ok.1 hr
    obtain ⟨s1, _, hr⟩ := bind_eq_ok.1 hr
    injection hr with hr
    rw [← hr]
    have k1 : LabelsWithin m m1 := by
      unfold Memory.moveToTrashLinks at h1
      split at h1
      · obtain ⟨_, _, h1⟩ := bind_eq_ok.1 h1
        obtain ⟨m2, h2, h1⟩ := bind_eq_ok.1 h1
        injection h1 with h1
        rw [← h1]
        refine LabelsWithin.trans_labels
          (LabelsWithin.of_sameView_labels (sameView_label_moveToTrashUnlink _ _ _ _ _ h2)) ?_
        exact LabelsWithin.modifySignature_labels m2 s.id
          (fun s => { s.removeLinks with weight := 0, label := "" }) (fun _ => rfl)
          (fun _ _ => Or.inr rfl)
      · injection h1 with h1
        rw [← h1]
        exact LabelsWithin.of_sameView_labels
          (sameView_removeVirtualLinks Signature.label (fun _ _ => rfl) m s.id)
    refine LabelsWithin.trans_labels k1 ?_
    refine LabelsWithin.trans_labels
      (LabelsWithin.of_sameView_labels (sameView_label_disableWordsRef m1 s.id)) ?_
    intro i x hx hne
    simp only [] at hx
    rw [getSignature_moveToTrashSave, getSignature_moveToTrashLast,
      Memory.getSignature_moveToTrashErase, Memory.getSignature_moveToTrashDictionary] at hx
    split at hx
    · cases hx
    · exact ⟨x, hx, rfl⟩

end Labels

section Labels2

variable {T I : Type}

theorem eq_empty_of_length_eq_zero (s : String) (h : s.length = 0) : s = "" := by
  cases s with
  | mk d =>
    have : d.length = 0 := h
    rw [List.length_eq_zero] at this
    subst this
    rfl

theorem Memory.mapTag_ne_empty (mapId : Int) : Memory.mapTag mapId ≠ "" := by
  intro h
  have hl : (Memory.mapTag mapId).length = 0 := by rw [h]; rfl
  unfold Memory.mapTag at hl
  rw [String.length_append] at hl
  have : ("map" : String).length = 3 := by decide
  omega

/-- What `getSignatureIdByLabel` answers for a label that is not empty, the
table holding one signature per id and no id 0: the id of a signature in
memory that carries the label, or, when no signature in memory carries it,
what the database answers if it is consulted and 0 otherwise. -/
theorem Memory.getSignatureIdByLabel_spec (e : Env T I) (m : Memory T I) (label : String)
    (look : Bool) (hi : TierInvariant m) (hne : label ≠ "") :
    (∃ c b, m._getSignature c = some b ∧ b.label = label ∧ c ≠ 0 ∧
        Memory.getSignatureIdByLabel e m label look = c) ∨
    ((∀ j b, m._getSignature j = some b → b.label ≠ label) ∧
      Memory.getSignatureIdByLabel e m label look =
        if e.hasDb = true ∧ look = true then e.getNodeIdByLabel label else 0) := by
  have hlen : (label.length != 0) = true := by
    rw [bne_iff_ne]
    exact fun h => hne (eq_empty_of_length_eq_zero label h)
  have hnd : (m.signatures.map Signature.id).Nodup := nodup_of_ascending hi.1.1
  unfold Memory.getSignatureIdByLabel
  rw [if_pos hlen]
  cases hf : m.signatures.find? (fun s => s.label == label) with
  | some s =>
    left
    have hmem : s ∈ m.signatures := List.mem_of_find?_eq_some hf
    have hlab : s.label = label := by
      have := List.find?_some hf
      simpa using this
    have hpos : 0 < s.id := hi.2.2 s.id (List.mem_map_of_mem _ hmem)
    refine ⟨s.id, s, kfind_of_mem_nodup Signature.id hnd hmem, hlab, by omega, ?_⟩
    simp only []
    have : (s.id == 0) = false := by
      rw [beq_eq_false_iff_ne]
      omega
    rw [this]
    rfl
  | none =>
    right
    constructor
    · intro j b hb hl
      have hmem : b ∈ m.signatures := kfind_mem Signature.id hb
      have := List.find?_eq_none.1 hf b hmem
      apply this
      simpa using hl
    · simp only [beq_self_eq_true, Bool.true_and, Bool.and_eq_true]

theorem Memory.getSignatureIdByLabel_empty (e : Env T I) (m : Memory T I) (look : Bool) :
    Memory.getSignatureIdByLabel e m "" look = 0 := by
  unfold Memory.getSignatureIdByLabel
  rw [if_neg (by decide)]

theorem Memory.getSignature_labelled (m : Memory T I) (id i : Int) (label : String)
    (x : Signature T I)
    (h : (m.modifySignature id (fun s => { s with label := label }))._getSignature i = some x) :
    ∃ a, m._getSignature i = some a ∧ x.label = if i = id then label else a.label := by
  rw [Memory.getSignature_modify m id i (fun s => { s with label := label }) (fun _ => rfl)] at h
  cases hm : m._getSignature i with
  | none =>
    rw [hm] at h
    cases h
  | some a =>
    rw [hm] at h
    simp only [Option.map_some', Option.some.injEq] at h
    refine ⟨a, rfl, ?_⟩
    rw [Memory.getSignature_id hm] at h
    rw [← h]
    split <;> rfl

/-- The labels stay pairwise distinct when a signature takes a label that no
other signature carries, or the empty label. -/
theorem LabelsDistinct.setLabel (m : Memory T I) (id : Int) (label : String)
    (hd : LabelsDistinct m)
    (hfree : label = "" ∨ ∀ j b, j ≠ id → m._getSignature j = some b → b.label ≠ label) :
    LabelsDistinct (m.modifySignature id (fun s => { s with label := label })) := by
  intro i j a' b' ha' hb' hne heq
  obtain ⟨a, ha, hla⟩ := Memory.getSignature_labelled m id i label a' ha'
  obtain ⟨b, hb, hlb⟩ := Memory.getSignature_labelled m id j label b' hb'
  by_cases hi : i = id
  · by_cases hj : j = id
    · rw [hi, hj]
    · rw [if_pos hi] at hla
      rw [if_neg hj] at hlb
      rcases hfree with hf | hf
      · exact absurd (hla.trans hf) hne
      · exact absurd (hlb.symm.trans (heq.symm.trans hla)) (hf j b hj hb)
  · by_cases hj : j = id
    · rw [if_neg hi] at hla
      rw [if_pos hj] at hlb
      rcases hfree with hf | hf
      · exact absurd (hla ▸ heq.trans (hlb.trans hf)) (by rw [← hla]; exact hne)
      · exact absurd (hla.symm.trans (heq.trans hlb)) (hf i a hi ha)
    · rw [if_neg hi] at hla
      rw [if_neg hj] at hlb
      exact hd i j a b ha hb (by rw [← hla]; exact hne) (by rw [← hla, ← hlb]; exact heq)

/-- The labels stay pairwise distinct under `labelSignature`. -/
theorem Memory.labelSignature_labelsDistinct (e : Env T I) (m : Memory T I) (id : Int)
    (label : String) (look : Bool) (hi : TierInvariant m) (hd : LabelsDistinct m) :
    LabelsDistinct (Memory.labelSignature e m id label look).2 := by
  unfold Memory.labelSignature
  split
  · rename_i hc
    cases hs : m._getSignature id with
    | none =>
      simp only []
      split
      · split
        · exact LabelsDistinct.of_within (LabelsWithin.of_getSignature (fun _ => rfl)) hd
        · exact hd
      · exact hd
    | some s =>
      simp only []
      apply LabelsDistinct.setLabel m id label hd
      by_cases hlab : label = ""
      · exact Or.inl hlab
      · right
        intro j b hj hb hl
        rcases Memory.getSignatureIdByLabel_spec e m label look hi hlab with
          ⟨c, b0, hb0, hl0, hc0, hfound⟩ | ⟨hnone, _⟩
        · rw [hfound] at hc
          simp only [Bool.or_eq_true, beq_iff_eq] at hc
          rcases hc with hc | hc
          · exact hc0 hc
          · rw [hc] at hb0
            exact hj (hd j id b b0 hb hb0 (by rw [hl]; exact hlab) (hl.trans hl0.symm))
        · exact hnone j b hb hl
  · exact hd

/-- The call `labelSignature(id, label)` with a label that a signature in
memory other than `id` carries: it returns false and changes nothing. -/
theorem Memory.labelSignature_taken (e : Env T I) (m : Memory T I) (id : Int)
    (label : String) (look : Bool) (hi : TierInvariant m) (hd : LabelsDistinct m)
    (hne : label ≠ "") (j : Int) (b : Signature T I) (hj : j ≠ id)
    (hb : m._getSignature j = some b) (hl : b.label = label) :
    Memory.labelSignature e m id label look = (false, m) := by
  unfold Memory.labelSignature
  rcases Memory.getSignatureIdByLabel_spec e m label look hi hne with
    ⟨c, b0, hb0, hl0, hc0, hfound⟩ | ⟨hnone, _⟩
  · have hcj : c = j :=
      hd c j b0 b hb0 hb (by rw [hl0]; exact hne) (hl0.trans hl.symm)
    rw [hfound, hcj]
    rw [if_neg]
    simp only [Bool.or_eq_true, beq_iff_eq, not_or]
    exact ⟨by rw [← hcj]; exact hc0, hj⟩
  · exact absurd hl (hnone j b hb)

/-- The call `labelSignature(id, label)` with a label that no signature in
memory carries and that the database, consulted, holds under another id: it
returns false and changes nothing. -/
theorem Memory.labelSignature_taken_in_database (e : Env T I) (m : Memory T I) (id : Int)
    (label : String) (hi : TierInvariant m) (hne : label ≠ "")
    (hfree : ∀ j b, m._getSignature j = some b → b.label ≠ label) (hdb : e.hasDb = true)
    (h0 : e.getNodeIdByLabel label ≠ 0) (hid : e.getNodeIdByLabel label ≠ id) :
    Memory.labelSignature e m id label true = (false, m) := by
  unfold Memory.labelSignature
  rcases Memory.getSignatureIdByLabel_spec e m label true hi hne with
    ⟨c, b0, hb0, hl0, _, _⟩ | ⟨_, hfound⟩
  · exact absurd hl0 (hfree c b0 hb0)
  · have hv : Memory.getSignatureIdByLabel e m label true = e.getNodeIdByLabel label := by
      rw [hfound]
      exact if_pos ⟨hdb, rfl⟩
    rw [hv, if_neg]
    simp only [Bool.or_eq_true, beq_iff_eq, not_or]
    exact ⟨h0, hid⟩

/-- The call `labelSignature(id, label)` with a free label on a signature in
memory: it returns true and sets the label. -/
theorem Memory.labelSignature_free (e : Env T I) (m : Memory T I) (id : Int)
    (label : String) (look : Bool) (s : Signature T I) (hi : TierInvariant m)
    (hfree : ∀ j b, m._getSignature j = some b → b.label ≠ label)
    (hdb : e.hasDb = true → look = true → e.getNodeIdByLabel label = 0)
    (hs : m._getSignature id = some s) :
    Memory.labelSignature e m id label look =
      (true, m.modifySignature id (fun s => { s with label := label })) := by
  have h0 : Memory.getSignatureIdByLabel e m label look = 0 := by
    by_cases hlab : label = ""
    · rw [hlab]
      exact Memory.getSignatureIdByLabel_empty e m look
    · rcases Memory.getSignatureIdByLabel_spec e m label look hi hlab with
        ⟨c, b0, hb0, hl0, _, _⟩ | ⟨_, hfound⟩
      · exact absurd hl0 (hfree c b0 hb0)
      · rw [hfound]
        split
        · rename_i hc
          exact hdb hc.1 hc.2
        · rfl
  unfold Memory.labelSignature
  rw [h0, hs]
  rfl

end Labels2

section Labels3

variable {T I : Type}

theorem Memory.tagFirstNode_label (e : Env T I) (m : Memory T I) (s : Signature T I) :
    (Memory.tagFirstNode e m s).label = s.label ∨
    ((Memory.tagFirstNode e m s).label = Memory.mapTag s.mapId ∧
      Memory.getSignatureIdByLabel e m (Memory.mapTag s.mapId) false = 0) := by
  unfold Memory.tagFirstNode
  split
  · rename_i h
    exact Or.inr ⟨rfl, by simpa using h⟩
  · exact Or.inl rfl

/-- The signature `addSignatureToStm` enters in the table: it carries the label
it came with, or the tag of its map when no signature in memory carries that
tag; the labels of the other signatures are not written. -/
theorem Memory.addSignatureToStm_entry_label (e : Env T I) (m m' : Memory T I)
    (s : Signature T I) (infMatrix : I)
    (h : Memory.addSignatureToStm e m s infMatrix = Except.ok m') :
    ∃ m1 s1, SameView Signature.label m m1 ∧ s1.id = s.id ∧
      (s1.label = s.label ∨ (s1.label = Memory.mapTag s.mapId ∧
        Memory.getSignatureIdByLabel e m (Memory.mapTag s.mapId) false = 0)) ∧
      m' = ((m1.setSignatures (kinsert Signature.id s1 m1.signatures)).setStMem
        (kinsert selfKey s1.id m1.stMem)).setSignaturesAdded (m1.signaturesAdded + 1) := by
  have hen : ∀ x : Signature T I,
      (if x.words.length != 0 then { x with enabled := true } else x).label = x.label := by
    intro x
    split <;> rfl
  unfold Memory.addSignatureToStm at h
  simp only [bind, Except.bind, pure, Except.pure] at h
  split at h
  · rename_i tailId htail
    split at h
    · exact Except.noConfusion h
    · rename_i tail _
      by_cases hmap : tail.mapId = s.mapId
      · rw [if_pos hmap] at h
        by_cases hmetric : (!e.geo.isNull s.pose && !e.geo.isNull tail.pose) = true
        · rw [if_pos hmetric] at h
          injection h with h
          refine ⟨_, _, ?_, ?_, ?_, h.symm⟩
          · exact sameView_modifySignature _ m tailId _ (fun _ => rfl) (fun _ => rfl)
          · split <;> rfl
          · left
            rw [hen]
            rfl
        · rw [if_neg hmetric] at h
          injection h with h
          refine ⟨_, _, ?_, ?_, ?_, h.symm⟩
          · exact sameView_modifySignature _ m tailId _ (fun _ => rfl) (fun _ => rfl)
          · split <;> rfl
          · left
            rw [hen]
            rfl
      · rw [if_neg hmap] at h
        injection h with h
        refine ⟨_, _, sameView_refl _ m, ?_, ?_, h.symm⟩
        · split <;> exact Memory.tagFirstNode_id e m s
        · rw [hen]
          exact Memory.tagFirstNode_label e m s
  · by_cases hl : e.mapLabelsAdded = true
    · rw [if_pos hl] at h
      injection h with h
      refine ⟨_, _, sameView_refl _ m, ?_, ?_, h.symm⟩
      · split <;> exact Memory.tagFirstNode_id e m s
      · rw [hen]
        exact Memory.tagFirstNode_label e m s
    · rw [if_neg hl] at h
      injection h with h
      refine ⟨_, _, sameView_refl _ m, ?_, ?_, h.symm⟩
      · split <;> rfl
      · left
        rw [hen]

/-- The labels stay pairwise distinct under `addSignatureToStm` of a signature
whose label is empty or carried by no signature in memory. -/
theorem Memory.addSignatureToStm_labelsDistinct (e : Env T I) (m m' : Memory T I)
    (s : Signature T I) (infMatrix : I)
    (h : Memory.addSignatureToStm e m s infMatrix = Except.ok m')
    (hi : TierInvariant m) (hd : LabelsDistinct m)
    (hs : ∀ j b, m._getSignature j = some b → b.label = s.label → s.label = "") :
    LabelsDistinct m' := by
  obtain ⟨m1, s1, hv, hid, hl, rfl⟩ := Memory.addSignatureToStm_entry_label e m _ s infMatrix h
  have hw : LabelsWithin m m1 := LabelsWithin.of_sameView_labels hv
  have hd1 : LabelsDistinct m1 := LabelsDistinct.of_within hw hd
  have hfree : ∀ j b, m1._getSignature j = some b → b.label = s1.label → s1.label = "" := by
    intro j b hb hlab
    by_cases hne : s1.label = ""
    · exact hne
    · exfalso
      obtain ⟨b0, hb0, hl0⟩ := hw j b hb (by rw [hlab]; exact hne)
      rcases hl with hl | ⟨hl, hz⟩
      · apply hne
        rw [hl]
        exact hs j b0 hb0 (by rw [hl0, hlab, hl])
      · rcases Memory.getSignatureIdByLabel_spec e m (Memory.mapTag s.mapId) false hi
          (Memory.mapTag_ne_empty _) with ⟨c, _, _, _, hc0, hfound⟩ | ⟨hnone, _⟩
        · exact hc0 (hfound.symm.trans hz)
        · exact hnone j b0 hb0 (by rw [hl0, hlab, hl])
  have hlook : ∀ i, (((m1.setSignatures (kinsert Signature.id s1 m1.signatures)).setStMem
        (kinsert selfKey s1.id m1.stMem)).setSignaturesAdded (m1.signaturesAdded + 1))._getSignature i
      = if khas Signature.id m1.signatures s1.id = true then m1._getSignature i
        else if i = s1.id then some s1 else m1._getSignature i := by
    intro i
    exact kfind_kinsert Signature.id
  by_cases hk : khas Signature.id m1.signatures s1.id = true
  · refine LabelsDistinct.of_within (LabelsWithin.of_getSignature ?_) hd1
    intro i
    rw [hlook i, if_pos hk]
  · intro i j a b ha hb hne heq
    rw [hlook i, if_neg hk] at ha
    rw [hlook j, if_neg hk] at hb
    by_cases hi1 : i = s1.id
    · by_cases hj1 : j = s1.id
      · rw [hi1, hj1]
      · rw [if_pos hi1] at ha
        rw [if_neg hj1] at hb
        injection ha with ha
        rw [← ha] at hne heq
        exact absurd (hfree j b hb heq.symm) hne
    · by_cases hj1 : j = s1.id
      · rw [if_neg hi1] at ha
        rw [if_pos hj1] at hb
        injection hb with hb
        rw [← hb] at heq
        exact absurd (hfree i a ha heq) (by rw [← heq]; exact hne)
      · rw [if_neg hi1] at ha
        rw [if_neg hj1] at hb
        exact hd1 i j a b ha hb hne heq

theorem Memory.getSignature_relabelled (m : Memory T I) (oldId newId i : Int) (label : String)
    (x : Signature T I)
    (h : ((m.modifySignature newId (fun s => { s with label := label })).modifySignature
      oldId (fun s => { s with label := "" }))._getSignature i = some x) :
    ∃ a, m._getSignature i = some a ∧
      x.label = if i = oldId then "" else if i = newId then label else a.label := by
  obtain ⟨a1, ha1, hl1⟩ := Memory.getSignature_labelled _ oldId i "" x h
  obtain ⟨a, ha, hl⟩ := Memory.getSignature_labelled m newId i label a1 ha1
  refine ⟨a, ha, ?_⟩
  rw [hl1, hl]

/-- The labels stay pairwise distinct when the label of one signature goes to
another one. -/
theorem LabelsDistinct.transfer (m : Memory T I) (oldId newId : Int) (o : Signature T I)
    (ho : m._getSignature oldId = some o) (hd : LabelsDistinct m) :
    LabelsDistinct ((m.modifySignature newId (fun s => { s with label := o.label })).modifySignature
      oldId (fun s => { s with label := "" })) := by
  intro i j a' b' ha' hb' hne heq
  obtain ⟨a, ha, hla⟩ := Memory.getSignature_relabelled m oldId newId i o.label a' ha'
  obtain ⟨b, hb, hlb⟩ := Memory.getSignature_relabelled m oldId newId j o.label b' hb'
  have hio : i ≠ oldId := by
    intro hh
    rw [if_pos hh] at hla
    exact hne hla
  have hjo : j ≠ oldId := by
    intro hh
    rw [if_pos hh] at hlb
    exact hne (heq.trans hlb)
  rw [if_neg hio] at hla
  rw [if_neg hjo] at hlb
  by_cases hi : i = newId
  · by_cases hj : j = newId
    · rw [hi, hj]
    · rw [if_pos hi] at hla
      rw [if_neg hj] at hlb
      exact absurd (hd oldId j o b ho hb (by rw [← hla]; exact hne)
        (hla.symm.trans (heq.trans hlb))) (fun hh => hjo hh.symm)
  · by_cases hj : j = newId
    · rw [if_neg hi] at hla
      rw [if_pos hj] at hlb
      exact absurd (hd i oldId a o ha ho (by rw [← hla]; exact hne)
        (hla.symm.trans (heq.trans hlb))) hio
    · rw [if_neg hi] at hla
      rw [if_neg hj] at hlb
      exact hd i j a b ha hb (by rw [← hla]; exact hne) (hla.symm.trans (heq.trans hlb))

theorem Memory.rehearsalMergeIntoNew_labelsDistinct (e : Env T I) (m m' : Memory T I)
    (oldId newId : Int) (l : Link T I)
    (h : Memory.rehearsalMergeIntoNew e m oldId newId l = Except.ok m')
    (hd : LabelsDistinct m) : LabelsDistinct m' := by
  unfold Memory.rehearsalMergeIntoNew at h
  obtain ⟨o, _, h⟩ := bind_eq_ok.1 h
  obtain ⟨m1, h1, h⟩ := bind_eq_ok.1 h
  obtain ⟨o1, ho1, h⟩ := bind_eq_ok.1 h
  obtain ⟨m2, h2, h⟩ := bind_eq_ok.1 h
  obtain ⟨n, _, h⟩ := bind_eq_ok.1 h
  obtain ⟨o2, _, h⟩ := bind_eq_ok.1 h
  injection h with h
  rw [← h]
  have hd1 : LabelsDistinct m1 :=
    LabelsDistinct.of_within
      (LabelsWithin.of_sameView_labels (sameView_label_rehearsalRedirect _ _ _ _ _ _ _ h1)) hd
  have hd3 := LabelsDistinct.transfer m1 oldId newId o1 (Memory.deref_eq_ok.1 ho1) hd1
  have hv2 := sameView_label_copyData _ _ _ _ _ h2
  have hv : SameView Signature.label
      ((m1.modifySignature newId (fun s => { s with label := o1.label })).modifySignature
        oldId (fun s => { s with label := "" }))
      (if (m2.setWeight newId (n.weight + 1 + o2.weight)).lastGlobalLoopClosureId == oldId then
        (m2.setWeight newId (n.weight + 1 + o2.weight)).setLastGlobalLoopClosureId newId
       else m2.setWeight newId (n.weight + 1 + o2.weight)) := by
    refine sameView_trans _ ?_ (sameView_ite _
      (sameView_trans _ (sameView_label_setWeight _ _ _) (sameView_of_signatures _ rfl))
      (sameView_label_setWeight _ _ _))
    refine sameView_trans _ ?_ hv2
    refine sameView_trans _
      (sameView_modifySignature _ _ oldId (fun s => s.removeLinks) (fun _ => rfl) (fun _ => rfl))
      (sameView_modifySignature _ _ oldId (fun s => s.addLink _) (fun _ => rfl) (fun _ => rfl))
  exact LabelsDistinct.of_within (LabelsWithin.of_sameView_labels hv) hd3

theorem Memory.rehearsalMergeIntoOld_sameLabels (e : Env T I) (m m' : Memory T I)
    (oldId newId : Int) (h : Memory.rehearsalMergeIntoOld e m oldId newId = Except.ok m') :
    SameView Signature.label m m' := by
  unfold Memory.rehearsalMergeIntoOld at h
  obtain ⟨n, _, h⟩ := bind_eq_ok.1 h
  obtain ⟨o, _, h⟩ := bind_eq_ok.1 h
  injection h with h
  rw [← h]
  refine sameView_trans _
    (sameView_modifySignature _ m newId (fun s => s.addLink
      { from_ := newId, to_ := oldId, type := LinkType.kGlobalClosure,
        transform := e.geo.null, info := e.geo.infoUnit, userDataCompressed := [] })
      (fun _ => rfl) (fun _ => rfl)) ?_
  refine sameView_ite _ ?_ ?_
  · exact sameView_trans _ (sameView_label_setWeight _ _ _) (sameView_of_signatures _ rfl)
  · exact sameView_label_setWeight _ _ _

theorem Memory.rehearsalFullMerge_labelsDistinct (e : Env T I) (m m' : Memory T I)
    (oldS newS : Signature T I) (oldId newId : Int)
    (h : Memory.rehearsalFullMerge e m oldS newS oldId newId = Except.ok m')
    (hd : LabelsDistinct m) : LabelsDistinct m' := by
  unfold Memory.rehearsalFullMerge at h
  obtain ⟨l, _, h⟩ := bind_eq_ok.1 h
  obtain ⟨m1, h1, h⟩ := bind_eq_ok.1 h
  have hd0 : LabelsDistinct ((m.modifySignature oldS.id
      (fun s => s.removeLink newId)).modifySignature newS.id (fun s => s.removeLink oldId)) := by
    refine LabelsDistinct.of_within (LabelsWithin.of_sameView_labels ?_) hd
    exact sameView_trans _
      (sameView_modifySignature _ m oldS.id (fun s => s.removeLink newId) (fun _ => rfl)
        (fun _ => rfl))
      (sameView_modifySignature _ _ newS.id (fun s => s.removeLink oldId) (fun _ => rfl)
        (fun _ => rfl))
  have hd1 : LabelsDistinct m1 := by
    split at h1
    · exact Memory.rehearsalMergeIntoNew_labelsDistinct _ _ _ _ _ _ h1 hd0
    · exact LabelsDistinct.of_within
        (LabelsWithin.of_sameView_labels (Memory.rehearsalMergeIntoOld_sameLabels _ _ _ _ _ h1)) hd0
  exact LabelsDistinct.of_within (Memory.moveToTrash_labelsWithin e m1 m' _ _ h) hd1

theorem sameView_label_rehearsalWeights (e : Env T I) (m : Memory T I)
    (oldS newS : Signature T I) (intermediateMerge : Bool) :
    SameView Signature.label m (Memory.rehearsalWeights e m oldS newS intermediateMerge) := by
  unfold Memory.rehearsalWeights
  split
  · simp only []
    refine sameView_ite _ ?_ ?_
    · exact sameView_trans _ (sameView_trans _ (sameView_label_setWeight m _ _)
        (sameView_label_setWeight _ _ _)) (sameView_of_signatures _ rfl)
    · exact sameView_trans _ (sameView_label_setWeight m _ _) (sameView_label_setWeight _ _ _)
  · exact sameView_trans _ (sameView_label_setWeight m _ _) (sameView_label_setWeight _ _ _)

/-- The labels stay pairwise distinct under `rehearsalMerge`. -/
theorem Memory.rehearsalMerge_labelsDistinct (e : Env T I) (m : Memory T I) (oldId newId : Int)
    (r : Bool × Memory T I) (h : Memory.rehearsalMerge e m oldId newId = Except.ok r)
    (hd : LabelsDistinct m) : LabelsDistinct r.2 := by
  unfold Memory.rehearsalMerge at h
  cases ho : m._getSignature oldId with
  | none =>
    rw [ho] at h
    injection h with h
    rw [← h]
    exact hd
  | some oldS =>
    cases hn : m._getSignature newId with
    | none =>
      rw [ho, hn] at h
      injection h with h
      rw [← h]
      exact hd
    | some newS =>
      rw [ho, hn] at h
      simp only [] at h
      split at h
      · injection h with h
        rw [← h]
        exact hd
      · split at h
        · injection h with h
          rw [← h]
          exact hd
        · obtain ⟨_, _, h⟩ := bind_eq_ok.1 h
          obtain ⟨first, _, h⟩ := bind_eq_ok.1 h
          split at h
          · injection h with h
            rw [← h]
            exact hd
          · split at h
            · obtain ⟨m1, h1, h⟩ := bind_eq_ok.1 h
              injection h with h
              rw [← h]
              exact Memory.rehearsalFullMerge_labelsDistinct e m m1 oldS newS oldId newId h1 hd
            · injection h with h
              rw [← h]
              exact LabelsDistinct.of_within
                (LabelsWithin.of_sameView_labels (sameView_label_rehearsalWeights _ _ _ _ _)) hd

end Labels3

section Labels4

variable {T I : Type}

theorem labelsUnique_of_unlabelled (e : Env T I) (m : Memory T I)
    (h : ∀ a ∈ m.signatures, a.label = "") : LabelsUnique e m := by
  constructor
  · intro i j a b ha _ hne _
    exact absurd (h a (kfind_mem Signature.id ha)) hne
  · intro i a ha hne _
    exact absurd (h a (kfind_mem Signature.id ha)) hne

end Labels4

/-- Counterexample to C21: `addSignatureToStm` looks for the tag of a new map
among the signatures in memory only (`getSignatureIdByLabel(tag, false)`). The
database of `labelEnv` holds a node 7 labelled "map1" that is not in memory;
the memory holds the unlabelled nodes 1 and 2 of map 0 in the STM. The first
node of map 1, node 3, is tagged "map1", so the label is carried twice across
the memory and the database. -/
theorem addSignatureToStm_tags_label_of_database :
    LabelsUnique labelEnv (stmPairMemory 0 0) ∧
    Memory.getSignatureIdByLabel labelEnv (stmPairMemory 0 0) "map1" true = 7 ∧
    (stmPairMemory 0 0)._getSignature 7 = none ∧
    ∃ m', Memory.addSignatureToStm labelEnv (stmPairMemory 0 0)
        { lineSignature 3 0 (some 6) [] with mapId := 1 } () = Except.ok m' ∧
      (m'._getSignature 3).map Signature.label = some "map1" ∧
      ¬ LabelsUnique labelEnv m' :=
  ⟨labelsUnique_of_unlabelled labelEnv (stmPairMemory 0 0) (by
      intro a ha
      have hs : (stmPairMemory 0 0).signatures =
        [lineSignature 1 0 (some 0) [lineLink 1 2 LinkType.kNeighbor (some 3)],
         lineSignature 2 0 (some 3) [lineLink 2 1 LinkType.kNeighbor (some (-3))]] := rfl
      rw [hs] at ha
      rcases List.mem_cons.1 ha with h | h
      · rw [h]
        rfl
      · rw [List.mem_singleton.1 h]
        rfl),
    rfl, rfl, _, rfl, rfl, fun h => by
      have h3 := h.2 3 _ rfl (by decide) rfl
      rcases h3 with h3 | h3
      · exact absurd h3 (by decide)
      · exact absurd h3 (by decide)⟩

/-- Claim C21, amended: uniqueness of the non-empty labels among the signatures
in memory is an invariant. In a memory whose containers are sorted, whose tiers
are consistent and whose ids are positive (`TierInvariant`), if the non-empty
labels are pairwise distinct across the signatures in memory
(`LabelsDistinct`), they remain so after `labelSignature`, after every
`addSignatureToStm` that returns, for a signature whose own label is empty or
carried by no signature in memory (automatic "map<N>" tagging), and after
every `rehearsalMerge` that returns (label transfer). In particular
`labelSignature(id, label)` returns false and changes nothing when a signature
in memory other than `id` carries the non-empty label, or when no signature in
memory carries it and the database, consulted, holds it under an id other than
0 and `id`; it returns true and sets the label when no signature in memory
carries the label, the database, if it is consulted, does not hold it, and
`id` is in memory. -/
theorem label_uniqueness_in_memory {T I : Type} (e : Env T I) (m : Memory T I)
    (hi : TierInvariant m) (hd : LabelsDistinct m) :
    (∀ id label lookInDatabase,
      LabelsDistinct (Memory.labelSignature e m id label lookInDatabase).2) ∧
    (∀ s infMatrix m',
      (∀ j b, m._getSignature j = some b → b.label = s.label → s.label = "") →
      Memory.addSignatureToStm e m s infMatrix = Except.ok m' → LabelsDistinct m') ∧
    (∀ oldId newId r, Memory.rehearsalMerge e m oldId newId = Except.ok r →
      LabelsDistinct r.2) ∧
    (∀ id label lookInDatabase j b, label ≠ "" → j ≠ id → m._getSignature j = some b →
      b.label = label → Memory.labelSignature e m id label lookInDatabase = (false, m)) ∧
    (∀ id label, label ≠ "" → (∀ j b, m._getSignature j = some b → b.label ≠ label) →
      e.hasDb = true → e.getNodeIdByLabel label ≠ 0 → e.getNodeIdByLabel label ≠ id →
      Memory.labelSignature e m id label true = (false, m)) ∧
    (∀ id label lookInDatabase s, (∀ j b, m._getSignature j = some b → b.label ≠ label) →
      (e.hasDb = true → lookInDatabase = true → e.getNodeIdByLabel label = 0) →
      m._getSignature id = some s →
      Memory.labelSignature e m id label lookInDatabase =
        (true, m.modifySignature id (fun s => { s with label := label })) ∧
      ((m.modifySignature id (fun s => { s with label := label }))._getSignature id).map
        Signature.label = some label) := by
  refine ⟨?_, ?_, ?_, ?_, ?_, ?_⟩
  · intro id label look
    exact Memory.labelSignature_labelsDistinct e m id label look hi hd
  · intro s infMatrix m' hs h
    exact Memory.addSignatureToStm_labelsDistinct e m m' s infMatrix h hi hd hs
  · intro oldId newId r h
    exact Memory.rehearsalMerge_labelsDistinct e m oldId newId r h hd
  · intro id label look j b hne hj hb hl
    exact Memory.labelSignature_taken e m id label look hi hd hne j b hj hb hl
  · intro id label hne hfree hdb h0 hid
    exact Memory.labelSignature_taken_in_database e m id label hi hne hfree hdb h0 hid
  · intro id label look s hfree hdb hs
    refine ⟨Memory.labelSignature_free e m id label look s hi hfree hdb hs, ?_⟩
    rw [Memory.getSignature_modify_self m id (fun s => { s with label := label })
      (fun _ => rfl), hs]
    rfl

/-- Witness of C21: the memory with the unlabelled nodes 1 and 2 in the working
memory is under the hypotheses; `labelSignature(1, "home")` returns true on it
and leaves a memory in which node 1 carries the label and the labels are
pairwise distinct. -/
theorem label_uniqueness_in_memory_witness :
    TierInvariant (twoNodeMemory 0 0) ∧ LabelsDistinct (twoNodeMemory 0 0) ∧
    Memory.labelSignature (lineEnv true false 2) (twoNodeMemory 0 0) 1 "home" true =
      (true, (twoNodeMemory 0 0).modifySignature 1 (fun s => { s with label := "home" })) ∧
    (((twoNodeMemory 0 0).modifySignature 1 (fun s => { s with label := "home" }))._getSignature
      1).map Signature.label = some "home" ∧
    LabelsDistinct
      (Memory.labelSignature (lineEnv true false 2) (twoNodeMemory 0 0) 1 "home" true).2 :=
  have hu : ∀ a ∈ (twoNodeMemory 0 0).signatures, a.label = "" := by
    intro a ha
    have hs : (twoNodeMemory 0 0).signatures =
      [lineSignature 1 0 (some 0) [], lineSignature 2 0 (some 1) []] := rfl
    rw [hs] at ha
    rcases List.mem_cons.1 ha with h | h
    · rw [h]
      rfl
    · rw [List.mem_singleton.1 h]
      rfl
  have hi : TierInvariant (twoNodeMemory 0 0) := tierInvariant_twoNodeMemory 0 0
  have hd : LabelsDistinct (twoNodeMemory 0 0) :=
    (labelsUnique_of_unlabelled (lineEnv true false 2) _ hu).1
  have hw := (label_uniqueness_in_memory (lineEnv true false 2) (twoNodeMemory 0 0) hi
    hd).2.2.2.2.2 1 "home" true (lineSignature 1 0 (some 0) [])
    (fun j b hb hl => by
      have := hu b (kfind_mem Signature.id hb)
      rw [this] at hl
      exact absurd hl (by decide))
    (fun h => Bool.noConfusion h) rfl
  ⟨hi, hd, hw.1, hw.2,
    (label_uniqueness_in_memory (lineEnv true false 2) (twoNodeMemory 0 0) hi hd).1 1 "home"
      true⟩

/-! ## The tag of the first node of a map -/

section OtherMap

variable {T I : Type}

end OtherMap
section SelfMerge

variable {T I : Type}

end SelfMerge

section WeightView

variable {T I : Type}

end WeightView
section SurvivorWeight

variable {T I : Type}

end SurvivorWeight
end Rtabmap
